import Mathlib

/-!
# Grid pathfinding: board model and search algorithms

A shallow embedding of `source/PathFinding/Board.hpp` and of the four search
algorithms of `source/PathFinding/Algorithms/` (A*, Best-First, Breadth-First,
Depth-First), together with theorems about them.

Modelling conventions.

* `Coordinate` is `std::pair<int, int>`; the components are `Int`. Every
  arithmetic the board does on a coordinate is `± 1` on a component of an
  in-bounds position, which cannot leave the range of `int`.
* A node pointer (`T*`, `NodeBase*`) is the index of the node in the board's
  `m_nodes`; the null pointer is `none`. Nodes are never moved or freed while the
  board lives, so an index identifies a node exactly as its address does.
* `Board<T>` is instantiated at three node types. A node is the four `NodeBase`
  fields plus the fields `ext` the derived struct adds (`AStar.Ext`,
  `BestFirstSearch.Ext`, or `Unit` for the two uninformed searches). The virtual
  calls `T::init` / `T::reset` are a function argument of `Board.init` /
  `Board.reset`.
* `m_nodes` is a total function on coordinates. Every read and every write of
  the source is guarded by `isValidNode`, so the values at out-of-bounds
  coordinates are never observed.
* `double` values are an abstract type `α` with the operations the algorithms
  use (`Env`); `std::sort` is a field of `Env` as well. The theorems hold for
  every interpretation of them. The one exception is `getSolutionDistance`, whose
  additions are exact: there a `double` is the rational number it holds.
* Float literals with an integer value (`0.f`, `1.f`, `111.f`) are `ofInt` of that value.
* The counters `nodesOpened` / `nodesClosed` (`unsigned long`) are `Nat`.
* `storeSolution` walks `parent` pointers in a `while` loop; the model takes a
  fuel bound on the number of iterations and returns `none` when it is
  exhausted. A null-pointer dereference is `none` too.
-/

namespace PathFinding

/-! ## Board.hpp -/

/-- Grid coordinate: `typedef std::pair<int, int> Coordinate`. -/
abbrev Coordinate := Int × Int

/-- Node of the grid: the fields of `NodeBase` and the fields `ext` added by the derived
node struct of an algorithm. -/
structure Node (E : Type) where
  /-- The previous node from which the path reaches this node (index of that node). -/
  parent : Option Coordinate := none
  /-- Position of the node. -/
  position : Coordinate := (0, 0)
  /-- Whether the node is an obstacle. -/
  obstacle : Bool := false
  /-- Whether the node has been stored to be evaluated. -/
  opened : Bool := false
  /-- Fields of the derived node struct. -/
  ext : E

namespace NodeBase

/-- Body of `NodeBase::init`. -/
def init {E : Type} (n : Node E) : Node E :=
  { n with parent := none, opened := false }

/-- Body of `NodeBase::reset`, where `init` is the (virtual) `init` of the node type. -/
def reset {E : Type} (init : Node E → Node E) (n : Node E) : Node E :=
  { init n with obstacle := false }

end NodeBase

/-- Board of nodes: `Board<T>`. -/
structure Board (E : Type) where
  /-- Collection of all nodes of the board, indexed by coordinate. -/
  m_nodes : Coordinate → Node E
  m_size : Coordinate
  m_start : Coordinate
  m_goal : Coordinate

namespace Board

variable {E : Type}

/-- Constructor `Board(size, start, goal)`: every node is `new T()` (with `ext0` the
default value of the derived fields) and gets its position. -/
def create (size start goal : Coordinate) (ext0 : E) : Board E :=
  { m_nodes := fun c => { position := c, ext := ext0 }
    m_size := size
    m_start := start
    m_goal := goal }

/-- Checks if the position is within the limits of the board. -/
def isValidNode (b : Board E) (c : Coordinate) : Bool :=
  decide (c.1 ≥ 0) && decide (c.1 < b.m_size.1) && decide (c.2 ≥ 0) && decide (c.2 < b.m_size.2)

/-- Number of nodes the board owns. -/
def nodeCount (b : Board E) : Nat :=
  b.m_size.1.toNat * b.m_size.2.toNat

/-- Call `init` on every node of the board. -/
def init (nodeInit : Node E → Node E) (b : Board E) : Board E :=
  { b with m_nodes := fun c => if b.isValidNode c then nodeInit (b.m_nodes c) else b.m_nodes c }

/-- Call `reset` on every node of the board. -/
def reset (nodeReset : Node E → Node E) (b : Board E) : Board E :=
  { b with m_nodes := fun c => if b.isValidNode c then nodeReset (b.m_nodes c) else b.m_nodes c }

/-- The `operator[](const Coordinate&)`: pointer to the node at `c`, null when out of bounds. -/
def get (b : Board E) (c : Coordinate) : Option Coordinate :=
  if b.isValidNode c then some c else none

def getSize (b : Board E) : Coordinate := b.m_size

def getStart (b : Board E) : Coordinate := b.m_start

def getStartNode (b : Board E) : Option Coordinate :=
  if b.isValidNode b.m_start then some b.m_start else none

def getGoal (b : Board E) : Coordinate := b.m_goal

def getGoalNode (b : Board E) : Option Coordinate :=
  if b.isValidNode b.m_goal then some b.m_goal else none

/-- Checks if the position is an obstacle. -/
def isObstacle (b : Board E) (c : Coordinate) : Bool :=
  b.isValidNode c && (b.m_nodes c).obstacle

/-- Store `n` into the node the pointer `node` refers to (a write through a `T*`). -/
def write (b : Board E) (node : Coordinate) (n : Node E) : Board E :=
  { b with m_nodes := Function.update b.m_nodes node n }

/-- Sets the node at the coordinate given as an obstacle or not. -/
def setObstacle (b : Board E) (c : Coordinate) (obstacle : Bool) : Board E :=
  if b.isValidNode c && c != b.m_start && c != b.m_goal then
    b.write c { b.m_nodes c with obstacle := obstacle }
  else b

/-- Checks if the coordinates are not on the same x nor y axis. -/
def isDiagonal (c1 c2 : Coordinate) : Bool :=
  c1.1 != c2.1 && c1.2 != c2.2

/-- Checks if the position `to_` is accessible from `from_`, taking into account if corners
can be cut. -/
def isAccessible (b : Board E) (from_ to_ : Coordinate) (cutCorners : Bool) : Bool :=
  if !b.isValidNode to_ || !b.isValidNode from_ || (b.m_nodes to_).obstacle then false
  else if !isDiagonal from_ to_ then true
  else
    let contiguous1 := !(b.m_nodes (from_.1, to_.2)).obstacle
    let contiguous2 := !(b.m_nodes (to_.1, from_.2)).obstacle
    (contiguous1 && contiguous2) || (cutCorners && (contiguous1 || contiguous2))

/-- Appends the node at `toPosition` to `neighbors` when it is accessible from the node
`from_`. -/
def addIfAccessible (b : Board E) (from_ : Coordinate) (toPosition : Coordinate)
    (neighbors : List Coordinate) (cutCorners : Bool) : List Coordinate :=
  if b.isValidNode toPosition && b.isAccessible (b.m_nodes from_).position toPosition cutCorners then
    neighbors ++ [toPosition]
  else neighbors

/-- Neighbors of the node in the order North, East, South, West. -/
def getNeighborsWithoutDiagonals (b : Board E) (node : Coordinate)
    (neighbors : List Coordinate) : List Coordinate :=
  let first := (b.m_nodes node).position.1
  let second := (b.m_nodes node).position.2
  let neighbors := b.addIfAccessible node (first, second - 1) neighbors true
  let neighbors := b.addIfAccessible node (first + 1, second) neighbors true
  let neighbors := b.addIfAccessible node (first, second + 1) neighbors true
  b.addIfAccessible node (first - 1, second) neighbors true

/-- Neighbors of the node, diagonals included, in the order North, East, South, West,
North West, North East, South East, South West. -/
def getNeighborsWithDiagonals (b : Board E) (node : Coordinate)
    (neighbors : List Coordinate) (cutCorners : Bool) : List Coordinate :=
  let neighbors := b.getNeighborsWithoutDiagonals node neighbors
  let first := (b.m_nodes node).position.1
  let second := (b.m_nodes node).position.2
  let neighbors := b.addIfAccessible node (first - 1, second - 1) neighbors cutCorners
  let neighbors := b.addIfAccessible node (first + 1, second - 1) neighbors cutCorners
  let neighbors := b.addIfAccessible node (first + 1, second + 1) neighbors cutCorners
  b.addIfAccessible node (first - 1, second + 1) neighbors cutCorners

/-- Adds the accessible neighbors of the node to the collection given. -/
def getNeighbors (b : Board E) (node : Coordinate) (neighbors : List Coordinate)
    (diagonals cutCorners : Bool) : List Coordinate :=
  if !diagonals then b.getNeighborsWithoutDiagonals node neighbors
  else b.getNeighborsWithDiagonals node neighbors cutCorners

/-- Class invariant of the board: the node stored at an in-bounds index carries that index
as its position (established by the constructor, `position` is never written again). -/
def WellFormed (b : Board E) : Prop :=
  ∀ c, b.isValidNode c = true → (b.m_nodes c).position = c

end Board

/-! ## Algorithms/AlgorithmBase.hpp -/

/-- Heuristic to calculate the distance between nodes. -/
inductive Heuristic where
  | Manhattan
  | Diagonal
  | Euclidean
  | Chebyshev
deriving DecidableEq, Repr

/-- Interpretation of the `double` arithmetic and of `std::sort` used by the algorithms.
`ofInt` is the conversion `int → double`, `maxValue` is
`std::numeric_limits<double>::max()`, `add`, `lt`, `le`, `eq` are `+`, `<`, `<=`, `==` on
`double`, the two distances are the bodies of `diagonalDistance` and `euclideanDistance`
(which use `float` constants, `std::sqrt` and `std::pow`), and `sort cmp l` is the result
of `std::sort(l.begin(), l.end(), cmp)`. -/
structure Env (α : Type) where
  ofInt : Int → α
  maxValue : α
  add : α → α → α
  lt : α → α → Bool
  le : α → α → Bool
  eq : α → α → Bool
  diagonalDistance : Coordinate → Coordinate → α
  euclideanDistance : Coordinate → Coordinate → α
  sort : (Coordinate → Coordinate → Bool) → List Coordinate → List Coordinate

/-- What the theorems assume of `std::sort`: its result is a rearrangement of its input. -/
def Env.SortPermutes {α : Type} (A : Env α) : Prop :=
  ∀ (cmp : Coordinate → Coordinate → Bool) (l : List Coordinate), (A.sort cmp l).Perm l

/-- An algorithm instance: the fields of `AlgorithmBase` (`name` apart) and the two fields
every derived class declares, its frontier `m_openNodes` and its board `m_board`. The
frontier is a `std::vector` (A*, Best-First), a `std::queue` (Breadth-First) or a
`std::stack` (Depth-First); in each case the list holds it from the oldest pushed element
to the newest, so `push_back` / `push` append at the end, `back` / `top` read the last
element and `front` reads the first. -/
structure Algorithm (E : Type) where
  /-- Collection of solution coordinates. -/
  solution : List Coordinate := []
  /-- Number of nodes opened. -/
  nodesOpened : Nat := 0
  /-- Number of nodes closed. -/
  nodesClosed : Nat := 0
  m_heuristic : Heuristic := Heuristic.Manhattan
  m_diagonals : Bool := true
  m_cutCorners : Bool := true
  /-- Collection of nodes yet to be evaluated. -/
  m_openNodes : List Coordinate := []
  m_board : Board E

namespace AlgorithmBase

variable {E : Type} {α : Type}

/-- Body of `AlgorithmBase::init`. -/
def init (s : Algorithm E) (heuristic : Heuristic) (diagonals cutCorners : Bool) : Algorithm E :=
  { s with
    m_heuristic := heuristic
    m_diagonals := diagonals
    m_cutCorners := cutCorners
    nodesOpened := 0
    solution := [] }

/-- Body of `AlgorithmBase::reset`. -/
def reset (s : Algorithm E) : Algorithm E :=
  { s with nodesOpened := 0, solution := [] }

def getGoal (s : Algorithm E) : Coordinate := s.m_board.getGoal

def getStart (s : Algorithm E) : Coordinate := s.m_board.getStart

def getGoalNode (s : Algorithm E) : Option Coordinate := s.m_board.getGoalNode

def isObstacle (s : Algorithm E) (c : Coordinate) : Bool := s.m_board.isObstacle c

def setObstacle (s : Algorithm E) (c : Coordinate) (obstacle : Bool) : Algorithm E :=
  { s with m_board := s.m_board.setObstacle c obstacle }

/-- The loop `while (node) { solution.push_back(node->position); node = node->parent; }`
of `storeSolution`, run for at most `fuel` iterations. -/
def storeSolutionLoop (b : Board E) : Nat → Option Coordinate → List Coordinate →
    Option (List Coordinate)
  | _, none, solution => some solution
  | 0, some _, _ => none
  | fuel + 1, some node, solution =>
    storeSolutionLoop b fuel (b.m_nodes node).parent (solution ++ [(b.m_nodes node).position])

/-- Stores the solution: starts on the goal and goes back by parents. -/
def storeSolution (fuel : Nat) (s : Algorithm E) : Option (Algorithm E) :=
  match storeSolutionLoop s.m_board fuel (getGoalNode s) s.solution with
  | none => none
  | some solution => some { s with solution := solution }

/-- Checks if the given coordinate is the goal; if so, the solution is stored. -/
def checkGoal (fuel : Nat) (s : Algorithm E) (c : Coordinate) : Option (Bool × Algorithm E) :=
  if c == getGoal s then
    match storeSolution fuel s with
    | none => none
    | some s => some (true, s)
  else some (false, s)

/-- Opens a node: body of `AlgorithmBase::openNode`. -/
def openNode (s : Algorithm E) (node : Coordinate) (parent : Option Coordinate) : Algorithm E :=
  { s with
    nodesOpened := s.nodesOpened + 1
    m_board := s.m_board.write node { s.m_board.m_nodes node with parent := parent, opened := true } }

/-- Checks if the coordinates are diagonally connected or not. -/
def isDiagonal (c1 c2 : Coordinate) : Bool :=
  c1.1 != c2.1 && c1.2 != c2.2

/-- Body of `AlgorithmBase::manhattanDistance`: `abs(dx) + abs(dy)` converted to `double`.
The source computes the differences, the absolute values and the sum in 32-bit `int`; here
the integers are unbounded, which is the same value as long as the two coordinates are less
than `2^31` apart (`Int32Arith.manhattanDistance` is the 32-bit computation). -/
def manhattanDistance (A : Env α) (from_ to_ : Coordinate) : α :=
  A.ofInt (|from_.1 - to_.1| + |from_.2 - to_.2|)

/-- Body of `AlgorithmBase::chebyshevDistance`, which is the body of `manhattanDistance`;
the integers are unbounded here as they are there (`Int32Arith.chebyshevDistance` is the
32-bit computation). -/
def chebyshevDistance (A : Env α) (from_ to_ : Coordinate) : α :=
  A.ofInt (|from_.1 - to_.1| + |from_.2 - to_.2|)

/-- Distance between the two given coordinates with the heuristic given. -/
def distance (A : Env α) (heuristic : Heuristic) (from_ to_ : Coordinate) : α :=
  match heuristic with
  | Heuristic.Manhattan => manhattanDistance A from_ to_
  | Heuristic.Diagonal => A.diagonalDistance from_ to_
  | Heuristic.Euclidean => A.euclideanDistance from_ to_
  | Heuristic.Chebyshev => chebyshevDistance A from_ to_

/-- The value of the literal `1.414f`: the `float` nearest to 1.414, which is
`11861492 / 2^23 = 1.41400003433227539...`. -/
def float1414 : ℚ := 11861492 / 8388608

/-- Body of `getSolutionDistance`. The variable `distance` is a `double` that starts at `0.f`
and to which `1.f` or `1.414f` is added once per iteration; every value it takes is a multiple
of `2^-23`, and as long as the solution has fewer than `2^29` coordinates each of the
additions is exact. The `double` is therefore represented by its value, a rational number.
`solution[i]` is `getD i`, the index being in range; the guard `solution.size()` keeps
`solution.size() - 1` from wrapping around. -/
def getSolutionDistance (s : Algorithm E) : ℚ :=
  if s.solution.length ≠ 0 then
    (List.range (s.solution.length - 1)).foldl
      (fun distance i =>
        distance + (if isDiagonal (s.solution.getD i (0, 0)) (s.solution.getD (i + 1) (0, 0))
          then float1414 else 1))
      0
  else 0

/-- Runs the algorithm until completion: `while(!nextStep());`, for at most `n` calls of the
(virtual) `nextStep`. The result is `none` when a call does not return or when `n` calls
have all returned false. -/
def complete {S : Type} (nextStep : S → Option (Bool × S)) : Nat → S → Option S
  | 0, _ => none
  | n + 1, s =>
    match nextStep s with
    | none => none
    | some (true, s) => some s
    | some (false, s) => complete nextStep n s

/-- State after `n` successive calls of `nextStep` that all returned true. -/
def stepsTrue {S : Type} (nextStep : S → Option (Bool × S)) : Nat → S → Option S
  | 0, s => some s
  | n + 1, s =>
    match nextStep s with
    | some (true, s) => stepsTrue nextStep n s
    | _ => none

/-- State after `n` successive calls of `nextStep` that all returned false. -/
def stepsFalse {S : Type} (nextStep : S → Option (Bool × S)) : Nat → S → Option S
  | 0, s => some s
  | n + 1, s =>
    match nextStep s with
    | some (false, s) => stepsFalse nextStep n s
    | _ => none

end AlgorithmBase

/-! ## Algorithms/AStar.hpp -/

namespace AStar

open AlgorithmBase

variable {α : Type}

/-- Fields `AStar::Node` adds to `NodeBase`. -/
structure Ext (α : Type) where
  /-- Whether the node has been evaluated or not. -/
  closed : Bool
  h : α
  g : α

abbrev State (α : Type) := Algorithm (Ext α)

/-- Body of `AStar::Node::init`. -/
def Node.init (A : Env α) (n : Node (Ext α)) : Node (Ext α) :=
  let n := NodeBase.init n
  { n with opened := false, ext := { n.ext with h := A.maxValue, g := A.ofInt 0 } }

/-- Body of `AStar::Node::reset`. -/
def Node.reset (A : Env α) (n : Node (Ext α)) : Node (Ext α) :=
  let n := NodeBase.reset (Node.init A) n
  { n with opened := false, ext := { n.ext with h := A.maxValue, g := A.ofInt 0 } }

/-- Constructor `AStar(size, start, goal)`. -/
def create (A : Env α) (size start goal : Coordinate) : State α :=
  { m_board := Board.create size start goal { closed := false, h := A.maxValue, g := A.ofInt 0 } }

def openNode (s : State α) (node : Coordinate) (parent : Option Coordinate) : State α :=
  let s := AlgorithmBase.openNode s node parent
  { s with m_openNodes := s.m_openNodes ++ [node] }

/-- Body of `AStar::init`; `none` when `getStartNode()` is null. -/
def init (A : Env α) (s : State α) (heuristic : Heuristic) (diagonals cutCorners : Bool) :
    Option (State α) :=
  let s := AlgorithmBase.init s heuristic diagonals cutCorners
  let s := { s with m_openNodes := [] }
  let s := { s with m_board := s.m_board.init (Node.init A) }
  match s.m_board.getStartNode with
  | none => none
  | some start => some (openNode s start none)

def reset (A : Env α) (s : State α) : State α :=
  let s := AlgorithmBase.reset s
  let s := { s with m_openNodes := [] }
  { s with m_board := s.m_board.reset (Node.reset A) }

/-- Body of `AStar::getValue1`, `m_board.isValidNode(c) ? m_board[c]->h : 0.f`; `none` when
`m_board[c]` is null. -/
def getValue1 (A : Env α) (s : State α) (c : Coordinate) : Option α :=
  if s.m_board.isValidNode c then
    match s.m_board.get c with
    | some n => some (s.m_board.m_nodes n).ext.h
    | none => none
  else some (A.ofInt 0)

/-- Body of `AStar::getValue2`, `m_board.isValidNode(c) ? m_board[c]->g : 0.f`. -/
def getValue2 (A : Env α) (s : State α) (c : Coordinate) : Option α :=
  if s.m_board.isValidNode c then
    match s.m_board.get c with
    | some n => some (s.m_board.m_nodes n).ext.g
    | none => none
  else some (A.ofInt 0)

/-- The comparator of `sortNodes`. -/
def compare (A : Env α) (b : Board (Ext α)) (node1 node2 : Coordinate) : Bool :=
  let n1 := (b.m_nodes node1).ext
  let n2 := (b.m_nodes node2).ext
  if A.eq (A.add n1.h n1.g) (A.add n2.h n2.g) then A.lt n2.h n1.h
  else A.lt (A.add n2.h n2.g) (A.add n1.h n1.g)

def sortNodes (A : Env α) (s : State α) : State α :=
  { s with m_openNodes := A.sort (compare A s.m_board) s.m_openNodes }

def updateNode (A : Env α) (s : State α) (neighbor parent : Coordinate) : State α :=
  let nb := s.m_board.m_nodes neighbor
  let pn := s.m_board.m_nodes parent
  let h := distance A s.m_heuristic nb.position s.m_board.getGoal
  let g := A.add pn.ext.g (distance A s.m_heuristic pn.position nb.position)
  if A.lt (A.add h g) (A.add nb.ext.h nb.ext.g) then
    let nb := { nb with parent := some parent, ext := { nb.ext with h := h, g := g } }
    { s with m_board := s.m_board.write neighbor nb }
  else s

/-- Body of `AStar::closeNode`; `none` when the frontier is empty (`back()` of an empty
vector). -/
def closeNode (s : State α) : Option (Coordinate × State α) :=
  match s.m_openNodes.getLast? with
  | none => none
  | some node =>
    let n := s.m_board.m_nodes node
    some (node,
      { s with
        nodesClosed := s.nodesClosed + 1
        m_openNodes := s.m_openNodes.dropLast
        m_board := s.m_board.write node { n with ext := { n.ext with closed := true } } })

/-- The loop `for (auto* neighbor : neighbors)` of `AStar::nextStep`; the boolean is true
when the loop left the function through `return true`. -/
def nextStepLoop (A : Env α) (fuel : Nat) (node : Coordinate) :
    List Coordinate → State α → Option (Bool × State α)
  | [], s => some (false, s)
  | neighbor :: rest, s =>
    if (s.m_board.m_nodes neighbor).ext.closed then nextStepLoop A fuel node rest s
    else
      let s := updateNode A s neighbor node
      if (s.m_board.m_nodes neighbor).opened then nextStepLoop A fuel node rest s
      else
        let s := openNode s neighbor (some node)
        match checkGoal fuel s (s.m_board.m_nodes neighbor).position with
        | none => none
        | some (true, s) => some (true, s)
        | some (false, s) => nextStepLoop A fuel node rest s

/-- Body of `AStar::nextStep`. -/
def nextStep (A : Env α) (fuel : Nat) (s : State α) : Option (Bool × State α) :=
  if s.m_openNodes.length = 0 then some (true, s)
  else
    let s := sortNodes A s
    match closeNode s with
    | none => none
    | some (node, s) =>
      match checkGoal fuel s (s.m_board.m_nodes node).position with
      | none => none
      | some (true, s) => some (true, s)
      | some (false, s) =>
        let neighbors := s.m_board.getNeighbors node [] s.m_diagonals s.m_cutCorners
        nextStepLoop A fuel node neighbors s

end AStar

/-! ## Algorithms/BestFirstSearch.hpp -/

namespace BestFirstSearch

open AlgorithmBase

variable {α : Type}

/-- Fields `BestFirstSearch::Node` adds to `NodeBase`. -/
structure Ext (α : Type) where
  h : α

abbrev State (α : Type) := Algorithm (Ext α)

/-- Body of `BestFirstSearch::Node::init`. -/
def Node.init (A : Env α) (n : Node (Ext α)) : Node (Ext α) :=
  let n := NodeBase.init n
  { n with ext := { n.ext with h := A.maxValue } }

/-- Body of `BestFirstSearch::Node::reset`. -/
def Node.reset (A : Env α) (n : Node (Ext α)) : Node (Ext α) :=
  let n := NodeBase.reset (Node.init A) n
  { n with ext := { n.ext with h := A.maxValue } }

/-- Constructor `BestFirstSearch(size, start, goal)`. -/
def create (A : Env α) (size start goal : Coordinate) : State α :=
  { m_board := Board.create size start goal { h := A.maxValue } }

def openNode (A : Env α) (s : State α) (node : Coordinate) (parent : Option Coordinate) :
    State α :=
  let s := AlgorithmBase.openNode s node parent
  let n := s.m_board.m_nodes node
  let h := distance A s.m_heuristic n.position s.m_board.getGoal
  let s := { s with m_board := s.m_board.write node { n with ext := { n.ext with h := h } } }
  { s with m_openNodes := s.m_openNodes ++ [node] }

/-- Body of `BestFirstSearch::init`; `none` when `getStartNode()` is null. -/
def init (A : Env α) (s : State α) (heuristic : Heuristic) (diagonals cutCorners : Bool) :
    Option (State α) :=
  let s := AlgorithmBase.init s heuristic diagonals cutCorners
  let s := { s with m_openNodes := [] }
  let s := { s with m_board := s.m_board.init (Node.init A) }
  match s.m_board.getStartNode with
  | none => none
  | some start => some (openNode A s start none)

def reset (A : Env α) (s : State α) : State α :=
  let s := AlgorithmBase.reset s
  let s := { s with m_openNodes := [] }
  { s with m_board := s.m_board.reset (Node.reset A) }

/-- Body of `BestFirstSearch::getValue1`, `m_board.isValidNode(c) ? m_board[c]->h : 0.f`;
`none` when `m_board[c]` is null. -/
def getValue1 (A : Env α) (s : State α) (c : Coordinate) : Option α :=
  if s.m_board.isValidNode c then
    match s.m_board.get c with
    | some n => some (s.m_board.m_nodes n).ext.h
    | none => none
  else some (A.ofInt 0)

/-- Body of `BestFirstSearch::getValue2`, `return 0.f`. -/
def getValue2 (A : Env α) (_s : State α) (_c : Coordinate) : Option α :=
  some (A.ofInt 0)

/-- The comparator of `sortNodes`: `node1->h >= node2->h`. It is not a strict weak ordering
(it holds of a node and itself), which `std::sort` requires: the call has undefined
behaviour, and the `std::sort` of the C++ library can read outside the vector with it
(`StdSort.sort`). -/
def compare (A : Env α) (b : Board (Ext α)) (node1 node2 : Coordinate) : Bool :=
  A.le (b.m_nodes node2).ext.h (b.m_nodes node1).ext.h

/-- Body of `BestFirstSearch::sortNodes`, for a call of `std::sort` that returns: the
frontier becomes `A.sort` of it. Whether the call returns is not expressed here; the runs
that follow the `std::sort` of the C++ library (`stdEnv`) check each call with
`StdSort.sort` (`stepsInBounds`). -/
def sortNodes (A : Env α) (s : State α) : State α :=
  { s with m_openNodes := A.sort (compare A s.m_board) s.m_openNodes }

/-- Body of `BestFirstSearch::closeNode`; `none` when the frontier is empty. -/
def closeNode (s : State α) : Option (Coordinate × State α) :=
  match s.m_openNodes.getLast? with
  | none => none
  | some node =>
    some (node, { s with nodesClosed := s.nodesClosed + 1, m_openNodes := s.m_openNodes.dropLast })

/-- The loop `for (auto* neighbor : neighbors)` of `BestFirstSearch::nextStep`. -/
def nextStepLoop (A : Env α) (fuel : Nat) (node : Coordinate) :
    List Coordinate → State α → Option (Bool × State α)
  | [], s => some (false, s)
  | neighbor :: rest, s =>
    if (s.m_board.m_nodes neighbor).opened then nextStepLoop A fuel node rest s
    else
      let s := openNode A s neighbor (some node)
      match checkGoal fuel s (s.m_board.m_nodes neighbor).position with
      | none => none
      | some (true, s) => some (true, s)
      | some (false, s) => nextStepLoop A fuel node rest s

/-- Body of `BestFirstSearch::nextStep`. -/
def nextStep (A : Env α) (fuel : Nat) (s : State α) : Option (Bool × State α) :=
  if s.m_openNodes.length = 0 then some (true, s)
  else
    let s := sortNodes A s
    match closeNode s with
    | none => none
    | some (node, s) =>
      match checkGoal fuel s (s.m_board.m_nodes node).position with
      | none => none
      | some (true, s) => some (true, s)
      | some (false, s) =>
        let neighbors := s.m_board.getNeighbors node [] s.m_diagonals s.m_cutCorners
        nextStepLoop A fuel node neighbors s

end BestFirstSearch

/-! ## Algorithms/BreadthFirstSearch.hpp -/

namespace BreadthFirstSearch

open AlgorithmBase

/-- The node `struct Node : NodeBase {}` adds no field. -/
abbrev State := Algorithm Unit

/-- Constructor `BreadthFirstSearch(size, start, goal)`. -/
def create (size start goal : Coordinate) : State :=
  { m_board := Board.create size start goal () }

def openNode (s : State) (node : Coordinate) (parent : Option Coordinate) : State :=
  let s := AlgorithmBase.openNode s node parent
  { s with m_openNodes := s.m_openNodes ++ [node] }

/-- Body of `BreadthFirstSearch::init`; `none` when `getStartNode()` is null. -/
def init (s : State) (heuristic : Heuristic) (diagonals cutCorners : Bool) : Option State :=
  let s := AlgorithmBase.init s heuristic diagonals cutCorners
  let s := { s with m_openNodes := [] }
  let s := { s with m_board := s.m_board.init NodeBase.init }
  match s.m_board.getStartNode with
  | none => none
  | some start => some (openNode s start none)

def reset (s : State) : State :=
  let s := AlgorithmBase.reset s
  let s := { s with m_openNodes := [] }
  { s with m_board := s.m_board.reset (NodeBase.reset NodeBase.init) }

/-- Body of `BreadthFirstSearch::getValue1`,
`m_board.isValidNode(c) && m_board[c]->opened ? 111.f : 0.f`; `none` when `m_board[c]` is
null. -/
def getValue1 {α : Type} (A : Env α) (s : State) (c : Coordinate) : Option α :=
  if s.m_board.isValidNode c then
    match s.m_board.get c with
    | some n => some (if (s.m_board.m_nodes n).opened then A.ofInt 111 else A.ofInt 0)
    | none => none
  else some (A.ofInt 0)

/-- Body of `BreadthFirstSearch::getValue2`, `return 0.f`. -/
def getValue2 {α : Type} (A : Env α) (_s : State) (_c : Coordinate) : Option α :=
  some (A.ofInt 0)

/-- Body of `BreadthFirstSearch::closeNode`; `none` when the queue is empty. -/
def closeNode (s : State) : Option (Coordinate × State) :=
  match s.m_openNodes with
  | [] => none
  | node :: rest => some (node, { s with nodesClosed := s.nodesClosed + 1, m_openNodes := rest })

/-- The loop `for (auto* neighbor : neighbors)` of `BreadthFirstSearch::nextStep`. -/
def nextStepLoop (fuel : Nat) (node : Coordinate) :
    List Coordinate → State → Option (Bool × State)
  | [], s => some (false, s)
  | neighbor :: rest, s =>
    if (s.m_board.m_nodes neighbor).opened then nextStepLoop fuel node rest s
    else
      let s := openNode s neighbor (some node)
      match checkGoal fuel s (s.m_board.m_nodes neighbor).position with
      | none => none
      | some (true, s) => some (true, s)
      | some (false, s) => nextStepLoop fuel node rest s

/-- Body of `BreadthFirstSearch::nextStep`. -/
def nextStep (fuel : Nat) (s : State) : Option (Bool × State) :=
  if s.m_openNodes.length = 0 then some (true, s)
  else
    match closeNode s with
    | none => none
    | some (node, s) =>
      match checkGoal fuel s (s.m_board.m_nodes node).position with
      | none => none
      | some (true, s) => some (true, s)
      | some (false, s) =>
        let neighbors := s.m_board.getNeighbors node [] s.m_diagonals s.m_cutCorners
        nextStepLoop fuel node neighbors s

end BreadthFirstSearch

/-! ## Algorithms/DepthFirstSearch.hpp -/

namespace DepthFirstSearch

open AlgorithmBase

/-- The node `struct Node : NodeBase {}` adds no field. -/
abbrev State := Algorithm Unit

/-- Constructor `DepthFirstSearch(size, start, goal)`. -/
def create (size start goal : Coordinate) : State :=
  { m_board := Board.create size start goal () }

def openNode (s : State) (node : Coordinate) (parent : Option Coordinate) : State :=
  let s := AlgorithmBase.openNode s node parent
  { s with m_openNodes := s.m_openNodes ++ [node] }

/-- Body of `DepthFirstSearch::init`; `none` when `getStartNode()` is null. -/
def init (s : State) (heuristic : Heuristic) (diagonals cutCorners : Bool) : Option State :=
  let s := AlgorithmBase.init s heuristic diagonals cutCorners
  let s := { s with m_openNodes := [] }
  let s := { s with m_board := s.m_board.init NodeBase.init }
  match s.m_board.getStartNode with
  | none => none
  | some start => some (openNode s start none)

def reset (s : State) : State :=
  let s := AlgorithmBase.reset s
  let s := { s with m_openNodes := [] }
  { s with m_board := s.m_board.reset (NodeBase.reset NodeBase.init) }

/-- Body of `DepthFirstSearch::getValue1`,
`m_board.isValidNode(c) && m_board[c]->opened ? 111.f : 0.f`; `none` when `m_board[c]` is
null. -/
def getValue1 {α : Type} (A : Env α) (s : State) (c : Coordinate) : Option α :=
  if s.m_board.isValidNode c then
    match s.m_board.get c with
    | some n => some (if (s.m_board.m_nodes n).opened then A.ofInt 111 else A.ofInt 0)
    | none => none
  else some (A.ofInt 0)

/-- Body of `DepthFirstSearch::getValue2`, `return 0.f`. -/
def getValue2 {α : Type} (A : Env α) (_s : State) (_c : Coordinate) : Option α :=
  some (A.ofInt 0)

/-- Body of `DepthFirstSearch::closeNode`; `none` when the stack is empty. -/
def closeNode (s : State) : Option State :=
  match s.m_openNodes.getLast? with
  | none => none
  | some _ => some { s with nodesClosed := s.nodesClosed + 1, m_openNodes := s.m_openNodes.dropLast }

/-- The loop `for (auto* neighbor : neighbors)` of `DepthFirstSearch::nextStep`. The first
boolean is true when the loop left the function through `return true`, the second is the
variable `changes`. -/
def nextStepLoop (fuel : Nat) (node : Coordinate) :
    List Coordinate → Bool → State → Option (Bool × Bool × State)
  | [], changes, s => some (false, changes, s)
  | neighbor :: rest, changes, s =>
    if (s.m_board.m_nodes neighbor).opened then nextStepLoop fuel node rest changes s
    else
      let s := openNode s neighbor (some node)
      let changes := true
      match checkGoal fuel s (s.m_board.m_nodes neighbor).position with
      | none => none
      | some (true, s) => some (true, changes, s)
      | some (false, s) => nextStepLoop fuel node rest changes s

/-- Body of `DepthFirstSearch::nextStep`. -/
def nextStep (fuel : Nat) (s : State) : Option (Bool × State) :=
  if s.m_openNodes.length = 0 then some (true, s)
  else
    match s.m_openNodes.getLast? with
    | none => none
    | some node =>
      match checkGoal fuel s (s.m_board.m_nodes node).position with
      | none => none
      | some (true, s) => some (true, s)
      | some (false, s) =>
        let neighbors := s.m_board.getNeighbors node [] s.m_diagonals s.m_cutCorners
        match nextStepLoop fuel node neighbors false s with
        | none => none
        | some (true, _, s) => some (true, s)
        | some (false, changes, s) =>
          if !changes then
            match closeNode s with
            | none => none
            | some s => some (false, s)
          else some (false, s)

end DepthFirstSearch



/-- The value of `std::numeric_limits<double>::max()`, `(2^53 - 1) * 2^971`, an integer. -/
def doubleMax : Int :=
  179769313486231570814527423731704356798070567525844996598917476803157260780028538760589558632766878171540458953514382464234321326889464182768467546703537516986049910576551282076245490090389328944075868508455133942304583236903222948165808559332123348274797826204144723168738177180919299881250404026184124858368

/-- A concrete interpretation of `Env`: `double` values are integers, which is exact for the
Manhattan and Chebyshev distances of a board (small integers are `double` values, and their
sums and comparisons are exact); the Diagonal and Euclidean distances are rounded to an
integer, which the program does not do (`doubleEnv` follows its floating-point
computation). `sort` is an insertion sort by the comparator; among nodes the comparator
does not tell apart its order can differ from that of the `std::sort` of the C++ library
(`stdEnv`). -/
def intEnv : Env Int :=
  { ofInt := fun i => i
    maxValue := doubleMax
    add := fun a b => a + b
    lt := fun a b => decide (a < b)
    le := fun a b => decide (a ≤ b)
    eq := fun a b => decide (a = b)
    diagonalDistance := fun a b =>
      (|a.1 - b.1| + |a.2 - b.2|) - (586 * min |a.1 - b.1| |a.2 - b.2| + 999) / 1000
    euclideanDistance := fun a b =>
      Int.ofNat (Nat.sqrt (((a.1 - b.1) ^ 2 + (a.2 - b.2) ^ 2).toNat))
    sort := fun cmp l => List.insertionSort (fun a b => cmp a b = true) l }

/-! ## Definitions used by the statements and the proofs -/

namespace Board

variable {E : Type}

/-- The element `addIfAccessible` appends, as a list of length at most one. -/
def candidate (b : Board E) (f t : Coordinate) (cc : Bool) : List Coordinate :=
  if b.isValidNode t && b.isAccessible (b.m_nodes f).position t cc then [t] else []

end Board

namespace Board

variable {E : Type}

/-- All in-bounds coordinates of the board. -/
def allCoords (b : Board E) : List Coordinate :=
  (List.range b.m_size.1.toNat ×ˢ List.range b.m_size.2.toNat).map
    fun p => ((p.1 : Int), (p.2 : Int))

/-- Number of in-bounds nodes that are not opened. -/
def unopened (b : Board E) : Nat :=
  (b.allCoords.filter fun c => !(b.m_nodes c).opened).length

/-- The coordinate `c2` can be reached from `c1` by a sequence of moves, each from a node to
one of the nodes `getNeighbors` returns for it. -/
def Reach (b : Board E) (diagonals cutCorners : Bool) (c1 c2 : Coordinate) : Prop :=
  Relation.ReflTransGen (fun x y => y ∈ b.getNeighbors x [] diagonals cutCorners) c1 c2

/-- The board `b2` has the size, start, goal, obstacles and positions of `b1`. -/
def SameGrid (b1 b2 : Board E) : Prop :=
  b2.m_size = b1.m_size ∧ b2.m_start = b1.m_start ∧ b2.m_goal = b1.m_goal ∧
    ∀ c, (b2.m_nodes c).obstacle = (b1.m_nodes c).obstacle ∧
      (b2.m_nodes c).position = (b1.m_nodes c).position

end Board

namespace AlgorithmBase

variable {E : Type}

/-- What `openNode` of A*, Breadth-First and Depth-First does: `AlgorithmBase::openNode`,
then the node is pushed on the frontier. -/
def pushOpen (s : Algorithm E) (node : Coordinate) (parent : Option Coordinate) : Algorithm E :=
  let s := openNode s node parent
  { s with m_openNodes := s.m_openNodes ++ [node] }

/-- A sequence of `setObstacle` calls. -/
def setObstacles (s : Algorithm E) : List (Coordinate × Bool) → Algorithm E
  | [] => s
  | (c, o) :: rest => setObstacles (setObstacle s c o) rest

/-- Measure that decreases at every `nextStep` call that returns false. -/
def stepMeasure (s : Algorithm E) : Nat :=
  2 * s.m_board.unopened + s.m_openNodes.length

end AlgorithmBase

namespace AlgorithmBase

variable {E : Type}

/-- The state `s2` differs from `s1` at most in the derived (`ext`) fields of its nodes. -/
def ExtOnly (s1 s2 : Algorithm E) : Prop :=
  s2.solution = s1.solution ∧ s2.nodesOpened = s1.nodesOpened ∧
  s2.nodesClosed = s1.nodesClosed ∧ s2.m_heuristic = s1.m_heuristic ∧
  s2.m_diagonals = s1.m_diagonals ∧ s2.m_cutCorners = s1.m_cutCorners ∧
  s2.m_openNodes = s1.m_openNodes ∧ s2.m_board.m_size = s1.m_board.m_size ∧
  s2.m_board.m_start = s1.m_board.m_start ∧ s2.m_board.m_goal = s1.m_board.m_goal ∧
  ∀ c, (s2.m_board.m_nodes c).parent = (s1.m_board.m_nodes c).parent ∧
    (s2.m_board.m_nodes c).position = (s1.m_board.m_nodes c).position ∧
    (s2.m_board.m_nodes c).obstacle = (s1.m_board.m_nodes c).obstacle ∧
    (s2.m_board.m_nodes c).opened = (s1.m_board.m_nodes c).opened

end AlgorithmBase

namespace AStar

variable {α : Type}

/-- The state `closeNode` leaves when the (sorted) frontier is `rest ++ [node]`. -/
def closeWith (s : State α) (node : Coordinate) (rest : List Coordinate) : State α :=
  { s with
    nodesClosed := s.nodesClosed + 1
    m_openNodes := rest
    m_board := s.m_board.write node
      { s.m_board.m_nodes node with
        ext := { (s.m_board.m_nodes node).ext with closed := true } } }

end AStar

namespace AlgorithmBase

variable {E : Type}

/-- Invariant of a run on the grid of `b0` with the movement rules `d`, `cc`: the board
keeps the grid of `b0`, the solution is still empty, and every frontier node is in bounds,
opened and reachable from the start. -/
structure RunInv (b0 : Board E) (d cc : Bool) (s : Algorithm E) : Prop where
  grid : Board.SameGrid b0 s.m_board
  diag : s.m_diagonals = d
  cut : s.m_cutCorners = cc
  sol : s.solution = []
  front : ∀ c ∈ s.m_openNodes, s.m_board.isValidNode c = true ∧
    (s.m_board.m_nodes c).opened = true ∧ b0.Reach d cc b0.m_start c

/-- Invariant of the parent links in a run of Best-First, Breadth-First or Depth-First on a
freshly constructed instance: `rk` (the order of opening) decreases along the parent link of
an opened node, the only opened node without parent is the start, and the opened nodes are
counted by `nodesOpened`. -/
structure ChainInv (s : Algorithm E) (rk : Coordinate → Nat) : Prop where
  parent_lt : ∀ c p, (s.m_board.m_nodes c).opened = true →
    (s.m_board.m_nodes c).parent = some p →
    (s.m_board.m_nodes p).opened = true ∧ rk p < rk c
  rk_lt : ∀ c, (s.m_board.m_nodes c).opened = true → rk c < s.nodesOpened
  root : ∀ c, (s.m_board.m_nodes c).opened = true → (s.m_board.m_nodes c).parent = none →
    c = s.m_board.m_start
  count : s.nodesOpened + s.m_board.unopened = s.m_board.nodeCount

/-- How a state `x` inside a `nextStep` call compares with the state `s` at the call, `k`
being the number of nodes the call has taken off the frontier. -/
def Progress (s x : Algorithm E) (k : Nat) : Prop :=
  x.m_board.m_size = s.m_board.m_size ∧
  x.m_board.unopened + x.m_openNodes.length + k = s.m_board.unopened + s.m_openNodes.length ∧
    x.m_board.unopened ≤ s.m_board.unopened

/-- Invariant of a run of Best-First, Breadth-First or Depth-First on a freshly constructed
instance. -/
def FreshInv (b0 : Board E) (d cc : Bool) (s : Algorithm E) : Prop :=
  RunInv b0 d cc s ∧ ∃ rk, ChainInv s rk

/-- What a successful run leaves in `solution`: a non-empty sequence from the goal to the
start. -/
def GoalToStart (start goal : Coordinate) (s : Algorithm E) : Prop :=
  s.solution ≠ [] ∧ s.solution.head? = some goal ∧ s.solution.getLast? = some start

/-- The state of `init` before the start node is opened; `nodeInit` is the `init` of the
node type. -/
def initBase (nodeInit : Node E → Node E) (s : Algorithm E) (heuristic : Heuristic)
    (diagonals cutCorners : Bool) : Algorithm E :=
  let s := init s heuristic diagonals cutCorners
  let s := { s with m_openNodes := [] }
  { s with m_board := s.m_board.init nodeInit }

/-- What the `init` of every node type does to the `NodeBase` fields. -/
def NodeInitOK (nodeInit : Node E → Node E) : Prop :=
  ∀ n, (nodeInit n).parent = none ∧ (nodeInit n).opened = false ∧
    (nodeInit n).obstacle = n.obstacle ∧ (nodeInit n).position = n.position

/-- State of an instance on which no run was started: as the constructor and `setObstacle`
leave it. -/
def Pristine (s : Algorithm E) : Prop :=
  s.nodesClosed = 0 ∧ s.m_board.WellFormed ∧
    ∀ c, (s.m_board.m_nodes c).opened = false ∧ (s.m_board.m_nodes c).parent = none

/-- The coordinate `c` lies within `[0, size.first) x [0, size.second)`. -/
def InBounds (size c : Coordinate) : Prop :=
  0 ≤ c.1 ∧ c.1 < size.1 ∧ 0 ≤ c.2 ∧ c.2 < size.2

/-- What `init` establishes, `s` being the state before the call and `s1` the state after
it: the solution is empty, one node is opened, the frontier is the start node, which is
opened without parent, every other node of the board is unopened without parent, and no
obstacle flag has changed. -/
def InitPost (s s1 : Algorithm E) : Prop :=
  s1.solution = [] ∧ s1.nodesOpened = 1 ∧ s1.m_openNodes = [s.m_board.m_start] ∧
  (s1.m_board.m_nodes s.m_board.m_start).opened = true ∧
  (s1.m_board.m_nodes s.m_board.m_start).parent = none ∧
  (∀ c, s.m_board.isValidNode c = true → c ≠ s.m_board.m_start →
    (s1.m_board.m_nodes c).opened = false ∧ (s1.m_board.m_nodes c).parent = none) ∧
  (∀ c, (s1.m_board.m_nodes c).obstacle = (s.m_board.m_nodes c).obstacle) ∧
  (∀ c, s1.m_board.isObstacle c = s.m_board.isObstacle c)

end AlgorithmBase

namespace AStar

variable {α : Type}

/-- Invariant of the parent links in a run of A* on a freshly constructed instance: every
parent is a closed node, `rk` (the order of closing) decreases along the parent link of a
closed node, the only opened node without parent is the start, the frontier holds each
opened and not yet closed node once, and the counters count the opened and the closed
nodes. -/
structure ChainInv (s : State α) (rk : Coordinate → Nat) : Prop where
  parent_closed : ∀ c p, (s.m_board.m_nodes c).parent = some p →
    (s.m_board.m_nodes p).ext.closed = true ∧
    ((s.m_board.m_nodes c).ext.closed = true → rk p < rk c)
  rk_lt : ∀ c, (s.m_board.m_nodes c).ext.closed = true → rk c < s.nodesClosed
  closed_opened : ∀ c, (s.m_board.m_nodes c).ext.closed = true →
    (s.m_board.m_nodes c).opened = true
  root : ∀ c, (s.m_board.m_nodes c).opened = true → (s.m_board.m_nodes c).parent = none →
    c = s.m_board.m_start
  count : s.nodesOpened + s.m_board.unopened = s.m_board.nodeCount
  balance : s.nodesOpened = s.nodesClosed + s.m_openNodes.length
  front_open : ∀ c ∈ s.m_openNodes, (s.m_board.m_nodes c).ext.closed = false
  front_nodup : s.m_openNodes.Nodup

/-- Invariant of a run of A* on a freshly constructed instance. -/
def FreshInv (b0 : Board (Ext α)) (d cc : Bool) (s : State α) : Prop :=
  AlgorithmBase.RunInv b0 d cc s ∧ ∃ rk, ChainInv s rk

/-- State of an A* instance on which no run was started. -/
def PristineA (s : State α) : Prop :=
  AlgorithmBase.Pristine s ∧ ∀ c, (s.m_board.m_nodes c).ext.closed = false

end AStar

/-- A call of one of the three mutators of `Board`. -/
inductive BoardCall where
  | setObstacle (c : Coordinate) (obstacle : Bool)
  | init
  | reset

namespace Board

variable {E : Type}

/-- The board after a call of a mutator; `nodeInit` and `nodeReset` are the `init` and the
`reset` of the node type. -/
def call (nodeInit nodeReset : Node E → Node E) (b : Board E) : BoardCall → Board E
  | BoardCall.setObstacle c obstacle => b.setObstacle c obstacle
  | BoardCall.init => b.init nodeInit
  | BoardCall.reset => b.reset nodeReset

/-- The board after a sequence of calls of mutators. -/
def calls (nodeInit nodeReset : Node E → Node E) (b : Board E) (l : List BoardCall) : Board E :=
  l.foldl (call nodeInit nodeReset) b

end Board

namespace AlgorithmBase

/-- The integer `abs(dx) + abs(dy)` that `manhattanDistance` converts to `double`. -/
def manhattan (a b : Coordinate) : Int :=
  |a.1 - b.1| + |a.2 - b.2|

/-- The requirement of `std::sort` on its comparator: a strict weak ordering. -/
def StrictWeakOrdering (cmp : Coordinate → Coordinate → Bool) : Prop :=
  (∀ a, cmp a a = false) ∧
  (∀ a b c, cmp a b = true → cmp b c = true → cmp a c = true) ∧
  (∀ a b c, cmp a b = true → cmp a c = true ∨ cmp c b = true)

end AlgorithmBase

/-- What `std::sort` guarantees when its comparator is a strict weak ordering: the result is
sorted, that is, the comparator places no element before an element that precedes it. -/
def Env.SortSorts {α : Type} (A : Env α) : Prop :=
  ∀ (cmp : Coordinate → Coordinate → Bool) (l : List Coordinate),
    AlgorithmBase.StrictWeakOrdering cmp → (A.sort cmp l).Pairwise (fun a b => cmp b a = false)

namespace AStar

open AlgorithmBase

variable {α : Type}

/-- What the theorem on A* with cardinal moves assumes of the `double` arithmetic, for a
heuristic, a board size and a goal. `v x` is the real number the `double` `x` holds and
`hstar c` is the exact value of the heuristic at `c`. The comparisons `<` and `==` are those
of the values; the conversion of `0` is exact; adding the distance between two adjacent
cells to a `double` that holds an integer `0 <= k <= width + height` gives `k + 1`; the
computed `h + g` of a cell is within `1/4` of the exact value when `g` holds such an
integer, and is below `max + 0`; and the exact heuristic is nonnegative, zero at the goal,
and consistent: it decreases by at most the number of moves. -/
structure Accurate (A : Env α) (v : α → ℝ) (hstar : Coordinate → ℝ) (heuristic : Heuristic)
    (size goal : Coordinate) : Prop where
  lt_val : ∀ a b, A.lt a b = true ↔ v a < v b
  eq_val : ∀ a b, A.eq a b = true ↔ v a = v b
  zero_val : v (A.ofInt 0) = 0
  step_val : ∀ (p n : Coordinate) (x : α) (k : Int), InBounds size p → InBounds size n →
    manhattan p n = 1 → 0 ≤ k → k ≤ size.1 + size.2 → v x = k →
    v (A.add x (distance A heuristic p n)) = k + 1
  sum_val : ∀ (c : Coordinate) (x : α) (k : Int), InBounds size c → 0 ≤ k →
    k ≤ size.1 + size.2 → v x = k →
    |v (A.add (distance A heuristic c goal) x) - (hstar c + k)| ≤ 1 / 4
  max_val : ∀ c, InBounds size c →
    hstar c + ((size.1 + size.2 : Int) : ℝ) + 1 ≤ v (A.add A.maxValue (A.ofInt 0))
  hstar_nonneg : ∀ c, InBounds size c → 0 ≤ hstar c
  hstar_goal : hstar goal = 0
  hstar_consistent : ∀ a b, InBounds size a → InBounds size b →
    hstar a ≤ ((manhattan a b : Int) : ℝ) + hstar b

/-- The part of the invariant of a run of A* with cardinal moves on an obstacle-free board
that holds between the calls of `nextStep` and during the expansion of a node. The field `g`
of an opened node holds the length of its chain of parents, the parents are closed nodes,
and a closed node has the least possible `g`, its Manhattan distance from the start. -/
structure Core (A : Env α) (v : α → ℝ) (heuristic : Heuristic) (size start goal : Coordinate)
    (s : State α) : Prop where
  size_eq : s.m_board.m_size = size
  start_eq : s.m_board.m_start = start
  goal_eq : s.m_board.m_goal = goal
  heur : s.m_heuristic = heuristic
  diag : s.m_diagonals = false
  sol : s.solution = []
  clear : ∀ c, (s.m_board.m_nodes c).position = c ∧ (s.m_board.m_nodes c).obstacle = false
  opened_valid : ∀ c, (s.m_board.m_nodes c).opened = true → InBounds size c
  closed_opened : ∀ c, (s.m_board.m_nodes c).ext.closed = true →
    (s.m_board.m_nodes c).opened = true
  front_iff : ∀ c, c ∈ s.m_openNodes ↔
    ((s.m_board.m_nodes c).opened = true ∧ (s.m_board.m_nodes c).ext.closed = false)
  front_nodup : s.m_openNodes.Nodup
  fresh : ∀ c, (s.m_board.m_nodes c).opened = false →
    (s.m_board.m_nodes c).ext.h = A.maxValue ∧ (s.m_board.m_nodes c).ext.g = A.ofInt 0
  start_opened : (s.m_board.m_nodes start).opened = true
  start_parent : (s.m_board.m_nodes start).parent = none
  start_g : v (s.m_board.m_nodes start).ext.g = 0
  chain : ∀ c, (s.m_board.m_nodes c).opened = true → c ≠ start →
    ∃ p, (s.m_board.m_nodes c).parent = some p ∧ (s.m_board.m_nodes p).ext.closed = true ∧
      manhattan p c = 1 ∧ v (s.m_board.m_nodes c).ext.g = ((manhattan start p : Int) : ℝ) + 1 ∧
      (s.m_board.m_nodes c).ext.h = distance A heuristic c goal
  closed_g : ∀ c, (s.m_board.m_nodes c).ext.closed = true →
    v (s.m_board.m_nodes c).ext.g = ((manhattan start c : Int) : ℝ)

/-- The neighbors of the closed node `c` are opened, with a `g` of at most that of `c`
plus one. -/
def NeighborsDone (v : α → ℝ) (size start : Coordinate) (s : State α) (c : Coordinate) : Prop :=
  ∀ m, InBounds size m → manhattan c m = 1 →
    (s.m_board.m_nodes m).opened = true ∧
    v (s.m_board.m_nodes m).ext.g ≤ ((manhattan start c : Int) : ℝ) + 1

/-- Invariant of a run of A* with cardinal moves on an obstacle-free board, between the calls
of `nextStep`: the goal is not closed and (unless it is the start) not opened, the start is
closed or is the only frontier node, and the neighbors of every closed node are done. -/
structure OptInv (A : Env α) (v : α → ℝ) (heuristic : Heuristic) (size start goal : Coordinate)
    (s : State α) : Prop where
  core : Core A v heuristic size start goal s
  goal_open : (s.m_board.m_nodes goal).ext.closed = false
  goal_unopened : start ≠ goal → (s.m_board.m_nodes goal).opened = false
  start_front : (s.m_board.m_nodes start).ext.closed = true ∨ s.m_openNodes = [start]
  done : ∀ c, (s.m_board.m_nodes c).ext.closed = true → NeighborsDone v size start s c

/-- Invariant during the expansion of the closed node `node`, `rem` being the neighbors the
loop has yet to visit (in-bounds cells one move from `node`): the neighbors of the other
closed nodes are done, those of `node` are done or yet to be visited, and `node` is no
farther from the start than the goal. -/
structure ExpInv (A : Env α) (v : α → ℝ) (heuristic : Heuristic) (size start goal : Coordinate)
    (node : Coordinate) (rem : List Coordinate) (s : State α) : Prop where
  rem_adj : ∀ n ∈ rem, InBounds size n ∧ manhattan node n = 1
  core : Core A v heuristic size start goal s
  goal_open : (s.m_board.m_nodes goal).ext.closed = false
  goal_unopened : start ≠ goal → (s.m_board.m_nodes goal).opened = false
  start_closed : (s.m_board.m_nodes start).ext.closed = true
  node_closed : (s.m_board.m_nodes node).ext.closed = true
  done : ∀ c, (s.m_board.m_nodes c).ext.closed = true → c ≠ node →
    NeighborsDone v size start s c
  progress : ∀ m, InBounds size m → manhattan node m = 1 → m ∈ rem ∨
    ((s.m_board.m_nodes m).opened = true ∧
      v (s.m_board.m_nodes m).ext.g ≤ ((manhattan start node : Int) : ℝ) + 1)
  node_le : start ≠ goal → manhattan start node ≤ manhattan start goal

/-- What the run leaves when the goal is reached: a solution of `manhattan start goal + 1`
coordinates from the goal to the start in which consecutive coordinates are one cardinal
move apart. -/
def CardinalPath (start goal : Coordinate) (s : State α) : Prop :=
  (s.solution.length : Int) = manhattan start goal + 1 ∧
  s.solution.head? = some goal ∧ s.solution.getLast? = some start ∧
  s.solution.Chain' (fun a b => manhattan a b = 1)

end AStar

/-! ## The distances as the specification words them -/

namespace Spec

/-- The Manhattan distance of the specification, `|dx| + |dy|`. -/
def manhattanDistance (a b : Coordinate) : Int :=
  |a.1 - b.1| + |a.2 - b.2|

/-- The Chebyshev distance the specification expects of a finished implementation,
`max(|dx|, |dy|)`. -/
def chebyshevDistance (a b : Coordinate) : Int :=
  max |a.1 - b.1| |a.2 - b.2|

end Spec

namespace AlgorithmBase

/-- The fields of the state that the loop of `nextStep` leaves as they are. -/
def SameConfig {E : Type} (x y : Algorithm E) : Prop :=
  y.nodesClosed = x.nodesClosed ∧ y.m_heuristic = x.m_heuristic ∧
  y.m_diagonals = x.m_diagonals ∧ y.m_cutCorners = x.m_cutCorners ∧
  y.m_board.m_size = x.m_board.m_size ∧ y.m_board.m_start = x.m_board.m_start ∧
  y.m_board.m_goal = x.m_board.m_goal

end AlgorithmBase

namespace AStar

open AlgorithmBase

variable {α : Type}

/-- What the loop of `AStar::nextStep` leaves in a neighbor `n` (not closed) of the node `p`
it expands, `s` being the state when the loop starts and `N'` the node afterwards:
`updateNode` has replaced `parent`, `h` and `g` when the new `h + g` is below the old one,
and `openNode` has opened the node, with `p` as parent, when it was not opened. -/
def Relaxed (A : Env α) (s : State α) (p n : Coordinate) (N' : Node (Ext α)) : Prop :=
  let N := s.m_board.m_nodes n
  let P := s.m_board.m_nodes p
  let h := distance A s.m_heuristic N.position s.m_board.getGoal
  let g := A.add P.ext.g (distance A s.m_heuristic P.position N.position)
  N'.position = N.position ∧ N'.obstacle = N.obstacle ∧ N'.ext.closed = N.ext.closed ∧
  N'.opened = true ∧
  (if A.lt (A.add h g) (A.add N.ext.h N.ext.g) = true then
    N'.parent = some p ∧ N'.ext.h = h ∧ N'.ext.g = g
  else
    N'.ext.h = N.ext.h ∧ N'.ext.g = N.ext.g ∧
      N'.parent = if N.opened = true then N.parent else some p)

/-- The neighbors the loop of `AStar::nextStep` opens among those it visits: the ones that
are neither closed nor opened when the loop starts. -/
def newlyOpened (s : State α) (visited : List Coordinate) : List Coordinate :=
  visited.filter fun n => !(s.m_board.m_nodes n).ext.closed && !(s.m_board.m_nodes n).opened

end AStar

namespace BreadthFirstSearch

open AlgorithmBase

/-- Record of the calls of `openNode` and `closeNode` of a Breadth-First instance: the nodes
in the order in which they were opened and the nodes in the order in which they were
closed. It is not part of the program; the functions below are those of the program, with
the record kept beside the state. -/
structure Log where
  opened : List Coordinate := []
  closed : List Coordinate := []

/-- The function `openNode`, recording the node it opens. -/
def openNodeL (s : State × Log) (node : Coordinate) (parent : Option Coordinate) :
    State × Log :=
  (openNode s.1 node parent, { s.2 with opened := s.2.opened ++ [node] })

/-- The function `closeNode`, recording the node it closes. -/
def closeNodeL (s : State × Log) : Option (Coordinate × (State × Log)) :=
  match closeNode s.1 with
  | none => none
  | some (node, s1) => some (node, (s1, { s.2 with closed := s.2.closed ++ [node] }))

/-- The function `init`, recording the opening of the start node in an empty record. -/
def initL (s : State) (heuristic : Heuristic) (diagonals cutCorners : Bool) :
    Option (State × Log) :=
  let s := AlgorithmBase.init s heuristic diagonals cutCorners
  let s := { s with m_openNodes := [] }
  let s := { s with m_board := s.m_board.init NodeBase.init }
  match s.m_board.getStartNode with
  | none => none
  | some start => some (openNodeL (s, {}) start none)

/-- The loop of `nextStep`, with the record. -/
def nextStepLoopL (fuel : Nat) (node : Coordinate) :
    List Coordinate → State × Log → Option (Bool × (State × Log))
  | [], s => some (false, s)
  | neighbor :: rest, s =>
    if (s.1.m_board.m_nodes neighbor).opened then nextStepLoopL fuel node rest s
    else
      let s := openNodeL s neighbor (some node)
      match checkGoal fuel s.1 (s.1.m_board.m_nodes neighbor).position with
      | none => none
      | some (true, s1) => some (true, (s1, s.2))
      | some (false, s1) => nextStepLoopL fuel node rest (s1, s.2)

/-- The function `nextStep`, with the record. -/
def nextStepL (fuel : Nat) (s : State × Log) : Option (Bool × (State × Log)) :=
  if s.1.m_openNodes.length = 0 then some (true, s)
  else
    match closeNodeL s with
    | none => none
    | some (node, s) =>
      match checkGoal fuel s.1 (s.1.m_board.m_nodes node).position with
      | none => none
      | some (true, s1) => some (true, (s1, s.2))
      | some (false, s1) =>
        let neighbors := s1.m_board.getNeighbors node [] s1.m_diagonals s1.m_cutCorners
        nextStepLoopL fuel node neighbors (s1, s.2)

/-- The states and records a run reaches: any number of `nextStep` calls, whatever they
return. -/
def RunL (fuel : Nat) (a b : State × Log) : Prop :=
  Relation.ReflTransGen (fun x y => ∃ r, nextStepL fuel x = some (r, y)) a b

/-- The queue discipline: the nodes opened are the nodes closed followed by the queue, and
the two counters count the record (`c0` nodes having been closed before the record was
started). -/
def Fifo (c0 : Nat) (s : State × Log) : Prop :=
  s.2.opened = s.2.closed ++ s.1.m_openNodes ∧ s.2.opened.length = s.1.nodesOpened ∧
    s.2.closed.length + c0 = s.1.nodesClosed

end BreadthFirstSearch

namespace AlgorithmBase

variable {E : Type}

/-- The state after `openNode(n, parent)` was called for the nodes `n` of a list, in order. -/
def pushAll (s : Algorithm E) (parent : Coordinate) : List Coordinate → Algorithm E
  | [] => s
  | n :: rest => pushAll (pushOpen s n (some parent)) parent rest

/-- The neighbors a `nextStep` call opens, in the words of the specification: every neighbor
of the list that is not yet opened, in the order of the list, stopping early if the goal is
opened. The boolean tells whether the goal was opened. -/
def opensUpToGoal (b : Board E) : List Coordinate → List Coordinate × Bool
  | [] => ([], false)
  | n :: rest =>
    if (b.m_nodes n).opened then opensUpToGoal b rest
    else if (b.m_nodes n).position = b.m_goal then ([n], true)
    else (n :: (opensUpToGoal b rest).1, (opensUpToGoal b rest).2)

end AlgorithmBase

namespace AlgorithmBase

variable {E : Type}

/-- The node reached from `c` by following `k` parent links; `none` when a node without
parent is met before. -/
def ancestor (b : Board E) : Nat → Coordinate → Option Coordinate
  | 0, c => some c
  | k + 1, c =>
    match (b.m_nodes c).parent with
    | none => none
    | some p => ancestor b k p

/-- The parent links of the board form no cycle: from every node, following parent links
reaches a node without parent after finitely many steps, which is the start node when the
node is opened, and no node is reached from itself by one or more parent links. -/
def AcyclicParents (b : Board E) : Prop :=
  (∀ c, ∃ k r, ancestor b k c = some r ∧ (b.m_nodes r).parent = none ∧
    ((b.m_nodes c).opened = true → r = b.m_start)) ∧
  ∀ c k, 0 < k → ancestor b k c ≠ some c

/-- The states reached from `s1` by calls of `nextStep`, whatever they return. -/
def Reachable {S : Type} (nextStep : S → Option (Bool × S)) (s1 s : S) : Prop :=
  Relation.ReflTransGen (fun x y => ∃ b, nextStep x = some (b, y)) s1 s

/-- The state with its `solution` emptied. -/
def clearSolution (s : Algorithm E) : Algorithm E :=
  { s with solution := [] }

/-- Invariant of the parent links in every state of a run of Best-First, Breadth-First or
Depth-First on a freshly constructed instance, also after the goal was found: the invariant
of the run but for the solution, and no unopened node has a parent. -/
def Links (b0 : Board E) (d cc : Bool) (s : Algorithm E) : Prop :=
  FreshInv b0 d cc (clearSolution s) ∧
    ∀ c, (s.m_board.m_nodes c).opened = false → (s.m_board.m_nodes c).parent = none

end AlgorithmBase

namespace AStar

open AlgorithmBase

variable {α : Type}

/-- Invariant of a run of A* that has not opened the goal, beside the invariant of the run:
every parent link is a move of the board (the parent is in bounds and the node is one of
its neighbors), the start
is opened, every neighbor of a closed node is opened, and the frontier holds every node
that is opened and not closed. -/
structure SearchInv (b0 : Board (Ext α)) (d cc : Bool) (s : State α) : Prop where
  path : ∀ c p, (s.m_board.m_nodes c).parent = some p →
    b0.isValidNode p = true ∧ c ∈ b0.getNeighbors p [] d cc
  goal : (s.m_board.m_nodes b0.m_goal).opened = false
  start : (s.m_board.m_nodes b0.m_start).opened = true
  done : ∀ c, (s.m_board.m_nodes c).ext.closed = true →
    ∀ n ∈ b0.getNeighbors c [] d cc, (s.m_board.m_nodes n).opened = true
  front : ∀ c, (s.m_board.m_nodes c).opened = true →
    (s.m_board.m_nodes c).ext.closed = false → c ∈ s.m_openNodes

/-- The same during the expansion of the closed node `node`, `rem` being the neighbors of
`node` the loop has yet to visit. -/
structure SearchLoop (b0 : Board (Ext α)) (d cc : Bool) (node : Coordinate)
    (rem : List Coordinate) (s : State α) : Prop where
  rem_nbs : ∀ n ∈ rem, n ∈ b0.getNeighbors node [] d cc
  path : ∀ c p, (s.m_board.m_nodes c).parent = some p →
    b0.isValidNode p = true ∧ c ∈ b0.getNeighbors p [] d cc
  goal : (s.m_board.m_nodes b0.m_goal).opened = false
  start : (s.m_board.m_nodes b0.m_start).opened = true
  done : ∀ c, (s.m_board.m_nodes c).ext.closed = true → c ≠ node →
    ∀ n ∈ b0.getNeighbors c [] d cc, (s.m_board.m_nodes n).opened = true
  progress : ∀ n ∈ b0.getNeighbors node [] d cc, n ∈ rem ∨ (s.m_board.m_nodes n).opened = true
  front : ∀ c, (s.m_board.m_nodes c).opened = true →
    (s.m_board.m_nodes c).ext.closed = false → c ∈ s.m_openNodes

/-- What a run that finds the goal leaves in `solution`: a sequence from the goal to the
start in which every coordinate is a neighbor, by the rules of movement, of the one that
follows it. -/
def MovePath {E : Type} (b0 : Board E) (d cc : Bool) (s : Algorithm E) : Prop :=
  GoalToStart b0.m_start b0.m_goal s ∧
    s.solution.Chain' (fun a b => a ∈ b0.getNeighbors b [] d cc)

end AStar

namespace AStar

open AlgorithmBase

variable {α : Type}

/-- The part of `AStar::nextStep` that follows `sortNodes`, `sorted` being the frontier as the
sort left it. -/
def nextStepFrom (A : Env α) (fuel : Nat) (s : State α) (sorted : List Coordinate) :
    Option (Bool × State α) :=
  match closeNode { s with m_openNodes := sorted } with
  | none => none
  | some (node, s) =>
    match checkGoal fuel s (s.m_board.m_nodes node).position with
    | none => none
    | some (true, s) => some (true, s)
    | some (false, s) =>
      nextStepLoop A fuel node (s.m_board.getNeighbors node [] s.m_diagonals s.m_cutCorners) s

/-- Whether `cmp` places no element of the list before an element that precedes it. -/
def isSorted (cmp : Coordinate → Coordinate → Bool) : List Coordinate → Bool
  | [] => true
  | a :: l => l.all (fun b => !cmp b a) && isSorted cmp l

/-- The rearrangements of `l` that are sorted by `cmp`: the results a sort may give, whatever
it does with elements that compare equal. -/
def sortedPerms (cmp : Coordinate → Coordinate → Bool) (l : List Coordinate) :
    List (List Coordinate) :=
  l.permutations'.filter (isSorted cmp)

/-- The results of `complete` with at most `n` calls of `nextStep`, over all the results the
sort may give at each call: `some s` for a run that ends in the state `s`, `none` for a run
that has not ended after `n` calls or in which a call does not return. -/
def outcomes (A : Env α) (fuel : Nat) : Nat → State α → List (Option (State α))
  | 0, _ => [none]
  | n + 1, s =>
    if s.m_openNodes.length = 0 then [some s]
    else
      (sortedPerms (compare A s.m_board) s.m_openNodes).flatMap fun l =>
        match nextStepFrom A fuel s l with
        | none => [none]
        | some (true, s) => [some s]
        | some (false, s) => outcomes A fuel n s

end AStar

namespace AStar

open AlgorithmBase

/-- The instance of the scenario: A* on a 3 x 3 board from (0,0) to (2,2) with the centre
cell (1,1) made an obstacle. -/
def centreObstacle {α : Type} (A : Env α) : State α :=
  setObstacles (create A (3, 3) (0, 0) (2, 2)) [((1, 1), true)]

/-- Whether every outcome in the list is a run that ended with one of the two given
solutions. -/
def allEndWith {α : Type} (sol1 sol2 : List Coordinate) (l : List (Option (State α))) : Bool :=
  l.all fun o =>
    match o with
    | none => false
    | some s => s.solution == sol1 || s.solution == sol2

end AStar

/-! ## A binary floating-point interpretation of `Env` -/

/-- The number of significant bits of `n`, for `n` below `2^1100` (every `double`, in units of
`2^-52`, is). -/
def bitLength (n : Nat) : Nat :=
  go 1100 n
where
  go : Nat → Nat → Nat
    | 0, _ => 0
    | fuel + 1, n => if n = 0 then 0 else go fuel (n / 2) + 1

/-- Round the natural number `n` to `p` significant bits, to nearest, ties to even. `sticky`
tells that the exact value lies strictly above `n` (by less than one). -/
def roundNat (p : Nat) (n : Nat) (sticky : Bool) : Nat :=
  let bits := bitLength n
  if bits ≤ p then n
  else
    let sh := bits - p
    let q := n >>> sh
    let r := n - (q <<< sh)
    let half := 1 <<< (sh - 1)
    if half < r ∨ (r = half ∧ (sticky = true ∨ q % 2 = 1)) then (q + 1) <<< sh
    else q <<< sh

/-- Round the integer `n` to `p` significant bits, to nearest, ties to even. -/
def roundInt (p : Nat) (n : Int) : Int :=
  if 0 ≤ n then (roundNat p n.toNat false : Int) else -(roundNat p (-n).toNat false : Int)

/-- The integer square root, bit by bit from the highest: `r` holds the bits found, `k` bits
are left to find. -/
def isqrtAux (n : Nat) : Nat → Nat → Nat
  | 0, r => r
  | k + 1, r =>
    if (r + (1 <<< k)) * (r + (1 <<< k)) ≤ n then isqrtAux n k (r + (1 <<< k))
    else isqrtAux n k r

/-- The integer square root of `n`, rounded down, for `n` below `2^256`. -/
def isqrt (n : Nat) : Nat :=
  isqrtAux n 128 0

/-- The `double` nearest to the square root of the natural number `k`, in units of
`2^-52`. The root is computed with two more bits, then rounded to 53 bits. -/
def sqrtDouble (k : Nat) : Int :=
  let n := k <<< 108
  let t := isqrt n
  (roundNat 53 t (decide (t * t ≠ n)) / 4 : Nat)

/-- Interpretation of `Env` by binary floating-point arithmetic (IEEE 754, round to nearest,
ties to even, every operation evaluated in the precision of its type). A `double` is the
integer `n` that stands for `n * 2^-52`: every `double` that is zero or at least 1 in
magnitude is of that form, and so is every value the algorithms compute (distances between
cells and their sums, and `max`). `float` values (24 significant bits) are held in the same
units. Infinities and NaN do not occur: the one sum that involves `max` is `max + 0`.

* `ofInt` is the conversion of an `int`, exact.
* `add` is the sum rounded to 53 significant bits.
* `diagonalDistance` follows the source, whose operands are `float`: `D2 - 2` is
  `-4915724 * 2^-23`, exact; `dx + dy` and `min(dx, dy)` are converted to `float`; the
  product and the sum are rounded to 24 significant bits; the result is converted to
  `double`, exact.
* `euclideanDistance`: the two squares (`std::pow` taken as correctly rounded) and their sum
  are rounded to 53 significant bits, which is exact as long as the sum is below `2^53`;
  `std::sqrt` is correctly rounded.
* `sort` is an insertion sort by the comparator (`stdEnv` has the `std::sort` of the C++
  library in its place). -/
def doubleEnv : Env Int :=
  { ofInt := fun i => i * 2 ^ 52
    maxValue := doubleMax * 2 ^ 52
    add := fun a b => roundInt 53 (a + b)
    lt := fun a b => decide (a < b)
    le := fun a b => decide (a ≤ b)
    eq := fun a b => decide (a = b)
    diagonalDistance := fun a b =>
      let dx := |a.1 - b.1|
      let dy := |a.2 - b.2|
      let prod := roundInt 24 (-(4915724 * 2 ^ 29) * roundInt 24 (min dx dy))
      roundInt 24 (roundInt 24 (dx + dy) * 2 ^ 52 + prod)
    euclideanDistance := fun a b =>
      sqrtDouble ((roundInt 53 (roundInt 53 ((a.1 - b.1) ^ 2) +
        roundInt 53 ((a.2 - b.2) ^ 2))).toNat)
    sort := fun cmp l => List.insertionSort (fun a b => cmp a b = true) l }

/-- The interpretation `A` with `sort` replaced: the arithmetic of `A` with another
implementation of `std::sort`. -/
def Env.withSort {α : Type} (A : Env α)
    (sort : (Coordinate → Coordinate → Bool) → List Coordinate → List Coordinate) : Env α :=
  { A with sort := sort }

/-! ## A* with diagonal moves on a board without obstacles -/

namespace AlgorithmBase

/-- The Chebyshev distance between two cells: the number of moves a king needs. -/
def cheb (a b : Coordinate) : Int :=
  max |a.1 - b.1| |a.2 - b.2|

/-- The cost of a cheapest path of horizontal, vertical and diagonal moves between two cells
of a board without obstacles, when a horizontal or vertical move costs 1 and a diagonal move
costs `c2`, with `1 <= c2 <= 2`: `max + (c2 - 1) * min`, written with the Chebyshev distance
(`max`) and the Manhattan distance (`max + min`). For two adjacent cells it is the cost of
the move. -/
def octile (c2 : ℝ) (a b : Coordinate) : ℝ :=
  (2 - c2) * (cheb a b : ℝ) + (c2 - 1) * (manhattan a b : ℝ)

/-- The move from `p` to `n` goes on along a cheapest path from `s`: it adds one to the number
of moves from `s` and wastes nothing of the Manhattan distance. -/
def Straight (s p n : Coordinate) : Prop :=
  cheb s n = cheb s p + 1 ∧ manhattan s n = manhattan s p + manhattan p n

/-- The number of diagonal edges of a sequence of coordinates: the pairs of consecutive
coordinates for which `isDiagonal` holds. -/
def diagonalEdges (l : List Coordinate) : Nat :=
  (l.zip l.tail).countP (fun p => isDiagonal p.1 p.2)

/-- The difference `d` cut down to the interval from `-k` to `k`. -/
def clamp (k d : Int) : Int :=
  max (-k) (min k d)

/-- The cell `k` moves from `a` on the path to `b` that moves diagonally as long as both
coordinates differ from those of `b`, then straight. -/
def toward (k : Int) (a b : Coordinate) : Coordinate :=
  (a.1 + clamp k (b.1 - a.1), a.2 + clamp k (b.2 - a.2))

end AlgorithmBase

namespace AStar

open AlgorithmBase

variable {α : Type}

/-- The value of `h + g` of the node at `c`, as `sortNodes` and `updateNode` compute it. -/
def fval (A : Env α) (v : α → ℝ) (s : State α) (c : Coordinate) : ℝ :=
  v (A.add (s.m_board.m_nodes c).ext.h (s.m_board.m_nodes c).ext.g)

/-- What the theorem on A* with diagonal moves assumes of the `double` arithmetic, for a
heuristic, a board size and a goal. `v x` is the real number the `double` `x` holds, `c2` is
the distance the heuristic gives between two diagonally adjacent cells, `hstar c` is the
exact value of the heuristic at `c`, `ε` bounds the rounding error of one addition to `g`
and `T` the error of a computed `h + g`.

* The comparisons `<` and `==` are those of the values, and the conversion of `0` is exact.
* The distance between two adjacent cells is 1 or `c2`, with `1 < c2 <= 2`.
* A `g` that holds the cost of a cheapest path from `s` to `p`, of `k` moves, within `k * ε`:
  adding the distance of a move from `p` gives the sum within `(k + 1) * ε`.
* The computed `h + g` of a cell whose `g` is such a sum is within `T` of the exact value,
  and the computed `h` is within `T` of `hstar`; both are below `max + 0`.
* `hstar` is zero at the goal and consistent: it decreases by at most the cost of a path.
* Either `c2 < 2` and `3 * T` is below the least difference `min (c2 - 1) (2 - c2)` between
  the cost of a cheapest path and that of any other path; or `c2 = 2`, the arithmetic is
  exact on the values that occur (`ε = T = 0`) and `hstar` is the Manhattan distance. -/
structure AccurateK (A : Env α) (v : α → ℝ) (hstar : Coordinate → ℝ) (c2 ε T : ℝ)
    (heuristic : Heuristic) (size goal : Coordinate) : Prop where
  lt_val : ∀ a b, A.lt a b = true ↔ v a < v b
  eq_val : ∀ a b, A.eq a b = true ↔ v a = v b
  zero_val : v (A.ofInt 0) = 0
  c2_gt : 1 < c2
  c2_le : c2 ≤ 2
  eps_nonneg : 0 ≤ ε
  tol_nonneg : 0 ≤ T
  adj_val : ∀ p n, InBounds size p → InBounds size n → cheb p n = 1 →
    v (distance A heuristic p n) = octile c2 p n
  step_val : ∀ (s p n : Coordinate) (x : α), InBounds size s → InBounds size p →
    InBounds size n → cheb p n = 1 → |v x - octile c2 s p| ≤ (cheb s p : ℝ) * ε →
    |v (A.add x (distance A heuristic p n)) - (octile c2 s p + octile c2 p n)| ≤
      ((cheb s p : ℝ) + 1) * ε
  sum_val : ∀ (s p c : Coordinate) (x : α), InBounds size s → InBounds size p →
    InBounds size c → cheb p c = 1 →
    |v x - (octile c2 s p + octile c2 p c)| ≤ ((cheb s p : ℝ) + 1) * ε →
    |v (A.add (distance A heuristic c goal) x) - (hstar c + (octile c2 s p + octile c2 p c))| ≤ T
  h_val : ∀ c, InBounds size c → |v (distance A heuristic c goal) - hstar c| ≤ T
  max_val : ∀ c, InBounds size c →
    hstar c + ((size.1 + size.2 : Int) : ℝ) + 1 ≤ v (A.add A.maxValue (A.ofInt 0))
  hstar_goal : hstar goal = 0
  hstar_consistent : ∀ a b, InBounds size a → InBounds size b →
    hstar a ≤ octile c2 a b + hstar b
  regime : (c2 < 2 ∧ 3 * T < min (c2 - 1) (2 - c2)) ∨
    (c2 = 2 ∧ ε = 0 ∧ T = 0 ∧ ∀ c, InBounds size c → hstar c = (manhattan c goal : ℝ))

/-- The part of the invariant of a run of A* with diagonal moves on a board without
obstacles that holds between the calls of `nextStep` and during the expansion of a node.
The parent of an opened node is a closed node next to it, and its `g` holds the cost of a
cheapest path to the parent plus the cost of the move; the `g` of a closed node holds the
cost of a cheapest path to it, and the move from its parent goes on along such a path. -/
structure KCore (A : Env α) (v : α → ℝ) (c2 ε : ℝ) (heuristic : Heuristic)
    (size start goal : Coordinate) (s : State α) : Prop where
  size_eq : s.m_board.m_size = size
  start_eq : s.m_board.m_start = start
  goal_eq : s.m_board.m_goal = goal
  heur : s.m_heuristic = heuristic
  diag : s.m_diagonals = true
  sol : s.solution = []
  clear : ∀ c, (s.m_board.m_nodes c).position = c ∧ (s.m_board.m_nodes c).obstacle = false
  opened_valid : ∀ c, (s.m_board.m_nodes c).opened = true → InBounds size c
  closed_opened : ∀ c, (s.m_board.m_nodes c).ext.closed = true →
    (s.m_board.m_nodes c).opened = true
  front_iff : ∀ c, c ∈ s.m_openNodes ↔
    ((s.m_board.m_nodes c).opened = true ∧ (s.m_board.m_nodes c).ext.closed = false)
  front_nodup : s.m_openNodes.Nodup
  fresh : ∀ c, (s.m_board.m_nodes c).opened = false →
    (s.m_board.m_nodes c).ext.h = A.maxValue ∧ (s.m_board.m_nodes c).ext.g = A.ofInt 0
  start_opened : (s.m_board.m_nodes start).opened = true
  start_parent : (s.m_board.m_nodes start).parent = none
  start_g : v (s.m_board.m_nodes start).ext.g = 0
  chain : ∀ c, (s.m_board.m_nodes c).opened = true → c ≠ start →
    ∃ p, (s.m_board.m_nodes c).parent = some p ∧ (s.m_board.m_nodes p).ext.closed = true ∧
      cheb p c = 1 ∧
      |v (s.m_board.m_nodes c).ext.g - (octile c2 start p + octile c2 p c)| ≤
        ((cheb start p : ℝ) + 1) * ε ∧
      (s.m_board.m_nodes c).ext.h = distance A heuristic c goal
  closed_g : ∀ c, (s.m_board.m_nodes c).ext.closed = true →
    |v (s.m_board.m_nodes c).ext.g - octile c2 start c| ≤ (cheb start c : ℝ) * ε
  closed_shape : ∀ c p, (s.m_board.m_nodes c).ext.closed = true →
    (s.m_board.m_nodes c).parent = some p → Straight start p c

/-- The neighbors of the closed node `c` are opened, and the computed `h + g` of those that
are not closed is at most what the way by `c` gives, within `T`. -/
def NeighborsDoneK (A : Env α) (v : α → ℝ) (hstar : Coordinate → ℝ) (c2 T : ℝ)
    (size start : Coordinate) (s : State α) (c : Coordinate) : Prop :=
  ∀ m, InBounds size m → cheb c m = 1 →
    (s.m_board.m_nodes m).opened = true ∧
    ((s.m_board.m_nodes m).ext.closed = false →
      fval A v s m ≤ hstar m + (octile c2 start c + octile c2 c m) + T)

/-- Invariant of a run of A* with diagonal moves on a board without obstacles, between the
calls of `nextStep`, the start not being the goal: the goal is not opened, the start is
closed or is the only frontier node, and the neighbors of every closed node are done. -/
structure OptInvK (A : Env α) (v : α → ℝ) (hstar : Coordinate → ℝ) (c2 ε T : ℝ)
    (heuristic : Heuristic) (size start goal : Coordinate) (s : State α) : Prop where
  core : KCore A v c2 ε heuristic size start goal s
  goal_unopened : (s.m_board.m_nodes goal).opened = false
  start_front : (s.m_board.m_nodes start).ext.closed = true ∨ s.m_openNodes = [start]
  done : ∀ c, (s.m_board.m_nodes c).ext.closed = true →
    NeighborsDoneK A v hstar c2 T size start s c

/-- Invariant during the expansion of the closed node `node`, `rem` being the neighbors the
loop has yet to visit: the neighbors of the other closed nodes are done, those of `node` are
done or yet to be visited, and when the goal is next to `node` the move to it goes on along
a cheapest path from the start. -/
structure ExpInvK (A : Env α) (v : α → ℝ) (hstar : Coordinate → ℝ) (c2 ε T : ℝ)
    (heuristic : Heuristic) (size start goal : Coordinate) (node : Coordinate)
    (rem : List Coordinate) (s : State α) : Prop where
  rem_adj : ∀ n ∈ rem, InBounds size n ∧ cheb node n = 1
  core : KCore A v c2 ε heuristic size start goal s
  goal_unopened : (s.m_board.m_nodes goal).opened = false
  start_closed : (s.m_board.m_nodes start).ext.closed = true
  node_closed : (s.m_board.m_nodes node).ext.closed = true
  done : ∀ c, (s.m_board.m_nodes c).ext.closed = true → c ≠ node →
    NeighborsDoneK A v hstar c2 T size start s c
  progress : ∀ m, InBounds size m → cheb node m = 1 → m ∈ rem ∨
    ((s.m_board.m_nodes m).opened = true ∧
      ((s.m_board.m_nodes m).ext.closed = false →
        fval A v s m ≤ hstar m + (octile c2 start node + octile c2 node m) + T))
  node_goal : cheb node goal = 1 → Straight start node goal

/-- Invariant of a run of A* with diagonal moves on a board without obstacles when a
diagonal move costs as much as two straight ones and the arithmetic is exact, between the
calls of `nextStep`, the start not being the goal: `k` nodes are closed, the first `k` cells
of the path `toward` the goal; the next cell of that path is on the frontier, with the cell
before it as parent; every other frontier node is farther from the goal in Manhattan
distance, so has a larger `h`. -/
structure GreedyInv (A : Env α) (v : α → ℝ) (heuristic : Heuristic)
    (size start goal : Coordinate) (k : Int) (s : State α) : Prop where
  core : KCore A v 2 0 heuristic size start goal s
  k_nonneg : 0 ≤ k
  k_lt : k < cheb start goal
  goal_unopened : (s.m_board.m_nodes goal).opened = false
  closed_iff : ∀ c, (s.m_board.m_nodes c).ext.closed = true ↔
    ∃ j, 0 ≤ j ∧ j < k ∧ c = toward j start goal
  first : k = 0 → s.m_openNodes = [start]
  next_front : toward k start goal ∈ s.m_openNodes
  next_parent : 0 < k →
    (s.m_board.m_nodes (toward k start goal)).parent = some (toward (k - 1) start goal)
  others : ∀ c ∈ s.m_openNodes, c ≠ toward k start goal →
    manhattan (toward k start goal) goal < manhattan c goal

/-- The same during the expansion of the `k`-th cell of the path, `rem` being the neighbors
the loop has yet to visit: the next cell of the path is yet to be visited and not opened, or
it is on the frontier with the expanded cell as parent. -/
structure GreedyLoop (A : Env α) (v : α → ℝ) (heuristic : Heuristic)
    (size start goal : Coordinate) (k : Int) (rem : List Coordinate) (s : State α) : Prop where
  rem_adj : ∀ n ∈ rem, InBounds size n ∧ cheb (toward k start goal) n = 1
  rem_nodup : rem.Nodup
  core : KCore A v 2 0 heuristic size start goal s
  k_nonneg : 0 ≤ k
  k_lt : k < cheb start goal
  goal_unopened : (s.m_board.m_nodes goal).opened = false
  closed_iff : ∀ c, (s.m_board.m_nodes c).ext.closed = true ↔
    ∃ j, 0 ≤ j ∧ j ≤ k ∧ c = toward j start goal
  progress : (toward (k + 1) start goal ∈ rem ∧
      (s.m_board.m_nodes (toward (k + 1) start goal)).opened = false) ∨
    (toward (k + 1) start goal ∉ rem ∧ toward (k + 1) start goal ∈ s.m_openNodes ∧
      (s.m_board.m_nodes (toward (k + 1) start goal)).parent = some (toward k start goal))
  others : ∀ c ∈ s.m_openNodes, c ≠ toward (k + 1) start goal →
    manhattan (toward (k + 1) start goal) goal < manhattan c goal

/-- The state in which the goal has just been opened: the goal is opened, its parent is a
closed node next to it, and the move from the parent goes on along a cheapest path from the
start. -/
def GoalFound (A : Env α) (v : α → ℝ) (c2 ε : ℝ) (heuristic : Heuristic)
    (size start goal : Coordinate) (s : State α) : Prop :=
  KCore A v c2 ε heuristic size start goal s ∧
  ∃ p, (s.m_board.m_nodes goal).parent = some p ∧ (s.m_board.m_nodes p).ext.closed = true ∧
    cheb p goal = 1 ∧ Straight start p goal

/-- What the run leaves when the goal is reached: a solution from the goal to the start of
`cheb start goal + 1` coordinates, consecutive ones being one move apart, with
`manhattan start goal - cheb start goal` diagonal edges. -/
def KingPath (start goal : Coordinate) (s : State α) : Prop :=
  (s.solution.length : Int) = cheb start goal + 1 ∧
  s.solution.head? = some goal ∧ s.solution.getLast? = some start ∧
  (diagonalEdges s.solution : Int) = manhattan start goal - cheb start goal ∧
  s.solution.Chain' (fun a b => cheb a b = 1)

end AStar

namespace AlgorithmBase

/-- The cost `octile (C / 2^23) a b` of a cheapest path in units of `2^-52`, an integer:
`C / 2^23` is the cost of a diagonal move when it is a `float`. -/
def octileUnits (C : Int) (a b : Coordinate) : Int :=
  2 ^ 29 * ((2 ^ 24 - C) * cheb a b + (C - 2 ^ 23) * manhattan a b)

end AlgorithmBase

/-! ## PathFinder.hpp -/

namespace PathFinder

/-- The fields of `PathFinder`: the algorithm to run and the collection of obstacles. The
`std::unordered_map` from coordinates to flags is held as the list of its entries, each key
once, in the order in which the keys were inserted. -/
structure State (E : Type) where
  m_algorithm : Algorithm E
  m_obstacles : List (Coordinate × Bool)

/-- The assignment `m_obstacles[c] = obstacle`: the flag of the entry of `c` is replaced, and
an entry is added when `c` has none. -/
def assign : List (Coordinate × Bool) → Coordinate → Bool → List (Coordinate × Bool)
  | [], c, o => [(c, o)]
  | e :: rest, c, o => if e.1 = c then (c, o) :: rest else e :: assign rest c o

/-- Body of `PathFinder::initObstacles`: `setObstacle(c.first)` for every entry `c` of the
map. The flag `c.second` of the entry is not read: the parameter `obstacle` of `setObstacle`
takes its default, true. The entries are visited in the order of the list (the order in
which the program visits them is unspecified). -/
def initObstacles {E : Type} (p : State E) : State E :=
  { p with
    m_algorithm :=
      p.m_obstacles.foldl (fun a e => AlgorithmBase.setObstacle a e.1 true) p.m_algorithm }

/-- The constructor of `PathFinder`. -/
def create {E : Type} (algorithm : Algorithm E) : State E :=
  initObstacles { m_algorithm := algorithm, m_obstacles := [] }

/-- Body of `PathFinder::setAlgorithm`; the new algorithm can be of another class. -/
def setAlgorithm {E E' : Type} (p : State E) (algorithm : Algorithm E') : State E' :=
  initObstacles { m_algorithm := algorithm, m_obstacles := p.m_obstacles }

/-- Body of `PathFinder::setObstacle`. -/
def setObstacle {E : Type} (p : State E) (c : Coordinate) (obstacle : Bool) : State E :=
  { m_algorithm := AlgorithmBase.setObstacle p.m_algorithm c obstacle
    m_obstacles := assign p.m_obstacles c obstacle }

/-- Body of `PathFinder::setObstacles`: the parameter `obstacle` is not passed on. -/
def setObstacles {E : Type} (p : State E) (cs : List Coordinate) (_obstacle : Bool) : State E :=
  cs.foldl (fun p c => setObstacle p c true) p

/-- Body of `PathFinder::resetObstacles`. -/
def resetObstacles {E : Type} (p : State E) : State E :=
  { p with m_obstacles := [] }

/-- A sequence of `PathFinder::setObstacle` calls. -/
def setObstacleCalls {E : Type} (p : State E) : List (Coordinate × Bool) → State E
  | [] => p
  | (c, o) :: rest => setObstacleCalls (setObstacle p c o) rest

end PathFinder
namespace AlgorithmBase

variable {E : Type}

/-- Invariant of every state of a run on the grid of `b0` with the movement rules `d`,
`cc`, also after the goal was found: the board keeps the grid of `b0`, every opened node is
in bounds and no obstacle, every parent link goes to an opened node of which the node is a
neighbor, the frontier holds opened nodes, each once, and the counters balance. -/
structure Tidy (b0 : Board E) (d cc : Bool) (s : Algorithm E) : Prop where
  grid : Board.SameGrid b0 s.m_board
  diag : s.m_diagonals = d
  cut : s.m_cutCorners = cc
  opened_ok : ∀ c, (s.m_board.m_nodes c).opened = true →
    b0.isValidNode c = true ∧ (b0.m_nodes c).obstacle = false
  moves : ∀ c p, (s.m_board.m_nodes c).parent = some p →
    (s.m_board.m_nodes p).opened = true ∧ c ∈ b0.getNeighbors p [] d cc
  front_opened : ∀ c ∈ s.m_openNodes, (s.m_board.m_nodes c).opened = true
  front_nodup : s.m_openNodes.Nodup
  balance : s.nodesOpened = s.nodesClosed + s.m_openNodes.length

/-- The counters and the frontier agree with the board: `nodesOpened` is `nodesClosed` plus
the size of the frontier, it is the number of nodes of the board whose `opened` flag is set,
no node occurs twice in the frontier, and every opened node is a node of the board that is
no obstacle. -/
def Counted (s : Algorithm E) : Prop :=
  s.nodesOpened = s.nodesClosed + s.m_openNodes.length ∧
  s.nodesOpened = (s.m_board.allCoords.filter fun c => (s.m_board.m_nodes c).opened).length ∧
  s.m_openNodes.Nodup ∧
  ∀ c, (s.m_board.m_nodes c).opened = true →
    s.m_board.isValidNode c = true ∧ (s.m_board.m_nodes c).obstacle = false ∧
      isObstacle s c = false

end AlgorithmBase

namespace AlgorithmBase

variable {E : Type}

/-- The solution of the state is a valid path on its board: every coordinate is an
accessible neighbor, by the configured rules of movement, of the coordinate that follows it
(so the two are adjacent cells, side by side when diagonals are disabled), every coordinate
is a node of the board that is no obstacle, and no coordinate occurs twice. -/
def ValidPath (s : Algorithm E) : Prop :=
  s.solution.Chain' (fun a b =>
    a ∈ s.m_board.getNeighbors b [] s.m_diagonals s.m_cutCorners ∧
    s.m_board.isAccessible b a s.m_cutCorners = true ∧ cheb a b = 1 ∧
    (s.m_diagonals = false → manhattan a b = 1)) ∧
  (∀ c ∈ s.solution, s.m_board.isValidNode c = true ∧ isObstacle s c = false) ∧
  s.solution.Nodup

end AlgorithmBase
namespace AlgorithmBase

variable {E : Type}

/-- Invariant of a run that has not opened the goal: the start is opened, the goal is not,
and every neighbor of an opened node that is no longer on the frontier is opened. -/
structure Explore (b0 : Board E) (d cc : Bool) (s : Algorithm E) : Prop where
  start : (s.m_board.m_nodes b0.m_start).opened = true
  goal : (s.m_board.m_nodes b0.m_goal).opened = false
  done : ∀ c, (s.m_board.m_nodes c).opened = true → c ∉ s.m_openNodes →
    ∀ n ∈ b0.getNeighbors c [] d cc, (s.m_board.m_nodes n).opened = true

/-- The same during the expansion of `node`, `rem` being the neighbors of `node` the loop
has yet to visit. -/
structure ExploreLoop (b0 : Board E) (d cc : Bool) (node : Coordinate)
    (rem : List Coordinate) (s : Algorithm E) : Prop where
  rem_nbs : ∀ n ∈ rem, n ∈ b0.getNeighbors node [] d cc
  start : (s.m_board.m_nodes b0.m_start).opened = true
  goal : (s.m_board.m_nodes b0.m_goal).opened = false
  done : ∀ c, (s.m_board.m_nodes c).opened = true → c ∉ s.m_openNodes → c ≠ node →
    ∀ n ∈ b0.getNeighbors c [] d cc, (s.m_board.m_nodes n).opened = true
  progress : ∀ n ∈ b0.getNeighbors node [] d cc, n ∈ rem ∨ (s.m_board.m_nodes n).opened = true

end AlgorithmBase
namespace AlgorithmBase

variable {E : Type}

/-- A walk on the board from `a` to `z`: a non-empty sequence of coordinates from `a` to
`z` in which every coordinate but the first is a neighbor `getNeighbors` returns for the
one before it. The number of moves of the walk is its length minus one. -/
def IsWalk (b : Board E) (d cc : Bool) (a z : Coordinate) (w : List Coordinate) : Prop :=
  w.head? = some a ∧ w.getLast? = some z ∧
    w.Chain' (fun x y => y ∈ b.getNeighbors x [] d cc)

/-- Invariant of the levels in a run of Breadth-First: `lv` gives every opened node the
number of parent links from it to the start, and `m` is the level of the node that is being
expanded (or was expanded last). The levels of two opened nodes joined by a move differ by
one at most, the queue holds nodes of the levels `m` and `m + 1`, those of level `m` first,
and the opened nodes that have left the queue are of level `m` at most. -/
structure Levels (b0 : Board E) (d cc : Bool) (lv : Coordinate → Nat) (m : Nat)
    (s : Algorithm E) : Prop where
  start_opened : (s.m_board.m_nodes b0.m_start).opened = true
  lv_start : lv b0.m_start = 0
  lv_parent : ∀ c p, (s.m_board.m_nodes c).parent = some p → lv c = lv p + 1
  edge : ∀ u v, (s.m_board.m_nodes u).opened = true → (s.m_board.m_nodes v).opened = true →
    v ∈ b0.getNeighbors u [] d cc → lv v ≤ lv u + 1
  front : ∀ a ∈ s.m_openNodes, m ≤ lv a ∧ lv a ≤ m + 1
  sorted : s.m_openNodes.Pairwise (fun a b => lv a ≤ lv b)
  all_le : ∀ c, (s.m_board.m_nodes c).opened = true → lv c ≤ m + 1
  closed_le : ∀ c, (s.m_board.m_nodes c).opened = true → c ∉ s.m_openNodes → lv c ≤ m

end AlgorithmBase
namespace AStar

open AlgorithmBase

variable {α : Type}

/-- What the invariant of the costs assumes of the arithmetic: no sum A* computes on the
board reaches `max`. `S k` holds of the values the field `g` can take after `k` moves: of 0
for `k = 0`, and of `x + distance(p, n)` for `k + 1` when it holds of `x` for `k` and `p`,
`n` are adjacent cells of the board. For `k` up to the number of nodes of the board,
`distance(n, goal) + x < max + 0`: the test `updateNode` makes on a node that was never
updated succeeds. -/
structure CostBound (A : Env α) (heuristic : Heuristic) (size goal : Coordinate)
    (S : Nat → α → Prop) : Prop where
  zero : S 0 (A.ofInt 0)
  step : ∀ k x p n, S k x → InBounds size p → InBounds size n → cheb p n = 1 →
    S (k + 1) (A.add x (distance A heuristic p n))
  fits : ∀ k x n, S k x → k ≤ size.1.toNat * size.2.toNat → InBounds size n →
    A.lt (A.add (distance A heuristic n goal) x) (A.add A.maxValue (A.ofInt 0)) = true

/-- Invariant of the costs in every state of a run of A* on a freshly constructed instance:
a node that is not opened has the `h` and `g` of `Node::init`; the `g` of the start is 0,
and the start is closed once a call of `nextStep` has been made; the parent of a node is
closed, the `g` of the node is the `g` of the parent plus the distance from the parent, and
its `h` is the distance to the goal; the `g` of an opened node is a value a path of at most
`nodesClosed` moves can have (of fewer, if the node is closed). -/
structure Costs (A : Env α) (S : Nat → α → Prop) (heuristic : Heuristic)
    (b0 : Board (Ext α)) (s : State α) : Prop where
  heur : s.m_heuristic = heuristic
  fresh : ∀ c, (s.m_board.m_nodes c).opened = false →
    (s.m_board.m_nodes c).ext.h = A.maxValue ∧ (s.m_board.m_nodes c).ext.g = A.ofInt 0
  start_g : (s.m_board.m_nodes b0.m_start).ext.g = A.ofInt 0
  start_closed : (s.m_board.m_nodes b0.m_start).ext.closed = true ∨
    s.m_openNodes = [b0.m_start]
  cost : ∀ c p, (s.m_board.m_nodes c).parent = some p →
    (s.m_board.m_nodes p).ext.closed = true ∧
    (s.m_board.m_nodes c).ext.g = A.add (s.m_board.m_nodes p).ext.g
      (distance A heuristic (s.m_board.m_nodes p).position (s.m_board.m_nodes c).position) ∧
    (s.m_board.m_nodes c).ext.h =
      distance A heuristic (s.m_board.m_nodes c).position s.m_board.getGoal
  bound : ∀ c, (s.m_board.m_nodes c).opened = true →
    ∃ k, S k (s.m_board.m_nodes c).ext.g ∧ k ≤ s.nodesClosed ∧
      ((s.m_board.m_nodes c).ext.closed = true → k < s.nodesClosed)

/-- The sum of the step costs along a solution, which lists the path from the goal back to
the start: the costs `distance(p, c)` of the moves from a coordinate `p` to the coordinate
`c` listed before it, added up from the start in the order of the moves. -/
def pathCost (A : Env α) (heuristic : Heuristic) : List Coordinate → α
  | [] => A.ofInt 0
  | [_] => A.ofInt 0
  | c :: p :: rest => A.add (pathCost A heuristic (p :: rest)) (distance A heuristic p c)

end AStar

/-! ## `std::sort` as the C++ library implements it

The program hands its comparators to `std::sort`. The functions below follow the
implementation of `std::sort` in libstdc++ (`bits/stl_algo.h` and `bits/stl_heap.h` of
GCC 12), function by function, on a vector of node pointers held as the list of their
coordinates. Iterators are indices, of type `Int` because the unguarded loops can step
below the first element. Every read and write goes through `rd` and `wr`, which fail
outside the vector: the result `none` of a function stands for a run in which `std::sort`
reads or writes outside the vector (undefined behaviour in the program). The loops are
given more rounds than they can make inside the vector, so that they end by themselves or
by such an access. -/

namespace StdSort

/-- Read of `*it` for the iterator at index `i`; `none` outside the vector. -/
def rd (v : List Coordinate) (i : Int) : Option Coordinate :=
  if i < 0 then none else v.get? i.toNat

/-- Write of `*it = x` for the iterator at index `i`; `none` outside the vector. -/
def wr (v : List Coordinate) (i : Int) (x : Coordinate) : Option (List Coordinate) :=
  if i < 0 then none else if i.toNat < v.length then some (v.set i.toNat x) else none

/-- Body of `std::iter_swap`. -/
def iterSwap (v : List Coordinate) (i j : Int) : Option (List Coordinate) :=
  match rd v i, rd v j with
  | some a, some b =>
    match wr v i b with
    | some v => wr v j a
    | none => none
  | _, _ => none

/-- The loop of `__unguarded_linear_insert`:
`while (comp(val, next)) { *last = *next; last = next; --next; } *last = val;`
with `next = last - 1`. -/
def unguardedLinearInsertLoop (comp : Coordinate → Coordinate → Bool) (val : Coordinate) :
    Nat → List Coordinate → Int → Option (List Coordinate)
  | 0, _, _ => none
  | fuel + 1, v, last =>
    match rd v (last - 1) with
    | none => none
    | some x =>
      if comp val x then
        match wr v last x with
        | none => none
        | some v => unguardedLinearInsertLoop comp val fuel v (last - 1)
      else wr v last val

/-- Body of `__unguarded_linear_insert(last, comp)`. -/
def unguardedLinearInsert (comp : Coordinate → Coordinate → Bool) (v : List Coordinate)
    (last : Int) : Option (List Coordinate) :=
  match rd v last with
  | none => none
  | some val => unguardedLinearInsertLoop comp val (v.length + 1) v last

/-- The call `std::move_backward(first, i, i + 1)`: the elements of `[first, i)` move one
place up, the last one first. `j` is the place written next. -/
def moveBackward (first : Int) : Nat → List Coordinate → Int → Option (List Coordinate)
  | 0, _, _ => none
  | fuel + 1, v, j =>
    if j ≤ first then some v
    else
      match rd v (j - 1) with
      | none => none
      | some x =>
        match wr v j x with
        | none => none
        | some v => moveBackward first fuel v (j - 1)

/-- The loop `for (i = first + 1; i != last; ++i)` of `__insertion_sort`. -/
def insertionSortLoop (comp : Coordinate → Coordinate → Bool) (first last : Int) :
    Nat → List Coordinate → Int → Option (List Coordinate)
  | 0, _, _ => none
  | fuel + 1, v, i =>
    if i = last then some v
    else
      match rd v i, rd v first with
      | some a, some b =>
        if comp a b then
          match moveBackward first (v.length + 1) v i with
          | none => none
          | some v =>
            match wr v first a with
            | none => none
            | some v => insertionSortLoop comp first last fuel v (i + 1)
        else
          match unguardedLinearInsert comp v i with
          | none => none
          | some v => insertionSortLoop comp first last fuel v (i + 1)
      | _, _ => none

/-- Body of `__insertion_sort(first, last, comp)`. -/
def insertionSort (comp : Coordinate → Coordinate → Bool) (v : List Coordinate)
    (first last : Int) : Option (List Coordinate) :=
  if first = last then some v
  else insertionSortLoop comp first last (v.length + 1) v (first + 1)

/-- Body of `__unguarded_insertion_sort(first, last, comp)`, from `i` on. -/
def unguardedInsertionSort (comp : Coordinate → Coordinate → Bool) (last : Int) :
    Nat → List Coordinate → Int → Option (List Coordinate)
  | 0, _, _ => none
  | fuel + 1, v, i =>
    if i = last then some v
    else
      match unguardedLinearInsert comp v i with
      | none => none
      | some v => unguardedInsertionSort comp last fuel v (i + 1)

/-- Body of `__final_insertion_sort(first, last, comp)`, with `_S_threshold = 16`. -/
def finalInsertionSort (comp : Coordinate → Coordinate → Bool) (v : List Coordinate)
    (first last : Int) : Option (List Coordinate) :=
  if last - first > 16 then
    match insertionSort comp v first (first + 16) with
    | none => none
    | some v => unguardedInsertionSort comp last (v.length + 1) v (first + 16)
  else insertionSort comp v first last

/-- Body of `__move_median_to_first(result, a, b, c, comp)`. -/
def moveMedianToFirst (comp : Coordinate → Coordinate → Bool) (v : List Coordinate)
    (result a b c : Int) : Option (List Coordinate) :=
  match rd v a, rd v b, rd v c with
  | some x, some y, some z =>
    if comp x y then
      if comp y z then iterSwap v result b
      else if comp x z then iterSwap v result c
      else iterSwap v result a
    else if comp x z then iterSwap v result a
    else if comp y z then iterSwap v result c
    else iterSwap v result b
  | _, _, _ => none

/-- The loop `while (comp(first, pivot)) ++first;` of `__unguarded_partition`. -/
def partitionUp (comp : Coordinate → Coordinate → Bool) (v : List Coordinate) (pivot : Int) :
    Nat → Int → Option Int
  | 0, _ => none
  | fuel + 1, first =>
    match rd v first, rd v pivot with
    | some a, some p => if comp a p then partitionUp comp v pivot fuel (first + 1) else some first
    | _, _ => none

/-- The loop `while (comp(pivot, last)) --last;` of `__unguarded_partition`. -/
def partitionDown (comp : Coordinate → Coordinate → Bool) (v : List Coordinate) (pivot : Int) :
    Nat → Int → Option Int
  | 0, _ => none
  | fuel + 1, last =>
    match rd v pivot, rd v last with
    | some p, some a => if comp p a then partitionDown comp v pivot fuel (last - 1) else some last
    | _, _ => none

/-- Body of `__unguarded_partition(first, last, pivot, comp)`: the cut and the vector. -/
def unguardedPartition (comp : Coordinate → Coordinate → Bool) (pivot : Int) :
    Nat → List Coordinate → Int → Int → Option (Int × List Coordinate)
  | 0, _, _, _ => none
  | fuel + 1, v, first, last =>
    match partitionUp comp v pivot (v.length + 1) first with
    | none => none
    | some first =>
      match partitionDown comp v pivot (v.length + 1) (last - 1) with
      | none => none
      | some last =>
        if first < last then
          match iterSwap v first last with
          | none => none
          | some v => unguardedPartition comp pivot fuel v (first + 1) last
        else some (first, v)

/-- Body of `__unguarded_partition_pivot(first, last, comp)`. -/
def unguardedPartitionPivot (comp : Coordinate → Coordinate → Bool) (v : List Coordinate)
    (first last : Int) : Option (Int × List Coordinate) :=
  let mid := first + ((last - first).toNat / 2 : Nat)
  match moveMedianToFirst comp v first (first + 1) mid (last - 1) with
  | none => none
  | some v => unguardedPartition comp first (v.length + 1) v (first + 1) last

/-- The loop of `__push_heap`: `parent = (holeIndex - 1) / 2;
while (holeIndex > topIndex && comp(first + parent, value)) ...`. -/
def pushHeapLoop (comp : Coordinate → Coordinate → Bool) (first : Int) (topIndex : Nat)
    (value : Coordinate) : Nat → List Coordinate → Nat → Option (List Coordinate)
  | 0, _, _ => none
  | fuel + 1, v, holeIndex =>
    if topIndex < holeIndex then
      match rd v (first + ((holeIndex - 1) / 2 : Nat)) with
      | none => none
      | some x =>
        if comp x value then
          match wr v (first + holeIndex) x with
          | none => none
          | some v => pushHeapLoop comp first topIndex value fuel v ((holeIndex - 1) / 2)
        else wr v (first + holeIndex) value
    else wr v (first + holeIndex) value

/-- The loop `while (secondChild < (len - 1) / 2)` of `__adjust_heap`: the vector, the hole
and the second child when it ends. -/
def adjustHeapLoop (comp : Coordinate → Coordinate → Bool) (first : Int) (len : Nat) :
    Nat → List Coordinate → Nat → Nat → Option (List Coordinate × Nat × Nat)
  | 0, _, _, _ => none
  | fuel + 1, v, holeIndex, secondChild =>
    if secondChild < (len - 1) / 2 then
      let c := 2 * (secondChild + 1)
      match rd v (first + c), rd v (first + (c - 1 : Nat)) with
      | some x, some y =>
        let c := if comp x y then c - 1 else c
        match rd v (first + c) with
        | none => none
        | some z =>
          match wr v (first + holeIndex) z with
          | none => none
          | some v => adjustHeapLoop comp first len fuel v c c
      | _, _ => none
    else some (v, holeIndex, secondChild)

/-- Body of `__adjust_heap(first, holeIndex, len, value, comp)`. -/
def adjustHeap (comp : Coordinate → Coordinate → Bool) (v : List Coordinate) (first : Int)
    (holeIndex len : Nat) (value : Coordinate) : Option (List Coordinate) :=
  match adjustHeapLoop comp first len (v.length + 1) v holeIndex holeIndex with
  | none => none
  | some (v, hole, secondChild) =>
    if len % 2 = 0 ∧ 2 ≤ len ∧ secondChild = (len - 2) / 2 then
      match rd v (first + (2 * (secondChild + 1) - 1 : Nat)) with
      | none => none
      | some z =>
        match wr v (first + hole) z with
        | none => none
        | some v =>
          pushHeapLoop comp first holeIndex value (v.length + 1) v (2 * (secondChild + 1) - 1)
    else pushHeapLoop comp first holeIndex value (v.length + 1) v hole

/-- Body of `__pop_heap(first, last, result, comp)`. -/
def popHeap (comp : Coordinate → Coordinate → Bool) (v : List Coordinate)
    (first last result : Int) : Option (List Coordinate) :=
  match rd v result, rd v first with
  | some value, some x =>
    match wr v result x with
    | none => none
    | some v => adjustHeap comp v first 0 (last - first).toNat value
  | _, _ => none

/-- The loop of `__make_heap`, from `parent` down to 0. -/
def makeHeapLoop (comp : Coordinate → Coordinate → Bool) (first : Int) (len : Nat) :
    Nat → List Coordinate → Option (List Coordinate)
  | parent, v =>
    match rd v (first + parent) with
    | none => none
    | some value =>
      match adjustHeap comp v first parent len value with
      | none => none
      | some v =>
        match parent with
        | 0 => some v
        | p + 1 => makeHeapLoop comp first len p v

/-- Body of `__make_heap(first, last, comp)`. -/
def makeHeap (comp : Coordinate → Coordinate → Bool) (v : List Coordinate)
    (first last : Int) : Option (List Coordinate) :=
  if last - first < 2 then some v
  else makeHeapLoop comp first (last - first).toNat (((last - first).toNat - 2) / 2) v

/-- Body of `__sort_heap(first, last, comp)`. -/
def sortHeap (comp : Coordinate → Coordinate → Bool) (first : Int) :
    Nat → List Coordinate → Int → Option (List Coordinate)
  | 0, _, _ => none
  | fuel + 1, v, last =>
    if last - first > 1 then
      match popHeap comp v first (last - 1) (last - 1) with
      | none => none
      | some v => sortHeap comp first fuel v (last - 1)
    else some v

/-- The loop `for (i = middle; i < last; ++i)` of `__heap_select`. -/
def heapSelectLoop (comp : Coordinate → Coordinate → Bool) (first middle last : Int) :
    Nat → List Coordinate → Int → Option (List Coordinate)
  | 0, _, _ => none
  | fuel + 1, v, i =>
    if i < last then
      match rd v i, rd v first with
      | some a, some b =>
        if comp a b then
          match popHeap comp v first middle i with
          | none => none
          | some v => heapSelectLoop comp first middle last fuel v (i + 1)
        else heapSelectLoop comp first middle last fuel v (i + 1)
      | _, _ => none
    else some v

/-- Body of `__partial_sort(first, middle, last, comp)`: `__heap_select`, then
`__sort_heap`. -/
def partialSort (comp : Coordinate → Coordinate → Bool) (v : List Coordinate)
    (first middle last : Int) : Option (List Coordinate) :=
  match makeHeap comp v first middle with
  | none => none
  | some v =>
    match heapSelectLoop comp first middle last (v.length + 1) v middle with
    | none => none
    | some v => sortHeap comp first (v.length + 1) v middle

/-- Body of `__introsort_loop(first, last, depth_limit, comp)`, by recursion on the depth
limit, which every round of the loop lowers by one. -/
def introsortLoop (comp : Coordinate → Coordinate → Bool) :
    Nat → List Coordinate → Int → Int → Option (List Coordinate)
  | 0, v, first, last =>
    if last - first > 16 then partialSort comp v first last last else some v
  | depth + 1, v, first, last =>
    if last - first > 16 then
      match unguardedPartitionPivot comp v first last with
      | none => none
      | some (cut, v) =>
        match introsortLoop comp depth v cut last with
        | none => none
        | some v => introsortLoop comp depth v first cut
    else some v

/-- The function `std::__lg(n)`: the position of the highest bit of `n`. -/
def lg : Nat → Nat → Nat
  | 0, _ => 0
  | fuel + 1, n => if n < 2 then 0 else lg fuel (n / 2) + 1

/-- Body of `std::sort(first, last, comp)` on the whole vector: the sorted vector, or `none`
when the call reads or writes outside the vector. -/
def sort (comp : Coordinate → Coordinate → Bool) (v : List Coordinate) :
    Option (List Coordinate) :=
  if v.length = 0 then some v
  else
    match introsortLoop comp (lg v.length v.length * 2) v 0 v.length with
    | none => none
    | some v => finalInsertionSort comp v 0 v.length

end StdSort

/-- The binary floating-point interpretation with the `std::sort` of the C++ library. For a
call of `std::sort` that reads or writes outside the vector the list is left as it is, which
says nothing of the program; the statements made in this interpretation show of the calls
of `std::sort` they are about that `StdSort.sort` stays inside the vector, or that it does
not (`stepsInBounds`, `completeInBounds`). -/
def stdEnv : Env Int :=
  doubleEnv.withSort (fun cmp l => (StdSort.sort cmp l).getD l)

namespace BestFirstSearch

/-- The state after `n` calls of `BestFirstSearch::nextStep` that return false and in each
of which `std::sort` stays inside the vector; `none` when one of the `n` calls does not
return false or its `std::sort` leaves the vector. -/
def stepsInBounds (fuel : Nat) : Nat → State Int → Option (State Int)
  | 0, s => some s
  | n + 1, s =>
    match StdSort.sort (compare stdEnv s.m_board) s.m_openNodes with
    | none => none
    | some _ =>
      match nextStep stdEnv fuel s with
      | some (false, s) => stepsInBounds fuel n s
      | _ => none

end BestFirstSearch

/-! ## The Manhattan distance with the `int` arithmetic of the program -/

namespace Int32Arith

variable {α : Type}

/-- The value a 32-bit `int` holds after an operation whose exact result is `z`: `z` itself
when it is in the range of `int`, and `z` reduced modulo `2^32` into that range otherwise
(signed overflow is undefined in C++; the compiled program wraps around). -/
def wrap (z : Int) : Int :=
  (z + 2 ^ 31) % 2 ^ 32 - 2 ^ 31

/-- The expression `std::abs(from.first - to.first) + std::abs(from.second - to.second)` of
`manhattanDistance` and `chebyshevDistance`, whose operands are `int`: each subtraction,
each `std::abs` and the addition is made on `int`. -/
def absSum (from_ to_ : Coordinate) : Int :=
  wrap (wrap |wrap (from_.1 - to_.1)| + wrap |wrap (from_.2 - to_.2)|)

/-- Body of `AlgorithmBase::manhattanDistance`, the sum computed on `int` and converted to
`double` by the `return`. -/
def manhattanDistance (A : Env α) (from_ to_ : Coordinate) : α :=
  A.ofInt (absSum from_ to_)

/-- Body of `AlgorithmBase::chebyshevDistance`, the same expression. -/
def chebyshevDistance (A : Env α) (from_ to_ : Coordinate) : α :=
  A.ofInt (absSum from_ to_)

end Int32Arith

namespace BestFirstSearch

open AlgorithmBase

variable {α : Type}

end BestFirstSearch

namespace AlgorithmBase

variable {E : Type}

/-- What holds of a state `x` during a call of `nextStep` entered in the state `s`: the
solution, the goal and the positions of the nodes are those of `s`, and the nodes opened in
`s` are opened. -/
def DuringCall (s x : Algorithm E) : Prop :=
  x.solution = s.solution ∧ x.m_board.m_goal = s.m_board.m_goal ∧
  (∀ c, (x.m_board.m_nodes c).position = (s.m_board.m_nodes c).position) ∧
  (∀ c, (s.m_board.m_nodes c).opened = true → (x.m_board.m_nodes c).opened = true)

/-- What a call of `nextStep` that returns true on a non-empty frontier has done, `node`
being the node the call took from the frontier in the state `s`: the goal is the position
of `node` itself, or of a neighbor of `node` that was not opened and that the call opened
with `node` as its parent; `storeSolution` was then run in a state `x` with the solution
and the goal of `s`, and left `s'`. -/
def ReachedGoal (fuel : Nat) (s : Algorithm E) (node : Coordinate) (s' : Algorithm E) : Prop :=
  ∃ x n,
    (n = node ∨
      (n ∈ s.m_board.getNeighbors node [] s.m_diagonals s.m_cutCorners ∧
        (s.m_board.m_nodes n).opened = false ∧ (x.m_board.m_nodes n).opened = true ∧
        (x.m_board.m_nodes n).parent = some node)) ∧
    (s.m_board.m_nodes n).position = s.m_board.m_goal ∧
    x.solution = s.solution ∧ x.m_board.m_goal = s.m_board.m_goal ∧
    storeSolution fuel x = some s'

end AlgorithmBase

namespace AStar

/-- The state in which `complete()` returns when it does so within `n` calls of
`AStar::nextStep`, in each of which `std::sort` stays inside the vector; `none` otherwise. -/
def completeInBounds (fuel : Nat) : Nat → State Int → Option (State Int)
  | 0, _ => none
  | n + 1, s =>
    match StdSort.sort (compare stdEnv s.m_board) s.m_openNodes with
    | none => none
    | some _ =>
      match nextStep stdEnv fuel s with
      | some (true, s) => some s
      | some (false, s) => completeInBounds fuel n s
      | none => none

end AStar

/-! ## Theorems: neighbor generation -/

namespace Board

variable {E : Type}

theorem addIfAccessible_eq (b : Board E) (f t : Coordinate) (nb : List Coordinate) (cc : Bool) :
    b.addIfAccessible f t nb cc = nb ++ b.candidate f t cc := by
  unfold addIfAccessible candidate
  split <;> simp

theorem candidate_sublist (b : Board E) (f t : Coordinate) (cc : Bool) :
    (b.candidate f t cc).Sublist [t] := by
  unfold candidate
  split <;> simp

theorem mem_candidate (b : Board E) (f t x : Coordinate) (cc : Bool) :
    x ∈ b.candidate f t cc ↔
      (x = t ∧ b.isValidNode t = true ∧ b.isAccessible (b.m_nodes f).position t cc = true) := by
  unfold candidate
  split <;> rename_i h
  · simp only [Bool.and_eq_true] at h
    simp [h.1, h.2]
  · simp only [Bool.and_eq_true, not_and] at h
    simp only [List.not_mem_nil, false_iff, not_and]
    intro _ h1
    exact h h1

theorem getNeighborsWithoutDiagonals_eq (b : Board E) (node : Coordinate)
    (nb : List Coordinate) :
    b.getNeighborsWithoutDiagonals node nb =
      nb ++ (b.candidate node ((b.m_nodes node).position.1, (b.m_nodes node).position.2 - 1) true ++
        (b.candidate node ((b.m_nodes node).position.1 + 1, (b.m_nodes node).position.2) true ++
        (b.candidate node ((b.m_nodes node).position.1, (b.m_nodes node).position.2 + 1) true ++
         b.candidate node ((b.m_nodes node).position.1 - 1, (b.m_nodes node).position.2) true))) := by
  simp only [getNeighborsWithoutDiagonals, addIfAccessible_eq, List.append_assoc]

theorem getNeighborsWithDiagonals_eq (b : Board E) (node : Coordinate)
    (nb : List Coordinate) (cc : Bool) :
    b.getNeighborsWithDiagonals node nb cc =
      b.getNeighborsWithoutDiagonals node nb ++
       (b.candidate node ((b.m_nodes node).position.1 - 1, (b.m_nodes node).position.2 - 1) cc ++
       (b.candidate node ((b.m_nodes node).position.1 + 1, (b.m_nodes node).position.2 - 1) cc ++
       (b.candidate node ((b.m_nodes node).position.1 + 1, (b.m_nodes node).position.2 + 1) cc ++
        b.candidate node ((b.m_nodes node).position.1 - 1, (b.m_nodes node).position.2 + 1) cc))) := by
  simp only [getNeighborsWithDiagonals, addIfAccessible_eq, List.append_assoc]

theorem getNeighborsWithoutDiagonals_sublist (b : Board E) (node : Coordinate) :
    (b.getNeighborsWithoutDiagonals node []).Sublist
      [((b.m_nodes node).position.1, (b.m_nodes node).position.2 - 1),
       ((b.m_nodes node).position.1 + 1, (b.m_nodes node).position.2),
       ((b.m_nodes node).position.1, (b.m_nodes node).position.2 + 1),
       ((b.m_nodes node).position.1 - 1, (b.m_nodes node).position.2)] := by
  rw [getNeighborsWithoutDiagonals_eq, List.nil_append]
  exact (candidate_sublist _ _ _ _).append ((candidate_sublist _ _ _ _).append
    ((candidate_sublist _ _ _ _).append (candidate_sublist _ _ _ _)))

theorem getNeighborsWithDiagonals_sublist (b : Board E) (node : Coordinate) (cc : Bool) :
    (b.getNeighborsWithDiagonals node [] cc).Sublist
      [((b.m_nodes node).position.1, (b.m_nodes node).position.2 - 1),
       ((b.m_nodes node).position.1 + 1, (b.m_nodes node).position.2),
       ((b.m_nodes node).position.1, (b.m_nodes node).position.2 + 1),
       ((b.m_nodes node).position.1 - 1, (b.m_nodes node).position.2),
       ((b.m_nodes node).position.1 - 1, (b.m_nodes node).position.2 - 1),
       ((b.m_nodes node).position.1 + 1, (b.m_nodes node).position.2 - 1),
       ((b.m_nodes node).position.1 + 1, (b.m_nodes node).position.2 + 1),
       ((b.m_nodes node).position.1 - 1, (b.m_nodes node).position.2 + 1)] := by
  rw [getNeighborsWithDiagonals_eq]
  exact (getNeighborsWithoutDiagonals_sublist b node).append
    ((candidate_sublist _ _ _ _).append ((candidate_sublist _ _ _ _).append
      ((candidate_sublist _ _ _ _).append (candidate_sublist _ _ _ _))))

theorem isValidNode_of_mem_getNeighbors (b : Board E) (node x : Coordinate) (d cc : Bool)
    (h : x ∈ b.getNeighbors node [] d cc) : b.isValidNode x = true := by
  unfold getNeighbors at h
  split at h
  · simp only [getNeighborsWithoutDiagonals_eq, List.nil_append, List.mem_append,
      mem_candidate] at h
    rcases h with h | h | h | h <;> exact h.1 ▸ h.2.1
  · simp only [getNeighborsWithDiagonals_eq, getNeighborsWithoutDiagonals_eq, List.nil_append,
      List.mem_append, mem_candidate] at h
    rcases h with (h | h | h | h) | h | h | h | h <;> exact h.1 ▸ h.2.1

theorem isAccessible_iff (b : Board E) (f t : Coordinate) (cc : Bool) :
    b.isAccessible f t cc = true ↔
      (b.isValidNode t = true ∧ b.isValidNode f = true ∧ (b.m_nodes t).obstacle = false ∧
        ((f.1 = t.1 ∨ f.2 = t.2) ∨
          ((b.m_nodes (f.1, t.2)).obstacle = false ∧ (b.m_nodes (t.1, f.2)).obstacle = false) ∨
          (cc = true ∧ ((b.m_nodes (f.1, t.2)).obstacle = false ∨
            (b.m_nodes (t.1, f.2)).obstacle = false)))) := by
  unfold isAccessible Board.isDiagonal
  cases b.isValidNode t <;> cases b.isValidNode f <;> cases (b.m_nodes t).obstacle <;>
    simp

@[simp] theorem write_m_size (b : Board E) (c : Coordinate) (n : Node E) :
    (b.write c n).m_size = b.m_size := rfl

@[simp] theorem write_m_start (b : Board E) (c : Coordinate) (n : Node E) :
    (b.write c n).m_start = b.m_start := rfl

@[simp] theorem write_m_goal (b : Board E) (c : Coordinate) (n : Node E) :
    (b.write c n).m_goal = b.m_goal := rfl

@[simp] theorem write_isValidNode (b : Board E) (c : Coordinate) (n : Node E) (x : Coordinate) :
    (b.write c n).isValidNode x = b.isValidNode x := rfl

@[simp] theorem write_m_nodes_same (b : Board E) (c : Coordinate) (n : Node E) :
    (b.write c n).m_nodes c = n := by
  simp [write]

theorem write_m_nodes_of_ne (b : Board E) (c : Coordinate) (n : Node E) (x : Coordinate)
    (h : x ≠ c) : (b.write c n).m_nodes x = b.m_nodes x := by
  simp [write, Function.update_noteq h]

theorem write_m_nodes (b : Board E) (c : Coordinate) (n : Node E) (x : Coordinate) :
    (b.write c n).m_nodes x = if x = c then n else b.m_nodes x := by
  by_cases h : x = c
  · subst h
    simp
  · simp [h, write_m_nodes_of_ne]

@[simp] theorem setObstacle_m_size (b : Board E) (c : Coordinate) (o : Bool) :
    (b.setObstacle c o).m_size = b.m_size := by
  unfold setObstacle
  split <;> rfl

@[simp] theorem setObstacle_m_start (b : Board E) (c : Coordinate) (o : Bool) :
    (b.setObstacle c o).m_start = b.m_start := by
  unfold setObstacle
  split <;> rfl

@[simp] theorem setObstacle_m_goal (b : Board E) (c : Coordinate) (o : Bool) :
    (b.setObstacle c o).m_goal = b.m_goal := by
  unfold setObstacle
  split <;> rfl

@[simp] theorem setObstacle_isValidNode (b : Board E) (c : Coordinate) (o : Bool)
    (x : Coordinate) : (b.setObstacle c o).isValidNode x = b.isValidNode x := by
  unfold setObstacle
  split <;> rfl

/-- The node `setObstacle` leaves at `x`: only the obstacle flag of the target can differ. -/
theorem setObstacle_m_nodes (b : Board E) (c : Coordinate) (o : Bool) (x : Coordinate) :
    (b.setObstacle c o).m_nodes x =
      if x = c ∧ b.isValidNode c = true ∧ c ≠ b.m_start ∧ c ≠ b.m_goal then
        { b.m_nodes x with obstacle := o }
      else b.m_nodes x := by
  unfold setObstacle
  by_cases h : (b.isValidNode c && c != b.m_start && c != b.m_goal) = true
  · have h2 : b.isValidNode c = true ∧ c ≠ b.m_start ∧ c ≠ b.m_goal := by
      simpa [and_assoc] using h
    rw [if_pos h, write_m_nodes]
    by_cases hx : x = c
    · subst hx
      simp [h2]
    · simp [hx]
  · have h2 : ¬ (b.isValidNode c = true ∧ c ≠ b.m_start ∧ c ≠ b.m_goal) := by
      simpa [and_assoc] using h
    rw [if_neg h]
    have : ¬ (x = c ∧ b.isValidNode c = true ∧ c ≠ b.m_start ∧ c ≠ b.m_goal) :=
      fun hh => h2 hh.2
    rw [if_neg this]

theorem wellFormed_create (size start goal : Coordinate) (e : E) :
    (Board.create size start goal e).WellFormed := by
  intro c _
  rfl

theorem wellFormed_setObstacle (b : Board E) (h : b.WellFormed) (c : Coordinate) (o : Bool) :
    (b.setObstacle c o).WellFormed := by
  intro x hx
  rw [setObstacle_isValidNode] at hx
  rw [setObstacle_m_nodes]
  split
  · exact h x hx
  · exact h x hx

end Board

/-! ## Theorems: counting the unopened nodes -/

namespace Board

variable {E : Type}

theorem mem_allCoords (b : Board E) (c : Coordinate) :
    c ∈ b.allCoords ↔ b.isValidNode c = true := by
  obtain ⟨x, y⟩ := c
  simp only [allCoords, List.mem_map, List.mem_product, List.mem_range, Prod.mk.injEq,
    isValidNode, Bool.and_eq_true, decide_eq_true_eq, Prod.exists]
  constructor
  · rintro ⟨i, j, ⟨hi, hj⟩, rfl, rfl⟩
    omega
  · rintro ⟨⟨⟨h1, h2⟩, h3⟩, h4⟩
    exact ⟨x.toNat, y.toNat, ⟨by omega, by omega⟩, by omega, by omega⟩

theorem nodup_allCoords (b : Board E) : b.allCoords.Nodup := by
  unfold allCoords
  refine List.Nodup.map ?_ (List.Nodup.product (List.nodup_range _) (List.nodup_range _))
  rintro ⟨a1, a2⟩ ⟨b1, b2⟩ h
  simp only [Prod.mk.injEq] at h ⊢
  omega

theorem length_allCoords (b : Board E) : b.allCoords.length = b.nodeCount := by
  simp [allCoords, nodeCount, List.length_product]

/-- Counting lemma: flipping the predicate from true to false at one element of a
duplicate-free list lowers the count of the filter by one. -/
theorem length_filter_flip {α : Type} [DecidableEq α] (l : List α) (hl : l.Nodup)
    (p q : α → Bool) (c : α) (hc : c ∈ l) (hp : p c = true) (hq : q c = false)
    (hpq : ∀ x, x ≠ c → q x = p x) :
    (l.filter q).length + 1 = (l.filter p).length := by
  induction l with
  | nil => simp at hc
  | cons a t ih =>
    rw [List.nodup_cons] at hl
    by_cases hac : a = c
    · subst hac
      have ht : t.filter q = t.filter p := by
        apply List.filter_congr
        intro x hx
        exact hpq x (fun h => hl.1 (h ▸ hx))
      simp [List.filter_cons, hp, hq, ht]
    · have hct : c ∈ t := by
        rcases List.mem_cons.1 hc with h | h
        · exact absurd h.symm hac
        · exact h
      have := ih hl.2 hct
      rw [List.filter_cons, List.filter_cons, hpq a hac]
      split
      · simp only [List.length_cons]
        omega
      · exact this

theorem length_filter_same {α : Type} (l : List α) (p q : α → Bool)
    (hpq : ∀ x, x ∈ l → q x = p x) : (l.filter q).length = (l.filter p).length := by
  rw [List.filter_congr hpq]

end Board

/-! ## Theorems: writes to the board -/

namespace Board

variable {E : Type}

theorem allCoords_write (b : Board E) (c : Coordinate) (n : Node E) :
    (b.write c n).allCoords = b.allCoords := rfl

theorem unopened_write_open (b : Board E) (c : Coordinate) (n : Node E)
    (hv : b.isValidNode c = true) (h0 : (b.m_nodes c).opened = false) (h1 : n.opened = true) :
    (b.write c n).unopened + 1 = b.unopened := by
  unfold unopened
  rw [allCoords_write]
  refine length_filter_flip _ (nodup_allCoords b) _ _ c ((mem_allCoords b c).2 hv) ?_ ?_ ?_
  · simp [h0]
  · simp [h1]
  · intro x hx
    simp [write_m_nodes_of_ne _ _ _ _ hx]

theorem unopened_write_same (b : Board E) (c : Coordinate) (n : Node E)
    (h : n.opened = (b.m_nodes c).opened) : (b.write c n).unopened = b.unopened := by
  unfold unopened
  rw [allCoords_write]
  refine length_filter_same _ _ _ ?_
  intro x _
  rw [write_m_nodes]
  split
  · rename_i hx
    subst hx
    rw [h]
  · rfl

theorem SameGrid.grid_refl (b : Board E) : SameGrid b b :=
  ⟨rfl, rfl, rfl, fun _ => ⟨rfl, rfl⟩⟩

theorem SameGrid.trans {b1 b2 b3 : Board E} (h12 : SameGrid b1 b2) (h23 : SameGrid b2 b3) :
    SameGrid b1 b3 :=
  ⟨h23.1.trans h12.1, h23.2.1.trans h12.2.1, h23.2.2.1.trans h12.2.2.1,
    fun c => ⟨(h23.2.2.2 c).1.trans (h12.2.2.2 c).1, (h23.2.2.2 c).2.trans (h12.2.2.2 c).2⟩⟩

theorem SameGrid.write {b1 b2 : Board E} (h : SameGrid b1 b2) (c : Coordinate) (n : Node E)
    (ho : n.obstacle = (b2.m_nodes c).obstacle) (hp : n.position = (b2.m_nodes c).position) :
    SameGrid b1 (b2.write c n) := by
  refine ⟨h.1, h.2.1, h.2.2.1, fun x => ?_⟩
  rw [write_m_nodes]
  split
  · rename_i hx
    subst hx
    exact ⟨ho.trans (h.2.2.2 x).1, hp.trans (h.2.2.2 x).2⟩
  · exact h.2.2.2 x

theorem SameGrid.isValidNode {b1 b2 : Board E} (h : SameGrid b1 b2) (c : Coordinate) :
    b2.isValidNode c = b1.isValidNode c := by
  simp [Board.isValidNode, h.1]

theorem SameGrid.wellFormed {b1 b2 : Board E} (h : SameGrid b1 b2) (hw : b1.WellFormed) :
    b2.WellFormed := by
  intro c hc
  rw [(h.2.2.2 c).2]
  exact hw c (by rwa [h.isValidNode] at hc)

theorem SameGrid.isAccessible {b1 b2 : Board E} (h : SameGrid b1 b2) (f t : Coordinate)
    (cc : Bool) : b2.isAccessible f t cc = b1.isAccessible f t cc := by
  simp only [Board.isAccessible, h.isValidNode, (h.2.2.2 _).1]

theorem SameGrid.candidate {b1 b2 : Board E} (h : SameGrid b1 b2) (f t : Coordinate)
    (cc : Bool) : b2.candidate f t cc = b1.candidate f t cc := by
  simp only [Board.candidate, h.isValidNode, h.isAccessible, (h.2.2.2 _).2]

theorem SameGrid.getNeighbors {b1 b2 : Board E} (h : SameGrid b1 b2) (node : Coordinate)
    (d cc : Bool) : b2.getNeighbors node [] d cc = b1.getNeighbors node [] d cc := by
  simp only [Board.getNeighbors, getNeighborsWithDiagonals_eq, getNeighborsWithoutDiagonals_eq,
    h.candidate, (h.2.2.2 _).2]

end Board

/-! ## Theorems: the primitive operations of the algorithms -/

namespace AlgorithmBase

variable {E : Type}

@[simp] theorem pushOpen_solution (s : Algorithm E) (n : Coordinate) (p : Option Coordinate) :
    (pushOpen s n p).solution = s.solution := rfl

@[simp] theorem pushOpen_nodesOpened (s : Algorithm E) (n : Coordinate)
    (p : Option Coordinate) : (pushOpen s n p).nodesOpened = s.nodesOpened + 1 := rfl

@[simp] theorem pushOpen_nodesClosed (s : Algorithm E) (n : Coordinate)
    (p : Option Coordinate) : (pushOpen s n p).nodesClosed = s.nodesClosed := rfl

@[simp] theorem pushOpen_m_heuristic (s : Algorithm E) (n : Coordinate)
    (p : Option Coordinate) : (pushOpen s n p).m_heuristic = s.m_heuristic := rfl

@[simp] theorem pushOpen_m_diagonals (s : Algorithm E) (n : Coordinate)
    (p : Option Coordinate) : (pushOpen s n p).m_diagonals = s.m_diagonals := rfl

@[simp] theorem pushOpen_m_cutCorners (s : Algorithm E) (n : Coordinate)
    (p : Option Coordinate) : (pushOpen s n p).m_cutCorners = s.m_cutCorners := rfl

@[simp] theorem pushOpen_m_openNodes (s : Algorithm E) (n : Coordinate)
    (p : Option Coordinate) : (pushOpen s n p).m_openNodes = s.m_openNodes ++ [n] := rfl

theorem pushOpen_m_board (s : Algorithm E) (n : Coordinate) (p : Option Coordinate) :
    (pushOpen s n p).m_board =
      s.m_board.write n { s.m_board.m_nodes n with parent := p, opened := true } := rfl

@[simp] theorem pushOpen_m_nodes_same (s : Algorithm E) (n : Coordinate)
    (p : Option Coordinate) :
    (pushOpen s n p).m_board.m_nodes n =
      { s.m_board.m_nodes n with parent := p, opened := true } := by
  rw [pushOpen_m_board, Board.write_m_nodes_same]

theorem pushOpen_m_nodes_of_ne (s : Algorithm E) (n : Coordinate) (p : Option Coordinate)
    (x : Coordinate) (h : x ≠ n) :
    (pushOpen s n p).m_board.m_nodes x = s.m_board.m_nodes x := by
  rw [pushOpen_m_board, Board.write_m_nodes_of_ne _ _ _ _ h]

@[simp] theorem pushOpen_isValidNode (s : Algorithm E) (n : Coordinate)
    (p : Option Coordinate) (x : Coordinate) :
    (pushOpen s n p).m_board.isValidNode x = s.m_board.isValidNode x := rfl

@[simp] theorem pushOpen_getGoal (s : Algorithm E) (n : Coordinate) (p : Option Coordinate) :
    getGoal (pushOpen s n p) = getGoal s := rfl

theorem pushOpen_sameGrid (s : Algorithm E) (n : Coordinate) (p : Option Coordinate) :
    Board.SameGrid s.m_board (pushOpen s n p).m_board := by
  rw [pushOpen_m_board]
  exact (Board.SameGrid.grid_refl _).write _ _ rfl rfl

theorem pushOpen_unopened (s : Algorithm E) (n : Coordinate) (p : Option Coordinate)
    (hv : s.m_board.isValidNode n = true) (h0 : (s.m_board.m_nodes n).opened = false) :
    (pushOpen s n p).m_board.unopened + 1 = s.m_board.unopened := by
  rw [pushOpen_m_board]
  exact Board.unopened_write_open _ _ _ hv h0 rfl

/-- What `checkGoal` returns: the state unchanged and false when the coordinate is not the
goal, otherwise what `storeSolution` returns, and true. -/
theorem checkGoal_eq (fuel : Nat) (s : Algorithm E) (c : Coordinate) :
    checkGoal fuel s c =
      if c = getGoal s then (storeSolution fuel s).map (fun s => (true, s))
      else some (false, s) := by
  unfold checkGoal
  by_cases h : c = getGoal s
  · simp only [h, beq_self_eq_true, if_true]
    cases storeSolution fuel s <;> rfl
  · simp [h]

end AlgorithmBase

/-! ## Theorems: proof rules for `nextStep`

For each algorithm, a rule that reduces a property of a `nextStep` call to the primitive
operations the call is made of: closing the node taken from the frontier, opening a
neighbor (after `updateNode` for A*), and storing the solution. -/

namespace BreadthFirstSearch

open AlgorithmBase

theorem bfs_openNode_eq (s : State) (n : Coordinate) (p : Option Coordinate) :
    openNode s n p = pushOpen s n p := rfl

/-- Rule for the neighbor loop: a property kept by every opening of an unopened neighbor
holds when the loop ends; when the loop leaves through `return true`, the result is that of
`storeSolution` in a state that has the property and in which the goal was just opened. -/
theorem bfs_nextStepLoop_rule (fuel : Nat) (node : Coordinate) (J : State → Prop)
    (nbs : List Coordinate)
    (hopen : ∀ x n, J x → n ∈ nbs → (x.m_board.m_nodes n).opened = false →
      J (pushOpen x n (some node)))
    (s : State) (hs : J s) :
    (∃ s', nextStepLoop fuel node nbs s = some (false, s') ∧ J s') ∨
    (∃ s1 n, J s1 ∧ n ∈ nbs ∧ (s1.m_board.m_nodes n).opened = true ∧
      (s1.m_board.m_nodes n).position = getGoal s1 ∧
      nextStepLoop fuel node nbs s = (storeSolution fuel s1).map (fun r => (true, r))) := by
  induction nbs generalizing s with
  | nil => exact Or.inl ⟨s, rfl, hs⟩
  | cons n rest ih =>
    have hopen' : ∀ x m, J x → m ∈ rest → (x.m_board.m_nodes m).opened = false →
        J (pushOpen x m (some node)) :=
      fun x m hx hm => hopen x m hx (List.mem_cons_of_mem _ hm)
    rw [nextStepLoop]
    by_cases ho : (s.m_board.m_nodes n).opened = true
    · rw [if_pos ho]
      rcases ih hopen' s hs with ⟨s', h1, h2⟩ | ⟨s1, m, h1, h2, h3, h4, h5⟩
      · exact Or.inl ⟨s', h1, h2⟩
      · exact Or.inr ⟨s1, m, h1, List.mem_cons_of_mem _ h2, h3, h4, h5⟩
    · rw [if_neg ho]
      have ho' : (s.m_board.m_nodes n).opened = false := by simpa using ho
      have hJ := hopen s n hs (List.mem_cons_self _ _) ho'
      simp only [bfs_openNode_eq, checkGoal_eq]
      by_cases hg : ((pushOpen s n (some node)).m_board.m_nodes n).position =
          getGoal (pushOpen s n (some node))
      · rw [if_pos hg]
        refine Or.inr ⟨pushOpen s n (some node), n, hJ, List.mem_cons_self _ _, by simp, hg, ?_⟩
        cases storeSolution fuel (pushOpen s n (some node)) <;> rfl
      · rw [if_neg hg]
        rcases ih hopen' _ hJ with ⟨s', h1, h2⟩ | ⟨s1, m, h1, h2, h3, h4, h5⟩
        · exact Or.inl ⟨s', h1, h2⟩
        · exact Or.inr ⟨s1, m, h1, List.mem_cons_of_mem _ h2, h3, h4, h5⟩

/-- The body of `nextStep` when the queue is `node :: rest`. -/
theorem bfs_nextStep_cons (fuel : Nat) (s : State) (node : Coordinate) (rest : List Coordinate)
    (hs : s.m_openNodes = node :: rest) :
    nextStep fuel s =
      if (s.m_board.m_nodes node).position = s.m_board.m_goal then
        (storeSolution fuel
          { s with nodesClosed := s.nodesClosed + 1, m_openNodes := rest }).map
          (fun r => (true, r))
      else
        nextStepLoop fuel node (s.m_board.getNeighbors node [] s.m_diagonals s.m_cutCorners)
          { s with nodesClosed := s.nodesClosed + 1, m_openNodes := rest } := by
  have hne : ¬ s.m_openNodes.length = 0 := by simp [hs]
  have hc : closeNode s =
      some (node, { s with nodesClosed := s.nodesClosed + 1, m_openNodes := rest }) := by
    simp [closeNode, hs]
  rw [nextStep, if_neg hne]
  simp only [hc, checkGoal_eq]
  by_cases hg : (s.m_board.m_nodes node).position = s.m_board.m_goal
  · have hg' : (s.m_board.m_nodes node).position =
        getGoal { s with nodesClosed := s.nodesClosed + 1, m_openNodes := rest } := hg
    rw [if_pos hg, if_pos hg']
    cases storeSolution fuel _ <;> rfl
  · have hg' : ¬ (s.m_board.m_nodes node).position =
        getGoal { s with nodesClosed := s.nodesClosed + 1, m_openNodes := rest } := hg
    rw [if_neg hg, if_neg hg']

/-- Rule for `nextStep` when the queue is `node :: rest`. -/
theorem bfs_nextStep_rule (fuel : Nat) (s : State) (node : Coordinate) (rest : List Coordinate)
    (hs : s.m_openNodes = node :: rest) (J : State → Prop)
    (hclose : J { s with nodesClosed := s.nodesClosed + 1, m_openNodes := rest })
    (hopen : ∀ x n, J x →
      n ∈ s.m_board.getNeighbors node [] s.m_diagonals s.m_cutCorners →
      (x.m_board.m_nodes n).opened = false → J (pushOpen x n (some node))) :
    (∃ s', nextStep fuel s = some (false, s') ∧ J s') ∨
    (∃ s1 n, J s1 ∧
      (n = node ∨ (n ∈ s.m_board.getNeighbors node [] s.m_diagonals s.m_cutCorners ∧
        (s1.m_board.m_nodes n).opened = true)) ∧
      (s1.m_board.m_nodes n).position = getGoal s1 ∧
      nextStep fuel s = (storeSolution fuel s1).map (fun r => (true, r))) := by
  rw [bfs_nextStep_cons fuel s node rest hs]
  split
  · rename_i hg
    exact Or.inr ⟨_, node, hclose, Or.inl rfl, hg, rfl⟩
  · rcases bfs_nextStepLoop_rule fuel node J _ hopen _ hclose with
      ⟨s', h1, h2⟩ | ⟨s1, m, h1, h2, h3, h4, h5⟩
    · exact Or.inl ⟨s', h1, h2⟩
    · exact Or.inr ⟨s1, m, h1, Or.inr ⟨h2, h3⟩, h4, h5⟩

end BreadthFirstSearch

namespace DepthFirstSearch

open AlgorithmBase

theorem dfs_openNode_eq (s : State) (n : Coordinate) (p : Option Coordinate) :
    openNode s n p = pushOpen s n p := rfl

/-- Rule for the neighbor loop; the property also depends on the variable `changes`. -/
theorem dfs_nextStepLoop_rule (fuel : Nat) (node : Coordinate) (J : Bool → State → Prop)
    (nbs : List Coordinate)
    (hopen : ∀ ch x n, J ch x → n ∈ nbs → (x.m_board.m_nodes n).opened = false →
      J true (pushOpen x n (some node)))
    (ch : Bool) (s : State) (hs : J ch s) :
    (∃ ch' s', nextStepLoop fuel node nbs ch s = some (false, ch', s') ∧ J ch' s') ∨
    (∃ s1 n, J true s1 ∧ n ∈ nbs ∧ (s1.m_board.m_nodes n).opened = true ∧
      (s1.m_board.m_nodes n).position = getGoal s1 ∧
      nextStepLoop fuel node nbs ch s =
        (storeSolution fuel s1).map (fun r => (true, true, r))) := by
  induction nbs generalizing s ch with
  | nil => exact Or.inl ⟨ch, s, rfl, hs⟩
  | cons n rest ih =>
    have hopen' : ∀ ch x m, J ch x → m ∈ rest → (x.m_board.m_nodes m).opened = false →
        J true (pushOpen x m (some node)) :=
      fun ch x m hx hm => hopen ch x m hx (List.mem_cons_of_mem _ hm)
    rw [nextStepLoop]
    by_cases ho : (s.m_board.m_nodes n).opened = true
    · rw [if_pos ho]
      rcases ih hopen' ch s hs with ⟨ch', s', h1, h2⟩ | ⟨s1, m, h1, h2, h3, h4, h5⟩
      · exact Or.inl ⟨ch', s', h1, h2⟩
      · exact Or.inr ⟨s1, m, h1, List.mem_cons_of_mem _ h2, h3, h4, h5⟩
    · rw [if_neg ho]
      have ho' : (s.m_board.m_nodes n).opened = false := by simpa using ho
      have hJ := hopen ch s n hs (List.mem_cons_self _ _) ho'
      simp only [dfs_openNode_eq, checkGoal_eq]
      by_cases hg : ((pushOpen s n (some node)).m_board.m_nodes n).position =
          getGoal (pushOpen s n (some node))
      · rw [if_pos hg]
        refine Or.inr ⟨pushOpen s n (some node), n, hJ, List.mem_cons_self _ _, by simp, hg, ?_⟩
        cases storeSolution fuel (pushOpen s n (some node)) <;> rfl
      · rw [if_neg hg]
        rcases ih hopen' true _ hJ with ⟨ch', s', h1, h2⟩ | ⟨s1, m, h1, h2, h3, h4, h5⟩
        · exact Or.inl ⟨ch', s', h1, h2⟩
        · exact Or.inr ⟨s1, m, h1, List.mem_cons_of_mem _ h2, h3, h4, h5⟩

/-- The body of `nextStep` when the stack is `rest ++ [node]`. -/
theorem dfs_nextStep_concat (fuel : Nat) (s : State) (node : Coordinate) (rest : List Coordinate)
    (hs : s.m_openNodes = rest ++ [node]) :
    nextStep fuel s =
      if (s.m_board.m_nodes node).position = s.m_board.m_goal then
        (storeSolution fuel s).map (fun r => (true, r))
      else
        match nextStepLoop fuel node
            (s.m_board.getNeighbors node [] s.m_diagonals s.m_cutCorners) false s with
        | none => none
        | some (true, _, s) => some (true, s)
        | some (false, changes, s) =>
          if !changes then
            match closeNode s with
            | none => none
            | some s => some (false, s)
          else some (false, s) := by
  have hne : ¬ s.m_openNodes.length = 0 := by simp [hs]
  have hl : s.m_openNodes.getLast? = some node := by simp [hs]
  rw [nextStep, if_neg hne]
  simp only [hl, checkGoal_eq]
  by_cases hg : (s.m_board.m_nodes node).position = s.m_board.m_goal
  · have hg' : (s.m_board.m_nodes node).position = getGoal s := hg
    rw [if_pos hg, if_pos hg']
    cases storeSolution fuel _ <;> rfl
  · have hg' : ¬ (s.m_board.m_nodes node).position = getGoal s := hg
    rw [if_neg hg, if_neg hg']

/-- Rule for `nextStep` when the stack is `rest ++ [node]`. The frontier of every state
with the property must be non-empty (the loop only pushes). -/
theorem dfs_nextStep_rule (fuel : Nat) (s : State) (node : Coordinate) (rest : List Coordinate)
    (hs : s.m_openNodes = rest ++ [node]) (J : Bool → State → Prop)
    (hinit : J false s)
    (hopen : ∀ ch x n, J ch x →
      n ∈ s.m_board.getNeighbors node [] s.m_diagonals s.m_cutCorners →
      (x.m_board.m_nodes n).opened = false → J true (pushOpen x n (some node)))
    (hfront : ∀ ch x, J ch x → x.m_openNodes ≠ []) :
    (∃ ch s2, J ch s2 ∧ nextStep fuel s = some (false,
        if ch = true then s2
        else { s2 with nodesClosed := s2.nodesClosed + 1
                       m_openNodes := s2.m_openNodes.dropLast })) ∨
    (∃ ch s1 n, J ch s1 ∧
      (n = node ∨ (n ∈ s.m_board.getNeighbors node [] s.m_diagonals s.m_cutCorners ∧
        (s1.m_board.m_nodes n).opened = true)) ∧
      (s1.m_board.m_nodes n).position = getGoal s1 ∧
      nextStep fuel s = (storeSolution fuel s1).map (fun r => (true, r))) := by
  rw [dfs_nextStep_concat fuel s node rest hs]
  split
  · rename_i hg
    exact Or.inr ⟨false, s, node, hinit, Or.inl rfl, hg, rfl⟩
  · rcases dfs_nextStepLoop_rule fuel node J _ hopen false s hinit with
      ⟨ch', s', h1, h2⟩ | ⟨s1, m, h1, h2, h3, h4, h5⟩
    · refine Or.inl ⟨ch', s', h2, ?_⟩
      rw [h1]
      cases ch'
      · have hne := hfront _ _ h2
        obtain ⟨x, hx⟩ : ∃ x, s'.m_openNodes.getLast? = some x := by
          cases hxx : s'.m_openNodes.getLast? with
          | none => exact absurd (List.getLast?_eq_none_iff.1 hxx) hne
          | some x => exact ⟨x, rfl⟩
        simp [closeNode, hx]
      · simp
    · refine Or.inr ⟨true, s1, m, h1, Or.inr ⟨h2, h3⟩, h4, ?_⟩
      rw [h5]
      cases storeSolution fuel s1 <;> rfl

end DepthFirstSearch

theorem exists_concat_of_ne_nil {α : Type} (l : List α) (h : l ≠ []) :
    ∃ rest x, l = rest ++ [x] :=
  ⟨l.dropLast, l.getLast h, (List.dropLast_append_getLast h).symm⟩

namespace BestFirstSearch

open AlgorithmBase

variable {α : Type}

/-- Rule for the neighbor loop. -/
theorem bestFirst_nextStepLoop_rule (A : Env α) (fuel : Nat) (node : Coordinate) (J : State α → Prop)
    (nbs : List Coordinate)
    (hopen : ∀ x n, J x → n ∈ nbs → (x.m_board.m_nodes n).opened = false →
      J (openNode A x n (some node)))
    (s : State α) (hs : J s) :
    (∃ s', nextStepLoop A fuel node nbs s = some (false, s') ∧ J s') ∨
    (∃ s0 s1 n, J s0 ∧ s1 = openNode A s0 n (some node) ∧ J s1 ∧ n ∈ nbs ∧
      (s1.m_board.m_nodes n).position = getGoal s1 ∧
      nextStepLoop A fuel node nbs s = (storeSolution fuel s1).map (fun r => (true, r))) := by
  induction nbs generalizing s with
  | nil => exact Or.inl ⟨s, rfl, hs⟩
  | cons n rest ih =>
    have hopen' : ∀ x m, J x → m ∈ rest → (x.m_board.m_nodes m).opened = false →
        J (openNode A x m (some node)) :=
      fun x m hx hm => hopen x m hx (List.mem_cons_of_mem _ hm)
    rw [nextStepLoop]
    by_cases ho : (s.m_board.m_nodes n).opened = true
    · rw [if_pos ho]
      rcases ih hopen' s hs with ⟨s', h1, h2⟩ | ⟨s0, s1, m, h0, h1, h2, h3, h4, h5⟩
      · exact Or.inl ⟨s', h1, h2⟩
      · exact Or.inr ⟨s0, s1, m, h0, h1, h2, List.mem_cons_of_mem _ h3, h4, h5⟩
    · rw [if_neg ho]
      have ho' : (s.m_board.m_nodes n).opened = false := by simpa using ho
      have hJ := hopen s n hs (List.mem_cons_self _ _) ho'
      simp only [checkGoal_eq]
      by_cases hg : ((openNode A s n (some node)).m_board.m_nodes n).position =
          getGoal (openNode A s n (some node))
      · rw [if_pos hg]
        refine Or.inr ⟨s, openNode A s n (some node), n, hs, rfl, hJ,
          List.mem_cons_self _ _, hg, ?_⟩
        cases storeSolution fuel (openNode A s n (some node)) <;> rfl
      · rw [if_neg hg]
        rcases ih hopen' _ hJ with ⟨s', h1, h2⟩ | ⟨s0, s1, m, h0, h1, h2, h3, h4, h5⟩
        · exact Or.inl ⟨s', h1, h2⟩
        · exact Or.inr ⟨s0, s1, m, h0, h1, h2, List.mem_cons_of_mem _ h3, h4, h5⟩

/-- The body of `nextStep` when the sorted frontier is `rest ++ [node]`. -/
theorem bestFirst_nextStep_concat (A : Env α) (fuel : Nat) (s : State α) (node : Coordinate)
    (rest : List Coordinate)
    (hs : A.sort (compare A s.m_board) s.m_openNodes = rest ++ [node])
    (hne : s.m_openNodes ≠ []) :
    nextStep A fuel s =
      if (s.m_board.m_nodes node).position = s.m_board.m_goal then
        (storeSolution fuel
          { s with nodesClosed := s.nodesClosed + 1, m_openNodes := rest }).map
          (fun r => (true, r))
      else
        nextStepLoop A fuel node (s.m_board.getNeighbors node [] s.m_diagonals s.m_cutCorners)
          { s with nodesClosed := s.nodesClosed + 1, m_openNodes := rest } := by
  have hne' : ¬ s.m_openNodes.length = 0 := by simpa using hne
  have hc : closeNode (sortNodes A s) =
      some (node, { s with nodesClosed := s.nodesClosed + 1, m_openNodes := rest }) := by
    simp [closeNode, sortNodes, hs]
  rw [nextStep, if_neg hne']
  simp only [hc, checkGoal_eq]
  by_cases hg : (s.m_board.m_nodes node).position = s.m_board.m_goal
  · have hg' : (s.m_board.m_nodes node).position =
        getGoal { s with nodesClosed := s.nodesClosed + 1, m_openNodes := rest } := hg
    rw [if_pos hg, if_pos hg']
    cases storeSolution fuel _ <;> rfl
  · have hg' : ¬ (s.m_board.m_nodes node).position =
        getGoal { s with nodesClosed := s.nodesClosed + 1, m_openNodes := rest } := hg
    rw [if_neg hg, if_neg hg']

/-- Rule for `nextStep` on a non-empty frontier. -/
theorem bestFirst_nextStep_rule (A : Env α) (hA : A.SortPermutes) (fuel : Nat) (s : State α)
    (hne : s.m_openNodes ≠ []) (J : Coordinate → State α → Prop)
    (hclose : ∀ node rest, (rest ++ [node]).Perm s.m_openNodes →
      J node { s with nodesClosed := s.nodesClosed + 1, m_openNodes := rest })
    (hopen : ∀ node x n, J node x →
      n ∈ s.m_board.getNeighbors node [] s.m_diagonals s.m_cutCorners →
      (x.m_board.m_nodes n).opened = false → J node (openNode A x n (some node))) :
    (∃ node s', nextStep A fuel s = some (false, s') ∧ J node s') ∨
    (∃ node s1 n, J node s1 ∧
      (n = node ∨ (n ∈ s.m_board.getNeighbors node [] s.m_diagonals s.m_cutCorners ∧
        ∃ s0, J node s0 ∧ s1 = openNode A s0 n (some node))) ∧
      (s1.m_board.m_nodes n).position = getGoal s1 ∧
      nextStep A fuel s = (storeSolution fuel s1).map (fun r => (true, r))) := by
  have hperm := hA (compare A s.m_board) s.m_openNodes
  have hne2 : A.sort (compare A s.m_board) s.m_openNodes ≠ [] := by
    intro h
    rw [h] at hperm
    exact hne (List.Perm.eq_nil hperm.symm)
  obtain ⟨rest, node, hl⟩ := exists_concat_of_ne_nil _ hne2
  rw [bestFirst_nextStep_concat A fuel s node rest hl hne]
  have hcl := hclose node rest (hl ▸ hperm)
  split
  · rename_i hg
    exact Or.inr ⟨node, _, node, hcl, Or.inl rfl, hg, rfl⟩
  · rcases bestFirst_nextStepLoop_rule A fuel node (J node) _ (hopen node) _ hcl with
      ⟨s', h1, h2⟩ | ⟨s0, s1, m, h0, h1, h2, h3, h4, h5⟩
    · exact Or.inl ⟨node, s', h1, h2⟩
    · exact Or.inr ⟨node, s1, m, h2, Or.inr ⟨h3, s0, h0, h1⟩, h4, h5⟩

/-- Best-First `openNode` is `pushOpen` up to the field `h` of the opened node. -/
theorem bestFirst_openNode_extOnly (A : Env α) (s : State α) (n : Coordinate) (p : Option Coordinate) :
    ExtOnly (pushOpen s n p) (openNode A s n p) := by
  refine ⟨rfl, rfl, rfl, rfl, rfl, rfl, rfl, rfl, rfl, rfl, fun c => ?_⟩
  by_cases hc : c = n
  · subst hc
    simp [openNode, pushOpen, AlgorithmBase.openNode]
  · simp [openNode, pushOpen, AlgorithmBase.openNode, Board.write_m_nodes_of_ne _ _ _ _ hc]

/-- Rule for `nextStep` on a non-empty frontier, for a property that does not depend on the
field `h` of the nodes. -/
theorem bestFirst_nextStep_rule_ext (A : Env α) (hA : A.SortPermutes) (fuel : Nat) (s : State α)
    (hne : s.m_openNodes ≠ []) (J : Coordinate → State α → Prop)
    (hext : ∀ node x y, ExtOnly x y → J node x → J node y)
    (hclose : ∀ node rest, (rest ++ [node]).Perm s.m_openNodes →
      J node { s with nodesClosed := s.nodesClosed + 1, m_openNodes := rest })
    (hopen : ∀ node x n, J node x →
      n ∈ s.m_board.getNeighbors node [] s.m_diagonals s.m_cutCorners →
      (x.m_board.m_nodes n).opened = false → J node (pushOpen x n (some node))) :
    (∃ node s', nextStep A fuel s = some (false, s') ∧ J node s') ∨
    (∃ node s1 n, J node s1 ∧
      (n = node ∨ (n ∈ s.m_board.getNeighbors node [] s.m_diagonals s.m_cutCorners ∧
        (s1.m_board.m_nodes n).opened = true)) ∧
      (s1.m_board.m_nodes n).position = getGoal s1 ∧
      nextStep A fuel s = (storeSolution fuel s1).map (fun r => (true, r))) := by
  rcases bestFirst_nextStep_rule A hA fuel s hne J hclose
      (fun node x n hx hn ho => hext node _ _ (bestFirst_openNode_extOnly A x n (some node))
        (hopen node x n hx hn ho)) with
    ⟨node, s', h1, h2⟩ | ⟨node, s1, n, h1, h2, h3, h4⟩
  · exact Or.inl ⟨node, s', h1, h2⟩
  · refine Or.inr ⟨node, s1, n, h1, ?_, h3, h4⟩
    rcases h2 with h2 | ⟨h2, s0, _, h6⟩
    · exact Or.inl h2
    · refine Or.inr ⟨h2, ?_⟩
      rw [h6, ((bestFirst_openNode_extOnly A s0 n (some node)).2.2.2.2.2.2.2.2.2.2 n).2.2.2]
      simp

end BestFirstSearch

namespace AStar

open AlgorithmBase

variable {α : Type}

theorem astar_openNode_eq (s : State α) (n : Coordinate) (p : Option Coordinate) :
    openNode s n p = pushOpen s n p := rfl

/-- The node `updateNode` leaves at `x`: only `parent`, `h` and `g` of the neighbor can
change. -/
theorem astar_updateNode_m_nodes (A : Env α) (s : State α) (nb pr x : Coordinate) :
    (updateNode A s nb pr).m_board.m_nodes x = s.m_board.m_nodes x ∨
    (x = nb ∧ ∃ h g, (updateNode A s nb pr).m_board.m_nodes x =
      { s.m_board.m_nodes x with
        parent := some pr
        ext := { (s.m_board.m_nodes x).ext with h := h, g := g } }) := by
  unfold updateNode
  simp only
  split
  · by_cases hx : x = nb
    · subst hx
      exact Or.inr ⟨rfl, _, _, Board.write_m_nodes_same _ _ _⟩
    · exact Or.inl (Board.write_m_nodes_of_ne _ _ _ _ hx)
  · exact Or.inl rfl

theorem astar_updateNode_closed (A : Env α) (s : State α) (nb pr x : Coordinate) :
    ((updateNode A s nb pr).m_board.m_nodes x).ext.closed =
      (s.m_board.m_nodes x).ext.closed := by
  rcases astar_updateNode_m_nodes A s nb pr x with h | ⟨_, _, _, h⟩ <;> rw [h]

theorem astar_updateNode_opened (A : Env α) (s : State α) (nb pr x : Coordinate) :
    ((updateNode A s nb pr).m_board.m_nodes x).opened = (s.m_board.m_nodes x).opened := by
  rcases astar_updateNode_m_nodes A s nb pr x with h | ⟨_, _, _, h⟩ <;> rw [h]

/-- Rule for the neighbor loop. -/
theorem astar_nextStepLoop_rule (A : Env α) (fuel : Nat) (node : Coordinate) (J : State α → Prop)
    (nbs : List Coordinate)
    (hupdate : ∀ x n, J x → n ∈ nbs → (x.m_board.m_nodes n).ext.closed = false →
      J (updateNode A x n node))
    (hopen : ∀ x n, J x → n ∈ nbs → (x.m_board.m_nodes n).ext.closed = false →
      (x.m_board.m_nodes n).opened = false → J (pushOpen x n (some node)))
    (s : State α) (hs : J s) :
    (∃ s', nextStepLoop A fuel node nbs s = some (false, s') ∧ J s') ∨
    (∃ s1 n, J s1 ∧ n ∈ nbs ∧ (s1.m_board.m_nodes n).opened = true ∧
      (s1.m_board.m_nodes n).position = getGoal s1 ∧
      nextStepLoop A fuel node nbs s = (storeSolution fuel s1).map (fun r => (true, r))) := by
  induction nbs generalizing s with
  | nil => exact Or.inl ⟨s, rfl, hs⟩
  | cons n rest ih =>
    have hupdate' : ∀ x m, J x → m ∈ rest → (x.m_board.m_nodes m).ext.closed = false →
        J (updateNode A x m node) :=
      fun x m hx hm => hupdate x m hx (List.mem_cons_of_mem _ hm)
    have hopen' : ∀ x m, J x → m ∈ rest → (x.m_board.m_nodes m).ext.closed = false →
        (x.m_board.m_nodes m).opened = false → J (pushOpen x m (some node)) :=
      fun x m hx hm => hopen x m hx (List.mem_cons_of_mem _ hm)
    have hrec : ∀ x, J x →
        (∃ s', nextStepLoop A fuel node rest x = some (false, s') ∧ J s') ∨
        (∃ s1 m, J s1 ∧ m ∈ n :: rest ∧ (s1.m_board.m_nodes m).opened = true ∧
          (s1.m_board.m_nodes m).position = getGoal s1 ∧
          nextStepLoop A fuel node rest x =
            (storeSolution fuel s1).map (fun r => (true, r))) := by
      intro x hx
      rcases ih hupdate' hopen' x hx with ⟨s', h1, h2⟩ | ⟨s1, m, h1, h2, h3, h4, h5⟩
      · exact Or.inl ⟨s', h1, h2⟩
      · exact Or.inr ⟨s1, m, h1, List.mem_cons_of_mem _ h2, h3, h4, h5⟩
    rw [nextStepLoop]
    by_cases hc : (s.m_board.m_nodes n).ext.closed = true
    · rw [if_pos hc]
      exact hrec s hs
    · rw [if_neg hc]
      have hc' : (s.m_board.m_nodes n).ext.closed = false := by simpa using hc
      have hU := hupdate s n hs (List.mem_cons_self _ _) hc'
      simp only
      by_cases ho : ((updateNode A s n node).m_board.m_nodes n).opened = true
      · rw [if_pos ho]
        exact hrec _ hU
      · rw [if_neg ho]
        have ho' : ((updateNode A s n node).m_board.m_nodes n).opened = false := by
          simpa using ho
        have hJ := hopen _ n hU (List.mem_cons_self _ _)
          (by rw [astar_updateNode_closed]; exact hc') ho'
        simp only [astar_openNode_eq, checkGoal_eq]
        by_cases hg : ((pushOpen (updateNode A s n node) n (some node)).m_board.m_nodes
            n).position = getGoal (pushOpen (updateNode A s n node) n (some node))
        · rw [if_pos hg]
          refine Or.inr ⟨_, n, hJ, List.mem_cons_self _ _, by simp, hg, ?_⟩
          cases storeSolution fuel (pushOpen (updateNode A s n node) n (some node)) <;> rfl
        · rw [if_neg hg]
          exact hrec _ hJ

theorem astar_closeWith_sameGrid (s : State α) (node : Coordinate) (rest : List Coordinate) :
    Board.SameGrid s.m_board (closeWith s node rest).m_board :=
  (Board.SameGrid.grid_refl _).write _ _ rfl rfl

/-- The body of `nextStep` when the sorted frontier is `rest ++ [node]`. -/
theorem astar_nextStep_concat (A : Env α) (fuel : Nat) (s : State α) (node : Coordinate)
    (rest : List Coordinate)
    (hs : A.sort (compare A s.m_board) s.m_openNodes = rest ++ [node])
    (hne : s.m_openNodes ≠ []) :
    nextStep A fuel s =
      if (s.m_board.m_nodes node).position = s.m_board.m_goal then
        (storeSolution fuel (closeWith s node rest)).map (fun r => (true, r))
      else
        nextStepLoop A fuel node (s.m_board.getNeighbors node [] s.m_diagonals s.m_cutCorners)
          (closeWith s node rest) := by
  have hne' : ¬ s.m_openNodes.length = 0 := by simpa using hne
  have hc : closeNode (sortNodes A s) = some (node, closeWith s node rest) := by
    simp [closeNode, sortNodes, hs, closeWith]
  have hp : ((closeWith s node rest).m_board.m_nodes node).position =
      (s.m_board.m_nodes node).position := by
    simp [closeWith]
  rw [nextStep, if_neg hne']
  simp only [hc, checkGoal_eq, hp]
  by_cases hg : (s.m_board.m_nodes node).position = s.m_board.m_goal
  · have hg' : (s.m_board.m_nodes node).position = getGoal (closeWith s node rest) := hg
    rw [if_pos hg, if_pos hg']
    cases storeSolution fuel _ <;> rfl
  · have hg' : ¬ (s.m_board.m_nodes node).position = getGoal (closeWith s node rest) := hg
    rw [if_neg hg, if_neg hg']
    show nextStepLoop A fuel node ((closeWith s node rest).m_board.getNeighbors node []
      (closeWith s node rest).m_diagonals (closeWith s node rest).m_cutCorners)
      (closeWith s node rest) = _
    rw [(astar_closeWith_sameGrid s node rest).getNeighbors]
    rfl

/-- Rule for `nextStep` on a non-empty frontier. -/
theorem astar_nextStep_rule (A : Env α) (hA : A.SortPermutes) (fuel : Nat) (s : State α)
    (hne : s.m_openNodes ≠ []) (J : Coordinate → State α → Prop)
    (hclose : ∀ node rest, (rest ++ [node]).Perm s.m_openNodes → J node (closeWith s node rest))
    (hupdate : ∀ node x n, J node x →
      n ∈ s.m_board.getNeighbors node [] s.m_diagonals s.m_cutCorners →
      (x.m_board.m_nodes n).ext.closed = false → J node (updateNode A x n node))
    (hopen : ∀ node x n, J node x →
      n ∈ s.m_board.getNeighbors node [] s.m_diagonals s.m_cutCorners →
      (x.m_board.m_nodes n).ext.closed = false →
      (x.m_board.m_nodes n).opened = false → J node (pushOpen x n (some node))) :
    (∃ node s', nextStep A fuel s = some (false, s') ∧ J node s') ∨
    (∃ node s1 n, J node s1 ∧
      (n = node ∨ (n ∈ s.m_board.getNeighbors node [] s.m_diagonals s.m_cutCorners ∧
        (s1.m_board.m_nodes n).opened = true)) ∧
      (s1.m_board.m_nodes n).position = getGoal s1 ∧
      nextStep A fuel s = (storeSolution fuel s1).map (fun r => (true, r))) := by
  have hperm := hA (compare A s.m_board) s.m_openNodes
  have hne2 : A.sort (compare A s.m_board) s.m_openNodes ≠ [] := by
    intro h
    rw [h] at hperm
    exact hne (List.Perm.eq_nil hperm.symm)
  obtain ⟨rest, node, hl⟩ := exists_concat_of_ne_nil _ hne2
  rw [astar_nextStep_concat A fuel s node rest hl hne]
  have hcl := hclose node rest (hl ▸ hperm)
  split
  · rename_i hg
    refine Or.inr ⟨node, _, node, hcl, Or.inl rfl, ?_, rfl⟩
    simpa [closeWith] using hg
  · rcases astar_nextStepLoop_rule A fuel node (J node) _ (hupdate node) (hopen node) _ hcl with
      ⟨s', h1, h2⟩ | ⟨s1, m, h1, h2, h3, h4, h5⟩
    · exact Or.inl ⟨node, s', h1, h2⟩
    · exact Or.inr ⟨node, s1, m, h1, Or.inr ⟨h2, h3⟩, h4, h5⟩

end AStar

/-! ## Theorems: the measure decreases -/

namespace Board

variable {E : Type}

theorem unopened_congr (b1 b2 : Board E) (hs : b2.m_size = b1.m_size)
    (h : ∀ c, (b2.m_nodes c).opened = (b1.m_nodes c).opened) : b2.unopened = b1.unopened := by
  unfold unopened
  have : b2.allCoords = b1.allCoords := by simp [allCoords, hs]
  rw [this]
  exact length_filter_same _ _ _ (fun x _ => by rw [h])

end Board

namespace AlgorithmBase

variable {E : Type}

theorem isValidNode_of_size (b1 b2 : Board E) (h : b2.m_size = b1.m_size) (c : Coordinate) :
    b2.isValidNode c = b1.isValidNode c := by
  simp [Board.isValidNode, h]

theorem Progress.measure_lt {s x : Algorithm E} {k : Nat} (h : Progress s x (k + 1)) :
    stepMeasure x < stepMeasure s := by
  unfold Progress at h
  unfold stepMeasure
  omega

theorem Progress.step_push {s x : Algorithm E} {k : Nat} (h : Progress s x k) (n : Coordinate)
    (p : Option Coordinate) (hv : s.m_board.isValidNode n = true)
    (ho : (x.m_board.m_nodes n).opened = false) : Progress s (pushOpen x n p) k := by
  have hv' : x.m_board.isValidNode n = true := by
    rw [isValidNode_of_size s.m_board x.m_board h.1]
    exact hv
  have := pushOpen_unopened x n p hv' ho
  unfold Progress at h ⊢
  refine ⟨h.1, ?_, ?_⟩
  · simp only [pushOpen_m_openNodes, List.length_append, List.length_singleton]
    omega
  · omega

theorem Progress.push_lt {s x : Algorithm E} {k : Nat} (h : Progress s x k)
    (n : Coordinate) (p : Option Coordinate) (hv : s.m_board.isValidNode n = true)
    (ho : (x.m_board.m_nodes n).opened = false) :
    (pushOpen x n p).m_board.unopened < s.m_board.unopened := by
  have hv' : x.m_board.isValidNode n = true := by
    rw [isValidNode_of_size s.m_board x.m_board h.1]
    exact hv
  have := pushOpen_unopened x n p hv' ho
  have := h.2.2
  omega

theorem Progress.step_extOnly {s x y : Algorithm E} {k : Nat} (h : Progress s x k)
    (hxy : ExtOnly x y) : Progress s y k := by
  obtain ⟨_, _, _, _, _, _, hf, hsz, _, _, hn⟩ := hxy
  have := Board.unopened_congr x.m_board y.m_board hsz (fun c => (hn c).2.2.2)
  unfold Progress at h ⊢
  rw [this, hf, hsz]
  exact h

end AlgorithmBase

namespace BreadthFirstSearch

open AlgorithmBase

theorem bfs_nextStep_nil (fuel : Nat) (s : State) (h : s.m_openNodes = []) :
    nextStep fuel s = some (true, s) := by
  simp [nextStep, h]

theorem bfs_nextStep_measure (fuel : Nat) (s s' : State)
    (h : nextStep fuel s = some (false, s')) : stepMeasure s' < stepMeasure s := by
  cases hf : s.m_openNodes with
  | nil => simp [bfs_nextStep_nil fuel s hf] at h
  | cons node rest =>
    rcases bfs_nextStep_rule fuel s node rest hf (fun x => Progress s x 1)
        ⟨rfl, by simp [hf, Nat.add_assoc], le_refl _⟩
        (fun x n hx hn ho => hx.step_push n _
          (Board.isValidNode_of_mem_getNeighbors _ _ _ _ _ hn) ho) with
      ⟨s2, h1, h2⟩ | ⟨s1, n, _, _, _, h4⟩
    · rw [h] at h1
      cases h1
      exact h2.measure_lt
    · rw [h] at h4
      cases hh : storeSolution fuel s1 <;> simp [hh] at h4

end BreadthFirstSearch

namespace DepthFirstSearch

open AlgorithmBase

theorem dfs_nextStep_nil (fuel : Nat) (s : State) (h : s.m_openNodes = []) :
    nextStep fuel s = some (true, s) := by
  simp [nextStep, h]

theorem dfs_nextStep_measure (fuel : Nat) (s s' : State)
    (h : nextStep fuel s = some (false, s')) : stepMeasure s' < stepMeasure s := by
  by_cases hf : s.m_openNodes = []
  · simp [dfs_nextStep_nil fuel s hf] at h
  · obtain ⟨rest, node, hl⟩ := exists_concat_of_ne_nil _ hf
    rcases dfs_nextStep_rule fuel s node rest hl
        (fun ch x => Progress s x 0 ∧
          (ch = true → x.m_board.unopened < s.m_board.unopened) ∧ x.m_openNodes ≠ [])
        ⟨⟨rfl, rfl, le_refl _⟩, by simp, hf⟩
        (fun ch x n hx hn ho =>
          ⟨hx.1.step_push n _ (Board.isValidNode_of_mem_getNeighbors _ _ _ _ _ hn) ho,
            fun _ => hx.1.push_lt n _ (Board.isValidNode_of_mem_getNeighbors _ _ _ _ _ hn) ho,
            by simp⟩)
        (fun ch x hx => hx.2.2) with
      ⟨ch, s2, h1, h2⟩ | ⟨_, s1, n, _, _, _, h4⟩
    · rw [h] at h2
      cases h2
      obtain ⟨⟨_, hp, hle⟩, hlt, hne⟩ := h1
      cases ch
      · have hlen : 0 < s2.m_openNodes.length := List.length_pos.2 hne
        simp only [stepMeasure, Bool.false_eq_true, if_false, List.length_dropLast]
        omega
      · have := hlt rfl
        simp only [stepMeasure, if_true]
        omega
    · rw [h] at h4
      cases hh : storeSolution fuel s1 <;> simp [hh] at h4

end DepthFirstSearch

namespace BestFirstSearch

open AlgorithmBase

variable {α : Type}

theorem bestFirst_nextStep_nil (A : Env α) (fuel : Nat) (s : State α) (h : s.m_openNodes = []) :
    nextStep A fuel s = some (true, s) := by
  simp [nextStep, h]

theorem bestFirst_nextStep_measure (A : Env α) (hA : A.SortPermutes) (fuel : Nat) (s s' : State α)
    (h : nextStep A fuel s = some (false, s')) : stepMeasure s' < stepMeasure s := by
  by_cases hf : s.m_openNodes = []
  · simp [bestFirst_nextStep_nil A fuel s hf] at h
  · rcases bestFirst_nextStep_rule_ext A hA fuel s hf (fun _ x => Progress s x 1)
        (fun _ x y hxy hx => hx.step_extOnly hxy)
        (fun node rest hp => ⟨rfl, by
          have := hp.length_eq
          simp only [List.length_append, List.length_singleton] at this
          simp only []
          omega, le_refl _⟩)
        (fun _ x n hx hn ho => hx.step_push n _
          (Board.isValidNode_of_mem_getNeighbors _ _ _ _ _ hn) ho) with
      ⟨_, s2, h1, h2⟩ | ⟨_, s1, n, _, _, _, h4⟩
    · rw [h] at h1
      cases h1
      exact h2.measure_lt
    · rw [h] at h4
      cases hh : storeSolution fuel s1 <;> simp [hh] at h4

end BestFirstSearch

namespace AStar

open AlgorithmBase

variable {α : Type}

theorem astar_nextStep_nil (A : Env α) (fuel : Nat) (s : State α) (h : s.m_openNodes = []) :
    nextStep A fuel s = some (true, s) := by
  simp [nextStep, h]

/-- The fields `updateNode` does not touch. -/
theorem astar_updateNode_frame (A : Env α) (s : State α) (nb pr : Coordinate) :
    (updateNode A s nb pr).solution = s.solution ∧
    (updateNode A s nb pr).nodesOpened = s.nodesOpened ∧
    (updateNode A s nb pr).nodesClosed = s.nodesClosed ∧
    (updateNode A s nb pr).m_heuristic = s.m_heuristic ∧
    (updateNode A s nb pr).m_diagonals = s.m_diagonals ∧
    (updateNode A s nb pr).m_cutCorners = s.m_cutCorners ∧
    (updateNode A s nb pr).m_openNodes = s.m_openNodes ∧
    (updateNode A s nb pr).m_board.m_size = s.m_board.m_size ∧
    (updateNode A s nb pr).m_board.m_start = s.m_board.m_start ∧
    (updateNode A s nb pr).m_board.m_goal = s.m_board.m_goal := by
  unfold updateNode
  simp only
  split <;> exact ⟨rfl, rfl, rfl, rfl, rfl, rfl, rfl, rfl, rfl, rfl⟩

theorem astar_updateNode_unopened (A : Env α) (s : State α) (nb pr : Coordinate) :
    (updateNode A s nb pr).m_board.unopened = s.m_board.unopened :=
  Board.unopened_congr _ _ (astar_updateNode_frame A s nb pr).2.2.2.2.2.2.2.1
    (fun c => astar_updateNode_opened A s nb pr c)

theorem astar_Progress_updateNode (A : Env α) {s x : State α} {k : Nat} (h : Progress s x k)
    (nb pr : Coordinate) : Progress s (updateNode A x nb pr) k := by
  have hf := astar_updateNode_frame A x nb pr
  unfold Progress at h ⊢
  rw [astar_updateNode_unopened, hf.2.2.2.2.2.2.1, hf.2.2.2.2.2.2.2.1]
  exact h

theorem astar_closeWith_unopened (s : State α) (node : Coordinate) (rest : List Coordinate) :
    (closeWith s node rest).m_board.unopened = s.m_board.unopened :=
  Board.unopened_write_same _ _ _ rfl

theorem astar_nextStep_measure (A : Env α) (hA : A.SortPermutes) (fuel : Nat) (s s' : State α)
    (h : nextStep A fuel s = some (false, s')) : stepMeasure s' < stepMeasure s := by
  by_cases hf : s.m_openNodes = []
  · simp [astar_nextStep_nil A fuel s hf] at h
  · rcases astar_nextStep_rule A hA fuel s hf (fun _ x => Progress s x 1)
        (fun node rest hp => ⟨rfl, by
          have := hp.length_eq
          simp only [List.length_append, List.length_singleton] at this
          rw [astar_closeWith_unopened]
          simp only [closeWith]
          omega, le_of_eq (astar_closeWith_unopened s node rest)⟩)
        (fun node x n hx _ _ => astar_Progress_updateNode A hx n node)
        (fun _ x n hx hn _ ho => hx.step_push n _
          (Board.isValidNode_of_mem_getNeighbors _ _ _ _ _ hn) ho) with
      ⟨_, s2, h1, h2⟩ | ⟨_, s1, n, _, _, _, h4⟩
    · rw [h] at h1
      cases h1
      exact h2.measure_lt
    · rw [h] at h4
      cases hh : storeSolution fuel s1 <;> simp [hh] at h4

end AStar

/-! ## Theorems: the run invariant -/

namespace Board

variable {E : Type}

theorem Reach.reach_refl (b : Board E) (d cc : Bool) (c : Coordinate) : b.Reach d cc c c :=
  Relation.ReflTransGen.refl

theorem Reach.step {b : Board E} {d cc : Bool} {a x y : Coordinate} (h : b.Reach d cc a x)
    (hy : y ∈ b.getNeighbors x [] d cc) : b.Reach d cc a y :=
  Relation.ReflTransGen.tail h hy

theorem Reach.reach_sameGrid {b1 b2 : Board E} (h : Board.SameGrid b1 b2) {d cc : Bool}
    {a c : Coordinate} (hr : b1.Reach d cc a c) : b2.Reach d cc a c := by
  induction hr with
  | refl => exact Relation.ReflTransGen.refl
  | tail _ hy ih => exact Relation.ReflTransGen.tail ih (by rw [h.getNeighbors]; exact hy)

end Board

namespace AlgorithmBase

variable {E : Type}

/-- The neighbors computed at the start of a call are those of the initial board. -/
theorem RunInv.neighbors {b0 : Board E} {d cc : Bool} {s : Algorithm E}
    (h : RunInv b0 d cc s) (node : Coordinate) :
    s.m_board.getNeighbors node [] s.m_diagonals s.m_cutCorners =
      b0.getNeighbors node [] d cc := by
  rw [h.grid.getNeighbors, h.diag, h.cut]

/-- Taking nodes off the frontier (and counting them closed) keeps the run invariant. -/
theorem RunInv.run_setFrontier {b0 : Board E} {d cc : Bool} {s : Algorithm E}
    (h : RunInv b0 d cc s) (k : Nat) (l : List Coordinate)
    (hl : ∀ c ∈ l, c ∈ s.m_openNodes) :
    RunInv b0 d cc { s with nodesClosed := k, m_openNodes := l } :=
  ⟨h.grid, h.diag, h.cut, h.sol, fun c hc => h.front c (hl c hc)⟩

/-- Opening an in-bounds node that is reachable from the start keeps the run invariant. -/
theorem RunInv.run_push {b0 : Board E} {d cc : Bool} {x : Algorithm E}
    (h : RunInv b0 d cc x) (n : Coordinate) (p : Option Coordinate)
    (hv : b0.isValidNode n = true) (hr : b0.Reach d cc b0.m_start n) :
    RunInv b0 d cc (pushOpen x n p) := by
  refine ⟨h.grid.trans (pushOpen_sameGrid x n p), h.diag, h.cut, h.sol, ?_⟩
  intro c hc
  rw [pushOpen_m_openNodes, List.mem_append, List.mem_singleton] at hc
  by_cases hcn : c = n
  · subst hcn
    refine ⟨?_, by simp, hr⟩
    rw [pushOpen_isValidNode, h.grid.isValidNode]
    exact hv
  · rcases hc with hc | hc
    · have := h.front c hc
      rw [pushOpen_m_nodes_of_ne _ _ _ _ hcn]
      exact this
    · exact absurd hc hcn

theorem ExtOnly.ext_sameGrid {x y : Algorithm E} (h : ExtOnly x y) :
    Board.SameGrid x.m_board y.m_board := by
  obtain ⟨_, _, _, _, _, _, _, hsz, hst, hg, hn⟩ := h
  exact ⟨hsz, hst, hg, fun c => ⟨(hn c).2.2.1, (hn c).2.1⟩⟩

theorem RunInv.run_extOnly {b0 : Board E} {d cc : Bool} {x y : Algorithm E}
    (h : RunInv b0 d cc x) (hxy : ExtOnly x y) : RunInv b0 d cc y := by
  have hg := hxy.ext_sameGrid
  obtain ⟨hsol, _, _, _, hd, hc, hf, _, _, _, hn⟩ := hxy
  refine ⟨h.grid.trans hg, hd.trans h.diag, hc.trans h.cut, hsol.trans h.sol, ?_⟩
  intro c hcm
  rw [hf] at hcm
  have := h.front c hcm
  rw [hg.isValidNode, (hn c).2.2.2]
  exact this

/-- A node that is in bounds and reachable from the start is not the goal when the goal is
unreachable. -/
theorem RunInv.position_ne_goal {b0 : Board E} {d cc : Bool} {x : Algorithm E}
    (h : RunInv b0 d cc x) (hw : b0.WellFormed)
    (hun : ¬ b0.Reach d cc b0.m_start b0.m_goal) (n : Coordinate)
    (hv : b0.isValidNode n = true) (hr : b0.Reach d cc b0.m_start n) :
    (x.m_board.m_nodes n).position ≠ getGoal x := by
  intro hg
  rw [(h.grid.2.2.2 n).2, hw n hv] at hg
  have : getGoal x = b0.m_goal := h.grid.2.2.1
  rw [this] at hg
  exact hun (hg ▸ hr)

/-- Every run that stops does so after finitely many calls: if each call either returns
true or returns false in a state with the invariant and a smaller measure, some call
returns true. -/
theorem exists_true_of_measure {S : Type} (step : S → Option (Bool × S)) (μ : S → Nat)
    (I : S → Prop)
    (h : ∀ s, I s → (∃ s', step s = some (true, s')) ∨
      (∃ s', step s = some (false, s') ∧ I s' ∧ μ s' < μ s)) :
    ∀ s, I s → ∃ n s1 s', n ≤ μ s ∧ stepsFalse step n s = some s1 ∧ I s1 ∧
      step s1 = some (true, s') := by
  have key : ∀ m s, μ s = m → I s → ∃ n s1 s', n ≤ μ s ∧ stepsFalse step n s = some s1 ∧
      I s1 ∧ step s1 = some (true, s') := by
    intro m
    induction m using Nat.strong_induction_on with
    | _ m ih =>
      intro s hm hs
      rcases h s hs with ⟨s', h1⟩ | ⟨s', h1, h2, h3⟩
      · exact ⟨0, s, s', Nat.zero_le _, rfl, hs, h1⟩
      · obtain ⟨n, s1, s2, hn, hsteps, hI, hstep⟩ := ih (μ s') (hm ▸ h3) s' rfl h2
        refine ⟨n + 1, s1, s2, by omega, ?_, hI, hstep⟩
        simp only [stepsFalse, h1]
        exact hsteps
  exact fun s hs => key (μ s) s rfl hs

/-- An invariant kept by the calls that return false holds after any number of them. -/
theorem stepsFalse_invariant {S : Type} (step : S → Option (Bool × S)) (I : S → Prop)
    (h : ∀ s s', I s → step s = some (false, s') → I s') :
    ∀ n s s1, I s → stepsFalse step n s = some s1 → I s1 := by
  intro n
  induction n with
  | zero =>
    intro s s1 hs h1
    simp only [stepsFalse, Option.some.injEq] at h1
    exact h1 ▸ hs
  | succ n ih =>
    intro s s1 hs h1
    simp only [stepsFalse] at h1
    split at h1
    · rename_i s2 heq
      exact ih s2 s1 (h s s2 hs heq) h1
    · exact absurd h1 (by simp)

/-- When `complete` is given at least one call more than the number of calls that return
false, it returns the state of the first call that returns true. -/
theorem complete_of_stepsFalse {S : Type} (step : S → Option (Bool × S)) :
    ∀ n s s1 s', stepsFalse step n s = some s1 → step s1 = some (true, s') →
      complete step (n + 1) s = some s' := by
  intro n
  induction n with
  | zero =>
    intro s s1 s' h1 h2
    simp only [stepsFalse, Option.some.injEq] at h1
    subst h1
    simp [complete, h2]
  | succ n ih =>
    intro s s1 s' h1 h2
    simp only [stepsFalse] at h1
    split at h1
    · rename_i s2 heq
      rw [complete, heq]
      exact ih s2 s1 s' h1 h2
    · exact absurd h1 (by simp)

end AlgorithmBase

/-! ## Theorems: runs on a board whose goal is unreachable -/

namespace AlgorithmBase

variable {E : Type}

/-- Opening a neighbor of a reachable node keeps the run invariant. -/
theorem RunInv.run_open_neighbor {b0 : Board E} {d cc : Bool} {s x : Algorithm E}
    (hs : RunInv b0 d cc s) (hx : RunInv b0 d cc x) {node n : Coordinate}
    (hnode : b0.Reach d cc b0.m_start node)
    (hn : n ∈ s.m_board.getNeighbors node [] s.m_diagonals s.m_cutCorners)
    (p : Option Coordinate) : RunInv b0 d cc (pushOpen x n p) := by
  rw [hs.neighbors] at hn
  exact hx.run_push n p (Board.isValidNode_of_mem_getNeighbors _ _ _ _ _ hn) (hnode.step hn)

/-- The node a `nextStep` call finds to be the goal is reachable: it cannot exist when the
goal is unreachable. -/
theorem RunInv.goal_absurd {b0 : Board E} {d cc : Bool} {s x : Algorithm E}
    (hs : RunInv b0 d cc s) (hx : RunInv b0 d cc x) (hw : b0.WellFormed)
    (hun : ¬ b0.Reach d cc b0.m_start b0.m_goal) {node n : Coordinate}
    (hnode : node ∈ s.m_openNodes)
    (hn : n = node ∨ (n ∈ s.m_board.getNeighbors node [] s.m_diagonals s.m_cutCorners ∧
      (x.m_board.m_nodes n).opened = true))
    (hg : (x.m_board.m_nodes n).position = getGoal x) : False := by
  have h1 := hs.front node hnode
  rw [hs.grid.isValidNode] at h1
  rcases hn with rfl | ⟨hn, _⟩
  · exact hx.position_ne_goal hw hun _ h1.1 h1.2.2 hg
  · rw [hs.neighbors] at hn
    exact hx.position_ne_goal hw hun n (Board.isValidNode_of_mem_getNeighbors _ _ _ _ _ hn)
      (h1.2.2.step hn) hg

end AlgorithmBase

namespace BreadthFirstSearch

open AlgorithmBase

theorem bfs_nextStep_unreachable (b0 : Board Unit) (hw : b0.WellFormed) (d cc : Bool)
    (hun : ¬ b0.Reach d cc b0.m_start b0.m_goal) (fuel : Nat) (s : State)
    (hs : RunInv b0 d cc s) :
    (s.m_openNodes = [] ∧ nextStep fuel s = some (true, s)) ∨
    (∃ s', nextStep fuel s = some (false, s') ∧ RunInv b0 d cc s') := by
  cases hf : s.m_openNodes with
  | nil => exact Or.inl ⟨rfl, bfs_nextStep_nil fuel s hf⟩
  | cons node rest =>
    have hmem : node ∈ s.m_openNodes := by simp [hf]
    have hnode := hs.front node hmem
    rcases bfs_nextStep_rule fuel s node rest hf (fun x => RunInv b0 d cc x)
        (hs.run_setFrontier _ rest (by intro c hc; simp [hf, hc]))
        (fun x n hx hn _ => hs.run_open_neighbor hx hnode.2.2 hn _) with
      ⟨s', h1, h2⟩ | ⟨s1, n, h1, h2, h3, _⟩
    · exact Or.inr ⟨s', h1, h2⟩
    · exact (hs.goal_absurd h1 hw hun hmem h2 h3).elim

end BreadthFirstSearch

namespace DepthFirstSearch

open AlgorithmBase

theorem dfs_nextStep_unreachable (b0 : Board Unit) (hw : b0.WellFormed) (d cc : Bool)
    (hun : ¬ b0.Reach d cc b0.m_start b0.m_goal) (fuel : Nat) (s : State)
    (hs : RunInv b0 d cc s) :
    (s.m_openNodes = [] ∧ nextStep fuel s = some (true, s)) ∨
    (∃ s', nextStep fuel s = some (false, s') ∧ RunInv b0 d cc s') := by
  by_cases hf : s.m_openNodes = []
  · exact Or.inl ⟨hf, dfs_nextStep_nil fuel s hf⟩
  · obtain ⟨rest, node, hl⟩ := exists_concat_of_ne_nil _ hf
    have hmem : node ∈ s.m_openNodes := by simp [hl]
    have hnode := hs.front node hmem
    rcases dfs_nextStep_rule fuel s node rest hl
        (fun _ x => RunInv b0 d cc x ∧ x.m_openNodes ≠ []) ⟨hs, hf⟩
        (fun _ x n hx hn _ => ⟨hs.run_open_neighbor hx.1 hnode.2.2 hn _, by simp⟩)
        (fun _ x hx => hx.2) with
      ⟨ch, s2, h1, h2⟩ | ⟨_, s1, n, h1, h2, h3, _⟩
    · refine Or.inr ⟨_, h2, ?_⟩
      cases ch
      · simp only [Bool.false_eq_true, if_false]
        exact h1.1.run_setFrontier _ _ (fun c hc => List.mem_of_mem_dropLast hc)
      · simp only [if_true]
        exact h1.1
    · exact (hs.goal_absurd h1.1 hw hun hmem h2 h3).elim

end DepthFirstSearch

namespace BestFirstSearch

open AlgorithmBase

variable {α : Type}

theorem bestFirst_nextStep_unreachable (A : Env α) (hA : A.SortPermutes) (b0 : Board (Ext α))
    (hw : b0.WellFormed) (d cc : Bool)
    (hun : ¬ b0.Reach d cc b0.m_start b0.m_goal) (fuel : Nat) (s : State α)
    (hs : RunInv b0 d cc s) :
    (s.m_openNodes = [] ∧ nextStep A fuel s = some (true, s)) ∨
    (∃ s', nextStep A fuel s = some (false, s') ∧ RunInv b0 d cc s') := by
  by_cases hf : s.m_openNodes = []
  · exact Or.inl ⟨hf, bestFirst_nextStep_nil A fuel s hf⟩
  · rcases bestFirst_nextStep_rule_ext A hA fuel s hf
        (fun node x => RunInv b0 d cc x ∧ node ∈ s.m_openNodes)
        (fun _ x y hxy hx => ⟨hx.1.run_extOnly hxy, hx.2⟩)
        (fun node rest hp => ⟨hs.run_setFrontier _ rest
            (fun c hc => hp.subset (List.mem_append_left _ hc)),
          hp.subset (by simp)⟩)
        (fun node x n hx hn _ =>
          ⟨hs.run_open_neighbor hx.1 (hs.front node hx.2).2.2 hn _, hx.2⟩) with
      ⟨_, s', h1, h2⟩ | ⟨node, s1, n, h1, h2, h3, _⟩
    · exact Or.inr ⟨s', h1, h2.1⟩
    · exact (hs.goal_absurd h1.1 hw hun h1.2 h2 h3).elim

end BestFirstSearch

namespace AStar

open AlgorithmBase

variable {α : Type}

theorem astar_RunInv_closeWith {b0 : Board (Ext α)} {d cc : Bool} {s : State α}
    (hs : RunInv b0 d cc s) (node : Coordinate) (rest : List Coordinate)
    (hl : ∀ c ∈ rest, c ∈ s.m_openNodes) : RunInv b0 d cc (closeWith s node rest) := by
  refine ⟨hs.grid.trans (astar_closeWith_sameGrid s node rest), hs.diag, hs.cut, hs.sol, ?_⟩
  intro c hc
  have := hs.front c (hl c hc)
  refine ⟨this.1, ?_, this.2.2⟩
  show ((s.m_board.write node _).m_nodes c).opened = true
  rw [Board.write_m_nodes]
  split
  · rename_i h
    subst h
    exact this.2.1
  · exact this.2.1

theorem astar_updateNode_sameGrid (A : Env α) (s : State α) (nb pr : Coordinate) :
    Board.SameGrid s.m_board (updateNode A s nb pr).m_board := by
  have hf := astar_updateNode_frame A s nb pr
  refine ⟨hf.2.2.2.2.2.2.2.1, hf.2.2.2.2.2.2.2.2.1, hf.2.2.2.2.2.2.2.2.2, fun c => ?_⟩
  rcases astar_updateNode_m_nodes A s nb pr c with h | ⟨_, _, _, h⟩ <;> rw [h] <;> exact ⟨rfl, rfl⟩

theorem astar_RunInv_updateNode (A : Env α) {b0 : Board (Ext α)} {d cc : Bool} {x : State α}
    (hx : RunInv b0 d cc x) (nb pr : Coordinate) : RunInv b0 d cc (updateNode A x nb pr) := by
  have hf := astar_updateNode_frame A x nb pr
  refine ⟨hx.grid.trans (astar_updateNode_sameGrid A x nb pr), hf.2.2.2.2.1.trans hx.diag,
    hf.2.2.2.2.2.1.trans hx.cut, hf.1.trans hx.sol, ?_⟩
  intro c hc
  rw [hf.2.2.2.2.2.2.1] at hc
  have := hx.front c hc
  rw [(astar_updateNode_sameGrid A x nb pr).isValidNode, astar_updateNode_opened]
  exact this

theorem astar_nextStep_unreachable (A : Env α) (hA : A.SortPermutes) (b0 : Board (Ext α))
    (hw : b0.WellFormed) (d cc : Bool)
    (hun : ¬ b0.Reach d cc b0.m_start b0.m_goal) (fuel : Nat) (s : State α)
    (hs : RunInv b0 d cc s) :
    (s.m_openNodes = [] ∧ nextStep A fuel s = some (true, s)) ∨
    (∃ s', nextStep A fuel s = some (false, s') ∧ RunInv b0 d cc s') := by
  by_cases hf : s.m_openNodes = []
  · exact Or.inl ⟨hf, astar_nextStep_nil A fuel s hf⟩
  · rcases astar_nextStep_rule A hA fuel s hf
        (fun node x => RunInv b0 d cc x ∧ node ∈ s.m_openNodes)
        (fun node rest hp => ⟨astar_RunInv_closeWith hs node rest
            (fun c hc => hp.subset (List.mem_append_left _ hc)),
          hp.subset (by simp)⟩)
        (fun node x n hx _ _ => ⟨astar_RunInv_updateNode A hx.1 n node, hx.2⟩)
        (fun node x n hx hn _ _ =>
          ⟨hs.run_open_neighbor hx.1 (hs.front node hx.2).2.2 hn _, hx.2⟩) with
      ⟨_, s', h1, h2⟩ | ⟨node, s1, n, h1, h2, h3, _⟩
    · exact Or.inr ⟨s', h1, h2.1⟩
    · exact (hs.goal_absurd h1.1 hw hun h1.2 h2 h3).elim

end AStar

/-! ## Theorems: parent links and the stored solution -/

namespace AlgorithmBase

variable {E : Type}

/-- The loop of `storeSolution` ends when the parent links it follows decrease a rank below
the fuel; it appends the positions from the first node to a node without parent. -/
theorem storeSolutionLoop_ranked (b : Board E) (G : Coordinate → Prop) (rk : Coordinate → Nat)
    (hrk : ∀ c p, G c → (b.m_nodes c).parent = some p → G p ∧ rk p < rk c) :
    ∀ fuel c acc, G c → rk c < fuel →
      ∃ path e, storeSolutionLoop b fuel (some c) acc = some (acc ++ path) ∧
        path.head? = some (b.m_nodes c).position ∧
        path.getLast? = some (b.m_nodes e).position ∧ G e ∧ (b.m_nodes e).parent = none := by
  intro fuel
  induction fuel with
  | zero => intro c acc _ h; exact absurd h (Nat.not_lt_zero _)
  | succ fuel ih =>
    intro c acc hc hlt
    rw [storeSolutionLoop]
    cases hp : (b.m_nodes c).parent with
    | none =>
      refine ⟨[(b.m_nodes c).position], c, ?_, rfl, rfl, hc, hp⟩
      cases fuel <;> rfl
    | some p =>
      obtain ⟨hGp, hlt'⟩ := hrk c p hc hp
      obtain ⟨path, e, h1, _, h3, h4, h5⟩ :=
        ih p (acc ++ [(b.m_nodes c).position]) hGp (by omega)
      refine ⟨(b.m_nodes c).position :: path, e, ?_, rfl, ?_, h4, h5⟩
      · rw [h1]
        simp
      · cases path with
        | nil => simp at h3
        | cons a t =>
          rw [List.getLast?_cons_cons]
          exact h3

theorem nodeCount_of_sameGrid {b1 b2 : Board E} (h : Board.SameGrid b1 b2) :
    b2.nodeCount = b1.nodeCount := by
  simp [Board.nodeCount, h.1]

/-- In a state with the run and parent-link invariants in which the goal node is opened,
`storeSolution` returns, and the solution it stores goes from the goal to the start. -/
theorem storeSolution_goalToStart {b0 : Board E} {d cc : Bool} (hw : b0.WellFormed)
    (hvs : b0.isValidNode b0.m_start = true) {x : Algorithm E}
    (hx : RunInv b0 d cc x) {rk : Coordinate → Nat} (hk : ChainInv x rk) {fuel : Nat}
    (hfuel : b0.nodeCount < fuel) {n : Coordinate} (hvn : b0.isValidNode n = true)
    (hon : (x.m_board.m_nodes n).opened = true)
    (hg : (x.m_board.m_nodes n).position = getGoal x) :
    ∃ s', storeSolution fuel x = some s' ∧ GoalToStart b0.m_start b0.m_goal s' := by
  have hwx : x.m_board.WellFormed := hx.grid.wellFormed hw
  have hvx : ∀ c, x.m_board.isValidNode c = b0.isValidNode c := hx.grid.isValidNode
  have hng : n = x.m_board.m_goal := by
    rw [hwx n (by rw [hvx]; exact hvn)] at hg
    exact hg
  subst hng
  have hcount : x.nodesOpened ≤ b0.nodeCount := by
    have := hk.count
    rw [nodeCount_of_sameGrid hx.grid] at this
    omega
  obtain ⟨path, e, h1, h2, h3, h4, h5⟩ :=
    storeSolutionLoop_ranked x.m_board (fun c => (x.m_board.m_nodes c).opened = true) rk
      hk.parent_lt fuel x.m_board.m_goal x.solution hon
      (by have := hk.rk_lt _ hon; omega)
  have he : e = x.m_board.m_start := hk.root e h4 h5
  subst he
  have hgn : getGoalNode x = some x.m_board.m_goal := by
    simp only [getGoalNode, Board.getGoalNode]
    rw [hvx, hvn]
    simp
  refine ⟨{ x with solution := x.solution ++ path }, ?_, ?_⟩
  · simp only [storeSolution, hgn, h1]
  · have hne : path ≠ [] := by
      intro h
      rw [h] at h2
      simp at h2
    have hps : (x.m_board.m_nodes x.m_board.m_start).position = x.m_board.m_start :=
      hwx _ (by rw [hvx, hx.grid.2.1]; exact hvs)
    have hpg : (x.m_board.m_nodes x.m_board.m_goal).position = x.m_board.m_goal :=
      hwx _ (by rw [hvx]; exact hvn)
    refine ⟨?_, ?_, ?_⟩
    · simp [hx.sol, hne]
    · simp only [hx.sol, List.nil_append, h2, hpg]
      rw [hx.grid.2.2.1]
    · simp only [hx.sol, List.nil_append, h3, hps]
      rw [hx.grid.2.1]

/-- Changes of the frontier and of `nodesClosed` keep the parent-link invariant. -/
theorem ChainInv.chain_setFrontier {s : Algorithm E} {rk : Coordinate → Nat} (h : ChainInv s rk)
    (k : Nat) (l : List Coordinate) :
    ChainInv { s with nodesClosed := k, m_openNodes := l } rk :=
  ⟨h.parent_lt, h.rk_lt, h.root, h.count⟩

/-- Opening an unopened in-bounds node from an opened node keeps the parent-link
invariant. -/
theorem ChainInv.chain_push {x : Algorithm E} {rk : Coordinate → Nat} (h : ChainInv x rk)
    {node n : Coordinate} (hnode : (x.m_board.m_nodes node).opened = true)
    (hv : x.m_board.isValidNode n = true) (ho : (x.m_board.m_nodes n).opened = false) :
    ∃ rk', ChainInv (pushOpen x n (some node)) rk' := by
  have hne : node ≠ n := by
    intro h
    rw [h, ho] at hnode
    exact absurd hnode (by simp)
  refine ⟨Function.update rk n x.nodesOpened, ?_, ?_, ?_, ?_⟩
  · intro c p hc hp
    by_cases hcn : c = n
    · subst hcn
      simp only [pushOpen_m_nodes_same, Option.some.injEq] at hp
      subst hp
      rw [pushOpen_m_nodes_of_ne _ _ _ _ hne, Function.update_same,
        Function.update_noteq hne]
      exact ⟨hnode, h.rk_lt _ hnode⟩
    · rw [pushOpen_m_nodes_of_ne _ _ _ _ hcn] at hc hp
      obtain ⟨h1, h2⟩ := h.parent_lt c p hc hp
      have hpn : p ≠ n := by
        intro h
        rw [h, ho] at h1
        exact absurd h1 (by simp)
      rw [pushOpen_m_nodes_of_ne _ _ _ _ hpn, Function.update_noteq hpn,
        Function.update_noteq hcn]
      exact ⟨h1, h2⟩
  · intro c hc
    rw [pushOpen_nodesOpened]
    by_cases hcn : c = n
    · subst hcn
      rw [Function.update_same]
      omega
    · rw [pushOpen_m_nodes_of_ne _ _ _ _ hcn] at hc
      rw [Function.update_noteq hcn]
      have := h.rk_lt c hc
      omega
  · intro c hc hp
    by_cases hcn : c = n
    · subst hcn
      simp at hp
    · rw [pushOpen_m_nodes_of_ne _ _ _ _ hcn] at hc hp
      exact h.root c hc hp
  · have h1 := pushOpen_unopened x n (some node) hv ho
    have h2 := h.count
    have h3 : (pushOpen x n (some node)).m_board.nodeCount = x.m_board.nodeCount := rfl
    rw [pushOpen_nodesOpened, h3]
    omega

theorem ChainInv.chain_extOnly {x y : Algorithm E} {rk : Coordinate → Nat} (h : ChainInv x rk)
    (hxy : ExtOnly x y) : ChainInv y rk := by
  obtain ⟨_, hno, _, _, _, _, _, hsz, hst, _, hn⟩ := hxy
  refine ⟨?_, ?_, ?_, ?_⟩
  · intro c p hc hp
    rw [(hn c).2.2.2] at hc
    rw [(hn c).1] at hp
    rw [(hn p).2.2.2]
    exact h.parent_lt c p hc hp
  · intro c hc
    rw [(hn c).2.2.2] at hc
    rw [hno]
    exact h.rk_lt c hc
  · intro c hc hp
    rw [(hn c).2.2.2] at hc
    rw [(hn c).1] at hp
    rw [hst]
    exact h.root c hc hp
  · have := Board.unopened_congr x.m_board y.m_board hsz (fun c => (hn c).2.2.2)
    rw [hno, this]
    have h3 : y.m_board.nodeCount = x.m_board.nodeCount := by simp [Board.nodeCount, hsz]
    rw [h3]
    exact h.count

/-- The property the rules are used with in a run on a freshly constructed instance. -/
theorem pushOpen_opened_of_opened (x : Algorithm E) (n c : Coordinate) (p : Option Coordinate)
    (h : (x.m_board.m_nodes c).opened = true) :
    ((pushOpen x n p).m_board.m_nodes c).opened = true := by
  by_cases hcn : c = n
  · subst hcn
    simp
  · rw [pushOpen_m_nodes_of_ne _ _ _ _ hcn]
    exact h

end AlgorithmBase

/-! ## Theorems: one call of `nextStep` in a run on a freshly constructed instance -/

namespace AlgorithmBase

variable {E : Type}

theorem FreshInv.fresh_open_neighbor {b0 : Board E} {d cc : Bool} {s x : Algorithm E}
    (hs : RunInv b0 d cc s) {node n : Coordinate} (hmem : node ∈ s.m_openNodes)
    (hx : FreshInv b0 d cc x ∧ (x.m_board.m_nodes node).opened = true)
    (hn : n ∈ s.m_board.getNeighbors node [] s.m_diagonals s.m_cutCorners)
    (ho : (x.m_board.m_nodes n).opened = false) :
    FreshInv b0 d cc (pushOpen x n (some node)) ∧
      ((pushOpen x n (some node)).m_board.m_nodes node).opened = true := by
  obtain ⟨⟨hr, rk, hk⟩, hnode⟩ := hx
  have hv : x.m_board.isValidNode n = true := by
    rw [hr.grid.isValidNode, ← hs.grid.isValidNode]
    exact Board.isValidNode_of_mem_getNeighbors _ _ _ _ _ hn
  exact ⟨⟨hs.run_open_neighbor hr (hs.front node hmem).2.2 hn _, hk.chain_push hnode hv ho⟩,
    pushOpen_opened_of_opened x n node _ hnode⟩

theorem FreshInv.goal {b0 : Board E} {d cc : Bool} (hw : b0.WellFormed)
    (hvs : b0.isValidNode b0.m_start = true) {fuel : Nat} (hfuel : b0.nodeCount < fuel)
    {s x : Algorithm E} (hs : RunInv b0 d cc s) {node n : Coordinate}
    (hmem : node ∈ s.m_openNodes)
    (hx : FreshInv b0 d cc x ∧ (x.m_board.m_nodes node).opened = true)
    (hn : n = node ∨ (n ∈ s.m_board.getNeighbors node [] s.m_diagonals s.m_cutCorners ∧
      (x.m_board.m_nodes n).opened = true))
    (hg : (x.m_board.m_nodes n).position = getGoal x) :
    ∃ s', storeSolution fuel x = some s' ∧ GoalToStart b0.m_start b0.m_goal s' := by
  obtain ⟨⟨hr, rk, hk⟩, hnode⟩ := hx
  have h1 := hs.front node hmem
  rw [hs.grid.isValidNode] at h1
  rcases hn with rfl | ⟨hn, hon⟩
  · exact storeSolution_goalToStart hw hvs hr hk hfuel h1.1 hnode hg
  · rw [hs.neighbors] at hn
    exact storeSolution_goalToStart hw hvs hr hk hfuel
      (Board.isValidNode_of_mem_getNeighbors _ _ _ _ _ hn) hon hg

end AlgorithmBase

namespace BreadthFirstSearch

open AlgorithmBase

theorem bfs_nextStep_fresh (b0 : Board Unit) (hw : b0.WellFormed)
    (hvs : b0.isValidNode b0.m_start = true) (d cc : Bool) (fuel : Nat)
    (hfuel : b0.nodeCount < fuel) (s : State) (hs : FreshInv b0 d cc s) :
    (s.m_openNodes = [] ∧ nextStep fuel s = some (true, s)) ∨
    (∃ s', nextStep fuel s = some (false, s') ∧ FreshInv b0 d cc s') ∨
    (s.m_openNodes ≠ [] ∧ ∃ s', nextStep fuel s = some (true, s') ∧ GoalToStart b0.m_start b0.m_goal s') := by
  cases hf : s.m_openNodes with
  | nil => exact Or.inl ⟨rfl, bfs_nextStep_nil fuel s hf⟩
  | cons node rest =>
    obtain ⟨hr, rk, hk⟩ := hs
    have hmem : node ∈ s.m_openNodes := by simp [hf]
    have hnode := hr.front node hmem
    rcases bfs_nextStep_rule fuel s node rest hf
        (fun x => FreshInv b0 d cc x ∧ (x.m_board.m_nodes node).opened = true)
        ⟨⟨hr.run_setFrontier _ rest (by intro c hc; simp [hf, hc]), rk, hk.chain_setFrontier _ _⟩,
          hnode.2.1⟩
        (fun x n hx hn ho => FreshInv.fresh_open_neighbor hr hmem hx hn ho) with
      ⟨s', h1, h2⟩ | ⟨s1, n, h1, h2, h3, h4⟩
    · exact Or.inr (Or.inl ⟨s', h1, h2.1⟩)
    · obtain ⟨s', h5, h6⟩ := FreshInv.goal hw hvs hfuel hr hmem h1 h2 h3
      refine Or.inr (Or.inr ⟨by simp, s', ?_, h6⟩)
      rw [h4, h5]
      rfl

end BreadthFirstSearch

namespace DepthFirstSearch

open AlgorithmBase

theorem dfs_nextStep_fresh (b0 : Board Unit) (hw : b0.WellFormed)
    (hvs : b0.isValidNode b0.m_start = true) (d cc : Bool) (fuel : Nat)
    (hfuel : b0.nodeCount < fuel) (s : State) (hs : FreshInv b0 d cc s) :
    (s.m_openNodes = [] ∧ nextStep fuel s = some (true, s)) ∨
    (∃ s', nextStep fuel s = some (false, s') ∧ FreshInv b0 d cc s') ∨
    (s.m_openNodes ≠ [] ∧ ∃ s', nextStep fuel s = some (true, s') ∧ GoalToStart b0.m_start b0.m_goal s') := by
  by_cases hf : s.m_openNodes = []
  · exact Or.inl ⟨hf, dfs_nextStep_nil fuel s hf⟩
  · obtain ⟨rest, node, hl⟩ := exists_concat_of_ne_nil _ hf
    obtain ⟨hr, rk, hk⟩ := hs
    have hmem : node ∈ s.m_openNodes := by simp [hl]
    have hnode := hr.front node hmem
    rcases dfs_nextStep_rule fuel s node rest hl
        (fun _ x => (FreshInv b0 d cc x ∧ (x.m_board.m_nodes node).opened = true) ∧
          x.m_openNodes ≠ [])
        ⟨⟨⟨hr, rk, hk⟩, hnode.2.1⟩, hf⟩
        (fun _ x n hx hn ho => ⟨FreshInv.fresh_open_neighbor hr hmem hx.1 hn ho, by simp⟩)
        (fun _ x hx => hx.2) with
      ⟨ch, s2, h1, h2⟩ | ⟨_, s1, n, h1, h2, h3, h4⟩
    · refine Or.inr (Or.inl ⟨_, h2, ?_⟩)
      obtain ⟨⟨⟨hr2, rk2, hk2⟩, _⟩, _⟩ := h1
      cases ch
      · simp only [Bool.false_eq_true, if_false]
        exact ⟨hr2.run_setFrontier _ _ (fun c hc => List.mem_of_mem_dropLast hc), rk2,
          hk2.chain_setFrontier _ _⟩
      · simp only [if_true]
        exact ⟨hr2, rk2, hk2⟩
    · obtain ⟨s', h5, h6⟩ := FreshInv.goal hw hvs hfuel hr hmem h1.1 h2 h3
      refine Or.inr (Or.inr ⟨hf, s', ?_, h6⟩)
      rw [h4, h5]
      rfl

end DepthFirstSearch

namespace BestFirstSearch

open AlgorithmBase

variable {α : Type}

theorem bestFirst_nextStep_fresh (A : Env α) (hA : A.SortPermutes) (b0 : Board (Ext α))
    (hw : b0.WellFormed) (hvs : b0.isValidNode b0.m_start = true) (d cc : Bool) (fuel : Nat)
    (hfuel : b0.nodeCount < fuel) (s : State α) (hs : FreshInv b0 d cc s) :
    (s.m_openNodes = [] ∧ nextStep A fuel s = some (true, s)) ∨
    (∃ s', nextStep A fuel s = some (false, s') ∧ FreshInv b0 d cc s') ∨
    (s.m_openNodes ≠ [] ∧ ∃ s', nextStep A fuel s = some (true, s') ∧ GoalToStart b0.m_start b0.m_goal s') := by
  by_cases hf : s.m_openNodes = []
  · exact Or.inl ⟨hf, bestFirst_nextStep_nil A fuel s hf⟩
  · obtain ⟨hr, rk, hk⟩ := hs
    rcases bestFirst_nextStep_rule_ext A hA fuel s hf
        (fun node x => (FreshInv b0 d cc x ∧ (x.m_board.m_nodes node).opened = true) ∧
          node ∈ s.m_openNodes)
        (fun node x y hxy hx => ⟨⟨⟨hx.1.1.1.run_extOnly hxy, by
            obtain ⟨rk, hk⟩ := hx.1.1.2
            exact ⟨rk, hk.chain_extOnly hxy⟩⟩, by
            rw [(hxy.2.2.2.2.2.2.2.2.2.2 node).2.2.2]
            exact hx.1.2⟩, hx.2⟩)
        (fun node rest hp => ⟨⟨⟨hr.run_setFrontier _ rest
            (fun c hc => hp.subset (List.mem_append_left _ hc)), rk, hk.chain_setFrontier _ _⟩,
          (hr.front node (hp.subset (by simp))).2.1⟩, hp.subset (by simp)⟩)
        (fun node x n hx hn ho => ⟨FreshInv.fresh_open_neighbor hr hx.2 hx.1 hn ho, hx.2⟩) with
      ⟨_, s', h1, h2⟩ | ⟨node, s1, n, h1, h2, h3, h4⟩
    · exact Or.inr (Or.inl ⟨s', h1, h2.1.1⟩)
    · obtain ⟨s', h5, h6⟩ := FreshInv.goal hw hvs hfuel hr h1.2 h1.1 h2 h3
      refine Or.inr (Or.inr ⟨hf, s', ?_, h6⟩)
      rw [h4, h5]
      rfl

end BestFirstSearch

namespace AStar

open AlgorithmBase

variable {α : Type}

/-- Closing a frontier node keeps the parent-link invariant of A*. -/
theorem ChainInv.astar_closeWith {s : State α} {rk : Coordinate → Nat} (h : ChainInv s rk)
    {node : Coordinate} {rest : List Coordinate} (hp : (rest ++ [node]).Perm s.m_openNodes)
    (hopened : (s.m_board.m_nodes node).opened = true) :
    (∃ rk', ChainInv (AStar.closeWith s node rest) rk') ∧
      ((AStar.closeWith s node rest).m_board.m_nodes node).ext.closed = true := by
  have hnd : (rest ++ [node]).Nodup := hp.nodup_iff.2 h.front_nodup
  have hnotin : node ∉ rest := by
    intro hm
    have := List.nodup_append.1 hnd
    exact this.2.2 hm (List.mem_singleton_self _)
  have hnc : (s.m_board.m_nodes node).ext.closed = false :=
    h.front_open node (hp.subset (by simp))
  have hnodes : ∀ c, (AStar.closeWith s node rest).m_board.m_nodes c =
      if c = node then
        { s.m_board.m_nodes node with
          ext := { (s.m_board.m_nodes node).ext with closed := true } }
      else s.m_board.m_nodes c := fun c => Board.write_m_nodes _ _ _ _
  have hne_of_closed : ∀ c, (s.m_board.m_nodes c).ext.closed = true → c ≠ node := by
    intro c hc hcn
    rw [hcn, hnc] at hc
    exact absurd hc (by simp)
  refine ⟨⟨Function.update rk node s.nodesClosed, ?_, ?_, ?_, ?_, ?_, ?_, ?_, ?_⟩, ?_⟩
  · intro c p hcp
    have hcp' : (s.m_board.m_nodes c).parent = some p := by
      rw [hnodes] at hcp
      split at hcp
      · rename_i hc
        subst hc
        exact hcp
      · exact hcp
    obtain ⟨h1, h2⟩ := h.parent_closed c p hcp'
    have hpn := hne_of_closed p h1
    refine ⟨by rw [hnodes, if_neg hpn]; exact h1, ?_⟩
    intro hcc
    rw [Function.update_noteq hpn]
    by_cases hc : c = node
    · subst hc
      rw [Function.update_same]
      exact h.rk_lt p h1
    · rw [hnodes, if_neg hc] at hcc
      rw [Function.update_noteq hc]
      exact h2 hcc
  · intro c hcc
    show _ < s.nodesClosed + 1
    by_cases hc : c = node
    · subst hc
      rw [Function.update_same]
      omega
    · rw [hnodes, if_neg hc] at hcc
      rw [Function.update_noteq hc]
      have := h.rk_lt c hcc
      omega
  · intro c hcc
    rw [hnodes] at hcc ⊢
    by_cases hc : c = node
    · subst hc
      simpa using hopened
    · rw [if_neg hc] at hcc ⊢
      exact h.closed_opened c hcc
  · intro c hco hcp
    have : (s.m_board.m_nodes c).opened = true ∧ (s.m_board.m_nodes c).parent = none := by
      rw [hnodes] at hco hcp
      by_cases hc : c = node
      · subst hc
        rw [if_pos rfl] at hco hcp
        exact ⟨hco, hcp⟩
      · rw [if_neg hc] at hco hcp
        exact ⟨hco, hcp⟩
    exact h.root c this.1 this.2
  · have h1 := astar_closeWith_unopened s node rest
    have h2 : (AStar.closeWith s node rest).m_board.nodeCount = s.m_board.nodeCount := rfl
    rw [h1, h2]
    exact h.count
  · have := hp.length_eq
    simp only [List.length_append, List.length_singleton] at this
    have hb := h.balance
    show s.nodesOpened = s.nodesClosed + 1 + rest.length
    omega
  · intro c hc
    have hcn : c ≠ node := fun h => hnotin (h ▸ hc)
    rw [hnodes, if_neg hcn]
    exact h.front_open c (hp.subset (List.mem_append_left _ hc))
  · exact (List.nodup_append.1 hnd).1
  · rw [hnodes, if_pos rfl]

/-- Relaxing a neighbor that is not closed towards a closed node keeps the parent-link
invariant of A*. -/
theorem ChainInv.astar_updateNode (A : Env α) {x : State α} {rk : Coordinate → Nat}
    (h : ChainInv x rk) {node n : Coordinate}
    (hnode : (x.m_board.m_nodes node).ext.closed = true)
    (hn : (x.m_board.m_nodes n).ext.closed = false) :
    ChainInv (AStar.updateNode A x n node) rk := by
  have hf := astar_updateNode_frame A x n node
  have hcl := astar_updateNode_closed A x n node
  have hop := astar_updateNode_opened A x n node
  have hpar : ∀ c p, ((AStar.updateNode A x n node).m_board.m_nodes c).parent = some p →
      (x.m_board.m_nodes c).parent = some p ∨ (c = n ∧ p = node) := by
    intro c p hcp
    rcases astar_updateNode_m_nodes A x n node c with h1 | ⟨h1, _, _, h2⟩
    · rw [h1] at hcp
      exact Or.inl hcp
    · rw [h2] at hcp
      simp only [Option.some.injEq] at hcp
      exact Or.inr ⟨h1, hcp.symm⟩
  refine ⟨?_, ?_, ?_, ?_, ?_, ?_, ?_, ?_⟩
  · intro c p hcp
    rw [hcl, hcl]
    rcases hpar c p hcp with h1 | ⟨h1, h2⟩
    · exact h.parent_closed c p h1
    · subst h1
      subst h2
      refine ⟨hnode, fun hc => ?_⟩
      rw [hn] at hc
      exact absurd hc (by simp)
  · intro c hc
    rw [hcl] at hc
    rw [hf.2.2.1]
    exact h.rk_lt c hc
  · intro c hc
    rw [hcl] at hc
    rw [hop]
    exact h.closed_opened c hc
  · intro c hco hcp
    rw [hop] at hco
    rw [hf.2.2.2.2.2.2.2.2.1]
    rcases astar_updateNode_m_nodes A x n node c with h1 | ⟨_, _, _, h2⟩
    · rw [h1] at hcp
      exact h.root c hco hcp
    · rw [h2] at hcp
      simp at hcp
  · rw [hf.2.1, astar_updateNode_unopened]
    have : (AStar.updateNode A x n node).m_board.nodeCount = x.m_board.nodeCount := by
      simp [Board.nodeCount, hf.2.2.2.2.2.2.2.1]
    rw [this]
    exact h.count
  · rw [hf.2.1, hf.2.2.1, hf.2.2.2.2.2.2.1]
    exact h.balance
  · intro c hc
    rw [hf.2.2.2.2.2.2.1] at hc
    rw [hcl]
    exact h.front_open c hc
  · rw [hf.2.2.2.2.2.2.1]
    exact h.front_nodup

/-- Opening an unopened, not closed, in-bounds neighbor from a closed node keeps the
parent-link invariant of A*. -/
theorem ChainInv.astar_push {x : State α} {rk : Coordinate → Nat} (h : ChainInv x rk)
    {node n : Coordinate} (hnode : (x.m_board.m_nodes node).ext.closed = true)
    (hn : (x.m_board.m_nodes n).ext.closed = false)
    (hv : x.m_board.isValidNode n = true) (ho : (x.m_board.m_nodes n).opened = false)
    (hfront : ∀ c ∈ x.m_openNodes, (x.m_board.m_nodes c).opened = true) :
    ChainInv (pushOpen x n (some node)) rk := by
  have hcl : ∀ c, ((pushOpen x n (some node)).m_board.m_nodes c).ext.closed =
      (x.m_board.m_nodes c).ext.closed := by
    intro c
    by_cases hc : c = n
    · subst hc
      simp
    · rw [pushOpen_m_nodes_of_ne _ _ _ _ hc]
  refine ⟨?_, ?_, ?_, ?_, ?_, ?_, ?_, ?_⟩
  · intro c p hcp
    rw [hcl, hcl]
    by_cases hc : c = n
    · subst hc
      simp only [pushOpen_m_nodes_same, Option.some.injEq] at hcp
      subst hcp
      refine ⟨hnode, fun hc => ?_⟩
      rw [hn] at hc
      exact absurd hc (by simp)
    · rw [pushOpen_m_nodes_of_ne _ _ _ _ hc] at hcp
      exact h.parent_closed c p hcp
  · intro c hc
    rw [hcl] at hc
    exact h.rk_lt c hc
  · intro c hc
    rw [hcl] at hc
    exact pushOpen_opened_of_opened x n c _ (h.closed_opened c hc)
  · intro c hco hcp
    by_cases hc : c = n
    · subst hc
      simp at hcp
    · rw [pushOpen_m_nodes_of_ne _ _ _ _ hc] at hco hcp
      exact h.root c hco hcp
  · have h1 := pushOpen_unopened x n (some node) hv ho
    have h2 := h.count
    have h3 : (pushOpen x n (some node)).m_board.nodeCount = x.m_board.nodeCount := rfl
    rw [pushOpen_nodesOpened, h3]
    omega
  · have := h.balance
    simp only [pushOpen_nodesOpened, pushOpen_nodesClosed, pushOpen_m_openNodes,
      List.length_append, List.length_singleton]
    omega
  · intro c hc
    rw [hcl]
    rw [pushOpen_m_openNodes, List.mem_append, List.mem_singleton] at hc
    rcases hc with hc | hc
    · exact h.front_open c hc
    · rw [hc]
      exact hn
  · rw [pushOpen_m_openNodes]
    refine List.Nodup.append h.front_nodup (List.nodup_singleton _) ?_
    intro c hc1 hc2
    rw [List.mem_singleton] at hc2
    subst hc2
    have := hfront c hc1
    rw [ho] at this
    exact absurd this (by simp)

/-- In a state with the run and parent-link invariants of A* in which the goal node is
opened, `storeSolution` returns, and the solution it stores goes from the goal to the
start. -/
theorem astar_storeSolution_goalToStart {b0 : Board (Ext α)} {d cc : Bool} (hw : b0.WellFormed)
    (hvs : b0.isValidNode b0.m_start = true) {x : State α}
    (hx : RunInv b0 d cc x) {rk : Coordinate → Nat} (hk : ChainInv x rk) {fuel : Nat}
    (hfuel : b0.nodeCount < fuel) {n : Coordinate} (hvn : b0.isValidNode n = true)
    (hon : (x.m_board.m_nodes n).opened = true)
    (hg : (x.m_board.m_nodes n).position = getGoal x) :
    ∃ s', storeSolution fuel x = some s' ∧ GoalToStart b0.m_start b0.m_goal s' := by
  have hwx : x.m_board.WellFormed := hx.grid.wellFormed hw
  have hvx : ∀ c, x.m_board.isValidNode c = b0.isValidNode c := hx.grid.isValidNode
  have hng : n = x.m_board.m_goal := by
    rw [hwx n (by rw [hvx]; exact hvn)] at hg
    exact hg
  subst hng
  have hcount : x.nodesClosed ≤ b0.nodeCount := by
    have h1 := hk.count
    have h2 := hk.balance
    rw [nodeCount_of_sameGrid hx.grid] at h1
    omega
  obtain ⟨path, e, h1, h2, h3, h4, h5⟩ :=
    storeSolutionLoop_ranked x.m_board (fun c => (x.m_board.m_nodes c).opened = true)
      (fun c => if (x.m_board.m_nodes c).ext.closed = true then rk c else x.nodesClosed)
      (by
        intro c p _ hcp
        obtain ⟨hp1, hp2⟩ := hk.parent_closed c p hcp
        refine ⟨hk.closed_opened p hp1, ?_⟩
        simp only [hp1, if_true]
        split
        · rename_i hc
          exact hp2 hc
        · exact hk.rk_lt p hp1)
      fuel x.m_board.m_goal x.solution hon
      (by
        simp only
        split
        · rename_i hc
          have := hk.rk_lt _ hc
          omega
        · omega)
  have he : e = x.m_board.m_start := hk.root e h4 h5
  subst he
  have hgn : getGoalNode x = some x.m_board.m_goal := by
    simp only [getGoalNode, Board.getGoalNode]
    rw [hvx, hvn]
    simp
  refine ⟨{ x with solution := x.solution ++ path }, ?_, ?_⟩
  · simp only [storeSolution, hgn, h1]
  · have hne : path ≠ [] := by
      intro h
      rw [h] at h2
      simp at h2
    have hps : (x.m_board.m_nodes x.m_board.m_start).position = x.m_board.m_start :=
      hwx _ (by rw [hvx, hx.grid.2.1]; exact hvs)
    have hpg : (x.m_board.m_nodes x.m_board.m_goal).position = x.m_board.m_goal :=
      hwx _ (by rw [hvx]; exact hvn)
    refine ⟨?_, ?_, ?_⟩
    · simp [hx.sol, hne]
    · simp only [hx.sol, List.nil_append, h2, hpg]
      rw [hx.grid.2.2.1]
    · simp only [hx.sol, List.nil_append, h3, hps]
      rw [hx.grid.2.1]

theorem astar_nextStep_fresh (A : Env α) (hA : A.SortPermutes) (b0 : Board (Ext α))
    (hw : b0.WellFormed) (hvs : b0.isValidNode b0.m_start = true) (d cc : Bool) (fuel : Nat)
    (hfuel : b0.nodeCount < fuel) (s : State α) (hs : FreshInv b0 d cc s) :
    (s.m_openNodes = [] ∧ nextStep A fuel s = some (true, s)) ∨
    (∃ s', nextStep A fuel s = some (false, s') ∧ FreshInv b0 d cc s') ∨
    (s.m_openNodes ≠ [] ∧ ∃ s', nextStep A fuel s = some (true, s') ∧ GoalToStart b0.m_start b0.m_goal s') := by
  by_cases hf : s.m_openNodes = []
  · exact Or.inl ⟨hf, astar_nextStep_nil A fuel s hf⟩
  · obtain ⟨hr, rk, hk⟩ := hs
    rcases astar_nextStep_rule A hA fuel s hf
        (fun node x => (FreshInv b0 d cc x ∧ (x.m_board.m_nodes node).ext.closed = true) ∧
          node ∈ s.m_openNodes)
        (fun node rest hp => by
          have hmem : node ∈ s.m_openNodes := hp.subset (by simp)
          obtain ⟨h1, h2⟩ := hk.astar_closeWith hp (hr.front node hmem).2.1
          exact ⟨⟨⟨astar_RunInv_closeWith hr node rest
            (fun c hc => hp.subset (List.mem_append_left _ hc)), h1⟩, h2⟩, hmem⟩)
        (fun node x n hx _ hc => by
          obtain ⟨⟨⟨hrx, rkx, hkx⟩, hcn⟩, hmem⟩ := hx
          exact ⟨⟨⟨astar_RunInv_updateNode A hrx n node, rkx, hkx.astar_updateNode A hcn hc⟩,
            by rw [astar_updateNode_closed]; exact hcn⟩, hmem⟩)
        (fun node x n hx hn hc ho => by
          obtain ⟨⟨⟨hrx, rkx, hkx⟩, hcn⟩, hmem⟩ := hx
          have hv : x.m_board.isValidNode n = true := by
            rw [hrx.grid.isValidNode, ← hr.grid.isValidNode]
            exact Board.isValidNode_of_mem_getNeighbors _ _ _ _ _ hn
          have hne : node ≠ n := by
            intro h
            rw [h, hc] at hcn
            exact absurd hcn (by simp)
          exact ⟨⟨⟨hr.run_open_neighbor hrx (hr.front node hmem).2.2 hn _, rkx,
            hkx.astar_push hcn hc hv ho (fun c hcm => (hrx.front c hcm).2.1)⟩,
            by rw [pushOpen_m_nodes_of_ne _ _ _ _ hne]; exact hcn⟩, hmem⟩) with
      ⟨_, s', h1, h2⟩ | ⟨node, s1, n, h1, h2, h3, h4⟩
    · exact Or.inr (Or.inl ⟨s', h1, h2.1.1⟩)
    · obtain ⟨⟨⟨hr1, rk1, hk1⟩, hcn⟩, hmem⟩ := h1
      have hnf := hr.front node hmem
      rw [hr.grid.isValidNode] at hnf
      have hgoal : ∃ s', storeSolution fuel s1 = some s' ∧ GoalToStart b0.m_start b0.m_goal s' := by
        rcases h2 with rfl | ⟨hn, hon⟩
        · exact astar_storeSolution_goalToStart hw hvs hr1 hk1 hfuel hnf.1
            (hk1.closed_opened _ hcn) h3
        · rw [hr.neighbors] at hn
          exact astar_storeSolution_goalToStart hw hvs hr1 hk1 hfuel
            (Board.isValidNode_of_mem_getNeighbors _ _ _ _ _ hn) hon h3
      obtain ⟨s', h5, h6⟩ := hgoal
      refine Or.inr (Or.inr ⟨hf, s', ?_, h6⟩)
      rw [h4, h5]
      rfl

end AStar

/-! ## Theorems: `init` -/

namespace AlgorithmBase

variable {E : Type}

theorem nodeInitOK_base : NodeInitOK (NodeBase.init : Node E → Node E) :=
  fun _ => ⟨rfl, rfl, rfl, rfl⟩

theorem initBase_m_nodes (nodeInit : Node E → Node E) (s : Algorithm E) (h : Heuristic)
    (d cc : Bool) (c : Coordinate) :
    (initBase nodeInit s h d cc).m_board.m_nodes c =
      if s.m_board.isValidNode c = true then nodeInit (s.m_board.m_nodes c)
      else s.m_board.m_nodes c := rfl

theorem initBase_sameGrid {nodeInit : Node E → Node E} (hok : NodeInitOK nodeInit)
    (s : Algorithm E) (h : Heuristic) (d cc : Bool) :
    Board.SameGrid s.m_board (initBase nodeInit s h d cc).m_board := by
  refine ⟨rfl, rfl, rfl, fun c => ?_⟩
  rw [initBase_m_nodes]
  split
  · exact ⟨(hok _).2.2.1, (hok _).2.2.2⟩
  · exact ⟨rfl, rfl⟩

theorem initBase_runInv {nodeInit : Node E → Node E} (hok : NodeInitOK nodeInit)
    (s : Algorithm E) (h : Heuristic) (d cc : Bool) :
    RunInv s.m_board d cc (initBase nodeInit s h d cc) :=
  ⟨initBase_sameGrid hok s h d cc, rfl, rfl, rfl, fun c hc => by
    have : (initBase nodeInit s h d cc).m_openNodes = [] := rfl
    rw [this] at hc
    exact absurd hc (List.not_mem_nil c)⟩

theorem initBase_opened_valid {nodeInit : Node E → Node E} (hok : NodeInitOK nodeInit)
    (s : Algorithm E) (h : Heuristic) (d cc : Bool) (c : Coordinate)
    (hv : s.m_board.isValidNode c = true) :
    ((initBase nodeInit s h d cc).m_board.m_nodes c).opened = false ∧
      ((initBase nodeInit s h d cc).m_board.m_nodes c).parent = none := by
  rw [initBase_m_nodes, if_pos hv]
  exact ⟨(hok _).2.1, (hok _).1⟩

theorem initBase_opened_pristine {nodeInit : Node E → Node E} (hok : NodeInitOK nodeInit)
    (s : Algorithm E) (hp : Pristine s) (h : Heuristic) (d cc : Bool) (c : Coordinate) :
    ((initBase nodeInit s h d cc).m_board.m_nodes c).opened = false ∧
      ((initBase nodeInit s h d cc).m_board.m_nodes c).parent = none := by
  by_cases hv : s.m_board.isValidNode c = true
  · exact initBase_opened_valid hok s h d cc c hv
  · rw [initBase_m_nodes, if_neg hv]
    exact hp.2.2 c

theorem initBase_unopened {nodeInit : Node E → Node E} (hok : NodeInitOK nodeInit)
    (s : Algorithm E) (h : Heuristic) (d cc : Bool) :
    (initBase nodeInit s h d cc).m_board.unopened = s.m_board.nodeCount := by
  have ha : (initBase nodeInit s h d cc).m_board.allCoords = s.m_board.allCoords := rfl
  rw [Board.unopened, ha, ← Board.length_allCoords]
  congr 1
  rw [List.filter_eq_self]
  intro c hc
  rw [Board.mem_allCoords] at hc
  simp [(initBase_opened_valid hok s h d cc c hc).1]

/-- The run invariant holds after `init`. -/
theorem init_runInv {nodeInit : Node E → Node E} (hok : NodeInitOK nodeInit)
    (s : Algorithm E) (h : Heuristic) (d cc : Bool)
    (hv : s.m_board.isValidNode s.m_board.m_start = true) :
    RunInv s.m_board d cc (pushOpen (initBase nodeInit s h d cc) s.m_board.m_start none) :=
  (initBase_runInv hok s h d cc).run_push _ _ hv (Board.Reach.reach_refl _ _ _ _)

/-- The parent-link invariant holds after `init` on an instance on which no run was
started. -/
theorem init_chainInv {nodeInit : Node E → Node E} (hok : NodeInitOK nodeInit)
    (s : Algorithm E) (hp : Pristine s) (h : Heuristic) (d cc : Bool)
    (hv : s.m_board.isValidNode s.m_board.m_start = true) :
    ChainInv (pushOpen (initBase nodeInit s h d cc) s.m_board.m_start none) (fun _ => 0) := by
  have hall := initBase_opened_pristine hok s hp h d cc
  have hopened : ∀ c, ((pushOpen (initBase nodeInit s h d cc) s.m_board.m_start
      none).m_board.m_nodes c).opened = true → c = s.m_board.m_start := by
    intro c hc
    by_contra hne
    rw [pushOpen_m_nodes_of_ne _ _ _ _ hne, (hall c).1] at hc
    exact absurd hc (by simp)
  refine ⟨?_, ?_, ?_, ?_⟩
  · intro c p hc hcp
    have := hopened c hc
    subst this
    simp at hcp
  · intro c _
    show 0 < 0 + 1
    omega
  · intro c hc _
    exact hopened c hc
  · have h1 := pushOpen_unopened (initBase nodeInit s h d cc) s.m_board.m_start none hv
      (hall _).1
    rw [initBase_unopened hok] at h1
    show 0 + 1 + _ = s.m_board.nodeCount
    omega

/-- The postcondition of `init`, before the derived class touches the opened node. -/
theorem init_post {nodeInit : Node E → Node E} (hok : NodeInitOK nodeInit)
    (s : Algorithm E) (h : Heuristic) (d cc : Bool) :
    InitPost s (pushOpen (initBase nodeInit s h d cc) s.m_board.m_start none) := by
  have hg := (initBase_sameGrid hok s h d cc).trans
    (pushOpen_sameGrid (initBase nodeInit s h d cc) s.m_board.m_start none)
  refine ⟨rfl, rfl, rfl, by simp, by simp, ?_, fun c => (hg.2.2.2 c).1, ?_⟩
  · intro c hv hne
    rw [pushOpen_m_nodes_of_ne _ _ _ _ hne]
    exact initBase_opened_valid hok s h d cc c hv
  · intro c
    simp only [Board.isObstacle, hg.isValidNode, (hg.2.2.2 c).1]

theorem InitPost.post_extOnly {s x y : Algorithm E} (h : InitPost s x) (hxy : ExtOnly x y) :
    InitPost s y := by
  have hg := hxy.ext_sameGrid
  obtain ⟨hsol, hno, _, _, _, _, hf, _, _, _, hn⟩ := hxy
  obtain ⟨h1, h2, h3, h4, h5, h6, h7, h8⟩ := h
  refine ⟨hsol.trans h1, hno.trans h2, hf.trans h3, ?_, ?_, ?_, ?_, ?_⟩
  · rw [(hn _).2.2.2]
    exact h4
  · rw [(hn _).1]
    exact h5
  · intro c hv hne
    rw [(hn _).2.2.2, (hn _).1]
    exact h6 c hv hne
  · intro c
    rw [(hn _).2.2.1]
    exact h7 c
  · intro c
    rw [← h8 c]
    simp only [Board.isObstacle, hg.isValidNode, (hg.2.2.2 c).1]

theorem Pristine.setObstacle {s : Algorithm E} (h : Pristine s) (c : Coordinate) (o : Bool) :
    Pristine (setObstacle s c o) := by
  refine ⟨h.1, Board.wellFormed_setObstacle _ h.2.1 c o, fun x => ?_⟩
  show ((s.m_board.setObstacle c o).m_nodes x).opened = false ∧
    ((s.m_board.setObstacle c o).m_nodes x).parent = none
  rw [Board.setObstacle_m_nodes]
  split
  · exact h.2.2 x
  · exact h.2.2 x

theorem Pristine.pristine_setObstacles {s : Algorithm E} (h : Pristine s)
    (obs : List (Coordinate × Bool)) : Pristine (setObstacles s obs) := by
  induction obs generalizing s with
  | nil => exact h
  | cons a rest ih => exact ih (h.setObstacle a.1 a.2)

theorem setObstacles_frame (s : Algorithm E) (obs : List (Coordinate × Bool)) :
    (setObstacles s obs).m_board.m_size = s.m_board.m_size ∧
    (setObstacles s obs).m_board.m_start = s.m_board.m_start ∧
    (setObstacles s obs).m_board.m_goal = s.m_board.m_goal := by
  induction obs generalizing s with
  | nil => exact ⟨rfl, rfl, rfl⟩
  | cons a rest ih =>
    obtain ⟨h1, h2, h3⟩ := ih (setObstacle s a.1 a.2)
    exact ⟨h1.trans (Board.setObstacle_m_size _ _ _), h2.trans (Board.setObstacle_m_start _ _ _),
      h3.trans (Board.setObstacle_m_goal _ _ _)⟩

theorem isValidNode_iff_inBounds (b : Board E) (c : Coordinate) :
    b.isValidNode c = true ↔ InBounds b.m_size c := by
  simp [Board.isValidNode, InBounds, and_assoc]

end AlgorithmBase

namespace BreadthFirstSearch

open AlgorithmBase

theorem bfs_init_eq (s : State) (h : Heuristic) (d cc : Bool) :
    init s h d cc =
      if s.m_board.isValidNode s.m_board.m_start = true then
        some (pushOpen (initBase NodeBase.init s h d cc) s.m_board.m_start none)
      else none := by
  by_cases hv : s.m_board.isValidNode s.m_board.m_start = true
  · have hg : (s.m_board.init NodeBase.init).getStartNode = some s.m_board.m_start :=
      if_pos hv
    rw [if_pos hv]
    simp only [init, AlgorithmBase.init, hg]
    rfl
  · have hg : (s.m_board.init NodeBase.init).getStartNode = none := if_neg hv
    rw [if_neg hv]
    simp only [init, AlgorithmBase.init, hg]

theorem bfs_pristine_create (size start goal : Coordinate) : Pristine (create size start goal) :=
  ⟨rfl, Board.wellFormed_create _ _ _ _, fun _ => ⟨rfl, rfl⟩⟩

end BreadthFirstSearch

namespace DepthFirstSearch

open AlgorithmBase

theorem dfs_init_eq (s : State) (h : Heuristic) (d cc : Bool) :
    init s h d cc =
      if s.m_board.isValidNode s.m_board.m_start = true then
        some (pushOpen (initBase NodeBase.init s h d cc) s.m_board.m_start none)
      else none := by
  by_cases hv : s.m_board.isValidNode s.m_board.m_start = true
  · have hg : (s.m_board.init NodeBase.init).getStartNode = some s.m_board.m_start :=
      if_pos hv
    rw [if_pos hv]
    simp only [init, AlgorithmBase.init, hg]
    rfl
  · have hg : (s.m_board.init NodeBase.init).getStartNode = none := if_neg hv
    rw [if_neg hv]
    simp only [init, AlgorithmBase.init, hg]

theorem dfs_pristine_create (size start goal : Coordinate) : Pristine (create size start goal) :=
  ⟨rfl, Board.wellFormed_create _ _ _ _, fun _ => ⟨rfl, rfl⟩⟩

end DepthFirstSearch

namespace BestFirstSearch

open AlgorithmBase

variable {α : Type}

theorem bestFirst_nodeInitOK (A : Env α) : NodeInitOK (Node.init A) :=
  fun _ => ⟨rfl, rfl, rfl, rfl⟩

theorem bestFirst_init_eq (A : Env α) (s : State α) (h : Heuristic) (d cc : Bool) :
    init A s h d cc =
      if s.m_board.isValidNode s.m_board.m_start = true then
        some (openNode A (initBase (Node.init A) s h d cc) s.m_board.m_start none)
      else none := by
  by_cases hv : s.m_board.isValidNode s.m_board.m_start = true
  · have hg : (s.m_board.init (Node.init A)).getStartNode = some s.m_board.m_start :=
      if_pos hv
    rw [if_pos hv]
    simp only [init, AlgorithmBase.init, hg]
    rfl
  · have hg : (s.m_board.init (Node.init A)).getStartNode = none := if_neg hv
    rw [if_neg hv]
    simp only [init, AlgorithmBase.init, hg]

theorem bestFirst_pristine_create (A : Env α) (size start goal : Coordinate) :
    Pristine (create A size start goal) :=
  ⟨rfl, Board.wellFormed_create _ _ _ _, fun _ => ⟨rfl, rfl⟩⟩

end BestFirstSearch

namespace AStar

open AlgorithmBase

variable {α : Type}

theorem astar_nodeInitOK (A : Env α) : NodeInitOK (Node.init A) :=
  fun _ => ⟨rfl, rfl, rfl, rfl⟩

theorem astar_init_eq (A : Env α) (s : State α) (h : Heuristic) (d cc : Bool) :
    init A s h d cc =
      if s.m_board.isValidNode s.m_board.m_start = true then
        some (pushOpen (initBase (Node.init A) s h d cc) s.m_board.m_start none)
      else none := by
  by_cases hv : s.m_board.isValidNode s.m_board.m_start = true
  · have hg : (s.m_board.init (Node.init A)).getStartNode = some s.m_board.m_start :=
      if_pos hv
    rw [if_pos hv]
    simp only [init, AlgorithmBase.init, hg]
    rfl
  · have hg : (s.m_board.init (Node.init A)).getStartNode = none := if_neg hv
    rw [if_neg hv]
    simp only [init, AlgorithmBase.init, hg]

theorem astar_pristineA_create (A : Env α) (size start goal : Coordinate) :
    PristineA (create A size start goal) :=
  ⟨⟨rfl, Board.wellFormed_create _ _ _ _, fun _ => ⟨rfl, rfl⟩⟩, fun _ => rfl⟩

theorem PristineA.pristineA_setObstacles {s : State α} (h : PristineA s)
    (obs : List (Coordinate × Bool)) : PristineA (setObstacles s obs) := by
  induction obs generalizing s with
  | nil => exact h
  | cons a rest ih =>
    refine ih ⟨h.1.setObstacle a.1 a.2, fun x => ?_⟩
    show ((s.m_board.setObstacle a.1 a.2).m_nodes x).ext.closed = false
    rw [Board.setObstacle_m_nodes]
    split
    · exact h.2 x
    · exact h.2 x

/-- `AStar::Node::init` leaves the field `closed` as it is. -/
theorem astar_initBase_closed (A : Env α) (s : State α) (h : Heuristic) (d cc : Bool)
    (c : Coordinate) :
    ((initBase (Node.init A) s h d cc).m_board.m_nodes c).ext.closed =
      (s.m_board.m_nodes c).ext.closed := by
  rw [initBase_m_nodes]
  split <;> rfl

/-- The parent-link invariant of A* holds after `init` on an instance on which no run was
started. -/
theorem astar_init_chainInv (A : Env α) (s : State α) (hp : PristineA s) (h : Heuristic)
    (d cc : Bool) (hv : s.m_board.isValidNode s.m_board.m_start = true) :
    ChainInv (pushOpen (initBase (Node.init A) s h d cc) s.m_board.m_start none)
      (fun _ => 0) := by
  have hall := initBase_opened_pristine (astar_nodeInitOK A) s hp.1 h d cc
  have hk := AlgorithmBase.init_chainInv (astar_nodeInitOK A) s hp.1 h d cc hv
  have hcl : ∀ c, ((pushOpen (initBase (Node.init A) s h d cc) s.m_board.m_start
      none).m_board.m_nodes c).ext.closed = false := by
    intro c
    by_cases hc : c = s.m_board.m_start
    · subst hc
      simp only [pushOpen_m_nodes_same]
      rw [astar_initBase_closed]
      exact hp.2 _
    · rw [pushOpen_m_nodes_of_ne _ _ _ _ hc, astar_initBase_closed]
      exact hp.2 _
  refine ⟨?_, ?_, ?_, hk.root, hk.count, ?_, ?_, ?_⟩
  · intro c p hcp
    by_cases hc : c = s.m_board.m_start
    · subst hc
      simp at hcp
    · rw [pushOpen_m_nodes_of_ne _ _ _ _ hc, (hall c).2] at hcp
      exact absurd hcp (by simp)
  · intro c hc
    rw [hcl] at hc
    exact absurd hc (by simp)
  · intro c hc
    rw [hcl] at hc
    exact absurd hc (by simp)
  · have h0 : (pushOpen (initBase (Node.init A) s h d cc) s.m_board.m_start
        none).nodesClosed = s.nodesClosed := rfl
    have h1 : (pushOpen (initBase (Node.init A) s h d cc) s.m_board.m_start
        none).nodesOpened = 1 := rfl
    have h2 : (pushOpen (initBase (Node.init A) s h d cc) s.m_board.m_start
        none).m_openNodes = [s.m_board.m_start] := rfl
    rw [h0, h1, h2, hp.1.1]
    rfl
  · intro c _
    exact hcl c
  · show ([] ++ [s.m_board.m_start]).Nodup
    simp

end AStar

/-! ## Theorems: whole runs -/

namespace AlgorithmBase

variable {E : Type}

/-- A run whose calls never find the goal ends with a call that returns true on an empty
frontier, the solution being empty. -/
theorem run_unreachable (step : Algorithm E → Option (Bool × Algorithm E))
    (I : Algorithm E → Prop)
    (hstep : ∀ s, I s → (s.m_openNodes = [] ∧ step s = some (true, s)) ∨
      (∃ s', step s = some (false, s') ∧ I s'))
    (hmeas : ∀ s s', step s = some (false, s') → stepMeasure s' < stepMeasure s)
    (hsol : ∀ s, I s → s.solution = []) (s1 : Algorithm E) (h1 : I s1) :
    ∃ n s s', stepsFalse step n s1 = some s ∧ step s = some (true, s') ∧
      s'.solution = [] ∧ s'.m_openNodes = [] := by
  obtain ⟨n, s, s', _, h2, h3, h4⟩ := exists_true_of_measure step stepMeasure I
    (fun s hs => by
      rcases hstep s hs with ⟨_, h⟩ | ⟨s', h, hI⟩
      · exact Or.inl ⟨s, h⟩
      · exact Or.inr ⟨s', h, hI, hmeas s s' h⟩) s1 h1
  refine ⟨n, s, s', h2, h4, ?_⟩
  rcases hstep s h3 with ⟨he, h⟩ | ⟨s2, h, _⟩
  · rw [h] at h4
    cases h4
    exact ⟨hsol s h3, he⟩
  · rw [h] at h4
    cases h4

/-- A run on a freshly constructed instance: some call returns true, every call returns,
and the call that returns true on a non-empty frontier leaves a solution from the goal to
the start. -/
theorem run_fresh (step : Algorithm E → Option (Bool × Algorithm E))
    (I : Algorithm E → Prop) (start goal : Coordinate)
    (hstep : ∀ s, I s → (s.m_openNodes = [] ∧ step s = some (true, s)) ∨
      (∃ s', step s = some (false, s') ∧ I s') ∨
      (s.m_openNodes ≠ [] ∧ ∃ s', step s = some (true, s') ∧ GoalToStart start goal s'))
    (hmeas : ∀ s s', step s = some (false, s') → stepMeasure s' < stepMeasure s)
    (s1 : Algorithm E) (h1 : I s1) :
    (∃ n s s', n ≤ stepMeasure s1 ∧ stepsFalse step n s1 = some s ∧
      step s = some (true, s') ∧ complete step (n + 1) s1 = some s') ∧
    (∀ n s, stepsFalse step n s1 = some s → (∃ r, step s = some r) ∧
      ∀ s', step s = some (true, s') → s.m_openNodes ≠ [] → GoalToStart start goal s') := by
  constructor
  · obtain ⟨n, s, s', h2, h3, _, h5⟩ := exists_true_of_measure step stepMeasure I
      (fun s hs => by
        rcases hstep s hs with ⟨_, h⟩ | ⟨s', h, hI⟩ | ⟨_, s', h, _⟩
        · exact Or.inl ⟨s, h⟩
        · exact Or.inr ⟨s', h, hI, hmeas s s' h⟩
        · exact Or.inl ⟨s', h⟩) s1 h1
    exact ⟨n, s, s', h2, h3, h5, complete_of_stepsFalse step n s1 s s' h3 h5⟩
  · intro n s hn
    have hI : I s := stepsFalse_invariant step I
      (fun s s' hs h => by
        rcases hstep s hs with ⟨_, h'⟩ | ⟨s2, h', hI⟩ | ⟨_, s2, h', _⟩
        · rw [h'] at h
          cases h
        · rw [h'] at h
          cases h
          exact hI
        · rw [h'] at h
          cases h) n s1 s h1 hn
    rcases hstep s hI with ⟨he, h⟩ | ⟨s2, h, _⟩ | ⟨_, s2, h, hg⟩
    · exact ⟨⟨_, h⟩, fun s' _ hne => absurd he hne⟩
    · refine ⟨⟨_, h⟩, fun s' h' _ => ?_⟩
      rw [h] at h'
      cases h'
    · refine ⟨⟨_, h⟩, fun s' h' _ => ?_⟩
      rw [h] at h'
      cases h'
      exact hg

/-- The measure of the state `init` leaves on an instance on which no run was started. -/
theorem stepMeasure_of_count {s : Algorithm E} {rk : Coordinate → Nat} (h : ChainInv s rk)
    (h1 : s.nodesOpened = 1) (h2 : s.m_openNodes.length = 1) :
    stepMeasure s ≤ 2 * s.m_board.nodeCount := by
  have := h.count
  unfold stepMeasure
  omega

end AlgorithmBase

/-! ## Theorems: the runs of the four algorithms -/

namespace BreadthFirstSearch

open AlgorithmBase

/-- What `init` returns on an arbitrary instance with an in-bounds start. -/
theorem bfs_init_some (s0 : State) (h : Heuristic) (d cc : Bool)
    (hv : s0.m_board.isValidNode s0.m_board.m_start = true) :
    ∃ s1, init s0 h d cc = some s1 ∧ RunInv s0.m_board d cc s1 ∧ InitPost s0 s1 ∧
      (Pristine s0 → ∃ rk, ChainInv s1 rk) :=
  ⟨_, by rw [bfs_init_eq, if_pos hv], init_runInv nodeInitOK_base s0 h d cc hv,
    init_post nodeInitOK_base s0 h d cc,
    fun hp => ⟨_, init_chainInv nodeInitOK_base s0 hp h d cc hv⟩⟩

end BreadthFirstSearch

namespace DepthFirstSearch

open AlgorithmBase

/-- What `init` returns on an arbitrary instance with an in-bounds start. -/
theorem dfs_init_some (s0 : State) (h : Heuristic) (d cc : Bool)
    (hv : s0.m_board.isValidNode s0.m_board.m_start = true) :
    ∃ s1, init s0 h d cc = some s1 ∧ RunInv s0.m_board d cc s1 ∧ InitPost s0 s1 ∧
      (Pristine s0 → ∃ rk, ChainInv s1 rk) :=
  ⟨_, by rw [dfs_init_eq, if_pos hv], init_runInv nodeInitOK_base s0 h d cc hv,
    init_post nodeInitOK_base s0 h d cc,
    fun hp => ⟨_, init_chainInv nodeInitOK_base s0 hp h d cc hv⟩⟩

end DepthFirstSearch

namespace BestFirstSearch

open AlgorithmBase

variable {α : Type}

/-- What `init` returns on an arbitrary instance with an in-bounds start. -/
theorem bestFirst_init_some (A : Env α) (s0 : State α) (h : Heuristic) (d cc : Bool)
    (hv : s0.m_board.isValidNode s0.m_board.m_start = true) :
    ∃ s1, init A s0 h d cc = some s1 ∧ RunInv s0.m_board d cc s1 ∧ InitPost s0 s1 ∧
      (Pristine s0 → ∃ rk, ChainInv s1 rk) :=
  ⟨_, by rw [bestFirst_init_eq, if_pos hv],
    (init_runInv (bestFirst_nodeInitOK A) s0 h d cc hv).run_extOnly (bestFirst_openNode_extOnly A _ _ _),
    (init_post (bestFirst_nodeInitOK A) s0 h d cc).post_extOnly (bestFirst_openNode_extOnly A _ _ _),
    fun hp => ⟨_, (init_chainInv (bestFirst_nodeInitOK A) s0 hp h d cc hv).chain_extOnly
      (bestFirst_openNode_extOnly A _ _ _)⟩⟩

end BestFirstSearch

namespace AStar

open AlgorithmBase

variable {α : Type}

/-- What `init` returns on an arbitrary instance with an in-bounds start. -/
theorem astar_init_some (A : Env α) (s0 : State α) (h : Heuristic) (d cc : Bool)
    (hv : s0.m_board.isValidNode s0.m_board.m_start = true) :
    ∃ s1, init A s0 h d cc = some s1 ∧ RunInv s0.m_board d cc s1 ∧ InitPost s0 s1 ∧
      (PristineA s0 → ∃ rk, ChainInv s1 rk) :=
  ⟨_, by rw [astar_init_eq, if_pos hv], init_runInv (astar_nodeInitOK A) s0 h d cc hv,
    init_post (astar_nodeInitOK A) s0 h d cc,
    fun hp => ⟨_, astar_init_chainInv A s0 hp h d cc hv⟩⟩

end AStar

namespace AlgorithmBase

variable {E : Type}

/-- The board of a constructed instance after a sequence of `setObstacle` calls. -/
theorem setObstacles_board (s : Algorithm E) (obs : List (Coordinate × Bool))
    (size start goal : Coordinate) (h1 : s.m_board.m_size = size)
    (h2 : s.m_board.m_start = start) (h3 : s.m_board.m_goal = goal) :
    (setObstacles s obs).m_board.m_size = size ∧
    (setObstacles s obs).m_board.m_start = start ∧
    (setObstacles s obs).m_board.m_goal = goal ∧
    (setObstacles s obs).m_board.nodeCount = size.1.toNat * size.2.toNat ∧
    (InBounds size start →
      (setObstacles s obs).m_board.isValidNode (setObstacles s obs).m_board.m_start = true) := by
  obtain ⟨f1, f2, f3⟩ := setObstacles_frame s obs
  refine ⟨f1.trans h1, f2.trans h2, f3.trans h3, ?_, ?_⟩
  · simp [Board.nodeCount, f1, h1]
  · intro hb
    rw [isValidNode_iff_inBounds, f1, f2, h1, h2]
    exact hb

end AlgorithmBase

/-! ## Theorems: concrete instances -/

theorem intEnv_sortPermutes : intEnv.SortPermutes :=
  fun _ l => List.perm_insertionSort _ l

namespace Board

variable {E : Type}

/-- A node without neighbors reaches no other node. -/
theorem not_reach_of_getNeighbors_nil (b : Board E) (d cc : Bool) (a c : Coordinate)
    (h : b.getNeighbors a [] d cc = []) (hne : a ≠ c) : ¬ b.Reach d cc a c := by
  intro hr
  rcases Relation.ReflTransGen.cases_head hr with h1 | ⟨x, hx, _⟩
  · exact hne h1
  · rw [h] at hx
    exact absurd hx (List.not_mem_nil x)

end Board

namespace AlgorithmBase

variable {E : Type}

/-- Calls on an empty frontier, when they return true and leave the state unchanged, do so
any number of times. -/
theorem stepsTrue_of_fixed {S : Type} (step : S → Option (Bool × S)) (s : S)
    (h : step s = some (true, s)) : ∀ k, stepsTrue step k s = some s := by
  intro k
  induction k with
  | zero => rfl
  | succ k ih =>
    simp only [stepsTrue, h]
    exact ih

end AlgorithmBase

/-! ## Theorems: diagonal neighbors, mutators of the board -/

namespace Board

variable {E : Type}

/-- With diagonals enabled, the diagonal neighbor at offset `(dx, dy)` of an in-bounds
position is returned exactly when it is in bounds and free and the two flanking cells are
free, or corners may be cut and one of them is free. -/
theorem mem_getNeighbors_diagonal (b : Board E) (hwf : b.WellFormed) (cc : Bool)
    (from_ : Coordinate) (dx dy : Int) (hf : b.isValidNode from_ = true)
    (hdx : dx = -1 ∨ dx = 1) (hdy : dy = -1 ∨ dy = 1) :
    (from_.1 + dx, from_.2 + dy) ∈ b.getNeighbors from_ [] true cc ↔
      (b.isValidNode (from_.1 + dx, from_.2 + dy) = true ∧
       (b.m_nodes (from_.1 + dx, from_.2 + dy)).obstacle = false ∧
       (((b.m_nodes (from_.1, from_.2 + dy)).obstacle = false ∧
          (b.m_nodes (from_.1 + dx, from_.2)).obstacle = false) ∨
        (cc = true ∧ ((b.m_nodes (from_.1, from_.2 + dy)).obstacle = false ∨
          (b.m_nodes (from_.1 + dx, from_.2)).obstacle = false)))) := by
  obtain ⟨f1, f2⟩ := from_
  have hp : (b.m_nodes (f1, f2)).position = (f1, f2) := hwf _ hf
  by_cases V : b.isValidNode (f1 + dx, f2 + dy) = true
  · rcases hdx with rfl | rfl <;> rcases hdy with rfl | rfl
    all_goals
      simp only [Board.getNeighbors, Board.getNeighborsWithDiagonals_eq,
        Board.getNeighborsWithoutDiagonals_eq,
        List.nil_append, List.mem_append, Board.mem_candidate, hp, Bool.not_true,
        Bool.false_eq_true, if_false, Prod.mk.injEq,
        Board.isAccessible_iff,
        sub_eq_add_neg, add_right_inj, add_right_eq_self, self_eq_add_right,
        V, hf, true_and, and_true]
    all_goals simp
  · constructor
    · intro h
      exact absurd (Board.isValidNode_of_mem_getNeighbors _ _ _ _ _ h) V
    · intro h
      exact absurd h.1 V

/-- The cells flanking a diagonal move between two in-bounds cells are in bounds. -/
theorem isValidNode_flank (b : Board E) (from_ : Coordinate) (dx dy : Int)
    (hf : b.isValidNode from_ = true)
    (ht : b.isValidNode (from_.1 + dx, from_.2 + dy) = true) :
    b.isValidNode (from_.1, from_.2 + dy) = true ∧
      b.isValidNode (from_.1 + dx, from_.2) = true := by
  simp only [Board.isValidNode, Bool.and_eq_true, decide_eq_true_eq] at hf ht ⊢
  omega

@[simp] theorem init_m_size (f : Node E → Node E) (b : Board E) : (b.init f).m_size = b.m_size :=
  rfl

@[simp] theorem init_m_start (f : Node E → Node E) (b : Board E) :
    (b.init f).m_start = b.m_start := rfl

@[simp] theorem init_m_goal (f : Node E → Node E) (b : Board E) : (b.init f).m_goal = b.m_goal :=
  rfl

@[simp] theorem init_isValidNode (f : Node E → Node E) (b : Board E) (c : Coordinate) :
    (b.init f).isValidNode c = b.isValidNode c := rfl

@[simp] theorem reset_m_size (f : Node E → Node E) (b : Board E) :
    (b.reset f).m_size = b.m_size := rfl

@[simp] theorem reset_m_start (f : Node E → Node E) (b : Board E) :
    (b.reset f).m_start = b.m_start := rfl

@[simp] theorem reset_m_goal (f : Node E → Node E) (b : Board E) :
    (b.reset f).m_goal = b.m_goal := rfl

@[simp] theorem reset_isValidNode (f : Node E → Node E) (b : Board E) (c : Coordinate) :
    (b.reset f).isValidNode c = b.isValidNode c := rfl

/-- A call of a mutator keeps the size, the start and the goal of the board. -/
theorem call_frame (nodeInit nodeReset : Node E → Node E) (b : Board E) (k : BoardCall) :
    (b.call nodeInit nodeReset k).m_size = b.m_size ∧
    (b.call nodeInit nodeReset k).m_start = b.m_start ∧
    (b.call nodeInit nodeReset k).m_goal = b.m_goal := by
  cases k <;> simp [call]

/-- A sequence of calls of mutators keeps the size, the start and the goal of the board. -/
theorem calls_frame (nodeInit nodeReset : Node E → Node E) (l : List BoardCall) :
    ∀ b : Board E, (b.calls nodeInit nodeReset l).m_size = b.m_size ∧
      (b.calls nodeInit nodeReset l).m_start = b.m_start ∧
      (b.calls nodeInit nodeReset l).m_goal = b.m_goal := by
  induction l with
  | nil => intro b; exact ⟨rfl, rfl, rfl⟩
  | cons k l ih =>
    intro b
    obtain ⟨h1, h2, h3⟩ := ih (b.call nodeInit nodeReset k)
    obtain ⟨g1, g2, g3⟩ := call_frame nodeInit nodeReset b k
    exact ⟨h1.trans g1, h2.trans g2, h3.trans g3⟩

/-- When `init` of the node type keeps the obstacle flag and `reset` of the node type clears
it, a call of a mutator of the board leaves the nodes at the start and at the goal free. -/
theorem call_start_goal_free (nodeInit nodeReset : Node E → Node E)
    (hi : ∀ n, (nodeInit n).obstacle = n.obstacle) (hr : ∀ n, (nodeReset n).obstacle = false)
    (b : Board E) (k : BoardCall)
    (h : (b.m_nodes b.m_start).obstacle = false ∧ (b.m_nodes b.m_goal).obstacle = false) :
    ((b.call nodeInit nodeReset k).m_nodes b.m_start).obstacle = false ∧
    ((b.call nodeInit nodeReset k).m_nodes b.m_goal).obstacle = false := by
  cases k with
  | setObstacle c o =>
    simp only [call, setObstacle_m_nodes]
    constructor
    · split
      · rename_i hc
        exact absurd hc.1.symm hc.2.2.1
      · exact h.1
    · split
      · rename_i hc
        exact absurd hc.1.symm hc.2.2.2
      · exact h.2
  | init =>
    simp only [call, Board.init]
    constructor
    · split
      · rw [hi]; exact h.1
      · exact h.1
    · split
      · rw [hi]; exact h.2
      · exact h.2
  | reset =>
    simp only [call, Board.reset]
    constructor
    · split
      · exact hr _
      · exact h.1
    · split
      · exact hr _
      · exact h.2

/-- After any sequence of calls of mutators the nodes at the start and at the goal are
free. -/
theorem calls_start_goal_free (nodeInit nodeReset : Node E → Node E)
    (hi : ∀ n, (nodeInit n).obstacle = n.obstacle) (hr : ∀ n, (nodeReset n).obstacle = false)
    (l : List BoardCall) :
    ∀ b : Board E,
      (b.m_nodes b.m_start).obstacle = false ∧ (b.m_nodes b.m_goal).obstacle = false →
      ((b.calls nodeInit nodeReset l).m_nodes b.m_start).obstacle = false ∧
      ((b.calls nodeInit nodeReset l).m_nodes b.m_goal).obstacle = false := by
  induction l with
  | nil => intro b h; exact h
  | cons k l ih =>
    intro b h
    obtain ⟨_, g2, g3⟩ := call_frame nodeInit nodeReset b k
    have h1 := call_start_goal_free nodeInit nodeReset hi hr b k h
    have := ih (b.call nodeInit nodeReset k) (by rw [g2, g3]; exact h1)
    rw [g2, g3] at this
    exact this

/-- After any sequence of calls of mutators on a constructed board, the start and the goal
are not obstacles. -/
theorem calls_create_isObstacle (nodeInit nodeReset : Node E → Node E)
    (hi : ∀ n, (nodeInit n).obstacle = n.obstacle) (hr : ∀ n, (nodeReset n).obstacle = false)
    (size start goal : Coordinate) (e : E) (l : List BoardCall) :
    ((Board.create size start goal e).calls nodeInit nodeReset l).isObstacle start = false ∧
    ((Board.create size start goal e).calls nodeInit nodeReset l).isObstacle goal = false := by
  have h := calls_start_goal_free nodeInit nodeReset hi hr l (Board.create size start goal e)
    ⟨rfl, rfl⟩
  have h1 : (((Board.create size start goal e).calls nodeInit nodeReset l).m_nodes
      start).obstacle = false := h.1
  have h2 : (((Board.create size start goal e).calls nodeInit nodeReset l).m_nodes
      goal).obstacle = false := h.2
  simp only [isObstacle, h1, h2, Bool.and_false, and_self]

end Board

namespace Board

variable {E : Type}

/-- After any sequence of calls of mutators on a board constructed with an in-bounds start
and an in-bounds goal, the start and the goal are valid and their nodes are present. -/
theorem calls_create_valid (nodeInit nodeReset : Node E → Node E)
    (size start goal : Coordinate) (e : E) (l : List BoardCall)
    (hs : AlgorithmBase.InBounds size start) (hg : AlgorithmBase.InBounds size goal) :
    ((Board.create size start goal e).calls nodeInit nodeReset l).isValidNode start = true ∧
    ((Board.create size start goal e).calls nodeInit nodeReset l).isValidNode goal = true ∧
    ((Board.create size start goal e).calls nodeInit nodeReset l).getStartNode = some start ∧
    ((Board.create size start goal e).calls nodeInit nodeReset l).getGoalNode = some goal := by
  obtain ⟨h1, h2, h3⟩ := calls_frame nodeInit nodeReset l (Board.create size start goal e)
  have h1' : ((Board.create size start goal e).calls nodeInit nodeReset l).m_size = size := h1
  have h2' : ((Board.create size start goal e).calls nodeInit nodeReset l).m_start = start := h2
  have h3' : ((Board.create size start goal e).calls nodeInit nodeReset l).m_goal = goal := h3
  have v1 : ((Board.create size start goal e).calls nodeInit nodeReset l).isValidNode start
      = true := by
    simp only [isValidNode, h1', Bool.and_eq_true, decide_eq_true_eq]
    exact ⟨⟨⟨hs.1, hs.2.1⟩, hs.2.2.1⟩, hs.2.2.2⟩
  have v2 : ((Board.create size start goal e).calls nodeInit nodeReset l).isValidNode goal
      = true := by
    simp only [isValidNode, h1', Bool.and_eq_true, decide_eq_true_eq]
    exact ⟨⟨⟨hg.1, hg.2.1⟩, hg.2.2.1⟩, hg.2.2.2⟩
  refine ⟨v1, v2, ?_, ?_⟩
  · simp only [getStartNode, h2', v1, if_true]
  · simp only [getGoalNode, h3', v2, if_true]

end Board

/-! ## Theorems: when `nextStep` returns true -/

namespace BreadthFirstSearch

open AlgorithmBase

/-- On a non-empty queue `nextStep` returns true only through `checkGoal`: the position of
a node equals the goal and the call ends with `storeSolution`. -/
theorem bfs_nextStep_true_goal (fuel : Nat) (s s' : State) (hne : s.m_openNodes ≠ [])
    (h : nextStep fuel s = some (true, s')) :
    ∃ x n, (x.m_board.m_nodes n).position = getGoal x ∧ storeSolution fuel x = some s' := by
  obtain ⟨node, rest, hs⟩ : ∃ node rest, s.m_openNodes = node :: rest := by
    cases hl : s.m_openNodes with
    | nil => exact absurd hl hne
    | cons a l => exact ⟨a, l, rfl⟩
  rcases bfs_nextStep_rule fuel s node rest hs (fun _ => True) trivial
      (fun _ _ _ _ _ => trivial) with ⟨s2, h1, _⟩ | ⟨s1, n, _, _, h3, h4⟩
  · rw [h1] at h
    cases h
  · rw [h4] at h
    cases hst : storeSolution fuel s1 with
    | none => rw [hst] at h; cases h
    | some r =>
      rw [hst] at h
      cases h
      exact ⟨s1, n, h3, hst⟩

end BreadthFirstSearch

namespace DepthFirstSearch

open AlgorithmBase

/-- On a non-empty stack `nextStep` returns true only through `checkGoal`. -/
theorem dfs_nextStep_true_goal (fuel : Nat) (s s' : State) (hne : s.m_openNodes ≠ [])
    (h : nextStep fuel s = some (true, s')) :
    ∃ x n, (x.m_board.m_nodes n).position = getGoal x ∧ storeSolution fuel x = some s' := by
  obtain ⟨rest, node, hs⟩ := exists_concat_of_ne_nil _ hne
  rcases dfs_nextStep_rule fuel s node rest hs (fun _ x => x.m_openNodes ≠ []) hne
      (fun _ x n _ _ _ => by simp [pushOpen_m_openNodes])
      (fun _ _ hx => hx) with ⟨ch, s2, _, h1⟩ | ⟨_, s1, n, _, _, h3, h4⟩
  · rw [h1] at h
    cases h
  · rw [h4] at h
    cases hst : storeSolution fuel s1 with
    | none => rw [hst] at h; cases h
    | some r =>
      rw [hst] at h
      cases h
      exact ⟨s1, n, h3, hst⟩

end DepthFirstSearch

namespace BestFirstSearch

open AlgorithmBase

variable {α : Type}

/-- On a non-empty frontier `nextStep` returns true only through `checkGoal`. -/
theorem bestFirst_nextStep_true_goal (A : Env α) (hA : A.SortPermutes) (fuel : Nat)
    (s s' : State α) (hne : s.m_openNodes ≠ []) (h : nextStep A fuel s = some (true, s')) :
    ∃ x n, (x.m_board.m_nodes n).position = getGoal x ∧ storeSolution fuel x = some s' := by
  rcases bestFirst_nextStep_rule A hA fuel s hne (fun _ _ => True) (fun _ _ _ => trivial)
      (fun _ _ _ _ _ _ => trivial) with ⟨_, s2, h1, _⟩ | ⟨_, s1, n, _, _, h3, h4⟩
  · rw [h1] at h
    cases h
  · rw [h4] at h
    cases hst : storeSolution fuel s1 with
    | none => rw [hst] at h; cases h
    | some r =>
      rw [hst] at h
      cases h
      exact ⟨s1, n, h3, hst⟩

end BestFirstSearch

namespace AStar

open AlgorithmBase

variable {α : Type}

/-- On a non-empty frontier `nextStep` returns true only through `checkGoal`. -/
theorem astar_nextStep_true_goal (A : Env α) (hA : A.SortPermutes) (fuel : Nat)
    (s s' : State α) (hne : s.m_openNodes ≠ []) (h : nextStep A fuel s = some (true, s')) :
    ∃ x n, (x.m_board.m_nodes n).position = getGoal x ∧ storeSolution fuel x = some s' := by
  rcases astar_nextStep_rule A hA fuel s hne (fun _ _ => True) (fun _ _ _ => trivial)
      (fun _ _ _ _ _ _ => trivial) (fun _ _ _ _ _ _ _ => trivial) with
    ⟨_, s2, h1, _⟩ | ⟨_, s1, n, _, _, h3, h4⟩
  · rw [h1] at h
    cases h
  · rw [h4] at h
    cases hst : storeSolution fuel s1 with
    | none => rw [hst] at h; cases h
    | some r =>
      rw [hst] at h
      cases h
      exact ⟨s1, n, h3, hst⟩

end AStar

/-! ## Theorems: the distance of the solution -/

namespace AlgorithmBase

/-- The loop over the indices `0 .. size - 2` adds up a value per consecutive pair. -/
theorem foldl_range_pairs (f : Coordinate → Coordinate → ℚ) :
    ∀ (l : List Coordinate) (acc : ℚ),
      (List.range (l.length - 1)).foldl
        (fun distance i => distance + f (l.getD i (0, 0)) (l.getD (i + 1) (0, 0))) acc =
      acc + ((l.zip l.tail).map (fun p => f p.1 p.2)).sum := by
  intro l
  induction l with
  | nil => intro acc; simp
  | cons a t ih =>
    intro acc
    cases t with
    | nil => simp
    | cons b t =>
      have h := ih (acc + f a b)
      simp only [List.length_cons, Nat.add_sub_cancel] at h ⊢
      rw [List.range_succ_eq_map, List.foldl_cons, List.foldl_map]
      simp only [List.getD_cons_zero, List.getD_cons_succ, Nat.succ_eq_add_one, zero_add,
        List.tail_cons, List.zip_cons_cons, List.map_cons, List.sum_cons] at h ⊢
      rw [h]
      ring

/-- A sum of values that are `k` on the pairs with the property `p` and `1` on the others. -/
theorem sum_pairs_count (k : ℚ) (p : Coordinate × Coordinate → Bool) :
    ∀ l : List (Coordinate × Coordinate),
      (l.map (fun x => if p x then k else 1)).sum =
        1 * ((l.countP (fun x => !p x) : Nat) : ℚ) + k * ((l.countP p : Nat) : ℚ) := by
  intro l
  induction l with
  | nil => simp
  | cons x l ih =>
    rw [List.map_cons, List.sum_cons, ih, List.countP_cons, List.countP_cons]
    cases hp : p x <;> simp <;> ring

/-- The value of `getSolutionDistance` in terms of the consecutive pairs of the solution. -/
theorem getSolutionDistance_eq {E : Type} (s : Algorithm E) :
    getSolutionDistance s =
      1 * (((s.solution.zip s.solution.tail).countP
        (fun p => !isDiagonal p.1 p.2) : Nat) : ℚ) +
      float1414 * (((s.solution.zip s.solution.tail).countP
        (fun p => isDiagonal p.1 p.2) : Nat) : ℚ) := by
  unfold getSolutionDistance
  split
  · rw [foldl_range_pairs (fun a b => if isDiagonal a b then float1414 else 1), zero_add]
    exact sum_pairs_count float1414 (fun p => isDiagonal p.1 p.2) _
  · rename_i h
    have h0 : s.solution = [] := by
      cases hs : s.solution with
      | nil => rfl
      | cons a t => rw [hs] at h; simp at h
    simp [h0]

/-- The two counts of consecutive pairs add up to the number of consecutive pairs. -/
theorem countP_pairs_add (l : List Coordinate) :
    (l.zip l.tail).countP (fun p => !isDiagonal p.1 p.2) +
      (l.zip l.tail).countP (fun p => isDiagonal p.1 p.2) = l.length - 1 := by
  have h1 := List.length_eq_countP_add_countP (fun p : Coordinate × Coordinate =>
    isDiagonal p.1 p.2) (l.zip l.tail)
  have h2 : (l.zip l.tail).length = l.length - 1 := by
    simp [List.length_zip, List.length_tail]
  have h3 : (l.zip l.tail).countP (fun p => !isDiagonal p.1 p.2) =
      (l.zip l.tail).countP (fun a => ¬ isDiagonal a.1 a.2 = true) := by
    congr 1
    funext p
    cases isDiagonal p.1 p.2 <;> simp
  omega

end AlgorithmBase

/-! ## Theorems: A* with cardinal moves on an obstacle-free board -/

namespace AlgorithmBase

theorem manhattan_eq (a b : Coordinate) :
    manhattan a b = max (a.1 - b.1) (-(a.1 - b.1)) + max (a.2 - b.2) (-(a.2 - b.2)) := by
  simp only [manhattan, abs_eq_max_neg]

theorem manhattan_self (a : Coordinate) : manhattan a a = 0 := by
  simp [manhattan]

theorem manhattan_nonneg (a b : Coordinate) : 0 ≤ manhattan a b := by
  rw [manhattan_eq]
  omega

theorem manhattan_comm (a b : Coordinate) : manhattan a b = manhattan b a := by
  rw [manhattan_eq, manhattan_eq]
  omega

theorem manhattan_triangle (a b c : Coordinate) :
    manhattan a c ≤ manhattan a b + manhattan b c := by
  rw [manhattan_eq, manhattan_eq, manhattan_eq]
  omega

theorem manhattan_eq_zero {a b : Coordinate} (h : manhattan a b = 0) : a = b := by
  rw [manhattan_eq] at h
  ext <;> omega

/-- The Manhattan distance between two in-bounds cells is at most `width + height - 2`. -/
theorem manhattan_le_size {size a b : Coordinate} (ha : InBounds size a) (hb : InBounds size b) :
    manhattan a b + 2 ≤ size.1 + size.2 := by
  rw [manhattan_eq]
  obtain ⟨h1, h2, h3, h4⟩ := ha
  obtain ⟨g1, g2, g3, g4⟩ := hb
  omega

/-- Two cells one cardinal move apart: their distances to a third cell differ by one. -/
theorem manhattan_adjacent {a b : Coordinate} (h : manhattan a b = 1) (c : Coordinate) :
    manhattan c a = manhattan c b + 1 ∨ manhattan c a + 1 = manhattan c b := by
  rw [manhattan_eq] at h
  rw [manhattan_eq, manhattan_eq]
  omega

/-- A cell other than `s` has an in-bounds neighbor that is one move closer to `s`. -/
theorem exists_closer {size s x : Coordinate} (hs : InBounds size s) (hx : InBounds size x)
    (hne : x ≠ s) :
    ∃ y, InBounds size y ∧ manhattan y x = 1 ∧ manhattan s y + 1 = manhattan s x := by
  obtain ⟨h1, h2, h3, h4⟩ := hs
  obtain ⟨g1, g2, g3, g4⟩ := hx
  by_cases hx1 : x.1 = s.1
  · have hx2 : x.2 ≠ s.2 := fun h => hne (Prod.ext hx1 h)
    by_cases hlt : x.2 < s.2
    · refine ⟨(x.1, x.2 + 1), ⟨g1, g2, by show 0 ≤ x.2 + 1; omega, by show x.2 + 1 < size.2; omega⟩,
        ?_, ?_⟩
      · rw [manhattan_eq]; simp only; omega
      · rw [manhattan_eq, manhattan_eq]; simp only; omega
    · refine ⟨(x.1, x.2 - 1), ⟨g1, g2, by show 0 ≤ x.2 - 1; omega, by show x.2 - 1 < size.2; omega⟩,
        ?_, ?_⟩
      · rw [manhattan_eq]; simp only; omega
      · rw [manhattan_eq, manhattan_eq]; simp only; omega
  · by_cases hlt : x.1 < s.1
    · refine ⟨(x.1 + 1, x.2), ⟨by show 0 ≤ x.1 + 1; omega, by show x.1 + 1 < size.1; omega, g3, g4⟩,
        ?_, ?_⟩
      · rw [manhattan_eq]; simp only; omega
      · rw [manhattan_eq, manhattan_eq]; simp only; omega
    · refine ⟨(x.1 - 1, x.2), ⟨by show 0 ≤ x.1 - 1; omega, by show x.1 - 1 < size.1; omega, g3, g4⟩,
        ?_, ?_⟩
      · rw [manhattan_eq]; simp only; omega
      · rw [manhattan_eq, manhattan_eq]; simp only; omega

/-- Cells one cardinal move apart are not diagonal to each other. -/
theorem isDiagonal_of_manhattan_one {a b : Coordinate} (h : manhattan a b = 1) :
    isDiagonal a b = false := by
  rw [manhattan_eq] at h
  simp only [isDiagonal, Bool.and_eq_false_imp, bne_iff_ne, ne_eq, bne_eq_false_iff_eq]
  intro h1
  omega

end AlgorithmBase

namespace Board

open AlgorithmBase

variable {E : Type}

/-- On an obstacle-free board with diagonals disabled, the neighbors of an in-bounds cell
are the in-bounds cells one cardinal move away. -/
theorem mem_getNeighbors_cardinal (b : Board E)
    (hclear : ∀ c, (b.m_nodes c).position = c ∧ (b.m_nodes c).obstacle = false)
    (node m : Coordinate) (cc : Bool) (hv : b.isValidNode node = true) :
    m ∈ b.getNeighbors node [] false cc ↔ (b.isValidNode m = true ∧ manhattan node m = 1) := by
  obtain ⟨n1, n2⟩ := node
  obtain ⟨m1, m2⟩ := m
  simp only [getNeighbors, Bool.not_false, if_true, getNeighborsWithoutDiagonals_eq,
    List.nil_append, List.mem_append, mem_candidate, (hclear _).1, (hclear _).2,
    isAccessible_iff, hv, Prod.mk.injEq, manhattan_eq]
  constructor
  · rintro (⟨⟨rfl, rfl⟩, h, _⟩ | ⟨⟨rfl, rfl⟩, h, _⟩ | ⟨⟨rfl, rfl⟩, h, _⟩ | ⟨⟨rfl, rfl⟩, h, _⟩) <;>
      exact ⟨h, by omega⟩
  · rintro ⟨h, hm⟩
    have hcases : (m1 = n1 ∧ m2 = n2 - 1) ∨ (m1 = n1 + 1 ∧ m2 = n2) ∨
        (m1 = n1 ∧ m2 = n2 + 1) ∨ (m1 = n1 - 1 ∧ m2 = n2) := by omega
    rcases hcases with ⟨rfl, rfl⟩ | ⟨rfl, rfl⟩ | ⟨rfl, rfl⟩ | ⟨rfl, rfl⟩
    · exact Or.inl ⟨⟨rfl, rfl⟩, h, h, by simp⟩
    · exact Or.inr (Or.inl ⟨⟨rfl, rfl⟩, h, h, by simp⟩)
    · exact Or.inr (Or.inr (Or.inl ⟨⟨rfl, rfl⟩, h, h, by simp⟩))
    · exact Or.inr (Or.inr (Or.inr ⟨⟨rfl, rfl⟩, h, h, by simp⟩))

end Board

namespace AlgorithmBase

/-- Inserting into a sorted list with a comparator that is a strict weak ordering gives a
sorted list. -/
theorem orderedInsert_sorted (cmp : Coordinate → Coordinate → Bool)
    (hsw : StrictWeakOrdering cmp) (a : Coordinate) :
    ∀ l : List Coordinate, l.Pairwise (fun x y => cmp y x = false) →
      (l.orderedInsert (fun a b => cmp a b = true) a).Pairwise (fun x y => cmp y x = false) := by
  obtain ⟨hirr, htr, _⟩ := hsw
  have hasym : ∀ x y, cmp x y = true → cmp y x = false := by
    intro x y hxy
    cases hyx : cmp y x with
    | false => rfl
    | true =>
      have := htr x y x hxy hyx
      rw [hirr] at this
      exact absurd this (by simp)
  intro l
  induction l with
  | nil => intro _; simp
  | cons b l ih =>
    intro hl
    rw [List.orderedInsert]
    obtain ⟨hb, hl'⟩ := List.pairwise_cons.1 hl
    split
    · rename_i hab
      refine List.pairwise_cons.2 ⟨?_, hl⟩
      intro x hx
      rcases List.mem_cons.1 hx with rfl | hx
      · exact hasym _ _ hab
      · cases hxa : cmp x a with
        | false => rfl
        | true =>
          have := htr x a b hxa hab
          rw [hb x hx] at this
          exact absurd this (by simp)
    · rename_i hab
      refine List.pairwise_cons.2 ⟨?_, ih hl'⟩
      intro x hx
      rcases (List.mem_orderedInsert _).1 hx with rfl | hx
      · simpa using hab
      · exact hb x hx

/-- Insertion sort with a comparator that is a strict weak ordering sorts. -/
theorem insertionSort_sorted (cmp : Coordinate → Coordinate → Bool)
    (hsw : StrictWeakOrdering cmp) :
    ∀ l : List Coordinate,
      (l.insertionSort (fun a b => cmp a b = true)).Pairwise (fun x y => cmp y x = false) := by
  intro l
  induction l with
  | nil => simp
  | cons a l ih =>
    rw [List.insertionSort]
    exact orderedInsert_sorted cmp hsw a _ ih

end AlgorithmBase

theorem intEnv_sortSorts : intEnv.SortSorts :=
  fun cmp l hsw => AlgorithmBase.insertionSort_sorted cmp hsw l

namespace AStar

open AlgorithmBase

variable {α : Type}

/-- The comparator of `sortNodes` in terms of the values of `h + g` and of `h`: it places
`node1` before `node2` when `node1` has the larger `h + g`, or the same `h + g` and the
larger `h`. -/
theorem compare_iff {A : Env α} {v : α → ℝ} {hstar : Coordinate → ℝ} {heuristic : Heuristic}
    {size goal : Coordinate} (hacc : Accurate A v hstar heuristic size goal)
    (b : Board (Ext α)) (x y : Coordinate) :
    compare A b x y = true ↔
      (v (A.add (b.m_nodes y).ext.h (b.m_nodes y).ext.g) <
          v (A.add (b.m_nodes x).ext.h (b.m_nodes x).ext.g) ∨
        (v (A.add (b.m_nodes y).ext.h (b.m_nodes y).ext.g) =
            v (A.add (b.m_nodes x).ext.h (b.m_nodes x).ext.g) ∧
          v (b.m_nodes y).ext.h < v (b.m_nodes x).ext.h)) := by
  unfold compare
  simp only
  by_cases he : A.eq (A.add (b.m_nodes x).ext.h (b.m_nodes x).ext.g)
      (A.add (b.m_nodes y).ext.h (b.m_nodes y).ext.g) = true
  · rw [if_pos he, hacc.lt_val]
    have := (hacc.eq_val _ _).1 he
    constructor
    · intro h
      exact Or.inr ⟨this.symm, h⟩
    · rintro (h | h)
      · rw [this] at h
        exact absurd h (lt_irrefl _)
      · exact h.2
  · rw [if_neg he, hacc.lt_val]
    have hne : ¬ v (A.add (b.m_nodes x).ext.h (b.m_nodes x).ext.g) =
        v (A.add (b.m_nodes y).ext.h (b.m_nodes y).ext.g) := fun h => he ((hacc.eq_val _ _).2 h)
    constructor
    · intro h
      exact Or.inl h
    · rintro (h | h)
      · exact h
      · exact absurd h.1.symm hne

/-- The comparator of `sortNodes` is a strict weak ordering. -/
theorem compare_strictWeak {A : Env α} {v : α → ℝ} {hstar : Coordinate → ℝ}
    {heuristic : Heuristic} {size goal : Coordinate}
    (hacc : Accurate A v hstar heuristic size goal) (b : Board (Ext α)) :
    StrictWeakOrdering (compare A b) := by
  refine ⟨?_, ?_, ?_⟩
  · intro a
    cases h : compare A b a a with
    | false => rfl
    | true =>
      rcases (compare_iff hacc b a a).1 h with h1 | ⟨_, h1⟩ <;> exact absurd h1 (lt_irrefl _)
  · intro x y z hxy hyz
    rw [compare_iff hacc] at hxy hyz ⊢
    rcases hxy with h1 | ⟨h1, h2⟩ <;> rcases hyz with g1 | ⟨g1, g2⟩
    · exact Or.inl (lt_trans g1 h1)
    · exact Or.inl (g1 ▸ h1)
    · exact Or.inl (h1 ▸ g1)
    · exact Or.inr ⟨g1.trans h1, lt_trans g2 h2⟩
  · intro x y z hxy
    rw [compare_iff hacc] at hxy
    rw [compare_iff hacc, compare_iff hacc]
    rcases lt_trichotomy (v (A.add (b.m_nodes z).ext.h (b.m_nodes z).ext.g))
        (v (A.add (b.m_nodes x).ext.h (b.m_nodes x).ext.g)) with hzx | hzx | hzx
    · exact Or.inl (Or.inl hzx)
    · rcases hxy with h1 | ⟨h1, h2⟩
      · exact Or.inr (Or.inl (hzx ▸ h1))
      · rcases lt_or_le (v (b.m_nodes z).ext.h) (v (b.m_nodes x).ext.h) with hh | hh
        · exact Or.inl (Or.inr ⟨hzx, hh⟩)
        · exact Or.inr (Or.inr ⟨h1.trans hzx.symm, lt_of_lt_of_le h2 hh⟩)
    · rcases hxy with h1 | ⟨h1, _⟩
      · exact Or.inr (Or.inl (lt_trans h1 hzx))
      · exact Or.inr (Or.inl (h1 ▸ hzx))

/-- The node `sortNodes` leaves at the back of the frontier has the least `h + g`. -/
theorem sorted_last_le {A : Env α} {v : α → ℝ} {hstar : Coordinate → ℝ}
    {heuristic : Heuristic} {size goal : Coordinate}
    (hacc : Accurate A v hstar heuristic size goal) (hS : A.SortSorts) (b : Board (Ext α))
    (l rest : List Coordinate) (node : Coordinate)
    (hl : A.sort (compare A b) l = rest ++ [node]) (m : Coordinate) (hm : m ∈ rest) :
    v (A.add (b.m_nodes node).ext.h (b.m_nodes node).ext.g) ≤
      v (A.add (b.m_nodes m).ext.h (b.m_nodes m).ext.g) := by
  have hp := hS (compare A b) l (compare_strictWeak hacc b)
  rw [hl, List.pairwise_append] at hp
  have hc : compare A b node m = false := hp.2.2 m hm node (List.mem_singleton_self _)
  by_contra hlt
  rw [not_le] at hlt
  have : compare A b node m = true := (compare_iff hacc b node m).2 (Or.inl hlt)
  rw [hc] at this
  exact absurd this (by simp)

/-- The computed `h + g` of a cell `a` whose `g` holds `i` is below that of a cell `b`
whose `g` holds `j` when `j` exceeds `i` by more than the distance from `a` to `b`, or by
more than the distance from `a` to the goal. -/
theorem add_lt_of_gap {A : Env α} {v : α → ℝ} {hstar : Coordinate → ℝ}
    {heuristic : Heuristic} {size goal : Coordinate}
    (hacc : Accurate A v hstar heuristic size goal) (hgoal : InBounds size goal)
    {a b : Coordinate} (ha : InBounds size a) (hb : InBounds size b) {x y : α} {i j : Int}
    (hx : v x = i) (hy : v y = j) (hga : 0 ≤ i) (hga' : i ≤ size.1 + size.2)
    (hgb : 0 ≤ j) (hgb' : j ≤ size.1 + size.2)
    (hgap : i + manhattan a b < j ∨ i + manhattan a goal < j) :
    v (A.add (distance A heuristic a goal) x) < v (A.add (distance A heuristic b goal) y) := by
  have h1 := abs_le.1 (hacc.sum_val a x i ha hga hga' hx)
  have h2 := abs_le.1 (hacc.sum_val b y j hb hgb hgb' hy)
  have h3 := hacc.hstar_nonneg b hb
  rcases hgap with hgap | hgap
  · have h4 := hacc.hstar_consistent a b ha hb
    have h5 : ((i : Int) : ℝ) + ((manhattan a b : Int) : ℝ) + 1 ≤ ((j : Int) : ℝ) := by
      exact_mod_cast hgap
    linarith [h1.1, h1.2, h2.1, h2.2]
  · have h4 := hacc.hstar_consistent a goal ha hgoal
    rw [hacc.hstar_goal] at h4
    have h5 : ((i : Int) : ℝ) + ((manhattan a goal : Int) : ℝ) + 1 ≤ ((j : Int) : ℝ) := by
      exact_mod_cast hgap
    linarith [h1.1, h1.2, h2.1, h2.2]

/-- The computed `h + g` of a cell whose `g` holds an integer in range is below `max + 0`,
the `h + g` of an unopened node. -/
theorem add_lt_max {A : Env α} {v : α → ℝ} {hstar : Coordinate → ℝ}
    {heuristic : Heuristic} {size goal : Coordinate}
    (hacc : Accurate A v hstar heuristic size goal)
    {a : Coordinate} (ha : InBounds size a) {x : α} {k : Int}
    (hx : v x = k) (hk : 0 ≤ k) (hk' : k ≤ size.1 + size.2) :
    A.lt (A.add (distance A heuristic a goal) x) (A.add A.maxValue (A.ofInt 0)) = true := by
  rw [hacc.lt_val]
  have h1 := abs_le.1 (hacc.sum_val a x k ha hk hk' hx)
  have h2 := hacc.max_val a ha
  have h3 : ((k : Int) : ℝ) ≤ ((size.1 + size.2 : Int) : ℝ) := by exact_mod_cast hk'
  linarith [h1.2]

end AStar

namespace AStar

open AlgorithmBase

variable {α : Type}

/-- The field `g` of an opened node holds at least its Manhattan distance from the start. -/
theorem Core.g_ge {A : Env α} {v : α → ℝ} {heuristic : Heuristic}
    {size start goal : Coordinate} {s : State α} (h : Core A v heuristic size start goal s)
    {c : Coordinate} (hc : (s.m_board.m_nodes c).opened = true) :
    ((manhattan start c : Int) : ℝ) ≤ v (s.m_board.m_nodes c).ext.g := by
  by_cases hs : c = start
  · subst hs
    rw [h.start_g, manhattan_self]
    simp
  · obtain ⟨p, _, _, hadj, hg, _⟩ := h.chain c hc hs
    rw [hg]
    have h1 := manhattan_triangle start p c
    have : ((manhattan start c : Int) : ℝ) ≤ ((manhattan start p + 1 : Int) : ℝ) := by
      exact_mod_cast (by omega : manhattan start c ≤ manhattan start p + 1)
    simpa using this

/-- Between the calls of `nextStep`, every in-bounds cell that is not closed has a frontier
node on a shortest path from the start to it whose `g` is its distance from the start. -/
theorem OptInv.frontier_on_path {A : Env α} {v : α → ℝ} {heuristic : Heuristic}
    {size start goal : Coordinate} {s : State α} (h : OptInv A v heuristic size start goal s)
    (hstart : InBounds size start) :
    ∀ (k : Nat) (x : Coordinate), InBounds size x → manhattan start x ≤ k →
      (s.m_board.m_nodes x).ext.closed = false →
      ∃ m ∈ s.m_openNodes, v (s.m_board.m_nodes m).ext.g = ((manhattan start m : Int) : ℝ) ∧
        manhattan start m + manhattan m x = manhattan start x := by
  have hstartcase : (s.m_board.m_nodes start).ext.closed = false →
      ∃ m ∈ s.m_openNodes, v (s.m_board.m_nodes m).ext.g = ((manhattan start m : Int) : ℝ) ∧
        manhattan start m + manhattan m start = manhattan start start := by
    intro hc
    rcases h.start_front with h1 | h1
    · rw [hc] at h1
      exact absurd h1 (by simp)
    · refine ⟨start, by rw [h1]; simp, ?_, by simp [manhattan_self]⟩
      rw [h.core.start_g, manhattan_self]
      simp
  intro k
  induction k with
  | zero =>
    intro x _ hk hc
    have h0 : manhattan start x = 0 := le_antisymm (by exact_mod_cast hk) (manhattan_nonneg _ _)
    have hx : start = x := manhattan_eq_zero h0
    subst hx
    exact hstartcase hc
  | succ k ih =>
    intro x hx hk hc
    by_cases hxs : x = start
    · subst hxs
      exact hstartcase hc
    · obtain ⟨y, hy, hyx, hsy⟩ := exists_closer hstart hx hxs
      by_cases hcy : (s.m_board.m_nodes y).ext.closed = true
      · obtain ⟨ho, hg⟩ := h.done y hcy x hx hyx
        have hge := h.core.g_ge ho
        refine ⟨x, (h.core.front_iff x).2 ⟨ho, hc⟩, ?_, by simp [manhattan_self]⟩
        have : ((manhattan start y : Int) : ℝ) + 1 = ((manhattan start x : Int) : ℝ) := by
          exact_mod_cast hsy
        linarith
      · have hcy' : (s.m_board.m_nodes y).ext.closed = false := by simpa using hcy
        obtain ⟨m, hm, hg, hd⟩ := ih y hy (by push_cast at hk ⊢; omega) hcy'
        refine ⟨m, hm, hg, ?_⟩
        have h1 := manhattan_triangle m y x
        have h2 := manhattan_triangle start m x
        omega

end AStar

namespace AStar

open AlgorithmBase

variable {α : Type}

theorem closeWith_m_nodes (s : State α) (node : Coordinate) (rest : List Coordinate)
    (c : Coordinate) :
    (closeWith s node rest).m_board.m_nodes c =
      if c = node then
        { s.m_board.m_nodes node with
          ext := { (s.m_board.m_nodes node).ext with closed := true } }
      else s.m_board.m_nodes c := Board.write_m_nodes _ _ _ _

theorem closeWith_opened (s : State α) (node : Coordinate) (rest : List Coordinate)
    (c : Coordinate) :
    ((closeWith s node rest).m_board.m_nodes c).opened = (s.m_board.m_nodes c).opened := by
  rw [closeWith_m_nodes]; split
  · rename_i h; rw [h]
  · rfl

theorem closeWith_parent (s : State α) (node : Coordinate) (rest : List Coordinate)
    (c : Coordinate) :
    ((closeWith s node rest).m_board.m_nodes c).parent = (s.m_board.m_nodes c).parent := by
  rw [closeWith_m_nodes]; split
  · rename_i h; rw [h]
  · rfl

theorem closeWith_position (s : State α) (node : Coordinate) (rest : List Coordinate)
    (c : Coordinate) :
    ((closeWith s node rest).m_board.m_nodes c).position = (s.m_board.m_nodes c).position := by
  rw [closeWith_m_nodes]; split
  · rename_i h; rw [h]
  · rfl

theorem closeWith_obstacle (s : State α) (node : Coordinate) (rest : List Coordinate)
    (c : Coordinate) :
    ((closeWith s node rest).m_board.m_nodes c).obstacle = (s.m_board.m_nodes c).obstacle := by
  rw [closeWith_m_nodes]; split
  · rename_i h; rw [h]
  · rfl

theorem closeWith_g (s : State α) (node : Coordinate) (rest : List Coordinate)
    (c : Coordinate) :
    ((closeWith s node rest).m_board.m_nodes c).ext.g = (s.m_board.m_nodes c).ext.g := by
  rw [closeWith_m_nodes]; split
  · rename_i h; rw [h]
  · rfl

theorem closeWith_h (s : State α) (node : Coordinate) (rest : List Coordinate)
    (c : Coordinate) :
    ((closeWith s node rest).m_board.m_nodes c).ext.h = (s.m_board.m_nodes c).ext.h := by
  rw [closeWith_m_nodes]; split
  · rename_i h; rw [h]
  · rfl

theorem closeWith_closed (s : State α) (node : Coordinate) (rest : List Coordinate)
    (c : Coordinate) :
    ((closeWith s node rest).m_board.m_nodes c).ext.closed = true ↔
      (c = node ∨ (s.m_board.m_nodes c).ext.closed = true) := by
  rw [closeWith_m_nodes]
  by_cases h : c = node
  · simp [h]
  · simp [h]

theorem closeWith_closed_false (s : State α) (node : Coordinate) (rest : List Coordinate)
    (c : Coordinate) :
    ((closeWith s node rest).m_board.m_nodes c).ext.closed = false ↔
      (c ≠ node ∧ (s.m_board.m_nodes c).ext.closed = false) := by
  rw [closeWith_m_nodes]
  by_cases h : c = node
  · simp [h]
  · simp [h]

/-- The frontier node that `sortNodes` leaves at the back holds in `g` its Manhattan
distance from the start: no shorter chain of parents to it exists. -/
theorem OptInv.selected_g {A : Env α} {v : α → ℝ} {hstar : Coordinate → ℝ}
    {heuristic : Heuristic} {size start goal : Coordinate} {s : State α}
    (hacc : Accurate A v hstar heuristic size goal)
    (h : OptInv A v heuristic size start goal s)
    (hstart : InBounds size start) (hgoal : InBounds size goal)
    {node : Coordinate} {rest : List Coordinate}
    (hperm : (rest ++ [node]).Perm s.m_openNodes)
    (hmin : ∀ m ∈ rest, v (A.add (s.m_board.m_nodes node).ext.h (s.m_board.m_nodes node).ext.g) ≤
      v (A.add (s.m_board.m_nodes m).ext.h (s.m_board.m_nodes m).ext.g)) :
    v (s.m_board.m_nodes node).ext.g = ((manhattan start node : Int) : ℝ) := by
  have hnf : node ∈ s.m_openNodes := hperm.subset (by simp)
  obtain ⟨hno, hnc⟩ := (h.core.front_iff node).1 hnf
  have hnv := h.core.opened_valid node hno
  by_cases hns : node = start
  · subst hns
    rw [h.core.start_g, manhattan_self]
    simp
  · obtain ⟨p, _, hpc, hadj, hg, hh⟩ := h.core.chain node hno hns
    have hpv := h.core.opened_valid p (h.core.closed_opened p hpc)
    obtain ⟨m, hm, hmg, hmd⟩ := h.frontier_on_path hstart
      (manhattan start node).toNat node hnv (by
        have := manhattan_nonneg start node
        rw [Int.toNat_of_nonneg this]) hnc
    by_cases hmn : m = node
    · rw [← hmn]
      exact hmg
    · have hmr : m ∈ rest := by
        have := hperm.symm.subset hm
        rcases List.mem_append.1 this with h1 | h1
        · exact h1
        · exact absurd (List.mem_singleton.1 h1) hmn
      obtain ⟨hmo, hmc⟩ := (h.core.front_iff m).1 hm
      have hmv := h.core.opened_valid m hmo
      have hms : m ≠ start := by
        intro hms
        rcases h.start_front with h1 | h1
        · rw [hms, h1] at hmc
          exact absurd hmc (by simp)
        · rw [h1] at hnf
          exact hns (List.mem_singleton.1 hnf)
      obtain ⟨_, _, _, _, _, hmh⟩ := h.core.chain m hmo hms
      have hle := hmin m hmr
      rw [hh, hmh] at hle
      rw [hg]
      by_contra hne
      have h1 := manhattan_triangle start p node
      have h2 := manhattan_le_size hstart hpv
      have h3 := manhattan_le_size hstart hmv
      have h4 := manhattan_nonneg start p
      have h5 := manhattan_nonneg start m
      have h6 := manhattan_nonneg m node
      have hlt : manhattan start node < manhattan start p + 1 := by
        rcases lt_or_eq_of_le (by omega : manhattan start node ≤ manhattan start p + 1) with
          h7 | h7
        · exact h7
        · exfalso
          apply hne
          have : ((manhattan start p + 1 : Int) : ℝ) = ((manhattan start node : Int) : ℝ) := by
            rw [h7]
          simpa using this
      have := add_lt_of_gap hacc hgoal hmv hnv (x := (s.m_board.m_nodes m).ext.g)
        (y := (s.m_board.m_nodes node).ext.g) (i := manhattan start m)
        (j := manhattan start p + 1) hmg (by rw [hg]; push_cast; ring) h5 (by omega) (by omega)
        (by omega) (Or.inl (by omega))
      linarith

/-- The frontier node that `sortNodes` leaves at the back is no farther from the start than
the goal. -/
theorem OptInv.selected_le {A : Env α} {v : α → ℝ} {hstar : Coordinate → ℝ}
    {heuristic : Heuristic} {size start goal : Coordinate} {s : State α}
    (hacc : Accurate A v hstar heuristic size goal)
    (h : OptInv A v heuristic size start goal s)
    (hstart : InBounds size start) (hgoal : InBounds size goal)
    {node : Coordinate} {rest : List Coordinate}
    (hperm : (rest ++ [node]).Perm s.m_openNodes)
    (hmin : ∀ m ∈ rest, v (A.add (s.m_board.m_nodes node).ext.h (s.m_board.m_nodes node).ext.g) ≤
      v (A.add (s.m_board.m_nodes m).ext.h (s.m_board.m_nodes m).ext.g)) :
    manhattan start node ≤ manhattan start goal := by
  have hng := h.selected_g hacc hstart hgoal hperm hmin
  have hnf : node ∈ s.m_openNodes := hperm.subset (by simp)
  obtain ⟨hno, hnc⟩ := (h.core.front_iff node).1 hnf
  have hnv := h.core.opened_valid node hno
  by_cases hns : node = start
  · subst hns
    rw [manhattan_self]
    exact manhattan_nonneg _ _
  · obtain ⟨p, _, hpc, hadj, hg, hh⟩ := h.core.chain node hno hns
    obtain ⟨m, hm, hmg, hmd⟩ := h.frontier_on_path hstart
      (manhattan start goal).toNat goal hgoal (by
        have := manhattan_nonneg start goal
        rw [Int.toNat_of_nonneg this]) h.goal_open
    have h6 := manhattan_nonneg m goal
    by_cases hmn : m = node
    · rw [← hmn]
      omega
    · have hmr : m ∈ rest := by
        have := hperm.symm.subset hm
        rcases List.mem_append.1 this with h1 | h1
        · exact h1
        · exact absurd (List.mem_singleton.1 h1) hmn
      obtain ⟨hmo, hmc⟩ := (h.core.front_iff m).1 hm
      have hmv := h.core.opened_valid m hmo
      have hms : m ≠ start := by
        intro hms
        rcases h.start_front with h1 | h1
        · rw [hms, h1] at hmc
          exact absurd hmc (by simp)
        · rw [h1] at hnf
          exact hns (List.mem_singleton.1 hnf)
      obtain ⟨_, _, _, _, _, hmh⟩ := h.core.chain m hmo hms
      have hle := hmin m hmr
      rw [hh, hmh] at hle
      by_contra hgt
      have h2 := manhattan_le_size hstart hnv
      have h3 := manhattan_le_size hstart hmv
      have h4 := manhattan_nonneg start node
      have h5 := manhattan_nonneg start m
      have := add_lt_of_gap hacc hgoal hmv hnv (x := (s.m_board.m_nodes m).ext.g)
        (y := (s.m_board.m_nodes node).ext.g) (i := manhattan start m)
        (j := manhattan start node) hmg hng h5 (by omega) h4 (by omega)
        (Or.inr (by omega))
      linarith

end AStar

namespace AStar

open AlgorithmBase

variable {α : Type}

/-- Closing the frontier node at the back of the sorted frontier keeps the core of the
invariant. -/
theorem OptInv.closeWith_core {A : Env α} {v : α → ℝ} {heuristic : Heuristic}
    {size start goal : Coordinate} {s : State α}
    (h : OptInv A v heuristic size start goal s)
    {node : Coordinate} {rest : List Coordinate}
    (hperm : (rest ++ [node]).Perm s.m_openNodes)
    (hg : v (s.m_board.m_nodes node).ext.g = ((manhattan start node : Int) : ℝ)) :
    Core A v heuristic size start goal (closeWith s node rest) := by
  have hc := h.core
  have hnf : node ∈ s.m_openNodes := hperm.subset (by simp)
  obtain ⟨hno, hnc⟩ := (hc.front_iff node).1 hnf
  have hnd : (rest ++ [node]).Nodup := hperm.nodup_iff.2 hc.front_nodup
  have hnotin : node ∉ rest := fun hm =>
    (List.nodup_append.1 hnd).2.2 hm (List.mem_singleton_self _)
  refine ⟨hc.size_eq, hc.start_eq, hc.goal_eq, hc.heur, hc.diag, hc.sol, ?_, ?_, ?_, ?_, ?_,
    ?_, ?_, ?_, ?_, ?_, ?_⟩
  · intro c
    rw [closeWith_position, closeWith_obstacle]
    exact hc.clear c
  · intro c hco
    rw [closeWith_opened] at hco
    exact hc.opened_valid c hco
  · intro c hcc
    rw [closeWith_opened]
    rcases (closeWith_closed s node rest c).1 hcc with h1 | h1
    · rw [h1]; exact hno
    · exact hc.closed_opened c h1
  · intro c
    rw [closeWith_opened, closeWith_closed_false]
    show c ∈ rest ↔ _
    constructor
    · intro hcr
      have := (hc.front_iff c).1 (hperm.subset (List.mem_append_left _ hcr))
      exact ⟨this.1, fun hcn => hnotin (hcn ▸ hcr), this.2⟩
    · rintro ⟨h1, h2, h3⟩
      have := hperm.symm.subset ((hc.front_iff c).2 ⟨h1, h3⟩)
      rcases List.mem_append.1 this with h4 | h4
      · exact h4
      · exact absurd (List.mem_singleton.1 h4) h2
  · exact (List.nodup_append.1 hnd).1
  · intro c hco
    rw [closeWith_opened] at hco
    rw [closeWith_h, closeWith_g]
    exact hc.fresh c hco
  · rw [closeWith_opened]; exact hc.start_opened
  · rw [closeWith_parent]; exact hc.start_parent
  · rw [closeWith_g]; exact hc.start_g
  · intro c hco hcs
    rw [closeWith_opened] at hco
    obtain ⟨p, h1, h2, h3, h4, h5⟩ := hc.chain c hco hcs
    refine ⟨p, by rw [closeWith_parent]; exact h1, (closeWith_closed s node rest p).2 (Or.inr h2),
      h3, by rw [closeWith_g]; exact h4, by rw [closeWith_h]; exact h5⟩
  · intro c hcc
    rw [closeWith_g]
    rcases (closeWith_closed s node rest c).1 hcc with h1 | h1
    · rw [h1]; exact hg
    · exact hc.closed_g c h1

/-- Closing the frontier node at the back of the sorted frontier, when it is not the goal,
establishes the invariant of the expansion of that node. -/
theorem OptInv.closeWith_exp {A : Env α} {v : α → ℝ} {hstar : Coordinate → ℝ}
    {heuristic : Heuristic} {size start goal : Coordinate} {s : State α}
    (hacc : Accurate A v hstar heuristic size goal)
    (h : OptInv A v heuristic size start goal s)
    (hstart : InBounds size start) (hgoal : InBounds size goal)
    {node : Coordinate} {rest : List Coordinate}
    (hperm : (rest ++ [node]).Perm s.m_openNodes)
    (hmin : ∀ m ∈ rest, v (A.add (s.m_board.m_nodes node).ext.h (s.m_board.m_nodes node).ext.g) ≤
      v (A.add (s.m_board.m_nodes m).ext.h (s.m_board.m_nodes m).ext.g))
    (hng : node ≠ goal) (cc : Bool) :
    ExpInv A v heuristic size start goal node
      (s.m_board.getNeighbors node [] false cc) (closeWith s node rest) := by
  have hc := h.core
  have hg := h.selected_g hacc hstart hgoal hperm hmin
  have hnf : node ∈ s.m_openNodes := hperm.subset (by simp)
  obtain ⟨hno, hnc⟩ := (hc.front_iff node).1 hnf
  have hnv := hc.opened_valid node hno
  have hvalid : ∀ c, s.m_board.isValidNode c = true ↔ InBounds size c := by
    intro c
    rw [isValidNode_iff_inBounds, hc.size_eq]
  have hdone : ∀ c, (s.m_board.m_nodes c).ext.closed = true →
      NeighborsDone v size start (closeWith s node rest) c := by
    intro c hcc m hm hadj
    rw [closeWith_opened, closeWith_g]
    exact h.done c hcc m hm hadj
  refine ⟨?_, h.closeWith_core hperm hg, ?_, ?_, ?_, ?_, ?_, ?_, ?_⟩
  · intro n hn
    rw [Board.mem_getNeighbors_cardinal _ hc.clear _ _ _ ((hvalid node).2 hnv)] at hn
    exact ⟨(hvalid n).1 hn.1, hn.2⟩
  · rw [closeWith_closed_false]
    exact ⟨fun hh => hng hh.symm, h.goal_open⟩
  · intro hsg
    rw [closeWith_opened]
    exact h.goal_unopened hsg
  · rw [closeWith_closed]
    rcases h.start_front with h1 | h1
    · exact Or.inr h1
    · rw [h1] at hnf
      exact Or.inl (List.mem_singleton.1 hnf).symm
  · rw [closeWith_closed]
    exact Or.inl rfl
  · intro c hcc hcn
    rcases (closeWith_closed s node rest c).1 hcc with h1 | h1
    · exact absurd h1 hcn
    · exact hdone c h1
  · intro m hm hadj
    refine Or.inl ?_
    rw [Board.mem_getNeighbors_cardinal _ hc.clear _ _ _ ((hvalid node).2 hnv)]
    exact ⟨(hvalid m).2 hm, hadj⟩
  · intro _
    exact h.selected_le hacc hstart hgoal hperm hmin

end AStar

namespace AStar

open AlgorithmBase

variable {α : Type}

/-- Visiting a neighbor that is opened with a `g` of at most that of the expanded node plus
one, without changing the state, keeps the invariant of the expansion. -/
theorem ExpInv.visit_same {A : Env α} {v : α → ℝ} {heuristic : Heuristic}
    {size start goal node n : Coordinate} {rem : List Coordinate} {x : State α}
    (h : ExpInv A v heuristic size start goal node (n :: rem) x)
    (ho : (x.m_board.m_nodes n).opened = true)
    (hg : v (x.m_board.m_nodes n).ext.g ≤ ((manhattan start node : Int) : ℝ) + 1) :
    ExpInv A v heuristic size start goal node rem x := by
  refine ⟨fun m hm => h.rem_adj m (List.mem_cons_of_mem _ hm), h.core, h.goal_open,
    h.goal_unopened, h.start_closed, h.node_closed, h.done, ?_, h.node_le⟩
  intro m hm hadj
  rcases h.progress m hm hadj with h1 | h1
  · rcases List.mem_cons.1 h1 with rfl | h2
    · exact Or.inr ⟨ho, hg⟩
    · exact Or.inl h2
  · exact Or.inr h1

/-- A neighbor that is closed is done. -/
theorem ExpInv.visit_closed {A : Env α} {v : α → ℝ} {heuristic : Heuristic}
    {size start goal node n : Coordinate} {rem : List Coordinate} {x : State α}
    (h : ExpInv A v heuristic size start goal node (n :: rem) x)
    (hc : (x.m_board.m_nodes n).ext.closed = true) :
    ExpInv A v heuristic size start goal node rem x := by
  refine h.visit_same (h.core.closed_opened n hc) ?_
  rw [h.core.closed_g n hc]
  have hadj := (h.rem_adj n (List.mem_cons_self _ _)).2
  have h1 := manhattan_triangle start node n
  have : ((manhattan start n : Int) : ℝ) ≤ ((manhattan start node + 1 : Int) : ℝ) := by
    exact_mod_cast (by omega : manhattan start n ≤ manhattan start node + 1)
  simpa using this

/-- The core of the invariant is kept when the neighbor `n` of the expanded node, not
closed, gets the expanded node as parent, `h` and `g` by way of the expanded node, and is
opened (put on the frontier when it was not opened). -/
theorem ExpInv.relax_core {A : Env α} {v : α → ℝ} {heuristic : Heuristic}
    {size start goal node n : Coordinate} {rem : List Coordinate} {x x' : State α}
    (h : ExpInv A v heuristic size start goal node (n :: rem) x)
    (hnc : (x.m_board.m_nodes n).ext.closed = false)
    (hframe : x'.solution = x.solution ∧ x'.m_heuristic = x.m_heuristic ∧
      x'.m_diagonals = x.m_diagonals ∧ x'.m_board.m_size = x.m_board.m_size ∧
      x'.m_board.m_start = x.m_board.m_start ∧ x'.m_board.m_goal = x.m_board.m_goal)
    (hother : ∀ c, c ≠ n → x'.m_board.m_nodes c = x.m_board.m_nodes c)
    (hparent : (x'.m_board.m_nodes n).parent = some node)
    (hopened : (x'.m_board.m_nodes n).opened = true)
    (hpos : (x'.m_board.m_nodes n).position = (x.m_board.m_nodes n).position)
    (hobst : (x'.m_board.m_nodes n).obstacle = (x.m_board.m_nodes n).obstacle)
    (hclosed : (x'.m_board.m_nodes n).ext.closed = (x.m_board.m_nodes n).ext.closed)
    (hh : (x'.m_board.m_nodes n).ext.h = distance A heuristic n goal)
    (hg : v (x'.m_board.m_nodes n).ext.g = ((manhattan start node : Int) : ℝ) + 1)
    (hfront : (x'.m_openNodes = x.m_openNodes ∧ (x.m_board.m_nodes n).opened = true) ∨
      (x'.m_openNodes = x.m_openNodes ++ [n] ∧ (x.m_board.m_nodes n).opened = false)) :
    Core A v heuristic size start goal x' := by
  have hc := h.core
  obtain ⟨f1, f2, f3, f4, f5, f6⟩ := hframe
  obtain ⟨hnv, hadj⟩ := h.rem_adj n (List.mem_cons_self _ _)
  have hns : n ≠ start := by
    intro hns
    rw [hns, h.start_closed] at hnc
    exact absurd hnc (by simp)
  have hnn : node ≠ n := by
    intro hnn
    rw [← hnn, h.node_closed] at hnc
    exact absurd hnc (by simp)
  have hcl : ∀ c, (x'.m_board.m_nodes c).ext.closed = (x.m_board.m_nodes c).ext.closed := by
    intro c
    by_cases hcn : c = n
    · rw [hcn, hclosed]
    · rw [hother c hcn]
  have hop : ∀ c, (x.m_board.m_nodes c).opened = true → (x'.m_board.m_nodes c).opened = true := by
    intro c hco
    by_cases hcn : c = n
    · rw [hcn]; exact hopened
    · rw [hother c hcn]; exact hco
  refine ⟨f4.trans hc.size_eq, f5.trans hc.start_eq, f6.trans hc.goal_eq, f2.trans hc.heur,
    f3.trans hc.diag, f1.trans hc.sol, ?_, ?_, ?_, ?_, ?_, ?_, ?_, ?_, ?_, ?_, ?_⟩
  · intro c
    by_cases hcn : c = n
    · rw [hcn, hpos, hobst]; exact hc.clear n
    · rw [hother c hcn]; exact hc.clear c
  · intro c hco
    by_cases hcn : c = n
    · rw [hcn]; exact hnv
    · rw [hother c hcn] at hco; exact hc.opened_valid c hco
  · intro c hcc
    rw [hcl] at hcc
    exact hop c (hc.closed_opened c hcc)
  · intro c
    rw [hcl]
    rcases hfront with ⟨hf, ho⟩ | ⟨hf, ho⟩
    · rw [hf, hc.front_iff]
      by_cases hcn : c = n
      · rw [hcn]
        simp [ho, hopened]
      · rw [hother c hcn]
    · rw [hf, List.mem_append, List.mem_singleton, hc.front_iff]
      by_cases hcn : c = n
      · rw [hcn]
        simp [hopened, hnc]
      · rw [hother c hcn]
        simp [hcn]
  · rcases hfront with ⟨hf, _⟩ | ⟨hf, ho⟩
    · rw [hf]; exact hc.front_nodup
    · rw [hf]
      refine List.Nodup.append hc.front_nodup (List.nodup_singleton _) ?_
      intro c hc1 hc2
      rw [List.mem_singleton] at hc2
      subst hc2
      have := ((hc.front_iff c).1 hc1).1
      rw [ho] at this
      exact absurd this (by simp)
  · intro c hco
    have hcn : c ≠ n := by
      intro hcn
      rw [hcn, hopened] at hco
      exact absurd hco (by simp)
    rw [hother c hcn] at hco ⊢
    exact hc.fresh c hco
  · exact hop start hc.start_opened
  · rw [hother start hns.symm]; exact hc.start_parent
  · rw [hother start hns.symm]; exact hc.start_g
  · intro c hco hcs
    by_cases hcn : c = n
    · rw [hcn]
      exact ⟨node, hparent, by rw [hcl]; exact h.node_closed, hadj, hg, hh⟩
    · rw [hother c hcn] at hco ⊢
      obtain ⟨p, h1, h2, h3, h4, h5⟩ := hc.chain c hco hcs
      exact ⟨p, h1, by rw [hcl]; exact h2, h3, h4, h5⟩
  · intro c hcc
    rw [hcl] at hcc
    have hcn : c ≠ n := by
      intro hcn
      rw [hcn, hnc] at hcc
      exact absurd hcc (by simp)
    rw [hother c hcn]
    exact hc.closed_g c hcc

/-- The invariant of the expansion is kept when the neighbor `n` of the expanded node, not
closed and not the goal unless the goal is the start, gets the expanded node as parent, `h`
and `g` by way of the expanded node without its `g` increasing, and is opened. -/
theorem ExpInv.relax {A : Env α} {v : α → ℝ} {heuristic : Heuristic}
    {size start goal node n : Coordinate} {rem : List Coordinate} {x x' : State α}
    (h : ExpInv A v heuristic size start goal node (n :: rem) x)
    (hnc : (x.m_board.m_nodes n).ext.closed = false)
    (hframe : x'.solution = x.solution ∧ x'.m_heuristic = x.m_heuristic ∧
      x'.m_diagonals = x.m_diagonals ∧ x'.m_board.m_size = x.m_board.m_size ∧
      x'.m_board.m_start = x.m_board.m_start ∧ x'.m_board.m_goal = x.m_board.m_goal)
    (hother : ∀ c, c ≠ n → x'.m_board.m_nodes c = x.m_board.m_nodes c)
    (hparent : (x'.m_board.m_nodes n).parent = some node)
    (hopened : (x'.m_board.m_nodes n).opened = true)
    (hpos : (x'.m_board.m_nodes n).position = (x.m_board.m_nodes n).position)
    (hobst : (x'.m_board.m_nodes n).obstacle = (x.m_board.m_nodes n).obstacle)
    (hclosed : (x'.m_board.m_nodes n).ext.closed = (x.m_board.m_nodes n).ext.closed)
    (hh : (x'.m_board.m_nodes n).ext.h = distance A heuristic n goal)
    (hg : v (x'.m_board.m_nodes n).ext.g = ((manhattan start node : Int) : ℝ) + 1)
    (hfront : (x'.m_openNodes = x.m_openNodes ∧ (x.m_board.m_nodes n).opened = true) ∨
      (x'.m_openNodes = x.m_openNodes ++ [n] ∧ (x.m_board.m_nodes n).opened = false))
    (hmono : (x.m_board.m_nodes n).opened = true →
      v (x'.m_board.m_nodes n).ext.g ≤ v (x.m_board.m_nodes n).ext.g)
    (hgoal : (x.m_board.m_nodes n).opened = false → n ≠ goal) :
    ExpInv A v heuristic size start goal node rem x' := by
  have hcore := h.relax_core hnc hframe hother hparent hopened hpos hobst hclosed hh hg hfront
  have hns : n ≠ start := by
    intro hns
    rw [hns, h.start_closed] at hnc
    exact absurd hnc (by simp)
  have hnn : node ≠ n := by
    intro hnn
    rw [← hnn, h.node_closed] at hnc
    exact absurd hnc (by simp)
  have hcl : ∀ c, (x'.m_board.m_nodes c).ext.closed = (x.m_board.m_nodes c).ext.closed := by
    intro c
    by_cases hcn : c = n
    · rw [hcn, hclosed]
    · rw [hother c hcn]
  refine ⟨fun m hm => h.rem_adj m (List.mem_cons_of_mem _ hm), hcore, ?_, ?_, ?_, ?_, ?_, ?_,
    h.node_le⟩
  · rw [hcl]; exact h.goal_open
  · intro hsg
    by_cases hgn : goal = n
    · have ho : (x.m_board.m_nodes n).opened = false := hgn ▸ h.goal_unopened hsg
      exact absurd hgn.symm (hgoal ho)
    · rw [hother goal hgn]
      exact h.goal_unopened hsg
  · rw [hcl]; exact h.start_closed
  · rw [hcl]; exact h.node_closed
  · intro c hcc hcnode m hm hadj'
    rw [hcl] at hcc
    obtain ⟨h1, h2⟩ := h.done c hcc hcnode m hm hadj'
    by_cases hmn : m = n
    · rw [hmn] at h1 h2 ⊢
      exact ⟨hopened, le_trans (hmono h1) h2⟩
    · rw [hother m hmn]
      exact ⟨h1, h2⟩
  · intro m hm hadj'
    by_cases hmn : m = n
    · rw [hmn]
      exact Or.inr ⟨hopened, le_of_eq hg⟩
    · rcases h.progress m hm hadj' with h1 | h1
      · rcases List.mem_cons.1 h1 with h2 | h2
        · exact absurd h2 hmn
        · exact Or.inl h2
      · rw [hother m hmn]
        exact Or.inr h1

end AStar

namespace AStar

open AlgorithmBase

variable {α : Type}

/-- What `updateNode` does in a state with the core of the invariant, where the position of
a node is its index. -/
theorem Core.updateNode_eq {A : Env α} {v : α → ℝ} {heuristic : Heuristic}
    {size start goal : Coordinate} {x : State α} (hc : Core A v heuristic size start goal x)
    (n node : Coordinate) :
    updateNode A x n node =
      if A.lt (A.add (distance A heuristic n goal)
            (A.add (x.m_board.m_nodes node).ext.g (distance A heuristic node n)))
          (A.add (x.m_board.m_nodes n).ext.h (x.m_board.m_nodes n).ext.g) = true then
        { x with
          m_board := x.m_board.write n
            { x.m_board.m_nodes n with
              parent := some node
              ext := { (x.m_board.m_nodes n).ext with
                h := distance A heuristic n goal
                g := A.add (x.m_board.m_nodes node).ext.g (distance A heuristic node n) } } }
      else x := by
  unfold updateNode
  simp only [hc.heur, (hc.clear _).1, Board.getGoal, hc.goal_eq]

/-- The `g` that `updateNode` computes for a neighbor of the expanded node holds the
distance of the expanded node from the start plus one. -/
theorem ExpInv.g_new {A : Env α} {v : α → ℝ} {hstar : Coordinate → ℝ} {heuristic : Heuristic}
    {size start goal node n : Coordinate} {rem : List Coordinate} {x : State α}
    (hacc : Accurate A v hstar heuristic size goal)
    (h : ExpInv A v heuristic size start goal node (n :: rem) x)
    (hstart : InBounds size start) :
    v (A.add (x.m_board.m_nodes node).ext.g (distance A heuristic node n)) =
      ((manhattan start node : Int) : ℝ) + 1 := by
  obtain ⟨hnv, hadj⟩ := h.rem_adj n (List.mem_cons_self _ _)
  have hnodev := h.core.opened_valid node (h.core.closed_opened node h.node_closed)
  have h1 := manhattan_le_size hstart hnodev
  exact hacc.step_val node n _ (manhattan start node) hnodev hnv hadj (manhattan_nonneg _ _)
    (by omega) (h.core.closed_g node h.node_closed)

/-- Visiting a neighbor that is opened and not closed: `updateNode` keeps the invariant of
the expansion. -/
theorem ExpInv.visit_opened {A : Env α} {v : α → ℝ} {hstar : Coordinate → ℝ}
    {heuristic : Heuristic} {size start goal node n : Coordinate} {rem : List Coordinate}
    {x : State α} (hacc : Accurate A v hstar heuristic size goal)
    (h : ExpInv A v heuristic size start goal node (n :: rem) x)
    (hstart : InBounds size start) (hgoal : InBounds size goal)
    (hnc : (x.m_board.m_nodes n).ext.closed = false)
    (ho : (x.m_board.m_nodes n).opened = true) :
    ExpInv A v heuristic size start goal node rem (updateNode A x n node) := by
  obtain ⟨hnv, hadj⟩ := h.rem_adj n (List.mem_cons_self _ _)
  have hgn := h.g_new hacc hstart
  have hns : n ≠ start := by
    intro hns
    rw [hns, h.start_closed] at hnc
    exact absurd hnc (by simp)
  obtain ⟨p, _, hpc, hpadj, hpg, hph⟩ := h.core.chain n ho hns
  have hpv := h.core.opened_valid p (h.core.closed_opened p hpc)
  have hnodev := h.core.opened_valid node (h.core.closed_opened node h.node_closed)
  have b1 := manhattan_le_size hstart hpv
  have b2 := manhattan_le_size hstart hnodev
  have b3 := manhattan_nonneg start p
  have b4 := manhattan_nonneg start node
  have hold : v (x.m_board.m_nodes n).ext.g = ((manhattan start p + 1 : Int) : ℝ) := by
    rw [hpg]; push_cast; ring
  have hnew : v (A.add (x.m_board.m_nodes node).ext.g (distance A heuristic node n)) =
      ((manhattan start node + 1 : Int) : ℝ) := by
    rw [hgn]; push_cast; ring
  rw [h.core.updateNode_eq n node]
  split
  · rename_i hfire
    rw [hph, hacc.lt_val] at hfire
    refine h.relax hnc ⟨rfl, rfl, rfl, rfl, rfl, rfl⟩
      (fun c hcn => Board.write_m_nodes_of_ne _ _ _ _ hcn) ?_ ?_ ?_ ?_ ?_ ?_ ?_
      (Or.inl ⟨rfl, ho⟩) ?_ (fun hh => by rw [ho] at hh; exact absurd hh (by simp))
    · simp
    · simp [ho]
    · simp
    · simp
    · simp
    · simp
    · simp only [Board.write_m_nodes_same]
      exact hgn
    · intro _
      simp only [Board.write_m_nodes_same]
      rw [hold, hnew]
      by_contra hlt
      rw [not_le] at hlt
      have hlt' : manhattan start p + 1 < manhattan start node + 1 := by exact_mod_cast hlt
      have := add_lt_of_gap hacc hgoal hnv hnv (x := (x.m_board.m_nodes n).ext.g)
        (y := A.add (x.m_board.m_nodes node).ext.g (distance A heuristic node n))
        (i := manhattan start p + 1) (j := manhattan start node + 1) hold hnew
        (by omega) (by omega) (by omega) (by omega)
        (Or.inl (by rw [manhattan_self]; omega))
      linarith
  · rename_i hfire
    rw [hph, hacc.lt_val] at hfire
    refine h.visit_same ho ?_
    rw [hold]
    by_contra hlt
    rw [not_le] at hlt
    have hlt' : manhattan start node + 1 < manhattan start p + 1 := by
      have : ((manhattan start node + 1 : Int) : ℝ) < ((manhattan start p + 1 : Int) : ℝ) := by
        push_cast; linarith
      exact_mod_cast this
    exact hfire (add_lt_of_gap hacc hgoal hnv hnv
      (x := A.add (x.m_board.m_nodes node).ext.g (distance A heuristic node n))
      (y := (x.m_board.m_nodes n).ext.g)
      (i := manhattan start node + 1) (j := manhattan start p + 1) hnew hold
      (by omega) (by omega) (by omega) (by omega)
      (Or.inl (by rw [manhattan_self]; omega)))

/-- What `updateNode` followed by `openNode` leaves at a neighbor that was not opened. -/
theorem ExpInv.openNew_eq {A : Env α} {v : α → ℝ} {hstar : Coordinate → ℝ}
    {heuristic : Heuristic} {size start goal node n : Coordinate} {rem : List Coordinate}
    {x : State α} (hacc : Accurate A v hstar heuristic size goal)
    (h : ExpInv A v heuristic size start goal node (n :: rem) x)
    (hstart : InBounds size start)
    (ho : (x.m_board.m_nodes n).opened = false) :
    updateNode A x n node =
      { x with
        m_board := x.m_board.write n
          { x.m_board.m_nodes n with
            parent := some node
            ext := { (x.m_board.m_nodes n).ext with
              h := distance A heuristic n goal
              g := A.add (x.m_board.m_nodes node).ext.g (distance A heuristic node n) } } } := by
  obtain ⟨hnv, hadj⟩ := h.rem_adj n (List.mem_cons_self _ _)
  have hgn := h.g_new hacc hstart
  have hnodev := h.core.opened_valid node (h.core.closed_opened node h.node_closed)
  have b2 := manhattan_le_size hstart hnodev
  have b4 := manhattan_nonneg start node
  have hnew : v (A.add (x.m_board.m_nodes node).ext.g (distance A heuristic node n)) =
      ((manhattan start node + 1 : Int) : ℝ) := by
    rw [hgn]; push_cast; ring
  obtain ⟨fh, fg⟩ := h.core.fresh n ho
  rw [h.core.updateNode_eq n node, fh, fg,
    if_pos (add_lt_max hacc hnv hnew (by omega) (by omega))]

/-- Visiting a neighbor that is not opened: after `updateNode` and `openNode` the state has
the core of the invariant, the neighbor is opened and its `g` holds the distance of the
expanded node from the start plus one. -/
theorem ExpInv.visit_new_core {A : Env α} {v : α → ℝ} {hstar : Coordinate → ℝ}
    {heuristic : Heuristic} {size start goal node n : Coordinate} {rem : List Coordinate}
    {x : State α} (hacc : Accurate A v hstar heuristic size goal)
    (h : ExpInv A v heuristic size start goal node (n :: rem) x)
    (hstart : InBounds size start)
    (hnc : (x.m_board.m_nodes n).ext.closed = false)
    (ho : (x.m_board.m_nodes n).opened = false) :
    Core A v heuristic size start goal (pushOpen (updateNode A x n node) n (some node)) ∧
    ((pushOpen (updateNode A x n node) n (some node)).m_board.m_nodes n).opened = true ∧
    v ((pushOpen (updateNode A x n node) n (some node)).m_board.m_nodes n).ext.g =
      ((manhattan start node : Int) : ℝ) + 1 := by
  have hgn := h.g_new hacc hstart
  rw [h.openNew_eq hacc hstart ho]
  refine ⟨h.relax_core hnc ⟨rfl, rfl, rfl, rfl, rfl, rfl⟩ ?_ ?_ ?_ ?_ ?_ ?_ ?_ ?_
    (Or.inr ⟨rfl, ho⟩), by simp, ?_⟩
  · intro c hcn
    rw [pushOpen_m_nodes_of_ne _ _ _ _ hcn]
    exact Board.write_m_nodes_of_ne _ _ _ _ hcn
  · simp
  · simp
  · simp
  · simp
  · simp
  · simp
  · simp only [pushOpen_m_nodes_same, Board.write_m_nodes_same]
    exact hgn
  · simp only [pushOpen_m_nodes_same, Board.write_m_nodes_same]
    exact hgn

/-- Visiting a neighbor that is not opened and is not the goal: `updateNode` and `openNode`
keep the invariant of the expansion. -/
theorem ExpInv.visit_new {A : Env α} {v : α → ℝ} {hstar : Coordinate → ℝ}
    {heuristic : Heuristic} {size start goal node n : Coordinate} {rem : List Coordinate}
    {x : State α} (hacc : Accurate A v hstar heuristic size goal)
    (h : ExpInv A v heuristic size start goal node (n :: rem) x)
    (hstart : InBounds size start)
    (hnc : (x.m_board.m_nodes n).ext.closed = false)
    (ho : (x.m_board.m_nodes n).opened = false) (hng : n ≠ goal) :
    ExpInv A v heuristic size start goal node rem
      (pushOpen (updateNode A x n node) n (some node)) := by
  have hgn := h.g_new hacc hstart
  rw [h.openNew_eq hacc hstart ho]
  refine h.relax hnc ⟨rfl, rfl, rfl, rfl, rfl, rfl⟩ ?_ ?_ ?_ ?_ ?_ ?_ ?_ ?_
    (Or.inr ⟨rfl, ho⟩) (fun hh => by rw [ho] at hh; exact absurd hh (by simp)) (fun _ => hng)
  · intro c hcn
    rw [pushOpen_m_nodes_of_ne _ _ _ _ hcn]
    exact Board.write_m_nodes_of_ne _ _ _ _ hcn
  · simp
  · simp
  · simp
  · simp
  · simp
  · simp
  · simp only [pushOpen_m_nodes_same, Board.write_m_nodes_same]
    exact hgn

end AStar

namespace AStar

open AlgorithmBase

variable {α : Type}

/-- Rule for the neighbor loop that follows the neighbors yet to be visited: `J rem x` is a
property of the state `x` in which `rem` is still to be visited. A closed neighbor is
skipped, an opened one is passed to `updateNode`, and one that is not opened is passed to
`updateNode` and `openNode`; when that one is the goal the loop ends with `storeSolution`
in a state with the property `Q`. -/
theorem astar_nextStepLoop_visit (A : Env α) (fuel : Nat) (node : Coordinate)
    (J : List Coordinate → State α → Prop) (Q : State α → Prop)
    (hclosed : ∀ n rem x, J (n :: rem) x → (x.m_board.m_nodes n).ext.closed = true → J rem x)
    (hopened : ∀ n rem x, J (n :: rem) x → (x.m_board.m_nodes n).ext.closed = false →
      (x.m_board.m_nodes n).opened = true → J rem (updateNode A x n node))
    (hnew : ∀ n rem x, J (n :: rem) x → (x.m_board.m_nodes n).ext.closed = false →
      (x.m_board.m_nodes n).opened = false →
      ((pushOpen (updateNode A x n node) n (some node)).m_board.m_nodes n).position ≠
        getGoal (pushOpen (updateNode A x n node) n (some node)) →
      J rem (pushOpen (updateNode A x n node) n (some node)))
    (hgoal : ∀ n rem x, J (n :: rem) x → (x.m_board.m_nodes n).ext.closed = false →
      (x.m_board.m_nodes n).opened = false →
      ((pushOpen (updateNode A x n node) n (some node)).m_board.m_nodes n).position =
        getGoal (pushOpen (updateNode A x n node) n (some node)) →
      Q (pushOpen (updateNode A x n node) n (some node))) :
    ∀ (nbs : List Coordinate) (s : State α), J nbs s →
      (∃ s', nextStepLoop A fuel node nbs s = some (false, s') ∧ J [] s') ∨
      (∃ s1, Q s1 ∧
        nextStepLoop A fuel node nbs s = (storeSolution fuel s1).map (fun r => (true, r))) := by
  intro nbs
  induction nbs with
  | nil => intro s hs; exact Or.inl ⟨s, rfl, hs⟩
  | cons n rest ih =>
    intro s hs
    rw [nextStepLoop]
    by_cases hc : (s.m_board.m_nodes n).ext.closed = true
    · rw [if_pos hc]
      exact ih s (hclosed n rest s hs hc)
    · rw [if_neg hc]
      have hc' : (s.m_board.m_nodes n).ext.closed = false := by simpa using hc
      simp only
      by_cases ho : ((updateNode A s n node).m_board.m_nodes n).opened = true
      · rw [if_pos ho]
        rw [astar_updateNode_opened] at ho
        exact ih _ (hopened n rest s hs hc' ho)
      · rw [if_neg ho]
        have ho' : (s.m_board.m_nodes n).opened = false := by
          rw [astar_updateNode_opened] at ho
          simpa using ho
        simp only [astar_openNode_eq, checkGoal_eq]
        by_cases hg : ((pushOpen (updateNode A s n node) n (some node)).m_board.m_nodes
            n).position = getGoal (pushOpen (updateNode A s n node) n (some node))
        · rw [if_pos hg]
          refine Or.inr ⟨_, hgoal n rest s hs hc' ho' hg, ?_⟩
          cases storeSolution fuel (pushOpen (updateNode A s n node) n (some node)) <;> rfl
        · rw [if_neg hg]
          exact ih _ (hnew n rest s hs hc' ho' hg)

/-- In a state with the core of the invariant, the loop of `storeSolution` started at an
opened node whose `g` holds `k` returns, and appends `k + 1` coordinates from that node to
the start, consecutive ones being one cardinal move apart. -/
theorem Core.storeSolutionLoop_path {A : Env α} {v : α → ℝ} {heuristic : Heuristic}
    {size start goal : Coordinate} {x : State α} (hc : Core A v heuristic size start goal x) :
    ∀ (k : Nat) (c : Coordinate) (acc : List Coordinate) (fuel : Nat),
      (x.m_board.m_nodes c).opened = true → v (x.m_board.m_nodes c).ext.g = (k : ℝ) →
      k < fuel →
      ∃ path, storeSolutionLoop x.m_board fuel (some c) acc = some (acc ++ path) ∧
        path.length = k + 1 ∧ path.head? = some c ∧ path.getLast? = some start ∧
        path.Chain' (fun a b => manhattan a b = 1) := by
  intro k
  induction k with
  | zero =>
    intro c acc fuel ho hg hfuel
    have hcs : c = start := by
      by_contra hcs
      obtain ⟨p, _, _, _, h4, _⟩ := hc.chain c ho hcs
      rw [hg] at h4
      have h5 : (0 : ℝ) ≤ ((manhattan start p : Int) : ℝ) := by
        exact_mod_cast manhattan_nonneg start p
      simp only [Nat.cast_zero] at h4
      linarith
    subst hcs
    obtain ⟨f, rfl⟩ : ∃ f, fuel = f + 1 := ⟨fuel - 1, by omega⟩
    refine ⟨[c], ?_, rfl, rfl, rfl, List.chain'_singleton _⟩
    rw [storeSolutionLoop, hc.start_parent, (hc.clear c).1]
    cases f <;> rfl
  | succ k ih =>
    intro c acc fuel ho hg hfuel
    have hcs : c ≠ start := by
      intro hcs
      rw [hcs, hc.start_g] at hg
      have : (0 : ℝ) < ((k + 1 : Nat) : ℝ) := by exact_mod_cast Nat.succ_pos k
      linarith
    obtain ⟨p, h1, h2, h3, h4, _⟩ := hc.chain c ho hcs
    have hpg : v (x.m_board.m_nodes p).ext.g = (k : ℝ) := by
      rw [hc.closed_g p h2]
      rw [hg] at h4
      push_cast at h4
      linarith
    obtain ⟨f, rfl⟩ : ∃ f, fuel = f + 1 := ⟨fuel - 1, by omega⟩
    obtain ⟨path, e1, e2, e3, e4, e5⟩ :=
      ih p (acc ++ [c]) f (hc.closed_opened p h2) hpg (by omega)
    refine ⟨c :: path, ?_, by simp [e2], rfl, ?_, ?_⟩
    · rw [storeSolutionLoop, h1, (hc.clear c).1, e1]
      simp
    · cases path with
      | nil => simp at e2
      | cons a t =>
        rw [List.getLast?_cons_cons]
        exact e4
    · rw [List.chain'_cons']
      refine ⟨?_, e5⟩
      intro y hy
      rw [e3] at hy
      simp only [Option.mem_def, Option.some.injEq] at hy
      subst hy
      rw [manhattan_comm]
      exact h3

/-- In a state with the core of the invariant in which the goal is opened and its `g` holds
its Manhattan distance from the start, `storeSolution` returns and stores a solution of
that many moves from the goal to the start. -/
theorem Core.storeSolution_cardinal {A : Env α} {v : α → ℝ} {heuristic : Heuristic}
    {size start goal : Coordinate} {x : State α} (hc : Core A v heuristic size start goal x)
    (hgoal : InBounds size goal)
    (ho : (x.m_board.m_nodes goal).opened = true)
    (hg : v (x.m_board.m_nodes goal).ext.g = ((manhattan start goal : Int) : ℝ))
    {fuel : Nat} (hfuel : manhattan start goal < fuel) :
    ∃ s', storeSolution fuel x = some s' ∧ CardinalPath start goal s' := by
  have hnn := manhattan_nonneg start goal
  have hk : ((manhattan start goal).toNat : Int) = manhattan start goal :=
    Int.toNat_of_nonneg hnn
  have hg' : v (x.m_board.m_nodes goal).ext.g = (((manhattan start goal).toNat : Nat) : ℝ) := by
    rw [hg]
    exact_mod_cast hk.symm
  obtain ⟨path, e1, e2, e3, e4, e5⟩ :=
    hc.storeSolutionLoop_path (manhattan start goal).toNat goal x.solution fuel ho hg'
      (by omega)
  have hgn : getGoalNode x = some goal := by
    simp only [getGoalNode, Board.getGoalNode, hc.goal_eq]
    rw [if_pos]
    rw [isValidNode_iff_inBounds, hc.size_eq]
    exact hgoal
  refine ⟨{ x with solution := x.solution ++ path }, ?_, ?_, ?_, ?_, ?_⟩
  · simp only [storeSolution, hgn, e1]
  · simp only [hc.sol, List.nil_append, e2]
    push_cast
    omega
  · simp only [hc.sol, List.nil_append, e3]
  · simp only [hc.sol, List.nil_append, e4]
  · simp only [hc.sol, List.nil_append]
    exact e5

/-- When every neighbor of the expanded node was visited, the invariant between calls
holds. -/
theorem ExpInv.finish {A : Env α} {v : α → ℝ} {heuristic : Heuristic}
    {size start goal node : Coordinate} {x : State α}
    (h : ExpInv A v heuristic size start goal node [] x) :
    OptInv A v heuristic size start goal x := by
  refine ⟨h.core, h.goal_open, h.goal_unopened, Or.inl h.start_closed, ?_⟩
  intro c hcc
  by_cases hcn : c = node
  · subst hcn
    intro m hm hadj
    rcases h.progress m hm hadj with h1 | h1
    · exact absurd h1 (List.not_mem_nil m)
    · exact h1
  · exact h.done c hcc hcn

/-- One call of `nextStep` in a state with the invariant: the call returns false and keeps
the invariant, or it returns true and leaves a solution of `manhattan start goal + 1`
coordinates made of cardinal moves. -/
theorem astar_nextStep_opt {A : Env α} {v : α → ℝ} {hstar : Coordinate → ℝ}
    {heuristic : Heuristic} {size start goal : Coordinate}
    (hacc : Accurate A v hstar heuristic size goal) (hA : A.SortPermutes) (hS : A.SortSorts)
    (hstart : InBounds size start) (hgoal : InBounds size goal) (fuel : Nat)
    (hfuel : manhattan start goal < fuel) (s : State α)
    (h : OptInv A v heuristic size start goal s) :
    (∃ s', nextStep A fuel s = some (false, s') ∧ OptInv A v heuristic size start goal s') ∨
    (∃ s', nextStep A fuel s = some (true, s') ∧ CardinalPath start goal s') := by
  have hc := h.core
  have hne : s.m_openNodes ≠ [] := by
    obtain ⟨m, hm, _⟩ := h.frontier_on_path hstart (manhattan start goal).toNat goal hgoal
      (by rw [Int.toNat_of_nonneg (manhattan_nonneg _ _)]) h.goal_open
    exact List.ne_nil_of_mem hm
  have hperm := hA (compare A s.m_board) s.m_openNodes
  have hne2 : A.sort (compare A s.m_board) s.m_openNodes ≠ [] := by
    intro h0
    rw [h0] at hperm
    exact hne (List.Perm.eq_nil hperm.symm)
  obtain ⟨rest, node, hl⟩ := exists_concat_of_ne_nil _ hne2
  have hperm' : (rest ++ [node]).Perm s.m_openNodes := hl ▸ hperm
  have hmin := sorted_last_le hacc hS s.m_board s.m_openNodes rest node hl
  have hnf : node ∈ s.m_openNodes := hperm'.subset (by simp)
  obtain ⟨hno, hnc⟩ := (hc.front_iff node).1 hnf
  have hng := h.selected_g hacc hstart hgoal hperm' hmin
  rw [astar_nextStep_concat A fuel s node rest hl hne, (hc.clear node).1, hc.goal_eq, hc.diag]
  split
  · rename_i hnode
    subst hnode
    have hcore := h.closeWith_core hperm' hng
    obtain ⟨s', h1, h2⟩ := hcore.storeSolution_cardinal hgoal
      (by rw [closeWith_opened]; exact hno) (by rw [closeWith_g]; exact hng) hfuel
    refine Or.inr ⟨s', ?_, h2⟩
    rw [h1]
    rfl
  · rename_i hnode
    have hexp := h.closeWith_exp hacc hstart hgoal hperm' hmin hnode s.m_cutCorners
    rcases astar_nextStepLoop_visit A fuel node
        (fun rem x => ExpInv A v heuristic size start goal node rem x)
        (fun s1 => Core A v heuristic size start goal s1 ∧
          (s1.m_board.m_nodes goal).opened = true ∧
          v (s1.m_board.m_nodes goal).ext.g = ((manhattan start goal : Int) : ℝ))
        (fun n rem x hx hcl => hx.visit_closed hcl)
        (fun n rem x hx hcl ho => hx.visit_opened hacc hstart hgoal hcl ho)
        (fun n rem x hx hcl ho hg => by
          obtain ⟨hcore, _, _⟩ := hx.visit_new_core hacc hstart hcl ho
          rw [(hcore.clear n).1] at hg
          exact hx.visit_new hacc hstart hcl ho (fun hh => hg (hh.trans hcore.goal_eq.symm)))
        (fun n rem x hx hcl ho hg => by
          obtain ⟨hcore, hon, hgn⟩ := hx.visit_new_core hacc hstart hcl ho
          rw [(hcore.clear n).1] at hg
          have hng' : n = goal := hg.trans hcore.goal_eq
          subst hng'
          refine ⟨hcore, hon, ?_⟩
          rw [hgn]
          have hsg : start ≠ n := by
            intro hsg
            rw [← hsg, hx.core.start_opened] at ho
            exact absurd ho (by simp)
          have h1 := hx.node_le hsg
          have h2 := manhattan_adjacent (hx.rem_adj n (List.mem_cons_self _ _)).2 start
          have : manhattan start node + 1 = manhattan start n := by omega
          exact_mod_cast this)
        _ _ hexp with ⟨s', h1, h2⟩ | ⟨s1, ⟨hcore, hon, hgn⟩, h2⟩
    · exact Or.inl ⟨s', h1, h2.finish⟩
    · obtain ⟨s', h3, h4⟩ := hcore.storeSolution_cardinal hgoal hon hgn hfuel
      refine Or.inr ⟨s', ?_, h4⟩
      rw [h2, h3]
      rfl

end AStar

namespace AStar

open AlgorithmBase

variable {α : Type}

/-- The nodes of a constructed instance after `Board::init`: as constructed. -/
theorem initBase_create_m_nodes (A : Env α) (size start goal : Coordinate) (h : Heuristic)
    (d cc : Bool) (c : Coordinate) :
    (initBase (Node.init A) (create A size start goal) h d cc).m_board.m_nodes c =
      { position := c, ext := { closed := false, h := A.maxValue, g := A.ofInt 0 } } := by
  rw [initBase_m_nodes]
  split <;> rfl

/-- The invariant holds after `init` on a constructed instance, diagonals disabled. -/
theorem init_optInv {A : Env α} {v : α → ℝ} {hstar : Coordinate → ℝ} {heuristic : Heuristic}
    {size start goal : Coordinate} (hacc : Accurate A v hstar heuristic size goal)
    (hstart : InBounds size start) (cc : Bool) :
    OptInv A v heuristic size start goal
      (pushOpen (initBase (Node.init A) (create A size start goal) heuristic false cc)
        start none) := by
  have hn : ∀ c, (pushOpen (initBase (Node.init A) (create A size start goal) heuristic
      false cc) start none).m_board.m_nodes c =
      if c = start then
        { position := c, opened := true,
          ext := { closed := false, h := A.maxValue, g := A.ofInt 0 } }
      else { position := c, ext := { closed := false, h := A.maxValue, g := A.ofInt 0 } } := by
    intro c
    by_cases hc : c = start
    · rw [if_pos hc, hc, pushOpen_m_nodes_same, initBase_create_m_nodes]
    · rw [if_neg hc, pushOpen_m_nodes_of_ne _ _ _ _ hc, initBase_create_m_nodes]
  have hopen : ∀ c, ((pushOpen (initBase (Node.init A) (create A size start goal) heuristic
      false cc) start none).m_board.m_nodes c).opened = true ↔ c = start := by
    intro c
    rw [hn]
    by_cases hc : c = start <;> simp [hc]
  have hclosed : ∀ c, ((pushOpen (initBase (Node.init A) (create A size start goal) heuristic
      false cc) start none).m_board.m_nodes c).ext.closed = false := by
    intro c
    rw [hn]
    split <;> rfl
  refine ⟨⟨rfl, rfl, rfl, rfl, rfl, rfl, ?_, ?_, ?_, ?_, ?_, ?_, ?_, ?_, ?_, ?_, ?_⟩, hclosed goal,
    ?_, Or.inr rfl, ?_⟩
  · intro c
    rw [hn]
    split <;> exact ⟨rfl, rfl⟩
  · intro c hc
    rw [(hopen c).1 hc]
    exact hstart
  · intro c hc
    rw [hclosed] at hc
    exact absurd hc (by simp)
  · intro c
    show c ∈ [] ++ [start] ↔ _
    rw [hopen, hclosed]
    simp
  · show ([] ++ [start]).Nodup
    simp
  · intro c hc
    rw [hn] at hc ⊢
    split
    · rename_i h1
      rw [if_pos h1] at hc
      exact absurd hc (by simp)
    · exact ⟨rfl, rfl⟩
  · exact (hopen start).2 rfl
  · rw [hn, if_pos rfl]
  · rw [hn, if_pos rfl]
    exact hacc.zero_val
  · intro c hc hcs
    exact absurd ((hopen c).1 hc) hcs
  · intro c hc
    rw [hclosed] at hc
    exact absurd hc (by simp)
  · intro hsg
    rw [hn, if_neg (fun h => hsg h.symm)]
  · intro c hc
    rw [hclosed] at hc
    exact absurd hc (by simp)

/-- A run of A* with diagonals disabled on a constructed (obstacle-free) instance: `init`
returns, some call of `nextStep` returns true, `complete` returns, and the solution has
`manhattan start goal + 1` coordinates made of cardinal moves from the goal to the start. -/
theorem astar_run_cardinal {A : Env α} {v : α → ℝ} {hstar : Coordinate → ℝ}
    {heuristic : Heuristic} {size start goal : Coordinate}
    (hacc : Accurate A v hstar heuristic size goal) (hA : A.SortPermutes) (hS : A.SortSorts)
    (hstart : InBounds size start) (hgoal : InBounds size goal) (cc : Bool) (fuel : Nat)
    (hfuel : manhattan start goal < fuel) :
    ∃ s1, init A (create A size start goal) heuristic false cc = some s1 ∧
      ∃ n s s', stepsFalse (nextStep A fuel) n s1 = some s ∧
        nextStep A fuel s = some (true, s') ∧
        complete (nextStep A fuel) (n + 1) s1 = some s' ∧ CardinalPath start goal s' := by
  have hv : (create A size start goal).m_board.isValidNode
      (create A size start goal).m_board.m_start = true := by
    rw [isValidNode_iff_inBounds]
    exact hstart
  refine ⟨_, by rw [astar_init_eq, if_pos hv], ?_⟩
  obtain ⟨n, s, s', _, h2, h3, h4⟩ := exists_true_of_measure (nextStep A fuel) stepMeasure
    (OptInv A v heuristic size start goal)
    (fun s hs => by
      rcases astar_nextStep_opt hacc hA hS hstart hgoal fuel hfuel s hs with
        ⟨s', h1, h2⟩ | ⟨s', h1, _⟩
      · exact Or.inr ⟨s', h1, h2, astar_nextStep_measure A hA fuel s s' h1⟩
      · exact Or.inl ⟨s', h1⟩)
    _ (init_optInv hacc hstart cc)
  refine ⟨n, s, s', h2, h4, complete_of_stepsFalse _ n _ s s' h2 h4, ?_⟩
  rcases astar_nextStep_opt hacc hA hS hstart hgoal fuel hfuel s h3 with
    ⟨s2, h5, _⟩ | ⟨s2, h5, h6⟩
  · rw [h5] at h4
    cases h4
  · rw [h5] at h4
    cases h4
    exact h6

end AStar

namespace AlgorithmBase

/-- In a list whose consecutive elements are related, every pair of the list zipped with its
tail is related. -/
theorem rel_of_mem_zip_tail {R : Coordinate → Coordinate → Prop} :
    ∀ l : List Coordinate, l.Chain' R → ∀ p ∈ l.zip l.tail, R p.1 p.2 := by
  intro l
  induction l with
  | nil => intro _ p hp; simp at hp
  | cons a t ih =>
    intro hl p hp
    cases t with
    | nil => simp at hp
    | cons b t =>
      rw [List.chain'_cons] at hl
      simp only [List.tail_cons, List.zip_cons_cons, List.mem_cons] at hp
      rcases hp with rfl | hp
      · exact hl.1
      · exact ih hl.2 p hp

/-- The distance of a solution made of cardinal moves is its number of moves. -/
theorem getSolutionDistance_cardinal {E : Type} (s : Algorithm E)
    (h : s.solution.Chain' (fun a b => manhattan a b = 1)) :
    getSolutionDistance s = ((s.solution.length - 1 : Nat) : ℚ) := by
  have h0 : (s.solution.zip s.solution.tail).countP (fun p => isDiagonal p.1 p.2) = 0 := by
    rw [List.countP_eq_zero]
    intro p hp
    rw [isDiagonal_of_manhattan_one (rel_of_mem_zip_tail _ h p hp)]
    simp
  have h1 := countP_pairs_add s.solution
  rw [h0, add_zero] at h1
  rw [getSolutionDistance_eq, h0, h1]
  simp

end AlgorithmBase

/-! ## Theorems: the integer interpretation of the arithmetic is accurate -/

namespace AStar

open AlgorithmBase

/-- In the integer interpretation the arithmetic assumptions hold, with the computed
heuristic as exact heuristic, as soon as the heuristic is 1 between adjacent cells,
nonnegative, zero at the goal, and consistent. -/
theorem intEnv_accurate_of (heuristic : Heuristic) (size goal : Coordinate)
    (hgoal : InBounds size goal) (hsize : size.1 + size.2 ≤ 2 ^ 64)
    (h1 : ∀ p n, manhattan p n = 1 → distance intEnv heuristic p n = 1)
    (h2 : ∀ c, 0 ≤ distance intEnv heuristic c goal)
    (h3 : distance intEnv heuristic goal goal = 0)
    (h4 : ∀ a b, distance intEnv heuristic a goal ≤
      manhattan a b + distance intEnv heuristic b goal) :
    Accurate intEnv (fun x => ((x : Int) : ℝ))
      (fun c => ((distance intEnv heuristic c goal : Int) : ℝ)) heuristic size goal := by
  refine ⟨?_, ?_, ?_, ?_, ?_, ?_, ?_, ?_, ?_⟩
  · intro a b
    simp [intEnv]
  · intro a b
    simp [intEnv]
  · simp [intEnv]
  · intro p n x k _ _ hadj _ _ hx
    have hx' : x = k := by exact_mod_cast hx
    subst hx'
    show (((x + distance intEnv heuristic p n : Int)) : ℝ) = (x : ℝ) + 1
    rw [h1 p n hadj]
    push_cast
    ring
  · intro c x k _ _ _ hx
    have hx' : x = k := by exact_mod_cast hx
    subst hx'
    show |(((distance intEnv heuristic c goal + x : Int)) : ℝ) -
      (((distance intEnv heuristic c goal : Int) : ℝ) + (x : ℝ))| ≤ 1 / 4
    push_cast
    simp
  · intro c hc
    show _ ≤ (((doubleMax + 0 : Int)) : ℝ)
    have hg := h4 c goal
    rw [h3, add_zero] at hg
    have hm := manhattan_le_size hc hgoal
    have hd : (2 : Int) ^ 64 + 2 ^ 64 + 1 ≤ doubleMax := by
      unfold doubleMax
      norm_num
    have : distance intEnv heuristic c goal + (size.1 + size.2) + 1 ≤ doubleMax + 0 := by
      omega
    exact_mod_cast this
  · intro c _
    exact_mod_cast h2 c
  · simp only [h3]
    simp
  · intro a b _ _
    exact_mod_cast h4 a b

/-- The integer interpretation is accurate for the Manhattan heuristic. -/
theorem intEnv_accurate_manhattan (size goal : Coordinate) (hgoal : InBounds size goal)
    (hsize : size.1 + size.2 ≤ 2 ^ 64) :
    Accurate intEnv (fun x => ((x : Int) : ℝ))
      (fun c => ((distance intEnv Heuristic.Manhattan c goal : Int) : ℝ))
      Heuristic.Manhattan size goal :=
  intEnv_accurate_of Heuristic.Manhattan size goal hgoal hsize (fun _ _ h => h)
    (fun c => manhattan_nonneg c goal) (manhattan_self goal)
    (fun a b => manhattan_triangle a b goal)

/-- The integer interpretation is accurate for the Chebyshev heuristic, which computes the
Manhattan distance. -/
theorem intEnv_accurate_chebyshev (size goal : Coordinate) (hgoal : InBounds size goal)
    (hsize : size.1 + size.2 ≤ 2 ^ 64) :
    Accurate intEnv (fun x => ((x : Int) : ℝ))
      (fun c => ((distance intEnv Heuristic.Chebyshev c goal : Int) : ℝ))
      Heuristic.Chebyshev size goal :=
  intEnv_accurate_of Heuristic.Chebyshev size goal hgoal hsize (fun _ _ h => h)
    (fun c => manhattan_nonneg c goal) (manhattan_self goal)
    (fun a b => manhattan_triangle a b goal)

end AStar

namespace AStar

open AlgorithmBase

theorem intEnv_diagonal_eq (a b : Coordinate) :
    distance intEnv Heuristic.Diagonal a b =
      (max (a.1 - b.1) (-(a.1 - b.1)) + max (a.2 - b.2) (-(a.2 - b.2))) -
        (586 * min (max (a.1 - b.1) (-(a.1 - b.1))) (max (a.2 - b.2) (-(a.2 - b.2))) + 999) /
          1000 := by
  simp only [distance, intEnv, abs_eq_max_neg]

/-- The integer interpretation is accurate for the Diagonal heuristic. -/
theorem intEnv_accurate_diagonal (size goal : Coordinate) (hgoal : InBounds size goal)
    (hsize : size.1 + size.2 ≤ 2 ^ 64) :
    Accurate intEnv (fun x => ((x : Int) : ℝ))
      (fun c => ((distance intEnv Heuristic.Diagonal c goal : Int) : ℝ))
      Heuristic.Diagonal size goal := by
  refine intEnv_accurate_of Heuristic.Diagonal size goal hgoal hsize ?_ ?_ ?_ ?_
  · intro p n h
    rw [manhattan_eq] at h
    rw [intEnv_diagonal_eq]
    omega
  · intro c
    rw [intEnv_diagonal_eq]
    omega
  · rw [intEnv_diagonal_eq]
    simp
  · intro a b
    rw [intEnv_diagonal_eq, intEnv_diagonal_eq, manhattan_eq]
    omega

end AStar

namespace AStar

open AlgorithmBase

theorem intEnv_euclidean_eq (a b : Coordinate) :
    distance intEnv Heuristic.Euclidean a b =
      ((Nat.sqrt (((a.1 - b.1) ^ 2 + (a.2 - b.2) ^ 2).toNat) : Nat) : Int) := rfl

/-- The integer square root of `x^2 + y^2` grows by at most `|u| + |w|` when `x` and `y`
change by `u` and `w`. -/
theorem sqrt_sq_add_le (x y u w : Int) :
    ((Nat.sqrt (((x + u) ^ 2 + (y + w) ^ 2).toNat) : Nat) : Int) ≤
      |u| + |w| + ((Nat.sqrt ((x ^ 2 + y ^ 2).toNat) : Nat) : Int) := by
  have hN : 0 ≤ x ^ 2 + y ^ 2 := by positivity
  have hM : 0 ≤ (x + u) ^ 2 + (y + w) ^ 2 := by positivity
  have hb : x ^ 2 + y ^ 2 < (((Nat.sqrt ((x ^ 2 + y ^ 2).toNat) : Nat) : Int) + 1) ^ 2 := by
    have := Nat.lt_succ_sqrt' ((x ^ 2 + y ^ 2).toNat)
    have h2 : (((x ^ 2 + y ^ 2).toNat : Nat) : Int) <
        (((Nat.succ (Nat.sqrt ((x ^ 2 + y ^ 2).toNat)) ^ 2 : Nat)) : Int) := by
      exact_mod_cast this
    rw [Int.toNat_of_nonneg hN] at h2
    push_cast at h2
    exact h2
  have hsb0 : (0 : Int) ≤ ((Nat.sqrt ((x ^ 2 + y ^ 2).toNat) : Nat) : Int) :=
    Int.ofNat_nonneg _
  generalize ((Nat.sqrt ((x ^ 2 + y ^ 2).toNat) : Nat) : Int) = sb at hb hsb0 ⊢
  have hsb : 0 ≤ sb + 1 := by omega
  have hx : |x| ≤ sb := by
    have : x ^ 2 < (sb + 1) ^ 2 := by nlinarith [sq_nonneg y]
    have := abs_lt_of_sq_lt_sq this hsb
    omega
  have hy : |y| ≤ sb := by
    have : y ^ 2 < (sb + 1) ^ 2 := by nlinarith [sq_nonneg x]
    have := abs_lt_of_sq_lt_sq this hsb
    omega
  have e1 : x * u ≤ sb * |u| :=
    calc x * u ≤ |x * u| := le_abs_self _
      _ = |x| * |u| := abs_mul _ _
      _ ≤ sb * |u| := mul_le_mul_of_nonneg_right hx (abs_nonneg _)
  have e2 : y * w ≤ sb * |w| :=
    calc y * w ≤ |y * w| := le_abs_self _
      _ = |y| * |w| := abs_mul _ _
      _ ≤ sb * |w| := mul_le_mul_of_nonneg_right hy (abs_nonneg _)
  have hu := abs_nonneg u
  have hw := abs_nonneg w
  have hlt : (x + u) ^ 2 + (y + w) ^ 2 < (|u| + |w| + sb + 1) ^ 2 := by
    have e3 : u ^ 2 = |u| ^ 2 := (sq_abs u).symm
    have e4 : w ^ 2 = |w| ^ 2 := (sq_abs w).symm
    nlinarith [mul_nonneg hu hw, mul_nonneg hsb0 hu, mul_nonneg hsb0 hw]
  have hd : 0 ≤ |u| + |w| + sb := by linarith
  obtain ⟨d, hd'⟩ := Int.eq_ofNat_of_zero_le hd
  have hlt' : ((((x + u) ^ 2 + (y + w) ^ 2).toNat : Nat) : Int) < (((d + 1) ^ 2 : Nat) : Int) := by
    rw [Int.toNat_of_nonneg hM]
    push_cast
    rw [← hd']
    exact hlt
  have h3 : ((x + u) ^ 2 + (y + w) ^ 2).toNat < (d + 1) ^ 2 := by exact_mod_cast hlt'
  have h4 : Nat.sqrt (((x + u) ^ 2 + (y + w) ^ 2).toNat) < d + 1 := Nat.sqrt_lt'.2 h3
  have h5 : ((Nat.sqrt (((x + u) ^ 2 + (y + w) ^ 2).toNat) : Nat) : Int) ≤ (d : Int) := by
    exact_mod_cast Nat.lt_succ_iff.1 h4
  rw [hd'] 
  exact h5

/-- The integer interpretation is accurate for the Euclidean heuristic. -/
theorem intEnv_accurate_euclidean (size goal : Coordinate) (hgoal : InBounds size goal)
    (hsize : size.1 + size.2 ≤ 2 ^ 64) :
    Accurate intEnv (fun x => ((x : Int) : ℝ))
      (fun c => ((distance intEnv Heuristic.Euclidean c goal : Int) : ℝ))
      Heuristic.Euclidean size goal := by
  refine intEnv_accurate_of Heuristic.Euclidean size goal hgoal hsize ?_ ?_ ?_ ?_
  · intro p n h
    rw [manhattan_eq] at h
    rw [intEnv_euclidean_eq]
    have hc : (p.1 - n.1 = 1 ∧ p.2 - n.2 = 0) ∨ (p.1 - n.1 = -1 ∧ p.2 - n.2 = 0) ∨
        (p.1 - n.1 = 0 ∧ p.2 - n.2 = 1) ∨ (p.1 - n.1 = 0 ∧ p.2 - n.2 = -1) := by omega
    rcases hc with ⟨h1, h2⟩ | ⟨h1, h2⟩ | ⟨h1, h2⟩ | ⟨h1, h2⟩ <;> rw [h1, h2] <;> norm_num
  · intro c
    rw [intEnv_euclidean_eq]
    exact Int.ofNat_nonneg _
  · rw [intEnv_euclidean_eq]
    simp
  · intro a b
    rw [intEnv_euclidean_eq, intEnv_euclidean_eq, manhattan]
    have := sqrt_sq_add_le (b.1 - goal.1) (b.2 - goal.2) (a.1 - b.1) (a.2 - b.2)
    have e1 : b.1 - goal.1 + (a.1 - b.1) = a.1 - goal.1 := by ring
    have e2 : b.2 - goal.2 + (a.2 - b.2) = a.2 - goal.2 := by ring
    rw [e1, e2] at this
    exact this

/-- For each of the four heuristics, the integer interpretation satisfies the arithmetic
assumptions on every board whose width and height add up to at most `2^64`. -/
theorem intEnv_accurate (heuristic : Heuristic) (size goal : Coordinate)
    (hgoal : InBounds size goal) (hsize : size.1 + size.2 ≤ 2 ^ 64) :
    Accurate intEnv (fun x => ((x : Int) : ℝ))
      (fun c => ((distance intEnv heuristic c goal : Int) : ℝ)) heuristic size goal := by
  cases heuristic
  · exact intEnv_accurate_manhattan size goal hgoal hsize
  · exact intEnv_accurate_diagonal size goal hgoal hsize
  · exact intEnv_accurate_euclidean size goal hgoal hsize
  · exact intEnv_accurate_chebyshev size goal hgoal hsize

end AStar

/-! ## Theorems: the effect of one `nextStep` call -/

namespace Board

variable {E : Type}

/-- The eight cells around a position are pairwise distinct and differ from it. -/
theorem around_nodup (x y : Int) :
    [(x, y), (x, y - 1), (x + 1, y), (x, y + 1), (x - 1, y), (x - 1, y - 1), (x + 1, y - 1),
      (x + 1, y + 1), (x - 1, y + 1)].Nodup := by
  simp only [List.nodup_cons, List.mem_cons, Prod.mk.injEq, List.mem_singleton,
    List.not_mem_nil, List.nodup_nil, not_or, or_false, and_true, not_and, not_false_eq_true]
  omega

theorem getNeighbors_sublist (b : Board E) (node : Coordinate) (d cc : Bool) :
    (b.getNeighbors node [] d cc).Sublist
      [((b.m_nodes node).position.1, (b.m_nodes node).position.2 - 1),
       ((b.m_nodes node).position.1 + 1, (b.m_nodes node).position.2),
       ((b.m_nodes node).position.1, (b.m_nodes node).position.2 + 1),
       ((b.m_nodes node).position.1 - 1, (b.m_nodes node).position.2),
       ((b.m_nodes node).position.1 - 1, (b.m_nodes node).position.2 - 1),
       ((b.m_nodes node).position.1 + 1, (b.m_nodes node).position.2 - 1),
       ((b.m_nodes node).position.1 + 1, (b.m_nodes node).position.2 + 1),
       ((b.m_nodes node).position.1 - 1, (b.m_nodes node).position.2 + 1)] := by
  unfold getNeighbors
  split
  · refine (getNeighborsWithoutDiagonals_sublist b node).trans ?_
    exact (List.sublist_append_left _ [_, _, _, _])
  · exact getNeighborsWithDiagonals_sublist b node cc

/-- The list `getNeighbors` returns has no repetition. -/
theorem getNeighbors_nodup (b : Board E) (node : Coordinate) (d cc : Bool) :
    (b.getNeighbors node [] d cc).Nodup :=
  ((List.nodup_cons.1 (around_nodup _ _)).2).sublist (getNeighbors_sublist b node d cc)

/-- The position of a node is not among its neighbors. -/
theorem position_not_mem_getNeighbors (b : Board E) (node : Coordinate) (d cc : Bool) :
    (b.m_nodes node).position ∉ b.getNeighbors node [] d cc := fun h =>
  (List.nodup_cons.1 (around_nodup (b.m_nodes node).position.1 (b.m_nodes node).position.2)).1
    ((getNeighbors_sublist b node d cc).subset h)

theorem not_mem_getNeighbors_self (b : Board E) (hw : b.WellFormed) (node : Coordinate)
    (hv : b.isValidNode node = true) (d cc : Bool) : node ∉ b.getNeighbors node [] d cc := by
  have h := position_not_mem_getNeighbors b node d cc
  rwa [hw node hv] at h

end Board

namespace AlgorithmBase

variable {E : Type}

/-- The state `storeSolution` returns differs from the one it was given in `solution` only. -/
theorem storeSolution_frame (fuel : Nat) (x s' : Algorithm E)
    (h : storeSolution fuel x = some s') : s' = { x with solution := s'.solution } := by
  unfold storeSolution at h
  split at h
  · cases h
  · cases h
    rfl

end AlgorithmBase

namespace AlgorithmBase

theorem SameConfig.config_refl {E : Type} (x : Algorithm E) : SameConfig x x :=
  ⟨rfl, rfl, rfl, rfl, rfl, rfl, rfl⟩

theorem SameConfig.config_trans {E : Type} {x y z : Algorithm E} (h1 : SameConfig x y)
    (h2 : SameConfig y z) : SameConfig x z :=
  ⟨h2.1.trans h1.1, h2.2.1.trans h1.2.1, h2.2.2.1.trans h1.2.2.1,
    h2.2.2.2.1.trans h1.2.2.2.1, h2.2.2.2.2.1.trans h1.2.2.2.2.1,
    h2.2.2.2.2.2.1.trans h1.2.2.2.2.2.1, h2.2.2.2.2.2.2.trans h1.2.2.2.2.2.2⟩

end AlgorithmBase

namespace AStar

open AlgorithmBase

variable {α : Type}

theorem astar_updateNode_of_ne (A : Env α) (s : State α) (nb pr x : Coordinate) (h : x ≠ nb) :
    (updateNode A s nb pr).m_board.m_nodes x = s.m_board.m_nodes x := by
  rcases astar_updateNode_m_nodes A s nb pr x with h1 | ⟨h1, _⟩
  · exact h1
  · exact absurd h1 h

theorem Relaxed.congr {A : Env α} {x y : State α} {p n : Coordinate} {N' : Node (Ext α)}
    (h : Relaxed A y p n N') (hn : y.m_board.m_nodes n = x.m_board.m_nodes n)
    (hp : (y.m_board.m_nodes p).ext.g = (x.m_board.m_nodes p).ext.g ∧
      (y.m_board.m_nodes p).position = (x.m_board.m_nodes p).position)
    (hh : y.m_heuristic = x.m_heuristic)
    (hg : y.m_board.m_goal = x.m_board.m_goal) : Relaxed A x p n N' := by
  unfold Relaxed at h ⊢
  simp only [Board.getGoal] at h ⊢
  rw [hn, hp.1, hp.2, hh, hg] at h
  exact h

/-- The node `updateNode` leaves in an opened neighbor. -/
theorem relaxed_updateNode (A : Env α) (x : State α) (node n : Coordinate)
    (ho : (x.m_board.m_nodes n).opened = true) :
    Relaxed A x node n ((updateNode A x n node).m_board.m_nodes n) := by
  unfold Relaxed updateNode
  simp only
  by_cases hlt : A.lt
      (A.add (distance A x.m_heuristic (x.m_board.m_nodes n).position x.m_board.getGoal)
        (A.add (x.m_board.m_nodes node).ext.g
          (distance A x.m_heuristic (x.m_board.m_nodes node).position
            (x.m_board.m_nodes n).position)))
      (A.add (x.m_board.m_nodes n).ext.h (x.m_board.m_nodes n).ext.g) = true
  · rw [if_pos hlt, if_pos hlt]
    simp [ho]
  · rw [if_neg hlt, if_neg hlt]
    simp [ho]

/-- The node `updateNode` and `openNode` leave in a neighbor that was not opened. -/
theorem relaxed_pushOpen (A : Env α) (x : State α) (node n : Coordinate)
    (ho : (x.m_board.m_nodes n).opened = false) :
    Relaxed A x node n
      ((pushOpen (updateNode A x n node) n (some node)).m_board.m_nodes n) := by
  rw [pushOpen_m_nodes_same]
  unfold Relaxed updateNode
  simp only
  by_cases hlt : A.lt
      (A.add (distance A x.m_heuristic (x.m_board.m_nodes n).position x.m_board.getGoal)
        (A.add (x.m_board.m_nodes node).ext.g
          (distance A x.m_heuristic (x.m_board.m_nodes node).position
            (x.m_board.m_nodes n).position)))
      (A.add (x.m_board.m_nodes n).ext.h (x.m_board.m_nodes n).ext.g) = true
  · rw [if_pos hlt, if_pos hlt]
    simp
  · rw [if_neg hlt, if_neg hlt]
    simp [ho]

theorem sameConfig_updateNode (A : Env α) (x : State α) (n node : Coordinate) :
    SameConfig x (updateNode A x n node) := by
  have h := astar_updateNode_frame A x n node
  exact ⟨h.2.2.1, h.2.2.2.1, h.2.2.2.2.1, h.2.2.2.2.2.1, h.2.2.2.2.2.2.2.1,
    h.2.2.2.2.2.2.2.2.1, h.2.2.2.2.2.2.2.2.2⟩

theorem newlyOpened_congr (x y : State α) (l : List Coordinate)
    (h : ∀ n ∈ l, y.m_board.m_nodes n = x.m_board.m_nodes n) :
    newlyOpened y l = newlyOpened x l := by
  unfold newlyOpened
  apply List.filter_congr
  intro n hn
  rw [h n hn]

end AStar

namespace AStar

open AlgorithmBase

variable {α : Type}

/-- The effect of the loop of `nextStep` that expands `node`, from the state `x` to the
state `x'`: the loop visits the neighbors in order, all of them when it ends with false and
those up to the goal when it returns true; every visited neighbor that is not closed is
relaxed, the others keep their node; the frontier gains the newly opened neighbors. -/
theorem astar_loop_effect (A : Env α) (fuel : Nat) (node : Coordinate) :
    ∀ (nbs : List Coordinate) (x : State α) (b : Bool) (x' : State α), nbs.Nodup →
      node ∉ nbs → nextStepLoop A fuel node nbs x = some (b, x') →
      ∃ visited skipped, nbs = visited ++ skipped ∧
        (b = false → skipped = [] ∧ x'.solution = x.solution) ∧
        (b = true → ∃ g, visited.getLast? = some g ∧
          (x.m_board.m_nodes g).position = getGoal x ∧
          (x.m_board.m_nodes g).ext.closed = false ∧ (x.m_board.m_nodes g).opened = false) ∧
        SameConfig x x' ∧
        x'.m_openNodes = x.m_openNodes ++ newlyOpened x visited ∧
        x'.nodesOpened = x.nodesOpened + (newlyOpened x visited).length ∧
        ∀ n, (n ∈ visited → (x.m_board.m_nodes n).ext.closed = false →
            Relaxed A x node n (x'.m_board.m_nodes n)) ∧
          (n ∉ visited ∨ (x.m_board.m_nodes n).ext.closed = true →
            x'.m_board.m_nodes n = x.m_board.m_nodes n) := by
  intro nbs
  induction nbs with
  | nil =>
    intro x b x' _ _ h
    rw [nextStepLoop] at h
    cases h
    exact ⟨[], [], rfl, fun _ => ⟨rfl, rfl⟩, (fun h => by cases h), SameConfig.config_refl _,
      by simp [newlyOpened], by simp [newlyOpened],
      fun n => ⟨(fun h => by cases h), fun _ => rfl⟩⟩
  | cons n rest ih =>
    intro x b x' hnd hnode h
    obtain ⟨hn, hnd'⟩ := List.nodup_cons.1 hnd
    have hne : node ≠ n := fun e => hnode (e ▸ List.mem_cons_self _ _)
    have hnode' : node ∉ rest := fun e => hnode (List.mem_cons_of_mem _ e)
    rw [nextStepLoop] at h
    by_cases hc : (x.m_board.m_nodes n).ext.closed = true
    · rw [if_pos hc] at h
      obtain ⟨vis, skp, h1, h2, h3, h4, h5, h6, h7⟩ := ih x b x' hnd' hnode' h
      have hf : newlyOpened x (n :: vis) = newlyOpened x vis := by
        simp [newlyOpened, hc]
      refine ⟨n :: vis, skp, by rw [h1]; rfl, h2, ?_, h4, by rw [hf]; exact h5,
        by rw [hf]; exact h6, fun m => ⟨?_, ?_⟩⟩
      · intro hb
        obtain ⟨g, hg1, hg2⟩ := h3 hb
        refine ⟨g, ?_, hg2⟩
        cases vis with
        | nil => simp at hg1
        | cons a t => rw [List.getLast?_cons_cons]; exact hg1
      · intro hm hcm
        rcases List.mem_cons.1 hm with rfl | hm
        · rw [hc] at hcm
          cases hcm
        · exact (h7 m).1 hm hcm
      · intro hm
        by_cases hmn : m = n
        · subst hmn
          exact (h7 m).2 (Or.inr hc)
        · refine (h7 m).2 ?_
          rcases hm with hm | hm
          · exact Or.inl fun hv => hm (List.mem_cons_of_mem _ hv)
          · exact Or.inr hm
    · rw [if_neg hc] at h
      have hc' : (x.m_board.m_nodes n).ext.closed = false := by simpa using hc
      simp only at h
      have hU : ∀ m, m ≠ n → (updateNode A x n node).m_board.m_nodes m = x.m_board.m_nodes m :=
        fun m hm => astar_updateNode_of_ne A x n node m hm
      have hcfg := sameConfig_updateNode A x n node
      by_cases ho : ((updateNode A x n node).m_board.m_nodes n).opened = true
      · rw [if_pos ho] at h
        have ho' : (x.m_board.m_nodes n).opened = true := by
          rwa [astar_updateNode_opened] at ho
        obtain ⟨vis, skp, h1, h2, h3, h4, h5, h6, h7⟩ := ih _ b x' hnd' hnode' h
        have hvis : ∀ m ∈ vis, m ≠ n := fun m hm e =>
          hn (e ▸ (h1 ▸ List.mem_append_left _ hm))
        have hfc : newlyOpened (updateNode A x n node) vis = newlyOpened x vis :=
          newlyOpened_congr _ _ _ fun m hm => hU m (hvis m hm)
        have hf : newlyOpened x (n :: vis) = newlyOpened x vis := by
          simp [newlyOpened, ho']
        rw [hfc, (astar_updateNode_frame A x n node).2.2.2.2.2.2.1] at h5
        rw [hfc, (astar_updateNode_frame A x n node).2.1] at h6
        refine ⟨n :: vis, skp, by rw [h1]; rfl, ?_, ?_, hcfg.config_trans h4, by rw [hf]; exact h5,
          by rw [hf]; exact h6, fun m => ⟨?_, ?_⟩⟩
        · intro hb
          obtain ⟨e1, e2⟩ := h2 hb
          exact ⟨e1, e2.trans (astar_updateNode_frame A x n node).1⟩
        · intro hb
          obtain ⟨g, hg1, hg2, hg3, hg4⟩ := h3 hb
          have hgv : g ∈ vis := List.mem_of_mem_getLast? hg1
          have hgn := hU g (hvis g hgv)
          rw [hgn] at hg2 hg3 hg4
          have hgl0 : getGoal (updateNode A x n node) = getGoal x := hcfg.2.2.2.2.2.2
          rw [hgl0] at hg2
          refine ⟨g, ?_, hg2, hg3, hg4⟩
          cases vis with
          | nil => simp at hg1
          | cons a t => rw [List.getLast?_cons_cons]; exact hg1
        · intro hm hcm
          rcases List.mem_cons.1 hm with rfl | hm
          · rw [(h7 m).2 (Or.inl fun hv => hvis m hv rfl)]
            exact relaxed_updateNode A x node m ho'
          · have hmn := hvis m hm
            have := (h7 m).1 hm (by rw [hU m hmn]; exact hcm)
            exact this.congr (hU m hmn) (by rw [hU node hne]; exact ⟨rfl, rfl⟩) hcfg.2.1
              hcfg.2.2.2.2.2.2
        · intro hm
          have hmn : m ≠ n := by
            rcases hm with hm | hm
            · exact fun e => hm (e ▸ List.mem_cons_self _ _)
            · exact fun e => by rw [e, hc'] at hm; cases hm
          rw [← hU m hmn]
          refine (h7 m).2 ?_
          rcases hm with hm | hm
          · exact Or.inl fun hv => hm (List.mem_cons_of_mem _ hv)
          · exact Or.inr (by rw [hU m hmn]; exact hm)
      · rw [if_neg ho] at h
        have ho1 : ((updateNode A x n node).m_board.m_nodes n).opened = false := by
          simpa using ho
        have ho' : (x.m_board.m_nodes n).opened = false := by
          rwa [astar_updateNode_opened] at ho1
        simp only [astar_openNode_eq, checkGoal_eq] at h
        have hP : ∀ m, m ≠ n →
            (pushOpen (updateNode A x n node) n (some node)).m_board.m_nodes m =
              x.m_board.m_nodes m := fun m hm => by
          rw [pushOpen_m_nodes_of_ne _ _ _ _ hm, hU m hm]
        have hcfgP : SameConfig x (pushOpen (updateNode A x n node) n (some node)) := hcfg
        have hpos : ((pushOpen (updateNode A x n node) n (some node)).m_board.m_nodes
            n).position = (x.m_board.m_nodes n).position :=
          (relaxed_pushOpen A x node n ho').1
        have hgl : getGoal (pushOpen (updateNode A x n node) n (some node)) = getGoal x :=
          hcfg.2.2.2.2.2.2
        have hfn : ∀ vis, newlyOpened x (n :: vis) = n :: newlyOpened x vis := by
          intro vis
          simp [newlyOpened, hc', ho']
        by_cases hg : ((pushOpen (updateNode A x n node) n (some node)).m_board.m_nodes
            n).position = getGoal (pushOpen (updateNode A x n node) n (some node))
        · rw [if_pos hg] at h
          cases hs : storeSolution fuel (pushOpen (updateNode A x n node) n (some node)) with
          | none => rw [hs] at h; cases h
          | some r =>
            rw [hs] at h
            cases h
            have hr := storeSolution_frame _ _ _ hs
            have hrn : ∀ m, x'.m_board.m_nodes m =
                (pushOpen (updateNode A x n node) n (some node)).m_board.m_nodes m := by
              intro m; rw [hr]
            refine ⟨[n], rest, rfl, (fun hb => by cases hb), fun _ => ⟨n, rfl, ?_, hc', ho'⟩,
              ?_, ?_, ?_, fun m => ⟨?_, ?_⟩⟩
            · rw [← hpos, hg, hgl]
            · rw [hr]; exact hcfgP
            · rw [hr, hfn]
              simp [newlyOpened, (astar_updateNode_frame A x n node).2.2.2.2.2.2.1]
            · rw [hr, hfn]
              simp only [newlyOpened, List.filter_nil, List.length_singleton]
              show (updateNode A x n node).nodesOpened + 1 = _
              rw [(astar_updateNode_frame A x n node).2.1]
            · intro hm _
              rw [List.mem_singleton] at hm
              subst hm
              rw [hrn]
              exact relaxed_pushOpen A x node m ho'
            · intro hm
              have hmn : m ≠ n := by
                rcases hm with hm | hm
                · exact fun e => hm (e ▸ List.mem_singleton_self _)
                · exact fun e => by rw [e, hc'] at hm; cases hm
              rw [hrn, hP m hmn]
        · rw [if_neg hg] at h
          obtain ⟨vis, skp, h1, h2, h3, h4, h5, h6, h7⟩ := ih _ b x' hnd' hnode' h
          have hvis : ∀ m ∈ vis, m ≠ n := fun m hm e =>
            hn (e ▸ (h1 ▸ List.mem_append_left _ hm))
          have hfc : newlyOpened (pushOpen (updateNode A x n node) n (some node)) vis =
              newlyOpened x vis :=
            newlyOpened_congr _ _ _ fun m hm => hP m (hvis m hm)
          rw [hfc] at h5 h6
          refine ⟨n :: vis, skp, by rw [h1]; rfl, ?_, ?_, hcfgP.config_trans h4, ?_, ?_,
            fun m => ⟨?_, ?_⟩⟩
          · intro hb
            obtain ⟨e1, e2⟩ := h2 hb
            exact ⟨e1, e2.trans (astar_updateNode_frame A x n node).1⟩
          · intro hb
            obtain ⟨g, hg1, hg2, hg3, hg4⟩ := h3 hb
            have hgv : g ∈ vis := List.mem_of_mem_getLast? hg1
            rw [hP g (hvis g hgv)] at hg2 hg3 hg4
            rw [hgl] at hg2
            refine ⟨g, ?_, hg2, hg3, hg4⟩
            cases vis with
            | nil => simp at hg1
            | cons a t => rw [List.getLast?_cons_cons]; exact hg1
          · rw [h5, hfn]
            simp [(astar_updateNode_frame A x n node).2.2.2.2.2.2.1]
          · rw [h6, hfn]
            show (updateNode A x n node).nodesOpened + 1 + _ = _
            rw [(astar_updateNode_frame A x n node).2.1, List.length_cons]
            omega
          · intro hm hcm
            rcases List.mem_cons.1 hm with rfl | hm
            · rw [(h7 m).2 (Or.inl fun hv => hvis m hv rfl)]
              exact relaxed_pushOpen A x node m ho'
            · have hmn := hvis m hm
              have := (h7 m).1 hm (by rw [hP m hmn]; exact hcm)
              exact this.congr (hP m hmn) (by rw [hP node hne]; exact ⟨rfl, rfl⟩) hcfgP.2.1
                hcfgP.2.2.2.2.2.2
          · intro hm
            have hmn : m ≠ n := by
              rcases hm with hm | hm
              · exact fun e => hm (e ▸ List.mem_cons_self _ _)
              · exact fun e => by rw [e, hc'] at hm; cases hm
            rw [← hP m hmn]
            refine (h7 m).2 ?_
            rcases hm with hm | hm
            · exact Or.inl fun hv => hm (List.mem_cons_of_mem _ hv)
            · exact Or.inr (by rw [hP m hmn]; exact hm)

end AStar

namespace AStar

open AlgorithmBase

variable {α : Type}

/-- The effect of a call of `nextStep` on a non-empty frontier: the node `node` at the back
of the sorted frontier is closed; unless it is the goal, its neighbors are visited in order,
all of them when the call returns false and those up to the goal when it returns true. -/
theorem astar_nextStep_effect (A : Env α) (fuel : Nat) (s : State α) (hw : s.m_board.WellFormed)
    (hv : ∀ c ∈ s.m_openNodes, s.m_board.isValidNode c = true) (hne : s.m_openNodes ≠ [])
    (node : Coordinate) (rest : List Coordinate)
    (hl : A.sort (compare A s.m_board) s.m_openNodes = rest ++ [node])
    (hmem : node ∈ s.m_openNodes)
    (b : Bool) (s' : State α) (h : nextStep A fuel s = some (b, s')) :
    ∃ visited skipped,
      s.m_board.getNeighbors node [] s.m_diagonals s.m_cutCorners = visited ++ skipped ∧
      (b = false → node ≠ s.m_board.m_goal ∧ skipped = [] ∧ s'.solution = s.solution) ∧
      (b = true → (node = s.m_board.m_goal ∧ visited = []) ∨
        (node ≠ s.m_board.m_goal ∧ visited.getLast? = some s.m_board.m_goal ∧
          (s.m_board.m_nodes s.m_board.m_goal).ext.closed = false ∧
          (s.m_board.m_nodes s.m_board.m_goal).opened = false)) ∧
      SameConfig (closeWith s node rest) s' ∧
      s'.m_openNodes = rest ++ newlyOpened s visited ∧
      s'.nodesOpened = s.nodesOpened + (newlyOpened s visited).length ∧
      s'.m_board.m_nodes node =
        { s.m_board.m_nodes node with
          ext := { (s.m_board.m_nodes node).ext with closed := true } } ∧
      ∀ n, (n ∈ visited → (s.m_board.m_nodes n).ext.closed = false →
          Relaxed A s node n (s'.m_board.m_nodes n)) ∧
        (n ≠ node → n ∉ visited ∨ (s.m_board.m_nodes n).ext.closed = true →
          s'.m_board.m_nodes n = s.m_board.m_nodes n) := by
  have hvn := hv node hmem
  have hpos : (s.m_board.m_nodes node).position = node := hw node hvn
  rw [astar_nextStep_concat A fuel s node rest hl hne, hpos] at h
  have hcn : (closeWith s node rest).m_board.m_nodes node =
      { s.m_board.m_nodes node with
        ext := { (s.m_board.m_nodes node).ext with closed := true } } := by
    simp [closeWith]
  have hcm : ∀ m, m ≠ node →
      (closeWith s node rest).m_board.m_nodes m = s.m_board.m_nodes m := fun m hm => by
    simp only [closeWith]
    exact Board.write_m_nodes_of_ne _ _ _ _ hm
  by_cases hg : node = s.m_board.m_goal
  · rw [if_pos hg] at h
    cases hs : storeSolution fuel (closeWith s node rest) with
    | none => rw [hs] at h; cases h
    | some r =>
      rw [hs] at h
      cases h
      have hr := storeSolution_frame _ _ _ hs
      refine ⟨[], _, rfl, (fun hb => by cases hb), fun _ => Or.inl ⟨hg, rfl⟩, ?_, ?_, ?_, ?_,
        fun n => ⟨(fun hn => by cases hn), fun hn _ => ?_⟩⟩
      · rw [hr]; exact SameConfig.config_refl _
      · rw [hr]; simp [newlyOpened, closeWith]
      · rw [hr]; simp [newlyOpened, closeWith]
      · rw [hr]; exact hcn
      · rw [hr]; exact hcm n hn
  · rw [if_neg hg] at h
    have hnd := Board.getNeighbors_nodup s.m_board node s.m_diagonals s.m_cutCorners
    have hns := Board.not_mem_getNeighbors_self s.m_board hw node hvn s.m_diagonals
      s.m_cutCorners
    obtain ⟨vis, skp, h1, h2, h3, h4, h5, h6, h7⟩ :=
      astar_loop_effect A fuel node _ _ b s' hnd hns h
    have hvis : ∀ m ∈ vis, m ≠ node := fun m hm e => by
      subst e
      exact hns (by rw [h1]; exact List.mem_append_left _ hm)
    have hfc : newlyOpened (closeWith s node rest) vis = newlyOpened s vis :=
      newlyOpened_congr _ _ _ fun m hm => hcm m (hvis m hm)
    rw [hfc] at h5 h6
    refine ⟨vis, skp, h1, fun hb => ⟨hg, (h2 hb).1, (h2 hb).2⟩, ?_, h4, h5, h6, ?_,
      fun n => ⟨?_, ?_⟩⟩
    · intro hb
      obtain ⟨g, hg1, hg2, hg3, hg4⟩ := h3 hb
      have hgv : g ∈ vis := List.mem_of_mem_getLast? hg1
      have hgn := hvis g hgv
      rw [hcm g hgn] at hg2 hg3 hg4
      have hgvalid : s.m_board.isValidNode g = true :=
        Board.isValidNode_of_mem_getNeighbors _ _ _ _ _ (h1 ▸ List.mem_append_left _ hgv)
      rw [hw g hgvalid] at hg2
      have hgg : g = s.m_board.m_goal := hg2
      subst hgg
      exact Or.inr ⟨hg, hg1, hg3, hg4⟩
    · rw [(h7 node).2 (Or.inl fun hm => hvis node hm rfl)]
      exact hcn
    · intro hn hc
      have hnn := hvis n hn
      have := (h7 n).1 hn (by rw [hcm n hnn]; exact hc)
      refine this.congr (hcm n hnn) ?_ rfl rfl
      rw [hcn]
      exact ⟨rfl, rfl⟩
    · intro hn hc
      rw [← hcm n hn]
      refine (h7 n).2 ?_
      rcases hc with hc | hc
      · exact Or.inl hc
      · exact Or.inr (by rw [hcm n hn]; exact hc)

/-- The comparator of `sortNodes` in terms of the values of `h + g` and of `h`, the
comparisons of `double` values being those of the numbers they hold. -/
theorem compare_iff_val {A : Env α} {v : α → ℝ}
    (hlt : ∀ a b, A.lt a b = true ↔ v a < v b) (heq : ∀ a b, A.eq a b = true ↔ v a = v b)
    (b : Board (Ext α)) (x y : Coordinate) :
    compare A b x y = true ↔
      (v (A.add (b.m_nodes y).ext.h (b.m_nodes y).ext.g) <
          v (A.add (b.m_nodes x).ext.h (b.m_nodes x).ext.g) ∨
        (v (A.add (b.m_nodes y).ext.h (b.m_nodes y).ext.g) =
            v (A.add (b.m_nodes x).ext.h (b.m_nodes x).ext.g) ∧
          v (b.m_nodes y).ext.h < v (b.m_nodes x).ext.h)) := by
  unfold compare
  simp only
  by_cases he : A.eq (A.add (b.m_nodes x).ext.h (b.m_nodes x).ext.g)
      (A.add (b.m_nodes y).ext.h (b.m_nodes y).ext.g) = true
  · rw [if_pos he, hlt]
    have := (heq _ _).1 he
    constructor
    · intro h
      exact Or.inr ⟨this.symm, h⟩
    · rintro (h | h)
      · rw [this] at h
        exact absurd h (lt_irrefl _)
      · exact h.2
  · rw [if_neg he, hlt]
    have hne : ¬ v (A.add (b.m_nodes x).ext.h (b.m_nodes x).ext.g) =
        v (A.add (b.m_nodes y).ext.h (b.m_nodes y).ext.g) := fun h => he ((heq _ _).2 h)
    constructor
    · intro h
      exact Or.inl h
    · rintro (h | h)
      · exact h
      · exact absurd h.1.symm hne

/-- The comparator of `sortNodes` is a strict weak ordering when the comparisons of `double`
values are those of the numbers they hold. -/
theorem compare_strictWeak_val {A : Env α} {v : α → ℝ}
    (hlt : ∀ a b, A.lt a b = true ↔ v a < v b) (heq : ∀ a b, A.eq a b = true ↔ v a = v b)
    (b : Board (Ext α)) : StrictWeakOrdering (compare A b) := by
  refine ⟨?_, ?_, ?_⟩
  · intro a
    cases h : compare A b a a with
    | false => rfl
    | true =>
      rcases (compare_iff_val hlt heq b a a).1 h with h1 | ⟨_, h1⟩ <;>
        exact absurd h1 (lt_irrefl _)
  · intro x y z hxy hyz
    rw [compare_iff_val hlt heq] at hxy hyz ⊢
    rcases hxy with h1 | ⟨h1, h2⟩ <;> rcases hyz with g1 | ⟨g1, g2⟩
    · exact Or.inl (lt_trans g1 h1)
    · exact Or.inl (g1 ▸ h1)
    · exact Or.inl (h1 ▸ g1)
    · exact Or.inr ⟨g1.trans h1, lt_trans g2 h2⟩
  · intro x y z hxy
    rw [compare_iff_val hlt heq] at hxy
    rw [compare_iff_val hlt heq, compare_iff_val hlt heq]
    rcases lt_trichotomy (v (A.add (b.m_nodes z).ext.h (b.m_nodes z).ext.g))
        (v (A.add (b.m_nodes x).ext.h (b.m_nodes x).ext.g)) with hzx | hzx | hzx
    · exact Or.inl (Or.inl hzx)
    · rcases hxy with h1 | ⟨h1, h2⟩
      · exact Or.inr (Or.inl (hzx ▸ h1))
      · rcases lt_or_le (v (b.m_nodes z).ext.h) (v (b.m_nodes x).ext.h) with hh | hh
        · exact Or.inl (Or.inr ⟨hzx, hh⟩)
        · exact Or.inr (Or.inr ⟨h1.trans hzx.symm, lt_of_lt_of_le h2 hh⟩)
    · rcases hxy with h1 | ⟨h1, _⟩
      · exact Or.inr (Or.inl (lt_trans h1 hzx))
      · exact Or.inr (Or.inl (h1 ▸ hzx))

/-- The node at the back of the sorted frontier has the least `h + g` of the frontier and,
among the nodes with that `h + g`, the least `h`. -/
theorem sorted_last_least {A : Env α} {v : α → ℝ}
    (hlt : ∀ a b, A.lt a b = true ↔ v a < v b) (heq : ∀ a b, A.eq a b = true ↔ v a = v b)
    (hA : A.SortPermutes) (hS : A.SortSorts) (b : Board (Ext α))
    (l rest : List Coordinate) (node : Coordinate)
    (hl : A.sort (compare A b) l = rest ++ [node]) (c : Coordinate) (hc : c ∈ l) :
    v (A.add (b.m_nodes node).ext.h (b.m_nodes node).ext.g) ≤
        v (A.add (b.m_nodes c).ext.h (b.m_nodes c).ext.g) ∧
      (v (A.add (b.m_nodes node).ext.h (b.m_nodes node).ext.g) =
          v (A.add (b.m_nodes c).ext.h (b.m_nodes c).ext.g) →
        v (b.m_nodes node).ext.h ≤ v (b.m_nodes c).ext.h) := by
  have hp := hS (compare A b) l (compare_strictWeak_val hlt heq b)
  have hperm := hA (compare A b) l
  rw [hl] at hp hperm
  have hc' : c ∈ rest ++ [node] := hperm.symm.subset hc
  rcases List.mem_append.1 hc' with hm | hm
  · rw [List.pairwise_append] at hp
    have hcmp : compare A b node c = false := hp.2.2 c hm node (List.mem_singleton_self _)
    have hn := (compare_iff_val hlt heq b node c).not.1 (by rw [hcmp]; simp)
    rw [not_or, not_and] at hn
    exact ⟨not_lt.1 hn.1, fun e => not_lt.1 (hn.2 e.symm)⟩
  · rw [List.mem_singleton] at hm
    subst hm
    exact ⟨le_refl _, fun _ => le_refl _⟩

end AStar


namespace BreadthFirstSearch

open AlgorithmBase

/-- Dropping the record from `initL` gives `init`. -/
theorem initL_erase (s : State) (heuristic : Heuristic) (d cc : Bool) :
    (initL s heuristic d cc).map Prod.fst = init s heuristic d cc := by
  unfold initL init
  simp only
  cases (Board.init NodeBase.init (AlgorithmBase.init s heuristic d cc).m_board).getStartNode <;>
    rfl

/-- Dropping the record from the loop with the record gives the loop of `nextStep`. -/
theorem nextStepLoopL_erase (fuel : Nat) (node : Coordinate) :
    ∀ (nbs : List Coordinate) (s : State × Log),
      (nextStepLoopL fuel node nbs s).map (fun r => (r.1, r.2.1)) =
        nextStepLoop fuel node nbs s.1 := by
  intro nbs
  induction nbs with
  | nil => intro s; rfl
  | cons n rest ih =>
    intro s
    rw [nextStepLoopL, nextStepLoop]
    by_cases ho : (s.1.m_board.m_nodes n).opened = true
    · rw [if_pos ho, if_pos ho]
      exact ih s
    · rw [if_neg ho, if_neg ho]
      simp only [openNodeL]
      cases hc : checkGoal fuel (openNode s.1 n (some node))
          ((openNode s.1 n (some node)).m_board.m_nodes n).position with
      | none => rfl
      | some r =>
        obtain ⟨b, s1⟩ := r
        cases b
        · exact ih _
        · rfl

/-- Dropping the record from `nextStepL` gives `nextStep`. -/
theorem nextStepL_erase (fuel : Nat) (s : State × Log) :
    (nextStepL fuel s).map (fun r => (r.1, r.2.1)) = nextStep fuel s.1 := by
  unfold nextStepL nextStep
  by_cases h0 : s.1.m_openNodes.length = 0
  · rw [if_pos h0, if_pos h0]
    rfl
  · rw [if_neg h0, if_neg h0]
    unfold closeNodeL
    cases hcl : closeNode s.1 with
    | none => rfl
    | some r =>
      obtain ⟨node, s1⟩ := r
      simp only
      cases hc : checkGoal fuel s1 (s1.m_board.m_nodes node).position with
      | none => rfl
      | some r =>
        obtain ⟨b, s2⟩ := r
        cases b
        · exact nextStepLoopL_erase fuel node _ _
        · rfl

/-- What `checkGoal` returns has the frontier it was given. -/
theorem checkGoal_m_openNodes {E : Type} (fuel : Nat) (s : Algorithm E) (c : Coordinate)
    (b : Bool) (s' : Algorithm E) (h : checkGoal fuel s c = some (b, s')) :
    s'.m_openNodes = s.m_openNodes ∧ s'.m_board = s.m_board ∧
      s'.nodesOpened = s.nodesOpened ∧ s'.nodesClosed = s.nodesClosed := by
  rw [checkGoal_eq] at h
  split at h
  · cases hs : storeSolution fuel s with
    | none => rw [hs] at h; cases h
    | some r =>
      rw [hs] at h
      cases h
      have := storeSolution_frame _ _ _ hs
      rw [this]
      exact ⟨rfl, rfl, rfl, rfl⟩
  · cases h
    exact ⟨rfl, rfl, rfl, rfl⟩

theorem Fifo.loop (fuel : Nat) (node : Coordinate) (c0 : Nat) :
    ∀ (nbs : List Coordinate) (s : State × Log) (b : Bool) (s' : State × Log),
      Fifo c0 s → nextStepLoopL fuel node nbs s = some (b, s') → Fifo c0 s' := by
  intro nbs
  induction nbs with
  | nil =>
    intro s b s' hs h
    rw [nextStepLoopL] at h
    cases h
    exact hs
  | cons n rest ih =>
    intro s b s' hs h
    rw [nextStepLoopL] at h
    by_cases ho : (s.1.m_board.m_nodes n).opened = true
    · rw [if_pos ho] at h
      exact ih s b s' hs h
    · rw [if_neg ho] at h
      simp only [openNodeL] at h
      have hpush : Fifo c0 (openNode s.1 n (some node),
          { s.2 with opened := s.2.opened ++ [n] }) := by
        obtain ⟨h1, h2, h3⟩ := hs
        refine ⟨?_, ?_, h3⟩
        · show s.2.opened ++ [n] = s.2.closed ++ (s.1.m_openNodes ++ [n])
          rw [h1, List.append_assoc]
        · show (s.2.opened ++ [n]).length = s.1.nodesOpened + 1
          rw [List.length_append, h2]
          rfl
      cases hc : checkGoal fuel (openNode s.1 n (some node))
          ((openNode s.1 n (some node)).m_board.m_nodes n).position with
      | none => rw [hc] at h; cases h
      | some r =>
        obtain ⟨b1, s1⟩ := r
        rw [hc] at h
        obtain ⟨e1, _, e3, e4⟩ := checkGoal_m_openNodes _ _ _ _ _ hc
        have hs1 : Fifo c0 (s1, { s.2 with opened := s.2.opened ++ [n] }) := by
          obtain ⟨h1, h2, h3⟩ := hpush
          exact ⟨by rw [e1]; exact h1, by rw [e3]; exact h2, by rw [e4]; exact h3⟩
        cases b1
        · exact ih _ b s' hs1 h
        · cases h
          exact hs1

theorem Fifo.fifo_step (fuel : Nat) (c0 : Nat) (s : State × Log) (b : Bool) (s' : State × Log)
    (hs : Fifo c0 s) (h : nextStepL fuel s = some (b, s')) : Fifo c0 s' := by
  unfold nextStepL at h
  by_cases h0 : s.1.m_openNodes.length = 0
  · rw [if_pos h0] at h
    cases h
    exact hs
  · rw [if_neg h0] at h
    unfold closeNodeL at h
    cases hf : s.1.m_openNodes with
    | nil => simp [hf] at h0
    | cons node rest =>
      have hcl : closeNode s.1 =
          some (node, { s.1 with nodesClosed := s.1.nodesClosed + 1, m_openNodes := rest }) := by
        simp [closeNode, hf]
      rw [hcl] at h
      simp only at h
      have hclose : Fifo c0 ({ s.1 with nodesClosed := s.1.nodesClosed + 1, m_openNodes := rest },
          { s.2 with closed := s.2.closed ++ [node] }) := by
        obtain ⟨h1, h2, h3⟩ := hs
        refine ⟨?_, h2, ?_⟩
        · show s.2.opened = (s.2.closed ++ [node]) ++ rest
          rw [h1, hf]
          simp
        · show (s.2.closed ++ [node]).length + c0 = s.1.nodesClosed + 1
          rw [List.length_append, ← h3]
          simp
          omega
      cases hc : checkGoal fuel
          { s.1 with nodesClosed := s.1.nodesClosed + 1, m_openNodes := rest }
          (({ s.1 with nodesClosed := s.1.nodesClosed + 1, m_openNodes := rest } :
            State).m_board.m_nodes node).position with
      | none => rw [hc] at h; cases h
      | some r =>
        obtain ⟨b1, s1⟩ := r
        rw [hc] at h
        obtain ⟨e1, _, e3, e4⟩ := checkGoal_m_openNodes _ _ _ _ _ hc
        have hs1 : Fifo c0 (s1, { s.2 with closed := s.2.closed ++ [node] }) := by
          obtain ⟨h1, h2, h3⟩ := hclose
          exact ⟨by rw [e1]; exact h1, by rw [e3]; exact h2, by rw [e4]; exact h3⟩
        cases b1
        · exact Fifo.loop fuel node c0 _ _ b s' hs1 h
        · cases h
          exact hs1

theorem Fifo.run (fuel : Nat) (c0 : Nat) (a b : State × Log) (ha : Fifo c0 a)
    (h : RunL fuel a b) : Fifo c0 b := by
  induction h with
  | refl => exact ha
  | tail _ hstep ih =>
    obtain ⟨r, hr⟩ := hstep
    exact Fifo.fifo_step fuel c0 _ r _ ih hr

theorem Fifo.init (s0 : State) (heuristic : Heuristic) (d cc : Bool) (a : State × Log)
    (h : initL s0 heuristic d cc = some a) : Fifo s0.nodesClosed a := by
  unfold initL at h
  simp only at h
  split at h
  · cases h
  · cases h
    exact ⟨rfl, rfl, by simp [openNodeL, openNode, AlgorithmBase.openNode, AlgorithmBase.init]⟩

end BreadthFirstSearch

namespace AlgorithmBase

variable {E : Type}

theorem pushAll_frame (parent : Coordinate) :
    ∀ (l : List Coordinate) (s : Algorithm E),
      (pushAll s parent l).m_openNodes = s.m_openNodes ++ l ∧
      (pushAll s parent l).nodesOpened = s.nodesOpened + l.length ∧
      (pushAll s parent l).solution = s.solution ∧
      SameConfig s (pushAll s parent l) := by
  intro l
  induction l with
  | nil => intro s; exact ⟨by simp [pushAll], rfl, rfl, SameConfig.config_refl s⟩
  | cons n rest ih =>
    intro s
    obtain ⟨h1, h2, h3, h4⟩ := ih (pushOpen s n (some parent))
    refine ⟨?_, ?_, ?_, ?_⟩
    · rw [pushAll, h1]
      simp
    · rw [pushAll, h2]
      simp only [List.length_cons]
      show s.nodesOpened + 1 + rest.length = _
      omega
    · rw [pushAll, h3]
      rfl
    · rw [pushAll]
      exact SameConfig.config_trans (x := s) (y := pushOpen s n (some parent))
        ⟨rfl, rfl, rfl, rfl, rfl, rfl, rfl⟩ h4

theorem pushAll_m_nodes_of_not_mem (parent : Coordinate) :
    ∀ (l : List Coordinate) (s : Algorithm E) (c : Coordinate), c ∉ l →
      (pushAll s parent l).m_board.m_nodes c = s.m_board.m_nodes c := by
  intro l
  induction l with
  | nil => intro s c _; rfl
  | cons n rest ih =>
    intro s c hc
    rw [pushAll, ih _ c (fun h => hc (List.mem_cons_of_mem _ h))]
    exact pushOpen_m_nodes_of_ne _ _ _ _ (fun e => hc (e ▸ List.mem_cons_self _ _))

theorem pushAll_m_nodes_of_mem (parent : Coordinate) :
    ∀ (l : List Coordinate) (s : Algorithm E) (c : Coordinate), c ∈ l →
      (pushAll s parent l).m_board.m_nodes c =
        { s.m_board.m_nodes c with parent := some parent, opened := true } := by
  intro l
  induction l with
  | nil => intro s c hc; cases hc
  | cons n rest ih =>
    intro s c hc
    rw [pushAll]
    by_cases hr : c ∈ rest
    · rw [ih _ c hr]
      by_cases hcn : c = n
      · subst hcn
        rw [pushOpen_m_nodes_same]
      · rw [pushOpen_m_nodes_of_ne _ _ _ _ hcn]
    · have hcn : c = n := by
        rcases List.mem_cons.1 hc with h | h
        · exact h
        · exact absurd h hr
      subst hcn
      rw [pushAll_m_nodes_of_not_mem parent rest _ c hr, pushOpen_m_nodes_same]

theorem opensUpToGoal_congr (b1 b2 : Board E) (hg : b2.m_goal = b1.m_goal) :
    ∀ l : List Coordinate, (∀ c ∈ l, b2.m_nodes c = b1.m_nodes c) →
      opensUpToGoal b2 l = opensUpToGoal b1 l := by
  intro l
  induction l with
  | nil => intro _; rfl
  | cons n rest ih =>
    intro h
    rw [opensUpToGoal, opensUpToGoal, h n (List.mem_cons_self _ _), hg,
      ih (fun c hc => h c (List.mem_cons_of_mem _ hc))]

/-- The neighbors opened are neighbors that were not opened, in the order of the list; all
of them when the goal is not opened, and otherwise those up to the goal. -/
theorem opensUpToGoal_spec (b : Board E) :
    ∀ l : List Coordinate,
      ∃ post, l.filter (fun n => !(b.m_nodes n).opened) = (opensUpToGoal b l).1 ++ post ∧
        ((opensUpToGoal b l).2 = false → post = [] ∧
          ∀ n ∈ (opensUpToGoal b l).1, (b.m_nodes n).position ≠ b.m_goal) ∧
        ((opensUpToGoal b l).2 = true → ∃ g, (opensUpToGoal b l).1.getLast? = some g ∧
          (b.m_nodes g).position = b.m_goal ∧
          ∀ n ∈ (opensUpToGoal b l).1.dropLast, (b.m_nodes n).position ≠ b.m_goal) := by
  intro l
  induction l with
  | nil => exact ⟨[], rfl, fun _ => ⟨rfl, fun n hn => by cases hn⟩, fun h => by cases h⟩
  | cons n rest ih =>
    obtain ⟨post, h1, h2, h3⟩ := ih
    rw [opensUpToGoal]
    by_cases ho : (b.m_nodes n).opened = true
    · rw [if_pos ho]
      refine ⟨post, ?_, h2, h3⟩
      rw [List.filter_cons_of_neg (by simp [ho])]
      exact h1
    · rw [if_neg ho]
      have hf : (n :: rest).filter (fun n => !(b.m_nodes n).opened) =
          n :: rest.filter (fun n => !(b.m_nodes n).opened) :=
        List.filter_cons_of_pos (by simpa using ho)
      by_cases hg : (b.m_nodes n).position = b.m_goal
      · rw [if_pos hg]
        refine ⟨rest.filter (fun n => !(b.m_nodes n).opened), by rw [hf]; rfl,
          (fun h => by cases h), fun _ => ⟨n, rfl, hg, fun m hm => by cases hm⟩⟩
      · rw [if_neg hg]
        refine ⟨post, by rw [hf, h1]; rfl, fun h => ?_, fun h => ?_⟩
        · obtain ⟨e1, e2⟩ := h2 h
          refine ⟨e1, fun m hm => ?_⟩
          rcases List.mem_cons.1 hm with rfl | hm
          · exact hg
          · exact e2 m hm
        · obtain ⟨g, e1, e2, e3⟩ := h3 h
          refine ⟨g, ?_, e2, fun m hm => ?_⟩
          · show (n :: (opensUpToGoal b rest).1).getLast? = some g
            cases hl : (opensUpToGoal b rest).1 with
            | nil => rw [hl] at e1; cases e1
            | cons a t => rw [List.getLast?_cons_cons, ← hl]; exact e1
          · have hm' : m ∈ (n :: (opensUpToGoal b rest).1).dropLast := hm
            cases hl : (opensUpToGoal b rest).1 with
            | nil => rw [hl] at e1; cases e1
            | cons a t =>
              rw [hl, List.dropLast_cons₂] at hm'
              rcases List.mem_cons.1 hm' with rfl | hm'
              · exact hg
              · exact e3 m (hl ▸ hm')

end AlgorithmBase

namespace DepthFirstSearch

open AlgorithmBase

/-- The loop of `nextStep` opens the neighbors `opensUpToGoal` lists: it ends in
`storeSolution` when the goal is among them and returns false otherwise, `changes` having
been set if a neighbor was opened. -/
theorem dfs_loop_eq (fuel : Nat) (node : Coordinate) :
    ∀ (nbs : List Coordinate) (ch : Bool) (x : State), nbs.Nodup →
      nextStepLoop fuel node nbs ch x =
        if (opensUpToGoal x.m_board nbs).2 = true then
          (storeSolution fuel (pushAll x node (opensUpToGoal x.m_board nbs).1)).map
            (fun r => (true, true, r))
        else
          some (false, ch || !(opensUpToGoal x.m_board nbs).1.isEmpty,
            pushAll x node (opensUpToGoal x.m_board nbs).1) := by
  intro nbs
  induction nbs with
  | nil =>
    intro ch x _
    simp [nextStepLoop, opensUpToGoal, pushAll]
  | cons n rest ih =>
    intro ch x hnd
    obtain ⟨hn, hnd'⟩ := List.nodup_cons.1 hnd
    rw [nextStepLoop, opensUpToGoal]
    by_cases ho : (x.m_board.m_nodes n).opened = true
    · rw [if_pos ho, if_pos ho]
      exact ih ch x hnd'
    · rw [if_neg ho, if_neg ho]
      simp only [dfs_openNode_eq, checkGoal_eq, pushOpen_m_nodes_same, pushOpen_getGoal]
      have hcongr : opensUpToGoal (pushOpen x n (some node)).m_board rest =
          opensUpToGoal x.m_board rest :=
        opensUpToGoal_congr x.m_board (pushOpen x n (some node)).m_board rfl rest fun c hc =>
          pushOpen_m_nodes_of_ne _ _ _ _ (fun e => hn (by rw [← e]; exact hc))
      by_cases hg : (x.m_board.m_nodes n).position = x.m_board.m_goal
      · have hg' : (x.m_board.m_nodes n).position = getGoal x := hg
        rw [if_pos hg, if_pos hg']
        simp only [if_true, pushAll]
        cases storeSolution fuel (pushOpen x n (some node)) <;> rfl
      · have hg' : ¬ (x.m_board.m_nodes n).position = getGoal x := hg
        rw [if_neg hg, if_neg hg']
        simp only
        rw [ih true _ hnd', hcongr]
        simp [pushAll]

end DepthFirstSearch

/-! ## Theorems: the parent links form no cycle -/

namespace AlgorithmBase

variable {E : Type}

/-- Parent links that decrease a rank, and lead from opened nodes to opened nodes, with the
start as only opened node without parent, form no cycle. -/
theorem acyclic_of_rank (b : Board E) (rk : Coordinate → Nat)
    (h1 : ∀ c p, (b.m_nodes c).parent = some p → rk p < rk c)
    (h2 : ∀ c p, (b.m_nodes c).opened = true → (b.m_nodes c).parent = some p →
      (b.m_nodes p).opened = true)
    (h3 : ∀ c, (b.m_nodes c).opened = true → (b.m_nodes c).parent = none → c = b.m_start) :
    AcyclicParents b := by
  constructor
  · have key : ∀ n c, rk c ≤ n → ∃ k r, ancestor b k c = some r ∧
        (b.m_nodes r).parent = none ∧ ((b.m_nodes c).opened = true → r = b.m_start) := by
      intro n
      induction n with
      | zero =>
        intro c hc
        cases hp : (b.m_nodes c).parent with
        | none => exact ⟨0, c, rfl, hp, fun ho => h3 c ho hp⟩
        | some p =>
          have := h1 c p hp
          omega
      | succ n ih =>
        intro c hc
        cases hp : (b.m_nodes c).parent with
        | none => exact ⟨0, c, rfl, hp, fun ho => h3 c ho hp⟩
        | some p =>
          have hlt := h1 c p hp
          obtain ⟨k, r, e1, e2, e3⟩ := ih p (by omega)
          refine ⟨k + 1, r, ?_, e2, fun ho => e3 (h2 c p ho hp)⟩
          rw [ancestor, hp]
          exact e1
    exact fun c => key (rk c) c (le_refl _)
  · have key : ∀ k c r, 0 < k → ancestor b k c = some r → rk r < rk c := by
      intro k
      induction k with
      | zero => intro c r hk; omega
      | succ k ih =>
        intro c r _ h
        rw [ancestor] at h
        cases hp : (b.m_nodes c).parent with
        | none => rw [hp] at h; cases h
        | some p =>
          rw [hp] at h
          have hlt := h1 c p hp
          cases k with
          | zero =>
            have h' : some p = some r := h
            cases h'
            exact hlt
          | succ k =>
            have := ih p r (by omega) h
            omega
    intro c k hk h
    have := key k c c hk h
    omega

/-- The invariant of the parent links gives that they form no cycle. -/
theorem Links.acyclic {b0 : Board E} {d cc : Bool} {s : Algorithm E} (h : Links b0 d cc s) :
    AcyclicParents s.m_board := by
  obtain ⟨⟨_, rk, hk⟩, hu⟩ := h
  have hop : ∀ c p, (s.m_board.m_nodes c).parent = some p →
      (s.m_board.m_nodes c).opened = true := by
    intro c p hp
    cases ho : (s.m_board.m_nodes c).opened with
    | true => rfl
    | false =>
      rw [hu c ho] at hp
      cases hp
  refine acyclic_of_rank s.m_board rk (fun c p hp => (hk.parent_lt c p (hop c p hp) hp).2)
    (fun c p ho hp => (hk.parent_lt c p ho hp).1) (fun c ho hp => hk.root c ho hp)

theorem unopened_parent_push {x : Algorithm E} {n : Coordinate} {p : Option Coordinate}
    (hu : ∀ c, (x.m_board.m_nodes c).opened = false → (x.m_board.m_nodes c).parent = none) :
    ∀ c, ((pushOpen x n p).m_board.m_nodes c).opened = false →
      ((pushOpen x n p).m_board.m_nodes c).parent = none := by
  intro c hc
  by_cases hcn : c = n
  · subst hcn
    simp at hc
  · rw [pushOpen_m_nodes_of_ne _ _ _ _ hcn] at hc ⊢
    exact hu c hc

theorem Links.of_storeSolution {b0 : Board E} {d cc : Bool} {x s' : Algorithm E} {fuel : Nat}
    (h : Links b0 d cc x) (hs : storeSolution fuel x = some s') : Links b0 d cc s' := by
  have := storeSolution_frame fuel x s' hs
  rw [this]
  exact h

end AlgorithmBase

namespace BreadthFirstSearch

open AlgorithmBase

/-- Every call of `nextStep` keeps the invariant of the parent links. -/
theorem bfs_nextStep_links (b0 : Board Unit) (d cc : Bool) (fuel : Nat) (s : State)
    (hs : Links b0 d cc s) (b : Bool) (s' : State) (h : nextStep fuel s = some (b, s')) :
    Links b0 d cc s' := by
  cases hf : s.m_openNodes with
  | nil =>
    rw [bfs_nextStep_nil fuel s hf] at h
    cases h
    exact hs
  | cons node rest =>
    obtain ⟨⟨hr, rk, hk⟩, hu⟩ := hs
    have hmem : node ∈ (clearSolution s).m_openNodes := by
      show node ∈ s.m_openNodes
      simp [hf]
    have hnode := hr.front node hmem
    rcases bfs_nextStep_rule fuel s node rest hf
        (fun x => (FreshInv b0 d cc (clearSolution x) ∧
          ((clearSolution x).m_board.m_nodes node).opened = true) ∧
          ∀ c, (x.m_board.m_nodes c).opened = false → (x.m_board.m_nodes c).parent = none)
        ⟨⟨⟨hr.run_setFrontier _ rest (by intro c hc; show c ∈ s.m_openNodes; simp [hf, hc]),
          rk, hk.chain_setFrontier _ _⟩, hnode.2.1⟩, hu⟩
        (fun x n hx hn ho =>
          ⟨FreshInv.fresh_open_neighbor (s := clearSolution s) hr hmem hx.1 hn ho,
            unopened_parent_push hx.2⟩) with
      ⟨s2, h1, h2⟩ | ⟨s1, n, h1, _, _, h4⟩
    · rw [h] at h1
      cases h1
      exact ⟨h2.1.1, h2.2⟩
    · rw [h] at h4
      cases hst : storeSolution fuel s1 with
      | none => rw [hst] at h4; cases h4
      | some r =>
        rw [hst] at h4
        cases h4
        exact Links.of_storeSolution ⟨h1.1.1, h1.2⟩ hst

end BreadthFirstSearch

namespace DepthFirstSearch

open AlgorithmBase

/-- Every call of `nextStep` keeps the invariant of the parent links. -/
theorem dfs_nextStep_links (b0 : Board Unit) (d cc : Bool) (fuel : Nat) (s : State)
    (hs : Links b0 d cc s) (b : Bool) (s' : State) (h : nextStep fuel s = some (b, s')) :
    Links b0 d cc s' := by
  by_cases hf : s.m_openNodes = []
  · rw [dfs_nextStep_nil fuel s hf] at h
    cases h
    exact hs
  · obtain ⟨rest, node, hl⟩ := exists_concat_of_ne_nil _ hf
    obtain ⟨⟨hr, rk, hk⟩, hu⟩ := hs
    have hmem : node ∈ (clearSolution s).m_openNodes := by
      show node ∈ s.m_openNodes
      simp [hl]
    have hnode := hr.front node hmem
    rcases dfs_nextStep_rule fuel s node rest hl
        (fun _ x => ((FreshInv b0 d cc (clearSolution x) ∧
          ((clearSolution x).m_board.m_nodes node).opened = true) ∧ x.m_openNodes ≠ []) ∧
          ∀ c, (x.m_board.m_nodes c).opened = false → (x.m_board.m_nodes c).parent = none)
        ⟨⟨⟨⟨hr, rk, hk⟩, hnode.2.1⟩, hf⟩, hu⟩
        (fun _ x n hx hn ho =>
          ⟨⟨FreshInv.fresh_open_neighbor (s := clearSolution s) hr hmem hx.1.1 hn ho, by simp⟩,
            unopened_parent_push hx.2⟩)
        (fun _ x hx => hx.1.2) with
      ⟨ch, s2, h1, h2⟩ | ⟨_, s1, n, h1, _, _, h4⟩
    · rw [h] at h2
      cases h2
      obtain ⟨⟨⟨⟨hr2, rk2, hk2⟩, _⟩, _⟩, hu2⟩ := h1
      cases ch
      · simp only [Bool.false_eq_true, if_false]
        exact ⟨⟨hr2.run_setFrontier _ _ (fun c hc => List.mem_of_mem_dropLast hc), rk2,
          hk2.chain_setFrontier _ _⟩, hu2⟩
      · simp only [if_true]
        exact ⟨⟨hr2, rk2, hk2⟩, hu2⟩
    · rw [h] at h4
      cases hst : storeSolution fuel s1 with
      | none => rw [hst] at h4; cases h4
      | some r =>
        rw [hst] at h4
        cases h4
        exact Links.of_storeSolution ⟨h1.1.1.1, h1.2⟩ hst

end DepthFirstSearch

namespace AlgorithmBase

variable {E : Type}

theorem ExtOnly.clearSolution {x y : Algorithm E} (h : ExtOnly x y) :
    ExtOnly (clearSolution x) (clearSolution y) :=
  ⟨rfl, h.2.1, h.2.2.1, h.2.2.2.1, h.2.2.2.2.1, h.2.2.2.2.2.1, h.2.2.2.2.2.2.1,
    h.2.2.2.2.2.2.2.1, h.2.2.2.2.2.2.2.2.1, h.2.2.2.2.2.2.2.2.2.1, h.2.2.2.2.2.2.2.2.2.2⟩

end AlgorithmBase

namespace BestFirstSearch

open AlgorithmBase

variable {α : Type}

/-- Every call of `nextStep` keeps the invariant of the parent links. -/
theorem bestFirst_nextStep_links (A : Env α) (hA : A.SortPermutes) (b0 : Board (Ext α))
    (d cc : Bool) (fuel : Nat) (s : State α) (hs : Links b0 d cc s) (b : Bool) (s' : State α)
    (h : nextStep A fuel s = some (b, s')) : Links b0 d cc s' := by
  by_cases hf : s.m_openNodes = []
  · rw [bestFirst_nextStep_nil A fuel s hf] at h
    cases h
    exact hs
  · obtain ⟨⟨hr, rk, hk⟩, hu⟩ := hs
    rcases bestFirst_nextStep_rule_ext A hA fuel s hf
        (fun node x => ((FreshInv b0 d cc (clearSolution x) ∧
          ((clearSolution x).m_board.m_nodes node).opened = true) ∧
          node ∈ (clearSolution s).m_openNodes) ∧
          ∀ c, (x.m_board.m_nodes c).opened = false → (x.m_board.m_nodes c).parent = none)
        (fun node x y hxy hx => ⟨⟨⟨⟨hx.1.1.1.1.run_extOnly hxy.clearSolution, by
            obtain ⟨rk, hk⟩ := hx.1.1.1.2
            exact ⟨rk, hk.chain_extOnly hxy.clearSolution⟩⟩, by
            show (y.m_board.m_nodes node).opened = true
            rw [(hxy.2.2.2.2.2.2.2.2.2.2 node).2.2.2]
            exact hx.1.1.2⟩, hx.1.2⟩, fun c hc => by
            rw [(hxy.2.2.2.2.2.2.2.2.2.2 c).2.2.2] at hc
            rw [(hxy.2.2.2.2.2.2.2.2.2.2 c).1]
            exact hx.2 c hc⟩)
        (fun node rest hp => ⟨⟨⟨⟨hr.run_setFrontier _ rest
            (fun c hc => hp.subset (List.mem_append_left _ hc)), rk, hk.chain_setFrontier _ _⟩,
          (hr.front node (hp.subset (by simp))).2.1⟩, hp.subset (by simp)⟩, hu⟩)
        (fun node x n hx hn ho =>
          ⟨⟨FreshInv.fresh_open_neighbor (s := clearSolution s) hr hx.1.2 hx.1.1 hn ho, hx.1.2⟩,
            unopened_parent_push hx.2⟩) with
      ⟨_, s2, h1, h2⟩ | ⟨node, s1, n, h1, _, _, h4⟩
    · rw [h] at h1
      cases h1
      exact ⟨h2.1.1.1, h2.2⟩
    · rw [h] at h4
      cases hst : storeSolution fuel s1 with
      | none => rw [hst] at h4; cases h4
      | some r =>
        rw [hst] at h4
        cases h4
        exact Links.of_storeSolution ⟨h1.1.1.1, h1.2⟩ hst

end BestFirstSearch

namespace AStar

open AlgorithmBase

variable {α : Type}

theorem clearSolution_updateNode (A : Env α) (x : State α) (n node : Coordinate) :
    clearSolution (updateNode A x n node) = updateNode A (clearSolution x) n node := by
  unfold updateNode
  simp only
  split
  · rename_i h
    have h' : A.lt (A.add (distance A (clearSolution x).m_heuristic
        ((clearSolution x).m_board.m_nodes n).position (clearSolution x).m_board.getGoal)
        (A.add ((clearSolution x).m_board.m_nodes node).ext.g
          (distance A (clearSolution x).m_heuristic
            ((clearSolution x).m_board.m_nodes node).position
            ((clearSolution x).m_board.m_nodes n).position)))
        (A.add ((clearSolution x).m_board.m_nodes n).ext.h
          ((clearSolution x).m_board.m_nodes n).ext.g) = true := h
    rw [if_pos h']
    rfl
  · rename_i h
    have h' : ¬ A.lt (A.add (distance A (clearSolution x).m_heuristic
        ((clearSolution x).m_board.m_nodes n).position (clearSolution x).m_board.getGoal)
        (A.add ((clearSolution x).m_board.m_nodes node).ext.g
          (distance A (clearSolution x).m_heuristic
            ((clearSolution x).m_board.m_nodes node).position
            ((clearSolution x).m_board.m_nodes n).position)))
        (A.add ((clearSolution x).m_board.m_nodes n).ext.h
          ((clearSolution x).m_board.m_nodes n).ext.g) = true := h
    rw [if_neg h']

/-- Every call of `nextStep` keeps the invariant of the run, but for the solution. -/
theorem astar_nextStep_links (A : Env α) (hA : A.SortPermutes) (b0 : Board (Ext α))
    (d cc : Bool) (fuel : Nat) (s : State α) (hs : FreshInv b0 d cc (clearSolution s))
    (b : Bool) (s' : State α) (h : nextStep A fuel s = some (b, s')) :
    FreshInv b0 d cc (clearSolution s') := by
  by_cases hf : s.m_openNodes = []
  · rw [astar_nextStep_nil A fuel s hf] at h
    cases h
    exact hs
  · obtain ⟨hr, rk, hk⟩ := hs
    rcases astar_nextStep_rule A hA fuel s hf
        (fun node x => (FreshInv b0 d cc (clearSolution x) ∧
          ((clearSolution x).m_board.m_nodes node).ext.closed = true) ∧
          node ∈ (clearSolution s).m_openNodes)
        (fun node rest hp => by
          have hmem : node ∈ (clearSolution s).m_openNodes := hp.subset (by simp)
          obtain ⟨h1, h2⟩ := hk.astar_closeWith (s := clearSolution s) hp
            (hr.front node hmem).2.1
          exact ⟨⟨⟨astar_RunInv_closeWith hr node rest
            (fun c hc => hp.subset (List.mem_append_left _ hc)), h1⟩, h2⟩, hmem⟩)
        (fun node x n hx _ hc => by
          obtain ⟨⟨⟨hrx, rkx, hkx⟩, hcn⟩, hmem⟩ := hx
          rw [clearSolution_updateNode]
          exact ⟨⟨⟨astar_RunInv_updateNode A hrx n node, rkx, hkx.astar_updateNode A hcn hc⟩,
            by rw [astar_updateNode_closed]; exact hcn⟩, hmem⟩)
        (fun node x n hx hn hc ho => by
          obtain ⟨⟨⟨hrx, rkx, hkx⟩, hcn⟩, hmem⟩ := hx
          have hv : (clearSolution x).m_board.isValidNode n = true := by
            rw [hrx.grid.isValidNode, ← hr.grid.isValidNode]
            exact Board.isValidNode_of_mem_getNeighbors _ _ _ _ _ hn
          have hne : node ≠ n := by
            intro h
            rw [h] at hcn
            have hc' : ((clearSolution x).m_board.m_nodes n).ext.closed = false := hc
            rw [hc'] at hcn
            exact absurd hcn (by simp)
          exact ⟨⟨⟨hr.run_open_neighbor hrx (hr.front node hmem).2.2 hn _, rkx,
            hkx.astar_push hcn hc hv ho (fun c hcm => (hrx.front c hcm).2.1)⟩,
            by
              show ((pushOpen x n (some node)).m_board.m_nodes node).ext.closed = true
              rw [pushOpen_m_nodes_of_ne _ _ _ _ hne]; exact hcn⟩, hmem⟩) with
      ⟨_, s2, h1, h2⟩ | ⟨node, s1, n, h1, _, _, h4⟩
    · rw [h] at h1
      cases h1
      exact h2.1.1
    · rw [h] at h4
      cases hst : storeSolution fuel s1 with
      | none => rw [hst] at h4; cases h4
      | some r =>
        rw [hst] at h4
        cases h4
        have := storeSolution_frame fuel s1 _ hst
        rw [this]
        exact h1.1.1

/-- The invariant of a run of A* gives that the parent links form no cycle. -/
theorem astar_acyclic {b0 : Board (Ext α)} {d cc : Bool} {s : State α}
    (h : FreshInv b0 d cc (clearSolution s)) : AcyclicParents s.m_board := by
  obtain ⟨_, rk, hk⟩ := h
  refine acyclic_of_rank s.m_board
    (fun c => if (s.m_board.m_nodes c).ext.closed = true then rk c else s.nodesClosed)
    (fun c p hp => ?_) (fun c p _ hp => ?_) (fun c ho hp => hk.root c ho hp)
  · obtain ⟨h1, h2⟩ := hk.parent_closed c p hp
    have h1' : (s.m_board.m_nodes p).ext.closed = true := h1
    show (if (s.m_board.m_nodes p).ext.closed = true then rk p else s.nodesClosed) <
      (if (s.m_board.m_nodes c).ext.closed = true then rk c else s.nodesClosed)
    rw [if_pos h1']
    by_cases hc : (s.m_board.m_nodes c).ext.closed = true
    · rw [if_pos hc]
      exact h2 hc
    · rw [if_neg hc]
      exact hk.rk_lt p h1
  · exact hk.closed_opened p (hk.parent_closed c p hp).1

end AStar

namespace AlgorithmBase

/-- A property kept by every call of `nextStep` holds in every state of the run. -/
theorem Reachable.invariant {S : Type} (step : S → Option (Bool × S)) (I : S → Prop)
    (hstep : ∀ s b s', I s → step s = some (b, s') → I s') (s1 s : S) (h1 : I s1)
    (h : Reachable step s1 s) : I s := by
  induction h with
  | refl => exact h1
  | tail _ hs ih =>
    obtain ⟨b, hb⟩ := hs
    exact hstep _ b _ ih hb

end AlgorithmBase

namespace AlgorithmBase

variable {E : Type}

theorem RunInv.run_clear {b0 : Board E} {d cc : Bool} {s : Algorithm E} (h : RunInv b0 d cc s) :
    RunInv b0 d cc (clearSolution s) :=
  ⟨h.grid, h.diag, h.cut, rfl, h.front⟩

theorem ChainInv.chain_clear {s : Algorithm E} {rk : Coordinate → Nat} (h : ChainInv s rk) :
    ChainInv (clearSolution s) rk :=
  ⟨h.parent_lt, h.rk_lt, h.root, h.count⟩

theorem ExtOnly.ext_refl (x : Algorithm E) : ExtOnly x x :=
  ⟨rfl, rfl, rfl, rfl, rfl, rfl, rfl, rfl, rfl, rfl, fun _ => ⟨rfl, rfl, rfl, rfl⟩⟩

/-- The invariant of the parent links holds after `init` on an instance on which no run was
started. -/
theorem init_links {nodeInit : Node E → Node E} (hok : NodeInitOK nodeInit)
    (s0 : Algorithm E) (hp : Pristine s0) (h : Heuristic) (d cc : Bool)
    (hv : s0.m_board.isValidNode s0.m_board.m_start = true) (s1 : Algorithm E)
    (hs1 : ExtOnly (pushOpen (initBase nodeInit s0 h d cc) s0.m_board.m_start none) s1) :
    Links s0.m_board d cc s1 := by
  refine ⟨⟨((init_runInv hok s0 h d cc hv).run_extOnly hs1).run_clear, _,
    ((init_chainInv hok s0 hp h d cc hv).chain_extOnly hs1).chain_clear⟩, fun c hc => ?_⟩
  have he := hs1.2.2.2.2.2.2.2.2.2.2 c
  rw [he.2.2.2] at hc
  rw [he.1]
  exact unopened_parent_push (fun c _ => (initBase_opened_pristine hok s0 hp h d cc c).2) c hc

end AlgorithmBase

/-! ## Theorems: A* finds a reachable goal, along moves of the board -/

namespace AlgorithmBase

variable {E : Type}

/-- The loop of `storeSolution`, when the parent links it follows decrease a rank below the
fuel and relate the positions by `R`: the positions appended form a chain of `R`. -/
theorem storeSolutionLoop_chain (b : Board E) (G : Coordinate → Prop) (rk : Coordinate → Nat)
    (R : Coordinate → Coordinate → Prop)
    (hrk : ∀ c p, G c → (b.m_nodes c).parent = some p → G p ∧ rk p < rk c ∧
      R (b.m_nodes c).position (b.m_nodes p).position) :
    ∀ fuel c acc, G c → rk c < fuel →
      ∃ path, storeSolutionLoop b fuel (some c) acc = some (acc ++ path) ∧
        path.head? = some (b.m_nodes c).position ∧ path.Chain' R := by
  intro fuel
  induction fuel with
  | zero => intro c acc _ h; exact absurd h (Nat.not_lt_zero _)
  | succ fuel ih =>
    intro c acc hc hlt
    rw [storeSolutionLoop]
    cases hp : (b.m_nodes c).parent with
    | none =>
      refine ⟨[(b.m_nodes c).position], ?_, rfl, List.chain'_singleton _⟩
      cases fuel <;> rfl
    | some p =>
      obtain ⟨hGp, hlt', hR⟩ := hrk c p hc hp
      obtain ⟨path, h1, h2, h3⟩ := ih p (acc ++ [(b.m_nodes c).position]) hGp (by omega)
      refine ⟨(b.m_nodes c).position :: path, ?_, rfl, ?_⟩
      · rw [h1]
        simp
      · cases path with
        | nil => simp at h2
        | cons a t =>
          simp only [List.head?_cons, Option.some.injEq] at h2
          rw [List.chain'_cons]
          exact ⟨h2 ▸ hR, h3⟩

/-- A run in which every call either returns false, keeping an invariant and decreasing a
measure, or returns true in a state with the property `P`: some call returns true, `complete`
returns its state, and that state has the property. -/
theorem run_search {S : Type} (step : S → Option (Bool × S)) (μ : S → Nat) (I P : S → Prop)
    (hstep : ∀ s, I s → (∃ s', step s = some (false, s') ∧ I s' ∧ μ s' < μ s) ∨
      (∃ s', step s = some (true, s') ∧ P s'))
    (s1 : S) (h1 : I s1) :
    ∃ n s s', n ≤ μ s1 ∧ stepsFalse step n s1 = some s ∧ step s = some (true, s') ∧
      complete step (n + 1) s1 = some s' ∧ P s' := by
  obtain ⟨n, s, s', h2, h3, h4, h5⟩ := exists_true_of_measure step μ I
    (fun s hs => by
      rcases hstep s hs with ⟨s', h, hI, hm⟩ | ⟨s', h, _⟩
      · exact Or.inr ⟨s', h, hI, hm⟩
      · exact Or.inl ⟨s', h⟩) s1 h1
  refine ⟨n, s, s', h2, h3, h5, complete_of_stepsFalse step n s1 s s' h3 h5, ?_⟩
  rcases hstep s h4 with ⟨s2, h, _⟩ | ⟨s2, h, hP⟩
  · rw [h] at h5
    cases h5
  · rw [h] at h5
    cases h5
    exact hP

end AlgorithmBase

namespace AStar

open AlgorithmBase

variable {α : Type}

/-- With the invariant of the search, every node reachable from the start is opened when the
frontier is empty. -/
theorem SearchInv.opened_of_reach {b0 : Board (Ext α)} {d cc : Bool} {s : State α}
    (h : SearchInv b0 d cc s) (he : s.m_openNodes = []) (c : Coordinate)
    (hr : b0.Reach d cc b0.m_start c) : (s.m_board.m_nodes c).opened = true := by
  induction hr with
  | refl => exact h.start
  | @tail x y _ hstep ih =>
    have hcl : (s.m_board.m_nodes x).ext.closed = true := by
      cases hc : (s.m_board.m_nodes x).ext.closed with
      | true => rfl
      | false =>
        have := h.front x ih hc
        rw [he] at this
        cases this
    exact h.done x hcl y hstep

/-- In a state with the invariants in which the goal is opened, `storeSolution` returns a
path of moves from the goal to the start. -/
theorem astar_storeSolution_movePath {b0 : Board (Ext α)} {d cc : Bool} (hw : b0.WellFormed)
    (hvs : b0.isValidNode b0.m_start = true) {x : State α}
    (hx : FreshInv b0 d cc x)
    (hpath : ∀ c p, (x.m_board.m_nodes c).parent = some p →
      b0.isValidNode p = true ∧ c ∈ b0.getNeighbors p [] d cc)
    {fuel : Nat} (hfuel : b0.nodeCount < fuel)
    (hon : (x.m_board.m_nodes b0.m_goal).opened = true)
    (hvg : b0.isValidNode b0.m_goal = true) :
    ∃ s', storeSolution fuel x = some s' ∧ MovePath b0 d cc s' := by
  obtain ⟨hr, rk, hk⟩ := hx
  have hwx : x.m_board.WellFormed := hr.grid.wellFormed hw
  have hgx : x.m_board.m_goal = b0.m_goal := hr.grid.2.2.1
  have hpos : ∀ c, b0.isValidNode c = true → (x.m_board.m_nodes c).position = c :=
    fun c hc => hwx c (by rw [hr.grid.isValidNode]; exact hc)
  have hposg : (x.m_board.m_nodes b0.m_goal).position = getGoal x := by
    rw [hpos _ hvg]
    exact hgx.symm
  obtain ⟨s', h1, h2⟩ := astar_storeSolution_goalToStart hw hvs hr hk hfuel hvg hon hposg
  refine ⟨s', h1, h2, ?_⟩
  have hcount : x.nodesClosed ≤ b0.nodeCount := by
    have h3 := hk.count
    have h4 := hk.balance
    rw [nodeCount_of_sameGrid hr.grid] at h3
    omega
  obtain ⟨path, h5, _, h7⟩ := storeSolutionLoop_chain x.m_board
    (fun c => b0.isValidNode c = true ∧
      ((x.m_board.m_nodes c).ext.closed = true ∨ c = b0.m_goal))
    (fun c => if (x.m_board.m_nodes c).ext.closed = true then rk c else x.nodesClosed)
    (fun a b => a ∈ b0.getNeighbors b [] d cc)
    (fun c p hc hp => by
      obtain ⟨hpv, hcp⟩ := hpath c p hp
      obtain ⟨hpc, hlt⟩ := hk.parent_closed c p hp
      refine ⟨⟨hpv, Or.inl hpc⟩, ?_, ?_⟩
      · beta_reduce
        rw [if_pos hpc]
        by_cases hcc : (x.m_board.m_nodes c).ext.closed = true
        · rw [if_pos hcc]
          exact hlt hcc
        · rw [if_neg hcc]
          exact hk.rk_lt p hpc
      · rw [hpos c hc.1, hpos p hpv]
        exact hcp)
    fuel b0.m_goal x.solution ⟨hvg, Or.inr rfl⟩
    (by
      beta_reduce
      split
      · rename_i hcg
        have := hk.rk_lt _ hcg
        omega
      · omega)
  unfold storeSolution at h1
  have hgn : getGoalNode x = some b0.m_goal := by
    unfold getGoalNode Board.getGoalNode
    rw [hgx, hr.grid.isValidNode, if_pos hvg]
  rw [hgn, h5] at h1
  cases h1
  show (x.solution ++ path).Chain' _
  rw [hr.sol, List.nil_append]
  exact h7

end AStar

namespace AStar

open AlgorithmBase

variable {α : Type}

theorem astar_updateNode_parent (A : Env α) (x : State α) (n node c p : Coordinate)
    (h : ((updateNode A x n node).m_board.m_nodes c).parent = some p) :
    (x.m_board.m_nodes c).parent = some p ∨ (c = n ∧ p = node) := by
  rcases astar_updateNode_m_nodes A x n node c with h1 | ⟨h1, _, _, h2⟩
  · rw [h1] at h
    exact Or.inl h
  · rw [h2] at h
    simp only [Option.some.injEq] at h
    exact Or.inr ⟨h1, h.symm⟩

theorem pushOpen_parent {E : Type} (x : Algorithm E) (n node c p : Coordinate)
    (h : ((pushOpen x n (some node)).m_board.m_nodes c).parent = some p) :
    (x.m_board.m_nodes c).parent = some p ∨ (c = n ∧ p = node) := by
  by_cases hc : c = n
  · subst hc
    rw [pushOpen_m_nodes_same] at h
    simp only [Option.some.injEq] at h
    exact Or.inr ⟨rfl, h.symm⟩
  · rw [pushOpen_m_nodes_of_ne _ _ _ _ hc] at h
    exact Or.inl h

theorem SearchLoop.updateNode (A : Env α) {b0 : Board (Ext α)} {d cc : Bool}
    {node n : Coordinate} {rem : List Coordinate} {x : State α}
    (h : SearchLoop b0 d cc node (n :: rem) x) (hv : b0.isValidNode node = true) :
    SearchLoop b0 d cc node (n :: rem) (updateNode A x n node) := by
  have hf := astar_updateNode_frame A x n node
  refine ⟨h.rem_nbs, ?_, ?_, ?_, ?_, ?_, ?_⟩
  · intro c p hp
    rcases astar_updateNode_parent A x n node c p hp with h1 | ⟨h1, h2⟩
    · exact h.path c p h1
    · subst h1 h2
      exact ⟨hv, h.rem_nbs c (List.mem_cons_self _ _)⟩
  · rw [astar_updateNode_opened]
    exact h.goal
  · rw [astar_updateNode_opened]
    exact h.start
  · intro c hc hcn m hm
    rw [astar_updateNode_closed] at hc
    rw [astar_updateNode_opened]
    exact h.done c hc hcn m hm
  · intro m hm
    rw [astar_updateNode_opened]
    exact h.progress m hm
  · intro c ho hc
    rw [astar_updateNode_opened] at ho
    rw [astar_updateNode_closed] at hc
    rw [hf.2.2.2.2.2.2.1]
    exact h.front c ho hc

/-- One call of `nextStep` in a run of A* that has not opened the goal, the goal being
reachable on the board: the call returns false and keeps the invariants, or it returns true
and leaves a path of moves from the goal to the start. -/
theorem astar_nextStep_search (A : Env α) (hA : A.SortPermutes) (b0 : Board (Ext α))
    (hw : b0.WellFormed) (hvs : b0.isValidNode b0.m_start = true)
    (hvg : b0.isValidNode b0.m_goal = true) (d cc : Bool) (fuel : Nat)
    (hfuel : b0.nodeCount < fuel) (hreach : b0.Reach d cc b0.m_start b0.m_goal)
    (s : State α) (hs : FreshInv b0 d cc s) (hq : SearchInv b0 d cc s) :
    (∃ s', nextStep A fuel s = some (false, s') ∧ FreshInv b0 d cc s' ∧
      SearchInv b0 d cc s') ∨
    (∃ s', nextStep A fuel s = some (true, s') ∧ MovePath b0 d cc s') := by
  have hne : s.m_openNodes ≠ [] := by
    intro he
    have := hq.opened_of_reach he _ hreach
    rw [hq.goal] at this
    cases this
  obtain ⟨hr, rk, hk⟩ := hs
  have hperm := hA (compare A s.m_board) s.m_openNodes
  have hne2 : A.sort (compare A s.m_board) s.m_openNodes ≠ [] := by
    intro h
    rw [h] at hperm
    exact hne (List.Perm.eq_nil hperm.symm)
  obtain ⟨rest, node, hl⟩ := exists_concat_of_ne_nil _ hne2
  have hp : (rest ++ [node]).Perm s.m_openNodes := hl ▸ hperm
  have hmem : node ∈ s.m_openNodes := hp.subset (by simp)
  have hnode := hr.front node hmem
  have hvn : b0.isValidNode node = true := by
    rw [← hr.grid.isValidNode]
    exact hnode.1
  have hwx : s.m_board.WellFormed := hr.grid.wellFormed hw
  have hpos : (s.m_board.m_nodes node).position = node := hwx node hnode.1
  have hgs : s.m_board.m_goal = b0.m_goal := hr.grid.2.2.1
  have hng : node ≠ b0.m_goal := by
    intro e
    have := hnode.2.1
    rw [e, hq.goal] at this
    cases this
  rw [astar_nextStep_concat A fuel s node rest hl hne, hpos, hgs, if_neg hng, hr.neighbors]
  obtain ⟨hck, hcc⟩ := hk.astar_closeWith hp hnode.2.1
  have hcr := astar_RunInv_closeWith hr node rest
    (fun c hc => hp.subset (List.mem_append_left _ hc))
  have hnd : (rest ++ [node]).Nodup := hp.nodup_iff.2 hk.front_nodup
  rcases astar_nextStepLoop_visit A fuel node
      (fun rem x => (FreshInv b0 d cc x ∧ (x.m_board.m_nodes node).ext.closed = true) ∧
        SearchLoop b0 d cc node rem x)
      (fun x => FreshInv b0 d cc x ∧
        (∀ c p, (x.m_board.m_nodes c).parent = some p →
          b0.isValidNode p = true ∧ c ∈ b0.getNeighbors p [] d cc) ∧
        (x.m_board.m_nodes b0.m_goal).opened = true)
      (fun n rem x hJ hc => by
        obtain ⟨⟨⟨hrx, rkx, hkx⟩, hcn⟩, hL⟩ := hJ
        refine ⟨⟨⟨hrx, rkx, hkx⟩, hcn⟩,
          fun m hm => hL.rem_nbs m (List.mem_cons_of_mem _ hm), hL.path, hL.goal, hL.start,
          hL.done, fun m hm => ?_, hL.front⟩
        rcases hL.progress m hm with h1 | h1
        · rcases List.mem_cons.1 h1 with rfl | h1
          · exact Or.inr (hkx.closed_opened _ hc)
          · exact Or.inl h1
        · exact Or.inr h1)
      (fun n rem x hJ hc ho => by
        obtain ⟨⟨⟨hrx, rkx, hkx⟩, hcn⟩, hL⟩ := hJ
        have hL' := hL.updateNode A hvn
        refine ⟨⟨⟨astar_RunInv_updateNode A hrx n node, rkx, hkx.astar_updateNode A hcn hc⟩,
          by rw [astar_updateNode_closed]; exact hcn⟩,
          fun m hm => hL.rem_nbs m (List.mem_cons_of_mem _ hm), hL'.path, hL'.goal, hL'.start,
          hL'.done, fun m hm => ?_, hL'.front⟩
        rw [astar_updateNode_opened]
        rcases hL.progress m hm with h1 | h1
        · rcases List.mem_cons.1 h1 with rfl | h1
          · exact Or.inr ho
          · exact Or.inl h1
        · exact Or.inr h1)
      (fun n rem x hJ hc ho hg => by
        obtain ⟨⟨⟨hrx, rkx, hkx⟩, hcn⟩, hL⟩ := hJ
        have hL' := hL.updateNode A hvn
        have hnb : n ∈ b0.getNeighbors node [] d cc := hL.rem_nbs n (List.mem_cons_self _ _)
        have hnv : b0.isValidNode n = true := Board.isValidNode_of_mem_getNeighbors _ _ _ _ _ hnb
        have hrU := astar_RunInv_updateNode A hrx n node
        have hkU := hkx.astar_updateNode A hcn hc
        have hcU : ((updateNode A x n node).m_board.m_nodes n).ext.closed = false := by
          rw [astar_updateNode_closed]; exact hc
        have hoU : ((updateNode A x n node).m_board.m_nodes n).opened = false := by
          rw [astar_updateNode_opened]; exact ho
        have hcnU : ((updateNode A x n node).m_board.m_nodes node).ext.closed = true := by
          rw [astar_updateNode_closed]; exact hcn
        have hne' : node ≠ n := by
          intro e
          rw [e, hc] at hcn
          cases hcn
        have hrP := hrU.run_push n (some node) hnv (hnode.2.2.step hnb)
        have hkP := hkU.astar_push hcnU hcU
          (by rw [hrU.grid.isValidNode]; exact hnv) hoU (fun c hcm => (hrU.front c hcm).2.1)
        have hposn : ((pushOpen (updateNode A x n node) n (some node)).m_board.m_nodes
            n).position = n :=
          (hrP.grid.wellFormed hw) n (by rw [hrP.grid.isValidNode]; exact hnv)
        have hgoalP : getGoal (pushOpen (updateNode A x n node) n (some node)) = b0.m_goal :=
          hrP.grid.2.2.1
        rw [hposn, hgoalP] at hg
        refine ⟨⟨⟨hrP, rkx, hkP⟩,
          by rw [pushOpen_m_nodes_of_ne _ _ _ _ hne']; exact hcnU⟩,
          fun m hm => hL.rem_nbs m (List.mem_cons_of_mem _ hm), ?_, ?_, ?_, ?_, ?_, ?_⟩
        · intro c p hp'
          rcases pushOpen_parent _ n node c p hp' with h1 | ⟨h1, h2⟩
          · exact hL'.path c p h1
          · subst h1 h2
            exact ⟨hvn, hnb⟩
        · rw [pushOpen_m_nodes_of_ne _ _ _ _ (Ne.symm hg)]
          exact hL'.goal
        · exact pushOpen_opened_of_opened _ n _ _ hL'.start
        · intro c hcc' hcn' m hm
          have hcc2 : ((updateNode A x n node).m_board.m_nodes c).ext.closed = true := by
            by_cases hcn2 : c = n
            · subst hcn2
              rw [pushOpen_m_nodes_same] at hcc'
              exact hcc'
            · rwa [pushOpen_m_nodes_of_ne _ _ _ _ hcn2] at hcc'
          exact pushOpen_opened_of_opened _ n _ _ (hL'.done c hcc2 hcn' m hm)
        · intro m hm
          rcases hL'.progress m hm with h1 | h1
          · rcases List.mem_cons.1 h1 with rfl | h1
            · exact Or.inr (by simp)
            · exact Or.inl h1
          · exact Or.inr (pushOpen_opened_of_opened _ n _ _ h1)
        · intro c hoc hcc'
          rw [pushOpen_m_openNodes, List.mem_append, List.mem_singleton]
          by_cases hcn2 : c = n
          · exact Or.inr hcn2
          · rw [pushOpen_m_nodes_of_ne _ _ _ _ hcn2] at hoc hcc'
            exact Or.inl (hL'.front c hoc hcc'))
      (fun n rem x hJ hc ho hg => by
        obtain ⟨⟨⟨hrx, rkx, hkx⟩, hcn⟩, hL⟩ := hJ
        have hL' := hL.updateNode A hvn
        have hnb : n ∈ b0.getNeighbors node [] d cc := hL.rem_nbs n (List.mem_cons_self _ _)
        have hnv : b0.isValidNode n = true := Board.isValidNode_of_mem_getNeighbors _ _ _ _ _ hnb
        have hrU := astar_RunInv_updateNode A hrx n node
        have hkU := hkx.astar_updateNode A hcn hc
        have hcU : ((updateNode A x n node).m_board.m_nodes n).ext.closed = false := by
          rw [astar_updateNode_closed]; exact hc
        have hoU : ((updateNode A x n node).m_board.m_nodes n).opened = false := by
          rw [astar_updateNode_opened]; exact ho
        have hcnU : ((updateNode A x n node).m_board.m_nodes node).ext.closed = true := by
          rw [astar_updateNode_closed]; exact hcn
        have hrP := hrU.run_push n (some node) hnv (hnode.2.2.step hnb)
        have hkP := hkU.astar_push hcnU hcU
          (by rw [hrU.grid.isValidNode]; exact hnv) hoU (fun c hcm => (hrU.front c hcm).2.1)
        have hposn : ((pushOpen (updateNode A x n node) n (some node)).m_board.m_nodes
            n).position = n :=
          (hrP.grid.wellFormed hw) n (by rw [hrP.grid.isValidNode]; exact hnv)
        have hgoalP : getGoal (pushOpen (updateNode A x n node) n (some node)) = b0.m_goal :=
          hrP.grid.2.2.1
        rw [hposn, hgoalP] at hg
        refine ⟨⟨hrP, rkx, hkP⟩, ?_, by rw [← hg]; simp⟩
        intro c p hp'
        rcases pushOpen_parent _ n node c p hp' with h1 | ⟨h1, h2⟩
        · exact hL'.path c p h1
        · subst h1 h2
          exact ⟨hvn, hnb⟩)
      (b0.getNeighbors node [] d cc) (closeWith s node rest)
      ⟨⟨⟨hcr, hck⟩, hcc⟩, fun n hn => hn,
        fun c p hp' => hq.path c p (by rwa [closeWith_parent] at hp'),
        by rw [closeWith_opened]; exact hq.goal,
        by rw [closeWith_opened]; exact hq.start,
        fun c hc hcn m hm => by
          rw [closeWith_opened]
          rcases (closeWith_closed s node rest c).1 hc with h1 | h1
          · exact absurd h1 hcn
          · exact hq.done c h1 m hm,
        fun n hn => Or.inl hn,
        fun c ho hc => by
          rw [closeWith_opened] at ho
          obtain ⟨h1, h2⟩ := (closeWith_closed_false s node rest c).1 hc
          have := hp.symm.subset (hq.front c ho h2)
          rcases List.mem_append.1 this with h3 | h3
          · exact h3
          · exact absurd (List.mem_singleton.1 h3) h1⟩ with
    ⟨s', h1, h2⟩ | ⟨s1, h1, h2⟩
  · refine Or.inl ⟨s', h1, h2.1.1, h2.2.path, h2.2.goal, h2.2.start, fun c hc m hm => ?_,
      h2.2.front⟩
    by_cases hcn : c = node
    · subst hcn
      rcases h2.2.progress m hm with h3 | h3
      · cases h3
      · exact h3
    · exact h2.2.done c hc hcn m hm
  · obtain ⟨s', h3, h4⟩ := astar_storeSolution_movePath hw hvs h1.1 h1.2.1 hfuel h1.2.2 hvg
    refine Or.inr ⟨s', ?_, h4⟩
    rw [h2, h3]
    rfl

end AStar

namespace AStar

open AlgorithmBase

variable {α : Type}

/-- The invariants of the search hold after `init` on an instance on which no run was
started, when the start is in bounds and is not the goal. -/
theorem astar_init_search (A : Env α) (s0 : State α) (hp : PristineA s0) (h : Heuristic)
    (d cc : Bool) (hv : s0.m_board.isValidNode s0.m_board.m_start = true)
    (hne : s0.m_board.m_start ≠ s0.m_board.m_goal) :
    ∃ s1, init A s0 h d cc = some s1 ∧ FreshInv s0.m_board d cc s1 ∧
      SearchInv s0.m_board d cc s1 := by
  have hall := initBase_opened_pristine (astar_nodeInitOK A) s0 hp.1 h d cc
  have hcl : ∀ c, ((pushOpen (initBase (Node.init A) s0 h d cc) s0.m_board.m_start
      none).m_board.m_nodes c).ext.closed = false := by
    intro c
    by_cases hc : c = s0.m_board.m_start
    · subst hc
      simp only [pushOpen_m_nodes_same]
      rw [astar_initBase_closed]
      exact hp.2 _
    · rw [pushOpen_m_nodes_of_ne _ _ _ _ hc, astar_initBase_closed]
      exact hp.2 _
  refine ⟨_, by rw [astar_init_eq, if_pos hv],
    ⟨init_runInv (astar_nodeInitOK A) s0 h d cc hv, _, astar_init_chainInv A s0 hp h d cc hv⟩,
    ?_, ?_, ?_, ?_, ?_⟩
  · intro c p hcp
    by_cases hc : c = s0.m_board.m_start
    · subst hc
      simp at hcp
    · rw [pushOpen_m_nodes_of_ne _ _ _ _ hc, (hall c).2] at hcp
      cases hcp
  · rw [pushOpen_m_nodes_of_ne _ _ _ _ (Ne.symm hne)]
    exact (hall _).1
  · simp
  · intro c hc
    rw [hcl] at hc
    cases hc
  · intro c ho _
    by_cases hc : c = s0.m_board.m_start
    · subst hc
      exact List.mem_append_right _ (List.mem_singleton_self _)
    · rw [pushOpen_m_nodes_of_ne _ _ _ _ hc, (hall c).1] at ho
      cases ho

/-- A run of A* on an instance on which no run was started, the start and the goal being in
bounds and distinct and the goal reachable from the start: some call of `nextStep` returns
true, `complete` returns, and `solution` is a path of moves from the goal to the start. -/
theorem astar_run_search (A : Env α) (hA : A.SortPermutes) (s0 : State α) (hp : PristineA s0)
    (h : Heuristic) (d cc : Bool) (hvs : s0.m_board.isValidNode s0.m_board.m_start = true)
    (hvg : s0.m_board.isValidNode s0.m_board.m_goal = true)
    (hne : s0.m_board.m_start ≠ s0.m_board.m_goal) (fuel : Nat)
    (hfuel : s0.m_board.nodeCount < fuel)
    (hreach : s0.m_board.Reach d cc s0.m_board.m_start s0.m_board.m_goal) :
    ∃ s1, init A s0 h d cc = some s1 ∧ ∃ n s', n ≤ stepMeasure s1 ∧
      complete (nextStep A fuel) (n + 1) s1 = some s' ∧ MovePath s0.m_board d cc s' := by
  obtain ⟨s1, h1, h2, h3⟩ := astar_init_search A s0 hp h d cc hvs hne
  obtain ⟨n, s, s', hn, _, _, hc, hP⟩ := run_search (nextStep A fuel) stepMeasure
    (fun s => FreshInv s0.m_board d cc s ∧ SearchInv s0.m_board d cc s)
    (MovePath s0.m_board d cc)
    (fun s hs => by
      rcases astar_nextStep_search A hA s0.m_board hp.1.2.1 hvs hvg d cc fuel hfuel hreach s
        hs.1 hs.2 with ⟨s', h4, h5, h6⟩ | ⟨s', h4, h5⟩
      · exact Or.inl ⟨s', h4, ⟨h5, h6⟩, astar_nextStep_measure A hA fuel s s' h4⟩
      · exact Or.inr ⟨s', h4, h5⟩)
    s1 ⟨h2, h3⟩
  exact ⟨s1, h1, n, s', hn, hc, hP⟩

end AStar

/-! ## Theorems: A* with every sort that sorts -/

namespace AStar

open AlgorithmBase

variable {α : Type}

theorem isSorted_iff (cmp : Coordinate → Coordinate → Bool) (l : List Coordinate) :
    isSorted cmp l = true ↔ l.Pairwise (fun a b => cmp b a = false) := by
  induction l with
  | nil => simp [isSorted]
  | cons a l ih =>
    rw [isSorted, Bool.and_eq_true, ih, List.pairwise_cons, List.all_eq_true]
    simp

theorem mem_sortedPerms (cmp : Coordinate → Coordinate → Bool) (l l' : List Coordinate)
    (hp : l'.Perm l) (hs : l'.Pairwise (fun a b => cmp b a = false)) :
    l' ∈ sortedPerms cmp l := by
  rw [sortedPerms, List.mem_filter]
  exact ⟨List.mem_permutations'.2 hp, (isSorted_iff cmp l').2 hs⟩

theorem nextStepLoop_withSort (A : Env α)
    (srt : (Coordinate → Coordinate → Bool) → List Coordinate → List Coordinate)
    (fuel : Nat) (node : Coordinate) (nbs : List Coordinate) (s : State α) :
    nextStepLoop (A.withSort srt) fuel node nbs s = nextStepLoop A fuel node nbs s := by
  induction nbs generalizing s with
  | nil => rfl
  | cons n rest ih =>
    rw [nextStepLoop, nextStepLoop]
    have hu : updateNode (A.withSort srt) s n node = updateNode A s n node := rfl
    simp only [hu, ih]

/-- A call of `nextStep` is the rest of its body applied to the result of the sort. -/
theorem nextStep_withSort (A : Env α)
    (srt : (Coordinate → Coordinate → Bool) → List Coordinate → List Coordinate)
    (fuel : Nat) (s : State α) :
    nextStep (A.withSort srt) fuel s =
      if s.m_openNodes.length = 0 then some (true, s)
      else nextStepFrom A fuel s (srt (compare A s.m_board) s.m_openNodes) := by
  simp only [nextStep, nextStepFrom, nextStepLoop_withSort]
  rfl

/-- With a sort that rearranges and sorts, and a comparator that is a strict weak ordering on
every board, the result of `complete` is one of `outcomes`. -/
theorem complete_mem_outcomes (A : Env α)
    (srt : (Coordinate → Coordinate → Bool) → List Coordinate → List Coordinate)
    (hP : ∀ cmp l, (srt cmp l).Perm l)
    (hS : ∀ cmp l, StrictWeakOrdering cmp → (srt cmp l).Pairwise (fun a b => cmp b a = false))
    (hcmp : ∀ b : Board (Ext α), StrictWeakOrdering (compare A b)) (fuel : Nat) :
    ∀ (n : Nat) (s : State α),
      complete (nextStep (A.withSort srt) fuel) n s ∈ outcomes A fuel n s := by
  intro n
  induction n with
  | zero => intro s; simp [complete, outcomes]
  | succ n ih =>
    intro s
    rw [complete, outcomes, nextStep_withSort]
    by_cases h0 : s.m_openNodes.length = 0
    · rw [if_pos h0, if_pos h0]
      simp
    · rw [if_neg h0, if_neg h0, List.mem_flatMap]
      refine ⟨srt (compare A s.m_board) s.m_openNodes,
        mem_sortedPerms _ _ _ (hP _ _) (hS _ _ (hcmp _)), ?_⟩
      cases hr : nextStepFrom A fuel s (srt (compare A s.m_board) s.m_openNodes) with
      | none => simp
      | some r =>
        obtain ⟨b, s'⟩ := r
        cases b
        · exact ih s'
        · simp

end AStar

namespace AStar

open AlgorithmBase

variable {α : Type}

theorem doubleEnv_compare_strictWeak (b : Board (Ext Int)) :
    StrictWeakOrdering (compare doubleEnv b) :=
  compare_strictWeak_val (A := doubleEnv) (v := fun x : Int => (x : ℝ))
    (fun a b => by
      show decide (a < b) = true ↔ _
      rw [decide_eq_true_iff]
      exact Int.cast_lt.symm)
    (fun a b => by
      show decide (a = b) = true ↔ _
      rw [decide_eq_true_iff]
      exact Int.cast_inj.symm) b

/-- On the 3 x 3 board with the centre cell an obstacle, a path of moves from the goal
(2,2) to the start (0,0) has at least 4 coordinates. -/
theorem centreObstacle_movePath_length (A : Env α) (s : State α)
    (h : MovePath (centreObstacle A).m_board true true s) : 4 ≤ s.solution.length := by
  obtain ⟨⟨hne, hh, hl⟩, hc⟩ := h
  have hs : (centreObstacle A).m_board.m_start = (0, 0) := rfl
  have hg : (centreObstacle A).m_board.m_goal = (2, 2) := rfl
  have n00 : (centreObstacle A).m_board.getNeighbors (0, 0) [] true true =
      [(1, 0), (0, 1)] := rfl
  have n10 : (centreObstacle A).m_board.getNeighbors (1, 0) [] true true =
      [(2, 0), (0, 0), (2, 1), (0, 1)] := rfl
  have n01 : (centreObstacle A).m_board.getNeighbors (0, 1) [] true true =
      [(0, 0), (0, 2), (1, 0), (1, 2)] := rfl
  rw [hs] at hl
  rw [hg] at hh
  match hsol : s.solution with
  | [] => exact absurd hsol hne
  | [a] =>
    rw [hsol] at hh hl
    simp only [List.head?_cons, List.getLast?_singleton, Option.some.injEq] at hh hl
    rw [hh] at hl
    exact absurd hl (by decide)
  | [a, b] =>
    rw [hsol] at hh hl hc
    simp only [List.head?_cons, Option.some.injEq] at hh
    have hl' : b = (0, 0) := by simpa using hl
    subst hh hl'
    rw [List.chain'_cons, n00] at hc
    exact absurd hc.1 (by decide)
  | [a, b, c] =>
    rw [hsol] at hh hl hc
    simp only [List.head?_cons, Option.some.injEq] at hh
    have hl' : c = (0, 0) := by simpa using hl
    subst hh hl'
    rw [List.chain'_cons, List.chain'_cons, n00] at hc
    obtain ⟨h1, h2, _⟩ := hc
    have hb : b = (1, 0) ∨ b = (0, 1) := by simpa using h2
    rcases hb with rfl | rfl
    · rw [n10] at h1
      exact absurd h1 (by decide)
    · rw [n01] at h1
      exact absurd h1 (by decide)
  | _ :: _ :: _ :: _ :: _ => simp

/-- On the 3 x 3 board with the centre cell an obstacle, the goal (2,2) is reachable from the
start (0,0) when diagonal moves that cut a corner are allowed. -/
theorem centreObstacle_reach (A : Env α) :
    (centreObstacle A).m_board.Reach true true (centreObstacle A).m_board.m_start
      (centreObstacle A).m_board.m_goal := by
  have n00 : (centreObstacle A).m_board.getNeighbors (0, 0) [] true true =
      [(1, 0), (0, 1)] := rfl
  have n10 : (centreObstacle A).m_board.getNeighbors (1, 0) [] true true =
      [(2, 0), (0, 0), (2, 1), (0, 1)] := rfl
  have n21 : (centreObstacle A).m_board.getNeighbors (2, 1) [] true true =
      [(2, 0), (2, 2), (1, 0), (1, 2)] := rfl
  have e1 : (1, 0) ∈ (centreObstacle A).m_board.getNeighbors (0, 0) [] true true := by
    rw [n00]; decide
  have e2 : (2, 1) ∈ (centreObstacle A).m_board.getNeighbors (1, 0) [] true true := by
    rw [n10]; decide
  have e3 : (2, 2) ∈ (centreObstacle A).m_board.getNeighbors (2, 1) [] true true := by
    rw [n21]; decide
  exact Relation.ReflTransGen.tail (.tail (.tail .refl e1) e2) e3

/-- A* on the 3 x 3 board with the centre cell an obstacle, whatever the arithmetic and the
rearrangement the sort makes: the run ends with a path of moves of at least 4 coordinates. -/
theorem centreObstacle_run (A : Env α) (hA : A.SortPermutes) (heuristic : Heuristic)
    (fuel : Nat) (hfuel : 9 < fuel) :
    ∃ s1 n s', init A (centreObstacle A) heuristic true true = some s1 ∧
      complete (nextStep A fuel) (n + 1) s1 = some s' ∧
      MovePath (centreObstacle A).m_board true true s' ∧ 4 ≤ s'.solution.length := by
  have hp : PristineA (centreObstacle A) :=
    (astar_pristineA_create A (3, 3) (0, 0) (2, 2)).pristineA_setObstacles [((1, 1), true)]
  obtain ⟨s1, h1, n, s', _, h2, h3⟩ := astar_run_search A hA (centreObstacle A) hp heuristic
    true true rfl rfl
    (fun h => by
      have h' : ((0 : Int), (0 : Int)) = (2, 2) := h
      exact absurd h' (by decide))
    fuel hfuel (centreObstacle_reach A)
  exact ⟨s1, n, s', h1, h2, h3, centreObstacle_movePath_length A s' h3⟩

set_option maxRecDepth 100000 in
/-- A* on the 3 x 3 board with the centre cell an obstacle, in binary floating-point
arithmetic: whatever the sort does with elements that compare equal, the run ends within 4
calls with one of two solutions of 4 coordinates. -/
theorem centreObstacle_outcomes (heuristic : Heuristic) :
    ∃ s1, init doubleEnv (centreObstacle doubleEnv) heuristic true true = some s1 ∧
      allEndWith [(2, 2), (2, 1), (1, 0), (0, 0)] [(2, 2), (1, 2), (0, 1), (0, 0)]
        (outcomes doubleEnv 10 4 s1) = true := by
  cases heuristic
  · exact ⟨_, rfl, rfl⟩
  · exact ⟨_, rfl, rfl⟩
  · exact ⟨_, rfl, rfl⟩
  · exact ⟨_, rfl, rfl⟩

end AStar

/-! ## Theorems: the Chebyshev distance and the cost of paths with diagonal moves -/

namespace AlgorithmBase

theorem cheb_eq (a b : Coordinate) :
    cheb a b = max (max (a.1 - b.1) (-(a.1 - b.1))) (max (a.2 - b.2) (-(a.2 - b.2))) := by
  simp only [cheb, abs_eq_max_neg]

theorem cheb_nonneg (a b : Coordinate) : 0 ≤ cheb a b := by
  rw [cheb_eq]
  omega

theorem cheb_self (a : Coordinate) : cheb a a = 0 := by
  simp [cheb]

theorem cheb_comm (a b : Coordinate) : cheb a b = cheb b a := by
  rw [cheb_eq, cheb_eq]
  omega

theorem cheb_triangle (a b c : Coordinate) : cheb a c ≤ cheb a b + cheb b c := by
  rw [cheb_eq, cheb_eq, cheb_eq]
  omega

theorem cheb_le_manhattan (a b : Coordinate) : cheb a b ≤ manhattan a b := by
  rw [cheb_eq, manhattan_eq]
  omega

theorem cheb_eq_zero {a b : Coordinate} (h : cheb a b = 0) : a = b := by
  rw [cheb_eq] at h
  ext <;> omega

/-- Two cells a king's move apart are 1 or 2 apart in Manhattan distance. -/
theorem manhattan_of_cheb_one {a b : Coordinate} (h : cheb a b = 1) :
    manhattan a b = 1 ∨ manhattan a b = 2 := by
  rw [cheb_eq] at h
  rw [manhattan_eq]
  omega

/-- A king's move is diagonal when its Manhattan length is 2. -/
theorem isDiagonal_iff_of_cheb_one {a b : Coordinate} (h : cheb a b = 1) :
    isDiagonal a b = true ↔ manhattan a b = 2 := by
  rw [cheb_eq] at h
  rw [manhattan_eq]
  simp only [isDiagonal, Bool.and_eq_true, bne_iff_ne, ne_eq]
  omega

theorem octile_self (c2 : ℝ) (a : Coordinate) : octile c2 a a = 0 := by
  simp [octile, cheb_self, manhattan_self]

theorem octile_two (a b : Coordinate) : octile 2 a b = (manhattan a b : ℝ) := by
  simp only [octile]
  ring

theorem octile_nonneg {c2 : ℝ} (h1 : 1 ≤ c2) (h2 : c2 ≤ 2) (a b : Coordinate) :
    0 ≤ octile c2 a b := by
  have e1 : (0 : ℝ) ≤ (cheb a b : ℝ) := by exact_mod_cast cheb_nonneg a b
  have e2 : (0 : ℝ) ≤ (manhattan a b : ℝ) := by exact_mod_cast manhattan_nonneg a b
  simp only [octile]
  have := mul_nonneg (by linarith : (0 : ℝ) ≤ 2 - c2) e1
  have := mul_nonneg (by linarith : (0 : ℝ) ≤ c2 - 1) e2
  linarith

theorem octile_triangle {c2 : ℝ} (h1 : 1 ≤ c2) (h2 : c2 ≤ 2) (a b c : Coordinate) :
    octile c2 a c ≤ octile c2 a b + octile c2 b c := by
  have e1 : (cheb a c : ℝ) ≤ (cheb a b : ℝ) + (cheb b c : ℝ) := by
    exact_mod_cast cheb_triangle a b c
  have e2 : (manhattan a c : ℝ) ≤ (manhattan a b : ℝ) + (manhattan b c : ℝ) := by
    exact_mod_cast manhattan_triangle a b c
  simp only [octile]
  have := mul_le_mul_of_nonneg_left e1 (by linarith : (0 : ℝ) ≤ 2 - c2)
  have := mul_le_mul_of_nonneg_left e2 (by linarith : (0 : ℝ) ≤ c2 - 1)
  linarith

theorem octile_le_manhattan {c2 : ℝ} (h2 : c2 ≤ 2) (a b : Coordinate) :
    octile c2 a b ≤ (manhattan a b : ℝ) := by
  have e1 : (cheb a b : ℝ) ≤ (manhattan a b : ℝ) := by
    exact_mod_cast cheb_le_manhattan a b
  simp only [octile]
  have := mul_le_mul_of_nonneg_left e1 (by linarith : (0 : ℝ) ≤ 2 - c2)
  linarith

/-- The cost of a move is at least 1. -/
theorem one_le_octile {c2 : ℝ} (h1 : 1 ≤ c2) {a b : Coordinate}
    (h : cheb a b = 1) : 1 ≤ octile c2 a b := by
  have e1 : (cheb a b : ℝ) = 1 := by exact_mod_cast h
  have e2 : (1 : ℝ) ≤ (manhattan a b : ℝ) := by
    have := cheb_le_manhattan a b
    exact_mod_cast (by omega : (1 : Int) ≤ manhattan a b)
  simp only [octile, e1]
  have := mul_le_mul_of_nonneg_left e2 (by linarith : (0 : ℝ) ≤ c2 - 1)
  linarith

/-- The cost of a move is at most 2. -/
theorem octile_le_two {c2 : ℝ} (h2 : c2 ≤ 2) {a b : Coordinate}
    (h : cheb a b = 1) : octile c2 a b ≤ 2 := by
  have e2 : (manhattan a b : ℝ) ≤ 2 := by
    have := manhattan_of_cheb_one h
    exact_mod_cast (by omega : manhattan a b ≤ 2)
  exact le_trans (octile_le_manhattan h2 a b) e2

/-- The cost of a cheapest path between two in-bounds cells is below `width + height`. -/
theorem octile_le_size {c2 : ℝ} (h2 : c2 ≤ 2) {size a b : Coordinate}
    (ha : InBounds size a) (hb : InBounds size b) :
    octile c2 a b + 2 ≤ ((size.1 + size.2 : Int) : ℝ) := by
  have e1 : ((manhattan a b + 2 : Int) : ℝ) ≤ ((size.1 + size.2 : Int) : ℝ) := by
    exact_mod_cast manhattan_le_size ha hb
  have := octile_le_manhattan h2 a b
  push_cast at e1 ⊢
  linarith

theorem cheb_le_size {size a b : Coordinate} (ha : InBounds size a) (hb : InBounds size b) :
    cheb a b + 2 ≤ size.1 + size.2 := by
  have := manhattan_le_size ha hb
  have := cheb_le_manhattan a b
  omega

/-- A move that goes on along a cheapest path adds its cost to the cost of the path. -/
theorem Straight.octile_add {s p n : Coordinate} (h : Straight s p n) (hadj : cheb p n = 1)
    (c2 : ℝ) : octile c2 s p + octile c2 p n = octile c2 s n := by
  obtain ⟨h1, h2⟩ := h
  have e1 : (cheb s n : ℝ) = (cheb s p : ℝ) + 1 := by exact_mod_cast h1
  have e2 : (manhattan s n : ℝ) = (manhattan s p : ℝ) + (manhattan p n : ℝ) := by
    exact_mod_cast h2
  have e3 : (cheb p n : ℝ) = 1 := by exact_mod_cast hadj
  simp only [octile, e1, e2, e3]
  ring

/-- A path whose cost is within `min (c2 - 1) (2 - c2)` of the cost of a cheapest path is a
cheapest path: its last move goes on along a cheapest path. -/
theorem straight_of_gap {c2 : ℝ} (hc1 : 1 < c2) (hc2 : c2 < 2) {s p n : Coordinate}
    (hadj : cheb p n = 1)
    (h : octile c2 s p + octile c2 p n < octile c2 s n + min (c2 - 1) (2 - c2)) :
    Straight s p n := by
  have t1 := cheb_triangle s p n
  have t2 := manhattan_triangle s p n
  rw [hadj] at t1
  have e3 : (cheb p n : ℝ) = 1 := by exact_mod_cast hadj
  simp only [octile, e3] at h
  by_contra hns
  have hcase : cheb s n + 1 ≤ cheb s p + 1 ∨ manhattan s n + 1 ≤ manhattan s p + manhattan p n := by
    by_contra hcon
    apply hns
    constructor <;> omega
  have g1 : (cheb s n : ℝ) ≤ (cheb s p : ℝ) + 1 := by exact_mod_cast t1
  have g2 : (manhattan s n : ℝ) ≤ (manhattan s p : ℝ) + (manhattan p n : ℝ) := by
    exact_mod_cast t2
  have m1 : min (c2 - 1) (2 - c2) ≤ c2 - 1 := min_le_left _ _
  have m2 : min (c2 - 1) (2 - c2) ≤ 2 - c2 := min_le_right _ _
  rcases hcase with hc | hc
  · have g3 : (cheb s n : ℝ) + 1 ≤ (cheb s p : ℝ) + 1 := by exact_mod_cast hc
    have := mul_le_mul_of_nonneg_left g3 (by linarith : (0 : ℝ) ≤ 2 - c2)
    have := mul_le_mul_of_nonneg_left g2 (by linarith : (0 : ℝ) ≤ c2 - 1)
    nlinarith
  · have g3 : (manhattan s n : ℝ) + 1 ≤ (manhattan s p : ℝ) + (manhattan p n : ℝ) := by
      exact_mod_cast hc
    have := mul_le_mul_of_nonneg_left g1 (by linarith : (0 : ℝ) ≤ 2 - c2)
    have := mul_le_mul_of_nonneg_left g3 (by linarith : (0 : ℝ) ≤ c2 - 1)
    nlinarith

/-- A cell other than `s` has an in-bounds neighbor from which the move to it goes on along
a cheapest path from `s`. -/
theorem exists_closer_king {size s x : Coordinate} (hs : InBounds size s)
    (hx : InBounds size x) (hne : x ≠ s) :
    ∃ y, InBounds size y ∧ cheb y x = 1 ∧ Straight s y x := by
  obtain ⟨h1, h2, h3, h4⟩ := hs
  obtain ⟨g1, g2, g3, g4⟩ := hx
  have hne' : x.1 ≠ s.1 ∨ x.2 ≠ s.2 := by
    by_contra hcon
    push_neg at hcon
    exact hne (Prod.ext hcon.1 hcon.2)
  refine ⟨(x.1 - max (-1) (min 1 (x.1 - s.1)), x.2 - max (-1) (min 1 (x.2 - s.2))),
    ⟨?_, ?_, ?_, ?_⟩, ?_, ?_, ?_⟩
  · show 0 ≤ x.1 - max (-1) (min 1 (x.1 - s.1)); omega
  · show x.1 - max (-1) (min 1 (x.1 - s.1)) < size.1; omega
  · show 0 ≤ x.2 - max (-1) (min 1 (x.2 - s.2)); omega
  · show x.2 - max (-1) (min 1 (x.2 - s.2)) < size.2; omega
  · rw [cheb_eq]; simp only; omega
  · rw [cheb_eq, cheb_eq]; simp only; omega
  · rw [manhattan_eq, manhattan_eq, manhattan_eq]; simp only; omega

end AlgorithmBase

namespace AlgorithmBase

/-! ### The path `toward` the goal -/

theorem abs_clamp {k : Int} (d : Int) (h0 : 0 ≤ k) : |clamp k d| = min |d| k := by
  simp only [clamp, abs_eq_max_neg]
  omega

theorem abs_sub_clamp {k : Int} (d : Int) (h0 : 0 ≤ k) :
    |d - clamp k d| = |d| - min |d| k := by
  simp only [clamp, abs_eq_max_neg]
  omega

theorem abs_clamp_step {k : Int} (d : Int) (h0 : 0 ≤ k) :
    |clamp (k + 1) d - clamp k d| = min |d| (k + 1) - min |d| k := by
  simp only [clamp, abs_eq_max_neg]
  omega

theorem clamp_step {k : Int} (d : Int) (h0 : 0 ≤ k) :
    clamp (k + 1) d - clamp k d = clamp 1 (d - clamp k d) := by
  simp only [clamp]
  omega

/-- Of the steps `-1`, `0`, `1`, the step `clamp 1 r` leaves the least of `r`, and is the
only one. -/
theorem clamp_one_best (r e : Int) (h1 : -1 ≤ e) (h2 : e ≤ 1) :
    |r - clamp 1 r| ≤ |r - e| ∧ (|r - clamp 1 r| = |r - e| → e = clamp 1 r) := by
  simp only [clamp, abs_eq_max_neg]
  omega

theorem manhattan_start_toward {k : Int} (a b : Coordinate) (h0 : 0 ≤ k) :
    manhattan a (toward k a b) = min |b.1 - a.1| k + min |b.2 - a.2| k := by
  have e1 := abs_clamp (b.1 - a.1) h0
  have e2 := abs_clamp (b.2 - a.2) h0
  simp only [manhattan, toward]
  rw [← e1, ← e2, ← abs_neg (clamp k (b.1 - a.1)), ← abs_neg (clamp k (b.2 - a.2))]
  congr 2 <;> ring

theorem cheb_start_toward {k : Int} (a b : Coordinate) (h0 : 0 ≤ k) :
    cheb a (toward k a b) = max (min |b.1 - a.1| k) (min |b.2 - a.2| k) := by
  have e1 := abs_clamp (b.1 - a.1) h0
  have e2 := abs_clamp (b.2 - a.2) h0
  simp only [cheb, toward]
  rw [← e1, ← e2, ← abs_neg (clamp k (b.1 - a.1)), ← abs_neg (clamp k (b.2 - a.2))]
  congr 2 <;> ring

theorem manhattan_toward_goal {k : Int} (a b : Coordinate) (h0 : 0 ≤ k) :
    manhattan (toward k a b) b =
      (|b.1 - a.1| - min |b.1 - a.1| k) + (|b.2 - a.2| - min |b.2 - a.2| k) := by
  have e1 := abs_sub_clamp (b.1 - a.1) h0
  have e2 := abs_sub_clamp (b.2 - a.2) h0
  simp only [manhattan, toward]
  rw [← e1, ← e2, ← abs_neg (b.1 - a.1 - clamp k (b.1 - a.1)),
    ← abs_neg (b.2 - a.2 - clamp k (b.2 - a.2))]
  congr 2 <;> ring

theorem cheb_goal_toward {k : Int} (a b : Coordinate) (h0 : 0 ≤ k) :
    cheb (toward k a b) b =
      max (|b.1 - a.1| - min |b.1 - a.1| k) (|b.2 - a.2| - min |b.2 - a.2| k) := by
  have e1 := abs_sub_clamp (b.1 - a.1) h0
  have e2 := abs_sub_clamp (b.2 - a.2) h0
  simp only [cheb, toward]
  rw [← e1, ← e2, ← abs_neg (b.1 - a.1 - clamp k (b.1 - a.1)),
    ← abs_neg (b.2 - a.2 - clamp k (b.2 - a.2))]
  congr 2 <;> ring

theorem manhattan_toward_step {k : Int} (a b : Coordinate) (h0 : 0 ≤ k) :
    manhattan (toward k a b) (toward (k + 1) a b) =
      (min |b.1 - a.1| (k + 1) - min |b.1 - a.1| k) +
        (min |b.2 - a.2| (k + 1) - min |b.2 - a.2| k) := by
  have e1 := abs_clamp_step (b.1 - a.1) h0
  have e2 := abs_clamp_step (b.2 - a.2) h0
  simp only [manhattan, toward]
  rw [← e1, ← e2, ← abs_neg (clamp (k + 1) (b.1 - a.1) - clamp k (b.1 - a.1)),
    ← abs_neg (clamp (k + 1) (b.2 - a.2) - clamp k (b.2 - a.2))]
  congr 2 <;> ring

theorem cheb_toward_step {k : Int} (a b : Coordinate) (h0 : 0 ≤ k) :
    cheb (toward k a b) (toward (k + 1) a b) =
      max (min |b.1 - a.1| (k + 1) - min |b.1 - a.1| k)
        (min |b.2 - a.2| (k + 1) - min |b.2 - a.2| k) := by
  have e1 := abs_clamp_step (b.1 - a.1) h0
  have e2 := abs_clamp_step (b.2 - a.2) h0
  simp only [cheb, toward]
  rw [← e1, ← e2, ← abs_neg (clamp (k + 1) (b.1 - a.1) - clamp k (b.1 - a.1)),
    ← abs_neg (clamp (k + 1) (b.2 - a.2) - clamp k (b.2 - a.2))]
  congr 2 <;> ring

theorem cheb_abs (a b : Coordinate) : cheb a b = max |b.1 - a.1| |b.2 - a.2| := by
  simp only [cheb, abs_sub_comm]

theorem manhattan_abs (a b : Coordinate) : manhattan a b = |b.1 - a.1| + |b.2 - a.2| := by
  simp only [manhattan, abs_sub_comm]

theorem toward_zero (a b : Coordinate) : toward 0 a b = a := by
  ext
  · show a.1 + clamp 0 (b.1 - a.1) = a.1
    simp only [clamp]; omega
  · show a.2 + clamp 0 (b.2 - a.2) = a.2
    simp only [clamp]; omega

theorem toward_of_le {k : Int} {a b : Coordinate} (h : cheb a b ≤ k) : toward k a b = b := by
  rw [cheb_eq] at h
  ext
  · show a.1 + clamp k (b.1 - a.1) = b.1
    simp only [clamp]; omega
  · show a.2 + clamp k (b.2 - a.2) = b.2
    simp only [clamp]; omega

theorem toward_inBounds {size a b : Coordinate} (ha : InBounds size a) (hb : InBounds size b)
    {k : Int} (hk : 0 ≤ k) : InBounds size (toward k a b) := by
  obtain ⟨h1, h2, h3, h4⟩ := ha
  obtain ⟨g1, g2, g3, g4⟩ := hb
  refine ⟨?_, ?_, ?_, ?_⟩
  · show 0 ≤ a.1 + clamp k (b.1 - a.1); simp only [clamp]; omega
  · show a.1 + clamp k (b.1 - a.1) < size.1; simp only [clamp]; omega
  · show 0 ≤ a.2 + clamp k (b.2 - a.2); simp only [clamp]; omega
  · show a.2 + clamp k (b.2 - a.2) < size.2; simp only [clamp]; omega

theorem cheb_toward {k : Int} {a b : Coordinate} (h0 : 0 ≤ k) (h1 : k ≤ cheb a b) :
    cheb a (toward k a b) = k := by
  rw [cheb_abs] at h1
  rw [cheb_start_toward a b h0]
  generalize |b.1 - a.1| = m1 at *
  generalize |b.2 - a.2| = m2 at *
  omega

theorem cheb_toward_goal {k : Int} {a b : Coordinate} (h0 : 0 ≤ k) (h1 : k ≤ cheb a b) :
    cheb (toward k a b) b = cheb a b - k := by
  have n1 := abs_nonneg (b.1 - a.1)
  have n2 := abs_nonneg (b.2 - a.2)
  rw [cheb_abs] at h1
  rw [cheb_goal_toward a b h0, cheb_abs a b]
  generalize |b.1 - a.1| = m1 at *
  generalize |b.2 - a.2| = m2 at *
  omega

/-- Consecutive cells of the path are a king's move apart, and the move goes on along a
cheapest path from the first cell. -/
theorem toward_step {k : Int} {a b : Coordinate} (h0 : 0 ≤ k) (h1 : k < cheb a b) :
    cheb (toward k a b) (toward (k + 1) a b) = 1 ∧
      Straight a (toward k a b) (toward (k + 1) a b) := by
  have n1 := abs_nonneg (b.1 - a.1)
  have n2 := abs_nonneg (b.2 - a.2)
  rw [cheb_abs] at h1
  refine ⟨?_, ?_, ?_⟩
  · rw [cheb_toward_step a b h0]
    generalize |b.1 - a.1| = m1 at *
    generalize |b.2 - a.2| = m2 at *
    omega
  · rw [cheb_start_toward a b h0, cheb_start_toward a b (by omega : (0 : Int) ≤ k + 1)]
    generalize |b.1 - a.1| = m1 at *
    generalize |b.2 - a.2| = m2 at *
    omega
  · rw [manhattan_start_toward a b h0, manhattan_start_toward a b (by omega : (0 : Int) ≤ k + 1),
      manhattan_toward_step a b h0]
    generalize |b.1 - a.1| = m1 at *
    generalize |b.2 - a.2| = m2 at *
    omega

/-- The path wastes nothing of the Manhattan distance. -/
theorem manhattan_toward {k : Int} (a b : Coordinate) (h0 : 0 ≤ k) :
    manhattan a (toward k a b) + manhattan (toward k a b) b = manhattan a b := by
  rw [manhattan_start_toward a b h0, manhattan_toward_goal a b h0, manhattan_abs]
  generalize |b.1 - a.1| = m1 at *
  generalize |b.2 - a.2| = m2 at *
  omega

/-- Along the path the Manhattan distance to the goal decreases. -/
theorem manhattan_toward_lt {j k : Int} {a b : Coordinate} (h0 : 0 ≤ j) (hjk : j < k)
    (h1 : k ≤ cheb a b) :
    manhattan (toward k a b) b < manhattan (toward j a b) b := by
  have n1 := abs_nonneg (b.1 - a.1)
  have n2 := abs_nonneg (b.2 - a.2)
  rw [cheb_abs] at h1
  rw [manhattan_toward_goal a b h0, manhattan_toward_goal a b (by omega : (0 : Int) ≤ k)]
  generalize |b.1 - a.1| = m1 at *
  generalize |b.2 - a.2| = m2 at *
  omega

/-- Of the cells a king's move from a cell of the path, the next cell of the path is the
one nearest to the goal in Manhattan distance, and the only one. -/
theorem toward_best {k : Int} {a b n : Coordinate} (h0 : 0 ≤ k)
    (hn : cheb (toward k a b) n = 1) (hne : n ≠ toward (k + 1) a b) :
    manhattan (toward (k + 1) a b) b < manhattan n b := by
  have s1 := clamp_step (b.1 - a.1) h0
  have s2 := clamp_step (b.2 - a.2) h0
  have hb : ∀ e1 e2 : Int, -1 ≤ e1 → e1 ≤ 1 → -1 ≤ e2 → e2 ≤ 1 →
      (e1 ≠ clamp 1 (b.1 - a.1 - clamp k (b.1 - a.1)) ∨
        e2 ≠ clamp 1 (b.2 - a.2 - clamp k (b.2 - a.2))) →
      |b.1 - a.1 - clamp k (b.1 - a.1) - clamp 1 (b.1 - a.1 - clamp k (b.1 - a.1))| +
        |b.2 - a.2 - clamp k (b.2 - a.2) - clamp 1 (b.2 - a.2 - clamp k (b.2 - a.2))| <
      |b.1 - a.1 - clamp k (b.1 - a.1) - e1| + |b.2 - a.2 - clamp k (b.2 - a.2) - e2| := by
    intro e1 e2 a1 a2 a3 a4 hor
    obtain ⟨b1, b2⟩ := clamp_one_best (b.1 - a.1 - clamp k (b.1 - a.1)) e1 a1 a2
    obtain ⟨b3, b4⟩ := clamp_one_best (b.2 - a.2 - clamp k (b.2 - a.2)) e2 a3 a4
    rcases hor with hor | hor
    · have : |b.1 - a.1 - clamp k (b.1 - a.1) - clamp 1 (b.1 - a.1 - clamp k (b.1 - a.1))| <
          |b.1 - a.1 - clamp k (b.1 - a.1) - e1| :=
        lt_of_le_of_ne b1 (fun h => hor (b2 h))
      omega
    · have : |b.2 - a.2 - clamp k (b.2 - a.2) - clamp 1 (b.2 - a.2 - clamp k (b.2 - a.2))| <
          |b.2 - a.2 - clamp k (b.2 - a.2) - e2| :=
        lt_of_le_of_ne b3 (fun h => hor (b4 h))
      omega
  have hne' : n.1 ≠ (toward (k + 1) a b).1 ∨ n.2 ≠ (toward (k + 1) a b).2 := by
    by_contra hcon
    push_neg at hcon
    exact hne (Prod.ext hcon.1 hcon.2)
  have hn1 : |(toward k a b).1 - n.1| ≤ 1 := by
    have := le_max_left |(toward k a b).1 - n.1| |(toward k a b).2 - n.2|
    rw [cheb] at hn
    omega
  have hn2 : |(toward k a b).2 - n.2| ≤ 1 := by
    have := le_max_right |(toward k a b).1 - n.1| |(toward k a b).2 - n.2|
    rw [cheb] at hn
    omega
  rw [abs_le] at hn1 hn2
  simp only [toward] at hn1 hn2 hne'
  have key := hb (n.1 - (a.1 + clamp k (b.1 - a.1))) (n.2 - (a.2 + clamp k (b.2 - a.2)))
    (by omega) (by omega) (by omega) (by omega) (by
      rcases hne' with h | h
      · left; omega
      · right; omega)
  rw [manhattan_abs, manhattan_abs]
  simp only [toward]
  rw [← s1, ← s2] at key
  have r1 : b.1 - (a.1 + clamp (k + 1) (b.1 - a.1)) =
      b.1 - a.1 - clamp k (b.1 - a.1) - (clamp (k + 1) (b.1 - a.1) - clamp k (b.1 - a.1)) := by
    ring
  have r2 : b.2 - (a.2 + clamp (k + 1) (b.2 - a.2)) =
      b.2 - a.2 - clamp k (b.2 - a.2) - (clamp (k + 1) (b.2 - a.2) - clamp k (b.2 - a.2)) := by
    ring
  have r3 : b.1 - n.1 =
      b.1 - a.1 - clamp k (b.1 - a.1) - (n.1 - (a.1 + clamp k (b.1 - a.1))) := by ring
  have r4 : b.2 - n.2 =
      b.2 - a.2 - clamp k (b.2 - a.2) - (n.2 - (a.2 + clamp k (b.2 - a.2))) := by ring
  rw [r1, r2, r3, r4]
  exact key

/-- The cells of the path are distinct. -/
theorem toward_injective {j k : Int} {a b : Coordinate} (h0 : 0 ≤ j) (hj : j ≤ cheb a b)
    (h0' : 0 ≤ k) (hk : k ≤ cheb a b) (h : toward j a b = toward k a b) : j = k := by
  have e1 := cheb_toward h0 hj
  have e2 := cheb_toward h0' hk
  rw [h] at e1
  omega

end AlgorithmBase

/-! ## Theorems: A* with diagonal moves, the core of the invariant -/

namespace Board

open AlgorithmBase

variable {E : Type}

/-- On a board without obstacles with diagonals enabled, the neighbors of an in-bounds cell
are the in-bounds cells a king's move away. -/
theorem mem_getNeighbors_king (b : Board E)
    (hclear : ∀ c, (b.m_nodes c).position = c ∧ (b.m_nodes c).obstacle = false)
    (node m : Coordinate) (cc : Bool) (hv : b.isValidNode node = true) :
    m ∈ b.getNeighbors node [] true cc ↔ (b.isValidNode m = true ∧ cheb node m = 1) := by
  obtain ⟨n1, n2⟩ := node
  obtain ⟨m1, m2⟩ := m
  simp only [getNeighbors, Bool.not_true, Bool.false_eq_true, if_false,
    getNeighborsWithDiagonals_eq, getNeighborsWithoutDiagonals_eq,
    List.nil_append, List.mem_append, mem_candidate, (hclear _).1, (hclear _).2,
    isAccessible_iff, hv, Prod.mk.injEq, cheb_eq]
  constructor
  · rintro ((⟨⟨rfl, rfl⟩, h, _⟩ | ⟨⟨rfl, rfl⟩, h, _⟩ | ⟨⟨rfl, rfl⟩, h, _⟩ | ⟨⟨rfl, rfl⟩, h, _⟩) |
      ⟨⟨rfl, rfl⟩, h, _⟩ | ⟨⟨rfl, rfl⟩, h, _⟩ | ⟨⟨rfl, rfl⟩, h, _⟩ | ⟨⟨rfl, rfl⟩, h, _⟩) <;>
      exact ⟨h, by omega⟩
  · rintro ⟨h, hm⟩
    have c1 : m1 = n1 - 1 ∨ m1 = n1 ∨ m1 = n1 + 1 := by omega
    have c2 : m2 = n2 - 1 ∨ m2 = n2 ∨ m2 = n2 + 1 := by omega
    rcases c1 with rfl | rfl | rfl <;> rcases c2 with rfl | rfl | rfl
    · exact Or.inr (Or.inl ⟨⟨rfl, rfl⟩, h, h, by simp⟩)
    · exact Or.inl (Or.inr (Or.inr (Or.inr ⟨⟨rfl, rfl⟩, h, h, by simp⟩)))
    · exact Or.inr (Or.inr (Or.inr (Or.inr ⟨⟨rfl, rfl⟩, h, h, by simp⟩)))
    · exact Or.inl (Or.inl ⟨⟨rfl, rfl⟩, h, h, by simp⟩)
    · exfalso; omega
    · exact Or.inl (Or.inr (Or.inr (Or.inl ⟨⟨rfl, rfl⟩, h, h, by simp⟩)))
    · exact Or.inr (Or.inr (Or.inl ⟨⟨rfl, rfl⟩, h, h, by simp⟩))
    · exact Or.inl (Or.inr (Or.inl ⟨⟨rfl, rfl⟩, h, h, by simp⟩))
    · exact Or.inr (Or.inr (Or.inr (Or.inl ⟨⟨rfl, rfl⟩, h, h, by simp⟩)))

end Board

namespace AStar

open AlgorithmBase

variable {α : Type}

theorem AccurateK.tol_lt {A : Env α} {v : α → ℝ} {hstar : Coordinate → ℝ} {c2 ε T : ℝ}
    {heuristic : Heuristic} {size goal : Coordinate}
    (hacc : AccurateK A v hstar c2 ε T heuristic size goal) : 3 * T < 1 := by
  rcases hacc.regime with ⟨_, h2⟩ | ⟨_, _, h3, _⟩
  · have := min_le_left (c2 - 1) (2 - c2)
    have := hacc.c2_le
    linarith
  · rw [h3]
    norm_num

/-- The exact heuristic is at most the cost of a cheapest path to the goal. -/
theorem AccurateK.admissible {A : Env α} {v : α → ℝ} {hstar : Coordinate → ℝ} {c2 ε T : ℝ}
    {heuristic : Heuristic} {size goal : Coordinate}
    (hacc : AccurateK A v hstar c2 ε T heuristic size goal) (hgoal : InBounds size goal)
    {c : Coordinate} (hc : InBounds size c) : hstar c ≤ octile c2 c goal := by
  have := hacc.hstar_consistent c goal hc hgoal
  rw [hacc.hstar_goal] at this
  linarith

theorem KCore.valid_iff {A : Env α} {v : α → ℝ} {c2 ε : ℝ} {heuristic : Heuristic}
    {size start goal : Coordinate} {s : State α}
    (hc : KCore A v c2 ε heuristic size start goal s) (c : Coordinate) :
    s.m_board.isValidNode c = true ↔ InBounds size c := by
  rw [isValidNode_iff_inBounds, hc.size_eq]

/-- Closing the frontier node at the back of the sorted frontier keeps the core of the
invariant, when the move from its parent goes on along a cheapest path from the start. -/
theorem KCore.closeWith_kcore {A : Env α} {v : α → ℝ} {c2 ε : ℝ} {heuristic : Heuristic}
    {size start goal : Coordinate} {s : State α}
    (hc : KCore A v c2 ε heuristic size start goal s)
    {node : Coordinate} {rest : List Coordinate}
    (hperm : (rest ++ [node]).Perm s.m_openNodes)
    (hshape : ∀ p, (s.m_board.m_nodes node).parent = some p → Straight start p node) :
    KCore A v c2 ε heuristic size start goal (closeWith s node rest) := by
  have hnf : node ∈ s.m_openNodes := hperm.subset (by simp)
  obtain ⟨hno, hnc⟩ := (hc.front_iff node).1 hnf
  have hnd : (rest ++ [node]).Nodup := hperm.nodup_iff.2 hc.front_nodup
  have hnotin : node ∉ rest := fun hm =>
    (List.nodup_append.1 hnd).2.2 hm (List.mem_singleton_self _)
  refine ⟨hc.size_eq, hc.start_eq, hc.goal_eq, hc.heur, hc.diag, hc.sol, ?_, ?_, ?_, ?_, ?_,
    ?_, ?_, ?_, ?_, ?_, ?_, ?_⟩
  · intro c
    rw [closeWith_position, closeWith_obstacle]
    exact hc.clear c
  · intro c hco
    rw [closeWith_opened] at hco
    exact hc.opened_valid c hco
  · intro c hcc
    rw [closeWith_opened]
    rcases (closeWith_closed s node rest c).1 hcc with h1 | h1
    · rw [h1]; exact hno
    · exact hc.closed_opened c h1
  · intro c
    rw [closeWith_opened, closeWith_closed_false]
    show c ∈ rest ↔ _
    constructor
    · intro hcr
      have := (hc.front_iff c).1 (hperm.subset (List.mem_append_left _ hcr))
      exact ⟨this.1, fun hcn => hnotin (hcn ▸ hcr), this.2⟩
    · rintro ⟨h1, h2, h3⟩
      have := hperm.symm.subset ((hc.front_iff c).2 ⟨h1, h3⟩)
      rcases List.mem_append.1 this with h4 | h4
      · exact h4
      · exact absurd (List.mem_singleton.1 h4) h2
  · exact (List.nodup_append.1 hnd).1
  · intro c hco
    rw [closeWith_opened] at hco
    rw [closeWith_h, closeWith_g]
    exact hc.fresh c hco
  · rw [closeWith_opened]; exact hc.start_opened
  · rw [closeWith_parent]; exact hc.start_parent
  · rw [closeWith_g]; exact hc.start_g
  · intro c hco hcs
    rw [closeWith_opened] at hco
    obtain ⟨p, h1, h2, h3, h4, h5⟩ := hc.chain c hco hcs
    refine ⟨p, by rw [closeWith_parent]; exact h1, (closeWith_closed s node rest p).2 (Or.inr h2),
      h3, by rw [closeWith_g]; exact h4, by rw [closeWith_h]; exact h5⟩
  · intro c hcc
    rw [closeWith_g]
    rcases (closeWith_closed s node rest c).1 hcc with h1 | h1
    · rw [h1]
      by_cases hns : node = start
      · rw [hns, hc.start_g, octile_self, cheb_self]
        simp
      · obtain ⟨p, e1, _, e3, e4, _⟩ := hc.chain node hno hns
        have hst := hshape p e1
        rw [hst.octile_add e3] at e4
        have e5 : (cheb start node : ℝ) = (cheb start p : ℝ) + 1 := by exact_mod_cast hst.1
        rw [e5]
        exact e4
    · exact hc.closed_g c h1
  · intro c p hcc hcp
    rw [closeWith_parent] at hcp
    rcases (closeWith_closed s node rest c).1 hcc with h1 | h1
    · rw [h1] at hcp
      exact h1 ▸ hshape p hcp
    · exact hc.closed_shape c p h1 hcp

/-- The core of the invariant is kept when the neighbor `n` of the closed node `node`, not
closed, gets `node` as parent, `h` and `g` by way of `node`, and is opened (put on the
frontier when it was not opened). -/
theorem KCore.relax_kcore {A : Env α} {v : α → ℝ} {c2 ε : ℝ} {heuristic : Heuristic}
    {size start goal node n : Coordinate} {x x' : State α}
    (hc : KCore A v c2 ε heuristic size start goal x)
    (hsc : (x.m_board.m_nodes start).ext.closed = true)
    (hnodec : (x.m_board.m_nodes node).ext.closed = true)
    (hnv : InBounds size n) (hadj : cheb node n = 1)
    (hnc : (x.m_board.m_nodes n).ext.closed = false)
    (hframe : x'.solution = x.solution ∧ x'.m_heuristic = x.m_heuristic ∧
      x'.m_diagonals = x.m_diagonals ∧ x'.m_board.m_size = x.m_board.m_size ∧
      x'.m_board.m_start = x.m_board.m_start ∧ x'.m_board.m_goal = x.m_board.m_goal)
    (hother : ∀ c, c ≠ n → x'.m_board.m_nodes c = x.m_board.m_nodes c)
    (hparent : (x'.m_board.m_nodes n).parent = some node)
    (hopened : (x'.m_board.m_nodes n).opened = true)
    (hpos : (x'.m_board.m_nodes n).position = (x.m_board.m_nodes n).position)
    (hobst : (x'.m_board.m_nodes n).obstacle = (x.m_board.m_nodes n).obstacle)
    (hclosed : (x'.m_board.m_nodes n).ext.closed = (x.m_board.m_nodes n).ext.closed)
    (hh : (x'.m_board.m_nodes n).ext.h = distance A heuristic n goal)
    (hg : |v (x'.m_board.m_nodes n).ext.g - (octile c2 start node + octile c2 node n)| ≤
      ((cheb start node : ℝ) + 1) * ε)
    (hfront : (x'.m_openNodes = x.m_openNodes ∧ (x.m_board.m_nodes n).opened = true) ∨
      (x'.m_openNodes = x.m_openNodes ++ [n] ∧ (x.m_board.m_nodes n).opened = false)) :
    KCore A v c2 ε heuristic size start goal x' := by
  obtain ⟨f1, f2, f3, f4, f5, f6⟩ := hframe
  have hns : n ≠ start := by
    intro hns
    rw [hns, hsc] at hnc
    exact absurd hnc (by simp)
  have hcl : ∀ c, (x'.m_board.m_nodes c).ext.closed = (x.m_board.m_nodes c).ext.closed := by
    intro c
    by_cases hcn : c = n
    · rw [hcn, hclosed]
    · rw [hother c hcn]
  have hop : ∀ c, (x.m_board.m_nodes c).opened = true → (x'.m_board.m_nodes c).opened = true := by
    intro c hco
    by_cases hcn : c = n
    · rw [hcn]; exact hopened
    · rw [hother c hcn]; exact hco
  refine ⟨f4.trans hc.size_eq, f5.trans hc.start_eq, f6.trans hc.goal_eq, f2.trans hc.heur,
    f3.trans hc.diag, f1.trans hc.sol, ?_, ?_, ?_, ?_, ?_, ?_, ?_, ?_, ?_, ?_, ?_, ?_⟩
  · intro c
    by_cases hcn : c = n
    · rw [hcn, hpos, hobst]; exact hc.clear n
    · rw [hother c hcn]; exact hc.clear c
  · intro c hco
    by_cases hcn : c = n
    · rw [hcn]; exact hnv
    · rw [hother c hcn] at hco; exact hc.opened_valid c hco
  · intro c hcc
    rw [hcl] at hcc
    exact hop c (hc.closed_opened c hcc)
  · intro c
    rw [hcl]
    rcases hfront with ⟨hf, ho⟩ | ⟨hf, ho⟩
    · rw [hf, hc.front_iff]
      by_cases hcn : c = n
      · rw [hcn]
        simp [ho, hopened]
      · rw [hother c hcn]
    · rw [hf, List.mem_append, List.mem_singleton, hc.front_iff]
      by_cases hcn : c = n
      · rw [hcn]
        simp [hopened, hnc]
      · rw [hother c hcn]
        simp [hcn]
  · rcases hfront with ⟨hf, _⟩ | ⟨hf, ho⟩
    · rw [hf]; exact hc.front_nodup
    · rw [hf]
      refine List.Nodup.append hc.front_nodup (List.nodup_singleton _) ?_
      intro c hc1 hc2
      rw [List.mem_singleton] at hc2
      subst hc2
      have := ((hc.front_iff c).1 hc1).1
      rw [ho] at this
      exact absurd this (by simp)
  · intro c hco
    have hcn : c ≠ n := by
      intro hcn
      rw [hcn, hopened] at hco
      exact absurd hco (by simp)
    rw [hother c hcn] at hco ⊢
    exact hc.fresh c hco
  · exact hop start hc.start_opened
  · rw [hother start hns.symm]; exact hc.start_parent
  · rw [hother start hns.symm]; exact hc.start_g
  · intro c hco hcs
    by_cases hcn : c = n
    · rw [hcn]
      exact ⟨node, hparent, by rw [hcl]; exact hnodec, hadj, hg, hh⟩
    · rw [hother c hcn] at hco ⊢
      obtain ⟨p, h1, h2, h3, h4, h5⟩ := hc.chain c hco hcs
      exact ⟨p, h1, by rw [hcl]; exact h2, h3, h4, h5⟩
  · intro c hcc
    rw [hcl] at hcc
    have hcn : c ≠ n := by
      intro hcn
      rw [hcn, hnc] at hcc
      exact absurd hcc (by simp)
    rw [hother c hcn]
    exact hc.closed_g c hcc
  · intro c p hcc hcp
    rw [hcl] at hcc
    have hcn : c ≠ n := by
      intro hcn
      rw [hcn, hnc] at hcc
      exact absurd hcc (by simp)
    rw [hother c hcn] at hcp
    exact hc.closed_shape c p hcc hcp

/-- What `updateNode` does in a state with the core of the invariant, where the position of
a node is its index. -/
theorem KCore.updateNode_eqK {A : Env α} {v : α → ℝ} {c2 ε : ℝ} {heuristic : Heuristic}
    {size start goal : Coordinate} {x : State α}
    (hc : KCore A v c2 ε heuristic size start goal x) (n node : Coordinate) :
    updateNode A x n node =
      if A.lt (A.add (distance A heuristic n goal)
            (A.add (x.m_board.m_nodes node).ext.g (distance A heuristic node n)))
          (A.add (x.m_board.m_nodes n).ext.h (x.m_board.m_nodes n).ext.g) = true then
        { x with
          m_board := x.m_board.write n
            { x.m_board.m_nodes n with
              parent := some node
              ext := { (x.m_board.m_nodes n).ext with
                h := distance A heuristic n goal
                g := A.add (x.m_board.m_nodes node).ext.g (distance A heuristic node n) } } }
      else x := by
  unfold updateNode
  simp only [hc.heur, (hc.clear _).1, Board.getGoal, hc.goal_eq]

/-- The `g` that `updateNode` computes for a neighbor of a closed node holds the cost of a
cheapest path to the closed node plus the cost of the move. -/
theorem KCore.g_newK {A : Env α} {v : α → ℝ} {hstar : Coordinate → ℝ} {c2 ε T : ℝ}
    {heuristic : Heuristic} {size start goal node n : Coordinate} {x : State α}
    (hacc : AccurateK A v hstar c2 ε T heuristic size goal)
    (hc : KCore A v c2 ε heuristic size start goal x) (hstart : InBounds size start)
    (hnodec : (x.m_board.m_nodes node).ext.closed = true)
    (hnv : InBounds size n) (hadj : cheb node n = 1) :
    |v (A.add (x.m_board.m_nodes node).ext.g (distance A heuristic node n)) -
        (octile c2 start node + octile c2 node n)| ≤ ((cheb start node : ℝ) + 1) * ε :=
  hacc.step_val start node n _ hstart (hc.opened_valid node (hc.closed_opened node hnodec)) hnv
    hadj (hc.closed_g node hnodec)

/-- The `h + g` that `updateNode` computes for a neighbor of a closed node is within `T` of
the exact value. -/
theorem KCore.f_new {A : Env α} {v : α → ℝ} {hstar : Coordinate → ℝ} {c2 ε T : ℝ}
    {heuristic : Heuristic} {size start goal node n : Coordinate} {x : State α}
    (hacc : AccurateK A v hstar c2 ε T heuristic size goal)
    (hc : KCore A v c2 ε heuristic size start goal x) (hstart : InBounds size start)
    (hnodec : (x.m_board.m_nodes node).ext.closed = true)
    (hnv : InBounds size n) (hadj : cheb node n = 1) :
    |v (A.add (distance A heuristic n goal)
        (A.add (x.m_board.m_nodes node).ext.g (distance A heuristic node n))) -
      (hstar n + (octile c2 start node + octile c2 node n))| ≤ T :=
  hacc.sum_val start node n _ hstart (hc.opened_valid node (hc.closed_opened node hnodec)) hnv
    hadj (hc.g_newK hacc hstart hnodec hnv hadj)

/-- The computed `h + g` of an opened node other than the start is within `T` of the exact
value. -/
theorem KCore.fval_chain {A : Env α} {v : α → ℝ} {hstar : Coordinate → ℝ} {c2 ε T : ℝ}
    {heuristic : Heuristic} {size start goal c : Coordinate} {x : State α}
    (hacc : AccurateK A v hstar c2 ε T heuristic size goal)
    (hc : KCore A v c2 ε heuristic size start goal x) (hstart : InBounds size start)
    (hco : (x.m_board.m_nodes c).opened = true) (hcs : c ≠ start) :
    ∃ p, (x.m_board.m_nodes c).parent = some p ∧ (x.m_board.m_nodes p).ext.closed = true ∧
      cheb p c = 1 ∧ InBounds size p ∧
      |fval A v x c - (hstar c + (octile c2 start p + octile c2 p c))| ≤ T := by
  obtain ⟨p, h1, h2, h3, h4, h5⟩ := hc.chain c hco hcs
  have hpv := hc.opened_valid p (hc.closed_opened p h2)
  refine ⟨p, h1, h2, h3, hpv, ?_⟩
  rw [fval, h5]
  exact hacc.sum_val start p c _ hstart hpv (hc.opened_valid c hco) h3 h4

/-- Visiting a neighbor of the closed node `node` that is opened and not closed:
`updateNode` keeps the core of the invariant, touches no other node, and leaves the computed
`h + g` of the neighbor no larger than it was and than the way by `node` gives. -/
theorem KCore.visit_openedK {A : Env α} {v : α → ℝ} {hstar : Coordinate → ℝ} {c2 ε T : ℝ}
    {heuristic : Heuristic} {size start goal node n : Coordinate} {x : State α}
    (hacc : AccurateK A v hstar c2 ε T heuristic size goal)
    (hc : KCore A v c2 ε heuristic size start goal x) (hstart : InBounds size start)
    (hsc : (x.m_board.m_nodes start).ext.closed = true)
    (hnodec : (x.m_board.m_nodes node).ext.closed = true)
    (hnv : InBounds size n) (hadj : cheb node n = 1)
    (hnc : (x.m_board.m_nodes n).ext.closed = false)
    (ho : (x.m_board.m_nodes n).opened = true) :
    KCore A v c2 ε heuristic size start goal (updateNode A x n node) ∧
    (∀ c, c ≠ n → (updateNode A x n node).m_board.m_nodes c = x.m_board.m_nodes c) ∧
    (updateNode A x n node).m_openNodes = x.m_openNodes ∧
    fval A v (updateNode A x n node) n ≤
      hstar n + (octile c2 start node + octile c2 node n) + T ∧
    fval A v (updateNode A x n node) n ≤ fval A v x n := by
  have hfn := abs_le.1 (hc.f_new hacc hstart hnodec hnv hadj)
  refine ⟨?_, fun c hcn => astar_updateNode_of_ne A x n node c hcn,
    (astar_updateNode_frame A x n node).2.2.2.2.2.2.1, ?_, ?_⟩
  · rw [hc.updateNode_eqK n node]
    split
    · refine hc.relax_kcore hsc hnodec hnv hadj hnc ⟨rfl, rfl, rfl, rfl, rfl, rfl⟩
        (fun c hcn => Board.write_m_nodes_of_ne _ _ _ _ hcn) ?_ ?_ ?_ ?_ ?_ ?_ ?_
        (Or.inl ⟨rfl, ho⟩)
      · simp
      · simp [ho]
      · simp
      · simp
      · simp
      · simp
      · simp only [Board.write_m_nodes_same]
        exact hc.g_newK hacc hstart hnodec hnv hadj
    · exact hc
  · rw [hc.updateNode_eqK n node]
    split
    · simp only [fval, Board.write_m_nodes_same]
      linarith [hfn.2]
    · rename_i hfire
      rw [hacc.lt_val] at hfire
      simp only [fval] at hfire ⊢
      linarith [hfn.2]
  · rw [hc.updateNode_eqK n node]
    split
    · rename_i hfire
      rw [hacc.lt_val] at hfire
      simp only [fval, Board.write_m_nodes_same]
      exact le_of_lt hfire
    · exact le_refl _

/-- What `updateNode` leaves at a neighbor of a closed node that was not opened. -/
theorem KCore.openNew_eqK {A : Env α} {v : α → ℝ} {hstar : Coordinate → ℝ} {c2 ε T : ℝ}
    {heuristic : Heuristic} {size start goal node n : Coordinate} {x : State α}
    (hacc : AccurateK A v hstar c2 ε T heuristic size goal)
    (hc : KCore A v c2 ε heuristic size start goal x) (hstart : InBounds size start)
    (hnodec : (x.m_board.m_nodes node).ext.closed = true)
    (hnv : InBounds size n) (hadj : cheb node n = 1)
    (ho : (x.m_board.m_nodes n).opened = false) :
    updateNode A x n node =
      { x with
        m_board := x.m_board.write n
          { x.m_board.m_nodes n with
            parent := some node
            ext := { (x.m_board.m_nodes n).ext with
              h := distance A heuristic n goal
              g := A.add (x.m_board.m_nodes node).ext.g (distance A heuristic node n) } } } := by
  have hfn := abs_le.1 (hc.f_new hacc hstart hnodec hnv hadj)
  have hnodev := hc.opened_valid node (hc.closed_opened node hnodec)
  obtain ⟨fh, fg⟩ := hc.fresh n ho
  have h1 := octile_le_size hacc.c2_le hstart hnodev
  have h2 := octile_le_two hacc.c2_le hadj
  have h3 := hacc.max_val n hnv
  have h4 := hacc.tol_lt
  have h5 := hacc.tol_nonneg
  rw [hc.updateNode_eqK n node, fh, fg, if_pos]
  rw [hacc.lt_val]
  linarith [hfn.2]

/-- Visiting a neighbor of the closed node `node` that is not opened: `updateNode` and
`openNode` keep the core of the invariant, touch no other node, put the neighbor on the
frontier with `node` as parent and a computed `h + g` no larger than the way by `node`
gives. -/
theorem KCore.visit_newK {A : Env α} {v : α → ℝ} {hstar : Coordinate → ℝ} {c2 ε T : ℝ}
    {heuristic : Heuristic} {size start goal node n : Coordinate} {x : State α}
    (hacc : AccurateK A v hstar c2 ε T heuristic size goal)
    (hc : KCore A v c2 ε heuristic size start goal x) (hstart : InBounds size start)
    (hsc : (x.m_board.m_nodes start).ext.closed = true)
    (hnodec : (x.m_board.m_nodes node).ext.closed = true)
    (hnv : InBounds size n) (hadj : cheb node n = 1)
    (hnc : (x.m_board.m_nodes n).ext.closed = false)
    (ho : (x.m_board.m_nodes n).opened = false) :
    KCore A v c2 ε heuristic size start goal (pushOpen (updateNode A x n node) n (some node)) ∧
    (∀ c, c ≠ n → (pushOpen (updateNode A x n node) n (some node)).m_board.m_nodes c =
      x.m_board.m_nodes c) ∧
    (pushOpen (updateNode A x n node) n (some node)).m_openNodes = x.m_openNodes ++ [n] ∧
    ((pushOpen (updateNode A x n node) n (some node)).m_board.m_nodes n).parent = some node ∧
    ((pushOpen (updateNode A x n node) n (some node)).m_board.m_nodes n).opened = true ∧
    fval A v (pushOpen (updateNode A x n node) n (some node)) n ≤
      hstar n + (octile c2 start node + octile c2 node n) + T := by
  have hfn := abs_le.1 (hc.f_new hacc hstart hnodec hnv hadj)
  rw [hc.openNew_eqK hacc hstart hnodec hnv hadj ho]
  refine ⟨?_, ?_, rfl, by simp, by simp, ?_⟩
  · refine hc.relax_kcore hsc hnodec hnv hadj hnc ⟨rfl, rfl, rfl, rfl, rfl, rfl⟩ ?_ ?_ ?_ ?_ ?_
      ?_ ?_ ?_ (Or.inr ⟨rfl, ho⟩)
    · intro c hcn
      rw [pushOpen_m_nodes_of_ne _ _ _ _ hcn]
      exact Board.write_m_nodes_of_ne _ _ _ _ hcn
    · simp
    · simp
    · simp
    · simp
    · simp
    · simp
    · simp only [pushOpen_m_nodes_same, Board.write_m_nodes_same]
      exact hc.g_newK hacc hstart hnodec hnv hadj
  · intro c hcn
    rw [pushOpen_m_nodes_of_ne _ _ _ _ hcn]
    exact Board.write_m_nodes_of_ne _ _ _ _ hcn
  · simp only [fval, pushOpen_m_nodes_same, Board.write_m_nodes_same]
    linarith [hfn.2]

end AStar

/-! ## Theorems: A* with diagonal moves, the solution -/

namespace AlgorithmBase

theorem diagonalEdges_singleton (a : Coordinate) : diagonalEdges [a] = 0 := rfl

theorem diagonalEdges_cons_cons (a b : Coordinate) (t : List Coordinate) :
    diagonalEdges (a :: b :: t) =
      diagonalEdges (b :: t) + (if isDiagonal a b = true then 1 else 0) := by
  simp only [diagonalEdges, List.tail_cons, List.zip_cons_cons, List.countP_cons]

/-- The number of diagonal edges after a king's move is put in front of a sequence. -/
theorem diagonalEdges_cons_of_head {a b : Coordinate} {l : List Coordinate}
    (hl : l.head? = some b) (hab : cheb a b = 1) :
    (diagonalEdges (a :: l) : Int) = diagonalEdges l + (manhattan a b - 1) := by
  cases l with
  | nil => simp at hl
  | cons c t =>
    simp only [List.head?_cons, Option.some.injEq] at hl
    subst hl
    rw [diagonalEdges_cons_cons]
    have h1 := isDiagonal_iff_of_cheb_one hab
    rcases manhattan_of_cheb_one hab with h2 | h2
    · have : ¬ isDiagonal a c = true := by
        rw [h1]; omega
      rw [if_neg this, h2]
      simp
    · rw [if_pos (h1.2 h2), h2]
      simp

end AlgorithmBase

namespace AStar

open AlgorithmBase

variable {α : Type}

/-- In a state with the core of the invariant, the loop of `storeSolution` started at a
closed node `k` moves from the start returns, and appends `k + 1` coordinates from that node
to the start, consecutive ones being a king's move apart, with as many diagonal edges as the
Manhattan distance exceeds the number of moves. -/
theorem KCore.storeSolutionLoop_king {A : Env α} {v : α → ℝ} {c2 ε : ℝ}
    {heuristic : Heuristic} {size start goal : Coordinate} {x : State α}
    (hc : KCore A v c2 ε heuristic size start goal x) :
    ∀ (k : Nat) (c : Coordinate) (acc : List Coordinate) (fuel : Nat),
      (x.m_board.m_nodes c).ext.closed = true → cheb start c = (k : Int) → k < fuel →
      ∃ path, storeSolutionLoop x.m_board fuel (some c) acc = some (acc ++ path) ∧
        (path.length : Int) = cheb start c + 1 ∧ path.head? = some c ∧
        path.getLast? = some start ∧
        (diagonalEdges path : Int) = manhattan start c - cheb start c ∧
        path.Chain' (fun a b => cheb a b = 1) := by
  intro k
  induction k with
  | zero =>
    intro c acc fuel _ hk hfuel
    have hcs : start = c := cheb_eq_zero (by simpa using hk)
    subst hcs
    obtain ⟨f, rfl⟩ : ∃ f, fuel = f + 1 := ⟨fuel - 1, by omega⟩
    refine ⟨[start], ?_, by simp [cheb_self], rfl, rfl, ?_, List.chain'_singleton _⟩
    · rw [storeSolutionLoop, hc.start_parent, (hc.clear start).1]
      cases f <;> rfl
    · simp [diagonalEdges_singleton, manhattan_self, cheb_self]
  | succ k ih =>
    intro c acc fuel hcc hk hfuel
    have hcs : c ≠ start := by
      intro hcs
      rw [hcs, cheb_self] at hk
      simp at hk
      omega
    obtain ⟨p, h1, h2, h3, _, _⟩ := hc.chain c (hc.closed_opened c hcc) hcs
    obtain ⟨s1, s2⟩ := hc.closed_shape c p hcc h1
    have hpk : cheb start p = (k : Int) := by
      rw [hk] at s1
      push_cast at s1
      omega
    obtain ⟨f, rfl⟩ : ∃ f, fuel = f + 1 := ⟨fuel - 1, by omega⟩
    obtain ⟨path, e1, e2, e3, e4, e5, e6⟩ := ih p (acc ++ [c]) f h2 hpk (by omega)
    have hcp : cheb c p = 1 := by rw [cheb_comm]; exact h3
    refine ⟨c :: path, ?_, ?_, rfl, ?_, ?_, ?_⟩
    · rw [storeSolutionLoop, h1, (hc.clear c).1, e1]
      simp
    · simp only [List.length_cons]
      push_cast
      omega
    · cases path with
      | nil => simp at e3
      | cons a t =>
        rw [List.getLast?_cons_cons]
        exact e4
    · rw [diagonalEdges_cons_of_head e3 hcp, e5, manhattan_comm c p]
      omega
    · rw [List.chain'_cons']
      refine ⟨?_, e6⟩
      intro y hy
      rw [e3] at hy
      simp only [Option.mem_def, Option.some.injEq] at hy
      subst hy
      exact hcp

/-- In the state in which the goal has just been opened, `storeSolution` returns and stores
a solution of `cheb start goal + 1` coordinates from the goal to the start. -/
theorem GoalFound.storeSolution_king {A : Env α} {v : α → ℝ} {c2 ε : ℝ}
    {heuristic : Heuristic} {size start goal : Coordinate} {x : State α}
    (h : GoalFound A v c2 ε heuristic size start goal x) (hgoal : InBounds size goal)
    {fuel : Nat} (hfuel : cheb start goal < fuel) :
    ∃ s', storeSolution fuel x = some s' ∧ KingPath start goal s' := by
  obtain ⟨hc, p, h1, h2, h3, s1, s2⟩ := h
  have hnn := cheb_nonneg start p
  have hk : ((cheb start p).toNat : Int) = cheb start p := Int.toNat_of_nonneg hnn
  obtain ⟨f, rfl⟩ : ∃ f, fuel = f + 1 := ⟨fuel - 1, by omega⟩
  obtain ⟨path, e1, e2, e3, e4, e5, e6⟩ :=
    hc.storeSolutionLoop_king (cheb start p).toNat p (x.solution ++ [goal]) f h2 hk.symm
      (by omega)
  have hgn : getGoalNode x = some goal := by
    simp only [getGoalNode, Board.getGoalNode, hc.goal_eq]
    rw [if_pos]
    rw [isValidNode_iff_inBounds, hc.size_eq]
    exact hgoal
  have hgp : cheb goal p = 1 := by rw [cheb_comm]; exact h3
  refine ⟨{ x with solution := x.solution ++ [goal] ++ path }, ?_, ?_, ?_, ?_, ?_, ?_⟩
  · simp only [storeSolution, hgn]
    rw [storeSolutionLoop, h1, (hc.clear goal).1, e1]
  · simp only [hc.sol, List.nil_append, List.singleton_append, List.length_cons]
    push_cast
    omega
  · simp only [hc.sol, List.nil_append, List.singleton_append, List.head?_cons]
  · simp only [hc.sol, List.nil_append, List.singleton_append]
    cases path with
    | nil => simp at e3
    | cons a t =>
      rw [List.getLast?_cons_cons]
      exact e4
  · simp only [hc.sol, List.nil_append, List.singleton_append]
    rw [diagonalEdges_cons_of_head e3 hgp, e5, manhattan_comm goal p]
    omega
  · simp only [hc.sol, List.nil_append, List.singleton_append]
    rw [List.chain'_cons']
    refine ⟨?_, e6⟩
    intro y hy
    rw [e3] at hy
    simp only [Option.mem_def, Option.some.injEq] at hy
    subst hy
    exact hgp

end AStar

/-! ## Theorems: A* with diagonal moves that cost less than two straight moves -/

namespace AStar

open AlgorithmBase

variable {α : Type}

theorem fval_congr (A : Env α) (v : α → ℝ) {x x' : State α} {c : Coordinate}
    (h : x'.m_board.m_nodes c = x.m_board.m_nodes c) : fval A v x' c = fval A v x c := by
  simp only [fval, h]

/-- Between the calls of `nextStep`, once the start is closed, every in-bounds cell that is
not closed has a frontier node on a cheapest path from the start to it whose computed
`h + g` is at most the exact value for a cheapest path, within `T`. -/
theorem OptInvK.frontier_on_pathK {A : Env α} {v : α → ℝ} {hstar : Coordinate → ℝ}
    {c2 ε T : ℝ} {heuristic : Heuristic} {size start goal : Coordinate} {s : State α}
    (hacc : AccurateK A v hstar c2 ε T heuristic size goal)
    (h : OptInvK A v hstar c2 ε T heuristic size start goal s)
    (hstart : InBounds size start)
    (hsc : (s.m_board.m_nodes start).ext.closed = true) :
    ∀ (k : Nat) (x : Coordinate), InBounds size x → cheb start x ≤ k →
      (s.m_board.m_nodes x).ext.closed = false →
      ∃ m ∈ s.m_openNodes, fval A v s m ≤ hstar m + octile c2 start m + T ∧
        octile c2 start m + octile c2 m x = octile c2 start x := by
  have hc1 : (1 : ℝ) ≤ c2 := le_of_lt hacc.c2_gt
  intro k
  induction k with
  | zero =>
    intro x _ hk hc
    have h0 : cheb start x = 0 := le_antisymm (by exact_mod_cast hk) (cheb_nonneg _ _)
    have hx : start = x := cheb_eq_zero h0
    rw [← hx, hsc] at hc
    cases hc
  | succ k ih =>
    intro x hx hk hc
    have hxs : x ≠ start := by
      intro hxs
      rw [hxs, hsc] at hc
      cases hc
    obtain ⟨y, hy, hyx, hst⟩ := exists_closer_king hstart hx hxs
    by_cases hcy : (s.m_board.m_nodes y).ext.closed = true
    · obtain ⟨ho, hf⟩ := h.done y hcy x hx hyx
      refine ⟨x, (h.core.front_iff x).2 ⟨ho, hc⟩, ?_, by rw [octile_self]; ring⟩
      have := hf hc
      rw [hst.octile_add hyx] at this
      exact this
    · have hcy' : (s.m_board.m_nodes y).ext.closed = false := by simpa using hcy
      have hky : cheb start y ≤ (k : Int) := by
        have := hst.1
        push_cast at hk
        omega
      obtain ⟨m, hm, hf, hd⟩ := ih y hy hky hcy'
      refine ⟨m, hm, hf, ?_⟩
      have h1 := octile_triangle hc1 hacc.c2_le m y x
      have h2 := octile_triangle hc1 hacc.c2_le start m x
      have h3 := hst.octile_add hyx c2
      linarith

/-- The frontier node that `sortNodes` leaves at the back: the move from its parent goes on
along a cheapest path from the start, and so does the move to the goal when the goal is next
to it. -/
theorem OptInvK.selected {A : Env α} {v : α → ℝ} {hstar : Coordinate → ℝ}
    {c2 ε T : ℝ} {heuristic : Heuristic} {size start goal : Coordinate} {s : State α}
    (hacc : AccurateK A v hstar c2 ε T heuristic size goal)
    (hreg : c2 < 2 ∧ 3 * T < min (c2 - 1) (2 - c2))
    (h : OptInvK A v hstar c2 ε T heuristic size start goal s)
    (hstart : InBounds size start) (hgoal : InBounds size goal)
    {node : Coordinate} (hnf : node ∈ s.m_openNodes)
    (hmin : ∀ m ∈ s.m_openNodes, fval A v s node ≤ fval A v s m) :
    (∀ p, (s.m_board.m_nodes node).parent = some p → Straight start p node) ∧
    (cheb node goal = 1 → Straight start node goal) := by
  have hc1 : (1 : ℝ) ≤ c2 := le_of_lt hacc.c2_gt
  have hT := hacc.tol_nonneg
  obtain ⟨hno, hnc⟩ := (h.core.front_iff node).1 hnf
  have hnv := h.core.opened_valid node hno
  rcases h.start_front with hsc | hfr
  · have hns : node ≠ start := by
      intro hns
      rw [hns, hsc] at hnc
      cases hnc
    obtain ⟨p, e1, e2, e3, e4, e5⟩ := h.core.fval_chain hacc hstart hno hns
    have e5' := abs_le.1 e5
    have hst : Straight start p node := by
      obtain ⟨m, hm, hf, hd⟩ := h.frontier_on_pathK hacc hstart hsc
        (cheb start node).toNat node hnv (by
          rw [Int.toNat_of_nonneg (cheb_nonneg _ _)]) hnc
      have hmv := h.core.opened_valid m ((h.core.front_iff m).1 hm).1
      have h1 := hmin m hm
      have h2 := hacc.hstar_consistent m node hmv hnv
      refine straight_of_gap hacc.c2_gt hreg.1 e3 ?_
      linarith [e5'.1, hreg.2]
    refine ⟨fun q hq => ?_, fun hg => ?_⟩
    · rw [e1] at hq
      cases hq
      exact hst
    · have hgc : (s.m_board.m_nodes goal).ext.closed = false := by
        cases hcg : (s.m_board.m_nodes goal).ext.closed with
        | false => rfl
        | true =>
          have := h.core.closed_opened goal hcg
          rw [h.goal_unopened] at this
          cases this
      obtain ⟨m, hm, hf, hd⟩ := h.frontier_on_pathK hacc hstart hsc
        (cheb start goal).toNat goal hgoal (by
          rw [Int.toNat_of_nonneg (cheb_nonneg _ _)]) hgc
      have hmv := h.core.opened_valid m ((h.core.front_iff m).1 hm).1
      have h1 := hmin m hm
      have h2 := hacc.admissible hgoal hmv
      have h3 := abs_le.1 (hacc.h_val node hnv)
      have h4 := hacc.adj_val node goal hnv hgoal hg
      have h5 := hst.octile_add e3 c2
      rw [h4] at h3
      refine straight_of_gap hacc.c2_gt hreg.1 hg ?_
      linarith [e5'.1, hreg.2, h3.2]
  · rw [hfr] at hnf
    have hns : node = start := List.mem_singleton.1 hnf
    subst hns
    refine ⟨fun q hq => ?_, fun hg => ?_⟩
    · rw [h.core.start_parent] at hq
      cases hq
    · refine ⟨?_, ?_⟩
      · rw [cheb_self, hg]
        rfl
      · rw [manhattan_self]
        ring

/-- Closing the frontier node at the back of the sorted frontier establishes the invariant
of the expansion of that node. -/
theorem OptInvK.closeWith_expK {A : Env α} {v : α → ℝ} {hstar : Coordinate → ℝ}
    {c2 ε T : ℝ} {heuristic : Heuristic} {size start goal : Coordinate} {s : State α}
    (hacc : AccurateK A v hstar c2 ε T heuristic size goal)
    (hreg : c2 < 2 ∧ 3 * T < min (c2 - 1) (2 - c2))
    (h : OptInvK A v hstar c2 ε T heuristic size start goal s)
    (hstart : InBounds size start) (hgoal : InBounds size goal)
    {node : Coordinate} {rest : List Coordinate}
    (hperm : (rest ++ [node]).Perm s.m_openNodes)
    (hmin : ∀ m ∈ s.m_openNodes, fval A v s node ≤ fval A v s m) (cc : Bool) :
    ExpInvK A v hstar c2 ε T heuristic size start goal node
      (s.m_board.getNeighbors node [] true cc) (closeWith s node rest) := by
  have hc := h.core
  have hnf : node ∈ s.m_openNodes := hperm.subset (by simp)
  obtain ⟨hshape, hng⟩ := h.selected hacc hreg hstart hgoal hnf hmin
  obtain ⟨hno, hnc⟩ := (hc.front_iff node).1 hnf
  have hnv := hc.opened_valid node hno
  have hfv : ∀ m, m ≠ node → fval A v (closeWith s node rest) m = fval A v s m := by
    intro m hm
    simp only [fval, closeWith_h, closeWith_g]
  have hdone : ∀ c, (s.m_board.m_nodes c).ext.closed = true →
      NeighborsDoneK A v hstar c2 T size start (closeWith s node rest) c := by
    intro c hcc m hm hadj
    obtain ⟨h1, h2⟩ := h.done c hcc m hm hadj
    refine ⟨by rw [closeWith_opened]; exact h1, fun hcm => ?_⟩
    obtain ⟨h3, h4⟩ := (closeWith_closed_false s node rest m).1 hcm
    rw [hfv m h3]
    exact h2 h4
  refine ⟨?_, hc.closeWith_kcore hperm hshape, ?_, ?_, ?_, ?_, ?_, hng⟩
  · intro n hn
    rw [Board.mem_getNeighbors_king _ hc.clear _ _ _ ((hc.valid_iff node).2 hnv)] at hn
    exact ⟨(hc.valid_iff n).1 hn.1, hn.2⟩
  · rw [closeWith_opened]
    exact h.goal_unopened
  · rw [closeWith_closed]
    rcases h.start_front with h1 | h1
    · exact Or.inr h1
    · rw [h1] at hnf
      exact Or.inl (List.mem_singleton.1 hnf).symm
  · rw [closeWith_closed]
    exact Or.inl rfl
  · intro c hcc hcn
    rcases (closeWith_closed s node rest c).1 hcc with h1 | h1
    · exact absurd h1 hcn
    · exact hdone c h1
  · intro m hm hadj
    refine Or.inl ?_
    rw [Board.mem_getNeighbors_king _ hc.clear _ _ _ ((hc.valid_iff node).2 hnv)]
    exact ⟨(hc.valid_iff m).2 hm, hadj⟩

/-- The invariant of the expansion is kept by the visit of a neighbor that leaves it opened,
touches no other node, does not raise its computed `h + g`, leaves it at most what the way
by the expanded node gives, and does not open the goal. -/
theorem ExpInvK.expK_step {A : Env α} {v : α → ℝ} {hstar : Coordinate → ℝ}
    {c2 ε T : ℝ} {heuristic : Heuristic} {size start goal node n : Coordinate}
    {rem : List Coordinate} {x x' : State α}
    (h : ExpInvK A v hstar c2 ε T heuristic size start goal node (n :: rem) x)
    (hcore : KCore A v c2 ε heuristic size start goal x')
    (hother : ∀ c, c ≠ n → x'.m_board.m_nodes c = x.m_board.m_nodes c)
    (hop : (x'.m_board.m_nodes n).opened = true)
    (hcl : (x'.m_board.m_nodes n).ext.closed = (x.m_board.m_nodes n).ext.closed)
    (hf : (x.m_board.m_nodes n).ext.closed = false →
      fval A v x' n ≤ hstar n + (octile c2 start node + octile c2 node n) + T)
    (hmono : (x.m_board.m_nodes n).opened = true → fval A v x' n ≤ fval A v x n)
    (hgoal : (x.m_board.m_nodes n).opened = false → n ≠ goal) :
    ExpInvK A v hstar c2 ε T heuristic size start goal node rem x' := by
  have hcl' : ∀ c, (x'.m_board.m_nodes c).ext.closed = (x.m_board.m_nodes c).ext.closed := by
    intro c
    by_cases hcn : c = n
    · rw [hcn, hcl]
    · rw [hother c hcn]
  refine ⟨fun m hm => h.rem_adj m (List.mem_cons_of_mem _ hm), hcore, ?_, ?_, ?_, ?_, ?_,
    h.node_goal⟩
  · by_cases hgn : goal = n
    · exact absurd hgn.symm (hgoal (hgn ▸ h.goal_unopened))
    · rw [hother goal hgn]
      exact h.goal_unopened
  · rw [hcl']; exact h.start_closed
  · rw [hcl']; exact h.node_closed
  · intro c hcc hcnode m hm hadj
    rw [hcl'] at hcc
    obtain ⟨h1, h2⟩ := h.done c hcc hcnode m hm hadj
    by_cases hmn : m = n
    · rw [hmn] at h1 h2 ⊢
      refine ⟨hop, fun hcm => ?_⟩
      rw [hcl] at hcm
      exact le_trans (hmono h1) (h2 hcm)
    · rw [hother m hmn, fval_congr A v (hother m hmn)]
      exact ⟨h1, h2⟩
  · intro m hm hadj
    by_cases hmn : m = n
    · rw [hmn]
      refine Or.inr ⟨hop, fun hcm => ?_⟩
      rw [hcl] at hcm
      exact hf hcm
    · rcases h.progress m hm hadj with h1 | h1
      · rcases List.mem_cons.1 h1 with h2 | h2
        · exact absurd h2 hmn
        · exact Or.inl h2
      · rw [hother m hmn, fval_congr A v (hother m hmn)]
        exact Or.inr h1

/-- When every neighbor of the expanded node was visited, the invariant between calls
holds. -/
theorem ExpInvK.expK_finish {A : Env α} {v : α → ℝ} {hstar : Coordinate → ℝ}
    {c2 ε T : ℝ} {heuristic : Heuristic} {size start goal node : Coordinate} {x : State α}
    (h : ExpInvK A v hstar c2 ε T heuristic size start goal node [] x) :
    OptInvK A v hstar c2 ε T heuristic size start goal x := by
  refine ⟨h.core, h.goal_unopened, Or.inl h.start_closed, ?_⟩
  intro c hcc
  by_cases hcn : c = node
  · subst hcn
    intro m hm hadj
    rcases h.progress m hm hadj with h1 | h1
    · exact absurd h1 (List.not_mem_nil m)
    · exact h1
  · exact h.done c hcc hcn

/-- One call of `nextStep` in a state with the invariant: the call returns false and keeps
the invariant, or it returns true and leaves a solution of `cheb start goal + 1`
coordinates. -/
theorem astar_nextStep_optK {A : Env α} {v : α → ℝ} {hstar : Coordinate → ℝ}
    {c2 ε T : ℝ} {heuristic : Heuristic} {size start goal : Coordinate}
    (hacc : AccurateK A v hstar c2 ε T heuristic size goal)
    (hreg : c2 < 2 ∧ 3 * T < min (c2 - 1) (2 - c2))
    (hA : A.SortPermutes) (hS : A.SortSorts)
    (hstart : InBounds size start) (hgoal : InBounds size goal) (fuel : Nat)
    (hfuel : cheb start goal < fuel) (s : State α)
    (h : OptInvK A v hstar c2 ε T heuristic size start goal s) :
    (∃ s', nextStep A fuel s = some (false, s') ∧
      OptInvK A v hstar c2 ε T heuristic size start goal s') ∨
    (∃ s', nextStep A fuel s = some (true, s') ∧ KingPath start goal s') := by
  have hc := h.core
  have hne : s.m_openNodes ≠ [] := by
    rcases h.start_front with hsc | hfr
    · have hgc : (s.m_board.m_nodes goal).ext.closed = false := by
        cases hcg : (s.m_board.m_nodes goal).ext.closed with
        | false => rfl
        | true =>
          have := hc.closed_opened goal hcg
          rw [h.goal_unopened] at this
          cases this
      obtain ⟨m, hm, _⟩ := h.frontier_on_pathK hacc hstart hsc (cheb start goal).toNat goal
        hgoal (by rw [Int.toNat_of_nonneg (cheb_nonneg _ _)]) hgc
      exact List.ne_nil_of_mem hm
    · rw [hfr]
      simp
  have hperm := hA (compare A s.m_board) s.m_openNodes
  have hne2 : A.sort (compare A s.m_board) s.m_openNodes ≠ [] := by
    intro h0
    rw [h0] at hperm
    exact hne (List.Perm.eq_nil hperm.symm)
  obtain ⟨rest, node, hl⟩ := exists_concat_of_ne_nil _ hne2
  have hperm' : (rest ++ [node]).Perm s.m_openNodes := hl ▸ hperm
  have hmin : ∀ m ∈ s.m_openNodes, fval A v s node ≤ fval A v s m := fun m hm =>
    (sorted_last_least hacc.lt_val hacc.eq_val hA hS s.m_board s.m_openNodes rest node hl
      m hm).1
  have hnf : node ∈ s.m_openNodes := hperm'.subset (by simp)
  obtain ⟨hno, hnc⟩ := (hc.front_iff node).1 hnf
  have hng : node ≠ goal := by
    intro hng
    rw [hng, h.goal_unopened] at hno
    cases hno
  rw [astar_nextStep_concat A fuel s node rest hl hne, (hc.clear node).1, hc.goal_eq, hc.diag,
    if_neg hng]
  have hexp := h.closeWith_expK hacc hreg hstart hgoal hperm' hmin s.m_cutCorners
  rcases astar_nextStepLoop_visit A fuel node
      (fun rem x => ExpInvK A v hstar c2 ε T heuristic size start goal node rem x)
      (fun s1 => GoalFound A v c2 ε heuristic size start goal s1)
      (fun n rem x hx hcl =>
        hx.expK_step hx.core (fun _ _ => rfl) (hx.core.closed_opened n hcl) rfl
          (fun hh => by rw [hcl] at hh; cases hh) (fun _ => le_refl _)
          (fun hh => by rw [hx.core.closed_opened n hcl] at hh; cases hh))
      (fun n rem x hx hcl ho => by
        obtain ⟨hnv, hadj⟩ := hx.rem_adj n (List.mem_cons_self _ _)
        obtain ⟨k1, k2, _, k4, k5⟩ := hx.core.visit_openedK hacc hstart hx.start_closed
          hx.node_closed hnv hadj hcl ho
        exact hx.expK_step k1 k2 (by rw [astar_updateNode_opened]; exact ho)
          (astar_updateNode_closed A x n node n) (fun _ => k4) (fun _ => k5)
          (fun hh => by rw [ho] at hh; cases hh))
      (fun n rem x hx hcl ho hg => by
        obtain ⟨hnv, hadj⟩ := hx.rem_adj n (List.mem_cons_self _ _)
        obtain ⟨k1, k2, _, _, k5, k6⟩ := hx.core.visit_newK hacc hstart hx.start_closed
          hx.node_closed hnv hadj hcl ho
        rw [(k1.clear n).1] at hg
        refine hx.expK_step k1 k2 k5 ?_ (fun _ => k6) (fun hh => by rw [ho] at hh; cases hh)
          (fun _ hh => hg (hh.trans k1.goal_eq.symm))
        rw [pushOpen_m_nodes_same]
        exact astar_updateNode_closed A x n node n)
      (fun n rem x hx hcl ho hg => by
        obtain ⟨hnv, hadj⟩ := hx.rem_adj n (List.mem_cons_self _ _)
        obtain ⟨k1, k2, _, k4, _, _⟩ := hx.core.visit_newK hacc hstart hx.start_closed
          hx.node_closed hnv hadj hcl ho
        rw [(k1.clear n).1] at hg
        have hng' : n = goal := hg.trans k1.goal_eq
        subst hng'
        have hnn : node ≠ n := by
          intro hnn
          rw [← hnn, hx.node_closed] at hcl
          cases hcl
        refine ⟨k1, node, k4, ?_, hadj, hx.node_goal hadj⟩
        rw [k2 node hnn]
        exact hx.node_closed)
      _ _ hexp with ⟨s', h1, h2⟩ | ⟨s1, hgf, h2⟩
  · exact Or.inl ⟨s', h1, h2.expK_finish⟩
  · obtain ⟨s', h3, h4⟩ := hgf.storeSolution_king hgoal hfuel
    refine Or.inr ⟨s', ?_, h4⟩
    rw [h2, h3]
    rfl

end AStar

namespace AStar

open AlgorithmBase

variable {α : Type}

/-- The nodes of a constructed instance after `init`. -/
theorem init_create_m_nodes (A : Env α) (size start goal : Coordinate) (h : Heuristic)
    (d cc : Bool) (c : Coordinate) :
    (pushOpen (initBase (Node.init A) (create A size start goal) h d cc) start
        none).m_board.m_nodes c =
      if c = start then
        { position := c, opened := true,
          ext := { closed := false, h := A.maxValue, g := A.ofInt 0 } }
      else { position := c, ext := { closed := false, h := A.maxValue, g := A.ofInt 0 } } := by
  by_cases hc : c = start
  · rw [if_pos hc, hc, pushOpen_m_nodes_same, initBase_create_m_nodes]
  · rw [if_neg hc, pushOpen_m_nodes_of_ne _ _ _ _ hc, initBase_create_m_nodes]

/-- The core of the invariant holds after `init` on a constructed instance, diagonals
enabled. -/
theorem init_kcore {A : Env α} {v : α → ℝ} {hstar : Coordinate → ℝ} {c2 ε T : ℝ}
    {heuristic : Heuristic} {size start goal : Coordinate}
    (hacc : AccurateK A v hstar c2 ε T heuristic size goal)
    (hstart : InBounds size start) (cc : Bool) :
    KCore A v c2 ε heuristic size start goal
      (pushOpen (initBase (Node.init A) (create A size start goal) heuristic true cc)
        start none) := by
  have hn := init_create_m_nodes A size start goal heuristic true cc
  have hopen : ∀ c, ((pushOpen (initBase (Node.init A) (create A size start goal) heuristic
      true cc) start none).m_board.m_nodes c).opened = true ↔ c = start := by
    intro c
    rw [hn]
    by_cases hc : c = start <;> simp [hc]
  have hclosed : ∀ c, ((pushOpen (initBase (Node.init A) (create A size start goal) heuristic
      true cc) start none).m_board.m_nodes c).ext.closed = false := by
    intro c
    rw [hn]
    split <;> rfl
  refine ⟨rfl, rfl, rfl, rfl, rfl, rfl, ?_, ?_, ?_, ?_, ?_, ?_, ?_, ?_, ?_, ?_, ?_, ?_⟩
  · intro c
    rw [hn]
    split <;> exact ⟨rfl, rfl⟩
  · intro c hc
    rw [(hopen c).1 hc]
    exact hstart
  · intro c hc
    rw [hclosed] at hc
    cases hc
  · intro c
    show c ∈ [] ++ [start] ↔ _
    rw [hopen, hclosed]
    simp
  · show ([] ++ [start]).Nodup
    simp
  · intro c hc
    rw [hn] at hc ⊢
    split
    · rename_i h1
      rw [if_pos h1] at hc
      cases hc
    · exact ⟨rfl, rfl⟩
  · exact (hopen start).2 rfl
  · rw [hn, if_pos rfl]
  · rw [hn, if_pos rfl]
    exact hacc.zero_val
  · intro c hc hcs
    exact absurd ((hopen c).1 hc) hcs
  · intro c hc
    rw [hclosed] at hc
    cases hc
  · intro c p hc
    rw [hclosed] at hc
    cases hc

/-- The invariant holds after `init` on a constructed instance whose start is not the
goal. -/
theorem init_optInvK {A : Env α} {v : α → ℝ} {hstar : Coordinate → ℝ} {c2 ε T : ℝ}
    {heuristic : Heuristic} {size start goal : Coordinate}
    (hacc : AccurateK A v hstar c2 ε T heuristic size goal)
    (hstart : InBounds size start) (hsg : start ≠ goal) (cc : Bool) :
    OptInvK A v hstar c2 ε T heuristic size start goal
      (pushOpen (initBase (Node.init A) (create A size start goal) heuristic true cc)
        start none) := by
  have hn := init_create_m_nodes A size start goal heuristic true cc
  refine ⟨init_kcore hacc hstart cc, ?_, Or.inr rfl, ?_⟩
  · rw [hn, if_neg (fun h => hsg h.symm)]
  · intro c hc
    rw [hn] at hc
    split at hc <;> cases hc

/-- In a state with the core of the invariant in which the goal is closed, `storeSolution`
returns and stores a solution of `cheb start goal + 1` coordinates. -/
theorem KCore.storeSolution_closed {A : Env α} {v : α → ℝ} {c2 ε : ℝ}
    {heuristic : Heuristic} {size start goal : Coordinate} {x : State α}
    (hc : KCore A v c2 ε heuristic size start goal x) (hgoal : InBounds size goal)
    (hgc : (x.m_board.m_nodes goal).ext.closed = true)
    {fuel : Nat} (hfuel : cheb start goal < fuel) :
    ∃ s', storeSolution fuel x = some s' ∧ KingPath start goal s' := by
  have hnn := cheb_nonneg start goal
  have hk : ((cheb start goal).toNat : Int) = cheb start goal := Int.toNat_of_nonneg hnn
  obtain ⟨path, e1, e2, e3, e4, e5, e6⟩ :=
    hc.storeSolutionLoop_king (cheb start goal).toNat goal x.solution fuel hgc hk.symm
      (by omega)
  have hgn : getGoalNode x = some goal := by
    simp only [getGoalNode, Board.getGoalNode, hc.goal_eq]
    rw [if_pos]
    rw [isValidNode_iff_inBounds, hc.size_eq]
    exact hgoal
  refine ⟨{ x with solution := x.solution ++ path }, ?_, ?_, ?_, ?_, ?_, ?_⟩
  · simp only [storeSolution, hgn, e1]
  · simp only [hc.sol, List.nil_append, e2]
  · simp only [hc.sol, List.nil_append, e3]
  · simp only [hc.sol, List.nil_append, e4]
  · simp only [hc.sol, List.nil_append, e5]
  · simp only [hc.sol, List.nil_append]
    exact e6

/-- When the start is the goal, the first call of `nextStep` after `init` returns true with
the solution made of that one cell. -/
theorem astar_nextStep_start_goal {A : Env α} {v : α → ℝ} {hstar : Coordinate → ℝ}
    {c2 ε T : ℝ} {heuristic : Heuristic} {size start : Coordinate}
    (hacc : AccurateK A v hstar c2 ε T heuristic size start) (hA : A.SortPermutes)
    (hstart : InBounds size start) (cc : Bool) (fuel : Nat) (hfuel : 0 < fuel) :
    ∃ s', nextStep A fuel
        (pushOpen (initBase (Node.init A) (create A size start start) heuristic true cc)
          start none) = some (true, s') ∧ KingPath start start s' := by
  have hc : KCore A v c2 ε heuristic size start start
      (pushOpen (initBase (Node.init A) (create A size start start) heuristic true cc)
        start none) := init_kcore hacc hstart cc
  have hfr : (pushOpen (initBase (Node.init A) (create A size start start) heuristic true cc)
      start none).m_openNodes = [start] := rfl
  have hperm := hA (compare A (pushOpen (initBase (Node.init A) (create A size start start)
    heuristic true cc) start none).m_board) [start]
  have hl : A.sort (compare A (pushOpen (initBase (Node.init A) (create A size start start)
      heuristic true cc) start none).m_board)
      (pushOpen (initBase (Node.init A) (create A size start start) heuristic true cc)
        start none).m_openNodes = [] ++ [start] := by
    rw [hfr]
    exact List.perm_singleton.1 hperm
  rw [astar_nextStep_concat A fuel _ start [] hl (by rw [hfr]; simp), (hc.clear start).1,
    hc.goal_eq, if_pos rfl]
  have hp0 : (([] : List Coordinate) ++ [start]).Perm
      (pushOpen (initBase (Node.init A) (create A size start start) heuristic true cc)
        start none).m_openNodes := by
    rw [hfr]
    rfl
  have hcore := hc.closeWith_kcore hp0
    (fun p hp => by rw [hc.start_parent] at hp; cases hp)
  obtain ⟨s', h1, h2⟩ := hcore.storeSolution_closed hstart
    ((closeWith_closed _ start [] start).2 (Or.inl rfl))
    (by rw [cheb_self]; exact_mod_cast hfuel)
  exact ⟨s', by rw [h1]; rfl, h2⟩

/-- A run of A* with diagonals enabled on a constructed (obstacle-free) instance, a
diagonal move costing less than two straight ones: `init` returns, some call of `nextStep`
returns true, `complete` returns, and the solution has `cheb start goal + 1` coordinates. -/
theorem astar_run_gapped {A : Env α} {v : α → ℝ} {hstar : Coordinate → ℝ} {c2 ε T : ℝ}
    {heuristic : Heuristic} {size start goal : Coordinate}
    (hacc : AccurateK A v hstar c2 ε T heuristic size goal)
    (hreg : c2 < 2 ∧ 3 * T < min (c2 - 1) (2 - c2))
    (hA : A.SortPermutes) (hS : A.SortSorts)
    (hstart : InBounds size start) (hgoal : InBounds size goal) (hsg : start ≠ goal)
    (cc : Bool) (fuel : Nat) (hfuel : cheb start goal < fuel) :
    ∃ n s s', stepsFalse (nextStep A fuel) n
        (pushOpen (initBase (Node.init A) (create A size start goal) heuristic true cc)
          start none) = some s ∧
      nextStep A fuel s = some (true, s') ∧
      complete (nextStep A fuel) (n + 1)
        (pushOpen (initBase (Node.init A) (create A size start goal) heuristic true cc)
          start none) = some s' ∧ KingPath start goal s' := by
  obtain ⟨n, s, s', _, h2, h3, h4⟩ := exists_true_of_measure (nextStep A fuel) stepMeasure
    (OptInvK A v hstar c2 ε T heuristic size start goal)
    (fun s hs => by
      rcases astar_nextStep_optK hacc hreg hA hS hstart hgoal fuel hfuel s hs with
        ⟨s', h1, h2⟩ | ⟨s', h1, _⟩
      · exact Or.inr ⟨s', h1, h2, astar_nextStep_measure A hA fuel s s' h1⟩
      · exact Or.inl ⟨s', h1⟩)
    _ (init_optInvK hacc hstart hsg cc)
  refine ⟨n, s, s', h2, h4, complete_of_stepsFalse _ n _ s s' h2 h4, ?_⟩
  rcases astar_nextStep_optK hacc hreg hA hS hstart hgoal fuel hfuel s h3 with
    ⟨s2, h5, _⟩ | ⟨s2, h5, h6⟩
  · rw [h5] at h4
    cases h4
  · rw [h5] at h4
    cases h4
    exact h6

end AStar

/-! ## Theorems: A* with diagonal moves that cost as much as two straight moves -/

namespace AStar

open AlgorithmBase

variable {α : Type}

/-- With exact arithmetic and the Manhattan distance as heuristic, the computed `h + g` of
an opened node other than the start is the length of the way by its parent, and its `h` is
its Manhattan distance to the goal. -/
theorem KCore.fval_exact {A : Env α} {v : α → ℝ} {hstar : Coordinate → ℝ}
    {heuristic : Heuristic} {size start goal c : Coordinate} {x : State α}
    (hacc : AccurateK A v hstar 2 0 0 heuristic size goal)
    (hman : ∀ c, InBounds size c → hstar c = (manhattan c goal : ℝ))
    (hc : KCore A v 2 0 heuristic size start goal x) (hstart : InBounds size start)
    (hco : (x.m_board.m_nodes c).opened = true) (hcs : c ≠ start) :
    ∃ p, (x.m_board.m_nodes c).parent = some p ∧ cheb p c = 1 ∧
      fval A v x c = ((manhattan c goal + (manhattan start p + manhattan p c) : Int) : ℝ) ∧
      v (x.m_board.m_nodes c).ext.h = ((manhattan c goal : Int) : ℝ) := by
  obtain ⟨p, e1, _, e3, _, e5⟩ := hc.fval_chain hacc hstart hco hcs
  obtain ⟨_, _, _, _, _, e6⟩ := hc.chain c hco hcs
  have hcv := hc.opened_valid c hco
  refine ⟨p, e1, e3, ?_, ?_⟩
  · have := sub_eq_zero.1 (abs_nonpos_iff.1 e5)
    rw [this, hman c hcv, octile_two, octile_two]
    push_cast
    ring
  · have := sub_eq_zero.1 (abs_nonpos_iff.1 (hacc.h_val c hcv))
    rw [e6, this, hman c hcv]

/-- The frontier node that `sortNodes` leaves at the back is the next cell of the path
toward the goal. -/
theorem GreedyInv.greedy_selected {A : Env α} {v : α → ℝ} {hstar : Coordinate → ℝ}
    {heuristic : Heuristic} {size start goal : Coordinate} {s : State α} {k : Int}
    (hacc : AccurateK A v hstar 2 0 0 heuristic size goal)
    (hman : ∀ c, InBounds size c → hstar c = (manhattan c goal : ℝ))
    (hA : A.SortPermutes) (hS : A.SortSorts)
    (h : GreedyInv A v heuristic size start goal k s) (hstart : InBounds size start)
    {rest : List Coordinate} {node : Coordinate}
    (hl : A.sort (compare A s.m_board) s.m_openNodes = rest ++ [node]) :
    node = toward k start goal := by
  have hperm : (rest ++ [node]).Perm s.m_openNodes := hl ▸ hA (compare A s.m_board) s.m_openNodes
  have hnf : node ∈ s.m_openNodes := hperm.subset (by simp)
  by_cases hk : k = 0
  · rw [h.first hk] at hnf
    rw [hk, toward_zero]
    exact List.mem_singleton.1 hnf
  · have hk0 : 0 < k := lt_of_le_of_ne h.k_nonneg (Ne.symm hk)
    by_contra hne
    have hsc : (s.m_board.m_nodes start).ext.closed = true :=
      (h.closed_iff start).2 ⟨0, le_refl _, hk0, (toward_zero start goal).symm⟩
    have hns : ∀ c ∈ s.m_openNodes, c ≠ start := by
      intro c hc hcs
      have := ((h.core.front_iff c).1 hc).2
      rw [hcs, hsc] at this
      cases this
    obtain ⟨hl1, hl2⟩ := sorted_last_least hacc.lt_val hacc.eq_val hA hS s.m_board
      s.m_openNodes rest node hl (toward k start goal) h.next_front
    obtain ⟨p, _, _, f1, f2⟩ := h.core.fval_exact hacc hman hstart
      ((h.core.front_iff node).1 hnf).1 (hns node hnf)
    obtain ⟨q, g1, _, g3, g4⟩ := h.core.fval_exact hacc hman hstart
      ((h.core.front_iff _).1 h.next_front).1 (hns _ h.next_front)
    rw [h.next_parent hk0] at g1
    cases g1
    have hst := (toward_step (a := start) (b := goal) (k := k - 1) (by omega)
      (by have := h.k_lt; omega)).2
    rw [show k - 1 + 1 = k by ring] at hst
    have hm := manhattan_toward start goal h.k_nonneg
    have t1 := manhattan_triangle start p node
    have t2 := manhattan_triangle start node goal
    have hoth := h.others node hnf hne
    have hg : fval A v s (toward k start goal) = ((manhattan start goal : Int) : ℝ) := by
      rw [g3]
      exact_mod_cast (by have := hst.2; omega :
        manhattan (toward k start goal) goal +
          (manhattan start (toward (k - 1) start goal) +
            manhattan (toward (k - 1) start goal) (toward k start goal)) =
          manhattan start goal)
    have hn : ((manhattan start goal : Int) : ℝ) ≤ fval A v s node := by
      rw [f1]
      exact_mod_cast (by omega :
        manhattan start goal ≤ manhattan node goal + (manhattan start p + manhattan p node))
    simp only [fval] at hl1 hl2 hg hn
    have heq := le_antisymm hl1 (by rw [hg]; exact hn)
    have := hl2 heq
    rw [f2, g4] at this
    have : manhattan node goal ≤ manhattan (toward k start goal) goal := by exact_mod_cast this
    omega

/-- Closing the next cell of the path establishes the invariant of its expansion. -/
theorem GreedyInv.closeWith_loop {A : Env α} {v : α → ℝ}
    {heuristic : Heuristic} {size start goal : Coordinate} {s : State α} {k : Int}
    (h : GreedyInv A v heuristic size start goal k s)
    (hstart : InBounds size start) (hgoal : InBounds size goal)
    {rest : List Coordinate}
    (hperm : (rest ++ [toward k start goal]).Perm s.m_openNodes) (cc : Bool) :
    GreedyLoop A v heuristic size start goal k
      (s.m_board.getNeighbors (toward k start goal) [] true cc)
      (closeWith s (toward k start goal) rest) := by
  have hc := h.core
  have hkv : InBounds size (toward k start goal) := toward_inBounds hstart hgoal h.k_nonneg
  have hk1v : InBounds size (toward (k + 1) start goal) :=
    toward_inBounds hstart hgoal (by have := h.k_nonneg; omega)
  have hstep := toward_step (a := start) (b := goal) h.k_nonneg h.k_lt
  have hshape : ∀ p, (s.m_board.m_nodes (toward k start goal)).parent = some p →
      Straight start p (toward k start goal) := by
    intro p hp
    by_cases hk : k = 0
    · rw [hk, toward_zero, hc.start_parent] at hp
      cases hp
    · have hk0 : 0 < k := lt_of_le_of_ne h.k_nonneg (Ne.symm hk)
      rw [h.next_parent hk0] at hp
      cases hp
      have hst := (toward_step (a := start) (b := goal) (k := k - 1) (by omega)
        (by have := h.k_lt; omega)).2
      rw [show k - 1 + 1 = k by ring] at hst
      exact hst
  have hnotfront : toward (k + 1) start goal ∉ s.m_openNodes := by
    intro hm
    have hne : toward (k + 1) start goal ≠ toward k start goal := by
      intro he
      have := toward_injective (by have := h.k_nonneg; omega) (by have := h.k_lt; omega)
        h.k_nonneg (le_of_lt h.k_lt) he
      omega
    have h1 := h.others _ hm hne
    have h2 := manhattan_toward_lt (a := start) (b := goal) h.k_nonneg (by omega : k < k + 1)
      (by have := h.k_lt; omega)
    omega
  have hnotclosed : (s.m_board.m_nodes (toward (k + 1) start goal)).ext.closed = false := by
    cases hcl : (s.m_board.m_nodes (toward (k + 1) start goal)).ext.closed with
    | false => rfl
    | true =>
      obtain ⟨j, j1, j2, j3⟩ := (h.closed_iff _).1 hcl
      have := toward_injective (by have := h.k_nonneg; omega) (by have := h.k_lt; omega)
        j1 (by have := h.k_lt; omega) j3
      omega
  refine ⟨?_, Board.getNeighbors_nodup _ _ _ _, hc.closeWith_kcore hperm hshape, h.k_nonneg,
    h.k_lt, ?_, ?_, Or.inl ⟨?_, ?_⟩, ?_⟩
  · intro n hn
    rw [Board.mem_getNeighbors_king _ hc.clear _ _ _ ((hc.valid_iff _).2 hkv)] at hn
    exact ⟨(hc.valid_iff n).1 hn.1, hn.2⟩
  · rw [closeWith_opened]
    exact h.goal_unopened
  · intro c
    rw [closeWith_closed, h.closed_iff]
    constructor
    · rintro (rfl | ⟨j, j1, j2, j3⟩)
      · exact ⟨k, h.k_nonneg, le_refl _, rfl⟩
      · exact ⟨j, j1, le_of_lt j2, j3⟩
    · rintro ⟨j, j1, j2, j3⟩
      rcases lt_or_eq_of_le j2 with j4 | j4
      · exact Or.inr ⟨j, j1, j4, j3⟩
      · exact Or.inl (j4 ▸ j3)
  · rw [Board.mem_getNeighbors_king _ hc.clear _ _ _ ((hc.valid_iff _).2 hkv)]
    exact ⟨(hc.valid_iff _).2 hk1v, hstep.1⟩
  · rw [closeWith_opened]
    cases ho : (s.m_board.m_nodes (toward (k + 1) start goal)).opened with
    | false => rfl
    | true => exact absurd ((hc.front_iff _).2 ⟨ho, hnotclosed⟩) hnotfront
  · intro c hcr _
    have hcf : c ∈ s.m_openNodes := hperm.subset (List.mem_append_left _ hcr)
    have hnd : (rest ++ [toward k start goal]).Nodup := hperm.nodup_iff.2 hc.front_nodup
    have hck : c ≠ toward k start goal := by
      intro he
      exact (List.nodup_append.1 hnd).2.2 (he ▸ hcr) (List.mem_singleton_self _)
    have h1 := h.others c hcf hck
    have h2 := manhattan_toward_lt (a := start) (b := goal) h.k_nonneg (by omega : k < k + 1)
      (by have := h.k_lt; omega)
    omega

/-- The invariant of the expansion is kept by the visit of a neighbor that leaves it opened
and touches no other node, puts it on the frontier if it was not opened, with the expanded
cell as parent, and does not open the goal. -/
theorem GreedyLoop.greedy_step {A : Env α} {v : α → ℝ}
    {heuristic : Heuristic} {size start goal n : Coordinate} {k : Int}
    {rem : List Coordinate} {x x' : State α}
    (h : GreedyLoop A v heuristic size start goal k (n :: rem) x)
    (hcore : KCore A v 2 0 heuristic size start goal x')
    (hother : ∀ c, c ≠ n → x'.m_board.m_nodes c = x.m_board.m_nodes c)
    (hcl : (x'.m_board.m_nodes n).ext.closed = (x.m_board.m_nodes n).ext.closed)
    (hold : (x.m_board.m_nodes n).opened = true →
      x'.m_openNodes = x.m_openNodes ∧ (x'.m_board.m_nodes n).opened = true)
    (hnew : (x.m_board.m_nodes n).opened = false →
      x'.m_openNodes = x.m_openNodes ++ [n] ∧
      (x'.m_board.m_nodes n).parent = some (toward k start goal) ∧ n ≠ goal) :
    GreedyLoop A v heuristic size start goal k rem x' := by
  have hcl' : ∀ c, (x'.m_board.m_nodes c).ext.closed = (x.m_board.m_nodes c).ext.closed := by
    intro c
    by_cases hcn : c = n
    · rw [hcn, hcl]
    · rw [hother c hcn]
  obtain ⟨hnr, hrn⟩ := List.nodup_cons.1 h.rem_nodup
  obtain ⟨hnv, hadj⟩ := h.rem_adj n (List.mem_cons_self _ _)
  refine ⟨fun m hm => h.rem_adj m (List.mem_cons_of_mem _ hm), hrn, hcore, h.k_nonneg, h.k_lt,
    ?_, ?_, ?_, ?_⟩
  · by_cases hgn : goal = n
    · have := (hnew (hgn ▸ h.goal_unopened)).2.2
      exact absurd hgn.symm this
    · rw [hother goal hgn]
      exact h.goal_unopened
  · intro c
    rw [hcl']
    exact h.closed_iff c
  · cases ho : (x.m_board.m_nodes n).opened with
    | true =>
      obtain ⟨hf, _⟩ := hold ho
      rcases h.progress with ⟨p1, p2⟩ | ⟨p1, p2, p3⟩
      · have hne : toward (k + 1) start goal ≠ n := by
          intro he
          rw [he, ho] at p2
          cases p2
        rcases List.mem_cons.1 p1 with p4 | p4
        · exact absurd p4 hne
        · exact Or.inl ⟨p4, by rw [hother _ hne]; exact p2⟩
      · have hne : toward (k + 1) start goal ≠ n := fun he =>
          p1 (he ▸ List.mem_cons_self _ _)
        exact Or.inr ⟨fun hm => p1 (List.mem_cons_of_mem _ hm), by rw [hf]; exact p2,
          by rw [hother _ hne]; exact p3⟩
    | false =>
      obtain ⟨hf, hp, _⟩ := hnew ho
      rcases h.progress with ⟨p1, p2⟩ | ⟨p1, p2, p3⟩
      · by_cases hne : toward (k + 1) start goal = n
        · refine Or.inr ⟨hne ▸ hnr, ?_, ?_⟩
          · rw [hf, hne]
            exact List.mem_append_right _ (List.mem_singleton_self _)
          · rw [hne]
            exact hp
        · rcases List.mem_cons.1 p1 with p4 | p4
          · exact absurd p4 hne
          · exact Or.inl ⟨p4, by rw [hother _ hne]; exact p2⟩
      · have hne : toward (k + 1) start goal ≠ n := fun he =>
          p1 (he ▸ List.mem_cons_self _ _)
        exact Or.inr ⟨fun hm => p1 (List.mem_cons_of_mem _ hm),
          by rw [hf]; exact List.mem_append_left _ p2, by rw [hother _ hne]; exact p3⟩
  · intro c hcf hck
    cases ho : (x.m_board.m_nodes n).opened with
    | true =>
      rw [(hold ho).1] at hcf
      exact h.others c hcf hck
    | false =>
      rw [(hnew ho).1] at hcf
      rcases List.mem_append.1 hcf with h1 | h1
      · exact h.others c h1 hck
      · rw [List.mem_singleton.1 h1] at hck ⊢
        exact toward_best h.k_nonneg hadj hck

/-- When every neighbor of the expanded cell was visited, the invariant between calls holds
for the next cell of the path. -/
theorem GreedyLoop.greedy_finish {A : Env α} {v : α → ℝ}
    {heuristic : Heuristic} {size start goal : Coordinate} {k : Int} {x : State α}
    (h : GreedyLoop A v heuristic size start goal k [] x) :
    GreedyInv A v heuristic size start goal (k + 1) x := by
  rcases h.progress with ⟨p1, _⟩ | ⟨_, p2, p3⟩
  · cases p1
  · have hk1 : k + 1 < cheb start goal := by
      rcases lt_or_eq_of_le (by have := h.k_lt; omega : k + 1 ≤ cheb start goal) with h1 | h1
      · exact h1
      · exfalso
        have := toward_of_le (le_of_eq h1.symm)
        rw [this] at p2
        have := ((h.core.front_iff goal).1 p2).1
        rw [h.goal_unopened] at this
        cases this
    refine ⟨h.core, by have := h.k_nonneg; omega, hk1, h.goal_unopened, ?_, ?_, p2, ?_,
      h.others⟩
    · intro c
      rw [h.closed_iff]
      constructor
      · rintro ⟨j, j1, j2, j3⟩
        exact ⟨j, j1, by omega, j3⟩
      · rintro ⟨j, j1, j2, j3⟩
        exact ⟨j, j1, by omega, j3⟩
    · intro h0
      have := h.k_nonneg
      omega
    · intro _
      rw [show k + 1 - 1 = k by ring]
      exact p3

/-- One call of `nextStep` in a state with the invariant: the call returns false and keeps
the invariant for the next cell of the path, or it returns true and leaves a solution of
`cheb start goal + 1` coordinates. -/
theorem astar_nextStep_greedy {A : Env α} {v : α → ℝ} {hstar : Coordinate → ℝ}
    {heuristic : Heuristic} {size start goal : Coordinate}
    (hacc : AccurateK A v hstar 2 0 0 heuristic size goal)
    (hman : ∀ c, InBounds size c → hstar c = (manhattan c goal : ℝ))
    (hA : A.SortPermutes) (hS : A.SortSorts)
    (hstart : InBounds size start) (hgoal : InBounds size goal) (fuel : Nat)
    (hfuel : cheb start goal < fuel) (s : State α) (k : Int)
    (h : GreedyInv A v heuristic size start goal k s) :
    (∃ s', nextStep A fuel s = some (false, s') ∧
      GreedyInv A v heuristic size start goal (k + 1) s') ∨
    (∃ s', nextStep A fuel s = some (true, s') ∧ KingPath start goal s') := by
  have hc := h.core
  have hne : s.m_openNodes ≠ [] := List.ne_nil_of_mem h.next_front
  have hperm := hA (compare A s.m_board) s.m_openNodes
  have hne2 : A.sort (compare A s.m_board) s.m_openNodes ≠ [] := by
    intro h0
    rw [h0] at hperm
    exact hne (List.Perm.eq_nil hperm.symm)
  obtain ⟨rest, node, hl⟩ := exists_concat_of_ne_nil _ hne2
  have hnode := h.greedy_selected hacc hman hA hS hstart hl
  subst hnode
  have hperm' : (rest ++ [toward k start goal]).Perm s.m_openNodes := hl ▸ hperm
  have hng : toward k start goal ≠ goal := by
    intro hng
    have := ((hc.front_iff _).1 h.next_front).1
    rw [hng, h.goal_unopened] at this
    cases this
  rw [astar_nextStep_concat A fuel s _ rest hl hne, (hc.clear _).1, hc.goal_eq, hc.diag,
    if_neg hng]
  have hloop := h.closeWith_loop hstart hgoal hperm' s.m_cutCorners
  have hsc : ∀ rem x, GreedyLoop A v heuristic size start goal k rem x →
      (x.m_board.m_nodes start).ext.closed = true ∧
      (x.m_board.m_nodes (toward k start goal)).ext.closed = true := fun rem x hx =>
    ⟨(hx.closed_iff start).2 ⟨0, le_refl _, hx.k_nonneg, (toward_zero start goal).symm⟩,
      (hx.closed_iff _).2 ⟨k, hx.k_nonneg, le_refl _, rfl⟩⟩
  rcases astar_nextStepLoop_visit A fuel (toward k start goal)
      (fun rem x => GreedyLoop A v heuristic size start goal k rem x)
      (fun s1 => GoalFound A v 2 0 heuristic size start goal s1)
      (fun n rem x hx hcl =>
        hx.greedy_step hx.core (fun _ _ => rfl) rfl (fun ho => ⟨rfl, ho⟩)
          (fun hh => by rw [hx.core.closed_opened n hcl] at hh; cases hh))
      (fun n rem x hx hcl ho => by
        obtain ⟨hnv, hadj⟩ := hx.rem_adj n (List.mem_cons_self _ _)
        obtain ⟨k1, k2, k3, _, _⟩ := hx.core.visit_openedK hacc hstart (hsc _ _ hx).1
          (hsc _ _ hx).2 hnv hadj hcl ho
        exact hx.greedy_step k1 k2 (astar_updateNode_closed A x n _ n)
          (fun _ => ⟨k3, by rw [astar_updateNode_opened]; exact ho⟩)
          (fun hh => by rw [ho] at hh; cases hh))
      (fun n rem x hx hcl ho hg => by
        obtain ⟨hnv, hadj⟩ := hx.rem_adj n (List.mem_cons_self _ _)
        obtain ⟨k1, k2, k3, k4, k5, _⟩ := hx.core.visit_newK hacc hstart (hsc _ _ hx).1
          (hsc _ _ hx).2 hnv hadj hcl ho
        rw [(k1.clear n).1] at hg
        refine hx.greedy_step k1 k2 ?_ (fun hh => by rw [ho] at hh; cases hh)
          (fun _ => ⟨k3, k4, fun hh => hg (hh.trans k1.goal_eq.symm)⟩)
        rw [pushOpen_m_nodes_same]
        exact astar_updateNode_closed A x n _ n)
      (fun n rem x hx hcl ho hg => by
        obtain ⟨hnv, hadj⟩ := hx.rem_adj n (List.mem_cons_self _ _)
        obtain ⟨k1, k2, _, k4, _, _⟩ := hx.core.visit_newK hacc hstart (hsc _ _ hx).1
          (hsc _ _ hx).2 hnv hadj hcl ho
        rw [(k1.clear n).1] at hg
        have hng' : n = goal := hg.trans k1.goal_eq
        subst hng'
        have hnn : toward k start n ≠ n := by
          intro hnn
          rw [← hnn, (hsc _ _ hx).2] at hcl
          cases hcl
        have hk1 : cheb start n = k + 1 := by
          have := cheb_toward_goal (a := start) (b := n) hx.k_nonneg (le_of_lt hx.k_lt)
          omega
        have hst := (toward_step (a := start) (b := n) hx.k_nonneg hx.k_lt).2
        rw [toward_of_le (le_of_eq hk1)] at hst
        refine ⟨k1, toward k start n, k4, ?_, hadj, hst⟩
        rw [k2 _ hnn]
        exact (hsc _ _ hx).2)
      _ _ hloop with ⟨s', h1, h2⟩ | ⟨s1, hgf, h2⟩
  · exact Or.inl ⟨s', h1, h2.greedy_finish⟩
  · obtain ⟨s', h3, h4⟩ := hgf.storeSolution_king hgoal hfuel
    refine Or.inr ⟨s', ?_, h4⟩
    rw [h2, h3]
    rfl

/-- The invariant holds after `init` on a constructed instance whose start is not the
goal, for the first cell of the path. -/
theorem init_greedyInv {A : Env α} {v : α → ℝ} {hstar : Coordinate → ℝ}
    {heuristic : Heuristic} {size start goal : Coordinate}
    (hacc : AccurateK A v hstar 2 0 0 heuristic size goal)
    (hstart : InBounds size start) (hsg : start ≠ goal) (cc : Bool) :
    GreedyInv A v heuristic size start goal 0
      (pushOpen (initBase (Node.init A) (create A size start goal) heuristic true cc)
        start none) := by
  have hn := init_create_m_nodes A size start goal heuristic true cc
  have hpos : 0 < cheb start goal := by
    rcases lt_or_eq_of_le (cheb_nonneg start goal) with h1 | h1
    · exact h1
    · exact absurd (cheb_eq_zero h1.symm) hsg
  refine ⟨init_kcore hacc hstart cc, le_refl _, hpos, ?_, ?_, fun _ => rfl, ?_, ?_, ?_⟩
  · rw [hn, if_neg (fun h => hsg h.symm)]
  · intro c
    constructor
    · intro hc
      rw [hn] at hc
      split at hc <;> cases hc
    · rintro ⟨j, j1, j2, _⟩
      omega
  · rw [toward_zero]
    exact List.mem_singleton_self _
  · intro h0
    exact absurd h0 (lt_irrefl _)
  · intro c hc hne
    rw [toward_zero] at hne
    exact absurd (List.mem_singleton.1 hc) hne

/-- A run of A* with diagonals enabled on a constructed (obstacle-free) instance, a
diagonal move costing as much as two straight ones and the arithmetic being exact: `init`
returns, some call of `nextStep` returns true, `complete` returns, and the solution has
`cheb start goal + 1` coordinates. -/
theorem astar_run_greedy {A : Env α} {v : α → ℝ} {hstar : Coordinate → ℝ}
    {heuristic : Heuristic} {size start goal : Coordinate}
    (hacc : AccurateK A v hstar 2 0 0 heuristic size goal)
    (hman : ∀ c, InBounds size c → hstar c = (manhattan c goal : ℝ))
    (hA : A.SortPermutes) (hS : A.SortSorts)
    (hstart : InBounds size start) (hgoal : InBounds size goal) (hsg : start ≠ goal)
    (cc : Bool) (fuel : Nat) (hfuel : cheb start goal < fuel) :
    ∃ n s s', stepsFalse (nextStep A fuel) n
        (pushOpen (initBase (Node.init A) (create A size start goal) heuristic true cc)
          start none) = some s ∧
      nextStep A fuel s = some (true, s') ∧
      complete (nextStep A fuel) (n + 1)
        (pushOpen (initBase (Node.init A) (create A size start goal) heuristic true cc)
          start none) = some s' ∧ KingPath start goal s' := by
  obtain ⟨n, s, s', _, h2, ⟨k, h3⟩, h4⟩ := exists_true_of_measure (nextStep A fuel)
    stepMeasure (fun s => ∃ k, GreedyInv A v heuristic size start goal k s)
    (fun s hs => by
      obtain ⟨k, hk⟩ := hs
      rcases astar_nextStep_greedy hacc hman hA hS hstart hgoal fuel hfuel s k hk with
        ⟨s', h1, h2⟩ | ⟨s', h1, _⟩
      · exact Or.inr ⟨s', h1, ⟨k + 1, h2⟩, astar_nextStep_measure A hA fuel s s' h1⟩
      · exact Or.inl ⟨s', h1⟩)
    _ ⟨0, init_greedyInv hacc hstart hsg cc⟩
  refine ⟨n, s, s', h2, h4, complete_of_stepsFalse _ n _ s s' h2 h4, ?_⟩
  rcases astar_nextStep_greedy hacc hman hA hS hstart hgoal fuel hfuel s k h3 with
    ⟨s2, h5, _⟩ | ⟨s2, h5, h6⟩
  · rw [h5] at h4
    cases h4
  · rw [h5] at h4
    cases h4
    exact h6

end AStar

/-! ## Theorems: A* with diagonal moves, the run -/

namespace AStar

open AlgorithmBase

variable {α : Type}

/-- A run of A* with diagonals enabled on a constructed (obstacle-free) instance, for every
in-bounds start and goal: `init` returns, after finitely many calls that return false a call
of `nextStep` returns true, `complete` returns, and the solution has `cheb start goal + 1`
coordinates and `manhattan start goal - cheb start goal` diagonal edges. -/
theorem astar_run_king {A : Env α} {v : α → ℝ} {hstar : Coordinate → ℝ} {c2 ε T : ℝ}
    {heuristic : Heuristic} {size start goal : Coordinate}
    (hacc : AccurateK A v hstar c2 ε T heuristic size goal)
    (hA : A.SortPermutes) (hS : A.SortSorts)
    (hstart : InBounds size start) (hgoal : InBounds size goal)
    (cc : Bool) (fuel : Nat) (hfuel : cheb start goal < fuel) :
    ∃ s1, init A (create A size start goal) heuristic true cc = some s1 ∧
      ∃ n s s', stepsFalse (nextStep A fuel) n s1 = some s ∧
        nextStep A fuel s = some (true, s') ∧
        complete (nextStep A fuel) (n + 1) s1 = some s' ∧ KingPath start goal s' := by
  have hv : (create A size start goal).m_board.isValidNode
      (create A size start goal).m_board.m_start = true := by
    rw [isValidNode_iff_inBounds]
    exact hstart
  refine ⟨_, by rw [astar_init_eq, if_pos hv], ?_⟩
  show ∃ n s s', stepsFalse (nextStep A fuel) n
        (pushOpen (initBase (Node.init A) (create A size start goal) heuristic true cc)
          start none) = some s ∧
      nextStep A fuel s = some (true, s') ∧
      complete (nextStep A fuel) (n + 1)
        (pushOpen (initBase (Node.init A) (create A size start goal) heuristic true cc)
          start none) = some s' ∧ KingPath start goal s'
  by_cases hsg : start = goal
  · subst hsg
    have hf : 0 < fuel := by
      rw [cheb_self] at hfuel
      exact_mod_cast hfuel
    obtain ⟨s', h1, h2⟩ := astar_nextStep_start_goal hacc hA hstart cc fuel hf
    exact ⟨0, _, s', rfl, h1, complete_of_stepsFalse _ 0 _ _ s' rfl h1, h2⟩
  · rcases hacc.regime with hreg | ⟨r1, r2, r3, r4⟩
    · exact astar_run_gapped hacc hreg hA hS hstart hgoal hsg cc fuel hfuel
    · subst r1 r2 r3
      exact astar_run_greedy hacc r4 hA hS hstart hgoal hsg cc fuel hfuel

/-- The distance of a solution of `cheb + 1` coordinates with `manhattan - cheb` diagonal
edges is the octile distance `(|dx| + |dy|) + (1.414f - 2) * min(|dx|, |dy|)`. -/
theorem KingPath.distance {start goal : Coordinate} {s : State α}
    (h : KingPath start goal s) :
    (s.solution.length : Int) = max |start.1 - goal.1| |start.2 - goal.2| + 1 ∧
    (diagonalEdges s.solution : Int) = min |start.1 - goal.1| |start.2 - goal.2| ∧
    getSolutionDistance s =
      ((|start.1 - goal.1| + |start.2 - goal.2| : Int) : ℚ) +
        (float1414 - 2) * ((min |start.1 - goal.1| |start.2 - goal.2| : Int) : ℚ) := by
  obtain ⟨h1, _, _, h4, _⟩ := h
  have hmm := max_add_min |start.1 - goal.1| |start.2 - goal.2|
  have hd : (diagonalEdges s.solution : Int) = min |start.1 - goal.1| |start.2 - goal.2| := by
    rw [h4]
    simp only [cheb, manhattan]
    omega
  refine ⟨h1, hd, ?_⟩
  have hsum := countP_pairs_add s.solution
  have hc : ((s.solution.zip s.solution.tail).countP (fun p => isDiagonal p.1 p.2) : Int) =
      min |start.1 - goal.1| |start.2 - goal.2| := hd
  have hn : ((s.solution.zip s.solution.tail).countP (fun p => !isDiagonal p.1 p.2) : Int) =
      max |start.1 - goal.1| |start.2 - goal.2| -
        min |start.1 - goal.1| |start.2 - goal.2| := by
    have h1' : (s.solution.length : Int) = max |start.1 - goal.1| |start.2 - goal.2| + 1 := h1
    omega
  rw [getSolutionDistance_eq]
  have hc' : (((s.solution.zip s.solution.tail).countP
      (fun p => isDiagonal p.1 p.2) : Nat) : ℚ) =
      ((min |start.1 - goal.1| |start.2 - goal.2| : Int) : ℚ) := by exact_mod_cast hc
  have hn' : (((s.solution.zip s.solution.tail).countP
      (fun p => !isDiagonal p.1 p.2) : Nat) : ℚ) =
      ((max |start.1 - goal.1| |start.2 - goal.2| -
        min |start.1 - goal.1| |start.2 - goal.2| : Int) : ℚ) := by exact_mod_cast hn
  rw [hc', hn']
  have hmm' : ((|start.1 - goal.1| + |start.2 - goal.2| : Int) : ℚ) =
      ((max |start.1 - goal.1| |start.2 - goal.2| : Int) : ℚ) +
        ((min |start.1 - goal.1| |start.2 - goal.2| : Int) : ℚ) := by
    exact_mod_cast hmm.symm
  rw [hmm']
  push_cast
  ring

end AStar

/-! ## Theorems: the integer interpretation is exact for the Manhattan distance -/

namespace AStar

open AlgorithmBase

/-- In the integer interpretation the arithmetic assumptions of the theorem on A* with
diagonal moves hold for a heuristic that computes the Manhattan distance, with a diagonal
move costing 2 and no rounding. -/
theorem intEnv_accurateK_of (heuristic : Heuristic) (size goal : Coordinate)
    (hgoal : InBounds size goal) (hsize : size.1 + size.2 ≤ 2 ^ 64)
    (hd : ∀ a b, distance intEnv heuristic a b = manhattan a b) :
    AccurateK intEnv (fun x => ((x : Int) : ℝ)) (fun c => ((manhattan c goal : Int) : ℝ))
      2 0 0 heuristic size goal := by
  refine ⟨?_, ?_, ?_, by norm_num, le_refl _, le_refl _, le_refl _, ?_, ?_, ?_, ?_, ?_, ?_, ?_,
    Or.inr ⟨rfl, rfl, rfl, fun _ _ => rfl⟩⟩
  · intro a b
    simp [intEnv]
  · intro a b
    simp [intEnv]
  · simp [intEnv]
  · intro p n _ _ _
    rw [hd, octile_two]
  · intro s p n x _ _ _ _ hx
    rw [mul_zero] at hx ⊢
    have hx' := sub_eq_zero.1 (abs_nonpos_iff.1 hx)
    show |(((x + distance intEnv heuristic p n : Int)) : ℝ) - _| ≤ 0
    rw [hd, ← hx']
    push_cast
    rw [octile_two]
    simp
  · intro s p c x _ _ _ _ hx
    rw [mul_zero] at hx
    have hx' := sub_eq_zero.1 (abs_nonpos_iff.1 hx)
    show |(((distance intEnv heuristic c goal + x : Int)) : ℝ) - _| ≤ 0
    rw [hd, ← hx']
    push_cast
    simp
  · intro c _
    rw [hd]
    simp
  · intro c hc
    show _ ≤ (((doubleMax + 0 : Int)) : ℝ)
    have hm := manhattan_le_size hc hgoal
    have hdm : (2 : Int) ^ 64 + 2 ^ 64 + 1 ≤ doubleMax := by
      unfold doubleMax
      norm_num
    have : manhattan c goal + (size.1 + size.2) + 1 ≤ doubleMax + 0 := by
      omega
    exact_mod_cast this
  · simp [manhattan_self]
  · intro a b _ _
    rw [octile_two]
    exact_mod_cast manhattan_triangle a b goal

/-- The integer interpretation is exact for the Manhattan and the Chebyshev heuristics (the
latter computes the Manhattan distance) on every board whose width and height add up to at
most `2^64`. -/
theorem intEnv_accurateK (heuristic : Heuristic)
    (hh : heuristic = Heuristic.Manhattan ∨ heuristic = Heuristic.Chebyshev)
    (size goal : Coordinate) (hgoal : InBounds size goal) (hsize : size.1 + size.2 ≤ 2 ^ 64) :
    AccurateK intEnv (fun x => ((x : Int) : ℝ)) (fun c => ((manhattan c goal : Int) : ℝ))
      2 0 0 heuristic size goal := by
  rcases hh with rfl | rfl
  · exact intEnv_accurateK_of _ size goal hgoal hsize (fun _ _ => rfl)
  · exact intEnv_accurateK_of _ size goal hgoal hsize (fun _ _ => rfl)

end AStar

/-! ## Theorems: rounding in the binary floating-point interpretation -/

theorem bitLength_go_le : ∀ (f n e : Nat), n < 2 ^ e → bitLength.go f n ≤ e
  | 0, _, _, _ => Nat.zero_le _
  | f + 1, n, e, h => by
    rw [bitLength.go]
    split
    · exact Nat.zero_le _
    · rename_i hn
      cases e with
      | zero =>
        simp only [pow_zero, Nat.lt_one_iff] at h
        exact absurd h hn
      | succ e =>
        have h2 : n / 2 < 2 ^ e := by
          rw [Nat.div_lt_iff_lt_mul (by norm_num)]
          rw [pow_succ] at h
          exact h
        have := bitLength_go_le f (n / 2) e h2
        omega

/-- A number below `2^e` has at most `e` significant bits. -/
theorem bitLength_le {n e : Nat} (h : n < 2 ^ e) : bitLength n ≤ e :=
  bitLength_go_le 1100 n e h

/-- What `roundNat` returns: the number itself, or one of the two multiples of `2^sh` next to
it, the lower one only when the rest is at most half of `2^sh` and the upper one only when
it is at least half. -/
theorem roundNat_cases (p n : Nat) (s : Bool) :
    roundNat p n s = n ∨
    ∃ sh, 0 < sh ∧ sh + p = bitLength n ∧
      ((roundNat p n s = n / 2 ^ sh * 2 ^ sh ∧ n % 2 ^ sh ≤ 2 ^ (sh - 1)) ∨
        (roundNat p n s = (n / 2 ^ sh + 1) * 2 ^ sh ∧ 2 ^ (sh - 1) ≤ n % 2 ^ sh)) := by
  unfold roundNat
  simp only
  by_cases hb : bitLength n ≤ p
  · exact Or.inl (if_pos hb)
  · rw [if_neg hb]
    refine Or.inr ⟨bitLength n - p, by omega, by omega, ?_⟩
    simp only [Nat.shiftRight_eq_div_pow, Nat.shiftLeft_eq, one_mul]
    have hmod : n - n / 2 ^ (bitLength n - p) * 2 ^ (bitLength n - p) =
        n % 2 ^ (bitLength n - p) := by
      rw [Nat.mod_def, Nat.mul_comm]
    rw [hmod]
    split
    · rename_i hc
      refine Or.inr ⟨rfl, ?_⟩
      rcases hc with hc | ⟨hc, _⟩
      · exact le_of_lt hc
      · exact le_of_eq hc.symm
    · rename_i hc
      refine Or.inl ⟨rfl, ?_⟩
      by_contra hlt
      exact hc (Or.inl (by omega))

/-- Rounding a number below `2^e` to `p < e` significant bits changes it by at most
`2^(e - p - 1)`. -/
theorem roundNat_err {p n e : Nat} (s : Bool) (hpe : p < e) (hn : n < 2 ^ e) :
    roundNat p n s ≤ n + 2 ^ (e - p - 1) ∧ n ≤ roundNat p n s + 2 ^ (e - p - 1) := by
  rcases roundNat_cases p n s with h | ⟨sh, h1, h2, h3⟩
  · rw [h]
    exact ⟨Nat.le_add_right _ _, Nat.le_add_right _ _⟩
  · have hb := bitLength_le hn
    have hhalf : 2 ^ (sh - 1) ≤ 2 ^ (e - p - 1) :=
      Nat.pow_le_pow_right (by norm_num) (by omega)
    have hP : 2 ^ sh = 2 * 2 ^ (sh - 1) := by
      rw [← pow_succ']
      congr 1
      omega
    have hdm := Nat.div_add_mod n (2 ^ sh)
    have hlt := Nat.mod_lt n (show 0 < 2 ^ sh by positivity)
    rw [Nat.mul_comm] at hdm
    rcases h3 with ⟨h4, h5⟩ | ⟨h4, h5⟩
    · rw [h4]
      constructor <;> omega
    · rw [h4, Nat.add_mul, one_mul]
      constructor <;> omega

/-- Rounding to `p` significant bits leaves a multiple of `2^j` below `2^(p + j)` as it
is. -/
theorem roundNat_exact {p n j : Nat} (s : Bool) (hd : 2 ^ j ∣ n) (hn : n < 2 ^ (p + j)) :
    roundNat p n s = n := by
  rcases roundNat_cases p n s with h | ⟨sh, h1, h2, h3⟩
  · exact h
  · have hb := bitLength_le hn
    have hdvd : 2 ^ sh ∣ n := Dvd.dvd.trans (pow_dvd_pow 2 (by omega)) hd
    have hmod : n % 2 ^ sh = 0 := Nat.mod_eq_zero_of_dvd hdvd
    rcases h3 with ⟨h4, _⟩ | ⟨_, h5⟩
    · rw [h4]
      exact Nat.div_mul_cancel hdvd
    · rw [hmod] at h5
      have : 0 < 2 ^ (sh - 1) := by positivity
      omega

/-- Rounding an integer below `2^e` in magnitude to `p < e` significant bits changes it by
at most `2^(e - p - 1)`. -/
theorem roundInt_err {p e : Nat} (z : Int) (hpe : p < e) (hz : |z| < 2 ^ e) :
    |roundInt p z - z| ≤ 2 ^ (e - p - 1) := by
  unfold roundInt
  rw [abs_lt] at hz
  rw [abs_le]
  split
  · rename_i h0
    have hn : z.toNat < 2 ^ e := by
      have : ((z.toNat : Nat) : Int) < ((2 ^ e : Nat) : Int) := by
        rw [Int.toNat_of_nonneg h0]
        push_cast
        exact hz.2
      exact_mod_cast this
    obtain ⟨h1, h2⟩ := roundNat_err false hpe hn
    have h1' : ((roundNat p z.toNat false : Nat) : Int) ≤ z + 2 ^ (e - p - 1) := by
      have : ((roundNat p z.toNat false : Nat) : Int) ≤
          ((z.toNat + 2 ^ (e - p - 1) : Nat) : Int) := by exact_mod_cast h1
      push_cast at this
      rw [Int.toNat_of_nonneg h0] at this
      exact this
    have h2' : z ≤ ((roundNat p z.toNat false : Nat) : Int) + 2 ^ (e - p - 1) := by
      have : ((z.toNat : Nat) : Int) ≤
          ((roundNat p z.toNat false + 2 ^ (e - p - 1) : Nat) : Int) := by exact_mod_cast h2
      push_cast at this
      rw [Int.toNat_of_nonneg h0] at this
      exact this
    constructor <;> linarith
  · rename_i h0
    have h0' : 0 ≤ -z := by omega
    have hn : (-z).toNat < 2 ^ e := by
      have : (((-z).toNat : Nat) : Int) < ((2 ^ e : Nat) : Int) := by
        rw [Int.toNat_of_nonneg h0']
        push_cast
        linarith [hz.1]
      exact_mod_cast this
    obtain ⟨h1, h2⟩ := roundNat_err false hpe hn
    have h1' : ((roundNat p (-z).toNat false : Nat) : Int) ≤ -z + 2 ^ (e - p - 1) := by
      have : ((roundNat p (-z).toNat false : Nat) : Int) ≤
          (((-z).toNat + 2 ^ (e - p - 1) : Nat) : Int) := by exact_mod_cast h1
      push_cast at this
      rw [Int.toNat_of_nonneg h0'] at this
      exact this
    have h2' : -z ≤ ((roundNat p (-z).toNat false : Nat) : Int) + 2 ^ (e - p - 1) := by
      have : (((-z).toNat : Nat) : Int) ≤
          ((roundNat p (-z).toNat false + 2 ^ (e - p - 1) : Nat) : Int) := by
        exact_mod_cast h2
      push_cast at this
      rw [Int.toNat_of_nonneg h0'] at this
      exact this
    constructor <;> linarith

/-- Rounding to `p` significant bits leaves a nonnegative multiple of `2^j` below
`2^(p + j)` as it is. -/
theorem roundInt_exact {p j : Nat} (z : Int) (h0 : 0 ≤ z) (hd : (2 : Int) ^ j ∣ z)
    (hz : z < 2 ^ (p + j)) : roundInt p z = z := by
  unfold roundInt
  rw [if_pos h0]
  have hn : z.toNat < 2 ^ (p + j) := by
    have : ((z.toNat : Nat) : Int) < ((2 ^ (p + j) : Nat) : Int) := by
      rw [Int.toNat_of_nonneg h0]
      push_cast
      exact hz
    exact_mod_cast this
  have hd' : 2 ^ j ∣ z.toNat := by
    have : ((2 ^ j : Nat) : Int) ∣ ((z.toNat : Nat) : Int) := by
      rw [Int.toNat_of_nonneg h0]
      push_cast
      exact hd
    exact Int.natCast_dvd_natCast.1 this
  rw [roundNat_exact false hd' hn, Int.toNat_of_nonneg h0]

/-- The bitwise square root: from `r^2 <= n < (r + 2^k)^2` it finds the root. -/
theorem isqrtAux_spec (n : Nat) : ∀ (k r : Nat), r * r ≤ n → n < (r + 2 ^ k) * (r + 2 ^ k) →
    isqrtAux n k r * isqrtAux n k r ≤ n ∧
      n < (isqrtAux n k r + 1) * (isqrtAux n k r + 1)
  | 0, r, h1, h2 => by
    rw [isqrtAux]
    exact ⟨h1, by simpa using h2⟩
  | k + 1, r, h1, h2 => by
    rw [isqrtAux]
    simp only [Nat.shiftLeft_eq, one_mul]
    split
    · rename_i hc
      refine isqrtAux_spec n k _ hc ?_
      have : r + 2 ^ k + 2 ^ k = r + 2 ^ (k + 1) := by
        rw [pow_succ]
        omega
      rw [this]
      exact h2
    · rename_i hc
      exact isqrtAux_spec n k r h1 (by omega)

/-- The integer square root of a number below `2^256`. -/
theorem isqrt_spec {n : Nat} (h : n < 2 ^ 256) :
    isqrt n * isqrt n ≤ n ∧ n < (isqrt n + 1) * (isqrt n + 1) := by
  refine isqrtAux_spec n 128 0 (Nat.zero_le _) ?_
  have : (0 + 2 ^ 128) * (0 + 2 ^ 128) = 2 ^ 256 := by norm_num
  rw [this]
  exact h

/-! ## Theorems: the square root in the binary floating-point interpretation -/

/-- The triangle inequality of the Euclidean distance in the plane. -/
theorem sqrt_add_sq_le (x y u w : ℝ) :
    Real.sqrt ((x + u) ^ 2 + (y + w) ^ 2) ≤
      Real.sqrt (u ^ 2 + w ^ 2) + Real.sqrt (x ^ 2 + y ^ 2) := by
  have hA : 0 ≤ u ^ 2 + w ^ 2 := by positivity
  have hB : 0 ≤ x ^ 2 + y ^ 2 := by positivity
  have hs : 0 ≤ Real.sqrt (u ^ 2 + w ^ 2) + Real.sqrt (x ^ 2 + y ^ 2) := by positivity
  have hsq : (Real.sqrt (u ^ 2 + w ^ 2) + Real.sqrt (x ^ 2 + y ^ 2)) ^ 2 =
      (u ^ 2 + w ^ 2) + (x ^ 2 + y ^ 2) +
        2 * Real.sqrt ((u ^ 2 + w ^ 2) * (x ^ 2 + y ^ 2)) := by
    rw [add_sq, Real.sq_sqrt hA, Real.sq_sqrt hB, Real.sqrt_mul hA]
    ring
  have hcs : (x * u + y * w) ^ 2 ≤ (u ^ 2 + w ^ 2) * (x ^ 2 + y ^ 2) := by
    nlinarith [sq_nonneg (x * w - y * u)]
  have h1 : x * u + y * w ≤ Real.sqrt ((u ^ 2 + w ^ 2) * (x ^ 2 + y ^ 2)) :=
    le_trans (le_abs_self _) (Real.abs_le_sqrt hcs)
  rw [Real.sqrt_le_left hs, hsq]
  nlinarith

/-- The Euclidean distance is at most the cost of a cheapest path of horizontal, vertical
and diagonal moves, when a diagonal move costs at least the square root of 2. -/
theorem sqrt_le_octile {c2 : ℝ} (h1 : 1 ≤ c2) (h2 : c2 ≤ 2) (hc : 2 ≤ c2 ^ 2)
    (a b : Coordinate) :
    Real.sqrt ((((a.1 - b.1) ^ 2 + (a.2 - b.2) ^ 2 : Int)) : ℝ) ≤
      AlgorithmBase.octile c2 a b := by
  have hn := AlgorithmBase.octile_nonneg h1 h2 a b
  rw [Real.sqrt_le_left hn]
  simp only [AlgorithmBase.octile, AlgorithmBase.cheb, AlgorithmBase.manhattan]
  push_cast
  have e1 : ((a.1 : ℝ) - b.1) ^ 2 = |(a.1 : ℝ) - b.1| ^ 2 := (sq_abs _).symm
  have e2 : ((a.2 : ℝ) - b.2) ^ 2 = |(a.2 : ℝ) - b.2| ^ 2 := (sq_abs _).symm
  rw [e1, e2]
  have n1 := abs_nonneg ((a.1 : ℝ) - b.1)
  have n2 := abs_nonneg ((a.2 : ℝ) - b.2)
  generalize |(a.1 : ℝ) - b.1| = p at *
  generalize |(a.2 : ℝ) - b.2| = q at *
  rcases le_total p q with hpq | hpq
  · rw [max_eq_right hpq]
    have e3 : (2 - c2) * q + (c2 - 1) * (p + q) = q + (c2 - 1) * p := by ring
    rw [e3]
    nlinarith [mul_nonneg n1 n1, mul_nonneg n1 (sub_nonneg.2 hpq),
      mul_nonneg (mul_nonneg n1 n1) (sub_nonneg.2 hc)]
  · rw [max_eq_left hpq]
    have e3 : (2 - c2) * p + (c2 - 1) * (p + q) = p + (c2 - 1) * q := by ring
    rw [e3]
    nlinarith [mul_nonneg n2 n2, mul_nonneg n2 (sub_nonneg.2 hpq),
      mul_nonneg (mul_nonneg n2 n2) (sub_nonneg.2 hc)]

/-- The Euclidean distance to the goal decreases by at most the cost of a cheapest path. -/
theorem sqrt_consistent {c2 : ℝ} (h1 : 1 ≤ c2) (h2 : c2 ≤ 2) (hc : 2 ≤ c2 ^ 2)
    (a b goal : Coordinate) :
    Real.sqrt ((((a.1 - goal.1) ^ 2 + (a.2 - goal.2) ^ 2 : Int)) : ℝ) ≤
      AlgorithmBase.octile c2 a b +
        Real.sqrt ((((b.1 - goal.1) ^ 2 + (b.2 - goal.2) ^ 2 : Int)) : ℝ) := by
  have t := sqrt_add_sq_le ((b.1 : ℝ) - goal.1) ((b.2 : ℝ) - goal.2) ((a.1 : ℝ) - b.1)
    ((a.2 : ℝ) - b.2)
  have e := sqrt_le_octile h1 h2 hc a b
  push_cast at e ⊢
  have r1 : (b.1 : ℝ) - goal.1 + (a.1 - b.1) = a.1 - goal.1 := by ring
  have r2 : (b.2 : ℝ) - goal.2 + (a.2 - b.2) = a.2 - goal.2 := by ring
  rw [r1, r2] at t
  linarith

/-- The integer square root brackets the real one. -/
theorem sqrt_bracket (t n : Nat) (h1 : t * t ≤ n) (h2 : n < (t + 1) * (t + 1)) :
    (t : ℝ) ≤ Real.sqrt n ∧ Real.sqrt n < (t : ℝ) + 1 := by
  constructor
  · rw [Real.le_sqrt (Nat.cast_nonneg t) (Nat.cast_nonneg n), sq]
    exact_mod_cast h1
  · rw [Real.sqrt_lt' (by positivity), sq]
    exact_mod_cast h2

theorem sqrt_scaled (k : Nat) :
    Real.sqrt (((k * 2 ^ 108 : Nat)) : ℝ) = Real.sqrt k * 2 ^ 54 := by
  rw [Nat.cast_mul, Real.sqrt_mul (Nat.cast_nonneg k)]
  congr 1
  rw [Nat.cast_pow, Nat.cast_ofNat, show (108 : Nat) = 54 * 2 by norm_num, pow_mul,
    Real.sqrt_sq (by positivity)]

/-- The computed square root of a natural number below `2^34` is within `2^-36` of the
root. -/
theorem sqrtDouble_err (k : Nat) (hk : k < 2 ^ 34) :
    |((sqrtDouble k : Int) : ℝ) / 2 ^ 52 - Real.sqrt k| ≤ 1 / 2 ^ 36 := by
  have hsd : ∀ b : Bool, sqrtDouble k =
      ((roundNat 53 (isqrt (k * 2 ^ 108)) b / 4 : Nat) : Int) ∨ True := fun _ => Or.inr trivial
  have hdef : sqrtDouble k = ((roundNat 53 (isqrt (k * 2 ^ 108))
      (decide (isqrt (k * 2 ^ 108) * isqrt (k * 2 ^ 108) ≠ k * 2 ^ 108)) / 4 : Nat) : Int) := by
    simp only [sqrtDouble, Nat.shiftLeft_eq]
  clear hsd
  have hn2 : k * 2 ^ 108 < 2 ^ 71 * 2 ^ 71 := by
    calc k * 2 ^ 108 < 2 ^ 34 * 2 ^ 108 := Nat.mul_lt_mul_of_pos_right hk (by positivity)
      _ = 2 ^ 71 * 2 ^ 71 := by norm_num
  have hn : k * 2 ^ 108 < 2 ^ 256 := lt_of_lt_of_le hn2 (by norm_num)
  obtain ⟨s1, s2⟩ := isqrt_spec hn
  have ht : isqrt (k * 2 ^ 108) < 2 ^ 71 := by
    by_contra hge
    rw [not_lt] at hge
    have := Nat.mul_le_mul hge hge
    omega
  obtain ⟨b1, b2⟩ := sqrt_bracket _ _ s1 s2
  rw [sqrt_scaled] at b1 b2
  obtain ⟨r1, r2⟩ := roundNat_err
    (decide (isqrt (k * 2 ^ 108) * isqrt (k * 2 ^ 108) ≠ k * 2 ^ 108))
    (by norm_num : 53 < 71) ht
  rw [hdef]
  clear hdef hn hn2 s1 s2 ht hk
  generalize roundNat 53 (isqrt (k * 2 ^ 108))
    (decide (isqrt (k * 2 ^ 108) * isqrt (k * 2 ^ 108) ≠ k * 2 ^ 108)) = ρ at *
  generalize isqrt (k * 2 ^ 108) = t at *
  have hq := Nat.div_add_mod ρ 4
  have hm := Nat.mod_lt ρ (by norm_num : 0 < 4)
  have a1 : (ρ : ℝ) ≤ t + 2 ^ 17 := by exact_mod_cast r1
  have a2 : (t : ℝ) ≤ ρ + 2 ^ 17 := by exact_mod_cast r2
  have a3 : (4 : ℝ) * ((ρ / 4 : Nat) : ℝ) + ((ρ % 4 : Nat) : ℝ) = ρ := by exact_mod_cast hq
  have a4 : ((ρ % 4 : Nat) : ℝ) < 4 := by exact_mod_cast hm
  have a5 : (0 : ℝ) ≤ ((ρ % 4 : Nat) : ℝ) := Nat.cast_nonneg _
  have e : ((((ρ / 4 : Nat)) : Int) : ℝ) = ((ρ / 4 : Nat) : ℝ) := by norm_cast
  rw [e]
  generalize ((ρ / 4 : Nat) : ℝ) = sd at *
  generalize ((ρ % 4 : Nat) : ℝ) = md at *
  generalize Real.sqrt k = R at *
  have p52 : (0 : ℝ) < 2 ^ 52 := by positivity
  have e54 : (2 : ℝ) ^ 54 = 4 * 2 ^ 52 := by norm_num
  have e17 : (2 : ℝ) ^ 17 = 131072 := by norm_num
  have e36 : (1 : ℝ) / 2 ^ 36 * 2 ^ 52 = 65536 := by norm_num
  rw [e54] at b1 b2
  rw [e17] at a1 a2
  have hsub : sd / 2 ^ 52 - R = (sd - R * 2 ^ 52) / 2 ^ 52 := by
    field_simp
    ring
  rw [hsub, abs_le, le_div_iff₀ p52, div_le_iff₀ p52, neg_mul, e36]
  generalize (2 : ℝ) ^ 52 = c at *
  constructor <;> nlinarith
/-! ## Theorems: sums and comparisons in the binary floating-point interpretation -/

theorem doubleEnv_sortPermutes : doubleEnv.SortPermutes :=
  fun _ l => List.perm_insertionSort _ l

theorem doubleEnv_sortSorts : doubleEnv.SortSorts :=
  fun cmp l hsw => AlgorithmBase.insertionSort_sorted cmp hsw l

namespace AStar

open AlgorithmBase

/-- A sum of two `double` values that is a nonnegative multiple of `2^j` below `2^(53+j)`
is exact. -/
theorem doubleEnv_add_exact (x d : Int) (j : Nat) (h0 : 0 ≤ x + d)
    (hd : (2 : Int) ^ j ∣ x + d) (hz : x + d < 2 ^ (53 + j)) : doubleEnv.add x d = x + d :=
  roundInt_exact (x + d) h0 hd hz

/-- The rounding error of a sum of two `double` values below `2^e` in magnitude. -/
theorem doubleEnv_add_err (x d : Int) {e : Nat} (hpe : 53 < e) (hz : |x + d| < 2 ^ e) :
    |((doubleEnv.add x d : Int) : ℝ) - ((x : ℝ) + d)| ≤ 2 ^ (e - 53 - 1) := by
  have h := roundInt_err (x + d) hpe hz
  have h' : ((|roundInt 53 (x + d) - (x + d)| : Int) : ℝ) ≤ (((2 : Int) ^ (e - 53 - 1) : Int) : ℝ) :=
    Int.cast_le.2 h
  rw [Int.cast_abs] at h'
  push_cast at h'
  have e1 : ((doubleEnv.add x d : Int) : ℝ) - ((x : ℝ) + d) =
      (roundInt 53 (x + d) : ℝ) - ((x : ℝ) + d) := rfl
  rw [e1]
  exact h'

theorem doubleEnv_lt_val (a b : Int) :
    doubleEnv.lt a b = true ↔ (a : ℝ) / 2 ^ 52 < (b : ℝ) / 2 ^ 52 := by
  rw [div_lt_div_iff_of_pos_right (by positivity)]
  show decide (a < b) = true ↔ _
  simp

theorem doubleEnv_eq_val (a b : Int) :
    doubleEnv.eq a b = true ↔ (a : ℝ) / 2 ^ 52 = (b : ℝ) / 2 ^ 52 := by
  rw [div_left_inj' (by positivity)]
  show decide (a = b) = true ↔ _
  simp

theorem doubleEnv_zero_val : ((doubleEnv.ofInt 0 : Int) : ℝ) / 2 ^ 52 = 0 := by
  show (((0 * 2 ^ 52 : Int)) : ℝ) / 2 ^ 52 = 0
  simp

set_option maxRecDepth 100000 in
theorem doubleEnv_add_max :
    doubleEnv.add doubleEnv.maxValue (doubleEnv.ofInt 0) = doubleMax * 2 ^ 52 := by
  decide

/-- The value of `max + 0` exceeds every value that occurs on a board whose width and height
add up to at most `2^16`. -/
theorem doubleEnv_max_val (x : ℝ) (n : Int) (hx : x ≤ 2 ^ 17) (hn : n ≤ 2 ^ 16) :
    x + (n : ℝ) + 1 ≤
      ((doubleEnv.add doubleEnv.maxValue (doubleEnv.ofInt 0) : Int) : ℝ) / 2 ^ 52 := by
  rw [doubleEnv_add_max]
  simp only [Int.cast_mul, Int.cast_pow, Int.cast_ofNat]
  rw [mul_div_assoc, div_self (by positivity), mul_one]
  have hdm : (2 : Int) ^ 64 ≤ doubleMax := by
    unfold doubleMax
    norm_num
  have h1 : ((2 : Int) ^ 64 : ℝ) ≤ (doubleMax : ℝ) := by exact_mod_cast hdm
  have h2 : (n : ℝ) ≤ 2 ^ 16 := by exact_mod_cast hn
  push_cast at h1
  norm_num at h1 h2 hx ⊢
  linarith

/-- The sum of two `double` values that hold `Ra` within `ea` and `Rb` within `eb` holds
`Ra + Rb` within `ea + eb + 2^-36`, as long as the values are below `2^18`. -/
theorem doubleEnv_add_val (a b : Int) (Ra Rb ea eb : ℝ)
    (ha : |(a : ℝ) / 2 ^ 52 - Ra| ≤ ea) (hb : |(b : ℝ) / 2 ^ 52 - Rb| ≤ eb)
    (hbound : |Ra| + |Rb| + ea + eb < 2 ^ 18) :
    |((doubleEnv.add a b : Int) : ℝ) / 2 ^ 52 - (Ra + Rb)| ≤ ea + eb + 1 / 2 ^ 36 := by
  have p52 : (0 : ℝ) < 2 ^ 52 := by positivity
  have e70 : (2 : ℝ) ^ 70 = 2 ^ 18 * 2 ^ 52 := by norm_num
  have ha1 := abs_le.1 ha
  have hb1 := abs_le.1 hb
  have hRa := abs_le.1 (le_refl |Ra|)
  have hRb := abs_le.1 (le_refl |Rb|)
  have hz : |a + b| < 2 ^ 70 := by
    have : |((a + b : Int) : ℝ)| < (((2 : Int) ^ 70 : Int) : ℝ) := by
      simp only [Int.cast_add, Int.cast_pow, Int.cast_ofNat]
      rw [e70, abs_lt]
      have a1 : (a : ℝ) = (a : ℝ) / 2 ^ 52 * 2 ^ 52 := by field_simp
      have b1 : (b : ℝ) = (b : ℝ) / 2 ^ 52 * 2 ^ 52 := by field_simp
      rw [a1, b1]
      generalize (a : ℝ) / 2 ^ 52 = va at *
      generalize (b : ℝ) / 2 ^ 52 = vb at *
      generalize (2 : ℝ) ^ 52 = c at *
      constructor <;> nlinarith
    rw [← Int.cast_abs] at this
    exact_mod_cast this
  have hr := abs_le.1 (doubleEnv_add_err a b (by norm_num) hz)
  have e16 : (2 : ℝ) ^ (70 - 53 - 1) = 1 / 2 ^ 36 * 2 ^ 52 := by norm_num
  rw [e16] at hr
  have r1 : ((doubleEnv.add a b : Int) : ℝ) =
      ((doubleEnv.add a b : Int) : ℝ) / 2 ^ 52 * 2 ^ 52 := by field_simp
  have a1 : (a : ℝ) = (a : ℝ) / 2 ^ 52 * 2 ^ 52 := by field_simp
  have b1 : (b : ℝ) = (b : ℝ) / 2 ^ 52 * 2 ^ 52 := by field_simp
  rw [r1, a1, b1] at hr
  generalize ((doubleEnv.add a b : Int) : ℝ) / 2 ^ 52 = vr at *
  generalize (a : ℝ) / 2 ^ 52 = va at *
  generalize (b : ℝ) / 2 ^ 52 = vb at *
  generalize (2 : ℝ) ^ 52 = c at *
  rw [abs_le]
  constructor <;> nlinarith

/-- The value of `octileUnits`. -/
theorem octileUnits_val (C : Int) (a b : Coordinate) :
    ((octileUnits C a b : Int) : ℝ) / 2 ^ 52 = octile ((C : ℝ) / 8388608) a b := by
  simp only [octileUnits, octile]
  push_cast
  field_simp
  ring

end AStar
/-! ## Theorems: the binary floating-point interpretation is accurate for the Manhattan
distance -/

namespace AStar

open AlgorithmBase

/-- A sum of two nonnegative multiples of `2^-23` below `2^30` is exact. -/
theorem doubleEnv_add_grid (x d K L : Int) (hx : x = 2 ^ 29 * K) (hd : d = 2 ^ 29 * L)
    (h0 : 0 ≤ K + L) (h1 : K + L < 2 ^ 53) : doubleEnv.add x d = x + d := by
  subst hx hd
  apply doubleEnv_add_exact _ _ 29
  · omega
  · exact ⟨K + L, by ring⟩
  · omega

/-- A `double` that holds an integer is that integer times `2^52`. -/
theorem int_of_val (x m : Int) (h : (x : ℝ) / 2 ^ 52 = (m : ℝ)) : x = m * 2 ^ 52 := by
  have h' := (div_eq_iff (by positivity)).1 h
  exact_mod_cast h'

/-- In the binary floating-point interpretation the arithmetic assumptions of the theorem on
A* with diagonal moves hold for a heuristic that computes the Manhattan distance, with a
diagonal move costing 2 and no rounding, on every board whose width and height add up to at
most `2^16`. -/
theorem doubleEnv_accurateK_of (heuristic : Heuristic) (size goal : Coordinate)
    (hgoal : InBounds size goal) (hsize : size.1 + size.2 ≤ 2 ^ 16)
    (hd : ∀ a b, distance doubleEnv heuristic a b = manhattan a b * 2 ^ 52) :
    AccurateK doubleEnv (fun x : Int => (x : ℝ) / 2 ^ 52)
      (fun c => ((manhattan c goal : Int) : ℝ)) 2 0 0 heuristic size goal := by
  have hv : ∀ a b, ((distance doubleEnv heuristic a b : Int) : ℝ) / 2 ^ 52 =
      (manhattan a b : ℝ) := by
    intro a b
    rw [hd, Int.cast_mul, Int.cast_pow, Int.cast_ofNat, mul_div_assoc,
      div_self (by positivity), mul_one]
  refine ⟨doubleEnv_lt_val, doubleEnv_eq_val, doubleEnv_zero_val, by norm_num, le_refl _,
    le_refl _, le_refl _, ?_, ?_, ?_, ?_, ?_, ?_, ?_, Or.inr ⟨rfl, rfl, rfl, fun _ _ => rfl⟩⟩
  · intro p n _ _ _
    rw [octile_two]
    exact hv p n
  · intro s p n x hs hp hn _ hx
    rw [mul_zero] at hx ⊢
    have hx' : (x : ℝ) / 2 ^ 52 = octile 2 s p := sub_eq_zero.1 (abs_nonpos_iff.1 hx)
    rw [octile_two] at hx'
    have hxi := int_of_val x _ hx'
    have b1 := manhattan_le_size hs hp
    have b2 := manhattan_le_size hp hn
    have n1 := manhattan_nonneg s p
    have n2 := manhattan_nonneg p n
    have hadd : doubleEnv.add x (distance doubleEnv heuristic p n) =
        x + distance doubleEnv heuristic p n := by
      rw [hd, hxi]
      exact doubleEnv_add_grid _ _ (2 ^ 23 * manhattan s p) (2 ^ 23 * manhattan p n)
        (by ring) (by ring) (by omega) (by omega)
    show |((doubleEnv.add x (distance doubleEnv heuristic p n) : Int) : ℝ) / 2 ^ 52 - _| ≤ 0
    rw [hadd, octile_two, octile_two, Int.cast_add, add_div, hv, hx']
    simp
  · intro s p c x hs hp hc _ hx
    rw [mul_zero] at hx
    have hx' : (x : ℝ) / 2 ^ 52 = octile 2 s p + octile 2 p c :=
      sub_eq_zero.1 (abs_nonpos_iff.1 hx)
    rw [octile_two, octile_two, ← Int.cast_add] at hx'
    have hxi := int_of_val x _ hx'
    have b1 := manhattan_le_size hs hp
    have b2 := manhattan_le_size hp hc
    have b3 := manhattan_le_size hc hgoal
    have n1 := manhattan_nonneg s p
    have n2 := manhattan_nonneg p c
    have n3 := manhattan_nonneg c goal
    have hadd : doubleEnv.add (distance doubleEnv heuristic c goal) x =
        distance doubleEnv heuristic c goal + x := by
      rw [hd, hxi]
      exact doubleEnv_add_grid _ _ (2 ^ 23 * manhattan c goal)
        (2 ^ 23 * (manhattan s p + manhattan p c)) (by ring) (by ring) (by omega) (by omega)
    show |((doubleEnv.add (distance doubleEnv heuristic c goal) x : Int) : ℝ) / 2 ^ 52 - _| ≤ 0
    rw [hadd, octile_two, octile_two, Int.cast_add, add_div, hv, hx']
    simp
  · intro c _
    show |((distance doubleEnv heuristic c goal : Int) : ℝ) / 2 ^ 52 - _| ≤ 0
    rw [hv]
    simp
  · intro c hc
    have hm := manhattan_le_size hc hgoal
    refine doubleEnv_max_val _ _ ?_ hsize
    have : ((manhattan c goal : Int) : ℝ) ≤ (((2 : Int) ^ 17 : Int) : ℝ) :=
      Int.cast_le.2 (by omega)
    rw [Int.cast_pow, Int.cast_ofNat] at this
    exact this
  · simp [manhattan_self]
  · intro a b _ _
    rw [octile_two]
    exact_mod_cast manhattan_triangle a b goal

/-- The binary floating-point interpretation is exact for the Manhattan and the Chebyshev
heuristics (the latter computes the Manhattan distance) on every board whose width and
height add up to at most `2^16`. -/
theorem doubleEnv_accurateK_manhattan (heuristic : Heuristic)
    (hh : heuristic = Heuristic.Manhattan ∨ heuristic = Heuristic.Chebyshev)
    (size goal : Coordinate) (hgoal : InBounds size goal) (hsize : size.1 + size.2 ≤ 2 ^ 16) :
    AccurateK doubleEnv (fun x : Int => (x : ℝ) / 2 ^ 52)
      (fun c => ((manhattan c goal : Int) : ℝ)) 2 0 0 heuristic size goal := by
  rcases hh with rfl | rfl
  · exact doubleEnv_accurateK_of _ size goal hgoal hsize (fun _ _ => rfl)
  · exact doubleEnv_accurateK_of _ size goal hgoal hsize (fun _ _ => rfl)

end AStar
/-! ## Theorems: the binary floating-point interpretation is accurate for the Diagonal
distance -/

namespace AStar

open AlgorithmBase

theorem doubleEnv_diagonal_eq (a b : Coordinate) :
    doubleEnv.diagonalDistance a b =
      roundInt 24 (roundInt 24 (|a.1 - b.1| + |a.2 - b.2|) * 2 ^ 52 +
        roundInt 24 (-(4915724 * 2 ^ 29) * roundInt 24 (min |a.1 - b.1| |a.2 - b.2|))) :=
  rfl

/-- The Diagonal distance between two adjacent cells is computed exactly: 1 or `1.414f`. -/
theorem doubleEnv_diagonal_adj {p n : Coordinate} (h : cheb p n = 1) :
    doubleEnv.diagonalDistance p n = octileUnits 11861492 p n := by
  rw [doubleEnv_diagonal_eq]
  simp only [octileUnits, cheb, manhattan] at h ⊢
  have n1 := abs_nonneg (p.1 - n.1)
  have n2 := abs_nonneg (p.2 - n.2)
  generalize |p.1 - n.1| = dx at *
  generalize |p.2 - n.2| = dy at *
  have hc : (dx = 1 ∧ dy = 0) ∨ (dx = 0 ∧ dy = 1) ∨ (dx = 1 ∧ dy = 1) := by omega
  rcases hc with ⟨rfl, rfl⟩ | ⟨rfl, rfl⟩ | ⟨rfl, rfl⟩ <;> decide

/-- The Diagonal distance between two cells less than `2^16` moves apart is computed within
`2^-6`: the product and the sum are rounded to `float`. -/
theorem doubleEnv_diagonal_err {a b : Coordinate} (h : manhattan a b < 2 ^ 16) :
    |doubleEnv.diagonalDistance a b - octileUnits 11861492 a b| ≤ 2 ^ 46 := by
  rw [doubleEnv_diagonal_eq]
  simp only [octileUnits, cheb, manhattan] at h ⊢
  have n1 := abs_nonneg (a.1 - b.1)
  have n2 := abs_nonneg (a.2 - b.2)
  generalize |a.1 - b.1| = dx at *
  generalize |a.2 - b.2| = dy at *
  have p24 : (2 : Int) ^ (24 + 0) = 16777216 := by norm_num
  have hmin : roundInt 24 (min dx dy) = min dx dy :=
    roundInt_exact (j := 0) _ (by omega) (by simp) (by omega)
  have hsum : roundInt 24 (dx + dy) = dx + dy :=
    roundInt_exact (j := 0) _ (by omega) (by simp) (by omega)
  rw [hmin, hsum]
  have hP0 : |-(4915724 * 2 ^ 29) * min dx dy| < 2 ^ 68 := by
    rw [abs_lt]
    constructor <;> omega
  have e1 := abs_le.1 (roundInt_err (p := 24) (e := 68) _ (by norm_num) hP0)
  generalize roundInt 24 (-(4915724 * 2 ^ 29) * min dx dy) = P at *
  have q1 : (2 : Int) ^ (68 - 24 - 1) = 2 ^ 43 := by norm_num
  rw [q1] at e1
  have hS0 : |(dx + dy) * 2 ^ 52 + P| < 2 ^ 70 := by
    rw [abs_lt]
    constructor <;> omega
  have e2 := abs_le.1 (roundInt_err (p := 24) (e := 70) _ (by norm_num) hS0)
  generalize roundInt 24 ((dx + dy) * 2 ^ 52 + P) = R at *
  have q2 : (2 : Int) ^ (70 - 24 - 1) = 2 ^ 45 := by norm_num
  rw [q2] at e2
  rw [abs_le]
  constructor <;> omega

/-- A `double` that holds the cost of a cheapest path, a diagonal move costing `1.414f`, is
that cost in units of `2^-52`. -/
theorem units_of_val (x : Int) (r : ℝ) (a b : Coordinate)
    (hx : (x : ℝ) / 2 ^ 52 = r) (hr : r = octile (11861492 / 8388608) a b) :
    x = octileUnits 11861492 a b := by
  have e := octileUnits_val 11861492 a b
  rw [Int.cast_ofNat, ← hr, ← hx, div_left_inj' (by positivity)] at e
  exact_mod_cast e.symm

/-- In the binary floating-point interpretation the arithmetic assumptions of the theorem on
A* with diagonal moves hold for the Diagonal heuristic on every board whose width and height
add up to at most `2^16`: a diagonal move costs `1.414f`, the sums that make up `g` are
exact, and `h` and `h + g` are within `1/32` of their exact values. -/
theorem doubleEnv_accurateK_diagonal (size goal : Coordinate) (hgoal : InBounds size goal)
    (hsize : size.1 + size.2 ≤ 2 ^ 16) :
    AccurateK doubleEnv (fun x : Int => (x : ℝ) / 2 ^ 52)
      (fun c => octile (11861492 / 8388608) c goal) (11861492 / 8388608) 0 (1 / 32)
      Heuristic.Diagonal size goal := by
  have c1 : (1 : ℝ) ≤ 11861492 / 8388608 := by norm_num
  have c2 : (11861492 : ℝ) / 8388608 ≤ 2 := by norm_num
  have hv : ∀ a b, ((octileUnits 11861492 a b : Int) : ℝ) / 2 ^ 52 =
      octile (11861492 / 8388608) a b := by
    intro a b
    have e := octileUnits_val 11861492 a b
    rw [Int.cast_ofNat] at e
    exact e
  have hh : ∀ c, InBounds size c →
      |((doubleEnv.diagonalDistance c goal : Int) : ℝ) / 2 ^ 52 -
        octile (11861492 / 8388608) c goal| ≤ 1 / 64 := by
    intro c hc
    have hm := manhattan_le_size hc hgoal
    have e := doubleEnv_diagonal_err (by omega : manhattan c goal < 2 ^ 16)
    have e' : ((|doubleEnv.diagonalDistance c goal - octileUnits 11861492 c goal| : Int) : ℝ) ≤
        (((2 : Int) ^ 46 : Int) : ℝ) := Int.cast_le.2 e
    rw [Int.cast_abs, Int.cast_sub, Int.cast_pow, Int.cast_ofNat] at e'
    rw [← hv, ← sub_div, abs_div, abs_of_pos (by positivity : (0 : ℝ) < 2 ^ 52),
      div_le_iff₀ (by positivity)]
    refine le_trans e' ?_
    norm_num
  have hoct : ∀ a b, InBounds size a → InBounds size b →
      0 ≤ octile (11861492 / 8388608) a b ∧ octile (11861492 / 8388608) a b + 2 ≤ 2 ^ 16 := by
    intro a b ha hb
    refine ⟨octile_nonneg c1 c2 a b, ?_⟩
    have h1 := octile_le_size c2 ha hb
    have h2 : ((size.1 + size.2 : Int) : ℝ) ≤ (((2 : Int) ^ 16 : Int) : ℝ) := Int.cast_le.2 hsize
    rw [Int.cast_pow, Int.cast_ofNat] at h2
    linarith
  refine ⟨doubleEnv_lt_val, doubleEnv_eq_val, doubleEnv_zero_val, by norm_num, c2, le_refl _,
    by norm_num, ?_, ?_, ?_, ?_, ?_, octile_self _ _, ?_, Or.inl ⟨by norm_num, ?_⟩⟩
  · intro p n _ _ hadj
    show ((doubleEnv.diagonalDistance p n : Int) : ℝ) / 2 ^ 52 = _
    rw [doubleEnv_diagonal_adj hadj, hv]
  · intro s p n x hs hp hn hadj hx
    rw [mul_zero] at hx ⊢
    have hx' : (x : ℝ) / 2 ^ 52 = octile (11861492 / 8388608) s p :=
      sub_eq_zero.1 (abs_nonpos_iff.1 hx)
    have hxi := units_of_val x _ s p hx' rfl
    have b1 := manhattan_le_size hs hp
    have b2 := manhattan_le_size hp hn
    have n1 := cheb_nonneg s p
    have n2 := cheb_nonneg p n
    have m1 := cheb_le_manhattan s p
    have m2 := cheb_le_manhattan p n
    have hadd : doubleEnv.add x (doubleEnv.diagonalDistance p n) =
        x + doubleEnv.diagonalDistance p n := by
      rw [doubleEnv_diagonal_adj hadj, hxi]
      exact doubleEnv_add_grid _ _
        ((2 ^ 24 - 11861492) * cheb s p + (11861492 - 2 ^ 23) * manhattan s p)
        ((2 ^ 24 - 11861492) * cheb p n + (11861492 - 2 ^ 23) * manhattan p n)
        rfl rfl (by omega) (by omega)
    show |((doubleEnv.add x (doubleEnv.diagonalDistance p n) : Int) : ℝ) / 2 ^ 52 - _| ≤ 0
    rw [hadd, Int.cast_add, add_div, hx', doubleEnv_diagonal_adj hadj, hv]
    simp
  · intro s p c x hs hp hc hadj hx
    rw [mul_zero] at hx
    have hx0 : |(x : ℝ) / 2 ^ 52 -
        (octile (11861492 / 8388608) s p + octile (11861492 / 8388608) p c)| ≤ 0 := hx
    have o1 := hoct s p hs hp
    have o2 := hoct p c hp hc
    have o3 := hoct c goal hc hgoal
    have h := doubleEnv_add_val _ _ _ _ _ _ (hh c hc) hx0 (by
      rw [abs_of_nonneg o3.1, abs_of_nonneg (add_nonneg o1.1 o2.1)]
      norm_num at o1 o2 o3 ⊢
      linarith)
    show |((doubleEnv.add (doubleEnv.diagonalDistance c goal) x : Int) : ℝ) / 2 ^ 52 - _| ≤ _
    refine le_trans h ?_
    norm_num
  · intro c hc
    refine le_trans (hh c hc) ?_
    norm_num
  · intro c hc
    refine doubleEnv_max_val _ _ ?_ hsize
    have o3 := hoct c goal hc hgoal
    norm_num at o3 ⊢
    linarith
  · intro a b _ _
    exact octile_triangle c1 c2 a b goal
  · rw [lt_min_iff]
    constructor <;> norm_num

end AStar
/-! ## Theorems: the binary floating-point interpretation is accurate for the Euclidean
distance -/

namespace AStar

open AlgorithmBase

theorem doubleEnv_euclidean_eq (a b : Coordinate) :
    doubleEnv.euclideanDistance a b =
      sqrtDouble ((roundInt 53 (roundInt 53 ((a.1 - b.1) ^ 2) +
        roundInt 53 ((a.2 - b.2) ^ 2))).toNat) :=
  rfl

set_option maxRecDepth 100000 in
/-- The Euclidean distance between two adjacent cells is computed as 1 or as the `double`
nearest to the square root of 2. -/
theorem doubleEnv_euclidean_adj {p n : Coordinate} (h : cheb p n = 1) :
    ((doubleEnv.euclideanDistance p n : Int) : ℝ) / 2 ^ 52 =
      octile (6369051672525773 / 4503599627370496) p n := by
  have n1 := abs_nonneg (p.1 - n.1)
  have n2 := abs_nonneg (p.2 - n.2)
  have hc : (|p.1 - n.1| = 1 ∧ |p.2 - n.2| = 0) ∨ (|p.1 - n.1| = 0 ∧ |p.2 - n.2| = 1) ∨
      (|p.1 - n.1| = 1 ∧ |p.2 - n.2| = 1) := by
    simp only [cheb] at h
    omega
  rw [doubleEnv_euclidean_eq, ← sq_abs (p.1 - n.1), ← sq_abs (p.2 - n.2)]
  simp only [octile, cheb, manhattan]
  rcases hc with ⟨h1, h2⟩ | ⟨h1, h2⟩ | ⟨h1, h2⟩
  · rw [h1, h2]
    have e : sqrtDouble ((roundInt 53 (roundInt 53 (1 ^ 2) + roundInt 53 (0 ^ 2))).toNat) =
        4503599627370496 := by decide
    rw [e]
    norm_num
  · rw [h1, h2]
    have e : sqrtDouble ((roundInt 53 (roundInt 53 (0 ^ 2) + roundInt 53 (1 ^ 2))).toNat) =
        4503599627370496 := by decide
    rw [e]
    norm_num
  · rw [h1, h2]
    have e : sqrtDouble ((roundInt 53 (roundInt 53 (1 ^ 2) + roundInt 53 (1 ^ 2))).toNat) =
        6369051672525773 := by decide
    rw [e]
    norm_num

/-- The Euclidean distance between two cells less than `2^16` moves apart is computed within
`2^-36`: the squares and their sum are exact, the square root is rounded. -/
theorem doubleEnv_euclidean_err {a b : Coordinate} (h : manhattan a b < 2 ^ 16) :
    |((doubleEnv.euclideanDistance a b : Int) : ℝ) / 2 ^ 52 -
      Real.sqrt ((((a.1 - b.1) ^ 2 + (a.2 - b.2) ^ 2 : Int)) : ℝ)| ≤ 1 / 2 ^ 36 := by
  have n1 := abs_nonneg (a.1 - b.1)
  have n2 := abs_nonneg (a.2 - b.2)
  simp only [manhattan] at h
  have s1 : (a.1 - b.1) ^ 2 < 2 ^ 32 := by
    rw [← sq_abs]
    have : |a.1 - b.1| ^ 2 < (2 ^ 16) ^ 2 := pow_lt_pow_left₀ (by omega) n1 (by norm_num)
    omega
  have s2 : (a.2 - b.2) ^ 2 < 2 ^ 32 := by
    rw [← sq_abs]
    have : |a.2 - b.2| ^ 2 < (2 ^ 16) ^ 2 := pow_lt_pow_left₀ (by omega) n2 (by norm_num)
    omega
  have p1 := sq_nonneg (a.1 - b.1)
  have p2 := sq_nonneg (a.2 - b.2)
  rw [doubleEnv_euclidean_eq]
  generalize (a.1 - b.1) ^ 2 = X at *
  generalize (a.2 - b.2) ^ 2 = Y at *
  have p53 : (2 : Int) ^ (53 + 0) = 9007199254740992 := by norm_num
  have hX : roundInt 53 X = X := roundInt_exact (j := 0) _ p1 (by simp) (by omega)
  have hY : roundInt 53 Y = Y := roundInt_exact (j := 0) _ p2 (by simp) (by omega)
  have hXY : roundInt 53 (X + Y) = X + Y :=
    roundInt_exact (j := 0) _ (by omega) (by simp) (by omega)
  rw [hX, hY, hXY]
  have hk : (X + Y).toNat < 2 ^ 34 := by omega
  have e := sqrtDouble_err _ hk
  have c : (((X + Y).toNat : Nat) : ℝ) = ((X + Y : Int) : ℝ) := by
    rw [← Int.cast_natCast, Int.toNat_of_nonneg (by omega)]
  rw [c] at e
  exact e

/-- In the binary floating-point interpretation the arithmetic assumptions of the theorem on
A* with diagonal moves hold for the Euclidean heuristic on every board whose width and
height add up to at most `2^16`: a diagonal move costs the `double` nearest to the square
root of 2, every sum is within `2^-36` of the exact one, and `h` and `h + g` are within
`1/32` of their exact values. -/
theorem doubleEnv_accurateK_euclidean (size goal : Coordinate) (hgoal : InBounds size goal)
    (hsize : size.1 + size.2 ≤ 2 ^ 16) :
    AccurateK doubleEnv (fun x : Int => (x : ℝ) / 2 ^ 52)
      (fun c => Real.sqrt ((((c.1 - goal.1) ^ 2 + (c.2 - goal.2) ^ 2 : Int)) : ℝ))
      (6369051672525773 / 4503599627370496) (1 / 2 ^ 36) (1 / 32)
      Heuristic.Euclidean size goal := by
  have c1 : (1 : ℝ) ≤ 6369051672525773 / 4503599627370496 := by norm_num
  have c2 : (6369051672525773 : ℝ) / 4503599627370496 ≤ 2 := by norm_num
  have c3 : (2 : ℝ) ≤ (6369051672525773 / 4503599627370496) ^ 2 := by norm_num
  have hsz : ((size.1 + size.2 : Int) : ℝ) ≤ 2 ^ 16 := by
    have h2 : ((size.1 + size.2 : Int) : ℝ) ≤ (((2 : Int) ^ 16 : Int) : ℝ) := Int.cast_le.2 hsize
    rw [Int.cast_pow, Int.cast_ofNat] at h2
    exact h2
  have hoct : ∀ a b, InBounds size a → InBounds size b →
      0 ≤ octile (6369051672525773 / 4503599627370496) a b ∧
        octile (6369051672525773 / 4503599627370496) a b + 2 ≤ 2 ^ 16 := by
    intro a b ha hb
    refine ⟨octile_nonneg c1 c2 a b, ?_⟩
    have h1 := octile_le_size c2 ha hb
    linarith
  have hcheb : ∀ a b, InBounds size a → InBounds size b →
      0 ≤ (cheb a b : ℝ) ∧ (cheb a b : ℝ) + 2 ≤ 2 ^ 16 := by
    intro a b ha hb
    have h1 : ((cheb a b + 2 : Int) : ℝ) ≤ ((size.1 + size.2 : Int) : ℝ) :=
      Int.cast_le.2 (cheb_le_size ha hb)
    have h0 : ((0 : Int) : ℝ) ≤ (cheb a b : ℝ) := Int.cast_le.2 (cheb_nonneg a b)
    rw [Int.cast_add, Int.cast_ofNat] at h1
    rw [Int.cast_zero] at h0
    exact ⟨h0, by linarith⟩
  have hh : ∀ c, InBounds size c →
      |((doubleEnv.euclideanDistance c goal : Int) : ℝ) / 2 ^ 52 -
        Real.sqrt ((((c.1 - goal.1) ^ 2 + (c.2 - goal.2) ^ 2 : Int)) : ℝ)| ≤ 1 / 2 ^ 36 := by
    intro c hc
    have hm := manhattan_le_size hc hgoal
    exact doubleEnv_euclidean_err (by omega)
  have hst : ∀ c, InBounds size c →
      0 ≤ Real.sqrt ((((c.1 - goal.1) ^ 2 + (c.2 - goal.2) ^ 2 : Int)) : ℝ) ∧
        Real.sqrt ((((c.1 - goal.1) ^ 2 + (c.2 - goal.2) ^ 2 : Int)) : ℝ) + 2 ≤ 2 ^ 16 := by
    intro c hc
    refine ⟨Real.sqrt_nonneg _, ?_⟩
    have := sqrt_le_octile c1 c2 c3 c goal
    have := (hoct c goal hc hgoal).2
    linarith
  refine ⟨doubleEnv_lt_val, doubleEnv_eq_val, doubleEnv_zero_val, by norm_num, c2,
    by norm_num, by norm_num, ?_, ?_, ?_, ?_, ?_, ?_, ?_, Or.inl ⟨by norm_num, ?_⟩⟩
  · intro p n _ _ hadj
    exact doubleEnv_euclidean_adj hadj
  · intro s p n x hs hp hn hadj hx
    have hx0 : |(x : ℝ) / 2 ^ 52 - octile (6369051672525773 / 4503599627370496) s p| ≤
        (cheb s p : ℝ) * (1 / 2 ^ 36) := hx
    have hd0 : |((doubleEnv.euclideanDistance p n : Int) : ℝ) / 2 ^ 52 -
        octile (6369051672525773 / 4503599627370496) p n| ≤ 0 := by
      rw [doubleEnv_euclidean_adj hadj]
      simp
    have o1 := hoct s p hs hp
    have o2 := hoct p n hp hn
    have k1 := hcheb s p hs hp
    have h := doubleEnv_add_val _ _ _ _ _ _ hx0 hd0 (by
      rw [abs_of_nonneg o1.1, abs_of_nonneg o2.1]
      norm_num at o1 o2 k1 ⊢
      linarith)
    show |((doubleEnv.add x (doubleEnv.euclideanDistance p n) : Int) : ℝ) / 2 ^ 52 - _| ≤ _
    refine le_trans h (le_of_eq ?_)
    ring
  · intro s p c x hs hp hc hadj hx
    have hx0 : |(x : ℝ) / 2 ^ 52 - (octile (6369051672525773 / 4503599627370496) s p +
        octile (6369051672525773 / 4503599627370496) p c)| ≤
        ((cheb s p : ℝ) + 1) * (1 / 2 ^ 36) := hx
    have o1 := hoct s p hs hp
    have o2 := hoct p c hp hc
    have o3 := hst c hc
    have k1 := hcheb s p hs hp
    have h := doubleEnv_add_val _ _ _ _ _ _ (hh c hc) hx0 (by
      rw [abs_of_nonneg o3.1, abs_of_nonneg (add_nonneg o1.1 o2.1)]
      norm_num at o1 o2 o3 k1 ⊢
      linarith)
    show |((doubleEnv.add (doubleEnv.euclideanDistance c goal) x : Int) : ℝ) / 2 ^ 52 - _| ≤ _
    refine le_trans h ?_
    norm_num at k1 ⊢
    linarith
  · intro c hc
    refine le_trans (hh c hc) ?_
    norm_num
  · intro c hc
    refine doubleEnv_max_val _ _ ?_ hsize
    have o3 := hst c hc
    norm_num at o3 ⊢
    linarith
  · show Real.sqrt ((((goal.1 - goal.1) ^ 2 + (goal.2 - goal.2) ^ 2 : Int)) : ℝ) = 0
    simp
  · intro a b _ _
    exact sqrt_consistent c1 c2 c3 a b goal
  · rw [lt_min_iff]
    constructor <;> norm_num

end AStar
/-! ## Theorems: A* with diagonal moves in the binary floating-point interpretation -/

namespace AStar

open AlgorithmBase

/-- The arithmetic assumptions do not depend on the implementation of `std::sort`. -/
theorem AccurateK.accurate_withSort {α : Type} {A : Env α} {v : α → ℝ} {hstar : Coordinate → ℝ}
    {c2 ε T : ℝ} {heuristic : Heuristic} {size goal : Coordinate}
    (h : AccurateK A v hstar c2 ε T heuristic size goal)
    (sort : (Coordinate → Coordinate → Bool) → List Coordinate → List Coordinate) :
    AccurateK (A.withSort sort) v hstar c2 ε T heuristic size goal :=
  ⟨h.lt_val, h.eq_val, h.zero_val, h.c2_gt, h.c2_le, h.eps_nonneg, h.tol_nonneg, h.adj_val,
    h.step_val, h.sum_val, h.h_val, h.max_val, h.hstar_goal, h.hstar_consistent, h.regime⟩

/-- In the binary floating-point interpretation the arithmetic assumptions of the theorem on
A* with diagonal moves hold for every heuristic, on every board whose width and height add
up to at most `2^16`. -/
theorem doubleEnv_accurateK (heuristic : Heuristic) (size goal : Coordinate)
    (hgoal : InBounds size goal) (hsize : size.1 + size.2 ≤ 2 ^ 16) :
    ∃ (hstar : Coordinate → ℝ) (c2 ε T : ℝ),
      AccurateK doubleEnv (fun x : Int => (x : ℝ) / 2 ^ 52) hstar c2 ε T heuristic size
        goal := by
  cases heuristic
  · exact ⟨_, _, _, _, doubleEnv_accurateK_manhattan _ (Or.inl rfl) size goal hgoal hsize⟩
  · exact ⟨_, _, _, _, doubleEnv_accurateK_diagonal size goal hgoal hsize⟩
  · exact ⟨_, _, _, _, doubleEnv_accurateK_euclidean size goal hgoal hsize⟩
  · exact ⟨_, _, _, _, doubleEnv_accurateK_manhattan _ (Or.inr rfl) size goal hgoal hsize⟩

/-- A run of A* with diagonals enabled on a constructed (obstacle-free) board whose width
and height add up to at most `2^16`, in binary floating-point arithmetic, for every
heuristic, every in-bounds start and goal, both values of `cutCorners` and every
implementation of `std::sort` that permutes and sorts: the run ends with a solution of
`max(|dx|, |dy|) + 1` coordinates and `min(|dx|, |dy|)` diagonal edges. -/
theorem astar_run_king_double (heuristic : Heuristic) (size start goal : Coordinate)
    (sort : (Coordinate → Coordinate → Bool) → List Coordinate → List Coordinate)
    (hA : (doubleEnv.withSort sort).SortPermutes) (hS : (doubleEnv.withSort sort).SortSorts)
    (hsize : size.1 + size.2 ≤ 2 ^ 16)
    (hstart : InBounds size start) (hgoal : InBounds size goal)
    (cc : Bool) (fuel : Nat) (hfuel : cheb start goal < fuel) :
    ∃ s1, init (doubleEnv.withSort sort) (create (doubleEnv.withSort sort) size start goal)
        heuristic true cc = some s1 ∧
      ∃ n s s', stepsFalse (nextStep (doubleEnv.withSort sort) fuel) n s1 = some s ∧
        nextStep (doubleEnv.withSort sort) fuel s = some (true, s') ∧
        complete (nextStep (doubleEnv.withSort sort) fuel) (n + 1) s1 = some s' ∧
        KingPath start goal s' := by
  obtain ⟨hstar, c2, ε, T, hacc⟩ := doubleEnv_accurateK heuristic size goal hgoal hsize
  exact astar_run_king (hacc.accurate_withSort sort) hA hS hstart hgoal cc fuel hfuel

end AStar
/-! ## Theorems: the comparators of the two sorted frontiers -/

namespace AStar

open AlgorithmBase

variable {α : Type}

/-- The comparator of `sortNodes` in terms of the values of `h + g` and of `h`, the
comparisons of `double` values being those of a linear order (the numbers they hold,
infinities included). -/
theorem compare_iff_ord {β : Type} [LinearOrder β] {A : Env α} {v : α → β}
    (hlt : ∀ a b, A.lt a b = true ↔ v a < v b) (heq : ∀ a b, A.eq a b = true ↔ v a = v b)
    (b : Board (Ext α)) (x y : Coordinate) :
    compare A b x y = true ↔
      (v (A.add (b.m_nodes y).ext.h (b.m_nodes y).ext.g) <
          v (A.add (b.m_nodes x).ext.h (b.m_nodes x).ext.g) ∨
        (v (A.add (b.m_nodes x).ext.h (b.m_nodes x).ext.g) =
            v (A.add (b.m_nodes y).ext.h (b.m_nodes y).ext.g) ∧
          v (b.m_nodes y).ext.h < v (b.m_nodes x).ext.h)) := by
  unfold compare
  simp only
  by_cases he : A.eq (A.add (b.m_nodes x).ext.h (b.m_nodes x).ext.g)
      (A.add (b.m_nodes y).ext.h (b.m_nodes y).ext.g) = true
  · rw [if_pos he, hlt]
    have := (heq _ _).1 he
    constructor
    · intro h
      exact Or.inr ⟨this, h⟩
    · rintro (h | h)
      · rw [this] at h
        exact absurd h (lt_irrefl _)
      · exact h.2
  · rw [if_neg he, hlt]
    have hne : ¬ v (A.add (b.m_nodes x).ext.h (b.m_nodes x).ext.g) =
        v (A.add (b.m_nodes y).ext.h (b.m_nodes y).ext.g) := fun h => he ((heq _ _).2 h)
    constructor
    · intro h
      exact Or.inl h
    · rintro (h | h)
      · exact h
      · exact absurd h.1 hne

/-- The comparator of `sortNodes` is a strict weak ordering when the comparisons of `double`
values are those of a linear order. -/
theorem compare_strictWeak_ord {β : Type} [LinearOrder β] {A : Env α} {v : α → β}
    (hlt : ∀ a b, A.lt a b = true ↔ v a < v b) (heq : ∀ a b, A.eq a b = true ↔ v a = v b)
    (b : Board (Ext α)) : StrictWeakOrdering (compare A b) := by
  refine ⟨?_, ?_, ?_⟩
  · intro a
    cases h : compare A b a a with
    | false => rfl
    | true =>
      rcases (compare_iff_ord hlt heq b a a).1 h with h1 | ⟨_, h1⟩ <;>
        exact absurd h1 (lt_irrefl _)
  · intro x y z hxy hyz
    rw [compare_iff_ord hlt heq] at hxy hyz ⊢
    rcases hxy with h1 | ⟨h1, h2⟩ <;> rcases hyz with g1 | ⟨g1, g2⟩
    · exact Or.inl (lt_trans g1 h1)
    · exact Or.inl (by rw [← g1]; exact h1)
    · exact Or.inl (by rw [h1]; exact g1)
    · exact Or.inr ⟨h1.trans g1, lt_trans g2 h2⟩
  · intro x y z hxy
    rw [compare_iff_ord hlt heq] at hxy
    rw [compare_iff_ord hlt heq, compare_iff_ord hlt heq]
    rcases lt_trichotomy (v (A.add (b.m_nodes z).ext.h (b.m_nodes z).ext.g))
        (v (A.add (b.m_nodes x).ext.h (b.m_nodes x).ext.g)) with hzx | hzx | hzx
    · exact Or.inl (Or.inl hzx)
    · rcases hxy with h1 | ⟨h1, h2⟩
      · exact Or.inr (Or.inl (by rw [hzx]; exact h1))
      · rcases lt_or_le (v (b.m_nodes z).ext.h) (v (b.m_nodes x).ext.h) with hh | hh
        · exact Or.inl (Or.inr ⟨hzx.symm, hh⟩)
        · exact Or.inr (Or.inr ⟨hzx.trans h1, lt_of_lt_of_le h2 hh⟩)
    · rcases hxy with h1 | ⟨h1, _⟩
      · exact Or.inr (Or.inl (lt_trans h1 hzx))
      · exact Or.inr (Or.inl (by rw [← h1]; exact hzx))

end AStar

namespace AlgorithmBase

/-- Under a strict weak ordering, being ordered neither way is transitive. -/
theorem StrictWeakOrdering.incomparable_trans {cmp : Coordinate → Coordinate → Bool}
    (h : StrictWeakOrdering cmp) (x y z : Coordinate)
    (hxy : cmp x y = false) (hyx : cmp y x = false) (hyz : cmp y z = false)
    (hzy : cmp z y = false) : cmp x z = false ∧ cmp z x = false := by
  constructor
  · cases hc : cmp x z with
    | false => rfl
    | true =>
      rcases h.2.2 x z y hc with h1 | h1
      · rw [hxy] at h1
        cases h1
      · rw [hyz] at h1
        cases h1
  · cases hc : cmp z x with
    | false => rfl
    | true =>
      rcases h.2.2 z x y hc with h1 | h1
      · rw [hzy] at h1
        cases h1
      · rw [hyx] at h1
        cases h1

end AlgorithmBase

namespace BestFirstSearch

open AlgorithmBase

variable {α : Type}

/-- The comparator of `sortNodes` of Best-First holds of a node and itself as soon as `>=`
holds of the `h` of the node and itself, as it does of every `double` that is not a NaN. -/
theorem bestFirst_compare_self {A : Env α} (b : Board (Ext α)) (a : Coordinate)
    (h : A.le (b.m_nodes a).ext.h (b.m_nodes a).ext.h = true) : compare A b a a = true :=
  h

/-- The comparator of `sortNodes` of Best-First is not a strict weak ordering. -/
theorem bestFirst_compare_not_strictWeak {A : Env α} (b : Board (Ext α)) (a : Coordinate)
    (h : A.le (b.m_nodes a).ext.h (b.m_nodes a).ext.h = true) :
    ¬ StrictWeakOrdering (compare A b) := by
  intro hs
  have h1 := hs.1 a
  rw [bestFirst_compare_self b a h] at h1
  cases h1

end BestFirstSearch
/-! ## Theorems: the obstacles `PathFinder` replays -/

namespace PathFinder

open AlgorithmBase

variable {E : Type}

/-- The keys of the map after an assignment. -/
theorem mem_keys_assign (m : List (Coordinate × Bool)) (c : Coordinate) (o : Bool)
    (x : Coordinate) :
    (∃ e ∈ assign m c o, e.1 = x) ↔ x = c ∨ ∃ e ∈ m, e.1 = x := by
  induction m with
  | nil => simp [assign, eq_comm]
  | cons e rest ih =>
    unfold assign
    by_cases he : e.1 = c
    · rw [if_pos he]
      simp only [List.mem_cons, exists_eq_or_imp]
      constructor
      · rintro (h | h)
        · exact Or.inl h.symm
        · exact Or.inr (Or.inr h)
      · rintro (h | h | h)
        · exact Or.inl h.symm
        · exact Or.inl (by rw [← h, he])
        · exact Or.inr h
    · rw [if_neg he]
      simp only [List.mem_cons, exists_eq_or_imp]
      rw [ih]
      constructor
      · rintro (h | h | h)
        · exact Or.inr (Or.inl h)
        · exact Or.inl h
        · exact Or.inr (Or.inr h)
      · rintro (h | h | h)
        · exact Or.inr (Or.inl h)
        · exact Or.inl h
        · exact Or.inr (Or.inr h)

/-- After `setObstacle(c)` for every `c` of a list, a coordinate is an obstacle when it was
one or is a coordinate of the list that is in bounds and neither the start nor the goal. -/
theorem foldl_setObstacle_isObstacle (m : List (Coordinate × Bool)) (a : Algorithm E)
    (c : Coordinate) :
    (m.foldl (fun a e => AlgorithmBase.setObstacle a e.1 true) a).m_board.isObstacle c = true ↔
      a.m_board.isObstacle c = true ∨
        (a.m_board.isValidNode c = true ∧ c ≠ a.m_board.m_start ∧ c ≠ a.m_board.m_goal ∧
          ∃ e ∈ m, e.1 = c) := by
  induction m generalizing a with
  | nil => simp
  | cons e rest ih =>
    obtain ⟨k, o⟩ := e
    rw [List.foldl_cons, ih]
    simp only
    have hv : (AlgorithmBase.setObstacle a k true).m_board.isValidNode c =
        a.m_board.isValidNode c := by
      simp [AlgorithmBase.setObstacle, Board.isValidNode]
    have hs : (AlgorithmBase.setObstacle a k true).m_board.m_start = a.m_board.m_start := by
      simp [AlgorithmBase.setObstacle]
    have hg : (AlgorithmBase.setObstacle a k true).m_board.m_goal = a.m_board.m_goal := by
      simp [AlgorithmBase.setObstacle]
    have ho : (AlgorithmBase.setObstacle a k true).m_board.isObstacle c = true ↔
        a.m_board.isObstacle c = true ∨
          (k = c ∧ a.m_board.isValidNode c = true ∧ c ≠ a.m_board.m_start ∧
            c ≠ a.m_board.m_goal) := by
      show (a.m_board.setObstacle k true).isObstacle c = true ↔ _
      unfold Board.isObstacle
      rw [Board.setObstacle_m_nodes]
      have hv' : (a.m_board.setObstacle k true).isValidNode c = a.m_board.isValidNode c := by
        simp [Board.isValidNode]
      rw [hv']
      by_cases hc : c = k
      · subst hc
        by_cases h3 : a.m_board.isValidNode c = true ∧ c ≠ a.m_board.m_start ∧
            c ≠ a.m_board.m_goal
        · rw [if_pos ⟨rfl, h3⟩]
          simp [h3.1, h3.2.1, h3.2.2]
        · rw [if_neg (fun h => h3 h.2)]
          constructor
          · intro h
            exact Or.inl h
          · rintro (h | h)
            · exact h
            · exact absurd h.2 h3
      · rw [if_neg (fun h => hc h.1)]
        constructor
        · intro h
          exact Or.inl h
        · rintro (h | h)
          · exact h
          · exact absurd h.1.symm hc
    rw [ho, hv, hs, hg]
    simp only [List.mem_cons, exists_eq_or_imp]
    constructor
    · rintro ((h | ⟨h1, h2, h3, h4⟩) | ⟨h1, h2, h3, h4⟩)
      · exact Or.inl h
      · exact Or.inr ⟨h2, h3, h4, Or.inl h1⟩
      · exact Or.inr ⟨h1, h2, h3, Or.inr h4⟩
    · rintro (h | ⟨h1, h2, h3, h4 | h4⟩)
      · exact Or.inl (Or.inl h)
      · exact Or.inl (Or.inr ⟨h4, h1, h2, h3⟩)
      · exact Or.inr ⟨h1, h2, h3, h4⟩

/-- The keys of the map after a sequence of `setObstacle` calls. -/
theorem setObstacleCalls_keys (l : List (Coordinate × Bool)) (p : State E) (x : Coordinate) :
    (∃ e ∈ (setObstacleCalls p l).m_obstacles, e.1 = x) ↔
      (∃ e ∈ p.m_obstacles, e.1 = x) ∨ ∃ e ∈ l, e.1 = x := by
  induction l generalizing p with
  | nil => simp [setObstacleCalls]
  | cons a rest ih =>
    obtain ⟨c, o⟩ := a
    show (∃ e ∈ (setObstacleCalls (setObstacle p c o) rest).m_obstacles, e.1 = x) ↔ _
    rw [ih]
    show (∃ e ∈ assign p.m_obstacles c o, e.1 = x) ∨ _ ↔ _
    rw [mem_keys_assign]
    simp only [List.mem_cons, exists_eq_or_imp]
    constructor
    · rintro ((h | h) | h)
      · exact Or.inr (Or.inl h.symm)
      · exact Or.inl h
      · exact Or.inr (Or.inr h)
    · rintro (h | h | h)
      · exact Or.inl (Or.inr h)
      · exact Or.inl (Or.inl h.symm)
      · exact Or.inr h

/-- The algorithm after a sequence of `PathFinder::setObstacle` calls has received the calls. -/
theorem setObstacleCalls_algorithm (l : List (Coordinate × Bool)) (p : State E) :
    (setObstacleCalls p l).m_algorithm = AlgorithmBase.setObstacles p.m_algorithm l := by
  induction l generalizing p with
  | nil => rfl
  | cons a rest ih =>
    obtain ⟨c, o⟩ := a
    exact ih (setObstacle p c o)

/-- What `setAlgorithm` replays on an algorithm without obstacles, after a sequence of
`setObstacle` calls on a newly constructed `PathFinder`: every in-bounds coordinate other
than the start and the goal for which `setObstacle` was called, with whatever flag, is an
obstacle of the new algorithm, and no other coordinate is. -/
theorem setAlgorithm_isObstacle {E' : Type} (a : Algorithm E) (a' : Algorithm E')
    (l : List (Coordinate × Bool)) (c : Coordinate)
    (hno : ∀ x, a'.m_board.isObstacle x = false) :
    AlgorithmBase.isObstacle (setAlgorithm (setObstacleCalls (create a) l) a').m_algorithm c =
        true ↔
      (a'.m_board.isValidNode c = true ∧ c ≠ a'.m_board.m_start ∧ c ≠ a'.m_board.m_goal ∧
        ∃ e ∈ l, e.1 = c) := by
  show (((setObstacleCalls (create a) l).m_obstacles).foldl
    (fun a e => AlgorithmBase.setObstacle a e.1 true) a').m_board.isObstacle c = true ↔ _
  rw [foldl_setObstacle_isObstacle, hno c, setObstacleCalls_keys]
  have hk : ¬ ∃ e ∈ (create a).m_obstacles, e.1 = c := by
    rintro ⟨e, he, _⟩
    cases he
  constructor
  · rintro (h | ⟨h1, h2, h3, h4 | h4⟩)
    · cases h
    · exact absurd h4 hk
    · exact ⟨h1, h2, h3, h4⟩
  · rintro ⟨h1, h2, h3, h4⟩
    exact Or.inr ⟨h1, h2, h3, Or.inr h4⟩

end PathFinder
/-! ## Theorems: a board whose start is its goal -/

namespace AlgorithmBase

variable {E : Type}

/-- `storeSolution` on an empty solution, the goal node having no parent: the solution is
the goal alone. -/
theorem storeSolution_single (fuel : Nat) (x : Algorithm E) (c : Coordinate)
    (hg : x.m_board.m_goal = c) (hv : x.m_board.isValidNode c = true)
    (hp : (x.m_board.m_nodes c).parent = none) (hpos : (x.m_board.m_nodes c).position = c)
    (hsol : x.solution = []) (hfuel : 0 < fuel) :
    storeSolution fuel x = some { x with solution := [c] } := by
  obtain ⟨k, rfl⟩ := Nat.exists_eq_succ_of_ne_zero (Nat.pos_iff_ne_zero.1 hfuel)
  have hgn : getGoalNode x = some c := by
    show (if x.m_board.isValidNode x.m_board.m_goal then some x.m_board.m_goal else none) = _
    rw [hg, if_pos hv]
  unfold storeSolution
  rw [hgn, storeSolutionLoop, hp, hpos, hsol]
  simp [storeSolutionLoop]

/-- The distance of a solution of one coordinate is zero. -/
theorem getSolutionDistance_single (s : Algorithm E) (c : Coordinate) (h : s.solution = [c]) :
    getSolutionDistance s = 0 := by
  simp [getSolutionDistance, h]

/-- What `init` leaves at the start node of a board whose start is its goal. -/
theorem init_start_goal {b0 : Board E} {d cc : Bool} {s0 s1 : Algorithm E}
    (hb : b0 = s0.m_board) (hw : b0.WellFormed) (hv : b0.isValidNode b0.m_start = true)
    (hsg : b0.m_start = b0.m_goal) (hr : RunInv b0 d cc s1) (hp : InitPost s0 s1) :
    s1.m_openNodes = [b0.m_start] ∧ (s1.m_board.m_nodes b0.m_start).position = b0.m_start ∧
    s1.m_board.m_goal = b0.m_start ∧ s1.m_board.isValidNode b0.m_start = true ∧
    (s1.m_board.m_nodes b0.m_start).parent = none ∧ s1.solution = [] := by
  subst hb
  refine ⟨hp.2.2.1, ?_, ?_, ?_, hp.2.2.2.2.1, hp.1⟩
  · rw [(hr.grid.2.2.2 _).2]
    exact hw _ hv
  · rw [hr.grid.2.2.1, hsg]
  · rw [hr.grid.isValidNode]
    exact hv

end AlgorithmBase

namespace BreadthFirstSearch

open AlgorithmBase

/-- On a board whose start is its goal the first call of `nextStep` after `init` returns
true with the solution made of that one coordinate. -/
theorem bfs_start_goal (s0 : State) (hw : s0.m_board.WellFormed)
    (hv : s0.m_board.isValidNode s0.m_board.m_start = true)
    (hsg : s0.m_board.m_start = s0.m_board.m_goal) (h : Heuristic) (d cc : Bool)
    (fuel : Nat) (hfuel : 0 < fuel) :
    ∃ s1 s', init s0 h d cc = some s1 ∧ nextStep fuel s1 = some (true, s') ∧
      s'.solution = [s0.m_board.m_start] ∧ getSolutionDistance s' = 0 := by
  obtain ⟨s1, h1, hr, hp, _⟩ := bfs_init_some s0 h d cc hv
  obtain ⟨f1, f2, f3, f4, f5, f6⟩ := init_start_goal rfl hw hv hsg hr hp
  have hstep : nextStep fuel s1 = some (true,
      { ({ s1 with nodesClosed := s1.nodesClosed + 1, m_openNodes := [] } : State) with
        solution := [s0.m_board.m_start] }) := by
    rw [bfs_nextStep_cons fuel s1 _ [] f1, if_pos (by rw [f2, f3]),
      storeSolution_single fuel
        ({ s1 with nodesClosed := s1.nodesClosed + 1, m_openNodes := [] } : State)
        s0.m_board.m_start f3 f4 f5 f2 f6 hfuel]
    rfl
  exact ⟨s1, _, h1, hstep, rfl, getSolutionDistance_single _ _ rfl⟩

end BreadthFirstSearch

namespace DepthFirstSearch

open AlgorithmBase

/-- On a board whose start is its goal the first call of `nextStep` after `init` returns
true with the solution made of that one coordinate. -/
theorem dfs_start_goal (s0 : State) (hw : s0.m_board.WellFormed)
    (hv : s0.m_board.isValidNode s0.m_board.m_start = true)
    (hsg : s0.m_board.m_start = s0.m_board.m_goal) (h : Heuristic) (d cc : Bool)
    (fuel : Nat) (hfuel : 0 < fuel) :
    ∃ s1 s', init s0 h d cc = some s1 ∧ nextStep fuel s1 = some (true, s') ∧
      s'.solution = [s0.m_board.m_start] ∧ getSolutionDistance s' = 0 := by
  obtain ⟨s1, h1, hr, hp, _⟩ := dfs_init_some s0 h d cc hv
  obtain ⟨f1, f2, f3, f4, f5, f6⟩ := init_start_goal rfl hw hv hsg hr hp
  have hstep : nextStep fuel s1 = some (true,
      { s1 with solution := [s0.m_board.m_start] }) := by
    rw [dfs_nextStep_concat fuel s1 _ [] f1, if_pos (by rw [f2, f3]),
      storeSolution_single fuel _ s0.m_board.m_start f3 f4 f5 f2 f6 hfuel]
    rfl
  exact ⟨s1, _, h1, hstep, rfl, getSolutionDistance_single _ _ rfl⟩

end DepthFirstSearch

namespace BestFirstSearch

open AlgorithmBase

variable {α : Type}

/-- On a board whose start is its goal the first call of `nextStep` after `init` returns
true with the solution made of that one coordinate. -/
theorem bestFirst_start_goal (A : Env α) (hA : A.SortPermutes) (s0 : State α)
    (hw : s0.m_board.WellFormed) (hv : s0.m_board.isValidNode s0.m_board.m_start = true)
    (hsg : s0.m_board.m_start = s0.m_board.m_goal) (h : Heuristic) (d cc : Bool)
    (fuel : Nat) (hfuel : 0 < fuel) :
    ∃ s1 s', init A s0 h d cc = some s1 ∧ nextStep A fuel s1 = some (true, s') ∧
      s'.solution = [s0.m_board.m_start] ∧ getSolutionDistance s' = 0 := by
  obtain ⟨s1, h1, hr, hp, _⟩ := bestFirst_init_some A s0 h d cc hv
  obtain ⟨f1, f2, f3, f4, f5, f6⟩ := init_start_goal rfl hw hv hsg hr hp
  have hs : A.sort (compare A s1.m_board) s1.m_openNodes = [] ++ [s0.m_board.m_start] := by
    have := hA (compare A s1.m_board) s1.m_openNodes
    rw [f1] at this ⊢
    exact List.perm_singleton.1 this
  have hstep : nextStep A fuel s1 = some (true,
      { ({ s1 with nodesClosed := s1.nodesClosed + 1, m_openNodes := [] } : State α) with
        solution := [s0.m_board.m_start] }) := by
    rw [bestFirst_nextStep_concat A fuel s1 _ [] hs (by rw [f1]; simp),
      if_pos (by rw [f2, f3]),
      storeSolution_single fuel
        ({ s1 with nodesClosed := s1.nodesClosed + 1, m_openNodes := [] } : State α)
        s0.m_board.m_start f3 f4 f5 f2 f6 hfuel]
    rfl
  exact ⟨s1, _, h1, hstep, rfl, getSolutionDistance_single _ _ rfl⟩

end BestFirstSearch

namespace AStar

open AlgorithmBase

variable {α : Type}

/-- On a board whose start is its goal the first call of `nextStep` after `init` returns
true with the solution made of that one coordinate. -/
theorem astar_start_goal (A : Env α) (hA : A.SortPermutes) (s0 : State α)
    (hw : s0.m_board.WellFormed) (hv : s0.m_board.isValidNode s0.m_board.m_start = true)
    (hsg : s0.m_board.m_start = s0.m_board.m_goal) (h : Heuristic) (d cc : Bool)
    (fuel : Nat) (hfuel : 0 < fuel) :
    ∃ s1 s', init A s0 h d cc = some s1 ∧ nextStep A fuel s1 = some (true, s') ∧
      s'.solution = [s0.m_board.m_start] ∧ getSolutionDistance s' = 0 := by
  obtain ⟨s1, h1, hr, hp, _⟩ := astar_init_some A s0 h d cc hv
  obtain ⟨f1, f2, f3, f4, f5, f6⟩ := init_start_goal rfl hw hv hsg hr hp
  have hs : A.sort (compare A s1.m_board) s1.m_openNodes = [] ++ [s0.m_board.m_start] := by
    have := hA (compare A s1.m_board) s1.m_openNodes
    rw [f1] at this ⊢
    exact List.perm_singleton.1 this
  have hstep : nextStep A fuel s1 = some (true,
      { closeWith s1 s0.m_board.m_start [] with solution := [s0.m_board.m_start] }) := by
    have hx := storeSolution_single fuel (closeWith s1 s0.m_board.m_start [])
      s0.m_board.m_start f3
      (by rw [(astar_closeWith_sameGrid s1 _ []).isValidNode]; exact f4)
      (by rw [closeWith_parent]; exact f5) (by rw [closeWith_position]; exact f2) f6 hfuel
    rw [astar_nextStep_concat A fuel s1 _ [] hs (by rw [f1]; simp),
      if_pos (by rw [f2, f3]), hx]
    rfl
  exact ⟨s1, _, h1, hstep, rfl, getSolutionDistance_single _ _ rfl⟩

end AStar
/-! ## Theorems: the nodes a call of `nextStep` leaves as they are -/

namespace AlgorithmBase

variable {E : Type}

/-- `storeSolution` leaves the board as it is. -/
theorem storeSolution_m_board (fuel : Nat) (x s' : Algorithm E)
    (h : storeSolution fuel x = some s') : s'.m_board = x.m_board := by
  rw [storeSolution_frame fuel x s' h]

/-- A property of the board that a run preserves step by step holds from a state of the
run on. -/
theorem Reachable.keeps {S N : Type} (step : S → Option (Bool × S)) (get : S → N)
    (P : N → Prop) (hstep : ∀ s b s', P (get s) → step s = some (b, s') → get s' = get s)
    (s s' : S) (h : Reachable step s s') (hP : P (get s)) : get s' = get s := by
  induction h with
  | refl => rfl
  | tail _ hyz ih =>
    obtain ⟨b, hb⟩ := hyz
    rw [← ih]
    exact hstep _ b _ (by rw [ih]; exact hP) hb

end AlgorithmBase

namespace BreadthFirstSearch

open AlgorithmBase

/-- A call of `nextStep` leaves every opened node as it is. -/
theorem bfs_nextStep_keeps (fuel : Nat) (s : State) (b : Bool) (s' : State)
    (h : nextStep fuel s = some (b, s')) (c : Coordinate)
    (hc : (s.m_board.m_nodes c).opened = true) :
    s'.m_board.m_nodes c = s.m_board.m_nodes c := by
  cases hf : s.m_openNodes with
  | nil =>
    rw [bfs_nextStep_nil fuel s hf] at h
    cases h
    rfl
  | cons node rest =>
    rcases bfs_nextStep_rule fuel s node rest hf
        (fun x => ∀ c, (s.m_board.m_nodes c).opened = true →
          x.m_board.m_nodes c = s.m_board.m_nodes c)
        (fun _ _ => rfl)
        (fun x n hx _ ho c hc => by
          have hne : c ≠ n := by
            rintro rfl
            rw [hx c hc, hc] at ho
            cases ho
          rw [pushOpen_m_nodes_of_ne x n _ c hne]
          exact hx c hc) with
      ⟨s2, h1, h2⟩ | ⟨s1, n, h1, _, _, h4⟩
    · rw [h] at h1
      cases h1
      exact h2 c hc
    · rw [h] at h4
      cases hst : storeSolution fuel s1 with
      | none => rw [hst] at h4; cases h4
      | some r =>
        rw [hst] at h4
        cases h4
        rw [storeSolution_m_board fuel s1 _ hst]
        exact h1 c hc

end BreadthFirstSearch

namespace DepthFirstSearch

open AlgorithmBase

/-- A call of `nextStep` leaves every opened node as it is. -/
theorem dfs_nextStep_keeps (fuel : Nat) (s : State) (b : Bool) (s' : State)
    (h : nextStep fuel s = some (b, s')) (c : Coordinate)
    (hc : (s.m_board.m_nodes c).opened = true) :
    s'.m_board.m_nodes c = s.m_board.m_nodes c := by
  by_cases hf : s.m_openNodes = []
  · rw [dfs_nextStep_nil fuel s hf] at h
    cases h
    rfl
  · obtain ⟨rest, node, hl⟩ := exists_concat_of_ne_nil _ hf
    rcases dfs_nextStep_rule fuel s node rest hl
        (fun _ x => (∀ c, (s.m_board.m_nodes c).opened = true →
          x.m_board.m_nodes c = s.m_board.m_nodes c) ∧ x.m_openNodes ≠ [])
        ⟨fun _ _ => rfl, hf⟩
        (fun _ x n hx _ ho => ⟨fun c hc => by
          have hne : c ≠ n := by
            rintro rfl
            rw [hx.1 c hc, hc] at ho
            cases ho
          rw [pushOpen_m_nodes_of_ne x n _ c hne]
          exact hx.1 c hc, by
            show x.m_openNodes ++ [n] ≠ []
            simp⟩)
        (fun _ x hx => hx.2) with
      ⟨ch, s2, h1, h2⟩ | ⟨ch, s1, n, h1, _, _, h4⟩
    · rw [h] at h2
      cases h2
      cases ch
      · exact h1.1 c hc
      · exact h1.1 c hc
    · rw [h] at h4
      cases hst : storeSolution fuel s1 with
      | none => rw [hst] at h4; cases h4
      | some r =>
        rw [hst] at h4
        cases h4
        rw [storeSolution_m_board fuel s1 _ hst]
        exact h1.1 c hc

end DepthFirstSearch

namespace BestFirstSearch

open AlgorithmBase

variable {α : Type}

/-- `openNode` writes the node it opens only. -/
theorem bestFirst_openNode_of_ne (A : Env α) (x : State α) (n : Coordinate)
    (p : Option Coordinate) (c : Coordinate) (h : c ≠ n) :
    (openNode A x n p).m_board.m_nodes c = x.m_board.m_nodes c := by
  simp [openNode, AlgorithmBase.openNode, Board.write, Function.update, h]

/-- A call of `nextStep` leaves every opened node as it is. -/
theorem bestFirst_nextStep_keeps (A : Env α) (hA : A.SortPermutes) (fuel : Nat) (s : State α)
    (b : Bool) (s' : State α) (h : nextStep A fuel s = some (b, s')) (c : Coordinate)
    (hc : (s.m_board.m_nodes c).opened = true) :
    s'.m_board.m_nodes c = s.m_board.m_nodes c := by
  by_cases hf : s.m_openNodes = []
  · rw [bestFirst_nextStep_nil A fuel s hf] at h
    cases h
    rfl
  · rcases bestFirst_nextStep_rule A hA fuel s hf
        (fun _ x => ∀ c, (s.m_board.m_nodes c).opened = true →
          x.m_board.m_nodes c = s.m_board.m_nodes c)
        (fun _ _ _ _ _ => rfl)
        (fun _ x n hx _ ho c hc => by
          have hne : c ≠ n := by
            rintro rfl
            rw [hx c hc, hc] at ho
            cases ho
          rw [bestFirst_openNode_of_ne A x n _ c hne]
          exact hx c hc) with
      ⟨node, s2, h1, h2⟩ | ⟨node, s1, n, h1, _, _, h4⟩
    · rw [h] at h1
      cases h1
      exact h2 c hc
    · rw [h] at h4
      cases hst : storeSolution fuel s1 with
      | none => rw [hst] at h4; cases h4
      | some r =>
        rw [hst] at h4
        cases h4
        rw [storeSolution_m_board fuel s1 _ hst]
        exact h1 c hc

end BestFirstSearch

namespace AStar

open AlgorithmBase

variable {α : Type}

/-- Closing a node that is closed changes nothing of it. -/
theorem closeWith_of_closed (s : State α) (node : Coordinate) (rest : List Coordinate)
    (c : Coordinate) (hc : (s.m_board.m_nodes c).ext.closed = true) :
    (closeWith s node rest).m_board.m_nodes c = s.m_board.m_nodes c := by
  rw [closeWith_m_nodes]
  by_cases h : c = node
  · subst h
    rw [if_pos rfl]
    cases hn : s.m_board.m_nodes c with
    | mk parent position opened obstacle ext =>
      cases ext with
      | mk closed hh g =>
        rw [hn] at hc
        simp only at hc
        subst hc
        rfl
  · rw [if_neg h]

/-- A call of `nextStep` leaves every closed node as it is. -/
theorem astar_nextStep_keeps (A : Env α) (hA : A.SortPermutes) (fuel : Nat) (s : State α)
    (b : Bool) (s' : State α) (h : nextStep A fuel s = some (b, s')) (c : Coordinate)
    (hc : (s.m_board.m_nodes c).ext.closed = true) :
    s'.m_board.m_nodes c = s.m_board.m_nodes c := by
  by_cases hf : s.m_openNodes = []
  · rw [astar_nextStep_nil A fuel s hf] at h
    cases h
    rfl
  · have hne : ∀ (x : State α) (n : Coordinate),
        (∀ c, (s.m_board.m_nodes c).ext.closed = true →
          x.m_board.m_nodes c = s.m_board.m_nodes c) →
        (x.m_board.m_nodes n).ext.closed = false →
        ∀ c, (s.m_board.m_nodes c).ext.closed = true → c ≠ n := by
      intro x n hx hn c hc
      rintro rfl
      rw [hx c hc, hc] at hn
      cases hn
    rcases astar_nextStep_rule A hA fuel s hf
        (fun _ x => ∀ c, (s.m_board.m_nodes c).ext.closed = true →
          x.m_board.m_nodes c = s.m_board.m_nodes c)
        (fun node rest _ c hc => closeWith_of_closed s node rest c hc)
        (fun node x n hx _ hn c hc => by
          rw [astar_updateNode_of_ne A x n node c (hne x n hx hn c hc)]
          exact hx c hc)
        (fun node x n hx _ hn _ c hc => by
          rw [pushOpen_m_nodes_of_ne x n _ c (hne x n hx hn c hc)]
          exact hx c hc) with
      ⟨node, s2, h1, h2⟩ | ⟨node, s1, n, h1, _, _, h4⟩
    · rw [h] at h1
      cases h1
      exact h2 c hc
    · rw [h] at h4
      cases hst : storeSolution fuel s1 with
      | none => rw [hst] at h4; cases h4
      | some r =>
        rw [hst] at h4
        cases h4
        rw [storeSolution_m_board fuel s1 _ hst]
        exact h1 c hc

end AStar

/-! ## Theorems: counters, frontier and parent links in every state of a run -/

namespace Board

variable {E : Type}

/-- Every neighbor `getNeighbors` returns is in bounds and no obstacle. -/
theorem mem_getNeighbors_free (b : Board E) (node x : Coordinate) (d cc : Bool)
    (h : x ∈ b.getNeighbors node [] d cc) :
    b.isValidNode x = true ∧ (b.m_nodes x).obstacle = false := by
  unfold getNeighbors at h
  split at h
  · simp only [getNeighborsWithoutDiagonals_eq, List.nil_append, List.mem_append,
      mem_candidate, isAccessible_iff] at h
    rcases h with h | h | h | h <;> exact h.1 ▸ ⟨h.2.1, h.2.2.2.2.1⟩
  · simp only [getNeighborsWithDiagonals_eq, getNeighborsWithoutDiagonals_eq, List.nil_append,
      List.mem_append, mem_candidate, isAccessible_iff] at h
    rcases h with (h | h | h | h) | h | h | h | h <;> exact h.1 ▸ ⟨h.2.1, h.2.2.2.2.1⟩

end Board

namespace AlgorithmBase

variable {E : Type}

/-- Taking a node off the frontier and counting it as closed keeps the invariant. -/
theorem Tidy.tidy_pop {b0 : Board E} {d cc : Bool} {x : Algorithm E} (h : Tidy b0 d cc x)
    (rest : List Coordinate) (hsub : ∀ c ∈ rest, c ∈ x.m_openNodes) (hnd : rest.Nodup)
    (hlen : rest.length + 1 = x.m_openNodes.length) :
    Tidy b0 d cc { x with nodesClosed := x.nodesClosed + 1, m_openNodes := rest } :=
  ⟨h.grid, h.diag, h.cut, h.opened_ok, h.moves, fun c hc => h.front_opened c (hsub c hc), hnd,
    by
      have := h.balance
      show x.nodesOpened = x.nodesClosed + 1 + rest.length
      omega⟩

/-- Opening an unopened neighbor of an opened node keeps the invariant. -/
theorem Tidy.tidy_push {b0 : Board E} {d cc : Bool} {x : Algorithm E} (h : Tidy b0 d cc x)
    {node n : Coordinate} (hnode : (x.m_board.m_nodes node).opened = true)
    (hn : n ∈ b0.getNeighbors node [] d cc) (ho : (x.m_board.m_nodes n).opened = false) :
    Tidy b0 d cc (pushOpen x n (some node)) := by
  refine ⟨h.grid.trans (pushOpen_sameGrid _ _ _), h.diag, h.cut, ?_, ?_, ?_, ?_, ?_⟩
  · intro c hc
    by_cases hcn : c = n
    · subst hcn
      exact Board.mem_getNeighbors_free _ _ _ _ _ hn
    · rw [pushOpen_m_nodes_of_ne _ _ _ _ hcn] at hc
      exact h.opened_ok c hc
  · intro c p hp
    rcases AStar.pushOpen_parent x n node c p hp with h1 | ⟨h1, h2⟩
    · exact ⟨pushOpen_opened_of_opened _ _ _ _ (h.moves c p h1).1, (h.moves c p h1).2⟩
    · subst h1 h2
      exact ⟨pushOpen_opened_of_opened _ _ _ _ hnode, hn⟩
  · intro c hc
    rw [pushOpen_m_openNodes, List.mem_append, List.mem_singleton] at hc
    rcases hc with hc | hc
    · exact pushOpen_opened_of_opened _ _ _ _ (h.front_opened c hc)
    · subst hc
      simp
  · rw [pushOpen_m_openNodes]
    refine List.Nodup.append h.front_nodup (List.nodup_singleton _) ?_
    intro c hc hc'
    rw [List.mem_singleton] at hc'
    subst hc'
    have := h.front_opened c hc
    rw [ho] at this
    cases this
  · have := h.balance
    rw [pushOpen_nodesOpened, pushOpen_nodesClosed, pushOpen_m_openNodes, List.length_append,
      List.length_singleton]
    omega

/-- The invariant does not depend on the derived fields of the nodes. -/
theorem Tidy.tidy_extOnly {b0 : Board E} {d cc : Bool} {x y : Algorithm E}
    (h : Tidy b0 d cc x) (hxy : ExtOnly x y) : Tidy b0 d cc y := by
  have hg := hxy.ext_sameGrid
  obtain ⟨_, hno, hnc, _, hd, hc, hf, _, _, _, hn⟩ := hxy
  refine ⟨h.grid.trans hg, hd.trans h.diag, hc.trans h.cut, ?_, ?_, ?_, ?_, ?_⟩
  · intro c hc
    rw [(hn c).2.2.2] at hc
    exact h.opened_ok c hc
  · intro c p hp
    rw [(hn c).1] at hp
    rw [(hn p).2.2.2]
    exact h.moves c p hp
  · intro c hc
    rw [hf] at hc
    rw [(hn c).2.2.2]
    exact h.front_opened c hc
  · rw [hf]
    exact h.front_nodup
  · rw [hno, hnc, hf]
    exact h.balance

/-- The invariant does not depend on the solution. -/
theorem Tidy.tidy_solution {b0 : Board E} {d cc : Bool} {x : Algorithm E}
    (h : Tidy b0 d cc x) (l : List Coordinate) : Tidy b0 d cc { x with solution := l } :=
  ⟨h.grid, h.diag, h.cut, h.opened_ok, h.moves, h.front_opened, h.front_nodup, h.balance⟩

theorem Tidy.tidy_of_storeSolution {b0 : Board E} {d cc : Bool} {x s' : Algorithm E} {fuel : Nat}
    (h : Tidy b0 d cc x) (hs : storeSolution fuel x = some s') : Tidy b0 d cc s' := by
  rw [storeSolution_frame fuel x s' hs]
  exact h.tidy_solution _

/-- The invariant holds after `init` on an instance on which no run was started and whose
start node is in bounds and no obstacle. -/
theorem init_tidy {nodeInit : Node E → Node E} (hok : NodeInitOK nodeInit)
    (s0 : Algorithm E) (hp : Pristine s0) (h : Heuristic) (d cc : Bool)
    (hv : s0.m_board.isValidNode s0.m_board.m_start = true)
    (hfree : (s0.m_board.m_nodes s0.m_board.m_start).obstacle = false) (s1 : Algorithm E)
    (hs1 : ExtOnly (pushOpen (initBase nodeInit s0 h d cc) s0.m_board.m_start none) s1) :
    Tidy s0.m_board d cc s1 := by
  refine Tidy.tidy_extOnly ?_ hs1
  have hall := initBase_opened_pristine hok s0 hp h d cc
  have hopened : ∀ c, ((pushOpen (initBase nodeInit s0 h d cc) s0.m_board.m_start
      none).m_board.m_nodes c).opened = true → c = s0.m_board.m_start := by
    intro c hc
    by_contra hne
    rw [pushOpen_m_nodes_of_ne _ _ _ _ hne, (hall c).1] at hc
    cases hc
  refine ⟨(initBase_sameGrid hok s0 h d cc).trans (pushOpen_sameGrid _ _ _), rfl, rfl, ?_, ?_,
    ?_, ?_, ?_⟩
  · intro c hc
    rw [hopened c hc]
    exact ⟨hv, hfree⟩
  · intro c p hp'
    by_cases hc : c = s0.m_board.m_start
    · subst hc
      simp at hp'
    · rw [pushOpen_m_nodes_of_ne _ _ _ _ hc, (hall c).2] at hp'
      cases hp'
  · intro c hc
    have hc' : c ∈ ([] : List Coordinate) ++ [s0.m_board.m_start] := hc
    rw [List.nil_append, List.mem_singleton] at hc'
    subst hc'
    simp
  · show (([] : List Coordinate) ++ [s0.m_board.m_start]).Nodup
    simp
  · show 0 + 1 = s0.nodesClosed + (([] : List Coordinate) ++ [s0.m_board.m_start]).length
    rw [hp.1]
    rfl

/-- The start and the goal of a constructed instance are no obstacles, whatever
`setObstacle` calls were made. -/
theorem setObstacles_free (s : Algorithm E) (obs : List (Coordinate × Bool))
    (c : Coordinate) (hc : c = s.m_board.m_start ∨ c = s.m_board.m_goal)
    (h : (s.m_board.m_nodes c).obstacle = false) :
    ((setObstacles s obs).m_board.m_nodes c).obstacle = false := by
  induction obs generalizing s with
  | nil => exact h
  | cons e rest ih =>
    obtain ⟨k, o⟩ := e
    rw [setObstacles]
    have hc' : c = (setObstacle s k o).m_board.m_start ∨
        c = (setObstacle s k o).m_board.m_goal := by
      show c = (s.m_board.setObstacle k o).m_start ∨ c = (s.m_board.setObstacle k o).m_goal
      rw [Board.setObstacle_m_start, Board.setObstacle_m_goal]
      exact hc
    refine ih _ hc' ?_
    show ((s.m_board.setObstacle k o).m_nodes c).obstacle = false
    unfold Board.setObstacle
    split
    · rename_i hk
      simp only [Bool.and_eq_true, bne_iff_ne, ne_eq] at hk
      have hne : c ≠ k := by
        rcases hc with hc | hc
        · rw [hc]; exact fun e => hk.1.2 e.symm
        · rw [hc]; exact fun e => hk.2 e.symm
      rw [Board.write_m_nodes_of_ne _ _ _ _ hne]
      exact h
    · exact h

/-- The count of the opened nodes, from the count of the unopened ones. -/
theorem opened_count (b : Board E) (k : Nat) (h : k + b.unopened = b.nodeCount) :
    k = (b.allCoords.filter fun c => (b.m_nodes c).opened).length := by
  have h1 := List.length_eq_length_filter_add (l := b.allCoords)
    (fun c => (b.m_nodes c).opened)
  rw [Board.length_allCoords] at h1
  unfold Board.unopened at h
  omega

end AlgorithmBase

namespace AlgorithmBase

variable {E : Type}

theorem Tidy.nbs {b0 : Board E} {d cc : Bool} {s : Algorithm E} (h : Tidy b0 d cc s)
    (node : Coordinate) :
    s.m_board.getNeighbors node [] s.m_diagonals s.m_cutCorners =
      b0.getNeighbors node [] d cc := by
  rw [h.diag, h.cut, h.grid.getNeighbors]

end AlgorithmBase

namespace BreadthFirstSearch

open AlgorithmBase

/-- Every call of `nextStep` keeps the invariant of the counters and the frontier. -/
theorem bfs_nextStep_tidy (b0 : Board Unit) (d cc : Bool) (fuel : Nat) (s : State)
    (hs : Tidy b0 d cc s) (b : Bool) (s' : State) (h : nextStep fuel s = some (b, s')) :
    Tidy b0 d cc s' := by
  cases hf : s.m_openNodes with
  | nil =>
    rw [bfs_nextStep_nil fuel s hf] at h
    cases h
    exact hs
  | cons node rest =>
    have hnd : (node :: rest).Nodup := hf ▸ hs.front_nodup
    rcases bfs_nextStep_rule fuel s node rest hf
        (fun x => Tidy b0 d cc x ∧ (x.m_board.m_nodes node).opened = true)
        ⟨hs.tidy_pop rest (fun c hc => by rw [hf]; exact List.mem_cons_of_mem _ hc)
          (List.nodup_cons.1 hnd).2 (by rw [hf]; rfl),
          hs.front_opened node (by rw [hf]; exact List.mem_cons_self _ _)⟩
        (fun x n hx hn ho =>
          ⟨hx.1.tidy_push hx.2 (hs.nbs node ▸ hn) ho,
            pushOpen_opened_of_opened _ _ _ _ hx.2⟩) with
      ⟨s2, h1, h2⟩ | ⟨s1, n, h1, _, _, h4⟩
    · rw [h] at h1
      cases h1
      exact h2.1
    · rw [h] at h4
      cases hst : storeSolution fuel s1 with
      | none => rw [hst] at h4; cases h4
      | some r =>
        rw [hst] at h4
        cases h4
        exact h1.1.tidy_of_storeSolution hst

end BreadthFirstSearch

namespace DepthFirstSearch

open AlgorithmBase

/-- Every call of `nextStep` keeps the invariant of the counters and the frontier. -/
theorem dfs_nextStep_tidy (b0 : Board Unit) (d cc : Bool) (fuel : Nat) (s : State)
    (hs : Tidy b0 d cc s) (b : Bool) (s' : State) (h : nextStep fuel s = some (b, s')) :
    Tidy b0 d cc s' := by
  by_cases hf : s.m_openNodes = []
  · rw [dfs_nextStep_nil fuel s hf] at h
    cases h
    exact hs
  · obtain ⟨rest, node, hl⟩ := exists_concat_of_ne_nil _ hf
    rcases dfs_nextStep_rule fuel s node rest hl
        (fun _ x => (Tidy b0 d cc x ∧ (x.m_board.m_nodes node).opened = true) ∧
          x.m_openNodes ≠ [])
        ⟨⟨hs, hs.front_opened node (by rw [hl]; simp)⟩, hf⟩
        (fun _ x n hx hn ho =>
          ⟨⟨hx.1.1.tidy_push hx.1.2 (hs.nbs node ▸ hn) ho,
            pushOpen_opened_of_opened _ _ _ _ hx.1.2⟩, by simp⟩)
        (fun _ x hx => hx.2) with
      ⟨ch, s2, h1, h2⟩ | ⟨_, s1, n, h1, _, _, h4⟩
    · rw [h] at h2
      cases h2
      cases ch
      · simp only [Bool.false_eq_true, if_false]
        refine h1.1.1.tidy_pop _ (fun c hc => List.mem_of_mem_dropLast hc)
          (h1.1.1.front_nodup.sublist (List.dropLast_sublist _)) ?_
        rw [List.length_dropLast]
        have := List.length_pos.2 h1.2
        omega
      · simp only [if_true]
        exact h1.1.1
    · rw [h] at h4
      cases hst : storeSolution fuel s1 with
      | none => rw [hst] at h4; cases h4
      | some r =>
        rw [hst] at h4
        cases h4
        exact h1.1.1.tidy_of_storeSolution hst

end DepthFirstSearch

namespace BestFirstSearch

open AlgorithmBase

variable {α : Type}

/-- Every call of `nextStep` keeps the invariant of the counters and the frontier. -/
theorem bestFirst_nextStep_tidy (A : Env α) (hA : A.SortPermutes) (b0 : Board (Ext α))
    (d cc : Bool) (fuel : Nat) (s : State α) (hs : Tidy b0 d cc s) (b : Bool) (s' : State α)
    (h : nextStep A fuel s = some (b, s')) : Tidy b0 d cc s' := by
  by_cases hf : s.m_openNodes = []
  · rw [bestFirst_nextStep_nil A fuel s hf] at h
    cases h
    exact hs
  · rcases bestFirst_nextStep_rule_ext A hA fuel s hf
        (fun node x => Tidy b0 d cc x ∧ (x.m_board.m_nodes node).opened = true)
        (fun node x y hxy hx => ⟨hx.1.tidy_extOnly hxy, by
          rw [(hxy.2.2.2.2.2.2.2.2.2.2 node).2.2.2]
          exact hx.2⟩)
        (fun node rest hp => by
          have hnd : (rest ++ [node]).Nodup := hp.nodup_iff.2 hs.front_nodup
          exact ⟨hs.tidy_pop rest (fun c hc => hp.subset (List.mem_append_left _ hc))
            (List.Nodup.of_append_left hnd) (by rw [← hp.length_eq]; simp),
            hs.front_opened node (hp.subset (by simp))⟩)
        (fun node x n hx hn ho =>
          ⟨hx.1.tidy_push hx.2 (hs.nbs node ▸ hn) ho,
            pushOpen_opened_of_opened _ _ _ _ hx.2⟩) with
      ⟨_, s2, h1, h2⟩ | ⟨node, s1, n, h1, _, _, h4⟩
    · rw [h] at h1
      cases h1
      exact h2.1
    · rw [h] at h4
      cases hst : storeSolution fuel s1 with
      | none => rw [hst] at h4; cases h4
      | some r =>
        rw [hst] at h4
        cases h4
        exact h1.1.tidy_of_storeSolution hst

end BestFirstSearch

namespace AStar

open AlgorithmBase

variable {α : Type}

/-- Closing the node taken from the frontier keeps the invariant. -/
theorem tidy_closeWith {b0 : Board (Ext α)} {d cc : Bool} {s : State α}
    (hs : Tidy b0 d cc s) (node : Coordinate) (rest : List Coordinate)
    (hp : (rest ++ [node]).Perm s.m_openNodes) : Tidy b0 d cc (closeWith s node rest) := by
  have hnd : (rest ++ [node]).Nodup := hp.nodup_iff.2 hs.front_nodup
  refine ⟨hs.grid.trans (astar_closeWith_sameGrid s node rest), hs.diag, hs.cut, ?_, ?_, ?_,
    List.Nodup.of_append_left hnd, ?_⟩
  · intro c hc
    rw [closeWith_opened] at hc
    exact hs.opened_ok c hc
  · intro c p hpar
    have hpar' : (s.m_board.m_nodes c).parent = some p := by
      rw [closeWith_m_nodes] at hpar
      split at hpar
      · rename_i e
        rw [e]
        exact hpar
      · exact hpar
    rw [closeWith_opened]
    exact hs.moves c p hpar'
  · intro c hc
    rw [closeWith_opened]
    exact hs.front_opened c (hp.subset (List.mem_append_left _ hc))
  · have h1 := hs.balance
    have h2 := hp.length_eq
    rw [List.length_append, List.length_singleton] at h2
    show s.nodesOpened = s.nodesClosed + 1 + rest.length
    omega

/-- The function `updateNode`, called for a neighbor of an opened node, keeps the
invariant. -/
theorem tidy_updateNode (A : Env α) {b0 : Board (Ext α)} {d cc : Bool} {x : State α}
    (hx : Tidy b0 d cc x) {node n : Coordinate}
    (hnode : (x.m_board.m_nodes node).opened = true)
    (hn : n ∈ b0.getNeighbors node [] d cc) : Tidy b0 d cc (updateNode A x n node) := by
  have hfr : (updateNode A x n node).m_openNodes = x.m_openNodes := by
    unfold updateNode
    simp only
    split <;> rfl
  have hno : (updateNode A x n node).nodesOpened = x.nodesOpened := by
    unfold updateNode
    simp only
    split <;> rfl
  have hnc : (updateNode A x n node).nodesClosed = x.nodesClosed := by
    unfold updateNode
    simp only
    split <;> rfl
  have hdg : (updateNode A x n node).m_diagonals = x.m_diagonals := by
    unfold updateNode
    simp only
    split <;> rfl
  have hct : (updateNode A x n node).m_cutCorners = x.m_cutCorners := by
    unfold updateNode
    simp only
    split <;> rfl
  refine ⟨hx.grid.trans (astar_updateNode_sameGrid A x n node), hdg.trans hx.diag,
    hct.trans hx.cut, ?_, ?_, ?_, ?_, ?_⟩
  · intro c hc
    rw [astar_updateNode_opened] at hc
    exact hx.opened_ok c hc
  · intro c p hpar
    rw [astar_updateNode_opened]
    rcases astar_updateNode_parent A x n node c p hpar with h1 | ⟨h1, h2⟩
    · exact hx.moves c p h1
    · subst h1 h2
      exact ⟨hnode, hn⟩
  · intro c hc
    rw [hfr] at hc
    rw [astar_updateNode_opened]
    exact hx.front_opened c hc
  · rw [hfr]
    exact hx.front_nodup
  · rw [hno, hnc, hfr]
    exact hx.balance

/-- Every call of `nextStep` keeps the invariant of the counters and the frontier. -/
theorem astar_nextStep_tidy (A : Env α) (hA : A.SortPermutes) (b0 : Board (Ext α))
    (d cc : Bool) (fuel : Nat) (s : State α) (hs : Tidy b0 d cc s) (b : Bool) (s' : State α)
    (h : nextStep A fuel s = some (b, s')) : Tidy b0 d cc s' := by
  by_cases hf : s.m_openNodes = []
  · rw [astar_nextStep_nil A fuel s hf] at h
    cases h
    exact hs
  · rcases astar_nextStep_rule A hA fuel s hf
        (fun node x => Tidy b0 d cc x ∧ (x.m_board.m_nodes node).opened = true)
        (fun node rest hp => ⟨tidy_closeWith hs node rest hp, by
          rw [closeWith_opened]
          exact hs.front_opened node (hp.subset (by simp))⟩)
        (fun node x n hx hn _ => ⟨tidy_updateNode A hx.1 hx.2 (hs.nbs node ▸ hn), by
          rw [astar_updateNode_opened]
          exact hx.2⟩)
        (fun node x n hx hn _ ho =>
          ⟨hx.1.tidy_push hx.2 (hs.nbs node ▸ hn) ho,
            pushOpen_opened_of_opened _ _ _ _ hx.2⟩) with
      ⟨_, s2, h1, h2⟩ | ⟨node, s1, n, h1, _, _, h4⟩
    · rw [h] at h1
      cases h1
      exact h2.1
    · rw [h] at h4
      cases hst : storeSolution fuel s1 with
      | none => rw [hst] at h4; cases h4
      | some r =>
        rw [hst] at h4
        cases h4
        exact h1.1.tidy_of_storeSolution hst

end AStar

namespace AlgorithmBase

variable {E : Type}

/-- In a state with the invariant whose opened nodes are counted by `nodesOpened`, the
counters and the frontier agree with the board. -/
theorem Tidy.counted {b0 : Board E} {d cc : Bool} {s : Algorithm E} (h : Tidy b0 d cc s)
    (hc : s.nodesOpened + s.m_board.unopened = s.m_board.nodeCount) : Counted s := by
  refine ⟨h.balance, opened_count _ _ hc, h.front_nodup, fun c ho => ?_⟩
  obtain ⟨h1, h2⟩ := h.opened_ok c ho
  have h3 : s.m_board.isValidNode c = true := by rw [h.grid.isValidNode]; exact h1
  have h4 : (s.m_board.m_nodes c).obstacle = false := by rw [(h.grid.2.2.2 c).1]; exact h2
  refine ⟨h3, h4, ?_⟩
  show (s.m_board.isValidNode c && (s.m_board.m_nodes c).obstacle) = false
  rw [h4, Bool.and_false]

end AlgorithmBase

namespace BreadthFirstSearch

open AlgorithmBase

/-- The invariants hold in every state of a run on a freshly constructed instance. -/
theorem bfs_run_tidy (size start goal : Coordinate) (obs : List (Coordinate × Bool))
    (h : Heuristic) (d cc : Bool) (fuel : Nat) (hstart : InBounds size start) :
    ∃ s1, init (setObstacles (create size start goal) obs) h d cc = some s1 ∧
      s1.solution = [] ∧ ∀ s, Reachable (nextStep fuel) s1 s →
        Tidy (setObstacles (create size start goal) obs).m_board d cc s ∧
        Links (setObstacles (create size start goal) obs).m_board d cc s := by
  have hp := (bfs_pristine_create size start goal).pristine_setObstacles obs
  obtain ⟨_, b2, _, _, b5⟩ := setObstacles_board (create size start goal) obs size start goal
    rfl rfl rfl
  have hv := b5 hstart
  have hfree : ((setObstacles (create size start goal) obs).m_board.m_nodes
      (setObstacles (create size start goal) obs).m_board.m_start).obstacle = false := by
    rw [b2]
    exact setObstacles_free (create size start goal) obs start (Or.inl rfl) rfl
  refine ⟨_, by rw [bfs_init_eq, if_pos hv], rfl, fun s hs => ?_⟩
  exact Reachable.invariant (nextStep fuel)
    (fun s => Tidy (setObstacles (create size start goal) obs).m_board d cc s ∧
      Links (setObstacles (create size start goal) obs).m_board d cc s)
    (fun s b s' hI hst => ⟨bfs_nextStep_tidy _ d cc fuel s hI.1 b s' hst,
      bfs_nextStep_links _ d cc fuel s hI.2 b s' hst⟩)
    _ s ⟨init_tidy nodeInitOK_base _ hp h d cc hv hfree _ (ExtOnly.ext_refl _),
      init_links nodeInitOK_base _ hp h d cc hv _ (ExtOnly.ext_refl _)⟩ hs

end BreadthFirstSearch

namespace DepthFirstSearch

open AlgorithmBase

/-- The invariants hold in every state of a run on a freshly constructed instance. -/
theorem dfs_run_tidy (size start goal : Coordinate) (obs : List (Coordinate × Bool))
    (h : Heuristic) (d cc : Bool) (fuel : Nat) (hstart : InBounds size start) :
    ∃ s1, init (setObstacles (create size start goal) obs) h d cc = some s1 ∧
      s1.solution = [] ∧ ∀ s, Reachable (nextStep fuel) s1 s →
        Tidy (setObstacles (create size start goal) obs).m_board d cc s ∧
        Links (setObstacles (create size start goal) obs).m_board d cc s := by
  have hp := (dfs_pristine_create size start goal).pristine_setObstacles obs
  obtain ⟨_, b2, _, _, b5⟩ := setObstacles_board (create size start goal) obs size start goal
    rfl rfl rfl
  have hv := b5 hstart
  have hfree : ((setObstacles (create size start goal) obs).m_board.m_nodes
      (setObstacles (create size start goal) obs).m_board.m_start).obstacle = false := by
    rw [b2]
    exact setObstacles_free (create size start goal) obs start (Or.inl rfl) rfl
  refine ⟨_, by rw [dfs_init_eq, if_pos hv], rfl, fun s hs => ?_⟩
  exact Reachable.invariant (nextStep fuel)
    (fun s => Tidy (setObstacles (create size start goal) obs).m_board d cc s ∧
      Links (setObstacles (create size start goal) obs).m_board d cc s)
    (fun s b s' hI hst => ⟨dfs_nextStep_tidy _ d cc fuel s hI.1 b s' hst,
      dfs_nextStep_links _ d cc fuel s hI.2 b s' hst⟩)
    _ s ⟨init_tidy nodeInitOK_base _ hp h d cc hv hfree _ (ExtOnly.ext_refl _),
      init_links nodeInitOK_base _ hp h d cc hv _ (ExtOnly.ext_refl _)⟩ hs

end DepthFirstSearch

namespace BestFirstSearch

open AlgorithmBase

variable {α : Type}

/-- The invariants hold in every state of a run on a freshly constructed instance. -/
theorem bestFirst_run_tidy (A : Env α) (hA : A.SortPermutes) (size start goal : Coordinate)
    (obs : List (Coordinate × Bool)) (h : Heuristic) (d cc : Bool) (fuel : Nat)
    (hstart : InBounds size start) :
    ∃ s1, init A (setObstacles (create A size start goal) obs) h d cc = some s1 ∧
      s1.solution = [] ∧ ∀ s, Reachable (nextStep A fuel) s1 s →
        Tidy (setObstacles (create A size start goal) obs).m_board d cc s ∧
        Links (setObstacles (create A size start goal) obs).m_board d cc s := by
  have hp := (bestFirst_pristine_create A size start goal).pristine_setObstacles obs
  obtain ⟨_, b2, _, _, b5⟩ := setObstacles_board (create A size start goal) obs size start
    goal rfl rfl rfl
  have hv := b5 hstart
  have hfree : ((setObstacles (create A size start goal) obs).m_board.m_nodes
      (setObstacles (create A size start goal) obs).m_board.m_start).obstacle = false := by
    rw [b2]
    exact setObstacles_free (create A size start goal) obs start (Or.inl rfl) rfl
  refine ⟨_, by rw [bestFirst_init_eq, if_pos hv], rfl, fun s hs => ?_⟩
  exact Reachable.invariant (nextStep A fuel)
    (fun s => Tidy (setObstacles (create A size start goal) obs).m_board d cc s ∧
      Links (setObstacles (create A size start goal) obs).m_board d cc s)
    (fun s b s' hI hst => ⟨bestFirst_nextStep_tidy A hA _ d cc fuel s hI.1 b s' hst,
      bestFirst_nextStep_links A hA _ d cc fuel s hI.2 b s' hst⟩)
    _ s ⟨init_tidy (bestFirst_nodeInitOK A) _ hp h d cc hv hfree _
        (bestFirst_openNode_extOnly A _ _ _),
      init_links (bestFirst_nodeInitOK A) _ hp h d cc hv _
        (bestFirst_openNode_extOnly A _ _ _)⟩ hs

end BestFirstSearch

namespace AStar

open AlgorithmBase

variable {α : Type}

/-- The invariants hold in every state of a run on a freshly constructed instance. -/
theorem astar_run_tidy (A : Env α) (hA : A.SortPermutes) (size start goal : Coordinate)
    (obs : List (Coordinate × Bool)) (h : Heuristic) (d cc : Bool) (fuel : Nat)
    (hstart : InBounds size start) :
    ∃ s1, init A (setObstacles (create A size start goal) obs) h d cc = some s1 ∧
      s1.solution = [] ∧ ∀ s, Reachable (nextStep A fuel) s1 s →
        Tidy (setObstacles (create A size start goal) obs).m_board d cc s ∧
        FreshInv (setObstacles (create A size start goal) obs).m_board d cc
          (clearSolution s) := by
  have hp := (astar_pristineA_create A size start goal).pristineA_setObstacles obs
  obtain ⟨_, b2, _, _, b5⟩ := setObstacles_board (create A size start goal) obs size start
    goal rfl rfl rfl
  have hv := b5 hstart
  have hfree : ((setObstacles (create A size start goal) obs).m_board.m_nodes
      (setObstacles (create A size start goal) obs).m_board.m_start).obstacle = false := by
    rw [b2]
    exact setObstacles_free (create A size start goal) obs start (Or.inl rfl) rfl
  obtain ⟨s1, h1, h2, _, h4⟩ := astar_init_some A _ h d cc hv
  obtain ⟨rk, hk⟩ := h4 hp
  have h1' := h1
  rw [astar_init_eq, if_pos hv] at h1'
  cases h1'
  refine ⟨_, h1, rfl, fun s hs => ?_⟩
  exact Reachable.invariant (nextStep A fuel)
    (fun s => Tidy (setObstacles (create A size start goal) obs).m_board d cc s ∧
      FreshInv (setObstacles (create A size start goal) obs).m_board d cc (clearSolution s))
    (fun s b s' hI hst => ⟨astar_nextStep_tidy A hA _ d cc fuel s hI.1 b s' hst,
      astar_nextStep_links A hA _ d cc fuel s hI.2 b s' hst⟩)
    _ s ⟨init_tidy (astar_nodeInitOK A) _ hp.1 h d cc hv hfree _ (ExtOnly.ext_refl _),
      h2.run_clear, rk, ⟨hk.parent_closed, hk.rk_lt, hk.closed_opened, hk.root, hk.count,
        hk.balance, hk.front_open, hk.front_nodup⟩⟩ hs

end AStar

/-! ## Theorems: the solution is a path of moves -/

namespace AlgorithmBase

variable {E : Type}

/-- A run that `complete` ends is a sequence of calls that return false followed by one
that returns true. -/
theorem stepsFalse_of_complete {S : Type} (step : S → Option (Bool × S)) :
    ∀ n s s', complete step n s = some s' →
      ∃ m sx, m < n ∧ stepsFalse step m s = some sx ∧ step sx = some (true, s') := by
  intro n
  induction n with
  | zero => intro s s' h; cases h
  | succ n ih =>
    intro s s' h
    rw [complete] at h
    cases hst : step s with
    | none => rw [hst] at h; cases h
    | some r =>
      obtain ⟨b, x⟩ := r
      rw [hst] at h
      cases b
      · obtain ⟨m, sx, h1, h2, h3⟩ := ih x s' h
        refine ⟨m + 1, sx, by omega, ?_, h3⟩
        simp only [stepsFalse, hst]
        exact h2
      · simp only [Option.some.injEq] at h
        subst h
        exact ⟨0, s, by omega, rfl, hst⟩

/-- The states after calls that return false are states of the run. -/
theorem reachable_of_stepsFalse {S : Type} (step : S → Option (Bool × S)) :
    ∀ n s s', stepsFalse step n s = some s' → Reachable step s s' := by
  intro n
  induction n with
  | zero =>
    intro s s' h
    simp only [stepsFalse, Option.some.injEq] at h
    subst h
    exact Relation.ReflTransGen.refl
  | succ n ih =>
    intro s s' h
    simp only [stepsFalse] at h
    split at h
    · rename_i s2 heq
      exact Relation.ReflTransGen.head ⟨false, heq⟩ (ih s2 s' h)
    · exact absurd h (by simp)

/-- What the loop of `storeSolution` appends when it returns, the parent links it follows
decreasing a rank and relating the nodes by `R`: a chain of `R` without repetition that
starts at the node the loop was started at. -/
theorem storeSolutionLoop_walk (b : Board E) (G : Coordinate → Prop) (rk : Coordinate → Nat)
    (R : Coordinate → Coordinate → Prop)
    (hpos : ∀ c, G c → (b.m_nodes c).position = c)
    (hrk : ∀ c p, G c → (b.m_nodes c).parent = some p → G p ∧ rk p < rk c ∧ R c p) :
    ∀ fuel c acc l, G c → storeSolutionLoop b fuel (some c) acc = some l →
      ∃ path, l = acc ++ path ∧ path.head? = some c ∧ path.Chain' R ∧
        (∀ x ∈ path, G x ∧ rk x ≤ rk c) ∧ path.Nodup := by
  intro fuel
  induction fuel with
  | zero => intro c acc l _ h; cases h
  | succ fuel ih =>
    intro c acc l hc h
    rw [storeSolutionLoop, hpos c hc] at h
    cases hp : (b.m_nodes c).parent with
    | none =>
      rw [hp] at h
      have h' : some (acc ++ [c]) = some l := by
        rw [← h]
        cases fuel <;> rfl
      cases h'
      refine ⟨[c], rfl, rfl, List.chain'_singleton _, ?_, List.nodup_singleton _⟩
      intro x hx
      rw [List.mem_singleton] at hx
      subst hx
      exact ⟨hc, le_refl _⟩
    | some p =>
      rw [hp] at h
      obtain ⟨hGp, hlt, hR⟩ := hrk c p hc hp
      obtain ⟨path, h1, h2, h3, h4, h5⟩ := ih p (acc ++ [c]) l hGp h
      refine ⟨c :: path, ?_, rfl, ?_, ?_, ?_⟩
      · rw [h1]
        simp
      · cases path with
        | nil => simp at h2
        | cons a t =>
          simp only [List.head?_cons, Option.some.injEq] at h2
          rw [List.chain'_cons]
          exact ⟨h2 ▸ hR, h3⟩
      · intro x hx
        rcases List.mem_cons.1 hx with rfl | hx
        · exact ⟨hc, le_refl _⟩
        · exact ⟨(h4 x hx).1, by have := (h4 x hx).2; omega⟩
      · rw [List.nodup_cons]
        refine ⟨fun hmem => ?_, h5⟩
        have := (h4 c hmem).2
        omega

/-- The solution `storeSolution` leaves is what its loop returns on the board of the state
it leaves. -/
theorem storeSolution_loop (fuel : Nat) (x s' : Algorithm E)
    (h : storeSolution fuel x = some s') :
    storeSolutionLoop s'.m_board fuel (getGoalNode s') x.solution = some s'.solution := by
  unfold storeSolution at h
  split at h
  · cases h
  · rename_i sol hsol
    cases h
    exact hsol

/-- In a state with the invariant whose parent links decrease a rank, a solution the loop of
`storeSolution` has stored from the empty one is a sequence of coordinates of the board that
are no obstacles, each a neighbor of the one that follows it, none occurring twice. -/
theorem Tidy.solution_path {b0 : Board E} {d cc : Bool} {s' : Algorithm E}
    (ht : Tidy b0 d cc s') (hw : b0.WellFormed) (rk : Coordinate → Nat)
    (hrk : ∀ c p, (s'.m_board.m_nodes c).parent = some p → rk p < rk c)
    (hfree : (b0.m_nodes b0.m_goal).obstacle = false) (fuel : Nat)
    (hl : storeSolutionLoop s'.m_board fuel (getGoalNode s') [] = some s'.solution) :
    s'.solution.Chain' (fun a b => a ∈ b0.getNeighbors b [] d cc ∧ b0.isValidNode b = true) ∧
    (∀ c ∈ s'.solution, b0.isValidNode c = true ∧ (b0.m_nodes c).obstacle = false) ∧
    s'.solution.Nodup := by
  have hgs : s'.m_board.m_goal = b0.m_goal := ht.grid.2.2.1
  by_cases hvg : b0.isValidNode b0.m_goal = true
  · have hgn : getGoalNode s' = some b0.m_goal := by
      unfold getGoalNode Board.getGoalNode
      rw [hgs, ht.grid.isValidNode, if_pos hvg]
    rw [hgn] at hl
    obtain ⟨path, h1, _, h3, h4, h5⟩ := storeSolutionLoop_walk s'.m_board
      (fun c => b0.isValidNode c = true ∧ (b0.m_nodes c).obstacle = false) rk
      (fun a b => a ∈ b0.getNeighbors b [] d cc ∧ b0.isValidNode b = true)
      (fun c hc => by rw [(ht.grid.2.2.2 c).2]; exact hw c hc.1)
      (fun c p _ hp => ⟨ht.opened_ok p (ht.moves c p hp).1, hrk c p hp, (ht.moves c p hp).2,
        (ht.opened_ok p (ht.moves c p hp).1).1⟩)
      fuel b0.m_goal [] s'.solution ⟨hvg, hfree⟩ hl
    rw [List.nil_append] at h1
    rw [h1]
    exact ⟨h3, fun c hc => (h4 c hc).1, h5⟩
  · have hgn : getGoalNode s' = none := by
      unfold getGoalNode Board.getGoalNode
      rw [hgs, ht.grid.isValidNode, if_neg hvg]
    rw [hgn] at hl
    have : s'.solution = [] := by
      cases fuel <;> exact (Option.some.inj hl).symm
    rw [this]
    exact ⟨List.chain'_nil, fun c hc => absurd hc (List.not_mem_nil c), List.nodup_nil⟩

/-- The parent links of a state with the invariant of the links decrease a rank. -/
theorem Links.rank {b0 : Board E} {d cc : Bool} {s : Algorithm E} (h : Links b0 d cc s) :
    ∃ rk : Coordinate → Nat, ∀ c p, (s.m_board.m_nodes c).parent = some p → rk p < rk c := by
  obtain ⟨⟨_, rk, hk⟩, hu⟩ := h
  refine ⟨rk, fun c p hp => ?_⟩
  cases ho : (s.m_board.m_nodes c).opened with
  | true => exact (hk.parent_lt c p ho hp).2
  | false =>
    rw [hu c ho] at hp
    cases hp

end AlgorithmBase

namespace AStar

open AlgorithmBase

variable {α : Type}

/-- The parent links of a state of a run of A* decrease a rank. -/
theorem astar_rank {b0 : Board (Ext α)} {d cc : Bool} {s : State α}
    (h : FreshInv b0 d cc (clearSolution s)) :
    ∃ rk : Coordinate → Nat, ∀ c p, (s.m_board.m_nodes c).parent = some p → rk p < rk c := by
  obtain ⟨_, rk, hk⟩ := h
  refine ⟨fun c => if (s.m_board.m_nodes c).ext.closed = true then rk c else s.nodesClosed,
    fun c p hp => ?_⟩
  obtain ⟨h1, h2⟩ := hk.parent_closed c p hp
  have h1' : (s.m_board.m_nodes p).ext.closed = true := h1
  show (if (s.m_board.m_nodes p).ext.closed = true then rk p else s.nodesClosed) <
    (if (s.m_board.m_nodes c).ext.closed = true then rk c else s.nodesClosed)
  rw [if_pos h1']
  by_cases hc : (s.m_board.m_nodes c).ext.closed = true
  · rw [if_pos hc]
    exact h2 hc
  · rw [if_neg hc]
    exact hk.rk_lt p h1

end AStar

namespace BreadthFirstSearch

open AlgorithmBase

/-- A call of `nextStep` that returns false leaves the solution as it was; one that returns
true on a non-empty frontier leaves what `storeSolution` appends to it. -/
theorem bfs_nextStep_sol (fuel : Nat) (s : State) (b : Bool) (s' : State)
    (h : nextStep fuel s = some (b, s')) :
    (b = false → s'.solution = s.solution) ∧
    (b = true → s.m_openNodes ≠ [] →
      ∃ x, x.solution = s.solution ∧ storeSolution fuel x = some s') := by
  cases hf : s.m_openNodes with
  | nil =>
    rw [bfs_nextStep_nil fuel s hf] at h
    cases h
    exact ⟨(fun hb => by cases hb), fun _ hne => absurd rfl hne⟩
  | cons node rest =>
    rcases bfs_nextStep_rule fuel s node rest hf (fun x => x.solution = s.solution) rfl
        (fun x n hx _ _ => (pushOpen_solution _ _ _).trans hx) with
      ⟨s2, h1, h2⟩ | ⟨s1, n, h1, _, _, h4⟩
    · rw [h] at h1
      cases h1
      exact ⟨fun _ => h2, (fun hb => by cases hb)⟩
    · rw [h] at h4
      cases hst : storeSolution fuel s1 with
      | none => rw [hst] at h4; cases h4
      | some r =>
        rw [hst] at h4
        cases h4
        exact ⟨(fun hb => by cases hb), fun _ _ => ⟨s1, h1, hst⟩⟩

end BreadthFirstSearch

namespace DepthFirstSearch

open AlgorithmBase

/-- A call of `nextStep` that returns false leaves the solution as it was; one that returns
true on a non-empty frontier leaves what `storeSolution` appends to it. -/
theorem dfs_nextStep_sol (fuel : Nat) (s : State) (b : Bool) (s' : State)
    (h : nextStep fuel s = some (b, s')) :
    (b = false → s'.solution = s.solution) ∧
    (b = true → s.m_openNodes ≠ [] →
      ∃ x, x.solution = s.solution ∧ storeSolution fuel x = some s') := by
  by_cases hf : s.m_openNodes = []
  · rw [dfs_nextStep_nil fuel s hf] at h
    cases h
    exact ⟨(fun hb => by cases hb), fun _ hne => absurd hf hne⟩
  · obtain ⟨rest, node, hl⟩ := exists_concat_of_ne_nil _ hf
    rcases dfs_nextStep_rule fuel s node rest hl
        (fun _ x => x.solution = s.solution ∧ x.m_openNodes ≠ []) ⟨rfl, hf⟩
        (fun _ x n hx _ _ => ⟨(pushOpen_solution _ _ _).trans hx.1, by simp⟩)
        (fun _ x hx => hx.2) with
      ⟨ch, s2, h1, h2⟩ | ⟨_, s1, n, h1, _, _, h4⟩
    · rw [h] at h2
      cases h2
      refine ⟨fun _ => ?_, (fun hb => by cases hb)⟩
      cases ch
      · exact h1.1
      · exact h1.1
    · rw [h] at h4
      cases hst : storeSolution fuel s1 with
      | none => rw [hst] at h4; cases h4
      | some r =>
        rw [hst] at h4
        cases h4
        exact ⟨(fun hb => by cases hb), fun _ _ => ⟨s1, h1.1, hst⟩⟩

end DepthFirstSearch

namespace BestFirstSearch

open AlgorithmBase

variable {α : Type}

/-- A call of `nextStep` that returns false leaves the solution as it was; one that returns
true on a non-empty frontier leaves what `storeSolution` appends to it. -/
theorem bestFirst_nextStep_sol (A : Env α) (hA : A.SortPermutes) (fuel : Nat) (s : State α)
    (b : Bool) (s' : State α) (h : nextStep A fuel s = some (b, s')) :
    (b = false → s'.solution = s.solution) ∧
    (b = true → s.m_openNodes ≠ [] →
      ∃ x, x.solution = s.solution ∧ storeSolution fuel x = some s') := by
  by_cases hf : s.m_openNodes = []
  · rw [bestFirst_nextStep_nil A fuel s hf] at h
    cases h
    exact ⟨(fun hb => by cases hb), fun _ hne => absurd hf hne⟩
  · rcases bestFirst_nextStep_rule_ext A hA fuel s hf (fun _ x => x.solution = s.solution)
        (fun _ x y hxy hx => hxy.1.trans hx)
        (fun _ _ _ => rfl)
        (fun _ x n hx _ _ => (pushOpen_solution _ _ _).trans hx) with
      ⟨_, s2, h1, h2⟩ | ⟨node, s1, n, h1, _, _, h4⟩
    · rw [h] at h1
      cases h1
      exact ⟨fun _ => h2, (fun hb => by cases hb)⟩
    · rw [h] at h4
      cases hst : storeSolution fuel s1 with
      | none => rw [hst] at h4; cases h4
      | some r =>
        rw [hst] at h4
        cases h4
        exact ⟨(fun hb => by cases hb), fun _ _ => ⟨s1, h1, hst⟩⟩

end BestFirstSearch

namespace AStar

open AlgorithmBase

variable {α : Type}

theorem astar_updateNode_solution (A : Env α) (x : State α) (n node : Coordinate) :
    (updateNode A x n node).solution = x.solution := by
  unfold updateNode
  simp only
  split <;> rfl

/-- A call of `nextStep` that returns false leaves the solution as it was; one that returns
true on a non-empty frontier leaves what `storeSolution` appends to it. -/
theorem astar_nextStep_sol (A : Env α) (hA : A.SortPermutes) (fuel : Nat) (s : State α)
    (b : Bool) (s' : State α) (h : nextStep A fuel s = some (b, s')) :
    (b = false → s'.solution = s.solution) ∧
    (b = true → s.m_openNodes ≠ [] →
      ∃ x, x.solution = s.solution ∧ storeSolution fuel x = some s') := by
  by_cases hf : s.m_openNodes = []
  · rw [astar_nextStep_nil A fuel s hf] at h
    cases h
    exact ⟨(fun hb => by cases hb), fun _ hne => absurd hf hne⟩
  · rcases astar_nextStep_rule A hA fuel s hf (fun _ x => x.solution = s.solution)
        (fun _ _ _ => rfl)
        (fun _ x n hx _ _ => (astar_updateNode_solution A _ _ _).trans hx)
        (fun _ x n hx _ _ _ => (pushOpen_solution _ _ _).trans hx) with
      ⟨_, s2, h1, h2⟩ | ⟨node, s1, n, h1, _, _, h4⟩
    · rw [h] at h1
      cases h1
      exact ⟨fun _ => h2, (fun hb => by cases hb)⟩
    · rw [h] at h4
      cases hst : storeSolution fuel s1 with
      | none => rw [hst] at h4; cases h4
      | some r =>
        rw [hst] at h4
        cases h4
        exact ⟨(fun hb => by cases hb), fun _ _ => ⟨s1, h1, hst⟩⟩

end AStar

namespace AlgorithmBase

variable {E : Type}

/-- The state a run ends in, for a step function that keeps the solution while it returns
false and stores it when it returns true: the state is a state of the run, and its solution,
if not empty, is what the loop of `storeSolution` returns on its board from the empty
solution. -/
theorem complete_solution (step : Algorithm E → Option (Bool × Algorithm E)) (fuel : Nat)
    (hsol : ∀ s b s', step s = some (b, s') →
      (b = false → s'.solution = s.solution) ∧
      (b = true → s.m_openNodes ≠ [] →
        ∃ x, x.solution = s.solution ∧ storeSolution fuel x = some s'))
    (hnil : ∀ s s', s.m_openNodes = [] → step s = some (true, s') → s' = s)
    (s1 : Algorithm E) (h1 : s1.solution = []) (n : Nat) (s' : Algorithm E)
    (hc : complete step n s1 = some s') (hne : s'.solution ≠ []) :
    Reachable step s1 s' ∧
      storeSolutionLoop s'.m_board fuel (getGoalNode s') [] = some s'.solution := by
  obtain ⟨m, sx, _, h2, h3⟩ := stepsFalse_of_complete step n s1 s' hc
  have hsx : sx.solution = [] := stepsFalse_invariant step (fun x => x.solution = [])
    (fun x y hx hxy => ((hsol x false y hxy).1 rfl).trans hx) m s1 sx h1 h2
  refine ⟨(reachable_of_stepsFalse step m s1 sx h2).tail ⟨true, h3⟩, ?_⟩
  by_cases hf : sx.m_openNodes = []
  · rw [hnil sx s' hf h3] at hne
    exact absurd hsx hne
  · obtain ⟨x, hx1, hx2⟩ := (hsol sx true s' h3).2 rfl hf
    have := storeSolution_loop fuel x s' hx2
    rw [hx1, hsx] at this
    exact this

end AlgorithmBase

namespace Board

open AlgorithmBase

variable {E : Type}

/-- A neighbor `getNeighbors` returns for an in-bounds node is a cell adjacent to it (a
king's move away, a cardinal move away when diagonals are disabled) that `isAccessible`
accepts as target of a move from it. -/
theorem mem_getNeighbors_adjacent (b : Board E) (hw : b.WellFormed) (node m : Coordinate)
    (d cc : Bool) (hv : b.isValidNode node = true) (h : m ∈ b.getNeighbors node [] d cc) :
    cheb node m = 1 ∧ b.isAccessible node m cc = true ∧
      (d = false → manhattan node m = 1) := by
  obtain ⟨n1, n2⟩ := node
  obtain ⟨m1, m2⟩ := m
  unfold getNeighbors at h
  split at h
  · rename_i hd
    simp only [getNeighborsWithoutDiagonals_eq, List.nil_append, List.mem_append,
      mem_candidate, hw _ hv, Prod.mk.injEq] at h
    rw [cheb_eq, manhattan_eq]
    rcases h with ⟨⟨rfl, rfl⟩, _, h⟩ | ⟨⟨rfl, rfl⟩, _, h⟩ | ⟨⟨rfl, rfl⟩, _, h⟩ |
      ⟨⟨rfl, rfl⟩, _, h⟩ <;>
    · refine ⟨by simp only; omega, ?_, fun _ => by simp only; omega⟩
      rw [isAccessible_iff] at h ⊢
      exact ⟨h.1, h.2.1, h.2.2.1, Or.inl (by simp)⟩
  · rename_i hd
    have hd' : d = true := by simpa using hd
    simp only [getNeighborsWithDiagonals_eq, getNeighborsWithoutDiagonals_eq, List.nil_append,
      List.mem_append, mem_candidate, hw _ hv, Prod.mk.injEq] at h
    rw [cheb_eq, manhattan_eq]
    rcases h with (⟨⟨rfl, rfl⟩, _, h⟩ | ⟨⟨rfl, rfl⟩, _, h⟩ | ⟨⟨rfl, rfl⟩, _, h⟩ |
      ⟨⟨rfl, rfl⟩, _, h⟩) | ⟨⟨rfl, rfl⟩, _, h⟩ | ⟨⟨rfl, rfl⟩, _, h⟩ | ⟨⟨rfl, rfl⟩, _, h⟩ |
      ⟨⟨rfl, rfl⟩, _, h⟩
    · refine ⟨by simp only; omega, ?_, fun e => by rw [hd'] at e; cases e⟩
      rw [isAccessible_iff] at h ⊢
      exact ⟨h.1, h.2.1, h.2.2.1, Or.inl (by simp)⟩
    · refine ⟨by simp only; omega, ?_, fun e => by rw [hd'] at e; cases e⟩
      rw [isAccessible_iff] at h ⊢
      exact ⟨h.1, h.2.1, h.2.2.1, Or.inl (by simp)⟩
    · refine ⟨by simp only; omega, ?_, fun e => by rw [hd'] at e; cases e⟩
      rw [isAccessible_iff] at h ⊢
      exact ⟨h.1, h.2.1, h.2.2.1, Or.inl (by simp)⟩
    · refine ⟨by simp only; omega, ?_, fun e => by rw [hd'] at e; cases e⟩
      rw [isAccessible_iff] at h ⊢
      exact ⟨h.1, h.2.1, h.2.2.1, Or.inl (by simp)⟩
    · exact ⟨by simp only; omega, h, fun e => by rw [hd'] at e; cases e⟩
    · exact ⟨by simp only; omega, h, fun e => by rw [hd'] at e; cases e⟩
    · exact ⟨by simp only; omega, h, fun e => by rw [hd'] at e; cases e⟩
    · exact ⟨by simp only; omega, h, fun e => by rw [hd'] at e; cases e⟩

end Board

namespace AlgorithmBase

variable {E : Type}

/-- In a state with the invariant whose parent links decrease a rank, a solution the loop of
`storeSolution` has stored from the empty one is a valid path. -/
theorem Tidy.validPath {b0 : Board E} {d cc : Bool} {s' : Algorithm E}
    (ht : Tidy b0 d cc s') (hw : b0.WellFormed)
    (hrk : ∃ rk : Coordinate → Nat,
      ∀ c p, (s'.m_board.m_nodes c).parent = some p → rk p < rk c)
    (hfree : (b0.m_nodes b0.m_goal).obstacle = false) (fuel : Nat)
    (hl : storeSolutionLoop s'.m_board fuel (getGoalNode s') [] = some s'.solution) :
    s'.m_diagonals = d ∧ s'.m_cutCorners = cc ∧ ValidPath s' := by
  obtain ⟨rk, hrk⟩ := hrk
  obtain ⟨h1, h2, h3⟩ := ht.solution_path hw rk hrk hfree fuel hl
  refine ⟨ht.diag, ht.cut, List.Chain'.imp (fun a b hab => ?_) h1, fun c hc => ?_, h3⟩
  · obtain ⟨hn, hv⟩ := hab
    have hwx : s'.m_board.WellFormed := ht.grid.wellFormed hw
    have hn' : a ∈ s'.m_board.getNeighbors b [] s'.m_diagonals s'.m_cutCorners := by
      rw [ht.nbs]; exact hn
    obtain ⟨e1, e2, e3⟩ := Board.mem_getNeighbors_adjacent s'.m_board hwx b a _ _
      (by rw [ht.grid.isValidNode]; exact hv) hn'
    exact ⟨hn', e2, by rw [cheb_comm]; exact e1, fun hd => by
      rw [manhattan_comm]; exact e3 hd⟩
  · obtain ⟨e1, e2⟩ := h2 c hc
    have e3 : s'.m_board.isValidNode c = true := by rw [ht.grid.isValidNode]; exact e1
    refine ⟨e3, ?_⟩
    show (s'.m_board.isValidNode c && (s'.m_board.m_nodes c).obstacle) = false
    rw [(ht.grid.2.2.2 c).1, e2, Bool.and_false]

end AlgorithmBase

/-! ## Theorems: a reachable goal is found -/

namespace AlgorithmBase

variable {E : Type}

/-- With the invariant of the exploration, every node reachable from the start is opened
when the frontier is empty. -/
theorem Explore.explore_opened_of_reach {b0 : Board E} {d cc : Bool} {s : Algorithm E}
    (h : Explore b0 d cc s) (he : s.m_openNodes = []) (c : Coordinate)
    (hr : b0.Reach d cc b0.m_start c) : (s.m_board.m_nodes c).opened = true := by
  induction hr with
  | refl => exact h.start
  | @tail x y _ hstep ih =>
    exact h.done x ih (by rw [he]; exact List.not_mem_nil x) y hstep

/-- The invariant at the start of the expansion of `node`, in a state with the board of `s`
whose frontier holds the nodes of the frontier of `s` other than `node`. -/
theorem Explore.enter {b0 : Board E} {d cc : Bool} {s x : Algorithm E}
    (h : Explore b0 d cc s) (node : Coordinate) (hb : x.m_board = s.m_board)
    (hfr : ∀ c, c ∈ s.m_openNodes → c ∈ x.m_openNodes ∨ c = node) :
    ExploreLoop b0 d cc node (b0.getNeighbors node [] d cc) x := by
  refine ⟨fun n hn => hn, by rw [hb]; exact h.start, by rw [hb]; exact h.goal, ?_,
    fun n hn => Or.inl hn⟩
  intro c hc hcf hcn n hn
  rw [hb] at hc ⊢
  refine h.done c hc (fun hm => ?_) n hn
  rcases hfr c hm with h1 | h1
  · exact hcf h1
  · exact hcn h1

/-- The loop passes a neighbor that is opened. -/
theorem ExploreLoop.skip {b0 : Board E} {d cc : Bool} {node n : Coordinate}
    {rem : List Coordinate} {x : Algorithm E} (h : ExploreLoop b0 d cc node (n :: rem) x)
    (ho : (x.m_board.m_nodes n).opened = true) : ExploreLoop b0 d cc node rem x := by
  refine ⟨fun m hm => h.rem_nbs m (List.mem_cons_of_mem _ hm), h.start, h.goal, h.done,
    fun m hm => ?_⟩
  rcases h.progress m hm with h1 | h1
  · rcases List.mem_cons.1 h1 with rfl | h1
    · exact Or.inr ho
    · exact Or.inl h1
  · exact Or.inr h1

/-- The loop opens a neighbor that is not the goal. -/
theorem ExploreLoop.push {b0 : Board E} {d cc : Bool} {node n : Coordinate}
    {rem : List Coordinate} {x : Algorithm E} (h : ExploreLoop b0 d cc node (n :: rem) x)
    (hg : n ≠ b0.m_goal) : ExploreLoop b0 d cc node rem (pushOpen x n (some node)) := by
  refine ⟨fun m hm => h.rem_nbs m (List.mem_cons_of_mem _ hm),
    pushOpen_opened_of_opened _ _ _ _ h.start, ?_, ?_, fun m hm => ?_⟩
  · rw [pushOpen_m_nodes_of_ne _ _ _ _ (Ne.symm hg)]
    exact h.goal
  · intro c hc hcf hcn m hm
    have hcn' : c ≠ n := by
      intro e
      apply hcf
      rw [pushOpen_m_openNodes, e]
      simp
    rw [pushOpen_m_nodes_of_ne _ _ _ _ hcn'] at hc
    refine pushOpen_opened_of_opened _ _ _ _ (h.done c hc (fun hmem => hcf ?_) hcn m hm)
    rw [pushOpen_m_openNodes]
    exact List.mem_append_left _ hmem
  · rcases h.progress m hm with h1 | h1
    · rcases List.mem_cons.1 h1 with rfl | h1
      · exact Or.inr (by simp)
      · exact Or.inl h1
    · exact Or.inr (pushOpen_opened_of_opened _ _ _ _ h1)

/-- The invariant when the loop has visited every neighbor. -/
theorem ExploreLoop.explore_finish {b0 : Board E} {d cc : Bool} {node : Coordinate}
    {x : Algorithm E} (h : ExploreLoop b0 d cc node [] x) : Explore b0 d cc x := by
  refine ⟨h.start, h.goal, fun c hc hcf n hn => ?_⟩
  by_cases hcn : c = node
  · subst hcn
    rcases h.progress n hn with h1 | h1
    · cases h1
    · exact h1
  · exact h.done c hc hcf hcn n hn

/-- The invariants of the exploration do not depend on the derived fields of the nodes. -/
theorem ExploreLoop.loop_extOnly {b0 : Board E} {d cc : Bool} {node : Coordinate}
    {rem : List Coordinate} {x y : Algorithm E} (h : ExploreLoop b0 d cc node rem x)
    (hxy : ExtOnly x y) : ExploreLoop b0 d cc node rem y := by
  obtain ⟨_, _, _, _, _, _, hf, _, _, _, hn⟩ := hxy
  refine ⟨h.rem_nbs, by rw [(hn _).2.2.2]; exact h.start, by rw [(hn _).2.2.2]; exact h.goal,
    ?_, fun m hm => ?_⟩
  · intro c hc hcf hcn m hm
    rw [(hn _).2.2.2] at hc ⊢
    rw [hf] at hcf
    exact h.done c hc hcf hcn m hm
  · rw [(hn _).2.2.2]
    exact h.progress m hm

/-- The position test of `checkGoal` on a neighbor that has just been opened, in a state
with the invariant of the run: it is the test whether the neighbor is the goal. -/
theorem Tidy.push_ne_goal {b0 : Board E} {d cc : Bool} {x : Algorithm E}
    (ht : Tidy b0 d cc x) (hw : b0.WellFormed) {node n : Coordinate}
    (hn : n ∈ b0.getNeighbors node [] d cc)
    (hg : ((pushOpen x n (some node)).m_board.m_nodes n).position ≠
      getGoal (pushOpen x n (some node))) : n ≠ b0.m_goal := by
  intro e
  apply hg
  rw [pushOpen_m_nodes_same, pushOpen_getGoal]
  show (x.m_board.m_nodes n).position = x.m_board.m_goal
  rw [(ht.grid.2.2.2 n).2, hw n (Board.isValidNode_of_mem_getNeighbors _ _ _ _ _ hn),
    ht.grid.2.2.1]
  exact e

end AlgorithmBase

namespace BreadthFirstSearch

open AlgorithmBase

/-- Rule for the neighbor loop that follows the neighbors yet to be visited, for a loop
that returns false: `J rem x` is a property of the state `x` in which `rem` is still to be
visited. -/
theorem bfs_nextStepLoop_visit (fuel : Nat) (node : Coordinate)
    (J : List Coordinate → State → Prop)
    (hopened : ∀ n rem x, J (n :: rem) x → (x.m_board.m_nodes n).opened = true → J rem x)
    (hnew : ∀ n rem x, J (n :: rem) x → (x.m_board.m_nodes n).opened = false →
      ((pushOpen x n (some node)).m_board.m_nodes n).position ≠
        getGoal (pushOpen x n (some node)) →
      J rem (pushOpen x n (some node))) :
    ∀ (nbs : List Coordinate) (s : State), J nbs s →
      ∀ s', nextStepLoop fuel node nbs s = some (false, s') → J [] s' := by
  intro nbs
  induction nbs with
  | nil =>
    intro s hs s' h
    simp only [nextStepLoop, Option.some.injEq, Prod.mk.injEq, true_and] at h
    exact h ▸ hs
  | cons n rest ih =>
    intro s hs s' h
    rw [nextStepLoop] at h
    by_cases ho : (s.m_board.m_nodes n).opened = true
    · rw [if_pos ho] at h
      exact ih s (hopened n rest s hs ho) s' h
    · rw [if_neg ho] at h
      have ho' : (s.m_board.m_nodes n).opened = false := by simpa using ho
      simp only [bfs_openNode_eq, checkGoal_eq] at h
      by_cases hg : ((pushOpen s n (some node)).m_board.m_nodes n).position =
          getGoal (pushOpen s n (some node))
      · rw [if_pos hg] at h
        cases hst : storeSolution fuel (pushOpen s n (some node)) with
        | none => rw [hst] at h; cases h
        | some r => rw [hst] at h; cases h
      · rw [if_neg hg] at h
        exact ih _ (hnew n rest s hs ho' hg) s' h

/-- A call of `nextStep` that returns false keeps the invariant of the exploration. -/
theorem bfs_nextStep_explore (b0 : Board Unit) (hw : b0.WellFormed) (d cc : Bool)
    (fuel : Nat) (s : State) (ht : Tidy b0 d cc s) (he : Explore b0 d cc s) (s' : State)
    (h : nextStep fuel s = some (false, s')) : Explore b0 d cc s' := by
  cases hf : s.m_openNodes with
  | nil =>
    rw [bfs_nextStep_nil fuel s hf] at h
    cases h
  | cons node rest =>
    have hnd : (node :: rest).Nodup := hf ▸ ht.front_nodup
    rw [bfs_nextStep_cons fuel s node rest hf] at h
    split at h
    · cases hst : storeSolution fuel
          { s with nodesClosed := s.nodesClosed + 1, m_openNodes := rest } with
      | none => rw [hst] at h; cases h
      | some r => rw [hst] at h; cases h
    · rw [ht.nbs] at h
      have h0 : Tidy b0 d cc { s with nodesClosed := s.nodesClosed + 1, m_openNodes := rest } :=
        ht.tidy_pop rest (fun c hc => by rw [hf]; exact List.mem_cons_of_mem _ hc)
          (List.nodup_cons.1 hnd).2 (by rw [hf]; rfl)
      have hJ := bfs_nextStepLoop_visit fuel node
        (fun rem x => (Tidy b0 d cc x ∧ (x.m_board.m_nodes node).opened = true) ∧
          ExploreLoop b0 d cc node rem x)
        (fun n rem x hx ho => ⟨hx.1, hx.2.skip ho⟩)
        (fun n rem x hx ho hg =>
          have hn := hx.2.rem_nbs n (List.mem_cons_self _ _)
          ⟨⟨hx.1.1.tidy_push hx.1.2 hn ho, pushOpen_opened_of_opened _ _ _ _ hx.1.2⟩,
            hx.2.push (hx.1.1.push_ne_goal hw hn hg)⟩)
        _ _ ⟨⟨h0, ht.front_opened node (by rw [hf]; exact List.mem_cons_self _ _)⟩,
          he.enter node rfl (fun c hc => by
            rw [hf] at hc
            rcases List.mem_cons.1 hc with h1 | h1
            · exact Or.inr h1
            · exact Or.inl h1)⟩ s' h
      exact hJ.2.explore_finish

end BreadthFirstSearch

namespace AlgorithmBase

variable {E : Type}

/-- Taking `node` off the frontier when every neighbor of it has been visited. -/
theorem ExploreLoop.explore_pop {b0 : Board E} {d cc : Bool} {node : Coordinate} {x : Algorithm E}
    (h : ExploreLoop b0 d cc node [] x) (rest : List Coordinate)
    (hf : x.m_openNodes = rest ++ [node]) :
    Explore b0 d cc { x with nodesClosed := x.nodesClosed + 1, m_openNodes := rest } := by
  refine ⟨h.start, h.goal, fun c hc hcf n hn => ?_⟩
  by_cases hcn : c = node
  · subst hcn
    rcases h.progress n hn with h1 | h1
    · cases h1
    · exact h1
  · refine h.done c hc (fun hm => ?_) hcn n hn
    rw [hf, List.mem_append, List.mem_singleton] at hm
    rcases hm with h1 | h1
    · exact hcf h1
    · exact hcn h1

end AlgorithmBase

namespace DepthFirstSearch

open AlgorithmBase

/-- Rule for the neighbor loop that follows the neighbors yet to be visited, for a loop
that returns false; the property also depends on the variable `changes`. -/
theorem dfs_nextStepLoop_visit (fuel : Nat) (node : Coordinate)
    (J : List Coordinate → Bool → State → Prop)
    (hopened : ∀ n rem ch x, J (n :: rem) ch x → (x.m_board.m_nodes n).opened = true →
      J rem ch x)
    (hnew : ∀ n rem ch x, J (n :: rem) ch x → (x.m_board.m_nodes n).opened = false →
      ((pushOpen x n (some node)).m_board.m_nodes n).position ≠
        getGoal (pushOpen x n (some node)) →
      J rem true (pushOpen x n (some node))) :
    ∀ (nbs : List Coordinate) (ch : Bool) (s : State), J nbs ch s →
      ∀ ch' s', nextStepLoop fuel node nbs ch s = some (false, ch', s') → J [] ch' s' := by
  intro nbs
  induction nbs with
  | nil =>
    intro ch s hs ch' s' h
    simp only [nextStepLoop, Option.some.injEq, Prod.mk.injEq, true_and] at h
    obtain ⟨h1, h2⟩ := h
    subst h1 h2
    exact hs
  | cons n rest ih =>
    intro ch s hs ch' s' h
    rw [nextStepLoop] at h
    by_cases ho : (s.m_board.m_nodes n).opened = true
    · rw [if_pos ho] at h
      exact ih ch s (hopened n rest ch s hs ho) ch' s' h
    · rw [if_neg ho] at h
      have ho' : (s.m_board.m_nodes n).opened = false := by simpa using ho
      simp only [dfs_openNode_eq, checkGoal_eq] at h
      by_cases hg : ((pushOpen s n (some node)).m_board.m_nodes n).position =
          getGoal (pushOpen s n (some node))
      · rw [if_pos hg] at h
        cases hst : storeSolution fuel (pushOpen s n (some node)) with
        | none => rw [hst] at h; cases h
        | some r => rw [hst] at h; cases h
      · rw [if_neg hg] at h
        exact ih true _ (hnew n rest ch s hs ho' hg) ch' s' h

/-- A call of `nextStep` that returns false keeps the invariant of the exploration. -/
theorem dfs_nextStep_explore (b0 : Board Unit) (hw : b0.WellFormed) (d cc : Bool)
    (fuel : Nat) (s : State) (ht : Tidy b0 d cc s) (he : Explore b0 d cc s) (s' : State)
    (h : nextStep fuel s = some (false, s')) : Explore b0 d cc s' := by
  by_cases hf : s.m_openNodes = []
  · rw [dfs_nextStep_nil fuel s hf] at h
    cases h
  · obtain ⟨rest, node, hl⟩ := exists_concat_of_ne_nil _ hf
    rw [dfs_nextStep_concat fuel s node rest hl] at h
    by_cases hg : (s.m_board.m_nodes node).position = s.m_board.m_goal
    · rw [if_pos hg] at h
      cases hst : storeSolution fuel s with
      | none => rw [hst] at h; cases h
      | some r => rw [hst] at h; cases h
    · rw [if_neg hg, ht.nbs] at h
      have hJ := dfs_nextStepLoop_visit fuel node
        (fun rem ch x => (Tidy b0 d cc x ∧ (x.m_board.m_nodes node).opened = true) ∧
          ExploreLoop b0 d cc node rem x ∧ (ch = false → x.m_openNodes = rest ++ [node]))
        (fun n rem ch x hx ho => ⟨hx.1, hx.2.1.skip ho, hx.2.2⟩)
        (fun n rem ch x hx ho hg =>
          have hn := hx.2.1.rem_nbs n (List.mem_cons_self _ _)
          ⟨⟨hx.1.1.tidy_push hx.1.2 hn ho, pushOpen_opened_of_opened _ _ _ _ hx.1.2⟩,
            hx.2.1.push (hx.1.1.push_ne_goal hw hn hg), fun e => by cases e⟩)
        (b0.getNeighbors node [] d cc) false s
        ⟨⟨ht, ht.front_opened node (by rw [hl]; simp)⟩,
          he.enter node rfl (fun c hc => Or.inl hc), fun _ => hl⟩
      cases hlp : nextStepLoop fuel node (b0.getNeighbors node [] d cc) false s with
      | none => rw [hlp] at h; cases h
      | some r =>
        obtain ⟨b, ch, s2⟩ := r
        rw [hlp] at h
        cases b
        · have hJ2 := hJ ch s2 hlp
          cases ch
          · have hfr := hJ2.2.2 rfl
            have hx : s2.m_openNodes.getLast? = some node := by simp [hfr]
            have hd : s2.m_openNodes.dropLast = rest := by simp [hfr]
            simp only [closeNode, hx, hd, Bool.not_false, if_true, Option.some.injEq,
              Prod.mk.injEq, true_and] at h
            subst h
            exact hJ2.2.1.explore_pop rest hfr
          · simp only [Bool.not_true, Bool.false_eq_true, if_false, Option.some.injEq,
              Prod.mk.injEq, true_and] at h
            subst h
            exact hJ2.2.1.explore_finish
        · simp at h

end DepthFirstSearch

namespace BestFirstSearch

open AlgorithmBase

variable {α : Type}

/-- Rule for the neighbor loop that follows the neighbors yet to be visited, for a loop
that returns false. -/
theorem bestFirst_nextStepLoop_visit (A : Env α) (fuel : Nat) (node : Coordinate)
    (J : List Coordinate → State α → Prop)
    (hopened : ∀ n rem x, J (n :: rem) x → (x.m_board.m_nodes n).opened = true → J rem x)
    (hnew : ∀ n rem x, J (n :: rem) x → (x.m_board.m_nodes n).opened = false →
      ((openNode A x n (some node)).m_board.m_nodes n).position ≠
        getGoal (openNode A x n (some node)) →
      J rem (openNode A x n (some node))) :
    ∀ (nbs : List Coordinate) (s : State α), J nbs s →
      ∀ s', nextStepLoop A fuel node nbs s = some (false, s') → J [] s' := by
  intro nbs
  induction nbs with
  | nil =>
    intro s hs s' h
    simp only [nextStepLoop, Option.some.injEq, Prod.mk.injEq, true_and] at h
    exact h ▸ hs
  | cons n rest ih =>
    intro s hs s' h
    rw [nextStepLoop] at h
    by_cases ho : (s.m_board.m_nodes n).opened = true
    · rw [if_pos ho] at h
      exact ih s (hopened n rest s hs ho) s' h
    · rw [if_neg ho] at h
      have ho' : (s.m_board.m_nodes n).opened = false := by simpa using ho
      simp only [checkGoal_eq] at h
      by_cases hg : ((openNode A s n (some node)).m_board.m_nodes n).position =
          getGoal (openNode A s n (some node))
      · rw [if_pos hg] at h
        cases hst : storeSolution fuel (openNode A s n (some node)) with
        | none => rw [hst] at h; cases h
        | some r => rw [hst] at h; cases h
      · rw [if_neg hg] at h
        exact ih _ (hnew n rest s hs ho' hg) s' h

/-- A call of `nextStep` that returns false keeps the invariant of the exploration. -/
theorem bestFirst_nextStep_explore (A : Env α) (hA : A.SortPermutes) (b0 : Board (Ext α))
    (hw : b0.WellFormed) (d cc : Bool) (fuel : Nat) (s : State α) (ht : Tidy b0 d cc s)
    (he : Explore b0 d cc s) (s' : State α) (h : nextStep A fuel s = some (false, s')) :
    Explore b0 d cc s' := by
  by_cases hf : s.m_openNodes = []
  · rw [bestFirst_nextStep_nil A fuel s hf] at h
    cases h
  · have hperm := hA (compare A s.m_board) s.m_openNodes
    have hne2 : A.sort (compare A s.m_board) s.m_openNodes ≠ [] := by
      intro h
      rw [h] at hperm
      exact hf (List.Perm.eq_nil hperm.symm)
    obtain ⟨rest, node, hl⟩ := exists_concat_of_ne_nil _ hne2
    have hp : (rest ++ [node]).Perm s.m_openNodes := hl ▸ hperm
    have hnd : (rest ++ [node]).Nodup := hp.nodup_iff.2 ht.front_nodup
    rw [bestFirst_nextStep_concat A fuel s node rest hl hf] at h
    by_cases hg : (s.m_board.m_nodes node).position = s.m_board.m_goal
    · rw [if_pos hg] at h
      cases hst : storeSolution fuel
          { s with nodesClosed := s.nodesClosed + 1, m_openNodes := rest } with
      | none => rw [hst] at h; cases h
      | some r => rw [hst] at h; cases h
    · rw [if_neg hg, ht.nbs] at h
      have h0 : Tidy b0 d cc { s with nodesClosed := s.nodesClosed + 1, m_openNodes := rest } :=
        ht.tidy_pop rest (fun c hc => hp.subset (List.mem_append_left _ hc))
          (List.Nodup.of_append_left hnd) (by rw [← hp.length_eq]; simp)
      have hJ := bestFirst_nextStepLoop_visit A fuel node
        (fun rem x => (Tidy b0 d cc x ∧ (x.m_board.m_nodes node).opened = true) ∧
          ExploreLoop b0 d cc node rem x)
        (fun n rem x hx ho => ⟨hx.1, hx.2.skip ho⟩)
        (fun n rem x hx ho hg => by
          have hn := hx.2.rem_nbs n (List.mem_cons_self _ _)
          have hxy := bestFirst_openNode_extOnly A x n (some node)
          have hg' : ((pushOpen x n (some node)).m_board.m_nodes n).position ≠
              getGoal (pushOpen x n (some node)) := by
            intro e
            apply hg
            rw [(hxy.2.2.2.2.2.2.2.2.2.2 n).2.1]
            exact e.trans hxy.2.2.2.2.2.2.2.2.2.1.symm
          exact ⟨⟨(hx.1.1.tidy_push hx.1.2 hn ho).tidy_extOnly hxy, by
            rw [(hxy.2.2.2.2.2.2.2.2.2.2 node).2.2.2]
            exact pushOpen_opened_of_opened _ _ _ _ hx.1.2⟩,
            (hx.2.push (hx.1.1.push_ne_goal hw hn hg')).loop_extOnly hxy⟩)
        _ _ ⟨⟨h0, ht.front_opened node (hp.subset (by simp))⟩,
          he.enter node rfl (fun c hc => by
            have := hp.symm.subset hc
            rw [List.mem_append, List.mem_singleton] at this
            exact this)⟩ s' h
      exact hJ.2.explore_finish

end BestFirstSearch

namespace AlgorithmBase

variable {E : Type}

/-- The invariant of the exploration holds after `init` when the goal is in bounds and is
not the start. -/
theorem init_explore {d cc : Bool} {s0 s1 : Algorithm E} (ht : Tidy s0.m_board d cc s1)
    (hpost : InitPost s0 s1) (hvg : s0.m_board.isValidNode s0.m_board.m_goal = true)
    (hne : s0.m_board.m_start ≠ s0.m_board.m_goal) : Explore s0.m_board d cc s1 := by
  obtain ⟨_, _, p3, p4, _, p6, _, _⟩ := hpost
  refine ⟨p4, (p6 _ hvg (Ne.symm hne)).1, fun c hc hcf n _ => ?_⟩
  have hv := (ht.opened_ok c hc).1
  by_cases hcs : c = s0.m_board.m_start
  · exfalso
    apply hcf
    rw [p3, hcs]
    exact List.mem_singleton_self _
  · rw [(p6 c hv hcs).1] at hc
    cases hc

/-- A run in which every call keeps the invariants while it returns false, and leaves a
solution from the goal to the start when it returns true on a non-empty frontier: with a
reachable goal, `complete` returns with a non-empty solution. -/
theorem run_found (step : Algorithm E → Option (Bool × Algorithm E)) (b0 : Board E)
    (d cc : Bool) (I : Algorithm E → Prop)
    (hfresh : ∀ s, I s → (s.m_openNodes = [] ∧ step s = some (true, s)) ∨
      (∃ s', step s = some (false, s') ∧ I s') ∨
      (s.m_openNodes ≠ [] ∧ ∃ s', step s = some (true, s') ∧
        GoalToStart b0.m_start b0.m_goal s'))
    (htidy : ∀ s b s', Tidy b0 d cc s → step s = some (b, s') → Tidy b0 d cc s')
    (hexp : ∀ s s', Tidy b0 d cc s → Explore b0 d cc s → step s = some (false, s') →
      Explore b0 d cc s')
    (hmeas : ∀ s s', step s = some (false, s') → stepMeasure s' < stepMeasure s)
    (hreach : b0.Reach d cc b0.m_start b0.m_goal)
    (s1 : Algorithm E) (h1 : I s1) (h2 : Tidy b0 d cc s1) (h3 : Explore b0 d cc s1) :
    ∃ n s', n ≤ stepMeasure s1 ∧ complete step (n + 1) s1 = some s' ∧
      GoalToStart b0.m_start b0.m_goal s' := by
  obtain ⟨n, _, s', hn, _, _, hc, hP⟩ := run_search step stepMeasure
    (fun s => I s ∧ Tidy b0 d cc s ∧ Explore b0 d cc s)
    (GoalToStart b0.m_start b0.m_goal)
    (fun s hs => by
      rcases hfresh s hs.1 with ⟨he, _⟩ | ⟨s', h, hI⟩ | ⟨_, s', h, hg⟩
      · have := hs.2.2.explore_opened_of_reach he _ hreach
        rw [hs.2.2.goal] at this
        cases this
      · exact Or.inl ⟨s', h, ⟨hI, htidy s false s' hs.2.1 h, hexp s s' hs.2.1 hs.2.2 h⟩,
          hmeas s s' h⟩
      · exact Or.inr ⟨s', h, hg⟩)
    s1 ⟨h1, h2, h3⟩
  exact ⟨n, s', hn, hc, hP⟩

end AlgorithmBase

namespace BreadthFirstSearch

open AlgorithmBase

/-- Breadth-First finds a reachable goal: on an instance on which no run was started, with
start and goal in bounds, `init` followed by `complete` returns with a non-empty
solution. -/
theorem bfs_run_found (s0 : State) (hp : Pristine s0)
    (hfree : (s0.m_board.m_nodes s0.m_board.m_start).obstacle = false)
    (h : Heuristic) (d cc : Bool) (hvs : s0.m_board.isValidNode s0.m_board.m_start = true)
    (hvg : s0.m_board.isValidNode s0.m_board.m_goal = true) (fuel : Nat)
    (hfuel : s0.m_board.nodeCount < fuel)
    (hreach : s0.m_board.Reach d cc s0.m_board.m_start s0.m_board.m_goal) :
    ∃ s1 n s', init s0 h d cc = some s1 ∧ n ≤ 2 * s0.m_board.nodeCount ∧
      complete (nextStep fuel) (n + 1) s1 = some s' ∧ s'.solution ≠ [] := by
  by_cases hsg : s0.m_board.m_start = s0.m_board.m_goal
  · obtain ⟨s1, s', e1, e2, e3, _⟩ := bfs_start_goal s0 hp.2.1 hvs hsg h d cc fuel (by omega)
    exact ⟨s1, 0, s', e1, Nat.zero_le _, complete_of_stepsFalse _ 0 s1 s1 s' rfl e2,
      by rw [e3]; simp⟩
  · obtain ⟨s1, e1, e2, e3, e4⟩ := bfs_init_some s0 h d cc hvs
    obtain ⟨rk, hk⟩ := e4 hp
    have ht : Tidy s0.m_board d cc s1 := by
      have e1' := e1
      rw [bfs_init_eq, if_pos hvs] at e1'
      cases e1'
      exact init_tidy nodeInitOK_base _ hp h d cc hvs hfree _ (ExtOnly.ext_refl _)
    obtain ⟨n, s', c1, c2, c3⟩ := run_found (nextStep fuel) s0.m_board d cc
      (FreshInv s0.m_board d cc)
      (fun s hs => bfs_nextStep_fresh _ hp.2.1 hvs d cc fuel hfuel s hs)
      (fun s b s' hs hst => bfs_nextStep_tidy _ d cc fuel s hs b s' hst)
      (fun s s' hs he hst => bfs_nextStep_explore _ hp.2.1 d cc fuel s hs he s' hst)
      (bfs_nextStep_measure fuel) hreach s1 ⟨e2, rk, hk⟩ ht (init_explore ht e3 hvg hsg)
    have hm := stepMeasure_of_count hk e3.2.1 (by rw [e3.2.2.1]; rfl)
    rw [nodeCount_of_sameGrid e2.grid] at hm
    exact ⟨s1, n, s', e1, by omega, c2, c3.1⟩

end BreadthFirstSearch

namespace DepthFirstSearch

open AlgorithmBase

/-- Depth-First finds a reachable goal: on an instance on which no run was started, with
start and goal in bounds, `init` followed by `complete` returns with a non-empty
solution. -/
theorem dfs_run_found (s0 : State) (hp : Pristine s0)
    (hfree : (s0.m_board.m_nodes s0.m_board.m_start).obstacle = false)
    (h : Heuristic) (d cc : Bool) (hvs : s0.m_board.isValidNode s0.m_board.m_start = true)
    (hvg : s0.m_board.isValidNode s0.m_board.m_goal = true) (fuel : Nat)
    (hfuel : s0.m_board.nodeCount < fuel)
    (hreach : s0.m_board.Reach d cc s0.m_board.m_start s0.m_board.m_goal) :
    ∃ s1 n s', init s0 h d cc = some s1 ∧ n ≤ 2 * s0.m_board.nodeCount ∧
      complete (nextStep fuel) (n + 1) s1 = some s' ∧ s'.solution ≠ [] := by
  by_cases hsg : s0.m_board.m_start = s0.m_board.m_goal
  · obtain ⟨s1, s', e1, e2, e3, _⟩ := dfs_start_goal s0 hp.2.1 hvs hsg h d cc fuel (by omega)
    exact ⟨s1, 0, s', e1, Nat.zero_le _, complete_of_stepsFalse _ 0 s1 s1 s' rfl e2,
      by rw [e3]; simp⟩
  · obtain ⟨s1, e1, e2, e3, e4⟩ := dfs_init_some s0 h d cc hvs
    obtain ⟨rk, hk⟩ := e4 hp
    have ht : Tidy s0.m_board d cc s1 := by
      have e1' := e1
      rw [dfs_init_eq, if_pos hvs] at e1'
      cases e1'
      exact init_tidy nodeInitOK_base _ hp h d cc hvs hfree _ (ExtOnly.ext_refl _)
    obtain ⟨n, s', c1, c2, c3⟩ := run_found (nextStep fuel) s0.m_board d cc
      (FreshInv s0.m_board d cc)
      (fun s hs => dfs_nextStep_fresh _ hp.2.1 hvs d cc fuel hfuel s hs)
      (fun s b s' hs hst => dfs_nextStep_tidy _ d cc fuel s hs b s' hst)
      (fun s s' hs he hst => dfs_nextStep_explore _ hp.2.1 d cc fuel s hs he s' hst)
      (dfs_nextStep_measure fuel) hreach s1 ⟨e2, rk, hk⟩ ht (init_explore ht e3 hvg hsg)
    have hm := stepMeasure_of_count hk e3.2.1 (by rw [e3.2.2.1]; rfl)
    rw [nodeCount_of_sameGrid e2.grid] at hm
    exact ⟨s1, n, s', e1, by omega, c2, c3.1⟩

end DepthFirstSearch

namespace BestFirstSearch

open AlgorithmBase

variable {α : Type}

/-- Best-First finds a reachable goal: on an instance on which no run was started, with
start and goal in bounds, `init` followed by `complete` returns with a non-empty
solution. -/
theorem bestFirst_run_found (A : Env α) (hA : A.SortPermutes) (s0 : State α)
    (hp : Pristine s0) (hfree : (s0.m_board.m_nodes s0.m_board.m_start).obstacle = false)
    (h : Heuristic) (d cc : Bool) (hvs : s0.m_board.isValidNode s0.m_board.m_start = true)
    (hvg : s0.m_board.isValidNode s0.m_board.m_goal = true) (fuel : Nat)
    (hfuel : s0.m_board.nodeCount < fuel)
    (hreach : s0.m_board.Reach d cc s0.m_board.m_start s0.m_board.m_goal) :
    ∃ s1 n s', init A s0 h d cc = some s1 ∧ n ≤ 2 * s0.m_board.nodeCount ∧
      complete (nextStep A fuel) (n + 1) s1 = some s' ∧ s'.solution ≠ [] := by
  by_cases hsg : s0.m_board.m_start = s0.m_board.m_goal
  · obtain ⟨s1, s', e1, e2, e3, _⟩ := bestFirst_start_goal A hA s0 hp.2.1 hvs hsg h d cc fuel
      (by omega)
    exact ⟨s1, 0, s', e1, Nat.zero_le _, complete_of_stepsFalse _ 0 s1 s1 s' rfl e2,
      by rw [e3]; simp⟩
  · obtain ⟨s1, e1, e2, e3, e4⟩ := bestFirst_init_some A s0 h d cc hvs
    obtain ⟨rk, hk⟩ := e4 hp
    have ht : Tidy s0.m_board d cc s1 := by
      have e1' := e1
      rw [bestFirst_init_eq, if_pos hvs] at e1'
      cases e1'
      exact init_tidy (bestFirst_nodeInitOK A) _ hp h d cc hvs hfree _
        (bestFirst_openNode_extOnly A _ _ _)
    obtain ⟨n, s', c1, c2, c3⟩ := run_found (nextStep A fuel) s0.m_board d cc
      (FreshInv s0.m_board d cc)
      (fun s hs => bestFirst_nextStep_fresh A hA _ hp.2.1 hvs d cc fuel hfuel s hs)
      (fun s b s' hs hst => bestFirst_nextStep_tidy A hA _ d cc fuel s hs b s' hst)
      (fun s s' hs he hst => bestFirst_nextStep_explore A hA _ hp.2.1 d cc fuel s hs he s' hst)
      (bestFirst_nextStep_measure A hA fuel) hreach s1 ⟨e2, rk, hk⟩ ht
      (init_explore ht e3 hvg hsg)
    have hm := stepMeasure_of_count hk e3.2.1 (by rw [e3.2.2.1]; rfl)
    rw [nodeCount_of_sameGrid e2.grid] at hm
    exact ⟨s1, n, s', e1, by omega, c2, c3.1⟩

end BestFirstSearch

namespace AStar

open AlgorithmBase

variable {α : Type}

/-- A* finds a reachable goal: on an instance on which no run was started, with start and
goal in bounds, `init` followed by `complete` returns with a non-empty solution. -/
theorem astar_run_found (A : Env α) (hA : A.SortPermutes) (s0 : State α)
    (hp : PristineA s0) (h : Heuristic) (d cc : Bool)
    (hvs : s0.m_board.isValidNode s0.m_board.m_start = true)
    (hvg : s0.m_board.isValidNode s0.m_board.m_goal = true) (fuel : Nat)
    (hfuel : s0.m_board.nodeCount < fuel)
    (hreach : s0.m_board.Reach d cc s0.m_board.m_start s0.m_board.m_goal) :
    ∃ s1 n s', init A s0 h d cc = some s1 ∧ n ≤ 2 * s0.m_board.nodeCount ∧
      complete (nextStep A fuel) (n + 1) s1 = some s' ∧ s'.solution ≠ [] := by
  by_cases hsg : s0.m_board.m_start = s0.m_board.m_goal
  · obtain ⟨s1, s', e1, e2, e3, _⟩ := astar_start_goal A hA s0 hp.1.2.1 hvs hsg h d cc fuel
      (by omega)
    exact ⟨s1, 0, s', e1, Nat.zero_le _, complete_of_stepsFalse _ 0 s1 s1 s' rfl e2,
      by rw [e3]; simp⟩
  · obtain ⟨s1, e1, n, s', c1, c2, c3⟩ := astar_run_search A hA s0 hp h d cc hvs hvg hsg fuel
      hfuel hreach
    obtain ⟨s1', e1', e2, e3, e4⟩ := astar_init_some A s0 h d cc hvs
    rw [e1] at e1'
    cases e1'
    obtain ⟨rk, hk⟩ := e4 hp
    have hm : stepMeasure s1 ≤ 2 * s1.m_board.nodeCount := by
      have := hk.count
      have h5 : s1.m_openNodes.length = 1 := by rw [e3.2.2.1]; rfl
      unfold stepMeasure
      rw [e3.2.1] at this
      omega
    rw [nodeCount_of_sameGrid e2.grid] at hm
    exact ⟨s1, n, s', e1, by omega, c2, c3.1.1⟩

end AStar

namespace AlgorithmBase

/-- A run that `complete` ends within `n` calls is ended by it within any larger number of
calls, in the same state. -/
theorem complete_mono {S : Type} (step : S → Option (Bool × S)) :
    ∀ n m s s', complete step n s = some s' → n ≤ m → complete step m s = some s' := by
  intro n
  induction n with
  | zero => intro m s s' h; cases h
  | succ n ih =>
    intro m s s' h hm
    obtain ⟨k, rfl⟩ : ∃ k, m = k + 1 := ⟨m - 1, by omega⟩
    rw [complete] at h ⊢
    cases hst : step s with
    | none => rw [hst] at h; cases h
    | some r =>
      obtain ⟨b, x⟩ := r
      rw [hst] at h
      cases b
      · exact ih k x s' h (by omega)
      · exact h

end AlgorithmBase

/-! ## Theorems: Breadth-First finds a path with the fewest moves -/

namespace AlgorithmBase

variable {E : Type}

/-- With the invariant of the levels, in a state in which every opened node that has a
neighbor not yet opened is of level `m` at least: the level of an opened node is at most the
number of moves of any walk from the start to it. -/
theorem Levels.shortest {b0 : Board E} {d cc : Bool} {lv : Coordinate → Nat} {m : Nat}
    {x : Algorithm E} (hl : Levels b0 d cc lv m x)
    (hfront : ∀ u v, (x.m_board.m_nodes u).opened = true → v ∈ b0.getNeighbors u [] d cc →
      (x.m_board.m_nodes v).opened = false → m ≤ lv u)
    (v : Coordinate) (hv : (x.m_board.m_nodes v).opened = true) (w : List Coordinate)
    (hw : IsWalk b0 d cc b0.m_start v w) : lv v + 1 ≤ w.length := by
  have key : ∀ (w : List Coordinate) (z : Coordinate), w.head? = some b0.m_start →
      w.getLast? = some z → w.Chain' (fun x y => y ∈ b0.getNeighbors x [] d cc) →
      ((x.m_board.m_nodes z).opened = true ∧ lv z + 1 ≤ w.length) ∨ m + 2 ≤ w.length := by
    intro w
    induction w using List.reverseRecOn with
    | nil => intro z h; cases h
    | append_singleton l a ih =>
      intro z hh hlast hch
      rw [List.getLast?_concat, Option.some.injEq] at hlast
      subst hlast
      cases hl0 : l.getLast? with
      | none =>
        have hnil : l = [] := List.getLast?_eq_none_iff.1 hl0
        subst hnil
        simp only [List.nil_append, List.head?_cons, Option.some.injEq] at hh
        subst hh
        left
        refine ⟨hl.start_opened, ?_⟩
        rw [hl.lv_start]
        simp
      | some z0 =>
        have hne : l ≠ [] := by
          intro e
          rw [e] at hl0
          cases hl0
        have hh' : l.head? = some b0.m_start := by
          cases l with
          | nil => exact absurd rfl hne
          | cons c t => simpa using hh
        rw [List.chain'_append] at hch
        obtain ⟨hc1, _, hc3⟩ := hch
        have hmove : a ∈ b0.getNeighbors z0 [] d cc := hc3 z0 hl0 a rfl
        rw [List.length_append, List.length_singleton]
        rcases ih z0 hh' hl0 hc1 with ⟨ho, hlen⟩ | hlen
        · cases hoa : (x.m_board.m_nodes a).opened with
          | true =>
            left
            refine ⟨rfl, ?_⟩
            have := hl.edge z0 a ho hoa hmove
            omega
          | false =>
            right
            have := hfront z0 a ho hmove hoa
            omega
        · right
          omega
  rcases key w v hw.1 hw.2.1 hw.2.2 with ⟨_, h⟩ | h
  · exact h
  · have := hl.all_le v hv
    omega

/-- The invariant of the levels when the first node of the queue is taken off it, `m`
becoming the level of that node. -/
theorem Levels.levels_pop {b0 : Board E} {d cc : Bool} {lv : Coordinate → Nat} {m : Nat}
    {s : Algorithm E} (hl : Levels b0 d cc lv m s) (node : Coordinate)
    (rest : List Coordinate) (hf : s.m_openNodes = node :: rest) :
    Levels b0 d cc lv (lv node)
      { s with nodesClosed := s.nodesClosed + 1, m_openNodes := rest } := by
  have hs := hl.sorted
  rw [hf, List.pairwise_cons] at hs
  have hnode := hl.front node (by rw [hf]; exact List.mem_cons_self _ _)
  refine ⟨hl.start_opened, hl.lv_start, hl.lv_parent, hl.edge, ?_, hs.2, ?_, ?_⟩
  · intro a ha
    have h1 := hs.1 a ha
    have h2 := hl.front a (by rw [hf]; exact List.mem_cons_of_mem _ ha)
    exact ⟨h1, by omega⟩
  · intro c hc
    have := hl.all_le c hc
    omega
  · intro c hc hcf
    by_cases hcn : c = node
    · rw [hcn]
    · have := hl.closed_le c hc (by
        rw [hf]
        intro hm
        rcases List.mem_cons.1 hm with h1 | h1
        · exact hcn h1
        · exact hcf h1)
      omega

/-- The invariant of the levels when an unopened neighbor of the node being expanded is
opened, in a state in which every other opened node that has left the queue has all its
neighbors opened: the neighbor gets the level `m + 1`. -/
theorem Levels.level_push {b0 : Board E} {d cc : Bool} {lv : Coordinate → Nat} {m : Nat}
    {x : Algorithm E} (hl : Levels b0 d cc lv m x) (ht : Tidy b0 d cc x)
    {node n : Coordinate} (hnode : (x.m_board.m_nodes node).opened = true)
    (hlv : lv node = m) (hn : n ∈ b0.getNeighbors node [] d cc)
    (ho : (x.m_board.m_nodes n).opened = false)
    (hdone : ∀ c, (x.m_board.m_nodes c).opened = true → c ∉ x.m_openNodes → c ≠ node →
      ∀ k ∈ b0.getNeighbors c [] d cc, (x.m_board.m_nodes k).opened = true) :
    Levels b0 d cc (Function.update lv n (m + 1)) m (pushOpen x n (some node)) ∧
      Function.update lv n (m + 1) node = m := by
  have hne : ∀ c, (x.m_board.m_nodes c).opened = true → c ≠ n := by
    intro c hc e
    rw [e, ho] at hc
    cases hc
  have hup : ∀ c, c ≠ n → Function.update lv n (m + 1) c = lv c :=
    fun c hc => Function.update_noteq hc _ _
  have hupn : Function.update lv n (m + 1) n = m + 1 := Function.update_same _ _ _
  have hold : ∀ c, c ≠ n → ((pushOpen x n (some node)).m_board.m_nodes c).opened = true →
      (x.m_board.m_nodes c).opened = true := by
    intro c hc h
    rw [pushOpen_m_nodes_of_ne _ _ _ _ hc] at h
    exact h
  have hge : ∀ u, (x.m_board.m_nodes u).opened = true → n ∈ b0.getNeighbors u [] d cc →
      m ≤ lv u := by
    intro u hu hnu
    by_cases hun : u = node
    · rw [hun, hlv]
    · by_cases huf : u ∈ x.m_openNodes
      · exact (hl.front u huf).1
      · have := hdone u hu huf hun n hnu
        rw [ho] at this
        cases this
  refine ⟨⟨pushOpen_opened_of_opened _ _ _ _ hl.start_opened, ?_, ?_, ?_, ?_, ?_, ?_, ?_⟩,
    ?_⟩
  · rw [hup _ (hne _ hl.start_opened)]
    exact hl.lv_start
  · intro c p hp
    by_cases hc : c = n
    · subst hc
      rw [pushOpen_m_nodes_same] at hp
      simp only [Option.some.injEq] at hp
      subst hp
      rw [hupn, hup _ (hne _ hnode), hlv]
    · rw [pushOpen_m_nodes_of_ne _ _ _ _ hc] at hp
      rw [hup c hc, hup p (hne p (ht.moves c p hp).1)]
      exact hl.lv_parent c p hp
  · intro u v hu hv huv
    by_cases hvn : v = n
    · subst hvn
      rw [hupn]
      by_cases hun : u = v
      · subst hun
        rw [hupn]
        omega
      · rw [hup u hun]
        have := hge u (hold u hun hu) huv
        omega
    · rw [hup v hvn]
      have hv' := hold v hvn hv
      by_cases hun : u = n
      · subst hun
        rw [hupn]
        have := hl.all_le v hv'
        omega
      · rw [hup u hun]
        exact hl.edge u v (hold u hun hu) hv' huv
  · intro a ha
    rw [pushOpen_m_openNodes, List.mem_append, List.mem_singleton] at ha
    rcases ha with ha | ha
    · rw [hup a (hne a (ht.front_opened a ha))]
      exact hl.front a ha
    · subst ha
      rw [hupn]
      omega
  · rw [pushOpen_m_openNodes, List.pairwise_append]
    refine ⟨?_, List.pairwise_singleton _ _, ?_⟩
    · refine hl.sorted.imp_of_mem ?_
      intro a b ha hb hab
      rw [hup a (hne a (ht.front_opened a ha)), hup b (hne b (ht.front_opened b hb))]
      exact hab
    · intro a ha b hb
      rw [List.mem_singleton] at hb
      subst hb
      rw [hupn, hup a (hne a (ht.front_opened a ha))]
      exact (hl.front a ha).2
  · intro c hc
    by_cases hcn : c = n
    · subst hcn
      rw [hupn]
    · rw [hup c hcn]
      exact hl.all_le c (hold c hcn hc)
  · intro c hc hcf
    rw [pushOpen_m_openNodes, List.mem_append, List.mem_singleton, not_or] at hcf
    rw [hup c hcf.2]
    exact hl.closed_le c (hold c hcf.2 hc) hcf.1
  · exact (hup _ (hne _ hnode)).trans hlv

/-- The neighbors of the opened nodes that have left the queue stay opened when a node is
opened. -/
theorem done_push {b0 : Board E} {d cc : Bool} {x : Algorithm E} {node n : Coordinate}
    (p : Option Coordinate)
    (hdone : ∀ c, (x.m_board.m_nodes c).opened = true → c ∉ x.m_openNodes → c ≠ node →
      ∀ k ∈ b0.getNeighbors c [] d cc, (x.m_board.m_nodes k).opened = true) :
    ∀ c, ((pushOpen x n p).m_board.m_nodes c).opened = true →
      c ∉ (pushOpen x n p).m_openNodes → c ≠ node →
      ∀ k ∈ b0.getNeighbors c [] d cc, ((pushOpen x n p).m_board.m_nodes k).opened = true := by
  intro c hc hcf hcn k hk
  rw [pushOpen_m_openNodes, List.mem_append, List.mem_singleton, not_or] at hcf
  rw [pushOpen_m_nodes_of_ne _ _ _ _ hcf.2] at hc
  exact pushOpen_opened_of_opened _ _ _ _ (hdone c hc hcf.1 hcn k hk)

/-- The number of coordinates the loop of `storeSolution` appends, started at a node of
level `lv c`: `lv c + 1`. -/
theorem storeSolutionLoop_depth (b : Board E) (G : Coordinate → Prop) (lv : Coordinate → Nat)
    (hpar : ∀ c p, G c → (b.m_nodes c).parent = some p → G p ∧ lv c = lv p + 1)
    (hroot : ∀ c, G c → (b.m_nodes c).parent = none → lv c = 0) :
    ∀ fuel c acc l, G c → storeSolutionLoop b fuel (some c) acc = some l →
      l.length = acc.length + lv c + 1 := by
  intro fuel
  induction fuel with
  | zero => intro c acc l _ h; cases h
  | succ fuel ih =>
    intro c acc l hc h
    rw [storeSolutionLoop] at h
    cases hp : (b.m_nodes c).parent with
    | none =>
      rw [hp] at h
      have h' : some (acc ++ [(b.m_nodes c).position]) = some l := by
        rw [← h]
        cases fuel <;> rfl
      cases h'
      rw [hroot c hc hp]
      simp
    | some p =>
      rw [hp] at h
      obtain ⟨hGp, hlv⟩ := hpar c p hc hp
      have := ih p _ l hGp h
      rw [this, hlv]
      simp
      omega

end AlgorithmBase

namespace AlgorithmBase

variable {E : Type}

theorem Levels.level_solution {b0 : Board E} {d cc : Bool} {lv : Coordinate → Nat} {m : Nat}
    {x : Algorithm E} (h : Levels b0 d cc lv m x) (l : List Coordinate) :
    Levels b0 d cc lv m { x with solution := l } :=
  ⟨h.start_opened, h.lv_start, h.lv_parent, h.edge, h.front, h.sorted, h.all_le, h.closed_le⟩

/-- The position test of `checkGoal` on a neighbor that has just been opened, in a state
with the invariant of the run, when it succeeds: the neighbor is the goal. -/
theorem Tidy.push_eq_goal {b0 : Board E} {d cc : Bool} {x : Algorithm E}
    (ht : Tidy b0 d cc x) (hw : b0.WellFormed) {node n : Coordinate}
    (hn : n ∈ b0.getNeighbors node [] d cc)
    (hg : ((pushOpen x n (some node)).m_board.m_nodes n).position =
      getGoal (pushOpen x n (some node))) : n = b0.m_goal := by
  rw [pushOpen_m_nodes_same, pushOpen_getGoal] at hg
  have hg' : (x.m_board.m_nodes n).position = x.m_board.m_goal := hg
  rw [(ht.grid.2.2.2 n).2, hw n (Board.isValidNode_of_mem_getNeighbors _ _ _ _ _ hn),
    ht.grid.2.2.1] at hg'
  exact hg'

end AlgorithmBase

namespace BreadthFirstSearch

open AlgorithmBase

/-- Rule for the neighbor loop that follows the neighbors yet to be visited: `J rem x` is a
property of the state `x` in which `rem` is still to be visited; when the goal is opened the
loop ends with `storeSolution` in a state with the property `Q`. -/
theorem bfs_nextStepLoop_search (fuel : Nat) (node : Coordinate)
    (J : List Coordinate → State → Prop) (Q : State → Prop)
    (hopened : ∀ n rem x, J (n :: rem) x → (x.m_board.m_nodes n).opened = true → J rem x)
    (hnew : ∀ n rem x, J (n :: rem) x → (x.m_board.m_nodes n).opened = false →
      ((pushOpen x n (some node)).m_board.m_nodes n).position ≠
        getGoal (pushOpen x n (some node)) →
      J rem (pushOpen x n (some node)))
    (hgoal : ∀ n rem x, J (n :: rem) x → (x.m_board.m_nodes n).opened = false →
      ((pushOpen x n (some node)).m_board.m_nodes n).position =
        getGoal (pushOpen x n (some node)) →
      Q (pushOpen x n (some node))) :
    ∀ (nbs : List Coordinate) (s : State), J nbs s →
      (∃ s', nextStepLoop fuel node nbs s = some (false, s') ∧ J [] s') ∨
      (∃ s1, Q s1 ∧
        nextStepLoop fuel node nbs s = (storeSolution fuel s1).map (fun r => (true, r))) := by
  intro nbs
  induction nbs with
  | nil => intro s hs; exact Or.inl ⟨s, rfl, hs⟩
  | cons n rest ih =>
    intro s hs
    rw [nextStepLoop]
    by_cases ho : (s.m_board.m_nodes n).opened = true
    · rw [if_pos ho]
      exact ih s (hopened n rest s hs ho)
    · rw [if_neg ho]
      have ho' : (s.m_board.m_nodes n).opened = false := by simpa using ho
      simp only [bfs_openNode_eq, checkGoal_eq]
      by_cases hg : ((pushOpen s n (some node)).m_board.m_nodes n).position =
          getGoal (pushOpen s n (some node))
      · rw [if_pos hg]
        refine Or.inr ⟨_, hgoal n rest s hs ho' hg, ?_⟩
        cases storeSolution fuel (pushOpen s n (some node)) <;> rfl
      · rw [if_neg hg]
        exact ih _ (hnew n rest s hs ho' hg)

/-- One call of `nextStep` in a run of Breadth-First that has not opened the goal: a call
that returns false keeps the invariant of the levels; a call that returns true has opened
the goal, and the level of every opened node is at most the number of moves of any walk
from the start to it. -/
theorem bfs_nextStep_levels (b0 : Board Unit) (hw : b0.WellFormed) (d cc : Bool)
    (fuel : Nat) (s : State) (ht : Tidy b0 d cc s) (he : Explore b0 d cc s)
    (hl : ∃ lv m, Levels b0 d cc lv m s) (b : Bool) (s' : State)
    (h : nextStep fuel s = some (b, s')) :
    (b = false → ∃ lv m, Levels b0 d cc lv m s') ∧
    (b = true → s.m_openNodes ≠ [] →
      (s'.m_board.m_nodes b0.m_goal).opened = true ∧
      ∃ lv m, Levels b0 d cc lv m s' ∧
        ∀ v, (s'.m_board.m_nodes v).opened = true → ∀ w, IsWalk b0 d cc b0.m_start v w →
          lv v + 1 ≤ w.length) := by
  cases hf : s.m_openNodes with
  | nil =>
    rw [bfs_nextStep_nil fuel s hf] at h
    cases h
    exact ⟨(fun hb => by cases hb), fun _ hne => absurd rfl hne⟩
  | cons node rest =>
    obtain ⟨lv0, m0, hl0⟩ := hl
    have hnd : (node :: rest).Nodup := hf ▸ ht.front_nodup
    have hon : (s.m_board.m_nodes node).opened = true :=
      ht.front_opened node (by rw [hf]; exact List.mem_cons_self _ _)
    have hg : ¬ (s.m_board.m_nodes node).position = s.m_board.m_goal := by
      intro e
      rw [(ht.grid.2.2.2 node).2, hw node (ht.opened_ok node hon).1, ht.grid.2.2.1] at e
      rw [e, he.goal] at hon
      cases hon
    rw [bfs_nextStep_cons fuel s node rest hf, if_neg hg, ht.nbs] at h
    have h0 : Tidy b0 d cc { s with nodesClosed := s.nodesClosed + 1, m_openNodes := rest } :=
      ht.tidy_pop rest (fun c hc => by rw [hf]; exact List.mem_cons_of_mem _ hc)
        (List.nodup_cons.1 hnd).2 (by rw [hf]; rfl)
    rcases bfs_nextStepLoop_search fuel node
        (fun rem x => (Tidy b0 d cc x ∧ (x.m_board.m_nodes node).opened = true) ∧
          ExploreLoop b0 d cc node rem x ∧ ∃ lv m, Levels b0 d cc lv m x ∧ lv node = m)
        (fun y => (y.m_board.m_nodes b0.m_goal).opened = true ∧
          ∃ lv m, Levels b0 d cc lv m y ∧
            ∀ v, (y.m_board.m_nodes v).opened = true → ∀ w, IsWalk b0 d cc b0.m_start v w →
              lv v + 1 ≤ w.length)
        (fun n rem x hx ho => ⟨hx.1, hx.2.1.skip ho, hx.2.2⟩)
        (fun n rem x hx ho hg => by
          have hn := hx.2.1.rem_nbs n (List.mem_cons_self _ _)
          obtain ⟨lv, m, hlx, hlv⟩ := hx.2.2
          obtain ⟨e1, e2⟩ := hlx.level_push hx.1.1 hx.1.2 hlv hn ho hx.2.1.done
          exact ⟨⟨hx.1.1.tidy_push hx.1.2 hn ho, pushOpen_opened_of_opened _ _ _ _ hx.1.2⟩,
            hx.2.1.push (hx.1.1.push_ne_goal hw hn hg), _, m, e1, e2⟩)
        (fun n rem x hx ho hg => by
          have hn := hx.2.1.rem_nbs n (List.mem_cons_self _ _)
          obtain ⟨lv, m, hlx, hlv⟩ := hx.2.2
          obtain ⟨e1, e2⟩ := hlx.level_push hx.1.1 hx.1.2 hlv hn ho hx.2.1.done
          have hng := hx.1.1.push_eq_goal hw hn hg
          refine ⟨by rw [← hng]; simp, _, m, e1, fun v hv w hwk => ?_⟩
          refine e1.shortest (fun u k hu hk hko => ?_) v hv w hwk
          by_cases hun : u = node
          · rw [hun, e2]
          · by_cases huf : u ∈ (pushOpen x n (some node)).m_openNodes
            · exact (e1.front u huf).1
            · have := done_push (some node) hx.2.1.done u hu huf hun k hk
              rw [hko] at this
              cases this)
        (b0.getNeighbors node [] d cc)
        { s with nodesClosed := s.nodesClosed + 1, m_openNodes := rest }
        ⟨⟨h0, hon⟩, he.enter node rfl (fun c hc => by
            rw [hf] at hc
            rcases List.mem_cons.1 hc with h1 | h1
            · exact Or.inr h1
            · exact Or.inl h1), lv0, lv0 node, hl0.levels_pop node rest hf, rfl⟩ with
      ⟨s2, h1, h2⟩ | ⟨y, h1, h2⟩
    · rw [h] at h1
      cases h1
      obtain ⟨lv, m, hlx, _⟩ := h2.2.2
      exact ⟨fun _ => ⟨lv, m, hlx⟩, fun hb => by cases hb⟩
    · rw [h] at h2
      cases hst : storeSolution fuel y with
      | none => rw [hst] at h2; cases h2
      | some r =>
        rw [hst] at h2
        cases h2
        refine ⟨(fun hb => by cases hb), fun _ _ => ?_⟩
        have hb : s'.m_board = y.m_board := storeSolution_m_board fuel y s' hst
        obtain ⟨g1, lv, m, g2, g3⟩ := h1
        refine ⟨by rw [hb]; exact g1, lv, m, ?_, fun v hv w hwk => g3 v (by rw [← hb]; exact hv)
          w hwk⟩
        rw [storeSolution_frame fuel y s' hst]
        exact g2.level_solution _

end BreadthFirstSearch

namespace AlgorithmBase

variable {E : Type}

/-- The invariant of the levels holds after `init`, every level being 0. -/
theorem init_levels {d cc : Bool} {s0 s1 : Algorithm E} (ht : Tidy s0.m_board d cc s1)
    (hk : Links s0.m_board d cc s1) (hpost : InitPost s0 s1) :
    Levels s0.m_board d cc (fun _ => 0) 0 s1 := by
  obtain ⟨_, _, _, p4, p5, p6, _, _⟩ := hpost
  refine ⟨p4, rfl, fun c p hp => ?_, fun _ _ _ _ _ => Nat.zero_le _,
    fun _ _ => ⟨le_refl _, Nat.zero_le _⟩, List.pairwise_of_forall (fun _ _ => le_refl _),
    fun _ _ => Nat.zero_le _, fun _ _ _ => le_refl _⟩
  exfalso
  cases ho : (s1.m_board.m_nodes c).opened with
  | false =>
    rw [hk.2 c ho] at hp
    cases hp
  | true =>
    by_cases hcs : c = s0.m_board.m_start
    · rw [hcs, p5] at hp
      cases hp
    · rw [(p6 c (ht.opened_ok c ho).1 hcs).1] at ho
      cases ho

/-- The number of coordinates of a solution the loop of `storeSolution` has stored from the
empty one, in a state with the invariants in which the goal is opened: the level of the goal
plus one. -/
theorem Levels.solution_length {b0 : Board E} {d cc : Bool} {lv : Coordinate → Nat} {m : Nat}
    {s' : Algorithm E} (hl : Levels b0 d cc lv m s') (ht : Tidy b0 d cc s')
    (hk : Links b0 d cc s') (hvg : b0.isValidNode b0.m_goal = true)
    (hog : (s'.m_board.m_nodes b0.m_goal).opened = true) (fuel : Nat)
    (hs : storeSolutionLoop s'.m_board fuel (getGoalNode s') [] = some s'.solution) :
    s'.solution.length = lv b0.m_goal + 1 := by
  have hgs : s'.m_board.m_goal = b0.m_goal := ht.grid.2.2.1
  have hgn : getGoalNode s' = some b0.m_goal := by
    unfold getGoalNode Board.getGoalNode
    rw [hgs, ht.grid.isValidNode, if_pos hvg]
  rw [hgn] at hs
  obtain ⟨⟨hr, rk, hc⟩, _⟩ := hk
  have := storeSolutionLoop_depth s'.m_board (fun c => (s'.m_board.m_nodes c).opened = true) lv
    (fun c p _ hp => ⟨(ht.moves c p hp).1, hl.lv_parent c p hp⟩)
    (fun c ho hp => by
      have e : c = s'.m_board.m_start := hc.root c ho hp
      have e2 : s'.m_board.m_start = b0.m_start := ht.grid.2.1
      rw [e, e2]
      exact hl.lv_start)
    fuel b0.m_goal [] s'.solution hog hs
  rw [this]
  simp

end AlgorithmBase

namespace BreadthFirstSearch

open AlgorithmBase

/-- Breadth-First finds a walk with the fewest moves: on an instance on which no run was
started, with start and goal in bounds and the goal reachable, `init` followed by `complete`
returns; the solution, read from its end, is a walk from the start to the goal, and no walk
from the start to the goal is shorter. -/
theorem bfs_run_shortest (s0 : State) (hp : Pristine s0)
    (hfs : (s0.m_board.m_nodes s0.m_board.m_start).obstacle = false)
    (hfg : (s0.m_board.m_nodes s0.m_board.m_goal).obstacle = false)
    (h : Heuristic) (d cc : Bool) (hvs : s0.m_board.isValidNode s0.m_board.m_start = true)
    (hvg : s0.m_board.isValidNode s0.m_board.m_goal = true) (fuel : Nat)
    (hfuel : s0.m_board.nodeCount < fuel)
    (hreach : s0.m_board.Reach d cc s0.m_board.m_start s0.m_board.m_goal) :
    ∃ s1 n s', init s0 h d cc = some s1 ∧ n ≤ 2 * s0.m_board.nodeCount ∧
      complete (nextStep fuel) (n + 1) s1 = some s' ∧
      IsWalk s0.m_board d cc s0.m_board.m_start s0.m_board.m_goal s'.solution.reverse ∧
      ∀ w, IsWalk s0.m_board d cc s0.m_board.m_start s0.m_board.m_goal w →
        s'.solution.length ≤ w.length := by
  by_cases hsg : s0.m_board.m_start = s0.m_board.m_goal
  · obtain ⟨s1, s', e1, e2, e3, _⟩ := bfs_start_goal s0 hp.2.1 hvs hsg h d cc fuel (by omega)
    refine ⟨s1, 0, s', e1, Nat.zero_le _, complete_of_stepsFalse _ 0 s1 s1 s' rfl e2, ?_, ?_⟩
    · rw [e3]
      exact ⟨rfl, by rw [← hsg]; rfl, List.chain'_singleton _⟩
    · intro w hwk
      rw [e3]
      cases w with
      | nil => cases hwk.1
      | cons a t => simp
  · obtain ⟨s1, e1, e2, e3, e4⟩ := bfs_init_some s0 h d cc hvs
    obtain ⟨rk, hk⟩ := e4 hp
    have e1' := e1
    rw [bfs_init_eq, if_pos hvs] at e1'
    cases e1'
    have ht : Tidy s0.m_board d cc (pushOpen (initBase NodeBase.init s0 h d cc)
        s0.m_board.m_start none) :=
      init_tidy nodeInitOK_base _ hp h d cc hvs hfs _ (ExtOnly.ext_refl _)
    have hlk : Links s0.m_board d cc (pushOpen (initBase NodeBase.init s0 h d cc)
        s0.m_board.m_start none) :=
      init_links nodeInitOK_base _ hp h d cc hvs _ (ExtOnly.ext_refl _)
    obtain ⟨n, s, s', c1, c2, c3, c4, c5⟩ := run_search (nextStep fuel) stepMeasure
      (fun s => FreshInv s0.m_board d cc s ∧ Tidy s0.m_board d cc s ∧
        Explore s0.m_board d cc s ∧ ∃ lv m, Levels s0.m_board d cc lv m s)
      (fun s' => GoalToStart s0.m_board.m_start s0.m_board.m_goal s' ∧
        (s'.m_board.m_nodes s0.m_board.m_goal).opened = true ∧
        ∃ lv m, Levels s0.m_board d cc lv m s' ∧
          ∀ v, (s'.m_board.m_nodes v).opened = true →
            ∀ w, IsWalk s0.m_board d cc s0.m_board.m_start v w → lv v + 1 ≤ w.length)
      (fun s hs => by
        rcases bfs_nextStep_fresh _ hp.2.1 hvs d cc fuel hfuel s hs.1 with
          ⟨he, _⟩ | ⟨s', hst, hI⟩ | ⟨hne, s', hst, hg⟩
        · have := hs.2.2.1.explore_opened_of_reach he _ hreach
          rw [hs.2.2.1.goal] at this
          cases this
        · exact Or.inl ⟨s', hst, ⟨hI, bfs_nextStep_tidy _ d cc fuel s hs.2.1 false s' hst,
            bfs_nextStep_explore _ hp.2.1 d cc fuel s hs.2.1 hs.2.2.1 s' hst,
            (bfs_nextStep_levels _ hp.2.1 d cc fuel s hs.2.1 hs.2.2.1 hs.2.2.2 false s'
              hst).1 rfl⟩, bfs_nextStep_measure fuel s s' hst⟩
        · exact Or.inr ⟨s', hst, hg,
            (bfs_nextStep_levels _ hp.2.1 d cc fuel s hs.2.1 hs.2.2.1 hs.2.2.2 true s'
              hst).2 rfl hne⟩)
      _ ⟨⟨e2, rk, hk⟩, ht, init_explore ht e3 hvg hsg, _, _, init_levels ht hlk e3⟩
    have hm := stepMeasure_of_count hk e3.2.1 (by rw [e3.2.2.1]; rfl)
    rw [nodeCount_of_sameGrid e2.grid] at hm
    refine ⟨_, n, s', e1, by omega, c4, ?_⟩
    obtain ⟨g1, g2, lv, m, g3, g4⟩ := c5
    obtain ⟨hr, hloop⟩ := complete_solution (nextStep fuel) fuel (bfs_nextStep_sol fuel)
      (fun s s' hf hst => by
        rw [bfs_nextStep_nil fuel s hf] at hst
        cases hst
        rfl) _ rfl (n + 1) s' c4 g1.1
    obtain ⟨ht', hlk'⟩ := Reachable.invariant (nextStep fuel)
      (fun s => Tidy s0.m_board d cc s ∧ Links s0.m_board d cc s)
      (fun s b s' hI hst => ⟨bfs_nextStep_tidy _ d cc fuel s hI.1 b s' hst,
        bfs_nextStep_links _ d cc fuel s hI.2 b s' hst⟩) _ s' ⟨ht, hlk⟩ hr
    obtain ⟨rk', hrk'⟩ := hlk'.rank
    obtain ⟨q1, _, _⟩ := ht'.solution_path hp.2.1 rk' hrk' hfg fuel hloop
    refine ⟨⟨?_, ?_, ?_⟩, fun w hwk => ?_⟩
    · rw [List.head?_reverse]
      exact g1.2.2
    · rw [List.getLast?_reverse]
      exact g1.2.1
    · rw [List.chain'_reverse]
      exact q1.imp (fun a b hab => hab.1)
    · rw [g3.solution_length ht' hlk' hvg g2 fuel hloop]
      exact g4 _ g2 w hwk

end BreadthFirstSearch

/-! ## Theorems: the costs of A* -/

namespace AStar

open AlgorithmBase

variable {α : Type}

/-- What `updateNode` does, by the outcome of its test: the neighbor gets the parent, the
`h` and the `g` computed, or the state is left as it is. -/
theorem astar_updateNode_cases (A : Env α) (s : State α) (n node : Coordinate) :
    (A.lt (A.add (distance A s.m_heuristic (s.m_board.m_nodes n).position s.m_board.getGoal)
        (A.add (s.m_board.m_nodes node).ext.g
          (distance A s.m_heuristic (s.m_board.m_nodes node).position
            (s.m_board.m_nodes n).position)))
        (A.add (s.m_board.m_nodes n).ext.h (s.m_board.m_nodes n).ext.g) = true ∧
      (updateNode A s n node).m_board.m_nodes n =
        { s.m_board.m_nodes n with
          parent := some node
          ext := { (s.m_board.m_nodes n).ext with
            h := distance A s.m_heuristic (s.m_board.m_nodes n).position s.m_board.getGoal
            g := A.add (s.m_board.m_nodes node).ext.g
              (distance A s.m_heuristic (s.m_board.m_nodes node).position
                (s.m_board.m_nodes n).position) } }) ∨
    (A.lt (A.add (distance A s.m_heuristic (s.m_board.m_nodes n).position s.m_board.getGoal)
        (A.add (s.m_board.m_nodes node).ext.g
          (distance A s.m_heuristic (s.m_board.m_nodes node).position
            (s.m_board.m_nodes n).position)))
        (A.add (s.m_board.m_nodes n).ext.h (s.m_board.m_nodes n).ext.g) = false ∧
      updateNode A s n node = s) := by
  unfold updateNode
  simp only
  by_cases h : A.lt (A.add (distance A s.m_heuristic (s.m_board.m_nodes n).position
      s.m_board.getGoal) (A.add (s.m_board.m_nodes node).ext.g
        (distance A s.m_heuristic (s.m_board.m_nodes node).position
          (s.m_board.m_nodes n).position)))
      (A.add (s.m_board.m_nodes n).ext.h (s.m_board.m_nodes n).ext.g) = true
  · rw [if_pos h]
    exact Or.inl ⟨h, Board.write_m_nodes_same _ _ _⟩
  · rw [if_neg h]
    exact Or.inr ⟨by simpa using h, rfl⟩

/-- Closing the node taken from the frontier keeps the invariant of the costs, and the
start is closed afterwards. -/
theorem Costs.costs_closeWith {A : Env α} {S : Nat → α → Prop} {heuristic : Heuristic}
    {b0 : Board (Ext α)} {s : State α} (h : Costs A S heuristic b0 s) (node : Coordinate)
    (rest : List Coordinate) (hp : (rest ++ [node]).Perm s.m_openNodes) :
    Costs A S heuristic b0 (closeWith s node rest) ∧
      ((closeWith s node rest).m_board.m_nodes b0.m_start).ext.closed = true := by
  have hext : ∀ c, ((closeWith s node rest).m_board.m_nodes c).ext.h =
      (s.m_board.m_nodes c).ext.h ∧
      ((closeWith s node rest).m_board.m_nodes c).ext.g = (s.m_board.m_nodes c).ext.g ∧
      ((closeWith s node rest).m_board.m_nodes c).parent = (s.m_board.m_nodes c).parent ∧
      ((closeWith s node rest).m_board.m_nodes c).position =
        (s.m_board.m_nodes c).position ∧
      ((s.m_board.m_nodes c).ext.closed = true →
        ((closeWith s node rest).m_board.m_nodes c).ext.closed = true) := by
    intro c
    rw [closeWith_m_nodes]
    split
    · rename_i e
      subst e
      exact ⟨rfl, rfl, rfl, rfl, fun _ => rfl⟩
    · exact ⟨rfl, rfl, rfl, rfl, fun e => e⟩
  have hclosed : ((closeWith s node rest).m_board.m_nodes b0.m_start).ext.closed = true := by
    rcases h.start_closed with h1 | h1
    · exact (hext _).2.2.2.2 h1
    · rw [h1] at hp
      have hmem : node ∈ [b0.m_start] := hp.subset (by simp)
      rw [List.mem_singleton] at hmem
      rw [closeWith_m_nodes, if_pos hmem.symm]
  refine ⟨⟨h.heur, fun c hc => ?_, ?_, Or.inl hclosed, fun c p hpar => ?_, fun c hc => ?_⟩,
    hclosed⟩
  · rw [closeWith_opened] at hc
    rw [(hext c).1, (hext c).2.1]
    exact h.fresh c hc
  · rw [(hext _).2.1]
    exact h.start_g
  · rw [(hext c).2.2.1] at hpar
    obtain ⟨h1, h2, h3⟩ := h.cost c p hpar
    refine ⟨(hext p).2.2.2.2 h1, ?_, ?_⟩
    · rw [(hext c).2.1, (hext p).2.1, (hext c).2.2.2.1, (hext p).2.2.2.1]
      exact h2
    · rw [(hext c).1, (hext c).2.2.2.1]
      exact h3
  · rw [closeWith_opened] at hc
    obtain ⟨k, h1, h2, _⟩ := h.bound c hc
    refine ⟨k, ?_, ?_, fun _ => ?_⟩
    · rw [(hext c).2.1]
      exact h1
    · show k ≤ s.nodesClosed + 1
      omega
    · show k < s.nodesClosed + 1
      omega

/-- The invariant of the costs does not depend on the solution. -/
theorem Costs.costs_solution {A : Env α} {S : Nat → α → Prop} {heuristic : Heuristic}
    {b0 : Board (Ext α)} {x : State α} (h : Costs A S heuristic b0 x) (l : List Coordinate) :
    Costs A S heuristic b0 { x with solution := l } :=
  ⟨h.heur, h.fresh, h.start_g, h.start_closed, h.cost, h.bound⟩

/-- A state that differs from `x` in the node `n`, which has been given the closed node
`node` as parent and the `h` and `g` that `updateNode` computes, and is opened, keeps the
invariant of the costs. -/
theorem Costs.costs_write {A : Env α} {S : Nat → α → Prop} {heuristic : Heuristic}
    {b0 : Board (Ext α)} {x y : State α} (h : Costs A S heuristic b0 x)
    (hS : CostBound A heuristic b0.m_size b0.m_goal S) {node n : Coordinate}
    (hcn : (x.m_board.m_nodes node).ext.closed = true)
    (hon : (x.m_board.m_nodes node).opened = true)
    (hn : (x.m_board.m_nodes n).ext.closed = false)
    (hsc : (x.m_board.m_nodes b0.m_start).ext.closed = true)
    (hpn : InBounds b0.m_size (x.m_board.m_nodes node).position)
    (hpnn : InBounds b0.m_size (x.m_board.m_nodes n).position)
    (hadj : cheb (x.m_board.m_nodes node).position (x.m_board.m_nodes n).position = 1)
    (hheur : y.m_heuristic = x.m_heuristic) (hnc : y.nodesClosed = x.nodesClosed)
    (hgoal : y.m_board.getGoal = x.m_board.getGoal)
    (hother : ∀ c, c ≠ n → y.m_board.m_nodes c = x.m_board.m_nodes c)
    (hnew : (y.m_board.m_nodes n).parent = some node ∧
      (y.m_board.m_nodes n).position = (x.m_board.m_nodes n).position ∧
      (y.m_board.m_nodes n).ext.closed = false ∧
      (y.m_board.m_nodes n).ext.h =
        distance A heuristic (x.m_board.m_nodes n).position x.m_board.getGoal ∧
      (y.m_board.m_nodes n).ext.g = A.add (x.m_board.m_nodes node).ext.g
        (distance A heuristic (x.m_board.m_nodes node).position
          (x.m_board.m_nodes n).position))
    (hopen : (y.m_board.m_nodes n).opened = true) :
    Costs A S heuristic b0 y := by
  have hnode_ne : node ≠ n := by
    intro e
    rw [e, hn] at hcn
    cases hcn
  have hstart_ne : b0.m_start ≠ n := by
    intro e
    rw [e, hn] at hsc
    cases hsc
  obtain ⟨kn, hk1, _, hk3⟩ := h.bound node hon
  have hk4 := hk3 hcn
  obtain ⟨n1, n2, n3, n4, n5⟩ := hnew
  refine ⟨hheur.trans h.heur, fun c hc => ?_, ?_, Or.inl ?_, fun c p hpar => ?_,
    fun c hc => ?_⟩
  · have hcn' : c ≠ n := by
      intro e
      rw [e, hopen] at hc
      cases hc
    rw [hother c hcn'] at hc ⊢
    exact h.fresh c hc
  · rw [hother _ hstart_ne]
    exact h.start_g
  · rw [hother _ hstart_ne]
    exact hsc
  · by_cases hc : c = n
    · subst hc
      rw [n1] at hpar
      simp only [Option.some.injEq] at hpar
      subst hpar
      rw [hother _ hnode_ne]
      refine ⟨hcn, ?_, ?_⟩
      · rw [n5, n2]
      · rw [n4, n2, hgoal]
    · rw [hother c hc] at hpar ⊢
      obtain ⟨h1, h2, h3⟩ := h.cost c p hpar
      have hpn' : p ≠ n := by
        intro e
        rw [e, hn] at h1
        cases h1
      rw [hother p hpn', hgoal]
      exact ⟨h1, h2, h3⟩
  · by_cases hc' : c = n
    · subst hc'
      refine ⟨kn + 1, ?_, ?_, fun e => ?_⟩
      · rw [n5]
        exact hS.step kn _ _ _ hk1 hpn hpnn hadj
      · rw [hnc]
        omega
      · rw [n3] at e
        cases e
    · rw [hother c hc'] at hc ⊢
      rw [hnc]
      exact h.bound c hc

end AStar

namespace AStar

open AlgorithmBase

variable {α : Type}

/-- In a state with the invariant of the run, the expansion of the closed node `node`
computes for a neighbor `n` a `g` that a path can have, and positions that are those of two
adjacent cells of the board. -/
theorem Costs.neighbor {A : Env α} {S : Nat → α → Prop} {heuristic : Heuristic}
    {b0 : Board (Ext α)} {d cc : Bool} {x : State α} (h : Costs A S heuristic b0 x)
    (ht : Tidy b0 d cc x) (hw : b0.WellFormed)
    (hS : CostBound A heuristic b0.m_size b0.m_goal S) {node n : Coordinate}
    (hcn : (x.m_board.m_nodes node).ext.closed = true)
    (hon : (x.m_board.m_nodes node).opened = true)
    (hn : n ∈ b0.getNeighbors node [] d cc) :
    InBounds b0.m_size (x.m_board.m_nodes node).position ∧
    InBounds b0.m_size (x.m_board.m_nodes n).position ∧
    cheb (x.m_board.m_nodes node).position (x.m_board.m_nodes n).position = 1 ∧
    (x.m_board.m_nodes n).position = n ∧
    ∃ k, k < x.nodesClosed ∧ S (k + 1) (A.add (x.m_board.m_nodes node).ext.g
      (distance A heuristic (x.m_board.m_nodes node).position
        (x.m_board.m_nodes n).position)) := by
  have hvnode := (ht.opened_ok node hon).1
  have hvn := Board.isValidNode_of_mem_getNeighbors _ _ _ _ _ hn
  have hp1 : (x.m_board.m_nodes node).position = node := by
    rw [(ht.grid.2.2.2 node).2]; exact hw node hvnode
  have hp2 : (x.m_board.m_nodes n).position = n := by
    rw [(ht.grid.2.2.2 n).2]; exact hw n hvn
  have hadj := (Board.mem_getNeighbors_adjacent b0 hw node n d cc hvnode hn).1
  obtain ⟨k, hk1, _, hk3⟩ := h.bound node hon
  rw [hp1, hp2]
  have i1 := (isValidNode_iff_inBounds b0 node).1 hvnode
  have i2 := (isValidNode_iff_inBounds b0 n).1 hvn
  exact ⟨i1, i2, hadj, rfl, k, hk3 hcn, hS.step k _ node n hk1 i1 i2 hadj⟩

/-- The function `updateNode`, called for a neighbor that is opened and not closed, keeps
the invariant of the costs. -/
theorem Costs.costs_update {A : Env α} {S : Nat → α → Prop} {heuristic : Heuristic}
    {b0 : Board (Ext α)} {d cc : Bool} {x : State α} (h : Costs A S heuristic b0 x)
    (ht : Tidy b0 d cc x) (hw : b0.WellFormed)
    (hS : CostBound A heuristic b0.m_size b0.m_goal S) {node n : Coordinate}
    (hcn : (x.m_board.m_nodes node).ext.closed = true)
    (hon : (x.m_board.m_nodes node).opened = true)
    (hsc : (x.m_board.m_nodes b0.m_start).ext.closed = true)
    (hn : n ∈ b0.getNeighbors node [] d cc)
    (hnc : (x.m_board.m_nodes n).ext.closed = false)
    (hno : (x.m_board.m_nodes n).opened = true) :
    Costs A S heuristic b0 (updateNode A x n node) := by
  obtain ⟨i1, i2, i3, _, _⟩ := h.neighbor ht hw hS hcn hon hn
  have hf := astar_updateNode_frame A x n node
  rcases astar_updateNode_cases A x n node with ⟨_, e⟩ | ⟨_, e⟩
  · refine h.costs_write hS hcn hon hnc hsc i1 i2 i3 hf.2.2.2.1 hf.2.2.1 ?_
      (fun c hc => astar_updateNode_of_ne A x n node c hc) ?_ ?_
    · show (updateNode A x n node).m_board.m_goal = x.m_board.m_goal
      exact hf.2.2.2.2.2.2.2.2.2
    · rw [e, h.heur]
      exact ⟨rfl, rfl, hnc, rfl, rfl⟩
    · rw [astar_updateNode_opened]
      exact hno
  · rw [e]
    exact h

/-- The functions `updateNode` and `openNode`, called for a neighbor that is not opened,
keep the invariant of the costs: the test of `updateNode` succeeds. -/
theorem Costs.costs_open {A : Env α} {S : Nat → α → Prop} {heuristic : Heuristic}
    {b0 : Board (Ext α)} {d cc : Bool} {x : State α} (h : Costs A S heuristic b0 x)
    (ht : Tidy b0 d cc x) (hw : b0.WellFormed)
    (hS : CostBound A heuristic b0.m_size b0.m_goal S) {node n : Coordinate}
    (hcn : (x.m_board.m_nodes node).ext.closed = true)
    (hon : (x.m_board.m_nodes node).opened = true)
    (hsc : (x.m_board.m_nodes b0.m_start).ext.closed = true)
    (hn : n ∈ b0.getNeighbors node [] d cc)
    (hnc : (x.m_board.m_nodes n).ext.closed = false)
    (hno : (x.m_board.m_nodes n).opened = false)
    (hcount : x.nodesClosed ≤ b0.nodeCount) :
    Costs A S heuristic b0 (pushOpen (updateNode A x n node) n (some node)) := by
  obtain ⟨i1, i2, i3, i4, k, i5, i6⟩ := h.neighbor ht hw hS hcn hon hn
  have hf := astar_updateNode_frame A x n node
  have hgoal : x.m_board.getGoal = b0.m_goal := ht.grid.2.2.1
  have hfit := hS.fits (k + 1) _ (x.m_board.m_nodes n).position i6
    (by
      have : b0.nodeCount = b0.m_size.1.toNat * b0.m_size.2.toNat := rfl
      omega) i2
  rcases astar_updateNode_cases A x n node with ⟨_, e⟩ | ⟨e0, _⟩
  · refine h.costs_write hS hcn hon hnc hsc i1 i2 i3 ?_ ?_ ?_ (fun c hc => ?_) ?_ ?_
    · rw [pushOpen_m_heuristic]
      exact hf.2.2.2.1
    · rw [pushOpen_nodesClosed]
      exact hf.2.2.1
    · show (updateNode A x n node).m_board.m_goal = x.m_board.m_goal
      exact hf.2.2.2.2.2.2.2.2.2
    · rw [pushOpen_m_nodes_of_ne _ _ _ _ hc]
      exact astar_updateNode_of_ne A x n node c hc
    · rw [pushOpen_m_nodes_same, e, h.heur]
      exact ⟨rfl, rfl, hnc, rfl, rfl⟩
    · rw [pushOpen_m_nodes_same]
  · exfalso
    rw [h.heur, (h.fresh n hno).1, (h.fresh n hno).2, hgoal, hfit] at e0
    cases e0

end AStar

namespace AStar

open AlgorithmBase

variable {α : Type}

/-- Every call of `nextStep` keeps the invariant of the costs. -/
theorem astar_nextStep_costs (A : Env α) (hA : A.SortPermutes) (b0 : Board (Ext α))
    (hw : b0.WellFormed) (d cc : Bool) (S : Nat → α → Prop) (heuristic : Heuristic)
    (hS : CostBound A heuristic b0.m_size b0.m_goal S) (fuel : Nat) (s : State α)
    (ht : Tidy b0 d cc s) (hcount : s.nodesOpened + s.m_board.unopened = b0.nodeCount)
    (hc : Costs A S heuristic b0 s) (b : Bool) (s' : State α)
    (h : nextStep A fuel s = some (b, s')) : Costs A S heuristic b0 s' := by
  by_cases hf : s.m_openNodes = []
  · rw [astar_nextStep_nil A fuel s hf] at h
    cases h
    exact hc
  · have hperm := hA (compare A s.m_board) s.m_openNodes
    have hne2 : A.sort (compare A s.m_board) s.m_openNodes ≠ [] := by
      intro e
      rw [e] at hperm
      exact hf (List.Perm.eq_nil hperm.symm)
    obtain ⟨rest, node, hl⟩ := exists_concat_of_ne_nil _ hne2
    have hp : (rest ++ [node]).Perm s.m_openNodes := hl ▸ hperm
    have hon : (s.m_board.m_nodes node).opened = true :=
      ht.front_opened node (hp.subset (by simp))
    obtain ⟨hc0, hsc0⟩ := hc.costs_closeWith node rest hp
    have ht0 := tidy_closeWith ht node rest hp
    have hcl0 : ((closeWith s node rest).m_board.m_nodes node).ext.closed = true := by
      rw [closeWith_m_nodes, if_pos rfl]
    have hon0 : ((closeWith s node rest).m_board.m_nodes node).opened = true := by
      rw [closeWith_opened]; exact hon
    have hcount0 : (closeWith s node rest).nodesOpened +
        (closeWith s node rest).m_board.unopened = b0.nodeCount := by
      rw [astar_closeWith_unopened]
      exact hcount
    rw [astar_nextStep_concat A fuel s node rest hl hf] at h
    by_cases hg : (s.m_board.m_nodes node).position = s.m_board.m_goal
    · rw [if_pos hg] at h
      cases hst : storeSolution fuel (closeWith s node rest) with
      | none => rw [hst] at h; cases h
      | some r =>
        rw [hst] at h
        cases h
        rw [storeSolution_frame fuel _ s' hst]
        exact hc0.costs_solution _
    · rw [if_neg hg, ht.nbs] at h
      have key : ∀ (n : Coordinate) (x : State α),
          ((Tidy b0 d cc x ∧ (x.m_board.m_nodes node).ext.closed = true ∧
            (x.m_board.m_nodes node).opened = true ∧
            (x.m_board.m_nodes b0.m_start).ext.closed = true ∧
            x.nodesOpened + x.m_board.unopened = b0.nodeCount) ∧ Costs A S heuristic b0 x) →
          n ∈ b0.getNeighbors node [] d cc →
          (x.m_board.m_nodes n).ext.closed = false → (x.m_board.m_nodes n).opened = false →
          ((Tidy b0 d cc (pushOpen (updateNode A x n node) n (some node)) ∧
            ((pushOpen (updateNode A x n node) n (some node)).m_board.m_nodes
              node).ext.closed = true ∧
            ((pushOpen (updateNode A x n node) n (some node)).m_board.m_nodes
              node).opened = true ∧
            ((pushOpen (updateNode A x n node) n (some node)).m_board.m_nodes
              b0.m_start).ext.closed = true ∧
            (pushOpen (updateNode A x n node) n (some node)).nodesOpened +
              (pushOpen (updateNode A x n node) n (some node)).m_board.unopened =
              b0.nodeCount) ∧
            Costs A S heuristic b0 (pushOpen (updateNode A x n node) n (some node))) := by
        intro n x hx hn hnc hno
        obtain ⟨⟨tx, cx, ox, sx, kx⟩, qx⟩ := hx
        have hnode_ne : node ≠ n := by
          intro e
          rw [e, hnc] at cx
          cases cx
        have hstart_ne : b0.m_start ≠ n := by
          intro e
          rw [e, hnc] at sx
          cases sx
        have hou : ((updateNode A x n node).m_board.m_nodes n).opened = false := by
          rw [astar_updateNode_opened]; exact hno
        have hvu : (updateNode A x n node).m_board.isValidNode n = true := by
          rw [(astar_updateNode_sameGrid A x n node).isValidNode, tx.grid.isValidNode]
          exact Board.isValidNode_of_mem_getNeighbors _ _ _ _ _ hn
        have hfu := astar_updateNode_frame A x n node
        have hle : x.nodesClosed ≤ b0.nodeCount := by
          have := tx.balance
          omega
        refine ⟨⟨(tidy_updateNode A tx ox hn).tidy_push
            (by rw [astar_updateNode_opened]; exact ox) hn hou, ?_, ?_, ?_, ?_⟩,
          qx.costs_open tx hw hS cx ox sx hn hnc hno hle⟩
        · rw [pushOpen_m_nodes_of_ne _ _ _ _ hnode_ne, astar_updateNode_closed]
          exact cx
        · exact pushOpen_opened_of_opened _ _ _ _ (by rw [astar_updateNode_opened]; exact ox)
        · rw [pushOpen_m_nodes_of_ne _ _ _ _ hstart_ne, astar_updateNode_closed]
          exact sx
        · have := pushOpen_unopened (updateNode A x n node) n (some node) hvu hou
          rw [astar_updateNode_unopened] at this
          rw [pushOpen_nodesOpened, hfu.2.1]
          omega
      rcases astar_nextStepLoop_visit A fuel node
          (fun rem x => ((Tidy b0 d cc x ∧ (x.m_board.m_nodes node).ext.closed = true ∧
            (x.m_board.m_nodes node).opened = true ∧
            (x.m_board.m_nodes b0.m_start).ext.closed = true ∧
            x.nodesOpened + x.m_board.unopened = b0.nodeCount) ∧ Costs A S heuristic b0 x) ∧
            ∀ n ∈ rem, n ∈ b0.getNeighbors node [] d cc)
          (fun y => Costs A S heuristic b0 y)
          (fun n rem x hx _ => ⟨hx.1, fun m hm => hx.2 m (List.mem_cons_of_mem _ hm)⟩)
          (fun n rem x hx hnc hno => by
            obtain ⟨⟨⟨tx, cx, ox, sx, kx⟩, qx⟩, hrem⟩ := hx
            have hn := hrem n (List.mem_cons_self _ _)
            have hfu := astar_updateNode_frame A x n node
            refine ⟨⟨⟨tidy_updateNode A tx ox hn, ?_, ?_, ?_, ?_⟩,
              qx.costs_update tx hw hS cx ox sx hn hnc hno⟩,
              fun m hm => hrem m (List.mem_cons_of_mem _ hm)⟩
            · rw [astar_updateNode_closed]; exact cx
            · rw [astar_updateNode_opened]; exact ox
            · rw [astar_updateNode_closed]; exact sx
            · rw [astar_updateNode_unopened, hfu.2.1]; exact kx)
          (fun n rem x hx hnc hno _ =>
            ⟨key n x hx.1 (hx.2 n (List.mem_cons_self _ _)) hnc hno,
              fun m hm => hx.2 m (List.mem_cons_of_mem _ hm)⟩)
          (fun n rem x hx hnc hno _ =>
            (key n x hx.1 (hx.2 n (List.mem_cons_self _ _)) hnc hno).2)
          (b0.getNeighbors node [] d cc) (closeWith s node rest)
          ⟨⟨⟨ht0, hcl0, hon0, hsc0, hcount0⟩, hc0⟩, fun n hn => hn⟩ with
        ⟨s2, h1, h2⟩ | ⟨y, h1, h2⟩
      · rw [h] at h1
        cases h1
        exact h2.1.2
      · rw [h] at h2
        cases hst : storeSolution fuel y with
        | none => rw [hst] at h2; cases h2
        | some r =>
          rw [hst] at h2
          cases h2
          rw [storeSolution_frame fuel y s' hst]
          exact h1.costs_solution _

end AStar

namespace AStar

open AlgorithmBase

variable {α : Type}

/-- The invariant of the costs holds after `init` on an instance on which no run was started
and whose nodes have the `h` and `g` the constructor gives them. -/
theorem init_costs (A : Env α) (S : Nat → α → Prop) (s0 : State α) (hp : PristineA s0)
    (hfresh : ∀ c, (s0.m_board.m_nodes c).ext.h = A.maxValue ∧
      (s0.m_board.m_nodes c).ext.g = A.ofInt 0)
    (hzero : S 0 (A.ofInt 0)) (h : Heuristic) (d cc : Bool) :
    Costs A S h s0.m_board
      (pushOpen (initBase (Node.init A) s0 h d cc) s0.m_board.m_start none) := by
  have hall := initBase_opened_pristine (astar_nodeInitOK A) s0 hp.1 h d cc
  have hext : ∀ c, ((pushOpen (initBase (Node.init A) s0 h d cc) s0.m_board.m_start
      none).m_board.m_nodes c).ext.h = A.maxValue ∧
      ((pushOpen (initBase (Node.init A) s0 h d cc) s0.m_board.m_start
        none).m_board.m_nodes c).ext.g = A.ofInt 0 ∧
      ((pushOpen (initBase (Node.init A) s0 h d cc) s0.m_board.m_start
        none).m_board.m_nodes c).ext.closed = false := by
    intro c
    have hb : ((initBase (Node.init A) s0 h d cc).m_board.m_nodes c).ext.h = A.maxValue ∧
        ((initBase (Node.init A) s0 h d cc).m_board.m_nodes c).ext.g = A.ofInt 0 ∧
        ((initBase (Node.init A) s0 h d cc).m_board.m_nodes c).ext.closed = false := by
      refine ⟨?_, ?_, by rw [astar_initBase_closed]; exact hp.2 c⟩
      · rw [initBase_m_nodes]
        split
        · rfl
        · exact (hfresh c).1
      · rw [initBase_m_nodes]
        split
        · rfl
        · exact (hfresh c).2
    by_cases hc : c = s0.m_board.m_start
    · subst hc
      rw [pushOpen_m_nodes_same]
      exact hb
    · rw [pushOpen_m_nodes_of_ne _ _ _ _ hc]
      exact hb
  have hopened : ∀ c, ((pushOpen (initBase (Node.init A) s0 h d cc) s0.m_board.m_start
      none).m_board.m_nodes c).opened = true → c = s0.m_board.m_start := by
    intro c hc
    by_contra hne
    rw [pushOpen_m_nodes_of_ne _ _ _ _ hne, (hall c).1] at hc
    cases hc
  refine ⟨rfl, fun c _ => ⟨(hext c).1, (hext c).2.1⟩, (hext _).2.1, Or.inr rfl,
    fun c p hpar => ?_, fun c hc => ?_⟩
  · exfalso
    by_cases hc : c = s0.m_board.m_start
    · subst hc
      rw [pushOpen_m_nodes_same] at hpar
      cases hpar
    · rw [pushOpen_m_nodes_of_ne _ _ _ _ hc, (hall c).2] at hpar
      cases hpar
  · refine ⟨0, ?_, Nat.zero_le _, fun e => ?_⟩
    · rw [(hext c).2.1]
      exact hzero
    · rw [(hext c).2.2] at e
      cases e

/-- The nodes of a constructed instance keep the `h` and `g` of the constructor through
`setObstacle` calls. -/
theorem setObstacles_ext (s : State α) (obs : List (Coordinate × Bool)) (c : Coordinate) :
    ((setObstacles s obs).m_board.m_nodes c).ext = (s.m_board.m_nodes c).ext := by
  induction obs generalizing s with
  | nil => rfl
  | cons e rest ih =>
    obtain ⟨k, o⟩ := e
    rw [setObstacles, ih]
    show ((s.m_board.setObstacle k o).m_nodes c).ext = _
    rw [Board.setObstacle_m_nodes]
    split <;> rfl

/-- The `g` of the node the loop of `storeSolution` is started at is the sum of the step
costs along what the loop appends. -/
theorem storeSolutionLoop_cost (A : Env α) (heuristic : Heuristic) (b : Board (Ext α))
    (G : Coordinate → Prop)
    (hpos : ∀ c, G c → (b.m_nodes c).position = c)
    (hpar : ∀ c p, G c → (b.m_nodes c).parent = some p → G p ∧
      (b.m_nodes c).ext.g = A.add (b.m_nodes p).ext.g (distance A heuristic p c))
    (hroot : ∀ c, G c → (b.m_nodes c).parent = none → (b.m_nodes c).ext.g = A.ofInt 0) :
    ∀ fuel c acc l, G c → storeSolutionLoop b fuel (some c) acc = some l →
      ∃ path, l = acc ++ path ∧ path.head? = some c ∧
        (b.m_nodes c).ext.g = pathCost A heuristic path := by
  intro fuel
  induction fuel with
  | zero => intro c acc l _ h; cases h
  | succ fuel ih =>
    intro c acc l hc h
    rw [storeSolutionLoop, hpos c hc] at h
    cases hp : (b.m_nodes c).parent with
    | none =>
      rw [hp] at h
      have h' : some (acc ++ [c]) = some l := by
        rw [← h]
        cases fuel <;> rfl
      cases h'
      exact ⟨[c], rfl, rfl, hroot c hc hp⟩
    | some p =>
      rw [hp] at h
      obtain ⟨hGp, hg⟩ := hpar c p hc hp
      obtain ⟨path, h1, h2, h3⟩ := ih p (acc ++ [c]) l hGp h
      refine ⟨c :: path, ?_, rfl, ?_⟩
      · rw [h1]
        simp
      · cases path with
        | nil => simp at h2
        | cons a t =>
          simp only [List.head?_cons, Option.some.injEq] at h2
          subst h2
          rw [hg, h3]
          rfl

/-- The invariants hold in every state of a run of A* on a freshly constructed instance. -/
theorem astar_run_costs (A : Env α) (hA : A.SortPermutes) (size start goal : Coordinate)
    (obs : List (Coordinate × Bool)) (h : Heuristic) (d cc : Bool) (fuel : Nat)
    (hstart : InBounds size start) (S : Nat → α → Prop) (hS : CostBound A h size goal S) :
    ∃ s1, init A (setObstacles (create A size start goal) obs) h d cc = some s1 ∧
      s1.solution = [] ∧ ∀ s, Reachable (nextStep A fuel) s1 s →
        Tidy (setObstacles (create A size start goal) obs).m_board d cc s ∧
        FreshInv (setObstacles (create A size start goal) obs).m_board d cc
          (clearSolution s) ∧
        Costs A S h (setObstacles (create A size start goal) obs).m_board s := by
  have hp := (astar_pristineA_create A size start goal).pristineA_setObstacles obs
  obtain ⟨b1, b2, b3, _, b5⟩ := setObstacles_board (create A size start goal) obs size start
    goal rfl rfl rfl
  have hv := b5 hstart
  have hfree : ((setObstacles (create A size start goal) obs).m_board.m_nodes
      (setObstacles (create A size start goal) obs).m_board.m_start).obstacle = false := by
    rw [b2]
    exact setObstacles_free (create A size start goal) obs start (Or.inl rfl) rfl
  have hS' : CostBound A h (setObstacles (create A size start goal) obs).m_board.m_size
      (setObstacles (create A size start goal) obs).m_board.m_goal S := by
    rw [b1, b3]; exact hS
  obtain ⟨s1, h1, h2, _, h4⟩ := astar_init_some A _ h d cc hv
  obtain ⟨rk, hk⟩ := h4 hp
  have h1' := h1
  rw [astar_init_eq, if_pos hv] at h1'
  cases h1'
  refine ⟨_, h1, rfl, fun s hs => ?_⟩
  exact Reachable.invariant (nextStep A fuel)
    (fun s => Tidy (setObstacles (create A size start goal) obs).m_board d cc s ∧
      FreshInv (setObstacles (create A size start goal) obs).m_board d cc (clearSolution s) ∧
      Costs A S h (setObstacles (create A size start goal) obs).m_board s)
    (fun s b s' hI hst => ⟨astar_nextStep_tidy A hA _ d cc fuel s hI.1 b s' hst,
      astar_nextStep_links A hA _ d cc fuel s hI.2.1 b s' hst,
      astar_nextStep_costs A hA _ hp.1.2.1 d cc S h hS' fuel s hI.1 (by
        obtain ⟨hr, rk', hk'⟩ := hI.2.1
        have := hk'.count
        rw [nodeCount_of_sameGrid hr.grid] at this
        exact this) hI.2.2 b s' hst⟩)
    _ s ⟨init_tidy (astar_nodeInitOK A) _ hp.1 h d cc hv hfree _ (ExtOnly.ext_refl _),
      ⟨h2.run_clear, rk, ⟨hk.parent_closed, hk.rk_lt, hk.closed_opened, hk.root, hk.count,
        hk.balance, hk.front_open, hk.front_nodup⟩⟩,
      init_costs A S _ hp (fun c => by rw [setObstacles_ext]; exact ⟨rfl, rfl⟩) hS.zero
        h d cc⟩ hs

end AStar

namespace AStar

open AlgorithmBase

/-- In the integer interpretation no sum reaches `max` on a board whose width and height add
up to at most `2^64`: the `g` of a path of `k` moves is between 0 and `2 k`. -/
theorem intEnv_costBound (heuristic : Heuristic) (size goal : Coordinate)
    (hgoal : InBounds size goal) (hsize : size.1 + size.2 ≤ 2 ^ 64) :
    CostBound intEnv heuristic size goal (fun k x => 0 ≤ x ∧ x ≤ 2 * (k : Int)) := by
  refine ⟨⟨le_refl _, le_refl _⟩, ?_, ?_⟩
  · intro k x p n hx hp hn hadj
    have acc := intEnv_accurate heuristic size n hn hsize
    have h1 : (0 : ℝ) ≤ ((distance intEnv heuristic p n : Int) : ℝ) := acc.hstar_nonneg p hp
    have h2 := acc.hstar_consistent p n hp hn
    have h3 := acc.hstar_goal
    have h1' : 0 ≤ distance intEnv heuristic p n := by exact_mod_cast h1
    have h2' : distance intEnv heuristic p n ≤
        manhattan p n + distance intEnv heuristic n n := by exact_mod_cast h2
    have h3' : distance intEnv heuristic n n = 0 := by exact_mod_cast h3
    have h4 := manhattan_of_cheb_one hadj
    show 0 ≤ x + distance intEnv heuristic p n ∧
      x + distance intEnv heuristic p n ≤ 2 * ((k + 1 : Nat) : Int)
    push_cast
    omega
  · intro k x n hx hk hn
    have acc := intEnv_accurate heuristic size goal hgoal hsize
    have h2 := acc.hstar_consistent n goal hn hgoal
    have h3 := acc.hstar_goal
    have h2' : distance intEnv heuristic n goal ≤
        manhattan n goal + distance intEnv heuristic goal goal := by exact_mod_cast h2
    have h3' : distance intEnv heuristic goal goal = 0 := by exact_mod_cast h3
    have h4 := manhattan_le_size hn hgoal
    obtain ⟨g1, g2, g3, g4⟩ := hgoal
    have w1 : size.1.toNat ≤ 2 ^ 64 := by omega
    have w2 : size.2.toNat ≤ 2 ^ 64 := by omega
    have hk2 : k ≤ 2 ^ 64 * 2 ^ 64 := le_trans hk (Nat.mul_le_mul w1 w2)
    have hk3 : (k : Int) ≤ 2 ^ 64 * 2 ^ 64 := by exact_mod_cast hk2
    have hd : (2 : Int) ^ 64 + 2 * (2 ^ 64 * 2 ^ 64) + 1 ≤ doubleMax := by
      unfold doubleMax
      norm_num
    show decide (distance intEnv heuristic n goal + x < doubleMax + 0) = true
    rw [decide_eq_true_eq]
    omega

end AStar
namespace AlgorithmBase

theorem roundInt_nonneg (p : Nat) {z : Int} (h : 0 ≤ z) : 0 ≤ roundInt p z := by
  unfold roundInt
  rw [if_pos h]
  exact Int.natCast_nonneg _

/-- A `double` in units of `2^-52` whose value is at most `r` is at most `r * 2^52`. -/
theorem units_le_of_val_le {d : Int} {r : Int} (h : (d : ℝ) / 2 ^ 52 ≤ (r : ℝ)) :
    d ≤ r * 2 ^ 52 := by
  have p52 : (0 : ℝ) < 2 ^ 52 := by positivity
  have e : (d : ℝ) = (d : ℝ) / 2 ^ 52 * 2 ^ 52 := by field_simp
  have h1 : (d : ℝ) ≤ (r : ℝ) * 2 ^ 52 := by
    rw [e]
    exact mul_le_mul_of_nonneg_right h p52.le
  have h2 : (d : ℝ) ≤ ((r * 2 ^ 52 : Int) : ℝ) := by
    rw [Int.cast_mul, Int.cast_pow, Int.cast_ofNat]
    exact h1
  exact Int.cast_le.1 h2

theorem units_ge_of_val_ge {d : Int} {r : Int} (h : (r : ℝ) ≤ (d : ℝ) / 2 ^ 52) :
    r * 2 ^ 52 ≤ d := by
  have p52 : (0 : ℝ) < 2 ^ 52 := by positivity
  have e : (d : ℝ) = (d : ℝ) / 2 ^ 52 * 2 ^ 52 := by field_simp
  have h1 : (r : ℝ) * 2 ^ 52 ≤ (d : ℝ) := by
    rw [e]
    exact mul_le_mul_of_nonneg_right h p52.le
  have h2 : ((r * 2 ^ 52 : Int) : ℝ) ≤ (d : ℝ) := by
    rw [Int.cast_mul, Int.cast_pow, Int.cast_ofNat]
    exact h1
  exact Int.cast_le.1 h2

end AlgorithmBase

namespace AStar

open AlgorithmBase

/-- In the binary floating-point interpretation no sum reaches `max` on a board whose width
and height add up to at most `2^16`, for every heuristic: the `g` of a path of `k` moves,
`k` at most `2^32`, is between 0 and `4 k` (a move costs at most 2, and each addition rounds
by far less than 2). -/
theorem doubleEnv_costBound (heuristic : Heuristic) (size goal : Coordinate)
    (hgoal : InBounds size goal) (hsize : size.1 + size.2 ≤ 2 ^ 16) :
    CostBound doubleEnv heuristic size goal
      (fun k x => k ≤ 2 ^ 32 → 0 ≤ x ∧ x ≤ (k : Int) * 2 ^ 54) := by
  obtain ⟨hstar, c2, ε, T, acc⟩ := doubleEnv_accurateK heuristic size goal hgoal hsize
  have hc1 : (1 : ℝ) ≤ c2 := acc.c2_gt.le
  have hc2 := acc.c2_le
  refine ⟨fun _ => ⟨le_refl _, ?_⟩, ?_, ?_⟩
  · show (0 : Int) * 2 ^ 52 ≤ ((0 : Nat) : Int) * 2 ^ 54
    norm_num
  · intro k x p n hx hp hn hadj hk
    obtain ⟨x0, x1⟩ := hx (by omega)
    have hv := acc.adj_val p n hp hn hadj
    have d0 : (0 : Int) * 2 ^ 52 ≤ distance doubleEnv heuristic p n := by
      apply units_ge_of_val_ge
      have := octile_nonneg hc1 hc2 p n
      rw [← hv] at this
      simpa using this
    have d1 : distance doubleEnv heuristic p n ≤ (2 : Int) * 2 ^ 52 := by
      apply units_le_of_val_le
      have := octile_le_two hc2 hadj
      rw [← hv] at this
      simpa using this
    have hk' : (k : Int) + 1 ≤ 2 ^ 32 := by exact_mod_cast hk
    have s0 : 0 ≤ x + distance doubleEnv heuristic p n := by omega
    have hz : |x + distance doubleEnv heuristic p n| < 2 ^ 87 := by
      rw [abs_of_nonneg s0]
      omega
    have herr := roundInt_err (p := 53) (x + distance doubleEnv heuristic p n)
      (by norm_num) hz
    rw [abs_le] at herr
    show 0 ≤ roundInt 53 (x + distance doubleEnv heuristic p n) ∧
      roundInt 53 (x + distance doubleEnv heuristic p n) ≤ ((k + 1 : Nat) : Int) * 2 ^ 54
    refine ⟨roundInt_nonneg 53 s0, ?_⟩
    have e33 : (2 : Int) ^ (87 - 53 - 1) = 8589934592 := by norm_num
    rw [e33] at herr
    push_cast
    omega
  · intro k x n hx hk hn
    obtain ⟨g1, g2, g3, g4⟩ := hgoal
    have w1 : size.1.toNat ≤ 2 ^ 16 := by omega
    have w2 : size.2.toNat ≤ 2 ^ 16 := by omega
    have hk2 : k ≤ 2 ^ 16 * 2 ^ 16 := le_trans hk (Nat.mul_le_mul w1 w2)
    have hk3 : k ≤ 2 ^ 32 := by
      have : (2 : Nat) ^ 16 * 2 ^ 16 = 2 ^ 32 := by norm_num
      omega
    obtain ⟨x0, x1⟩ := hx hk3
    have hk4 : (k : Int) ≤ 2 ^ 32 := by exact_mod_cast hk3
    have hgoal' : InBounds size goal := ⟨g1, g2, g3, g4⟩
    have hh := abs_le.1 (acc.h_val n hn)
    have hT : T ≤ 1 := by
      rcases acc.regime with ⟨r1, r2⟩ | ⟨_, _, r3, _⟩
      · have := min_le_left (c2 - 1) (2 - c2)
        linarith
      · rw [r3]
        norm_num
    have u1 := acc.hstar_consistent n goal hn hgoal'
    have u2 := acc.hstar_consistent goal n hgoal' hn
    rw [acc.hstar_goal] at u1 u2
    have m1 := octile_le_size hc2 hn hgoal'
    have m2 := octile_le_size hc2 hgoal' hn
    have hsz : ((size.1 + size.2 : Int) : ℝ) ≤ 65536 := by
      have h2 : ((size.1 + size.2 : Int) : ℝ) ≤ (((65536 : Int) : Int) : ℝ) :=
        Int.cast_le.2 (by omega)
      simpa using h2
    have d1 : distance doubleEnv heuristic n goal ≤ (65536 : Int) * 2 ^ 52 := by
      apply units_le_of_val_le
      have : ((distance doubleEnv heuristic n goal : Int) : ℝ) / 2 ^ 52 ≤ 65536 := by
        linarith
      simpa using this
    have d0 : (-65536 : Int) * 2 ^ 52 ≤ distance doubleEnv heuristic n goal := by
      apply units_ge_of_val_ge
      have : (-65536 : ℝ) ≤ ((distance doubleEnv heuristic n goal : Int) : ℝ) / 2 ^ 52 := by
        linarith
      simpa using this
    have hz : |distance doubleEnv heuristic n goal + x| < 2 ^ 87 := by
      rw [abs_lt]
      constructor <;> omega
    have herr := roundInt_err (p := 53) (distance doubleEnv heuristic n goal + x)
      (by norm_num) hz
    rw [abs_le] at herr
    have e33 : (2 : Int) ^ (87 - 53 - 1) = 8589934592 := by norm_num
    rw [e33] at herr
    have hdm : (2 : Int) ^ 64 ≤ doubleMax := by
      unfold doubleMax
      norm_num
    show doubleEnv.lt (roundInt 53 (distance doubleEnv heuristic n goal + x))
      (doubleEnv.add doubleEnv.maxValue (doubleEnv.ofInt 0)) = true
    rw [doubleEnv_add_max]
    show decide (roundInt 53 (distance doubleEnv heuristic n goal + x) < doubleMax * 2 ^ 52) =
      true
    rw [decide_eq_true_eq]
    omega

end AStar
namespace AlgorithmBase

theorem cheb_of_manhattan_one {a b : Coordinate} (h : manhattan a b = 1) : cheb a b = 1 := by
  simp only [manhattan, cheb, abs_eq_max_neg] at h ⊢
  omega

/-- A `double` in units of `2^-52` that holds the integer `k` is `k * 2^52`. -/
theorem units_of_val_eq {d k : Int} (h : (d : ℝ) / 2 ^ 52 = (k : ℝ)) : d = k * 2 ^ 52 :=
  le_antisymm (units_le_of_val_le h.le) (units_ge_of_val_ge h.ge)

end AlgorithmBase

namespace AStar

open AlgorithmBase

/-- In the binary floating-point interpretation, what the theorem on A* with diagonal moves
assumes of the arithmetic gives what the theorem on A* with cardinal moves assumes, on a
board whose width and height add up to at most `2^16`: a cardinal move costs exactly 1
under every heuristic, so the sums that make up `g` are integers below `2^53` and exact. -/
theorem doubleEnv_accurate_of_accurateK {hstar : Coordinate → ℝ} {c2 ε T : ℝ}
    {heuristic : Heuristic} {size goal : Coordinate}
    (acc : AccurateK doubleEnv (fun x : Int => (x : ℝ) / 2 ^ 52) hstar c2 ε T heuristic size
      goal)
    (hnn : ∀ c, 0 ≤ hstar c) (hgoal : InBounds size goal) (hsize : size.1 + size.2 ≤ 2 ^ 16) :
    Accurate doubleEnv (fun x : Int => (x : ℝ) / 2 ^ 52) hstar heuristic size goal := by
  have hc1 : (1 : ℝ) ≤ c2 := acc.c2_gt.le
  have hc2 := acc.c2_le
  have hT : T ≤ 1 / 6 := by
    rcases acc.regime with ⟨_, r2⟩ | ⟨_, _, r3, _⟩
    · have e1 := min_le_left (c2 - 1) (2 - c2)
      have e2 := min_le_right (c2 - 1) (2 - c2)
      linarith
    · rw [r3]
      norm_num
  have hsz : ((size.1 + size.2 : Int) : ℝ) ≤ 65536 := by
    have h2 : ((size.1 + size.2 : Int) : ℝ) ≤ (((65536 : Int) : Int) : ℝ) :=
      Int.cast_le.2 (by omega)
    simpa using h2
  refine ⟨acc.lt_val, acc.eq_val, acc.zero_val, ?_, ?_, acc.max_val, fun c _ => hnn c,
    acc.hstar_goal, ?_⟩
  · intro p n x k hp hn hadj hk0 hk1 hx
    have hcheb := cheb_of_manhattan_one hadj
    have hv := acc.adj_val p n hp hn hcheb
    have ho : octile c2 p n = 1 := by
      simp only [octile, hcheb, hadj]
      push_cast
      ring
    rw [ho] at hv
    have hd : distance doubleEnv heuristic p n = 1 * 2 ^ 52 :=
      units_of_val_eq (by simpa using hv)
    have hx' : x = k * 2 ^ 52 := units_of_val_eq hx
    have he : doubleEnv.add x (distance doubleEnv heuristic p n) = (k + 1) * 2 ^ 52 := by
      show roundInt 53 (x + distance doubleEnv heuristic p n) = (k + 1) * 2 ^ 52
      rw [hd, hx']
      have e : k * 2 ^ 52 + 1 * 2 ^ 52 = (k + 1) * 2 ^ 52 := by ring
      rw [e]
      apply roundInt_exact (j := 52)
      · positivity
      · exact Dvd.intro_left _ rfl
      · have : k + 1 < 2 ^ 53 := by omega
        calc (k + 1) * 2 ^ 52 < 2 ^ 53 * 2 ^ 52 := by
              apply mul_lt_mul_of_pos_right this
              positivity
          _ = 2 ^ (53 + 52) := by norm_num
    show ((doubleEnv.add x (distance doubleEnv heuristic p n) : Int) : ℝ) / 2 ^ 52 = k + 1
    rw [he, Int.cast_mul, Int.cast_pow, Int.cast_ofNat, mul_div_assoc,
      div_self (by positivity), mul_one]
    push_cast
    rfl
  · intro c x k hc hk0 hk1 hx
    have hh := acc.h_val c hc
    have u1 := acc.hstar_consistent c goal hc hgoal
    rw [acc.hstar_goal] at u1
    have m1 := octile_le_size hc2 hc hgoal
    have h0 := hnn c
    have hkr : ((k : Int) : ℝ) ≤ 65536 := by
      have : ((k : Int) : ℝ) ≤ ((size.1 + size.2 : Int) : ℝ) := Int.cast_le.2 hk1
      linarith
    have hk0r : (0 : ℝ) ≤ ((k : Int) : ℝ) := by exact_mod_cast hk0
    have hb : |((x : Int) : ℝ) / 2 ^ 52 - (k : ℝ)| ≤ 0 := by
      have : ((x : Int) : ℝ) / 2 ^ 52 = (k : ℝ) := hx
      rw [this, sub_self, abs_zero]
    have hT0 := acc.tol_nonneg
    have hbound : |hstar c| + |((k : Int) : ℝ)| + T + 0 < 2 ^ 18 := by
      rw [abs_of_nonneg h0, abs_of_nonneg hk0r]
      norm_num
      linarith
    have := doubleEnv_add_val (distance doubleEnv heuristic c goal) x (hstar c) (k : ℝ) T 0
      hh hb hbound
    show |((doubleEnv.add (distance doubleEnv heuristic c goal) x : Int) : ℝ) / 2 ^ 52 -
      (hstar c + (k : ℝ))| ≤ 1 / 4
    have e36 : (1 : ℝ) / 2 ^ 36 ≤ 1 / 12 := by norm_num
    linarith
  · intro a b ha hb
    have := acc.hstar_consistent a b ha hb
    have := octile_le_manhattan hc2 a b
    linarith

/-- In the binary floating-point interpretation the arithmetic assumptions of the theorem on
A* with cardinal moves hold for every heuristic, on every board whose width and height add
up to at most `2^16`. -/
theorem doubleEnv_accurate (heuristic : Heuristic) (size goal : Coordinate)
    (hgoal : InBounds size goal) (hsize : size.1 + size.2 ≤ 2 ^ 16) :
    ∃ hstar : Coordinate → ℝ,
      Accurate doubleEnv (fun x : Int => (x : ℝ) / 2 ^ 52) hstar heuristic size goal := by
  have c1 : (1 : ℝ) ≤ 11861492 / 8388608 := by norm_num
  have c2 : (11861492 : ℝ) / 8388608 ≤ 2 := by norm_num
  cases heuristic
  · exact ⟨_, doubleEnv_accurate_of_accurateK
      (doubleEnv_accurateK_manhattan _ (Or.inl rfl) size goal hgoal hsize)
      (fun c => by exact_mod_cast manhattan_nonneg c goal) hgoal hsize⟩
  · exact ⟨_, doubleEnv_accurate_of_accurateK
      (doubleEnv_accurateK_diagonal size goal hgoal hsize)
      (fun c => octile_nonneg c1 c2 c goal) hgoal hsize⟩
  · exact ⟨_, doubleEnv_accurate_of_accurateK
      (doubleEnv_accurateK_euclidean size goal hgoal hsize)
      (fun c => Real.sqrt_nonneg _) hgoal hsize⟩
  · exact ⟨_, doubleEnv_accurate_of_accurateK
      (doubleEnv_accurateK_manhattan _ (Or.inr rfl) size goal hgoal hsize)
      (fun c => by exact_mod_cast manhattan_nonneg c goal) hgoal hsize⟩

end AStar
namespace BestFirstSearch

open AlgorithmBase

variable {α : Type}

end BestFirstSearch
namespace AlgorithmBase

variable {E : Type}

theorem DuringCall.call_push {s x : Algorithm E} (h : DuringCall s x) (n : Coordinate)
    (p : Option Coordinate) : DuringCall s (pushOpen x n p) := by
  refine ⟨h.1, h.2.1, fun c => ?_, fun c hc => pushOpen_opened_of_opened x n c p (h.2.2.2 c hc)⟩
  rw [← h.2.2.1 c]
  by_cases hcn : c = n
  · subst hcn
    simp
  · rw [pushOpen_m_nodes_of_ne _ _ _ _ hcn]

theorem DuringCall.call_extOnly {s x y : Algorithm E} (h : DuringCall s x) (hxy : ExtOnly x y) :
    DuringCall s y := by
  obtain ⟨e1, _, _, _, _, _, _, _, _, e10, e11⟩ := hxy
  refine ⟨e1.trans h.1, e10.trans h.2.1, fun c => ?_, fun c hc => ?_⟩
  · rw [(e11 c).2.1]
    exact h.2.2.1 c
  · rw [(e11 c).2.2.2]
    exact h.2.2.2 c hc

/-- The goal was reached by opening the neighbor `n` of `node` in the state `x`. -/
theorem ReachedGoal.of_push {fuel : Nat} {s x s' : Algorithm E} {node n : Coordinate}
    (hx : DuringCall s x)
    (hn : n ∈ s.m_board.getNeighbors node [] s.m_diagonals s.m_cutCorners)
    (ho : (x.m_board.m_nodes n).opened = false)
    (hg : ((pushOpen x n (some node)).m_board.m_nodes n).position =
      getGoal (pushOpen x n (some node)))
    (hst : storeSolution fuel (pushOpen x n (some node)) = some s') :
    ReachedGoal fuel s node s' := by
  have hp := hx.call_push n (some node)
  refine ⟨pushOpen x n (some node), n, Or.inr ⟨hn, ?_, by simp, by simp⟩, ?_, hp.1, hp.2.1, hst⟩
  · cases hs : (s.m_board.m_nodes n).opened with
    | false => rfl
    | true =>
      rw [hx.2.2.2 n hs] at ho
      cases ho
  · rw [← hp.2.2.1 n, hg]
    exact hp.2.1

end AlgorithmBase

namespace BreadthFirstSearch

open AlgorithmBase

/-- The neighbor loop of `nextStep` when it leaves through `return true`: it opened an
unopened neighbor whose position is the goal. -/
theorem bfs_nextStepLoop_found (fuel : Nat) (node : Coordinate) (I : State → Prop)
    (hopen : ∀ x n, I x → (x.m_board.m_nodes n).opened = false →
      I (pushOpen x n (some node))) :
    ∀ (nbs : List Coordinate) (s : State), I s →
      ∀ s', nextStepLoop fuel node nbs s = some (true, s') →
        ∃ x n, I x ∧ n ∈ nbs ∧ (x.m_board.m_nodes n).opened = false ∧
          ((pushOpen x n (some node)).m_board.m_nodes n).position =
            getGoal (pushOpen x n (some node)) ∧
          storeSolution fuel (pushOpen x n (some node)) = some s' := by
  intro nbs
  induction nbs with
  | nil =>
    intro s _ s' h
    simp [nextStepLoop] at h
  | cons n rest ih =>
    intro s hs s' h
    rw [nextStepLoop] at h
    by_cases ho : (s.m_board.m_nodes n).opened = true
    · rw [if_pos ho] at h
      obtain ⟨x, m, h1, h2, h3, h4, h5⟩ := ih s hs s' h
      exact ⟨x, m, h1, List.mem_cons_of_mem _ h2, h3, h4, h5⟩
    · rw [if_neg ho] at h
      have ho' : (s.m_board.m_nodes n).opened = false := by simpa using ho
      simp only [bfs_openNode_eq, checkGoal_eq] at h
      by_cases hg : ((pushOpen s n (some node)).m_board.m_nodes n).position =
          getGoal (pushOpen s n (some node))
      · rw [if_pos hg] at h
        cases hst : storeSolution fuel (pushOpen s n (some node)) with
        | none => rw [hst] at h; cases h
        | some r =>
          rw [hst] at h
          cases h
          exact ⟨s, n, hs, List.mem_cons_self _ _, ho', hg, hst⟩
      · rw [if_neg hg] at h
        obtain ⟨x, m, h1, h2, h3, h4, h5⟩ := ih _ (hopen s n hs ho') s' h
        exact ⟨x, m, h1, List.mem_cons_of_mem _ h2, h3, h4, h5⟩

/-- The neighbor loop when every neighbor is opened: nothing is done. -/
theorem bfs_nextStepLoop_opened (fuel : Nat) (node : Coordinate) :
    ∀ (nbs : List Coordinate) (s : State),
      (∀ n ∈ nbs, (s.m_board.m_nodes n).opened = true) →
      nextStepLoop fuel node nbs s = some (false, s) := by
  intro nbs
  induction nbs with
  | nil => intro s _; rfl
  | cons n rest ih =>
    intro s h
    rw [nextStepLoop, if_pos (h n (List.mem_cons_self _ _))]
    exact ih s (fun m hm => h m (List.mem_cons_of_mem _ hm))

/-- A call that returns true on a non-empty queue reached the goal. -/
theorem bfs_nextStep_found (fuel : Nat) (s s' : State) (node : Coordinate)
    (rest : List Coordinate) (hs : s.m_openNodes = node :: rest)
    (h : nextStep fuel s = some (true, s')) : ReachedGoal fuel s node s' := by
  rw [bfs_nextStep_cons fuel s node rest hs] at h
  by_cases hg : (s.m_board.m_nodes node).position = s.m_board.m_goal
  · rw [if_pos hg] at h
    cases hst : storeSolution fuel
        { s with nodesClosed := s.nodesClosed + 1, m_openNodes := rest } with
    | none => rw [hst] at h; cases h
    | some r =>
      rw [hst] at h
      cases h
      exact ⟨{ s with nodesClosed := s.nodesClosed + 1, m_openNodes := rest }, node,
        Or.inl rfl, hg, rfl, rfl, hst⟩
  · rw [if_neg hg] at h
    obtain ⟨x, n, h1, h2, h3, h4, h5⟩ := bfs_nextStepLoop_found fuel node (DuringCall s)
      (fun x n hx _ => hx.call_push n (some node)) _
      { s with nodesClosed := s.nodesClosed + 1, m_openNodes := rest }
      ⟨rfl, rfl, fun _ => rfl, fun _ hc => hc⟩ s' h
    exact ReachedGoal.of_push h1 h2 h3 h4 h5

/-- The call that takes the last node from the queue, when the node is not the goal and
none of its neighbors is left to open: it returns false and leaves the queue empty. -/
theorem bfs_nextStep_last (fuel : Nat) (s : State) (node : Coordinate)
    (hs : s.m_openNodes = [node])
    (hg : (s.m_board.m_nodes node).position ≠ s.m_board.m_goal)
    (hall : ∀ n ∈ s.m_board.getNeighbors node [] s.m_diagonals s.m_cutCorners,
      (s.m_board.m_nodes n).opened = true) :
    nextStep fuel s =
      some (false, { s with nodesClosed := s.nodesClosed + 1, m_openNodes := [] }) := by
  rw [bfs_nextStep_cons fuel s node [] hs, if_neg hg]
  exact bfs_nextStepLoop_opened fuel node _ _ hall

end BreadthFirstSearch

namespace BestFirstSearch

open AlgorithmBase

variable {α : Type}

theorem bestFirst_nextStepLoop_found (A : Env α) (fuel : Nat) (node : Coordinate)
    (I : State α → Prop)
    (hopen : ∀ x n, I x → (x.m_board.m_nodes n).opened = false →
      I (openNode A x n (some node))) :
    ∀ (nbs : List Coordinate) (s : State α), I s →
      ∀ s', nextStepLoop A fuel node nbs s = some (true, s') →
        ∃ x n, I x ∧ n ∈ nbs ∧ (x.m_board.m_nodes n).opened = false ∧
          ((openNode A x n (some node)).m_board.m_nodes n).position =
            getGoal (openNode A x n (some node)) ∧
          storeSolution fuel (openNode A x n (some node)) = some s' := by
  intro nbs
  induction nbs with
  | nil =>
    intro s _ s' h
    simp [nextStepLoop] at h
  | cons n rest ih =>
    intro s hs s' h
    rw [nextStepLoop] at h
    by_cases ho : (s.m_board.m_nodes n).opened = true
    · rw [if_pos ho] at h
      obtain ⟨x, m, h1, h2, h3, h4, h5⟩ := ih s hs s' h
      exact ⟨x, m, h1, List.mem_cons_of_mem _ h2, h3, h4, h5⟩
    · rw [if_neg ho] at h
      have ho' : (s.m_board.m_nodes n).opened = false := by simpa using ho
      simp only [checkGoal_eq] at h
      by_cases hg : ((openNode A s n (some node)).m_board.m_nodes n).position =
          getGoal (openNode A s n (some node))
      · rw [if_pos hg] at h
        cases hst : storeSolution fuel (openNode A s n (some node)) with
        | none => rw [hst] at h; cases h
        | some r =>
          rw [hst] at h
          cases h
          exact ⟨s, n, hs, List.mem_cons_self _ _, ho', hg, hst⟩
      · rw [if_neg hg] at h
        obtain ⟨x, m, h1, h2, h3, h4, h5⟩ := ih _ (hopen s n hs ho') s' h
        exact ⟨x, m, h1, List.mem_cons_of_mem _ h2, h3, h4, h5⟩

theorem bestFirst_nextStepLoop_opened (A : Env α) (fuel : Nat) (node : Coordinate) :
    ∀ (nbs : List Coordinate) (s : State α),
      (∀ n ∈ nbs, (s.m_board.m_nodes n).opened = true) →
      nextStepLoop A fuel node nbs s = some (false, s) := by
  intro nbs
  induction nbs with
  | nil => intro s _; rfl
  | cons n rest ih =>
    intro s h
    rw [nextStepLoop, if_pos (h n (List.mem_cons_self _ _))]
    exact ih s (fun m hm => h m (List.mem_cons_of_mem _ hm))

/-- A call that returns true on a non-empty frontier reached the goal; `node` is the node at
the back of the sorted frontier. -/
theorem bestFirst_nextStep_found (A : Env α) (fuel : Nat) (s s' : State α) (node : Coordinate)
    (rest : List Coordinate)
    (hs : A.sort (compare A s.m_board) s.m_openNodes = rest ++ [node])
    (hne : s.m_openNodes ≠ []) (h : nextStep A fuel s = some (true, s')) :
    ReachedGoal fuel s node s' := by
  rw [bestFirst_nextStep_concat A fuel s node rest hs hne] at h
  by_cases hg : (s.m_board.m_nodes node).position = s.m_board.m_goal
  · rw [if_pos hg] at h
    cases hst : storeSolution fuel
        { s with nodesClosed := s.nodesClosed + 1, m_openNodes := rest } with
    | none => rw [hst] at h; cases h
    | some r =>
      rw [hst] at h
      cases h
      exact ⟨{ s with nodesClosed := s.nodesClosed + 1, m_openNodes := rest }, node,
        Or.inl rfl, hg, rfl, rfl, hst⟩
  · rw [if_neg hg] at h
    obtain ⟨x, n, h1, h2, h3, h4, h5⟩ := bestFirst_nextStepLoop_found A fuel node
      (DuringCall s)
      (fun x n hx _ => (hx.call_push n (some node)).call_extOnly
        (bestFirst_openNode_extOnly A x n (some node))) _
      { s with nodesClosed := s.nodesClosed + 1, m_openNodes := rest }
      ⟨rfl, rfl, fun _ => rfl, fun _ hc => hc⟩ s' h
    have he := bestFirst_openNode_extOnly A x n (some node)
    have hd := (h1.call_push n (some node)).call_extOnly he
    refine ⟨openNode A x n (some node), n, Or.inr ⟨h2, ?_, ?_, ?_⟩, ?_, hd.1, hd.2.1, h5⟩
    · cases hso : (s.m_board.m_nodes n).opened with
      | false => rfl
      | true =>
        rw [h1.2.2.2 n hso] at h3
        cases h3
    · rw [(he.2.2.2.2.2.2.2.2.2.2 n).2.2.2]
      simp
    · rw [(he.2.2.2.2.2.2.2.2.2.2 n).1]
      simp
    · rw [← hd.2.2.1 n, h4]
      exact hd.2.1

theorem bestFirst_nextStep_last (A : Env α) (fuel : Nat) (s : State α)
    (node : Coordinate) (hs : s.m_openNodes = [node])
    (hone : A.sort (compare A s.m_board) [node] = [node])
    (hg : (s.m_board.m_nodes node).position ≠ s.m_board.m_goal)
    (hall : ∀ n ∈ s.m_board.getNeighbors node [] s.m_diagonals s.m_cutCorners,
      (s.m_board.m_nodes n).opened = true) :
    nextStep A fuel s =
      some (false, { s with nodesClosed := s.nodesClosed + 1, m_openNodes := [] }) := by
  have hsort : A.sort (compare A s.m_board) s.m_openNodes = [] ++ [node] := by
    rw [hs]
    exact hone
  rw [bestFirst_nextStep_concat A fuel s node [] hsort (by rw [hs]; exact List.cons_ne_nil _ _),
    if_neg hg]
  exact bestFirst_nextStepLoop_opened A fuel node _ _ hall

end BestFirstSearch

namespace DepthFirstSearch

open AlgorithmBase

theorem dfs_nextStepLoop_found (fuel : Nat) (node : Coordinate) (I : State → Prop)
    (hopen : ∀ x n, I x → (x.m_board.m_nodes n).opened = false →
      I (pushOpen x n (some node))) :
    ∀ (nbs : List Coordinate) (ch : Bool) (s : State), I s →
      ∀ ch' s', nextStepLoop fuel node nbs ch s = some (true, ch', s') →
        ∃ x n, I x ∧ n ∈ nbs ∧ (x.m_board.m_nodes n).opened = false ∧
          ((pushOpen x n (some node)).m_board.m_nodes n).position =
            getGoal (pushOpen x n (some node)) ∧
          storeSolution fuel (pushOpen x n (some node)) = some s' := by
  intro nbs
  induction nbs with
  | nil =>
    intro ch s _ ch' s' h
    simp [nextStepLoop] at h
  | cons n rest ih =>
    intro ch s hs ch' s' h
    rw [nextStepLoop] at h
    by_cases ho : (s.m_board.m_nodes n).opened = true
    · rw [if_pos ho] at h
      obtain ⟨x, m, h1, h2, h3, h4, h5⟩ := ih ch s hs ch' s' h
      exact ⟨x, m, h1, List.mem_cons_of_mem _ h2, h3, h4, h5⟩
    · rw [if_neg ho] at h
      have ho' : (s.m_board.m_nodes n).opened = false := by simpa using ho
      simp only [dfs_openNode_eq, checkGoal_eq] at h
      by_cases hg : ((pushOpen s n (some node)).m_board.m_nodes n).position =
          getGoal (pushOpen s n (some node))
      · rw [if_pos hg] at h
        cases hst : storeSolution fuel (pushOpen s n (some node)) with
        | none => rw [hst] at h; cases h
        | some r =>
          rw [hst] at h
          cases h
          exact ⟨s, n, hs, List.mem_cons_self _ _, ho', hg, hst⟩
      · rw [if_neg hg] at h
        obtain ⟨x, m, h1, h2, h3, h4, h5⟩ := ih true _ (hopen s n hs ho') ch' s' h
        exact ⟨x, m, h1, List.mem_cons_of_mem _ h2, h3, h4, h5⟩

theorem dfs_nextStepLoop_opened (fuel : Nat) (node : Coordinate) :
    ∀ (nbs : List Coordinate) (ch : Bool) (s : State),
      (∀ n ∈ nbs, (s.m_board.m_nodes n).opened = true) →
      nextStepLoop fuel node nbs ch s = some (false, ch, s) := by
  intro nbs
  induction nbs with
  | nil => intro ch s _; rfl
  | cons n rest ih =>
    intro ch s h
    rw [nextStepLoop, if_pos (h n (List.mem_cons_self _ _))]
    exact ih ch s (fun m hm => h m (List.mem_cons_of_mem _ hm))

/-- A call that returns true on a non-empty stack reached the goal; `node` is the node on
top of the stack. -/
theorem dfs_nextStep_found (fuel : Nat) (s s' : State) (node : Coordinate)
    (rest : List Coordinate) (hs : s.m_openNodes = rest ++ [node])
    (h : nextStep fuel s = some (true, s')) : ReachedGoal fuel s node s' := by
  rw [dfs_nextStep_concat fuel s node rest hs] at h
  by_cases hg : (s.m_board.m_nodes node).position = s.m_board.m_goal
  · rw [if_pos hg] at h
    cases hst : storeSolution fuel s with
    | none => rw [hst] at h; cases h
    | some r =>
      rw [hst] at h
      cases h
      exact ⟨s, node, Or.inl rfl, hg, rfl, rfl, hst⟩
  · rw [if_neg hg] at h
    cases hl : nextStepLoop fuel node
        (s.m_board.getNeighbors node [] s.m_diagonals s.m_cutCorners) false s with
    | none => rw [hl] at h; cases h
    | some r =>
      obtain ⟨b, ch, y⟩ := r
      rw [hl] at h
      cases b with
      | true =>
        simp only [Option.some.injEq, Prod.mk.injEq, true_and] at h
        subst h
        obtain ⟨x, n, h1, h2, h3, h4, h5⟩ := dfs_nextStepLoop_found fuel node (DuringCall s)
          (fun x n hx _ => hx.call_push n (some node)) _ false s
          ⟨rfl, rfl, fun _ => rfl, fun _ hc => hc⟩ ch y hl
        exact ReachedGoal.of_push h1 h2 h3 h4 h5
      | false =>
        simp only at h
        cases ch with
        | true => simp at h
        | false =>
          simp only [Bool.not_false, if_true] at h
          cases hc : closeNode y with
          | none => rw [hc] at h; cases h
          | some z => rw [hc] at h; cases h

theorem dfs_nextStep_last (fuel : Nat) (s : State) (node : Coordinate)
    (hs : s.m_openNodes = [node])
    (hg : (s.m_board.m_nodes node).position ≠ s.m_board.m_goal)
    (hall : ∀ n ∈ s.m_board.getNeighbors node [] s.m_diagonals s.m_cutCorners,
      (s.m_board.m_nodes n).opened = true) :
    nextStep fuel s =
      some (false, { s with nodesClosed := s.nodesClosed + 1, m_openNodes := [] }) := by
  have hs' : s.m_openNodes = [] ++ [node] := hs
  rw [dfs_nextStep_concat fuel s node [] hs', if_neg hg,
    dfs_nextStepLoop_opened fuel node _ false s hall]
  simp [closeNode, hs]

end DepthFirstSearch

namespace AStar

open AlgorithmBase

variable {α : Type}

theorem DuringCall_updateNode (A : Env α) {s x : State α} (h : DuringCall s x)
    (n node : Coordinate) : DuringCall s (updateNode A x n node) := by
  refine ⟨(astar_updateNode_solution A x n node).trans h.1, ?_, fun c => ?_, fun c hc => ?_⟩
  · have := (astar_updateNode_sameGrid A x n node).2.2.1
    rw [this]
    exact h.2.1
  · rw [← h.2.2.1 c]
    rcases astar_updateNode_m_nodes A x n node c with e | ⟨_, _, _, e⟩ <;> rw [e]
  · rw [astar_updateNode_opened]
    exact h.2.2.2 c hc

theorem astar_nextStepLoop_found (A : Env α) (fuel : Nat) (node : Coordinate)
    (I : State α → Prop)
    (hupdate : ∀ x n, I x → I (updateNode A x n node))
    (hopen : ∀ x n, I x → (x.m_board.m_nodes n).opened = false →
      I (pushOpen x n (some node))) :
    ∀ (nbs : List Coordinate) (s : State α), I s →
      ∀ s', nextStepLoop A fuel node nbs s = some (true, s') →
        ∃ x n, I x ∧ n ∈ nbs ∧ (x.m_board.m_nodes n).opened = false ∧
          ((pushOpen x n (some node)).m_board.m_nodes n).position =
            getGoal (pushOpen x n (some node)) ∧
          storeSolution fuel (pushOpen x n (some node)) = some s' := by
  intro nbs
  induction nbs with
  | nil =>
    intro s _ s' h
    simp [nextStepLoop] at h
  | cons n rest ih =>
    intro s hs s' h
    have hrec : ∀ x, I x → nextStepLoop A fuel node rest x = some (true, s') →
        ∃ x n', I x ∧ n' ∈ n :: rest ∧ (x.m_board.m_nodes n').opened = false ∧
          ((pushOpen x n' (some node)).m_board.m_nodes n').position =
            getGoal (pushOpen x n' (some node)) ∧
          storeSolution fuel (pushOpen x n' (some node)) = some s' := by
      intro x hx hl
      obtain ⟨y, m, h1, h2, h3, h4, h5⟩ := ih x hx s' hl
      exact ⟨y, m, h1, List.mem_cons_of_mem _ h2, h3, h4, h5⟩
    rw [nextStepLoop] at h
    by_cases hc : (s.m_board.m_nodes n).ext.closed = true
    · rw [if_pos hc] at h
      exact hrec s hs h
    · rw [if_neg hc] at h
      simp only at h
      have hU := hupdate s n hs
      by_cases ho : ((updateNode A s n node).m_board.m_nodes n).opened = true
      · rw [if_pos ho] at h
        exact hrec _ hU h
      · rw [if_neg ho] at h
        have ho' : ((updateNode A s n node).m_board.m_nodes n).opened = false := by
          simpa using ho
        simp only [astar_openNode_eq, checkGoal_eq] at h
        by_cases hg : ((pushOpen (updateNode A s n node) n (some node)).m_board.m_nodes
            n).position = getGoal (pushOpen (updateNode A s n node) n (some node))
        · rw [if_pos hg] at h
          cases hst : storeSolution fuel (pushOpen (updateNode A s n node) n (some node)) with
          | none => rw [hst] at h; cases h
          | some r =>
            rw [hst] at h
            cases h
            exact ⟨_, n, hU, List.mem_cons_self _ _, ho', hg, hst⟩
        · rw [if_neg hg] at h
          exact hrec _ (hopen _ n hU ho') h

theorem DuringCall_closeWith (s : State α) (node : Coordinate) (rest : List Coordinate) :
    DuringCall s (closeWith s node rest) :=
  ⟨rfl, rfl, fun c => closeWith_position s node rest c, fun c hc => by
    rw [closeWith_opened]
    exact hc⟩

/-- A call that returns true on a non-empty frontier reached the goal; `node` is the node at
the back of the sorted frontier. -/
theorem astar_nextStep_found (A : Env α) (fuel : Nat) (s s' : State α) (node : Coordinate)
    (rest : List Coordinate)
    (hs : A.sort (compare A s.m_board) s.m_openNodes = rest ++ [node])
    (hne : s.m_openNodes ≠ []) (h : nextStep A fuel s = some (true, s')) :
    ReachedGoal fuel s node s' := by
  rw [astar_nextStep_concat A fuel s node rest hs hne] at h
  by_cases hg : (s.m_board.m_nodes node).position = s.m_board.m_goal
  · rw [if_pos hg] at h
    cases hst : storeSolution fuel (closeWith s node rest) with
    | none => rw [hst] at h; cases h
    | some r =>
      rw [hst] at h
      cases h
      exact ⟨closeWith s node rest, node, Or.inl rfl, hg, rfl, rfl, hst⟩
  · rw [if_neg hg] at h
    obtain ⟨x, n, h1, h2, h3, h4, h5⟩ := astar_nextStepLoop_found A fuel node (DuringCall s)
      (fun x n hx => DuringCall_updateNode A hx n node)
      (fun x n hx _ => hx.call_push n (some node)) _ _
      (DuringCall_closeWith s node rest) s' h
    exact ReachedGoal.of_push h1 h2 h3 h4 h5

/-- The neighbor loop when every neighbor is closed or opened: no node is opened, the
frontier and the counters are left as they are, and the loop ends without the goal. -/
theorem astar_nextStepLoop_allOpened (A : Env α) (fuel : Nat) (node : Coordinate) :
    ∀ (nbs : List Coordinate) (s : State α),
      (∀ n ∈ nbs, (s.m_board.m_nodes n).ext.closed = true ∨
        (s.m_board.m_nodes n).opened = true) →
      ∃ x, nextStepLoop A fuel node nbs s = some (false, x) ∧
        x.m_openNodes = s.m_openNodes ∧ x.solution = s.solution ∧
        x.nodesOpened = s.nodesOpened ∧ x.nodesClosed = s.nodesClosed := by
  intro nbs
  induction nbs with
  | nil => intro s _; exact ⟨s, rfl, rfl, rfl, rfl, rfl⟩
  | cons n rest ih =>
    intro s h
    rw [nextStepLoop]
    by_cases hc : (s.m_board.m_nodes n).ext.closed = true
    · rw [if_pos hc]
      exact ih s (fun m hm => h m (List.mem_cons_of_mem _ hm))
    · rw [if_neg hc]
      have ho : (s.m_board.m_nodes n).opened = true := by
        rcases h n (List.mem_cons_self _ _) with h1 | h1
        · exact absurd h1 hc
        · exact h1
      have ho' : ((updateNode A s n node).m_board.m_nodes n).opened = true := by
        rw [astar_updateNode_opened]
        exact ho
      simp only
      rw [if_pos ho']
      obtain ⟨x, e1, e2, e3, e4, e5⟩ := ih (updateNode A s n node) (fun m hm => by
        rw [astar_updateNode_opened, astar_updateNode_closed]
        exact h m (List.mem_cons_of_mem _ hm))
      have hf := astar_updateNode_frame A s n node
      exact ⟨x, e1, e2.trans hf.2.2.2.2.2.2.1, e3.trans hf.1, e4.trans hf.2.1,
        e5.trans hf.2.2.1⟩

/-- The call that takes the last node from the frontier, when the node is not the goal and
all its neighbors are closed or opened: it returns false and leaves the frontier empty. -/
theorem astar_nextStep_last (A : Env α) (fuel : Nat) (s : State α)
    (node : Coordinate) (hs : s.m_openNodes = [node])
    (hone : A.sort (compare A s.m_board) [node] = [node])
    (hg : (s.m_board.m_nodes node).position ≠ s.m_board.m_goal)
    (hall : ∀ n ∈ s.m_board.getNeighbors node [] s.m_diagonals s.m_cutCorners,
      (s.m_board.m_nodes n).ext.closed = true ∨ (s.m_board.m_nodes n).opened = true) :
    ∃ s', nextStep A fuel s = some (false, s') ∧ s'.m_openNodes = [] ∧
      s'.solution = s.solution ∧ s'.nodesOpened = s.nodesOpened ∧
      s'.nodesClosed = s.nodesClosed + 1 := by
  have hsort : A.sort (compare A s.m_board) s.m_openNodes = [] ++ [node] := by
    rw [hs]
    exact hone
  rw [astar_nextStep_concat A fuel s node [] hsort (by rw [hs]; exact List.cons_ne_nil _ _),
    if_neg hg]
  obtain ⟨x, e1, e2, e3, e4, e5⟩ := astar_nextStepLoop_allOpened A fuel node
    (s.m_board.getNeighbors node [] s.m_diagonals s.m_cutCorners) (closeWith s node [])
    (fun n hn => by
      rw [closeWith_opened]
      rcases hall n hn with h1 | h1
      · exact Or.inl ((closeWith_closed s node [] n).2 (Or.inr h1))
      · exact Or.inr h1)
  exact ⟨x, e1, e2, e3, e4, e5⟩

end AStar

/-- The `std::sort` of the C++ library leaves a vector of one element as it is, whatever the
comparator. -/
theorem stdEnv_sort_singleton (cmp : Coordinate → Coordinate → Bool) (c : Coordinate) :
    stdEnv.sort cmp [c] = [c] := by
  show (StdSort.sort cmp [c]).getD [c] = [c]
  have : StdSort.sort cmp [c] = some [c] := by
    set_option maxRecDepth 100000 in
    rfl
  rw [this]
  rfl

namespace Board

variable {E : Type}

/-- A list of coordinates that holds `a` and, with each of its coordinates, all the
neighbors `getNeighbors` returns for it, holds every coordinate that can be reached from
`a`. -/
theorem not_reach_of_closed_list (b : Board E) (d cc : Bool) (l : List Coordinate)
    (a c : Coordinate) (ha : a ∈ l)
    (hstep : ∀ x ∈ l, ∀ y ∈ b.getNeighbors x [] d cc, y ∈ l) (hc : c ∉ l) :
    ¬ b.Reach d cc a c := by
  intro h
  have key : ∀ y, b.Reach d cc a y → y ∈ l := by
    intro y hy
    induction hy with
    | refl => exact ha
    | tail _ hxy ih => exact hstep _ ih _ hxy
  exact hc (key c h)

/-- A list of moves, each to a neighbor `getNeighbors` returns, reaches its last
coordinate. -/
theorem reach_of_moves (b : Board E) (d cc : Bool) :
    ∀ (l : List Coordinate) (a c : Coordinate),
      (∀ p ∈ (a :: l).zip l, p.2 ∈ b.getNeighbors p.1 [] d cc) →
      (a :: l).getLast? = some c → b.Reach d cc a c := by
  intro l
  induction l with
  | nil =>
    intro a c _ h2
    simp at h2
    rw [h2]
    exact Relation.ReflTransGen.refl
  | cons x xs ih =>
    intro a c h1 h2
    have hx : x ∈ b.getNeighbors a [] d cc := h1 (a, x) (by simp)
    have hr : b.Reach d cc x c := by
      apply ih x c
      · intro p hp
        exact h1 p (by
          rw [List.zip_cons_cons]
          exact List.mem_cons_of_mem _ hp)
      · rw [List.getLast?_cons_cons] at h2
        exact h2
    exact Relation.ReflTransGen.head hx hr

end Board

/-! ## `std::sort` on short vectors -/

namespace StdSort

theorem rd_neg (v : List Coordinate) (i : Int) (hi : i < 0) : rd v i = none := by
  unfold rd
  rw [if_pos hi]

end StdSort
namespace StdSort

end StdSort
namespace StdSort

end StdSort
namespace BestFirstSearch

open AlgorithmBase

variable {α : Type}

end BestFirstSearch

/-! ## Main theorems -/

open AlgorithmBase

/-- C1: on a well-formed board, for an in-bounds position `from_` and each of its eight
surrounding coordinates `to_ = from_ + (dx, dy)`, the node at `to_` is in
`getNeighbors(from_, diagonals, cutCorners)` if and only if `to_` is in bounds, is not an
obstacle, and the move is cardinal or diagonals are enabled and both flanking cells
`(from_.x, to_.y)`, `(to_.x, from_.y)` are free, or corners may be cut and one of them is
free. In particular, with obstacles at `(x, y)` and `(x+1, y+1)` and `cutCorners = false`,
`(x+1, y)` and `(x, y+1)` are not neighbors of each other. -/
theorem C1_getNeighbors_iff_accessible {E : Type} (b : Board E) (hwf : b.WellFormed)
    (diagonals cutCorners : Bool) :
    (∀ (from_ : Coordinate) (dx dy : Int), b.isValidNode from_ = true →
      (dx = -1 ∨ dx = 0 ∨ dx = 1) → (dy = -1 ∨ dy = 0 ∨ dy = 1) → ¬ (dx = 0 ∧ dy = 0) →
      ((from_.1 + dx, from_.2 + dy) ∈ b.getNeighbors from_ [] diagonals cutCorners ↔
        (b.isValidNode (from_.1 + dx, from_.2 + dy) = true ∧
         b.isObstacle (from_.1 + dx, from_.2 + dy) = false ∧
         ((dx = 0 ∨ dy = 0) ∨
          (diagonals = true ∧
            ((b.isObstacle (from_.1, from_.2 + dy) = false ∧
              b.isObstacle (from_.1 + dx, from_.2) = false) ∨
             (cutCorners = true ∧
              (b.isObstacle (from_.1, from_.2 + dy) = false ∨
               b.isObstacle (from_.1 + dx, from_.2) = false)))))))) ∧
    (∀ x y : Int, b.isObstacle (x, y) = true → b.isObstacle (x + 1, y + 1) = true →
      (x, y + 1) ∉ b.getNeighbors (x + 1, y) [] diagonals false ∧
      (x + 1, y) ∉ b.getNeighbors (x, y + 1) [] diagonals false) := by
  have main : ∀ (cc : Bool) (from_ : Coordinate) (dx dy : Int), b.isValidNode from_ = true →
      (dx = -1 ∨ dx = 0 ∨ dx = 1) → (dy = -1 ∨ dy = 0 ∨ dy = 1) → ¬ (dx = 0 ∧ dy = 0) →
      ((from_.1 + dx, from_.2 + dy) ∈ b.getNeighbors from_ [] diagonals cc ↔
        (b.isValidNode (from_.1 + dx, from_.2 + dy) = true ∧
         b.isObstacle (from_.1 + dx, from_.2 + dy) = false ∧
         ((dx = 0 ∨ dy = 0) ∨
          (diagonals = true ∧
            ((b.isObstacle (from_.1, from_.2 + dy) = false ∧
              b.isObstacle (from_.1 + dx, from_.2) = false) ∨
             (cc = true ∧
              (b.isObstacle (from_.1, from_.2 + dy) = false ∨
               b.isObstacle (from_.1 + dx, from_.2) = false))))))) := by
    intro cutCorners from_ dx dy hf hdx hdy hne
    obtain ⟨f1, f2⟩ := from_
    have hp : (b.m_nodes (f1, f2)).position = (f1, f2) := hwf _ hf
    by_cases V : b.isValidNode (f1 + dx, f2 + dy) = true
    · have F1 : b.isValidNode (f1, f2 + dy) = true := by
        simp only [Board.isValidNode, Bool.and_eq_true, decide_eq_true_eq] at hf V ⊢
        omega
      have F2 : b.isValidNode (f1 + dx, f2) = true := by
        simp only [Board.isValidNode, Bool.and_eq_true, decide_eq_true_eq] at hf V ⊢
        omega
      rcases hdx with rfl | rfl | rfl <;> rcases hdy with rfl | rfl | rfl <;>
        try (exfalso; simp at hne; done)
      all_goals
        cases diagonals <;>
        simp only [Board.getNeighbors, Board.getNeighborsWithDiagonals_eq,
          Board.getNeighborsWithoutDiagonals_eq,
          List.nil_append, List.mem_append, Board.mem_candidate, hp, Bool.not_true,
          Bool.not_false, Bool.false_eq_true, if_false, if_true, Prod.mk.injEq,
          Board.isAccessible_iff, Board.isObstacle,
          sub_eq_add_neg, add_zero, add_right_inj, add_right_eq_self, self_eq_add_right,
          V, F1, F2, hf, true_and, Bool.true_and, and_true]
      all_goals simp
    · constructor
      · intro h
        exact absurd (Board.isValidNode_of_mem_getNeighbors _ _ _ _ _ h) V
      · intro h
        exact absurd h.1 V
  refine ⟨main cutCorners, ?_⟩
  intro x y h1 h2
  have hv1 : b.isValidNode (x + 1, y) = true := by
    simp only [Board.isObstacle, Board.isValidNode, Bool.and_eq_true, decide_eq_true_eq]
      at h1 h2 ⊢
    omega
  have hv2 : b.isValidNode (x, y + 1) = true := by
    simp only [Board.isObstacle, Board.isValidNode, Bool.and_eq_true, decide_eq_true_eq]
      at h1 h2 ⊢
    omega
  have m1 := main false (x + 1, y) (-1) 1 hv1 (by simp) (by simp) (by simp)
  have m2 := main false (x, y + 1) 1 (-1) hv2 (by simp) (by simp) (by simp)
  simp only [add_neg_cancel_right] at m1 m2
  constructor
  · rw [m1]
    simp [h1, h2]
  · rw [m2]
    simp [h1, h2]

/-- C1 at a concrete board: 3 x 2, obstacles at (0,0) and (1,1), diagonals enabled, corners
not cut. -/
theorem C1_getNeighbors_iff_accessible_witness :
    (((Board.create (3, 2) (2, 0) (2, 1) ()).setObstacle (0, 0) true).setObstacle
        (1, 1) true).WellFormed ∧
    (0, 1) ∉ (((Board.create (3, 2) (2, 0) (2, 1) ()).setObstacle (0, 0) true).setObstacle
        (1, 1) true).getNeighbors (1, 0) [] true false ∧
    (1, 0) ∉ (((Board.create (3, 2) (2, 0) (2, 1) ()).setObstacle (0, 0) true).setObstacle
        (1, 1) true).getNeighbors (0, 1) [] true false :=
  ⟨Board.wellFormed_setObstacle _ (Board.wellFormed_setObstacle _
      (Board.wellFormed_create _ _ _ _) _ _) _ _,
    (C1_getNeighbors_iff_accessible _
      (Board.wellFormed_setObstacle _ (Board.wellFormed_setObstacle _
        (Board.wellFormed_create _ _ _ _) _ _) _ _) true false).2 0 0 (by decide) (by decide)⟩

/-- C10: the result of `getNeighbors` is a duplicate-free subsequence of North, East, South,
West, North West, North East, South East, South West, taken relative to the position
`(x, y)` of the node; with diagonals disabled it is a subsequence of the four cardinal
entries, whatever `cutCorners` is. -/
theorem C10_getNeighbors_fixed_order {E : Type} (b : Board E) (node : Coordinate)
    (diagonals cutCorners : Bool) :
    (b.getNeighbors node [] diagonals cutCorners).Sublist
      [((b.m_nodes node).position.1, (b.m_nodes node).position.2 - 1),
       ((b.m_nodes node).position.1 + 1, (b.m_nodes node).position.2),
       ((b.m_nodes node).position.1, (b.m_nodes node).position.2 + 1),
       ((b.m_nodes node).position.1 - 1, (b.m_nodes node).position.2),
       ((b.m_nodes node).position.1 - 1, (b.m_nodes node).position.2 - 1),
       ((b.m_nodes node).position.1 + 1, (b.m_nodes node).position.2 - 1),
       ((b.m_nodes node).position.1 + 1, (b.m_nodes node).position.2 + 1),
       ((b.m_nodes node).position.1 - 1, (b.m_nodes node).position.2 + 1)] ∧
    (b.getNeighbors node [] diagonals cutCorners).Nodup ∧
    (diagonals = false →
      (b.getNeighbors node [] diagonals cutCorners).Sublist
        [((b.m_nodes node).position.1, (b.m_nodes node).position.2 - 1),
         ((b.m_nodes node).position.1 + 1, (b.m_nodes node).position.2),
         ((b.m_nodes node).position.1, (b.m_nodes node).position.2 + 1),
         ((b.m_nodes node).position.1 - 1, (b.m_nodes node).position.2)]) := by
  have h8 : (b.getNeighbors node [] diagonals cutCorners).Sublist
      [((b.m_nodes node).position.1, (b.m_nodes node).position.2 - 1),
       ((b.m_nodes node).position.1 + 1, (b.m_nodes node).position.2),
       ((b.m_nodes node).position.1, (b.m_nodes node).position.2 + 1),
       ((b.m_nodes node).position.1 - 1, (b.m_nodes node).position.2),
       ((b.m_nodes node).position.1 - 1, (b.m_nodes node).position.2 - 1),
       ((b.m_nodes node).position.1 + 1, (b.m_nodes node).position.2 - 1),
       ((b.m_nodes node).position.1 + 1, (b.m_nodes node).position.2 + 1),
       ((b.m_nodes node).position.1 - 1, (b.m_nodes node).position.2 + 1)] := by
    unfold Board.getNeighbors
    split
    · exact (Board.getNeighborsWithoutDiagonals_sublist b node).trans (by simp)
    · exact Board.getNeighborsWithDiagonals_sublist b node cutCorners
  refine ⟨h8, ?_, ?_⟩
  · refine h8.nodup ?_
    generalize (b.m_nodes node).position = p
    obtain ⟨x, y⟩ := p
    simp only [List.nodup_cons, List.mem_cons, Prod.mk.injEq, List.mem_singleton,
      List.not_mem_nil, List.nodup_nil, not_or, not_and, or_false, and_true, not_false_eq_true]
    omega
  · intro hd
    subst hd
    simpa [Board.getNeighbors] using Board.getNeighborsWithoutDiagonals_sublist b node

set_option maxRecDepth 1000000 in
/-- C3 holds for A*, Breadth-First and Depth-First and fails for Best-First. For A*,
Breadth-First and Depth-First, every setting of diagonals and cutCorners and every
(well-formed) board with in-bounds start and goal, start different from goal, on which the
goal cannot be reached from the start by accessible moves: `init` succeeds, and repeating
`nextStep` reaches a call that returns true, at which point the solution is empty and the
frontier is empty (for every prior state of the instance and every fuel; `std::sort` is
assumed to permute, as it does under the comparator of A*, a strict weak ordering).
Best-First, with the `std::sort` of the C++ library, on the 17 x 3 board with start `(1,1)`,
goal `(16,1)` and the obstacles `(15,0)`, `(15,1)`, `(15,2)`, Manhattan heuristic, diagonals
and cutCorners enabled: the goal cannot be reached; the first 13 calls of `nextStep` return
false and leave 45 nodes opened, 13 closed and a frontier of 32 nodes; in the 14th call
`std::sort`, given the comparator `h >= h` of `sortNodes`, reads outside the vector, so no
call returns true. -/
theorem C3_unreachable_goal_except_bestFirst {α : Type} (A : Env α) (hA : A.SortPermutes)
    (heuristic : Heuristic) (diagonals cutCorners : Bool) (fuel : Nat) :
    (∀ s0 : AStar.State α, s0.m_board.WellFormed →
      s0.m_board.isValidNode s0.m_board.m_start = true →
      s0.m_board.isValidNode s0.m_board.m_goal = true →
      s0.m_board.m_start ≠ s0.m_board.m_goal →
      ¬ s0.m_board.Reach diagonals cutCorners s0.m_board.m_start s0.m_board.m_goal →
      ∃ s1, AStar.init A s0 heuristic diagonals cutCorners = some s1 ∧
        ∃ n s s', stepsFalse (AStar.nextStep A fuel) n s1 = some s ∧
          AStar.nextStep A fuel s = some (true, s') ∧
          s'.solution = [] ∧ s'.m_openNodes = []) ∧
    (∀ s0 : BreadthFirstSearch.State, s0.m_board.WellFormed →
      s0.m_board.isValidNode s0.m_board.m_start = true →
      s0.m_board.isValidNode s0.m_board.m_goal = true →
      s0.m_board.m_start ≠ s0.m_board.m_goal →
      ¬ s0.m_board.Reach diagonals cutCorners s0.m_board.m_start s0.m_board.m_goal →
      ∃ s1, BreadthFirstSearch.init s0 heuristic diagonals cutCorners = some s1 ∧
        ∃ n s s', stepsFalse (BreadthFirstSearch.nextStep fuel) n s1 = some s ∧
          BreadthFirstSearch.nextStep fuel s = some (true, s') ∧
          s'.solution = [] ∧ s'.m_openNodes = []) ∧
    (∀ s0 : DepthFirstSearch.State, s0.m_board.WellFormed →
      s0.m_board.isValidNode s0.m_board.m_start = true →
      s0.m_board.isValidNode s0.m_board.m_goal = true →
      s0.m_board.m_start ≠ s0.m_board.m_goal →
      ¬ s0.m_board.Reach diagonals cutCorners s0.m_board.m_start s0.m_board.m_goal →
      ∃ s1, DepthFirstSearch.init s0 heuristic diagonals cutCorners = some s1 ∧
        ∃ n s s', stepsFalse (DepthFirstSearch.nextStep fuel) n s1 = some s ∧
          DepthFirstSearch.nextStep fuel s = some (true, s') ∧
          s'.solution = [] ∧ s'.m_openNodes = []) ∧
    (¬ (setObstacles (BestFirstSearch.create stdEnv (17, 3) (1, 1) (16, 1))
        [((15, 0), true), ((15, 1), true), ((15, 2), true)]).m_board.Reach true true
        (1, 1) (16, 1) ∧
      ((BestFirstSearch.init stdEnv
          (setObstacles (BestFirstSearch.create stdEnv (17, 3) (1, 1) (16, 1))
            [((15, 0), true), ((15, 1), true), ((15, 2), true)])
          Heuristic.Manhattan true true).bind (BestFirstSearch.stepsInBounds 52 13)).map
        (fun s => (s.nodesOpened, s.nodesClosed, s.m_openNodes,
          StdSort.sort (BestFirstSearch.compare stdEnv s.m_board) s.m_openNodes)) =
      some (45, 13,
        [(0, 2), (0, 0), (1, 0), (1, 2), (0, 1), (2, 0), (2, 2), (3, 0), (3, 2), (4, 2),
        (4, 0), (5, 0), (5, 2), (6, 2), (6, 0), (7, 2), (7, 0), (8, 0), (8, 2), (9, 2), (9, 0),
        (10, 0), (10, 2), (11, 2), (11, 0), (12, 0), (12, 2), (13, 2), (13, 0), (14, 1), (14, 0),
        (14, 2)],
        none)) := by
  refine ⟨?_, ?_, ?_, ?_⟩
  · intro s0 hw hvs _ _ hun
    obtain ⟨s1, h1, h2, _, _⟩ := AStar.astar_init_some A s0 heuristic diagonals cutCorners hvs
    exact ⟨s1, h1, run_unreachable _ (RunInv s0.m_board diagonals cutCorners)
      (AStar.astar_nextStep_unreachable A hA s0.m_board hw diagonals cutCorners hun fuel)
      (AStar.astar_nextStep_measure A hA fuel) (fun _ h => h.sol) s1 h2⟩
  · intro s0 hw hvs _ _ hun
    obtain ⟨s1, h1, h2, _, _⟩ :=
      BreadthFirstSearch.bfs_init_some s0 heuristic diagonals cutCorners hvs
    exact ⟨s1, h1, run_unreachable _ (RunInv s0.m_board diagonals cutCorners)
      (BreadthFirstSearch.bfs_nextStep_unreachable s0.m_board hw diagonals cutCorners hun fuel)
      (BreadthFirstSearch.bfs_nextStep_measure fuel) (fun _ h => h.sol) s1 h2⟩
  · intro s0 hw hvs _ _ hun
    obtain ⟨s1, h1, h2, _, _⟩ :=
      DepthFirstSearch.dfs_init_some s0 heuristic diagonals cutCorners hvs
    exact ⟨s1, h1, run_unreachable _ (RunInv s0.m_board diagonals cutCorners)
      (DepthFirstSearch.dfs_nextStep_unreachable s0.m_board hw diagonals cutCorners hun fuel)
      (DepthFirstSearch.dfs_nextStep_measure fuel) (fun _ h => h.sol) s1 h2⟩
  · exact ⟨Board.not_reach_of_closed_list _ true true
      ((List.range 15).flatMap (fun i => (List.range 3).map (fun j => ((i : Int), (j : Int)))))
      (1, 1) (16, 1) (by decide) (by decide) (by decide), rfl⟩

set_option maxRecDepth 1000000 in
/-- C4 holds for A*, Breadth-First and Depth-First and fails for Best-First. For A*,
Breadth-First and Depth-First and every board size, in-bounds start and goal, and sequence
of `setObstacle` calls on the freshly constructed instance, `init` succeeds and, when
`storeSolution` is given more fuel than the board has nodes, there is an `n`, at most twice
the number of nodes, such that the first `n` calls of `nextStep` return false and the next
call returns true; `complete` then returns (`std::sort` is assumed to permute, as it does
under the comparator of A*, a strict weak ordering). Best-First, with the `std::sort` of the
C++ library, on the board of `main.cpp`, 25 x 5 with start `(1,2)` and goal `(23,2)`, no
obstacles, Manhattan heuristic, diagonals and cutCorners enabled: the first 13 calls of
`nextStep` return false and leave 45 nodes opened, 13 closed and a frontier of 32 nodes; in
the 14th call `std::sort`, given the comparator `h >= h` of `sortNodes`, reads outside the
vector, so `complete()` does not return. -/
theorem C4_complete_terminates_except_bestFirst {α : Type} (A : Env α) (hA : A.SortPermutes)
    (size start goal : Coordinate) (obs : List (Coordinate × Bool)) (heuristic : Heuristic)
    (diagonals cutCorners : Bool) (fuel : Nat) (hstart : InBounds size start)
    (_hgoal : InBounds size goal) (hfuel : size.1.toNat * size.2.toNat < fuel) :
    (∃ s1, AStar.init A (setObstacles (AStar.create A size start goal) obs) heuristic
        diagonals cutCorners = some s1 ∧
      ∃ n s s', n ≤ 2 * (size.1.toNat * size.2.toNat) ∧
        stepsFalse (AStar.nextStep A fuel) n s1 = some s ∧
        AStar.nextStep A fuel s = some (true, s') ∧
        complete (AStar.nextStep A fuel) (n + 1) s1 = some s') ∧
    (∃ s1, BreadthFirstSearch.init (setObstacles (BreadthFirstSearch.create size start goal) obs)
        heuristic diagonals cutCorners = some s1 ∧
      ∃ n s s', n ≤ 2 * (size.1.toNat * size.2.toNat) ∧
        stepsFalse (BreadthFirstSearch.nextStep fuel) n s1 = some s ∧
        BreadthFirstSearch.nextStep fuel s = some (true, s') ∧
        complete (BreadthFirstSearch.nextStep fuel) (n + 1) s1 = some s') ∧
    (∃ s1, DepthFirstSearch.init (setObstacles (DepthFirstSearch.create size start goal) obs)
        heuristic diagonals cutCorners = some s1 ∧
      ∃ n s s', n ≤ 2 * (size.1.toNat * size.2.toNat) ∧
        stepsFalse (DepthFirstSearch.nextStep fuel) n s1 = some s ∧
        DepthFirstSearch.nextStep fuel s = some (true, s') ∧
        complete (DepthFirstSearch.nextStep fuel) (n + 1) s1 = some s') ∧
    ((BestFirstSearch.init stdEnv (BestFirstSearch.create stdEnv (25, 5) (1, 2) (23, 2))
        Heuristic.Manhattan true true).bind (BestFirstSearch.stepsInBounds 126 13)).map
      (fun s => (s.nodesOpened, s.nodesClosed, s.m_openNodes,
        StdSort.sort (BestFirstSearch.compare stdEnv s.m_board) s.m_openNodes)) =
    some (45, 13,
      [(0, 3), (0, 1), (1, 1), (1, 3), (0, 2), (2, 1), (2, 3), (3, 1), (3, 3), (4, 3),
      (4, 1), (5, 1), (5, 3), (6, 3), (6, 1), (7, 3), (7, 1), (8, 1), (8, 3), (9, 3), (9, 1),
      (10, 1), (10, 3), (11, 3), (11, 1), (12, 1), (12, 3), (13, 3), (13, 1), (14, 2), (14, 1),
      (14, 3)],
      none) := by
  refine ⟨?_, ?_, ?_, ?_⟩
  · have hp := (AStar.astar_pristineA_create A size start goal).pristineA_setObstacles obs
    obtain ⟨_, b2, b3, b4, b5⟩ := setObstacles_board (AStar.create A size start goal) obs
      size start goal rfl rfl rfl
    obtain ⟨s1, h1, h2, h3, h4⟩ := AStar.astar_init_some A _ heuristic diagonals cutCorners
      (b5 hstart)
    obtain ⟨rk, hk⟩ := h4 hp
    obtain ⟨⟨n, s, s', c1, c2, c3, c4⟩, _⟩ := run_fresh (AStar.nextStep A fuel)
      (AStar.FreshInv _ diagonals cutCorners) start goal
      (fun s hs => by
        have := AStar.astar_nextStep_fresh A hA _ hp.1.2.1 (b5 hstart) diagonals cutCorners fuel
          (by rw [b4]; exact hfuel) s hs
        rwa [b2, b3] at this)
      (AStar.astar_nextStep_measure A hA fuel) s1 ⟨h2, rk, hk⟩
    refine ⟨s1, h1, n, s, s', ?_, c2, c3, c4⟩
    have hm : stepMeasure s1 ≤ 2 * s1.m_board.nodeCount := by
      have := hk.count
      have h5 : s1.m_openNodes.length = 1 := by rw [h3.2.2.1]; rfl
      unfold stepMeasure
      rw [h3.2.1] at this
      omega
    rw [nodeCount_of_sameGrid h2.grid, b4] at hm
    omega
  · have hp := (BreadthFirstSearch.bfs_pristine_create size start goal).pristine_setObstacles obs
    obtain ⟨_, b2, b3, b4, b5⟩ := setObstacles_board (BreadthFirstSearch.create size start goal)
      obs size start goal rfl rfl rfl
    obtain ⟨s1, h1, h2, h3, h4⟩ := BreadthFirstSearch.bfs_init_some _ heuristic diagonals
      cutCorners (b5 hstart)
    obtain ⟨rk, hk⟩ := h4 hp
    obtain ⟨⟨n, s, s', c1, c2, c3, c4⟩, _⟩ := run_fresh (BreadthFirstSearch.nextStep fuel)
      (FreshInv _ diagonals cutCorners) start goal
      (fun s hs => by
        have := BreadthFirstSearch.bfs_nextStep_fresh _ hp.2.1 (b5 hstart) diagonals cutCorners
          fuel (by rw [b4]; exact hfuel) s hs
        rwa [b2, b3] at this)
      (BreadthFirstSearch.bfs_nextStep_measure fuel) s1 ⟨h2, rk, hk⟩
    refine ⟨s1, h1, n, s, s', ?_, c2, c3, c4⟩
    have hm := stepMeasure_of_count hk h3.2.1 (by rw [h3.2.2.1]; rfl)
    rw [nodeCount_of_sameGrid h2.grid, b4] at hm
    omega
  · have hp := (DepthFirstSearch.dfs_pristine_create size start goal).pristine_setObstacles obs
    obtain ⟨_, b2, b3, b4, b5⟩ := setObstacles_board (DepthFirstSearch.create size start goal)
      obs size start goal rfl rfl rfl
    obtain ⟨s1, h1, h2, h3, h4⟩ := DepthFirstSearch.dfs_init_some _ heuristic diagonals
      cutCorners (b5 hstart)
    obtain ⟨rk, hk⟩ := h4 hp
    obtain ⟨⟨n, s, s', c1, c2, c3, c4⟩, _⟩ := run_fresh (DepthFirstSearch.nextStep fuel)
      (FreshInv _ diagonals cutCorners) start goal
      (fun s hs => by
        have := DepthFirstSearch.dfs_nextStep_fresh _ hp.2.1 (b5 hstart) diagonals cutCorners
          fuel (by rw [b4]; exact hfuel) s hs
        rwa [b2, b3] at this)
      (DepthFirstSearch.dfs_nextStep_measure fuel) s1 ⟨h2, rk, hk⟩
    refine ⟨s1, h1, n, s, s', ?_, c2, c3, c4⟩
    have hm := stepMeasure_of_count hk h3.2.1 (by rw [h3.2.2.1]; rfl)
    rw [nodeCount_of_sameGrid h2.grid, b4] at hm
    omega
  · rfl

/-- C6: for every variant and every prior state of the instance whose board has an
in-bounds start, `init(heuristic, diagonals, cutCorners)` succeeds and afterwards the
solution is empty, `nodesOpened` is 1, the frontier contains exactly the start node, the
start node is opened with no parent, every other node of the board is unopened with no
parent, and every obstacle flag is as before the call. -/
theorem C6_init_postcondition {α : Type} (A : Env α) (heuristic : Heuristic)
    (diagonals cutCorners : Bool) :
    (∀ s0 : AStar.State α, s0.m_board.isValidNode s0.m_board.m_start = true →
      ∃ s1, AStar.init A s0 heuristic diagonals cutCorners = some s1 ∧ InitPost s0 s1) ∧
    (∀ s0 : BestFirstSearch.State α, s0.m_board.isValidNode s0.m_board.m_start = true →
      ∃ s1, BestFirstSearch.init A s0 heuristic diagonals cutCorners = some s1 ∧
        InitPost s0 s1) ∧
    (∀ s0 : BreadthFirstSearch.State, s0.m_board.isValidNode s0.m_board.m_start = true →
      ∃ s1, BreadthFirstSearch.init s0 heuristic diagonals cutCorners = some s1 ∧
        InitPost s0 s1) ∧
    (∀ s0 : DepthFirstSearch.State, s0.m_board.isValidNode s0.m_board.m_start = true →
      ∃ s1, DepthFirstSearch.init s0 heuristic diagonals cutCorners = some s1 ∧
        InitPost s0 s1) := by
  refine ⟨?_, ?_, ?_, ?_⟩
  · intro s0 hv
    obtain ⟨s1, h1, _, h3, _⟩ := AStar.astar_init_some A s0 heuristic diagonals cutCorners hv
    exact ⟨s1, h1, h3⟩
  · intro s0 hv
    obtain ⟨s1, h1, _, h3, _⟩ :=
      BestFirstSearch.bestFirst_init_some A s0 heuristic diagonals cutCorners hv
    exact ⟨s1, h1, h3⟩
  · intro s0 hv
    obtain ⟨s1, h1, _, h3, _⟩ :=
      BreadthFirstSearch.bfs_init_some s0 heuristic diagonals cutCorners hv
    exact ⟨s1, h1, h3⟩
  · intro s0 hv
    obtain ⟨s1, h1, _, h3, _⟩ :=
      DepthFirstSearch.dfs_init_some s0 heuristic diagonals cutCorners hv
    exact ⟨s1, h1, h3⟩

set_option maxRecDepth 1000000 in
/-- C3 for Breadth-First on the 17 x 3 board with start `(1,1)`, goal `(16,1)` and the
obstacles `(15,0)`, `(15,1)`, `(15,2)`, diagonals and cutCorners enabled: the goal cannot be
reached, and a call of `nextStep` returns true with empty solution and empty frontier. -/
theorem C3_unreachable_goal_except_bestFirst_witness :
    doubleEnv.SortPermutes ∧
    (setObstacles (BreadthFirstSearch.create (17, 3) (1, 1) (16, 1))
      [((15, 0), true), ((15, 1), true), ((15, 2), true)]).m_board.WellFormed ∧
    ¬ (setObstacles (BreadthFirstSearch.create (17, 3) (1, 1) (16, 1))
      [((15, 0), true), ((15, 1), true), ((15, 2), true)]).m_board.Reach true true
      (1, 1) (16, 1) ∧
    ∃ s1, BreadthFirstSearch.init (setObstacles (BreadthFirstSearch.create (17, 3) (1, 1)
        (16, 1)) [((15, 0), true), ((15, 1), true), ((15, 2), true)])
        Heuristic.Manhattan true true = some s1 ∧
      ∃ n s s', stepsFalse (BreadthFirstSearch.nextStep 0) n s1 = some s ∧
        BreadthFirstSearch.nextStep 0 s = some (true, s') ∧
        s'.solution = [] ∧ s'.m_openNodes = [] :=
  have hw : (setObstacles (BreadthFirstSearch.create (17, 3) (1, 1) (16, 1))
      [((15, 0), true), ((15, 1), true), ((15, 2), true)]).m_board.WellFormed :=
    ((BreadthFirstSearch.bfs_pristine_create (17, 3) (1, 1) (16, 1)).pristine_setObstacles
      _).2.1
  have hn : ¬ (setObstacles (BreadthFirstSearch.create (17, 3) (1, 1) (16, 1))
      [((15, 0), true), ((15, 1), true), ((15, 2), true)]).m_board.Reach true true
      (1, 1) (16, 1) :=
    Board.not_reach_of_closed_list _ true true
      ((List.range 15).flatMap (fun i => (List.range 3).map (fun j => ((i : Int), (j : Int)))))
      (1, 1) (16, 1) (by decide) (by decide) (by decide)
  ⟨doubleEnv_sortPermutes, hw, hn,
    (C3_unreachable_goal_except_bestFirst doubleEnv doubleEnv_sortPermutes Heuristic.Manhattan
      true true 0).2.1 (setObstacles (BreadthFirstSearch.create (17, 3) (1, 1) (16, 1))
        [((15, 0), true), ((15, 1), true), ((15, 2), true)])
      hw (by decide) (by decide) (by decide) hn⟩

/-- C4 for Breadth-First on the board of `main.cpp`, 25 x 5 with start `(1,2)` and goal
`(23,2)`, without obstacles, diagonals and cutCorners enabled. -/
theorem C4_complete_terminates_except_bestFirst_witness :
    doubleEnv.SortPermutes ∧ InBounds (25, 5) (1, 2) ∧ InBounds (25, 5) (23, 2) ∧
    ((25 : Int), (5 : Int)).1.toNat * ((25 : Int), (5 : Int)).2.toNat < 126 ∧
    ∃ s1, BreadthFirstSearch.init (setObstacles (BreadthFirstSearch.create (25, 5) (1, 2)
        (23, 2)) []) Heuristic.Manhattan true true = some s1 ∧
      ∃ n s s', n ≤ 2 * (((25 : Int), (5 : Int)).1.toNat * ((25 : Int), (5 : Int)).2.toNat) ∧
        stepsFalse (BreadthFirstSearch.nextStep 126) n s1 = some s ∧
        BreadthFirstSearch.nextStep 126 s = some (true, s') ∧
        complete (BreadthFirstSearch.nextStep 126) (n + 1) s1 = some s' :=
  ⟨doubleEnv_sortPermutes, ⟨by decide, by decide, by decide, by decide⟩,
    ⟨by decide, by decide, by decide, by decide⟩, by decide,
    (C4_complete_terminates_except_bestFirst doubleEnv doubleEnv_sortPermutes (25, 5) (1, 2)
      (23, 2) [] Heuristic.Manhattan true true 126 ⟨by decide, by decide, by decide, by decide⟩
      ⟨by decide, by decide, by decide, by decide⟩ (by decide)).2.1⟩

/-- C5, as stated, fails: Breadth-First on a 3 x 1 board from (0,0) to (1,0). The first
`nextStep` call returns true with the goal reached and the solution [(1,0), (0,0)]; the
next call returns true too, but closes one more node and appends the solution a second
time. -/
theorem C5_idempotence_counterexample :
    ∃ s1 s2 s3,
      BreadthFirstSearch.init (BreadthFirstSearch.create (3, 1) (0, 0) (1, 0))
        Heuristic.Manhattan true true = some s1 ∧
      BreadthFirstSearch.nextStep 10 s1 = some (true, s2) ∧
      BreadthFirstSearch.nextStep 10 s2 = some (true, s3) ∧
      s2.solution = [(1, 0), (0, 0)] ∧ s3.solution = [(1, 0), (0, 0), (1, 0), (0, 0)] ∧
      s3.solution ≠ s2.solution ∧ s2.nodesClosed = 1 ∧ s3.nodesClosed = 2 :=
  ⟨_, _, _, rfl, rfl, rfl, rfl, rfl, by decide, rfl, rfl⟩

/-- C5, amended: for every variant, a `nextStep` call on an empty frontier returns true and
leaves the whole state unchanged (so `solution`, `nodesOpened` and `nodesClosed` are
unchanged), and so does every further call: once a call has returned true because the
frontier was empty, every further call returns true and changes nothing. -/
theorem C5_idempotent_on_empty_frontier {α : Type} (A : Env α) (fuel : Nat) :
    (∀ s : AStar.State α, s.m_openNodes = [] →
      AStar.nextStep A fuel s = some (true, s) ∧
      ∀ k, stepsTrue (AStar.nextStep A fuel) k s = some s) ∧
    (∀ s : BestFirstSearch.State α, s.m_openNodes = [] →
      BestFirstSearch.nextStep A fuel s = some (true, s) ∧
      ∀ k, stepsTrue (BestFirstSearch.nextStep A fuel) k s = some s) ∧
    (∀ s : BreadthFirstSearch.State, s.m_openNodes = [] →
      BreadthFirstSearch.nextStep fuel s = some (true, s) ∧
      ∀ k, stepsTrue (BreadthFirstSearch.nextStep fuel) k s = some s) ∧
    (∀ s : DepthFirstSearch.State, s.m_openNodes = [] →
      DepthFirstSearch.nextStep fuel s = some (true, s) ∧
      ∀ k, stepsTrue (DepthFirstSearch.nextStep fuel) k s = some s) :=
  ⟨fun s h => ⟨AStar.astar_nextStep_nil A fuel s h,
      stepsTrue_of_fixed _ s (AStar.astar_nextStep_nil A fuel s h)⟩,
    fun s h => ⟨BestFirstSearch.bestFirst_nextStep_nil A fuel s h,
      stepsTrue_of_fixed _ s (BestFirstSearch.bestFirst_nextStep_nil A fuel s h)⟩,
    fun s h => ⟨BreadthFirstSearch.bfs_nextStep_nil fuel s h,
      stepsTrue_of_fixed _ s (BreadthFirstSearch.bfs_nextStep_nil fuel s h)⟩,
    fun s h => ⟨DepthFirstSearch.dfs_nextStep_nil fuel s h,
      stepsTrue_of_fixed _ s (DepthFirstSearch.dfs_nextStep_nil fuel s h)⟩⟩

/-- C5, amended, at a concrete instance: a freshly constructed Depth-First instance, whose
frontier is empty. -/
theorem C5_idempotent_on_empty_frontier_witness :
    (DepthFirstSearch.create (2, 1) (0, 0) (1, 0)).m_openNodes = [] ∧
    DepthFirstSearch.nextStep 0 (DepthFirstSearch.create (2, 1) (0, 0) (1, 0)) =
      some (true, DepthFirstSearch.create (2, 1) (0, 0) (1, 0)) ∧
    ∀ k, stepsTrue (DepthFirstSearch.nextStep 0) k
      (DepthFirstSearch.create (2, 1) (0, 0) (1, 0)) =
        some (DepthFirstSearch.create (2, 1) (0, 0) (1, 0)) :=
  ⟨rfl, (C5_idempotent_on_empty_frontier intEnv 0).2.2.2
    (DepthFirstSearch.create (2, 1) (0, 0) (1, 0)) rfl⟩

/-- C6 at a concrete instance: a Breadth-First instance on a 2 x 1 board. -/
theorem C6_init_postcondition_witness :
    (BreadthFirstSearch.create (2, 1) (0, 0) (1, 0)).m_board.isValidNode
      (BreadthFirstSearch.create (2, 1) (0, 0) (1, 0)).m_board.m_start = true ∧
    ∃ s1, BreadthFirstSearch.init (BreadthFirstSearch.create (2, 1) (0, 0) (1, 0))
        Heuristic.Euclidean false true = some s1 ∧
      InitPost (BreadthFirstSearch.create (2, 1) (0, 0) (1, 0)) s1 :=
  ⟨by decide, (C6_init_postcondition intEnv Heuristic.Euclidean false true).2.2.1
    (BreadthFirstSearch.create (2, 1) (0, 0) (1, 0)) (by decide)⟩

/-- C7 fails on the code: `init` and `reset` leave `nodesClosed` as it is. Breadth-First on
a 2 x 1 board from (0,0) to (1,0): after `init` and one `nextStep` call one node is
closed; after a second `init`, and after `reset`, `nodesClosed` is still 1. -/
theorem C7_nodesClosed_not_reset :
    ∃ s1 s2 s3,
      BreadthFirstSearch.init (BreadthFirstSearch.create (2, 1) (0, 0) (1, 0))
        Heuristic.Manhattan true true = some s1 ∧
      BreadthFirstSearch.nextStep 10 s1 = some (true, s2) ∧
      s2.nodesClosed = 1 ∧
      BreadthFirstSearch.init s2 Heuristic.Manhattan true true = some s3 ∧
      s3.nodesClosed = 1 ∧ s3.nodesOpened = 1 ∧
      (BreadthFirstSearch.reset s2).nodesClosed = 1 ∧
      (BreadthFirstSearch.reset s2).nodesOpened = 0 :=
  ⟨_, _, _, rfl, rfl, rfl, rfl, rfl, rfl, rfl, rfl⟩

/-- C8 fails on the code: `AStar::Node::init` leaves `closed` as it is. A* on a 3 x 1 board
without obstacles from (0,0) to (2,0), Manhattan heuristic: the first run ends with the
solution [(2,0), (1,0), (0,0)]; after `init` on the same instance the nodes (0,0) and (1,0)
are still closed, and the second run ends with an empty solution. -/
theorem C8_init_keeps_closed :
    ∃ s1 s2 s3 s4 s5,
      AStar.init intEnv (AStar.create intEnv (3, 1) (0, 0) (2, 0))
        Heuristic.Manhattan true true = some s1 ∧
      AStar.nextStep intEnv 10 s1 = some (false, s2) ∧
      AStar.nextStep intEnv 10 s2 = some (true, s3) ∧
      s3.solution = [(2, 0), (1, 0), (0, 0)] ∧
      AStar.init intEnv s3 Heuristic.Manhattan true true = some s4 ∧
      (s4.m_board.m_nodes (0, 0)).ext.closed = true ∧
      (s4.m_board.m_nodes (1, 0)).ext.closed = true ∧
      AStar.nextStep intEnv 10 s4 = some (false, s5) ∧
      AStar.nextStep intEnv 10 s5 = some (true, s5) ∧
      s5.solution = [] :=
  ⟨_, _, _, _, _, rfl, rfl, rfl, rfl, rfl, rfl, rfl, rfl, rfl, rfl⟩

/-- C9 fails on the code: Breadth-First on a 3 x 1 board from (0,0) to (2,0): after `init`
and two `nextStep` calls two nodes are closed; after a second `init` `nodesOpened` is 1 and
`nodesClosed` is still 2. -/
theorem C9_nodesClosed_exceeds_nodesOpened :
    ∃ s1 s2 s3 s4,
      BreadthFirstSearch.init (BreadthFirstSearch.create (3, 1) (0, 0) (2, 0))
        Heuristic.Manhattan true true = some s1 ∧
      BreadthFirstSearch.nextStep 10 s1 = some (false, s2) ∧
      BreadthFirstSearch.nextStep 10 s2 = some (true, s3) ∧
      BreadthFirstSearch.init s3 Heuristic.Manhattan true true = some s4 ∧
      s4.nodesOpened = 1 ∧ s4.nodesClosed = 2 ∧ ¬ s4.nodesClosed ≤ s4.nodesOpened :=
  ⟨_, _, _, _, rfl, rfl, rfl, rfl, rfl, rfl, by decide⟩

/-- C11 does not hold as stated. On a 2 x 2 board with diagonals enabled, the move from
`(0,0)` to the free cell `(1,1)`: with the single flanking obstacle `(1,0)` and corners not
cut, `(1,1)` is not returned although only one flanking cell is an obstacle; with both
flanking cells `(1,0)`, `(0,1)` obstacles and corners cut, `(1,1)` is not returned although
`cutCorners` is enabled. -/
theorem C11_diagonal_counterexample :
    (((Board.create (2, 2) (0, 0) (1, 1) ()).setObstacle (1, 0) true).isValidNode (0, 0) = true ∧
     ((Board.create (2, 2) (0, 0) (1, 1) ()).setObstacle (1, 0) true).isValidNode (1, 1) = true ∧
     ((Board.create (2, 2) (0, 0) (1, 1) ()).setObstacle (1, 0) true).isObstacle (1, 1) = false ∧
     ((Board.create (2, 2) (0, 0) (1, 1) ()).setObstacle (1, 0) true).isObstacle (0, 1) = false ∧
     ((Board.create (2, 2) (0, 0) (1, 1) ()).setObstacle (1, 0) true).isObstacle (1, 0) = true ∧
     (1, 1) ∉ ((Board.create (2, 2) (0, 0) (1, 1) ()).setObstacle (1, 0) true).getNeighbors
        (0, 0) [] true false) ∧
    ((((Board.create (2, 2) (0, 0) (1, 1) ()).setObstacle (1, 0) true).setObstacle
        (0, 1) true).isObstacle (1, 1) = false ∧
     (((Board.create (2, 2) (0, 0) (1, 1) ()).setObstacle (1, 0) true).setObstacle
        (0, 1) true).isObstacle (0, 1) = true ∧
     (((Board.create (2, 2) (0, 0) (1, 1) ()).setObstacle (1, 0) true).setObstacle
        (0, 1) true).isObstacle (1, 0) = true ∧
     (1, 1) ∉ (((Board.create (2, 2) (0, 0) (1, 1) ()).setObstacle (1, 0) true).setObstacle
        (0, 1) true).getNeighbors (0, 0) [] true true) := by
  refine ⟨⟨?_, ?_, ?_, ?_, ?_, ?_⟩, ?_, ?_, ?_, ?_⟩ <;> decide

/-- C11, amended: on a well-formed board with diagonals enabled, the diagonal neighbor
`to_ = from_ + (dx, dy)` of an in-bounds `from_`, itself in bounds and not an obstacle, is
absent from `getNeighbors` exactly when both flanking cells `(from_.x, to_.y)` and
`(to_.x, from_.y)` are obstacles, or `cutCorners` is disabled and at least one of them is
an obstacle; in every other case it is returned. -/
theorem C11_diagonal_forbidden_iff {E : Type} (b : Board E) (hwf : b.WellFormed)
    (cutCorners : Bool) (from_ : Coordinate) (dx dy : Int)
    (hfrom : b.isValidNode from_ = true) (hdx : dx = -1 ∨ dx = 1) (hdy : dy = -1 ∨ dy = 1)
    (hto : b.isValidNode (from_.1 + dx, from_.2 + dy) = true)
    (hfree : b.isObstacle (from_.1 + dx, from_.2 + dy) = false) :
    (from_.1 + dx, from_.2 + dy) ∉ b.getNeighbors from_ [] true cutCorners ↔
      ((b.isObstacle (from_.1, from_.2 + dy) = true ∧
          b.isObstacle (from_.1 + dx, from_.2) = true) ∨
       (cutCorners = false ∧
         (b.isObstacle (from_.1, from_.2 + dy) = true ∨
          b.isObstacle (from_.1 + dx, from_.2) = true))) := by
  obtain ⟨hv1, hv2⟩ := b.isValidNode_flank from_ dx dy hfrom hto
  rw [Board.mem_getNeighbors_diagonal b hwf cutCorners from_ dx dy hfrom hdx hdy]
  simp only [Board.isObstacle, hto, hv1, hv2, Bool.true_and] at hfree ⊢
  simp only [hto, hfree, true_and]
  cases (b.m_nodes (from_.1, from_.2 + dy)).obstacle <;>
    cases (b.m_nodes (from_.1 + dx, from_.2)).obstacle <;> cases cutCorners <;> simp

/-- C11, amended, on the 2 x 2 board with the obstacle `(1,0)`: corners not cut, the move
from `(0,0)` to `(1,1)` is forbidden. -/
theorem C11_diagonal_forbidden_iff_witness :
    (1, 1) ∉ ((Board.create (2, 2) (0, 0) (1, 1) ()).setObstacle (1, 0) true).getNeighbors
      (0, 0) [] true false :=
  (C11_diagonal_forbidden_iff ((Board.create (2, 2) (0, 0) (1, 1) ()).setObstacle (1, 0) true)
    (Board.wellFormed_setObstacle _ (Board.wellFormed_create _ _ _ _) _ _) false (0, 0) 1 1
    (by decide) (Or.inr rfl) (Or.inr rfl) (by decide) (by decide)).2
    (Or.inr ⟨rfl, Or.inr (by decide)⟩)

/-- C12: `setObstacle(c, v)` returns the board unchanged when `c` is out of bounds, is the
start or is the goal. Otherwise `isObstacle(c) = v` afterwards, the node at every other
coordinate is unchanged, and at every coordinate (also `c`) the fields `opened`, `parent`,
`position` and those of the derived node (`closed`, `h`, `g`) are unchanged, as are the
size, the start and the goal of the board. -/
theorem C12_setObstacle_frame {E : Type} (b : Board E) (c : Coordinate) (v : Bool) :
    ((b.isValidNode c = false ∨ c = b.m_start ∨ c = b.m_goal) → b.setObstacle c v = b) ∧
    (b.isValidNode c = true → c ≠ b.m_start → c ≠ b.m_goal →
      (b.setObstacle c v).isObstacle c = v ∧
      (∀ x, x ≠ c → (b.setObstacle c v).m_nodes x = b.m_nodes x) ∧
      (∀ x, x ≠ c → (b.setObstacle c v).isObstacle x = b.isObstacle x) ∧
      (∀ x, ((b.setObstacle c v).m_nodes x).opened = (b.m_nodes x).opened ∧
        ((b.setObstacle c v).m_nodes x).parent = (b.m_nodes x).parent ∧
        ((b.setObstacle c v).m_nodes x).position = (b.m_nodes x).position ∧
        ((b.setObstacle c v).m_nodes x).ext = (b.m_nodes x).ext) ∧
      (b.setObstacle c v).m_size = b.m_size ∧ (b.setObstacle c v).m_start = b.m_start ∧
      (b.setObstacle c v).m_goal = b.m_goal) := by
  constructor
  · intro h
    unfold Board.setObstacle
    rw [if_neg]
    rcases h with h | h | h <;> simp [h]
  · intro hv hs hg
    have hn : ∀ x, (b.setObstacle c v).m_nodes x =
        if x = c then { b.m_nodes x with obstacle := v } else b.m_nodes x := by
      intro x
      rw [Board.setObstacle_m_nodes]
      by_cases hx : x = c
      · rw [if_pos ⟨hx, hv, hs, hg⟩, if_pos hx]
      · rw [if_neg (fun h => hx h.1), if_neg hx]
    refine ⟨?_, ?_, ?_, ?_, by simp, by simp, by simp⟩
    · simp [Board.isObstacle, hn, hv]
    · intro x hx
      rw [hn, if_neg hx]
    · intro x hx
      simp [Board.isObstacle, hn, hx]
    · intro x
      rw [hn]
      split <;> exact ⟨rfl, rfl, rfl, rfl⟩

/-- C12 on a 3 x 1 board: setting an obstacle at the start changes nothing, setting one at
`(1,0)` makes `(1,0)` an obstacle. -/
theorem C12_setObstacle_frame_witness :
    (Board.create (3, 1) (0, 0) (2, 0) ()).setObstacle (0, 0) true =
      Board.create (3, 1) (0, 0) (2, 0) () ∧
    ((Board.create (3, 1) (0, 0) (2, 0) ()).setObstacle (1, 0) true).isObstacle (1, 0) = true :=
  ⟨(C12_setObstacle_frame (Board.create (3, 1) (0, 0) (2, 0) ()) (0, 0) true).1
      (Or.inr (Or.inl rfl)),
   ((C12_setObstacle_frame (Board.create (3, 1) (0, 0) (2, 0) ()) (1, 0) true).2
      (by decide) (by decide) (by decide)).1⟩

/-- C13: for the board of each of the three node types (A*, Best-First, and the node
without fields of Breadth-First and Depth-First), every size, start and goal, and every
sequence of `setObstacle`, `init` and `reset` calls applied to the constructed board,
`isObstacle(start)` and `isObstacle(goal)` are false. -/
theorem C13_start_goal_never_obstacles {α : Type} (A : Env α) (size start goal : Coordinate)
    (l : List BoardCall) :
    (((AStar.create A size start goal).m_board.calls (AStar.Node.init A)
        (AStar.Node.reset A) l).isObstacle start = false ∧
     ((AStar.create A size start goal).m_board.calls (AStar.Node.init A)
        (AStar.Node.reset A) l).isObstacle goal = false) ∧
    (((BestFirstSearch.create A size start goal).m_board.calls (BestFirstSearch.Node.init A)
        (BestFirstSearch.Node.reset A) l).isObstacle start = false ∧
     ((BestFirstSearch.create A size start goal).m_board.calls (BestFirstSearch.Node.init A)
        (BestFirstSearch.Node.reset A) l).isObstacle goal = false) ∧
    (((BreadthFirstSearch.create size start goal).m_board.calls NodeBase.init
        (NodeBase.reset NodeBase.init) l).isObstacle start = false ∧
     ((BreadthFirstSearch.create size start goal).m_board.calls NodeBase.init
        (NodeBase.reset NodeBase.init) l).isObstacle goal = false) ∧
    (((DepthFirstSearch.create size start goal).m_board.calls NodeBase.init
        (NodeBase.reset NodeBase.init) l).isObstacle start = false ∧
     ((DepthFirstSearch.create size start goal).m_board.calls NodeBase.init
        (NodeBase.reset NodeBase.init) l).isObstacle goal = false) :=
  ⟨Board.calls_create_isObstacle (AStar.Node.init A) (AStar.Node.reset A) (fun _ => rfl)
      (fun _ => rfl) size start goal { closed := false, h := A.maxValue, g := A.ofInt 0 } l,
   Board.calls_create_isObstacle (BestFirstSearch.Node.init A) (BestFirstSearch.Node.reset A)
      (fun _ => rfl) (fun _ => rfl) size start goal { h := A.maxValue } l,
   Board.calls_create_isObstacle NodeBase.init (NodeBase.reset NodeBase.init) (fun _ => rfl)
      (fun _ => rfl) size start goal () l,
   Board.calls_create_isObstacle NodeBase.init (NodeBase.reset NodeBase.init) (fun _ => rfl)
      (fun _ => rfl) size start goal () l⟩

/-- C14 does not hold as stated: the constructor stores `start` and `goal` without checking
them. On the 2 x 2 board built with start `(5,5)`, `isValidNode(start)` is false,
`getStartNode()` is null and `init` of each variant dereferences it; on the 2 x 2 board
built with goal `(5,5)`, `isValidNode(goal)` is false and `getGoalNode()` is null. -/
theorem C14_start_goal_unchecked :
    (BreadthFirstSearch.create (2, 2) (5, 5) (0, 0)).m_board.isValidNode (5, 5) = false ∧
    (BreadthFirstSearch.create (2, 2) (5, 5) (0, 0)).m_board.getStartNode = none ∧
    BreadthFirstSearch.init (BreadthFirstSearch.create (2, 2) (5, 5) (0, 0))
      Heuristic.Manhattan true true = none ∧
    DepthFirstSearch.init (DepthFirstSearch.create (2, 2) (5, 5) (0, 0))
      Heuristic.Manhattan true true = none ∧
    BestFirstSearch.init intEnv (BestFirstSearch.create intEnv (2, 2) (5, 5) (0, 0))
      Heuristic.Manhattan true true = none ∧
    AStar.init intEnv (AStar.create intEnv (2, 2) (5, 5) (0, 0))
      Heuristic.Manhattan true true = none ∧
    (BreadthFirstSearch.create (2, 2) (0, 0) (5, 5)).m_board.isValidNode (5, 5) = false ∧
    (BreadthFirstSearch.create (2, 2) (0, 0) (5, 5)).m_board.getGoalNode = none :=
  ⟨by decide, by decide, rfl, rfl, rfl, rfl, by decide, by decide⟩

/-- C14, amended: when the board is built with `start` and `goal` inside
`[0, size.first) x [0, size.second)`, then after every sequence of `setObstacle`, `init` and
`reset` calls (for each of the three node types) `isValidNode(start)` and
`isValidNode(goal)` hold and `getStartNode()`, `getGoalNode()` are the nodes at `start` and
`goal`; and `init` of each variant returns on every instance whose board has that size and
that start. -/
theorem C14_in_bounds_start_goal_valid {α : Type} (A : Env α) (size start goal : Coordinate)
    (hstart : InBounds size start) (hgoal : InBounds size goal) (l : List BoardCall)
    (heuristic : Heuristic) (diagonals cutCorners : Bool) :
    (((AStar.create A size start goal).m_board.calls (AStar.Node.init A)
        (AStar.Node.reset A) l).isValidNode start = true ∧
     ((AStar.create A size start goal).m_board.calls (AStar.Node.init A)
        (AStar.Node.reset A) l).isValidNode goal = true ∧
     ((AStar.create A size start goal).m_board.calls (AStar.Node.init A)
        (AStar.Node.reset A) l).getStartNode = some start ∧
     ((AStar.create A size start goal).m_board.calls (AStar.Node.init A)
        (AStar.Node.reset A) l).getGoalNode = some goal) ∧
    (((BestFirstSearch.create A size start goal).m_board.calls (BestFirstSearch.Node.init A)
        (BestFirstSearch.Node.reset A) l).isValidNode start = true ∧
     ((BestFirstSearch.create A size start goal).m_board.calls (BestFirstSearch.Node.init A)
        (BestFirstSearch.Node.reset A) l).isValidNode goal = true ∧
     ((BestFirstSearch.create A size start goal).m_board.calls (BestFirstSearch.Node.init A)
        (BestFirstSearch.Node.reset A) l).getStartNode = some start ∧
     ((BestFirstSearch.create A size start goal).m_board.calls (BestFirstSearch.Node.init A)
        (BestFirstSearch.Node.reset A) l).getGoalNode = some goal) ∧
    (((BreadthFirstSearch.create size start goal).m_board.calls NodeBase.init
        (NodeBase.reset NodeBase.init) l).isValidNode start = true ∧
     ((BreadthFirstSearch.create size start goal).m_board.calls NodeBase.init
        (NodeBase.reset NodeBase.init) l).isValidNode goal = true ∧
     ((BreadthFirstSearch.create size start goal).m_board.calls NodeBase.init
        (NodeBase.reset NodeBase.init) l).getStartNode = some start ∧
     ((BreadthFirstSearch.create size start goal).m_board.calls NodeBase.init
        (NodeBase.reset NodeBase.init) l).getGoalNode = some goal) ∧
    (∀ s0 : AStar.State α, s0.m_board.m_size = size → s0.m_board.m_start = start →
      ∃ s1, AStar.init A s0 heuristic diagonals cutCorners = some s1) ∧
    (∀ s0 : BestFirstSearch.State α, s0.m_board.m_size = size → s0.m_board.m_start = start →
      ∃ s1, BestFirstSearch.init A s0 heuristic diagonals cutCorners = some s1) ∧
    (∀ s0 : BreadthFirstSearch.State, s0.m_board.m_size = size → s0.m_board.m_start = start →
      ∃ s1, BreadthFirstSearch.init s0 heuristic diagonals cutCorners = some s1) ∧
    (∀ s0 : DepthFirstSearch.State, s0.m_board.m_size = size → s0.m_board.m_start = start →
      ∃ s1, DepthFirstSearch.init s0 heuristic diagonals cutCorners = some s1) := by
  have hv : ∀ {E : Type} (s0 : Algorithm E), s0.m_board.m_size = size →
      s0.m_board.m_start = start → s0.m_board.isValidNode s0.m_board.m_start = true := by
    intro E s0 h1 h2
    rw [isValidNode_iff_inBounds, h1, h2]
    exact hstart
  refine ⟨Board.calls_create_valid (AStar.Node.init A) (AStar.Node.reset A) size start goal
      { closed := false, h := A.maxValue, g := A.ofInt 0 } l hstart hgoal,
    Board.calls_create_valid (BestFirstSearch.Node.init A) (BestFirstSearch.Node.reset A)
      size start goal { h := A.maxValue } l hstart hgoal,
    Board.calls_create_valid NodeBase.init (NodeBase.reset NodeBase.init) size start goal ()
      l hstart hgoal, ?_, ?_, ?_, ?_⟩
  · intro s0 h1 h2
    obtain ⟨s1, h, _⟩ := AStar.astar_init_some A s0 heuristic diagonals cutCorners (hv s0 h1 h2)
    exact ⟨s1, h⟩
  · intro s0 h1 h2
    obtain ⟨s1, h, _⟩ :=
      BestFirstSearch.bestFirst_init_some A s0 heuristic diagonals cutCorners (hv s0 h1 h2)
    exact ⟨s1, h⟩
  · intro s0 h1 h2
    obtain ⟨s1, h, _⟩ :=
      BreadthFirstSearch.bfs_init_some s0 heuristic diagonals cutCorners (hv s0 h1 h2)
    exact ⟨s1, h⟩
  · intro s0 h1 h2
    obtain ⟨s1, h, _⟩ :=
      DepthFirstSearch.dfs_init_some s0 heuristic diagonals cutCorners (hv s0 h1 h2)
    exact ⟨s1, h⟩

/-- C14, amended, on the 2 x 2 board with start `(0,0)` and goal `(1,1)`, after a
`setObstacle` and a `reset`: the start node is present. -/
theorem C14_in_bounds_start_goal_valid_witness :
    InBounds (2, 2) (0, 0) ∧ InBounds (2, 2) (1, 1) ∧
    ((BreadthFirstSearch.create (2, 2) (0, 0) (1, 1)).m_board.calls NodeBase.init
      (NodeBase.reset NodeBase.init)
      [BoardCall.setObstacle (1, 0) true, BoardCall.reset]).getStartNode = some (0, 0) :=
  ⟨⟨by decide, by decide, by decide, by decide⟩, ⟨by decide, by decide, by decide, by decide⟩,
   (C14_in_bounds_start_goal_valid intEnv (2, 2) (0, 0) (1, 1)
      ⟨by decide, by decide, by decide, by decide⟩ ⟨by decide, by decide, by decide, by decide⟩
      [BoardCall.setObstacle (1, 0) true, BoardCall.reset] Heuristic.Manhattan true
      true).2.2.1.2.2.1⟩

/-- C15: `isValidNode(c)` holds exactly when `0 <= c.first < size.first` and
`0 <= c.second < size.second`. For an invalid `c`, `isObstacle(c)` is false, `board[c]` is
null, and `getValue1(c)` and `getValue2(c)` return `0.f` in the four variants. For a valid
`c` (on a well-formed board), `isObstacle(c)` is the obstacle flag of the node at `c` and
`board[c]` is a node whose position is `c`. The six queries return for every `c`. -/
theorem C15_board_queries_total {E α : Type} (A : Env α) (b : Board E) (c : Coordinate) :
    (b.isValidNode c = true ↔
      (0 ≤ c.1 ∧ c.1 < b.m_size.1 ∧ 0 ≤ c.2 ∧ c.2 < b.m_size.2)) ∧
    (b.isValidNode c = false → b.isObstacle c = false ∧ b.get c = none) ∧
    (b.WellFormed → b.isValidNode c = true →
      b.isObstacle c = (b.m_nodes c).obstacle ∧
      ∃ n, b.get c = some n ∧ (b.m_nodes n).position = c) ∧
    (∀ s : AStar.State α, s.m_board.isValidNode c = false →
      AStar.getValue1 A s c = some (A.ofInt 0) ∧ AStar.getValue2 A s c = some (A.ofInt 0)) ∧
    (∀ s : BestFirstSearch.State α, s.m_board.isValidNode c = false →
      BestFirstSearch.getValue1 A s c = some (A.ofInt 0) ∧
      BestFirstSearch.getValue2 A s c = some (A.ofInt 0)) ∧
    (∀ s : BreadthFirstSearch.State, s.m_board.isValidNode c = false →
      BreadthFirstSearch.getValue1 A s c = some (A.ofInt 0) ∧
      BreadthFirstSearch.getValue2 A s c = some (A.ofInt 0)) ∧
    (∀ s : DepthFirstSearch.State, s.m_board.isValidNode c = false →
      DepthFirstSearch.getValue1 A s c = some (A.ofInt 0) ∧
      DepthFirstSearch.getValue2 A s c = some (A.ofInt 0)) ∧
    (∀ s : AStar.State α,
      (∃ v, AStar.getValue1 A s c = some v) ∧ ∃ v, AStar.getValue2 A s c = some v) ∧
    (∀ s : BestFirstSearch.State α,
      (∃ v, BestFirstSearch.getValue1 A s c = some v) ∧
      ∃ v, BestFirstSearch.getValue2 A s c = some v) ∧
    (∀ s : BreadthFirstSearch.State,
      (∃ v, BreadthFirstSearch.getValue1 A s c = some v) ∧
      ∃ v, BreadthFirstSearch.getValue2 A s c = some v) ∧
    (∀ s : DepthFirstSearch.State,
      (∃ v, DepthFirstSearch.getValue1 A s c = some v) ∧
      ∃ v, DepthFirstSearch.getValue2 A s c = some v) := by
  refine ⟨?_, ?_, ?_, ?_, ?_, ?_, ?_, ?_, ?_, ?_, ?_⟩
  · simp [Board.isValidNode, and_assoc]
  · intro h
    simp [Board.isObstacle, Board.get, h]
  · intro hwf h
    refine ⟨by simp [Board.isObstacle, h], c, by simp [Board.get, h], hwf c h⟩
  · intro s h
    simp [AStar.getValue1, AStar.getValue2, h]
  · intro s h
    simp [BestFirstSearch.getValue1, BestFirstSearch.getValue2, h]
  · intro s h
    simp [BreadthFirstSearch.getValue1, BreadthFirstSearch.getValue2, h]
  · intro s h
    simp [DepthFirstSearch.getValue1, DepthFirstSearch.getValue2, h]
  · intro s
    by_cases h : s.m_board.isValidNode c = true <;>
      simp [AStar.getValue1, AStar.getValue2, Board.get, h]
  · intro s
    by_cases h : s.m_board.isValidNode c = true <;>
      simp [BestFirstSearch.getValue1, BestFirstSearch.getValue2, Board.get, h]
  · intro s
    by_cases h : s.m_board.isValidNode c = true <;>
      simp [BreadthFirstSearch.getValue1, BreadthFirstSearch.getValue2, Board.get, h]
  · intro s
    by_cases h : s.m_board.isValidNode c = true <;>
      simp [DepthFirstSearch.getValue1, DepthFirstSearch.getValue2, Board.get, h]

/-- C15 on a 2 x 2 board: `(2,0)` is out of bounds, `board[(2,0)]` is null and A* returns
`0.f` for it; `(1,1)` is in bounds and `board[(1,1)]` is the node at `(1,1)`. -/
theorem C15_board_queries_total_witness :
    ((AStar.create intEnv (2, 2) (0, 0) (1, 1)).m_board.get (2, 0) = none ∧
      AStar.getValue1 intEnv (AStar.create intEnv (2, 2) (0, 0) (1, 1)) (2, 0) = some 0) ∧
    ∃ n, (AStar.create intEnv (2, 2) (0, 0) (1, 1)).m_board.get (1, 1) = some n ∧
      ((AStar.create intEnv (2, 2) (0, 0) (1, 1)).m_board.m_nodes n).position = (1, 1) :=
  ⟨⟨((C15_board_queries_total intEnv (AStar.create intEnv (2, 2) (0, 0) (1, 1)).m_board
        (2, 0)).2.1 (by decide)).2,
    ((C15_board_queries_total intEnv (AStar.create intEnv (2, 2) (0, 0) (1, 1)).m_board
        (2, 0)).2.2.2.1 (AStar.create intEnv (2, 2) (0, 0) (1, 1)) (by decide)).1⟩,
   ((C15_board_queries_total intEnv (AStar.create intEnv (2, 2) (0, 0) (1, 1)).m_board
      (1, 1)).2.2.1 (Board.wellFormed_create _ _ _ _) (by decide)).2⟩

/-- C16: `Board::init()` leaves every node of the board with `opened = false` and
`parent = nullptr` and with its obstacle flag and its position unchanged; a node of A* has
`g = 0` and `h = max` afterwards, a node of Best-First has `h = max`. The size, the start
and the goal of the board are unchanged. -/
theorem C16_board_init_effect {α : Type} (A : Env α) (c : Coordinate) :
    (∀ b : Board (AStar.Ext α), b.isValidNode c = true →
      ((b.init (AStar.Node.init A)).m_nodes c).opened = false ∧
      ((b.init (AStar.Node.init A)).m_nodes c).parent = none ∧
      ((b.init (AStar.Node.init A)).m_nodes c).ext.g = A.ofInt 0 ∧
      ((b.init (AStar.Node.init A)).m_nodes c).ext.h = A.maxValue ∧
      ((b.init (AStar.Node.init A)).m_nodes c).obstacle = (b.m_nodes c).obstacle ∧
      ((b.init (AStar.Node.init A)).m_nodes c).position = (b.m_nodes c).position ∧
      (b.init (AStar.Node.init A)).m_size = b.m_size ∧
      (b.init (AStar.Node.init A)).m_start = b.m_start ∧
      (b.init (AStar.Node.init A)).m_goal = b.m_goal) ∧
    (∀ b : Board (BestFirstSearch.Ext α), b.isValidNode c = true →
      ((b.init (BestFirstSearch.Node.init A)).m_nodes c).opened = false ∧
      ((b.init (BestFirstSearch.Node.init A)).m_nodes c).parent = none ∧
      ((b.init (BestFirstSearch.Node.init A)).m_nodes c).ext.h = A.maxValue ∧
      ((b.init (BestFirstSearch.Node.init A)).m_nodes c).obstacle = (b.m_nodes c).obstacle ∧
      ((b.init (BestFirstSearch.Node.init A)).m_nodes c).position = (b.m_nodes c).position ∧
      (b.init (BestFirstSearch.Node.init A)).m_size = b.m_size ∧
      (b.init (BestFirstSearch.Node.init A)).m_start = b.m_start ∧
      (b.init (BestFirstSearch.Node.init A)).m_goal = b.m_goal) ∧
    (∀ b : Board Unit, b.isValidNode c = true →
      ((b.init NodeBase.init).m_nodes c).opened = false ∧
      ((b.init NodeBase.init).m_nodes c).parent = none ∧
      ((b.init NodeBase.init).m_nodes c).obstacle = (b.m_nodes c).obstacle ∧
      ((b.init NodeBase.init).m_nodes c).position = (b.m_nodes c).position ∧
      (b.init NodeBase.init).m_size = b.m_size ∧
      (b.init NodeBase.init).m_start = b.m_start ∧
      (b.init NodeBase.init).m_goal = b.m_goal) := by
  refine ⟨?_, ?_, ?_⟩
  · intro b h
    simp only [Board.init, h, if_true]
    exact ⟨rfl, rfl, rfl, rfl, rfl, rfl, trivial, trivial, trivial⟩
  · intro b h
    simp only [Board.init, h, if_true]
    exact ⟨rfl, rfl, rfl, rfl, rfl, trivial, trivial, trivial⟩
  · intro b h
    simp only [Board.init, h, if_true]
    exact ⟨rfl, rfl, rfl, rfl, trivial, trivial, trivial⟩

/-- C16 on a 3 x 1 Breadth-First board with an obstacle at `(1,0)` whose start was opened:
after `Board::init()` the start is not opened and `(1,0)` is still an obstacle. -/
theorem C16_board_init_effect_witness :
    (((AlgorithmBase.openNode
        (AlgorithmBase.setObstacle (BreadthFirstSearch.create (3, 1) (0, 0) (2, 0)) (1, 0) true)
        (0, 0) none).m_board.init NodeBase.init).m_nodes (0, 0)).opened = false ∧
    (((AlgorithmBase.openNode
        (AlgorithmBase.setObstacle (BreadthFirstSearch.create (3, 1) (0, 0) (2, 0)) (1, 0) true)
        (0, 0) none).m_board.init NodeBase.init).m_nodes (1, 0)).obstacle = true :=
  ⟨((C16_board_init_effect intEnv (0, 0)).2.2 _ (by decide)).1,
   (((C16_board_init_effect intEnv (1, 0)).2.2 (AlgorithmBase.openNode
        (AlgorithmBase.setObstacle (BreadthFirstSearch.create (3, 1) (0, 0) (2, 0)) (1, 0) true)
        (0, 0) none).m_board (by decide)).2.2.1).trans (by decide)⟩

/-- C17: for each of the three node types, `Board::reset()` gives every node of the board
the value `Board::init()` would give it, with the obstacle flag cleared; after `reset()`,
`isObstacle(c)` is false for every coordinate `c`, and the size, the start and the goal of
the board are unchanged. -/
theorem C17_board_reset_is_init_and_clear {α : Type} (A : Env α) (c : Coordinate) :
    (∀ b : Board (AStar.Ext α),
      (b.reset (AStar.Node.reset A)).isObstacle c = false ∧
      (b.isValidNode c = true → (b.reset (AStar.Node.reset A)).m_nodes c =
        { (b.init (AStar.Node.init A)).m_nodes c with obstacle := false }) ∧
      (b.reset (AStar.Node.reset A)).m_size = b.m_size ∧
      (b.reset (AStar.Node.reset A)).m_start = b.m_start ∧
      (b.reset (AStar.Node.reset A)).m_goal = b.m_goal) ∧
    (∀ b : Board (BestFirstSearch.Ext α),
      (b.reset (BestFirstSearch.Node.reset A)).isObstacle c = false ∧
      (b.isValidNode c = true → (b.reset (BestFirstSearch.Node.reset A)).m_nodes c =
        { (b.init (BestFirstSearch.Node.init A)).m_nodes c with obstacle := false }) ∧
      (b.reset (BestFirstSearch.Node.reset A)).m_size = b.m_size ∧
      (b.reset (BestFirstSearch.Node.reset A)).m_start = b.m_start ∧
      (b.reset (BestFirstSearch.Node.reset A)).m_goal = b.m_goal) ∧
    (∀ b : Board Unit,
      (b.reset (NodeBase.reset NodeBase.init)).isObstacle c = false ∧
      (b.isValidNode c = true → (b.reset (NodeBase.reset NodeBase.init)).m_nodes c =
        { (b.init NodeBase.init).m_nodes c with obstacle := false }) ∧
      (b.reset (NodeBase.reset NodeBase.init)).m_size = b.m_size ∧
      (b.reset (NodeBase.reset NodeBase.init)).m_start = b.m_start ∧
      (b.reset (NodeBase.reset NodeBase.init)).m_goal = b.m_goal) := by
  have key : ∀ {E : Type} (nodeInit nodeReset : Node E → Node E)
      (_ : ∀ n, nodeReset n = { nodeInit n with obstacle := false }) (b : Board E),
      (b.reset nodeReset).isObstacle c = false ∧
      (b.isValidNode c = true → (b.reset nodeReset).m_nodes c =
        { (b.init nodeInit).m_nodes c with obstacle := false }) ∧
      (b.reset nodeReset).m_size = b.m_size ∧ (b.reset nodeReset).m_start = b.m_start ∧
      (b.reset nodeReset).m_goal = b.m_goal := by
    intro E nodeInit nodeReset hr b
    refine ⟨?_, ?_, rfl, rfl, rfl⟩
    · by_cases h : b.isValidNode c = true
      · simp only [Board.isObstacle, Board.reset, h, if_true, hr]
        exact Bool.and_false _
      · simp only [Bool.not_eq_true] at h
        simp only [Board.isObstacle, Board.reset_isValidNode, h, Bool.false_and]
    · intro h
      simp only [Board.reset, Board.init, h, if_true, hr]
  exact ⟨key (AStar.Node.init A) (AStar.Node.reset A) (fun _ => rfl),
    key (BestFirstSearch.Node.init A) (BestFirstSearch.Node.reset A) (fun _ => rfl),
    key NodeBase.init (NodeBase.reset NodeBase.init) (fun _ => rfl)⟩

/-- C17 on a 3 x 1 Breadth-First board with an obstacle at `(1,0)`: after `reset()` the
node at `(1,0)` is the one `init()` gives, with the obstacle flag cleared. -/
theorem C17_board_reset_is_init_and_clear_witness :
    ((AlgorithmBase.setObstacle (BreadthFirstSearch.create (3, 1) (0, 0) (2, 0)) (1, 0)
        true).m_board.reset (NodeBase.reset NodeBase.init)).m_nodes (1, 0) =
      { ((AlgorithmBase.setObstacle (BreadthFirstSearch.create (3, 1) (0, 0) (2, 0)) (1, 0)
          true).m_board.init NodeBase.init).m_nodes (1, 0) with obstacle := false } :=
  ((C17_board_reset_is_init_and_clear intEnv (1, 0)).2.2
    (AlgorithmBase.setObstacle (BreadthFirstSearch.create (3, 1) (0, 0) (2, 0)) (1, 0)
      true).m_board).2.1 (by decide)

/-- C18 does not hold as stated. On the 3 x 1 board with start `(0,0)`, goal `(2,0)` and an
obstacle at `(1,0)`, for each of the four variants the first `nextStep()` call after `init`
removes the only frontier node, does not reach the goal, returns false and leaves the
frontier empty; it is the following call that returns true. -/
theorem C18_false_with_empty_frontier :
    (∃ s1 s2, BreadthFirstSearch.init (AlgorithmBase.setObstacle
        (BreadthFirstSearch.create (3, 1) (0, 0) (2, 0)) (1, 0) true)
        Heuristic.Manhattan true true = some s1 ∧ s1.m_openNodes = [(0, 0)] ∧
      BreadthFirstSearch.nextStep 4 s1 = some (false, s2) ∧ s2.m_openNodes = [] ∧
      s2.solution = [] ∧ BreadthFirstSearch.nextStep 4 s2 = some (true, s2)) ∧
    (∃ s1 s2, DepthFirstSearch.init (AlgorithmBase.setObstacle
        (DepthFirstSearch.create (3, 1) (0, 0) (2, 0)) (1, 0) true)
        Heuristic.Manhattan true true = some s1 ∧ s1.m_openNodes = [(0, 0)] ∧
      DepthFirstSearch.nextStep 4 s1 = some (false, s2) ∧ s2.m_openNodes = [] ∧
      s2.solution = [] ∧ DepthFirstSearch.nextStep 4 s2 = some (true, s2)) ∧
    (∃ s1 s2, BestFirstSearch.init intEnv (AlgorithmBase.setObstacle
        (BestFirstSearch.create intEnv (3, 1) (0, 0) (2, 0)) (1, 0) true)
        Heuristic.Manhattan true true = some s1 ∧ s1.m_openNodes = [(0, 0)] ∧
      BestFirstSearch.nextStep intEnv 4 s1 = some (false, s2) ∧ s2.m_openNodes = [] ∧
      s2.solution = [] ∧ BestFirstSearch.nextStep intEnv 4 s2 = some (true, s2)) ∧
    (∃ s1 s2, AStar.init intEnv (AlgorithmBase.setObstacle
        (AStar.create intEnv (3, 1) (0, 0) (2, 0)) (1, 0) true)
        Heuristic.Manhattan true true = some s1 ∧ s1.m_openNodes = [(0, 0)] ∧
      AStar.nextStep intEnv 4 s1 = some (false, s2) ∧ s2.m_openNodes = [] ∧
      s2.solution = [] ∧ AStar.nextStep intEnv 4 s2 = some (true, s2)) :=
  ⟨⟨_, _, rfl, rfl, rfl, rfl, rfl, rfl⟩, ⟨_, _, rfl, rfl, rfl, rfl, rfl, rfl⟩,
   ⟨_, _, rfl, rfl, rfl, rfl, rfl, rfl⟩, ⟨_, _, rfl, rfl, rfl, rfl, rfl, rfl⟩⟩

/-- C18, amended: for every variant, `nextStep()` called on an empty frontier returns true
and changes nothing. Called on a non-empty frontier it returns true only by reaching the
goal: with `node` the node the call takes from the frontier (the front of the queue, the top
of the stack, the back of the sorted vector), the goal is the position of `node` or of a
neighbor of `node` that was not opened and that the call opens with `node` as its parent,
and the state returned is the one `storeSolution` leaves. A call that takes the only node
of the frontier, the node not being the goal and all its neighbors being opened already (for
A*: closed or opened), returns false and leaves the frontier empty. After a call that
returned false and left the frontier empty, the next call returns true. The only thing
assumed of `std::sort` is that it leaves a vector of one element as it is. -/
theorem C18_true_only_on_empty_or_goal {α : Type} (A : Env α)
    (hone : ∀ (cmp : Coordinate → Coordinate → Bool) (c : Coordinate), A.sort cmp [c] = [c])
    (fuel : Nat) :
    (∀ s : AStar.State α,
      (s.m_openNodes = [] → AStar.nextStep A fuel s = some (true, s)) ∧
      (∀ node rest s', s.m_openNodes ≠ [] →
        A.sort (AStar.compare A s.m_board) s.m_openNodes = rest ++ [node] →
        AStar.nextStep A fuel s = some (true, s') → ReachedGoal fuel s node s') ∧
      (∀ node, s.m_openNodes = [node] →
        (s.m_board.m_nodes node).position ≠ s.m_board.m_goal →
        (∀ n ∈ s.m_board.getNeighbors node [] s.m_diagonals s.m_cutCorners,
          (s.m_board.m_nodes n).ext.closed = true ∨ (s.m_board.m_nodes n).opened = true) →
        ∃ s', AStar.nextStep A fuel s = some (false, s') ∧ s'.m_openNodes = [] ∧
          s'.solution = s.solution ∧ s'.nodesOpened = s.nodesOpened ∧
          s'.nodesClosed = s.nodesClosed + 1) ∧
      (∀ s', AStar.nextStep A fuel s = some (false, s') → s'.m_openNodes = [] →
        AStar.nextStep A fuel s' = some (true, s'))) ∧
    (∀ s : BestFirstSearch.State α,
      (s.m_openNodes = [] → BestFirstSearch.nextStep A fuel s = some (true, s)) ∧
      (∀ node rest s', s.m_openNodes ≠ [] →
        A.sort (BestFirstSearch.compare A s.m_board) s.m_openNodes = rest ++ [node] →
        BestFirstSearch.nextStep A fuel s = some (true, s') → ReachedGoal fuel s node s') ∧
      (∀ node, s.m_openNodes = [node] →
        (s.m_board.m_nodes node).position ≠ s.m_board.m_goal →
        (∀ n ∈ s.m_board.getNeighbors node [] s.m_diagonals s.m_cutCorners,
          (s.m_board.m_nodes n).opened = true) →
        BestFirstSearch.nextStep A fuel s =
          some (false, { s with nodesClosed := s.nodesClosed + 1, m_openNodes := [] })) ∧
      (∀ s', BestFirstSearch.nextStep A fuel s = some (false, s') → s'.m_openNodes = [] →
        BestFirstSearch.nextStep A fuel s' = some (true, s'))) ∧
    (∀ s : BreadthFirstSearch.State,
      (s.m_openNodes = [] → BreadthFirstSearch.nextStep fuel s = some (true, s)) ∧
      (∀ node rest s', s.m_openNodes = node :: rest →
        BreadthFirstSearch.nextStep fuel s = some (true, s') → ReachedGoal fuel s node s') ∧
      (∀ node, s.m_openNodes = [node] →
        (s.m_board.m_nodes node).position ≠ s.m_board.m_goal →
        (∀ n ∈ s.m_board.getNeighbors node [] s.m_diagonals s.m_cutCorners,
          (s.m_board.m_nodes n).opened = true) →
        BreadthFirstSearch.nextStep fuel s =
          some (false, { s with nodesClosed := s.nodesClosed + 1, m_openNodes := [] })) ∧
      (∀ s', BreadthFirstSearch.nextStep fuel s = some (false, s') → s'.m_openNodes = [] →
        BreadthFirstSearch.nextStep fuel s' = some (true, s'))) ∧
    (∀ s : DepthFirstSearch.State,
      (s.m_openNodes = [] → DepthFirstSearch.nextStep fuel s = some (true, s)) ∧
      (∀ node rest s', s.m_openNodes = rest ++ [node] →
        DepthFirstSearch.nextStep fuel s = some (true, s') → ReachedGoal fuel s node s') ∧
      (∀ node, s.m_openNodes = [node] →
        (s.m_board.m_nodes node).position ≠ s.m_board.m_goal →
        (∀ n ∈ s.m_board.getNeighbors node [] s.m_diagonals s.m_cutCorners,
          (s.m_board.m_nodes n).opened = true) →
        DepthFirstSearch.nextStep fuel s =
          some (false, { s with nodesClosed := s.nodesClosed + 1, m_openNodes := [] })) ∧
      (∀ s', DepthFirstSearch.nextStep fuel s = some (false, s') → s'.m_openNodes = [] →
        DepthFirstSearch.nextStep fuel s' = some (true, s'))) :=
  ⟨fun s => ⟨AStar.astar_nextStep_nil A fuel s,
      fun node rest s' hne hs h => AStar.astar_nextStep_found A fuel s s' node rest hs hne h,
      fun node hs hg hall => AStar.astar_nextStep_last A fuel s node hs (hone _ node) hg hall,
      fun s' _ he => AStar.astar_nextStep_nil A fuel s' he⟩,
   fun s => ⟨BestFirstSearch.bestFirst_nextStep_nil A fuel s,
      fun node rest s' hne hs h =>
        BestFirstSearch.bestFirst_nextStep_found A fuel s s' node rest hs hne h,
      fun node hs hg hall =>
        BestFirstSearch.bestFirst_nextStep_last A fuel s node hs (hone _ node) hg hall,
      fun s' _ he => BestFirstSearch.bestFirst_nextStep_nil A fuel s' he⟩,
   fun s => ⟨BreadthFirstSearch.bfs_nextStep_nil fuel s,
      fun node rest s' hs h => BreadthFirstSearch.bfs_nextStep_found fuel s s' node rest hs h,
      fun node hs hg hall => BreadthFirstSearch.bfs_nextStep_last fuel s node hs hg hall,
      fun s' _ he => BreadthFirstSearch.bfs_nextStep_nil fuel s' he⟩,
   fun s => ⟨DepthFirstSearch.dfs_nextStep_nil fuel s,
      fun node rest s' hs h => DepthFirstSearch.dfs_nextStep_found fuel s s' node rest hs h,
      fun node hs hg hall => DepthFirstSearch.dfs_nextStep_last fuel s node hs hg hall,
      fun s' _ he => DepthFirstSearch.dfs_nextStep_nil fuel s' he⟩⟩

set_option maxRecDepth 100000 in
/-- C18, amended, with the `std::sort` of the C++ library. Best-First on the 3 x 1 board
with start `(0,0)`, goal `(2,0)` and the obstacle `(1,0)`, in the state `init` leaves: the
frontier is the start alone, which is not the goal and has no neighbor, so the call returns
false and leaves the frontier empty. A* on the 2 x 1 board with start `(0,0)` and goal
`(1,0)`, in the state `init` leaves: the call returns true, so it reached the goal from the
node `(0,0)` it took from the frontier. -/
theorem C18_true_only_on_empty_or_goal_witness :
    (∀ (cmp : Coordinate → Coordinate → Bool) (c : Coordinate), stdEnv.sort cmp [c] = [c]) ∧
    (∃ s1, BestFirstSearch.init stdEnv (AlgorithmBase.setObstacle
        (BestFirstSearch.create stdEnv (3, 1) (0, 0) (2, 0)) (1, 0) true)
        Heuristic.Manhattan true true = some s1 ∧ s1.m_openNodes = [(0, 0)] ∧
      BestFirstSearch.nextStep stdEnv 4 s1 =
        some (false, { s1 with nodesClosed := s1.nodesClosed + 1, m_openNodes := [] })) ∧
    (∃ s1 s', AStar.init stdEnv (AStar.create stdEnv (2, 1) (0, 0) (1, 0))
        Heuristic.Manhattan true true = some s1 ∧
      AStar.nextStep stdEnv 3 s1 = some (true, s') ∧ ReachedGoal 3 s1 (0, 0) s') :=
  ⟨stdEnv_sort_singleton,
    ⟨_, rfl, rfl,
      ((C18_true_only_on_empty_or_goal stdEnv stdEnv_sort_singleton 4).2.1 _).2.2.1 (0, 0) rfl
        (by decide) (by decide)⟩,
    ⟨_, _, rfl, rfl,
      ((C18_true_only_on_empty_or_goal stdEnv stdEnv_sort_singleton 3).1 _).2.1 (0, 0) [] _
        (by decide) rfl rfl⟩⟩

/-- C19: `getSolutionDistance()` equals 1 times the number of consecutive pairs of
`solution` that do not differ in both coordinates plus the value of the literal `1.414f`
times the number of consecutive pairs that differ in both coordinates; it is 0 when
`solution` is empty or has a single element. The value of `1.414f` is the single-precision
number nearest to 1.414; it exceeds 1.414 by less than `3.5e-8`. The result is a multiple
`m / 2^23` with `m <= 2^24 * (size - 1)`, which a `double` holds exactly when `m < 2^53`. -/
theorem C19_solution_distance {E : Type} (s : Algorithm E) :
    getSolutionDistance s =
      1 * (((s.solution.zip s.solution.tail).countP
        (fun p => decide (¬ (p.1.1 ≠ p.2.1 ∧ p.1.2 ≠ p.2.2))) : Nat) : ℚ) +
      float1414 * (((s.solution.zip s.solution.tail).countP
        (fun p => decide (p.1.1 ≠ p.2.1 ∧ p.1.2 ≠ p.2.2)) : Nat) : ℚ) ∧
    (s.solution.length ≤ 1 → getSolutionDistance s = 0) ∧
    (0 < float1414 - 1414 / 1000 ∧ float1414 - 1414 / 1000 < 35 / 10 ^ 9) ∧
    (∃ m : Nat, getSolutionDistance s = (m : ℚ) / 2 ^ 23 ∧
      m ≤ 2 ^ 24 * (s.solution.length - 1)) := by
  have e1 : (fun p : Coordinate × Coordinate => decide (¬ (p.1.1 ≠ p.2.1 ∧ p.1.2 ≠ p.2.2))) =
      (fun p => !isDiagonal p.1 p.2) := by
    funext p
    simp only [isDiagonal, bne_iff_ne, ne_eq, Bool.decide_and, Bool.not_and, decide_not,
      Bool.not_not]
    by_cases h1 : p.1.1 = p.2.1 <;> by_cases h2 : p.1.2 = p.2.2 <;> simp [h1, h2]
  have e2 : (fun p : Coordinate × Coordinate => decide (p.1.1 ≠ p.2.1 ∧ p.1.2 ≠ p.2.2)) =
      (fun p => isDiagonal p.1 p.2) := by
    funext p
    simp only [isDiagonal]
    by_cases h1 : p.1.1 = p.2.1 <;> by_cases h2 : p.1.2 = p.2.2 <;> simp [h1, h2]
  have hsum := countP_pairs_add s.solution
  have heq := getSolutionDistance_eq s
  refine ⟨by rw [e1, e2]; exact heq, ?_, ⟨by norm_num [float1414], by norm_num [float1414]⟩, ?_⟩
  · intro hl
    have h0 : (s.solution.zip s.solution.tail) = [] := by
      cases hs : s.solution with
      | nil => rfl
      | cons a t =>
        cases t with
        | nil => rfl
        | cons b t => rw [hs] at hl; simp at hl
    rw [heq, h0]
    simp
  · refine ⟨(s.solution.zip s.solution.tail).countP (fun p => !isDiagonal p.1 p.2) * 8388608 +
      (s.solution.zip s.solution.tail).countP (fun p => isDiagonal p.1 p.2) * 11861492, ?_, ?_⟩
    · rw [heq, float1414]
      push_cast
      ring
    · omega

/-- C19 on the solution `[(2,2), (1,1), (1,0)]`, one diagonal and one cardinal pair, and on
an empty solution. -/
theorem C19_solution_distance_witness :
    getSolutionDistance { BreadthFirstSearch.create (3, 3) (1, 0) (2, 2) with
      solution := [(2, 2), (1, 1), (1, 0)] } = 1 * ((1 : Nat) : ℚ) + float1414 * ((1 : Nat) : ℚ) ∧
    getSolutionDistance (BreadthFirstSearch.create (3, 3) (1, 0) (2, 2)) = 0 :=
  ⟨(C19_solution_distance { BreadthFirstSearch.create (3, 3) (1, 0) (2, 2) with
      solution := [(2, 2), (1, 1), (1, 0)] }).1,
   (C19_solution_distance (BreadthFirstSearch.create (3, 3) (1, 0) (2, 2))).2.1 (by decide)⟩

/-- C20: A* with diagonals disabled on an obstacle-free (freshly constructed) board, for
every heuristic and every in-bounds start and goal: `init` returns, after finitely many
calls that return false a call of `nextStep` returns true, `complete` returns, and the
solution then has `|dx| + |dy| + 1` coordinates, goes from the goal to the start, and has
`getSolutionDistance()` equal to the Manhattan distance `|dx| + |dy|`. The `double`
arithmetic is assumed accurate (`AStar.Accurate`: exact on the small integers held by `g`,
`h + g` within 1/4 of a nonnegative consistent heuristic), which the binary floating-point
interpretation is for every heuristic on boards whose width and height add up to at most
`2^16` (`AStar.doubleEnv_accurate`), and `std::sort` is assumed to permute and to sort, as
it does under the comparator of A*, a strict weak ordering. -/
theorem C20_astar_cardinal_manhattan {α : Type} (A : Env α) (v : α → ℝ)
    (hstar : Coordinate → ℝ) (heuristic : Heuristic) (size start goal : Coordinate)
    (cutCorners : Bool) (fuel : Nat) (hA : A.SortPermutes) (hS : A.SortSorts)
    (hacc : AStar.Accurate A v hstar heuristic size goal)
    (hstart : InBounds size start) (hgoal : InBounds size goal)
    (hfuel : |start.1 - goal.1| + |start.2 - goal.2| < fuel) :
    ∃ s1, AStar.init A (AStar.create A size start goal) heuristic false cutCorners = some s1 ∧
      ∃ n s s', stepsFalse (AStar.nextStep A fuel) n s1 = some s ∧
        AStar.nextStep A fuel s = some (true, s') ∧
        complete (AStar.nextStep A fuel) (n + 1) s1 = some s' ∧
        (s'.solution.length : Int) = |start.1 - goal.1| + |start.2 - goal.2| + 1 ∧
        s'.solution.head? = some goal ∧ s'.solution.getLast? = some start ∧
        getSolutionDistance s' = ((|start.1 - goal.1| + |start.2 - goal.2| : Int) : ℚ) := by
  obtain ⟨s1, h1, n, s, s', h2, h3, h4, h5, h6, h7, h8⟩ :=
    AStar.astar_run_cardinal hacc hA hS hstart hgoal cutCorners fuel hfuel
  refine ⟨s1, h1, n, s, s', h2, h3, h4, h5, h6, h7, ?_⟩
  rw [getSolutionDistance_cardinal s' h8]
  have h9 : (s'.solution.length : Int) = manhattan start goal + 1 := h5
  have h0 := manhattan_nonneg start goal
  have h10 : ((s'.solution.length - 1 : Nat) : Int) = manhattan start goal := by
    clear hfuel
    omega
  unfold manhattan at h10
  exact_mod_cast h10

set_option maxRecDepth 100000 in
/-- C20 on the 5 x 5 board with start `(0,0)` and goal `(4,4)`, for each of the four
heuristics, in the binary floating-point interpretation of the arithmetic: the solution has
9 coordinates and distance 8. The run itself under the Manhattan heuristic, evaluated with
the `std::sort` of the C++ library, every call of which stays inside the vector: 15 nodes
are opened, 8 are closed, and the solution goes along the row of the goal and the column of
the start. -/
theorem C20_astar_cardinal_manhattan_witness :
    (∀ heuristic : Heuristic,
      ∃ s1, AStar.init doubleEnv (AStar.create doubleEnv (5, 5) (0, 0) (4, 4))
        heuristic false true = some s1 ∧
      ∃ n s s', stepsFalse (AStar.nextStep doubleEnv 26) n s1 = some s ∧
        AStar.nextStep doubleEnv 26 s = some (true, s') ∧
        complete (AStar.nextStep doubleEnv 26) (n + 1) s1 = some s' ∧
        (s'.solution.length : Int) = 9 ∧
        s'.solution.head? = some (4, 4) ∧ s'.solution.getLast? = some (0, 0) ∧
        getSolutionDistance s' = 8) ∧
    ((AStar.init stdEnv (AStar.create stdEnv (5, 5) (0, 0) (4, 4)) Heuristic.Manhattan
        false true).bind (AStar.completeInBounds 26 30)).map
        (fun s => (s.solution, s.nodesOpened, s.nodesClosed)) =
      some ([(4, 4), (3, 4), (2, 4), (1, 4), (0, 4), (0, 3), (0, 2), (0, 1), (0, 0)], 15, 8) := by
  refine ⟨fun heuristic => ?_, by decide⟩
  obtain ⟨hstar, hacc⟩ := AStar.doubleEnv_accurate heuristic (5, 5) (4, 4)
    ⟨by decide, by decide, by decide, by decide⟩ (by norm_num)
  have h := C20_astar_cardinal_manhattan doubleEnv (fun x : Int => (x : ℝ) / 2 ^ 52)
    hstar heuristic (5, 5) (0, 0) (4, 4) true 26 doubleEnv_sortPermutes
    doubleEnv_sortSorts hacc
    ⟨by decide, by decide, by decide, by decide⟩ ⟨by decide, by decide, by decide, by decide⟩
    (by norm_num)
  simpa using h

/-- C21: A* with diagonals enabled on an obstacle-free (freshly constructed) board, for
every heuristic, every in-bounds start and goal and both values of `cutCorners`: `init`
returns, after finitely many calls that return false a call of `nextStep` returns true,
`complete` returns, and the solution then goes from the goal to the start, has
`max(|dx|, |dy|) + 1` coordinates of which `min(|dx|, |dy|)` pairs of consecutive ones are
diagonal, and `getSolutionDistance()` equals `(|dx| + |dy|) + (1.414f - 2) * min(|dx|, |dy|)`.
The `double` arithmetic is assumed accurate (`AStar.AccurateK`: the distance between
adjacent cells is 1 or `c2`, sums are within the stated rounding errors of the exact values,
the heuristic is consistent, and either `c2 < 2` with the errors below a third of
`min (c2 - 1) (2 - c2)`, or `c2 = 2` with exact sums and the Manhattan distance as
heuristic) and `std::sort` is assumed to permute and to sort. The assumptions on the
arithmetic are proved for binary floating-point arithmetic and each of the four heuristics
on boards whose width and height add up to at most `2^16` (`AStar.doubleEnv_accurateK`),
and for integer arithmetic with the Manhattan and Chebyshev heuristics
(`AStar.intEnv_accurateK`). -/
theorem C21_astar_diagonal_octile {α : Type} (A : Env α) (v : α → ℝ)
    (hstar : Coordinate → ℝ) (c2 ε T : ℝ) (heuristic : Heuristic)
    (size start goal : Coordinate) (cutCorners : Bool) (fuel : Nat)
    (hA : A.SortPermutes) (hS : A.SortSorts)
    (hacc : AStar.AccurateK A v hstar c2 ε T heuristic size goal)
    (hstart : InBounds size start) (hgoal : InBounds size goal)
    (hfuel : max |start.1 - goal.1| |start.2 - goal.2| < fuel) :
    ∃ s1, AStar.init A (AStar.create A size start goal) heuristic true cutCorners = some s1 ∧
      ∃ n s s', stepsFalse (AStar.nextStep A fuel) n s1 = some s ∧
        AStar.nextStep A fuel s = some (true, s') ∧
        complete (AStar.nextStep A fuel) (n + 1) s1 = some s' ∧
        s'.solution.head? = some goal ∧ s'.solution.getLast? = some start ∧
        (s'.solution.length : Int) = max |start.1 - goal.1| |start.2 - goal.2| + 1 ∧
        (diagonalEdges s'.solution : Int) = min |start.1 - goal.1| |start.2 - goal.2| ∧
        getSolutionDistance s' =
          ((|start.1 - goal.1| + |start.2 - goal.2| : Int) : ℚ) +
            (float1414 - 2) * ((min |start.1 - goal.1| |start.2 - goal.2| : Int) : ℚ) := by
  obtain ⟨s1, h1, n, s, s', h2, h3, h4, h5⟩ :=
    AStar.astar_run_king hacc hA hS hstart hgoal cutCorners fuel hfuel
  obtain ⟨d1, d2, d3⟩ := h5.distance
  exact ⟨s1, h1, n, s, s', h2, h3, h4, h5.2.1, h5.2.2.1, d1, d2, d3⟩

set_option maxRecDepth 100000 in
/-- C21 on the 5 x 5 board with start `(0,0)` and goal `(4,4)`, `cutCorners` enabled,
Euclidean heuristic, in the binary floating-point interpretation of the arithmetic: the
solution has 5 coordinates, 4 diagonal edges and distance `4 * 1.414f`. The run itself,
evaluated: the solution is the diagonal. -/
theorem C21_astar_diagonal_octile_witness :
    (∃ s1, AStar.init doubleEnv (AStar.create doubleEnv (5, 5) (0, 0) (4, 4))
        Heuristic.Euclidean true true = some s1 ∧
      ∃ n s s', stepsFalse (AStar.nextStep doubleEnv 5) n s1 = some s ∧
        AStar.nextStep doubleEnv 5 s = some (true, s') ∧
        complete (AStar.nextStep doubleEnv 5) (n + 1) s1 = some s' ∧
        s'.solution.head? = some (4, 4) ∧ s'.solution.getLast? = some (0, 0) ∧
        (s'.solution.length : Int) = 5 ∧
        (diagonalEdges s'.solution : Int) = 4 ∧
        getSolutionDistance s' = 4 * float1414) ∧
    ((AStar.init doubleEnv (AStar.create doubleEnv (5, 5) (0, 0) (4, 4)) Heuristic.Euclidean
        true true).bind (complete (AStar.nextStep doubleEnv 5) 30)).map (fun s => s.solution) =
      some [(4, 4), (3, 3), (2, 2), (1, 1), (0, 0)] := by
  refine ⟨?_, by decide⟩
  obtain ⟨s1, h1, n, s, s', h2, h3, h4, h5, h6, h7, h8, h9⟩ :=
    C21_astar_diagonal_octile doubleEnv (fun x : Int => (x : ℝ) / 2 ^ 52)
      (fun c => Real.sqrt ((((c.1 - 4) ^ 2 + (c.2 - 4) ^ 2 : Int)) : ℝ))
      (6369051672525773 / 4503599627370496) (1 / 2 ^ 36) (1 / 32)
      Heuristic.Euclidean (5, 5) (0, 0) (4, 4) true 5 doubleEnv_sortPermutes
      doubleEnv_sortSorts
      (AStar.doubleEnv_accurateK_euclidean (5, 5) (4, 4)
        ⟨by decide, by decide, by decide, by decide⟩ (by norm_num))
      ⟨by decide, by decide, by decide, by decide⟩
      ⟨by decide, by decide, by decide, by decide⟩ (by decide)
  refine ⟨s1, h1, n, s, s', h2, h3, h4, h5, h6, h7, h8, ?_⟩
  rw [h9]
  norm_num
  ring


set_option maxRecDepth 100000 in
/-- C22 fails on the code as stated: on the 3 x 3 board whose only obstacle is (1,1), from
(0,0) to (2,2) with diagonals and cutCorners enabled, A* with binary floating-point
arithmetic ends, for each of the four heuristics, with the solution (2,2), (2,1), (1,0),
(0,0): 4 coordinates and 3 moves, not 3 coordinates and 2 moves. -/
theorem C22_two_moves_counterexample :
    (∃ s1 s', AStar.init doubleEnv (AStar.centreObstacle doubleEnv) Heuristic.Manhattan true true =
        some s1 ∧
      complete (AStar.nextStep doubleEnv 10) 4 s1 = some s' ∧
      s'.solution = [(2, 2), (2, 1), (1, 0), (0, 0)] ∧ s'.solution.length ≠ 3) ∧
    (∃ s1 s', AStar.init doubleEnv (AStar.centreObstacle doubleEnv) Heuristic.Diagonal true true =
        some s1 ∧
      complete (AStar.nextStep doubleEnv 10) 4 s1 = some s' ∧
      s'.solution = [(2, 2), (2, 1), (1, 0), (0, 0)] ∧ s'.solution.length ≠ 3) ∧
    (∃ s1 s', AStar.init doubleEnv (AStar.centreObstacle doubleEnv) Heuristic.Euclidean true true =
        some s1 ∧
      complete (AStar.nextStep doubleEnv 10) 4 s1 = some s' ∧
      s'.solution = [(2, 2), (2, 1), (1, 0), (0, 0)] ∧ s'.solution.length ≠ 3) ∧
    (∃ s1 s', AStar.init doubleEnv (AStar.centreObstacle doubleEnv) Heuristic.Chebyshev true true =
        some s1 ∧
      complete (AStar.nextStep doubleEnv 10) 4 s1 = some s' ∧
      s'.solution = [(2, 2), (2, 1), (1, 0), (0, 0)] ∧ s'.solution.length ≠ 3) :=
  ⟨⟨_, _, rfl, rfl, rfl, by decide⟩, ⟨_, _, rfl, rfl, rfl, by decide⟩,
    ⟨_, _, rfl, rfl, rfl, by decide⟩, ⟨_, _, rfl, rfl, rfl, by decide⟩⟩

/-- C22, amended: on the 3 x 3 board whose only obstacle is the centre cell (1,1), with start
(0,0), goal (2,2), diagonals and cutCorners both enabled, A* (for each heuristic) terminates
with a solution that reaches the goal in 3 steps, a solution path of 3 moves (4
coordinates). In binary floating-point arithmetic, with every sort that rearranges its input
and sorts it (whatever it does with elements that compare equal), `complete` returns within
4 calls of `nextStep` and the solution is (2,2), (2,1), (1,0), (0,0) or (2,2), (1,2), (0,1),
(0,0). With any arithmetic `A` and any sort that rearranges its input, `complete` returns
and the solution is a path of moves from the goal to the start of at least 4 coordinates:
no path of 2 moves exists. -/
theorem C22_astar_centre_obstacle {α : Type} (A : Env α) (hA : A.SortPermutes)
    (srt : (Coordinate → Coordinate → Bool) → List Coordinate → List Coordinate)
    (hP : ∀ cmp l, (srt cmp l).Perm l)
    (hS : ∀ cmp l, StrictWeakOrdering cmp → (srt cmp l).Pairwise (fun a b => cmp b a = false))
    (heuristic : Heuristic) (fuel : Nat) (hfuel : 9 < fuel) :
    (∃ s1 s', AStar.init (doubleEnv.withSort srt) (AStar.centreObstacle (doubleEnv.withSort srt))
        heuristic true true = some s1 ∧
      complete (AStar.nextStep (doubleEnv.withSort srt) 10) 4 s1 = some s' ∧
      (s'.solution = [(2, 2), (2, 1), (1, 0), (0, 0)] ∨
        s'.solution = [(2, 2), (1, 2), (0, 1), (0, 0)]) ∧
      s'.solution.length = 4) ∧
    (∃ s1 n s', AStar.init A (AStar.centreObstacle A) heuristic true true = some s1 ∧
      complete (AStar.nextStep A fuel) (n + 1) s1 = some s' ∧
      AStar.MovePath (AStar.centreObstacle A).m_board true true s' ∧
      4 ≤ s'.solution.length) := by
  refine ⟨?_, AStar.centreObstacle_run A hA heuristic fuel hfuel⟩
  obtain ⟨s1, h1, h2⟩ := AStar.centreObstacle_outcomes heuristic
  have hm := AStar.complete_mem_outcomes doubleEnv srt hP hS AStar.doubleEnv_compare_strictWeak
    10 4 s1
  rw [AStar.allEndWith, List.all_eq_true] at h2
  have h3 := h2 _ hm
  cases hc : complete (AStar.nextStep (doubleEnv.withSort srt) 10) 4 s1 with
  | none =>
    rw [hc] at h3
    cases h3
  | some s' =>
    rw [hc] at h3
    have h4 : (s'.solution == [(2, 2), (2, 1), (1, 0), (0, 0)] ||
        s'.solution == [(2, 2), (1, 2), (0, 1), (0, 0)]) = true := h3
    rw [Bool.or_eq_true, beq_iff_eq, beq_iff_eq] at h4
    refine ⟨s1, s', h1, hc, h4, ?_⟩
    rcases h4 with h4 | h4 <;> rw [h4] <;> rfl

/-- Witness of C22, amended: the insertion sort, the integer arithmetic, the Euclidean
heuristic. -/
theorem C22_astar_centre_obstacle_witness :
    intEnv.SortPermutes ∧
    (∃ s1 s', AStar.init (doubleEnv.withSort doubleEnv.sort)
        (AStar.centreObstacle (doubleEnv.withSort doubleEnv.sort))
        Heuristic.Euclidean true true = some s1 ∧
      complete (AStar.nextStep (doubleEnv.withSort doubleEnv.sort) 10) 4 s1 = some s' ∧
      (s'.solution = [(2, 2), (2, 1), (1, 0), (0, 0)] ∨
        s'.solution = [(2, 2), (1, 2), (0, 1), (0, 0)]) ∧
      s'.solution.length = 4) ∧
    (∃ s1 n s', AStar.init intEnv (AStar.centreObstacle intEnv) Heuristic.Euclidean true true =
        some s1 ∧
      complete (AStar.nextStep intEnv 10) (n + 1) s1 = some s' ∧
      AStar.MovePath (AStar.centreObstacle intEnv).m_board true true s' ∧
      4 ≤ s'.solution.length) :=
  ⟨intEnv_sortPermutes,
    C22_astar_centre_obstacle intEnv intEnv_sortPermutes doubleEnv.sort
      (fun _ l => List.perm_insertionSort _ l)
      (fun cmp l h => insertionSort_sorted cmp h l)
      Heuristic.Euclidean 10 (by decide)⟩

/-- C23 does not hold for all coordinates: the sum `abs(dx) + abs(dy)` is computed on `int`
before it is converted to `double`, and overflows when the two coordinates are `2^31` or
more apart. For (0,0) and (2147483647,1), which a board can have as a node and as its goal
(nothing checks the goal against the size), `distance` under the Manhattan and under the
Chebyshev heuristic is -2147483648, where `|dx| + |dy|` is 2147483648. -/
theorem C23_distance_overflows :
    Int32Arith.absSum (0, 0) (2147483647, 1) = -2147483648 ∧
    Int32Arith.manhattanDistance doubleEnv (0, 0) (2147483647, 1) =
      doubleEnv.ofInt (-2147483648) ∧
    Int32Arith.chebyshevDistance doubleEnv (0, 0) (2147483647, 1) =
      doubleEnv.ofInt (-2147483648) ∧
    Spec.manhattanDistance (0, 0) (2147483647, 1) = 2147483648 ∧
    Int32Arith.manhattanDistance doubleEnv (0, 0) (2147483647, 1) ≠
      doubleEnv.ofInt (Spec.manhattanDistance (0, 0) (2147483647, 1)) := by
  refine ⟨by decide, by decide, by decide, by decide, by decide⟩

/-- C23, amended: for all coordinates `a` and `b` that are less than `2^31` apart
(`|dx| + |dy| < 2^31`), no `int` operation of the program overflows, and `distance(a, b)`
under the Manhattan heuristic is `|a.x - b.x| + |a.y - b.y|` (converted to `double`), and
under the Chebyshev heuristic it is that same Manhattan value, which is not
`max(|dx|, |dy|)` as soon as the two coordinates differ on both axes (the conversion
`int → double` being injective). The distances computed on unbounded integers, which the
other theorems use, are then those of the program. Two coordinates of a board whose width
and height add up to at most `2^31` are less than `2^31` apart. -/
theorem C23_chebyshev_is_manhattan {α : Type} (A : Env α) (a b : Coordinate)
    (hab : |a.1 - b.1| + |a.2 - b.2| < 2 ^ 31) :
    Int32Arith.absSum a b = Spec.manhattanDistance a b ∧
    Int32Arith.manhattanDistance A a b = A.ofInt (Spec.manhattanDistance a b) ∧
    Int32Arith.chebyshevDistance A a b = A.ofInt (Spec.manhattanDistance a b) ∧
    distance A Heuristic.Manhattan a b = Int32Arith.manhattanDistance A a b ∧
    distance A Heuristic.Chebyshev a b = Int32Arith.chebyshevDistance A a b ∧
    ((∀ i j, A.ofInt i = A.ofInt j → i = j) → a.1 ≠ b.1 → a.2 ≠ b.2 →
      Int32Arith.chebyshevDistance A a b ≠ A.ofInt (Spec.chebyshevDistance a b)) ∧
    (∀ (size : Coordinate) (c d : Coordinate), InBounds size c → InBounds size d →
      size.1 + size.2 ≤ 2 ^ 31 → |c.1 - d.1| + |c.2 - d.2| < 2 ^ 31) := by
  have n1 := abs_nonneg (a.1 - b.1)
  have n2 := abs_nonneg (a.2 - b.2)
  have hw : ∀ z : Int, -2 ^ 31 ≤ z → z < 2 ^ 31 → Int32Arith.wrap z = z := by
    intro z h1 h2
    unfold Int32Arith.wrap
    omega
  have h1 : Int32Arith.wrap (a.1 - b.1) = a.1 - b.1 := by
    apply hw
    · have := neg_abs_le (a.1 - b.1)
      omega
    · have := le_abs_self (a.1 - b.1)
      omega
  have h2 : Int32Arith.wrap (a.2 - b.2) = a.2 - b.2 := by
    apply hw
    · have := neg_abs_le (a.2 - b.2)
      omega
    · have := le_abs_self (a.2 - b.2)
      omega
  have hs : Int32Arith.absSum a b = Spec.manhattanDistance a b := by
    unfold Int32Arith.absSum Spec.manhattanDistance
    rw [h1, h2, hw |a.1 - b.1| (by omega) (by omega), hw |a.2 - b.2| (by omega) (by omega),
      hw _ (by omega) (by omega)]
  refine ⟨hs, ?_, ?_, ?_, ?_, ?_, ?_⟩
  · unfold Int32Arith.manhattanDistance
    rw [hs]
  · unfold Int32Arith.chebyshevDistance
    rw [hs]
  · unfold Int32Arith.manhattanDistance
    rw [hs]
    rfl
  · unfold Int32Arith.chebyshevDistance
    rw [hs]
    rfl
  · intro hinj e1 e2 h
    unfold Int32Arith.chebyshevDistance at h
    rw [hs] at h
    have h3 := hinj _ _ h
    simp only [Spec.manhattanDistance, Spec.chebyshevDistance, abs_eq_max_neg] at h3
    omega
  · intro size c d hc hd hsz
    obtain ⟨c1, c2, c3, c4⟩ := hc
    obtain ⟨d1, d2, d3, d4⟩ := hd
    simp only [abs_eq_max_neg]
    omega

/-- C23, amended, for (0,0) and (3,4), two coordinates of a 5 x 5 board: `distance` is 7
under both heuristics, computed on `int` or on unbounded integers, and the Chebyshev
distance is 4. -/
theorem C23_chebyshev_is_manhattan_witness :
    |((0 : Int), (0 : Int)).1 - ((3 : Int), (4 : Int)).1| +
      |((0 : Int), (0 : Int)).2 - ((3 : Int), (4 : Int)).2| < 2 ^ 31 ∧
    Int32Arith.manhattanDistance intEnv (0, 0) (3, 4) = 7 ∧
    Int32Arith.chebyshevDistance intEnv (0, 0) (3, 4) = 7 ∧
    distance intEnv Heuristic.Manhattan (0, 0) (3, 4) = 7 ∧
    distance intEnv Heuristic.Chebyshev (0, 0) (3, 4) = 7 ∧
    Int32Arith.chebyshevDistance intEnv (0, 0) (3, 4) ≠
      intEnv.ofInt (Spec.chebyshevDistance (0, 0) (3, 4)) ∧
    |((0 : Int), (0 : Int)).1 - ((3 : Int), (4 : Int)).1| +
      |((0 : Int), (0 : Int)).2 - ((3 : Int), (4 : Int)).2| < 2 ^ 31 :=
  have h := C23_chebyshev_is_manhattan intEnv (0, 0) (3, 4) (by decide)
  ⟨by decide, h.2.1, h.2.2.1, h.2.2.2.1.trans h.2.1, h.2.2.2.2.1.trans h.2.2.1,
    h.2.2.2.2.2.1 (fun _ _ e => e) (by decide) (by decide),
    h.2.2.2.2.2.2 (5, 5) (0, 0) (3, 4) ⟨by decide, by decide, by decide, by decide⟩
      ⟨by decide, by decide, by decide, by decide⟩ (by decide)⟩

/-- C24 fails on the code: no `init` rejects the Chebyshev heuristic and `distance` returns
a value under it. On a 3 x 3 board from (0,0) to (2,2) the `init` of each of the four
algorithms with `Heuristic::Chebyshev` succeeds and stores that heuristic, and
`distance((0,0), (2,2))` under Chebyshev is 4, the Manhattan value, where the
Chebyshev distance is 2. -/
theorem C24_chebyshev_accepted_silently :
    (∃ s1, AStar.init intEnv (AStar.create intEnv (3, 3) (0, 0) (2, 2))
        Heuristic.Chebyshev true true = some s1 ∧
      s1.m_heuristic = Heuristic.Chebyshev ∧ s1.m_openNodes = [(0, 0)]) ∧
    (∃ s1, BestFirstSearch.init intEnv (BestFirstSearch.create intEnv (3, 3) (0, 0) (2, 2))
        Heuristic.Chebyshev true true = some s1 ∧
      s1.m_heuristic = Heuristic.Chebyshev ∧ s1.m_openNodes = [(0, 0)] ∧
      (s1.m_board.m_nodes (0, 0)).ext.h = 4) ∧
    (∃ s1, BreadthFirstSearch.init (BreadthFirstSearch.create (3, 3) (0, 0) (2, 2))
        Heuristic.Chebyshev true true = some s1 ∧
      s1.m_heuristic = Heuristic.Chebyshev ∧ s1.m_openNodes = [(0, 0)]) ∧
    (∃ s1, DepthFirstSearch.init (DepthFirstSearch.create (3, 3) (0, 0) (2, 2))
        Heuristic.Chebyshev true true = some s1 ∧
      s1.m_heuristic = Heuristic.Chebyshev ∧ s1.m_openNodes = [(0, 0)]) ∧
    distance intEnv Heuristic.Chebyshev (0, 0) (2, 2) = 4 ∧
    distance intEnv Heuristic.Manhattan (0, 0) (2, 2) = 4 ∧
    Spec.chebyshevDistance (0, 0) (2, 2) = 2 :=
  ⟨⟨_, rfl, rfl, rfl⟩, ⟨_, rfl, rfl, rfl, rfl⟩, ⟨_, rfl, rfl, rfl⟩, ⟨_, rfl, rfl, rfl⟩,
    rfl, rfl, by decide⟩

/-- C25: whenever `nextStep()` of A* is called with a non-empty frontier, the node it closes
(the node at the back of the sorted frontier) has the smallest `h + g` of all frontier nodes
and, among the frontier nodes with that `h + g`, the smallest `h`; exactly one node is
closed: `nodesClosed` increases by one, the `closed` flag of that node is set and that of no
other node changes, and the frontier loses that node (one occurrence of it) and gains the
neighbors the call opens. In a run on a freshly constructed instance the call returns and
the closed node is no longer in the frontier. The comparisons of `double` values are those
of the numbers they hold, and `std::sort` sorts. -/
theorem C25_astar_closes_least {α : Type} (A : Env α) (v : α → ℝ) (hA : A.SortPermutes)
    (hS : A.SortSorts) (hlt : ∀ a b, A.lt a b = true ↔ v a < v b)
    (heq : ∀ a b, A.eq a b = true ↔ v a = v b) (fuel : Nat) (s : AStar.State α)
    (hw : s.m_board.WellFormed) (hv : ∀ c ∈ s.m_openNodes, s.m_board.isValidNode c = true)
    (hne : s.m_openNodes ≠ []) :
    ∃ node rest,
      AStar.closeNode (AStar.sortNodes A s) = some (node, AStar.closeWith s node rest) ∧
      (rest ++ [node]).Perm s.m_openNodes ∧
      (∀ c ∈ s.m_openNodes,
        v (A.add (s.m_board.m_nodes node).ext.h (s.m_board.m_nodes node).ext.g) ≤
            v (A.add (s.m_board.m_nodes c).ext.h (s.m_board.m_nodes c).ext.g) ∧
          (v (A.add (s.m_board.m_nodes node).ext.h (s.m_board.m_nodes node).ext.g) =
              v (A.add (s.m_board.m_nodes c).ext.h (s.m_board.m_nodes c).ext.g) →
            v (s.m_board.m_nodes node).ext.h ≤ v (s.m_board.m_nodes c).ext.h)) ∧
      (∀ b s', AStar.nextStep A fuel s = some (b, s') →
        s'.nodesClosed = s.nodesClosed + 1 ∧
        (s'.m_board.m_nodes node).ext.closed = true ∧
        (∀ c, c ≠ node →
          (s'.m_board.m_nodes c).ext.closed = (s.m_board.m_nodes c).ext.closed) ∧
        ∃ opened, s'.m_openNodes = rest ++ opened ∧
          ∀ c ∈ opened, (s.m_board.m_nodes c).opened = false ∧
            c ∈ s.m_board.getNeighbors node [] s.m_diagonals s.m_cutCorners) ∧
      (∀ (b0 : Board (AStar.Ext α)) (d cc : Bool), b0.WellFormed →
        b0.isValidNode b0.m_start = true → b0.nodeCount < fuel → AStar.FreshInv b0 d cc s →
        (∃ r, AStar.nextStep A fuel s = some r) ∧ node ∉ rest ∧
          ∀ b s', AStar.nextStep A fuel s = some (b, s') → node ∉ s'.m_openNodes) := by
  have hperm := hA (AStar.compare A s.m_board) s.m_openNodes
  have hne2 : A.sort (AStar.compare A s.m_board) s.m_openNodes ≠ [] := by
    intro h
    rw [h] at hperm
    exact hne (List.Perm.eq_nil hperm.symm)
  obtain ⟨rest, node, hl⟩ := exists_concat_of_ne_nil _ hne2
  have hp : (rest ++ [node]).Perm s.m_openNodes := hl ▸ hperm
  have hmem : node ∈ s.m_openNodes := hp.subset (by simp)
  have hstep : ∀ b s', AStar.nextStep A fuel s = some (b, s') →
      s'.nodesClosed = s.nodesClosed + 1 ∧
      (s'.m_board.m_nodes node).ext.closed = true ∧
      (∀ c, c ≠ node →
        (s'.m_board.m_nodes c).ext.closed = (s.m_board.m_nodes c).ext.closed) ∧
      ∃ opened, s'.m_openNodes = rest ++ opened ∧
        ∀ c ∈ opened, (s.m_board.m_nodes c).opened = false ∧
          c ∈ s.m_board.getNeighbors node [] s.m_diagonals s.m_cutCorners := by
    intro b s' h
    obtain ⟨vis, skp, h1, _, _, h4, h5, _, h7, h8⟩ :=
      AStar.astar_nextStep_effect A fuel s hw hv hne node rest hl hmem b s' h
    refine ⟨h4.1, by rw [h7], fun c hc => ?_, AStar.newlyOpened s vis, h5, fun c hc => ?_⟩
    · by_cases hcv : c ∈ vis ∧ (s.m_board.m_nodes c).ext.closed = false
      · exact ((h8 c).1 hcv.1 hcv.2).2.2.1
      · rw [(h8 c).2 hc]
        rw [not_and_or] at hcv
        rcases hcv with hcv | hcv
        · exact Or.inl hcv
        · exact Or.inr (by simpa using hcv)
    · unfold AStar.newlyOpened at hc
      rw [List.mem_filter] at hc
      have hc2 := hc.2
      simp only [Bool.and_eq_true, Bool.not_eq_true'] at hc2
      refine ⟨hc2.2, ?_⟩
      rw [h1]
      exact List.mem_append_left _ hc.1
  refine ⟨node, rest, by simp [AStar.closeNode, AStar.sortNodes, hl, AStar.closeWith], hp,
    fun c hc => AStar.sorted_last_least hlt heq hA hS s.m_board _ rest node hl c hc, hstep, ?_⟩
  intro b0 d cc hw0 hvs hfuel hfresh
  have hret : ∃ r, AStar.nextStep A fuel s = some r := by
    rcases AStar.astar_nextStep_fresh A hA b0 hw0 hvs d cc fuel hfuel s hfresh with
      ⟨_, h⟩ | ⟨s', h, _⟩ | ⟨_, s', h, _⟩ <;> exact ⟨_, h⟩
  obtain ⟨hr, rk, hk⟩ := hfresh
  have hnd : (rest ++ [node]).Nodup := hp.nodup_iff.2 hk.front_nodup
  have hnr : node ∉ rest := fun hm =>
    (List.nodup_append.1 hnd).2.2 hm (List.mem_singleton_self _)
  refine ⟨hret, hnr, fun b s' h => ?_⟩
  obtain ⟨_, _, _, opened, ho, hop⟩ := hstep b s' h
  rw [ho, List.mem_append, not_or]
  refine ⟨hnr, fun hm => ?_⟩
  have := (hop node hm).1
  rw [(hr.front node hmem).2.1] at this
  cases this

/-- C25 on the 3 x 3 board from (0,0) to (2,2), in the state in which the start node was
opened, with integer arithmetic: the call closes a node of the frontier. -/
theorem C25_astar_closes_least_witness :
    (pushOpen (AStar.create intEnv (3, 3) (0, 0) (2, 2)) (0, 0) none).m_openNodes ≠ [] ∧
    ∃ node rest,
      AStar.closeNode (AStar.sortNodes intEnv
          (pushOpen (AStar.create intEnv (3, 3) (0, 0) (2, 2)) (0, 0) none)) =
        some (node,
          AStar.closeWith (pushOpen (AStar.create intEnv (3, 3) (0, 0) (2, 2)) (0, 0) none)
            node rest) ∧
      (rest ++ [node]).Perm
        (pushOpen (AStar.create intEnv (3, 3) (0, 0) (2, 2)) (0, 0) none).m_openNodes :=
  ⟨by decide,
    let ⟨node, rest, h1, h2, _⟩ := C25_astar_closes_least intEnv (fun x => (x : ℝ))
      intEnv_sortPermutes intEnv_sortSorts
      (fun a b => by simp [intEnv]) (fun a b => by simp [intEnv]) 10
      (pushOpen (AStar.create intEnv (3, 3) (0, 0) (2, 2)) (0, 0) none)
      ((pushOpen_sameGrid _ _ _).wellFormed (Board.wellFormed_create _ _ _ _))
      (fun c hc => by
        have : c = (0, 0) := by simpa [AStar.create] using hc
        subst this
        rfl)
      (by decide)
    ⟨node, rest, h1, h2⟩⟩

/-- C26 fails on the code as stated: the loop over the neighbors ends as soon as the goal is
opened. A* on a 3 x 3 board from (1,1) to (2,1), Manhattan heuristic: the first call closes
(1,1), visits its neighbors (1,0) and (2,1), and returns true. The neighbor (1,2) is
accessible and not closed, and its new `h + g` (2 + 1) is below its old one (`max + 0`), yet
its parent, `h` and `g` are what they were. -/
theorem C26_relaxation_cut_short :
    ∃ s1 s2,
      AStar.init intEnv (AStar.create intEnv (3, 3) (1, 1) (2, 1))
        Heuristic.Manhattan true true = some s1 ∧
      AStar.nextStep intEnv 10 s1 = some (true, s2) ∧
      (s2.m_board.m_nodes (1, 1)).ext.closed = true ∧
      (1, 2) ∈ s1.m_board.getNeighbors (1, 1) [] true true ∧
      (s1.m_board.m_nodes (1, 2)).ext.closed = false ∧
      intEnv.lt
        (intEnv.add (distance intEnv Heuristic.Manhattan (1, 2) (2, 1))
          (intEnv.add (s1.m_board.m_nodes (1, 1)).ext.g
            (distance intEnv Heuristic.Manhattan (1, 1) (1, 2))))
        (intEnv.add (s1.m_board.m_nodes (1, 2)).ext.h (s1.m_board.m_nodes (1, 2)).ext.g) =
          true ∧
      (s2.m_board.m_nodes (1, 2)).parent = none ∧
      (s2.m_board.m_nodes (1, 2)).ext.h = doubleMax ∧
      (s2.m_board.m_nodes (1, 2)).ext.g = 0 ∧
      (s2.m_board.m_nodes (1, 2)).opened = false :=
  ⟨_, _, rfl, rfl, rfl, by decide, rfl, by decide, rfl, rfl, rfl, rfl⟩

/-- C26, amended: a call of `nextStep()` of A* on a non-empty frontier closes a node `p`
and, unless `p` is the goal, visits the accessible neighbors of `p` in order: all of them
when the call returns false, those up to the goal when the goal is opened (the call then
returns true). For a visited neighbor `n` that is not closed, with `h' = distance(n, goal)`
and `g' = p.g + distance(p, n)`: `n` is opened afterwards; if `h' + g' < n.h + n.g` then the
parent, `g` and `h` of `n` become `p`, `g'` and `h'`, also when `n` was already opened;
otherwise `g` and `h` stay as they are, and so does the parent of a node that was opened
(a node that was not opened gets the parent `p` when it is opened). The parent, `g` and `h`
of the closed nodes, of `p` and of the nodes not visited are not modified. In a run on a
freshly constructed instance the call returns. -/
theorem C26_astar_relaxation {α : Type} (A : Env α) (hA : A.SortPermutes) (fuel : Nat)
    (s : AStar.State α) (hw : s.m_board.WellFormed)
    (hv : ∀ c ∈ s.m_openNodes, s.m_board.isValidNode c = true) (hne : s.m_openNodes ≠ []) :
    ∃ p rest,
      AStar.closeNode (AStar.sortNodes A s) = some (p, AStar.closeWith s p rest) ∧
      p ∈ s.m_openNodes ∧
      (∀ (b0 : Board (AStar.Ext α)) (d cc : Bool), b0.WellFormed →
        b0.isValidNode b0.m_start = true → b0.nodeCount < fuel → AStar.FreshInv b0 d cc s →
        ∃ r, AStar.nextStep A fuel s = some r) ∧
      ∀ b s', AStar.nextStep A fuel s = some (b, s') →
        ∃ visited skipped,
          s.m_board.getNeighbors p [] s.m_diagonals s.m_cutCorners = visited ++ skipped ∧
          (b = false → p ≠ s.m_board.m_goal ∧ skipped = []) ∧
          (b = true → (p = s.m_board.m_goal ∧ visited = []) ∨
            (p ≠ s.m_board.m_goal ∧ visited.getLast? = some s.m_board.m_goal)) ∧
          (∀ n ∈ visited, (s.m_board.m_nodes n).ext.closed = false →
            (s'.m_board.m_nodes n).opened = true ∧
            (A.lt (A.add (distance A s.m_heuristic n s.m_board.m_goal)
                  (A.add (s.m_board.m_nodes p).ext.g (distance A s.m_heuristic p n)))
                (A.add (s.m_board.m_nodes n).ext.h (s.m_board.m_nodes n).ext.g) = true →
              (s'.m_board.m_nodes n).parent = some p ∧
              (s'.m_board.m_nodes n).ext.g =
                A.add (s.m_board.m_nodes p).ext.g (distance A s.m_heuristic p n) ∧
              (s'.m_board.m_nodes n).ext.h = distance A s.m_heuristic n s.m_board.m_goal) ∧
            (A.lt (A.add (distance A s.m_heuristic n s.m_board.m_goal)
                  (A.add (s.m_board.m_nodes p).ext.g (distance A s.m_heuristic p n)))
                (A.add (s.m_board.m_nodes n).ext.h (s.m_board.m_nodes n).ext.g) = false →
              (s'.m_board.m_nodes n).ext.g = (s.m_board.m_nodes n).ext.g ∧
              (s'.m_board.m_nodes n).ext.h = (s.m_board.m_nodes n).ext.h ∧
              ((s.m_board.m_nodes n).opened = true →
                (s'.m_board.m_nodes n).parent = (s.m_board.m_nodes n).parent) ∧
              ((s.m_board.m_nodes n).opened = false →
                (s'.m_board.m_nodes n).parent = some p))) ∧
          (∀ n, (s.m_board.m_nodes n).ext.closed = true ∨ n = p ∨ n ∉ visited →
            (s'.m_board.m_nodes n).parent = (s.m_board.m_nodes n).parent ∧
            (s'.m_board.m_nodes n).ext.g = (s.m_board.m_nodes n).ext.g ∧
            (s'.m_board.m_nodes n).ext.h = (s.m_board.m_nodes n).ext.h) := by
  have hperm := hA (AStar.compare A s.m_board) s.m_openNodes
  have hne2 : A.sort (AStar.compare A s.m_board) s.m_openNodes ≠ [] := by
    intro h
    rw [h] at hperm
    exact hne (List.Perm.eq_nil hperm.symm)
  obtain ⟨rest, p, hl⟩ := exists_concat_of_ne_nil _ hne2
  have hp : (rest ++ [p]).Perm s.m_openNodes := hl ▸ hperm
  have hmem : p ∈ s.m_openNodes := hp.subset (by simp)
  have hpp : (s.m_board.m_nodes p).position = p := hw p (hv p hmem)
  refine ⟨p, rest, by simp [AStar.closeNode, AStar.sortNodes, hl, AStar.closeWith], hmem, ?_, ?_⟩
  · intro b0 d cc hw0 hvs hfuel hfresh
    rcases AStar.astar_nextStep_fresh A hA b0 hw0 hvs d cc fuel hfuel s hfresh with
      ⟨_, h⟩ | ⟨s', h, _⟩ | ⟨_, s', h, _⟩ <;> exact ⟨_, h⟩
  · intro b s' h
    obtain ⟨vis, skp, h1, h2, h3, _, _, _, h7, h8⟩ :=
      AStar.astar_nextStep_effect A fuel s hw hv hne p rest hl hmem b s' h
    refine ⟨vis, skp, h1, fun hb => ⟨(h2 hb).1, (h2 hb).2.1⟩, ?_, ?_, ?_⟩
    · intro hb
      rcases h3 hb with h | h
      · exact Or.inl h
      · exact Or.inr ⟨h.1, h.2.1⟩
    · intro n hn hc
      have hnv : s.m_board.isValidNode n = true :=
        Board.isValidNode_of_mem_getNeighbors _ _ _ _ _ (h1 ▸ List.mem_append_left _ hn)
      have hnp : (s.m_board.m_nodes n).position = n := hw n hnv
      have hr := (h8 n).1 hn hc
      unfold AStar.Relaxed at hr
      simp only [hnp, hpp, Board.getGoal] at hr
      obtain ⟨_, _, _, ho, hr⟩ := hr
      refine ⟨ho, fun hlt => ?_, fun hlt => ?_⟩
      · rw [if_pos hlt] at hr
        exact ⟨hr.1, hr.2.2, hr.2.1⟩
      · rw [if_neg (by rw [hlt]; simp)] at hr
        refine ⟨hr.2.1, hr.1, fun ho => ?_, fun ho => ?_⟩
        · rw [hr.2.2, if_pos ho]
        · rw [hr.2.2, if_neg (by rw [ho]; simp)]
    · intro n hn
      by_cases hnp : n = p
      · subst hnp
        rw [h7]
        exact ⟨rfl, rfl, rfl⟩
      · have : n ∉ vis ∨ (s.m_board.m_nodes n).ext.closed = true := by
          rcases hn with hn | hn | hn
          · exact Or.inr hn
          · exact absurd hn hnp
          · exact Or.inl hn
        rw [(h8 n).2 hnp this]
        exact ⟨rfl, rfl, rfl⟩

/-- C26, amended, on the 3 x 3 board from (0,0) to (2,2), in the state in which the start
node was opened, with integer arithmetic: the call returns false, and every neighbor of the
node it closes that was not closed is opened afterwards. -/
theorem C26_astar_relaxation_witness :
    (pushOpen (AStar.create intEnv (3, 3) (0, 0) (2, 2)) (0, 0) none).m_openNodes ≠ [] ∧
    ∃ p s', p ∈ (pushOpen (AStar.create intEnv (3, 3) (0, 0) (2, 2)) (0, 0) none).m_openNodes ∧
      AStar.nextStep intEnv 10
        (pushOpen (AStar.create intEnv (3, 3) (0, 0) (2, 2)) (0, 0) none) = some (false, s') ∧
      ∀ n ∈ (pushOpen (AStar.create intEnv (3, 3) (0, 0) (2, 2)) (0, 0) none).m_board.getNeighbors
          p [] true true,
        ((pushOpen (AStar.create intEnv (3, 3) (0, 0) (2, 2)) (0, 0) none).m_board.m_nodes
          n).ext.closed = false → (s'.m_board.m_nodes n).opened = true :=
  ⟨by decide,
    let ⟨p, _, _, h2, _, h4⟩ := C26_astar_relaxation intEnv intEnv_sortPermutes 10
      (pushOpen (AStar.create intEnv (3, 3) (0, 0) (2, 2)) (0, 0) none)
      ((pushOpen_sameGrid _ _ _).wellFormed (Board.wellFormed_create _ _ _ _))
      (fun c hc => by
        have : c = (0, 0) := by simpa [AStar.create] using hc
        subst this
        rfl)
      (by decide)
    let ⟨_, _, h5, h6, _, h8, _⟩ := h4 false _ rfl
    ⟨p, _, h2, rfl, fun n hn hc => (h8 n (by
      have h9 := h5
      rw [(h6 rfl).2, List.append_nil] at h9
      rw [← h9]
      exact hn) hc).1⟩⟩

/-- C28: Breadth-First closes nodes in exactly the order in which it opened them. With a
record of the calls of `openNode` and `closeNode` kept beside the state (dropping the record
gives `init` and `nextStep` back), after `init` and any number of `nextStep` calls the nodes
opened are the nodes closed followed by the queue, so the `k`-th node closed is the `k`-th
node opened; the record of the opened nodes has `nodesOpened` entries and that of the
closed nodes as many as `nodesClosed` has grown. -/
theorem C28_bfs_closes_in_opening_order (fuel : Nat) (s0 : BreadthFirstSearch.State)
    (heuristic : Heuristic) (diagonals cutCorners : Bool)
    (a b : BreadthFirstSearch.State × BreadthFirstSearch.Log)
    (hinit : BreadthFirstSearch.initL s0 heuristic diagonals cutCorners = some a)
    (hrun : BreadthFirstSearch.RunL fuel a b) :
    BreadthFirstSearch.init s0 heuristic diagonals cutCorners = some a.1 ∧
    (∀ x, (BreadthFirstSearch.nextStepL fuel x).map (fun r => (r.1, r.2.1)) =
      BreadthFirstSearch.nextStep fuel x.1) ∧
    a.2.opened = [s0.m_board.m_start] ∧ a.2.closed = [] ∧
    b.2.opened = b.2.closed ++ b.1.m_openNodes ∧
    b.2.opened.length = b.1.nodesOpened ∧
    b.2.closed.length + s0.nodesClosed = b.1.nodesClosed ∧
    ∀ k, k < b.2.closed.length → b.2.closed[k]? = b.2.opened[k]? := by
  have hf := BreadthFirstSearch.Fifo.run fuel s0.nodesClosed a b
    (BreadthFirstSearch.Fifo.init s0 heuristic diagonals cutCorners a hinit) hrun
  refine ⟨?_, BreadthFirstSearch.nextStepL_erase fuel, ?_, ?_, hf.1, hf.2.1, hf.2.2, ?_⟩
  · rw [← BreadthFirstSearch.initL_erase, hinit]
    rfl
  · unfold BreadthFirstSearch.initL at hinit
    simp only at hinit
    split at hinit
    · cases hinit
    · rename_i st hst
      cases hinit
      have : st = s0.m_board.m_start := by
        unfold Board.getStartNode at hst
        split at hst
        · cases hst; rfl
        · cases hst
      rw [this]
      rfl
  · unfold BreadthFirstSearch.initL at hinit
    simp only at hinit
    split at hinit
    · cases hinit
    · cases hinit
      rfl
  · intro k hk
    rw [hf.1, List.getElem?_append_left hk]

/-- C28 on the 3 x 1 board from (0,0) to (2,0): after `init` and two `nextStep` calls the
nodes (0,0) and (1,0) were closed, in this order, and the nodes (0,0), (1,0) and (2,0) were
opened, in this order. -/
theorem C28_bfs_closes_in_opening_order_witness :
    ∃ a b,
      BreadthFirstSearch.initL (BreadthFirstSearch.create (3, 1) (0, 0) (2, 0))
        Heuristic.Manhattan true true = some a ∧
      BreadthFirstSearch.RunL 10 a b ∧
      b.2.closed = [(0, 0), (1, 0)] ∧ b.2.opened = [(0, 0), (1, 0), (2, 0)] ∧
      ∀ k, k < b.2.closed.length → b.2.closed[k]? = b.2.opened[k]? :=
  have h : ∃ a b,
      BreadthFirstSearch.initL (BreadthFirstSearch.create (3, 1) (0, 0) (2, 0))
        Heuristic.Manhattan true true = some a ∧
      BreadthFirstSearch.RunL 10 a b ∧
      b.2.closed = [(0, 0), (1, 0)] ∧ b.2.opened = [(0, 0), (1, 0), (2, 0)] :=
    ⟨_, _, rfl, Relation.ReflTransGen.tail
      (Relation.ReflTransGen.tail Relation.ReflTransGen.refl ⟨false, rfl⟩) ⟨true, rfl⟩,
      rfl, rfl⟩
  let ⟨a, b, h1, h2, h3, h4⟩ := h
  ⟨a, b, h1, h2, h3, h4,
    (C28_bfs_closes_in_opening_order 10 (BreadthFirstSearch.create (3, 1) (0, 0) (2, 0))
      Heuristic.Manhattan true true a b h1 h2).2.2.2.2.2.2.2⟩

/-- C29: when `nextStep()` of Depth-First is called with a non-empty stack whose top node
`top` is not the goal, it opens, in the order of `getNeighbors`, every neighbor of `top` that
is not yet opened, stopping early if the goal is opened: each opened neighbor is pushed, its
parent is `top`, and `nodesOpened` counts it. If the goal was opened the call ends with
`storeSolution` and returns true, `top` staying on the stack and `nodesClosed` unchanged; if
neighbors were opened but not the goal it returns false, `top` staying on the stack and
`nodesClosed` unchanged; if no neighbor was opened it pops `top`, increments `nodesClosed`
and returns false. In a run on a freshly constructed instance the call returns. -/
theorem C29_dfs_step_rule (fuel : Nat) (s : DepthFirstSearch.State) (top : Coordinate)
    (rest : List Coordinate) (hs : s.m_openNodes = rest ++ [top])
    (hgoal : (s.m_board.m_nodes top).position ≠ s.m_board.m_goal) :
    ∃ opens found post,
      opensUpToGoal s.m_board
        (s.m_board.getNeighbors top [] s.m_diagonals s.m_cutCorners) = (opens, found) ∧
      (s.m_board.getNeighbors top [] s.m_diagonals s.m_cutCorners).filter
        (fun n => !(s.m_board.m_nodes n).opened) = opens ++ post ∧
      (found = false → post = [] ∧
        ∀ n ∈ opens, (s.m_board.m_nodes n).position ≠ s.m_board.m_goal) ∧
      (found = true → ∃ g, opens.getLast? = some g ∧
        (s.m_board.m_nodes g).position = s.m_board.m_goal ∧
        ∀ n ∈ opens.dropLast, (s.m_board.m_nodes n).position ≠ s.m_board.m_goal) ∧
      (pushAll s top opens).m_openNodes = rest ++ [top] ++ opens ∧
      (pushAll s top opens).nodesOpened = s.nodesOpened + opens.length ∧
      (pushAll s top opens).nodesClosed = s.nodesClosed ∧
      (pushAll s top opens).solution = s.solution ∧
      (∀ c ∈ opens, (pushAll s top opens).m_board.m_nodes c =
        { s.m_board.m_nodes c with parent := some top, opened := true }) ∧
      (∀ c, c ∉ opens → (pushAll s top opens).m_board.m_nodes c = s.m_board.m_nodes c) ∧
      (found = true → DepthFirstSearch.nextStep fuel s =
        (storeSolution fuel (pushAll s top opens)).map (fun r => (true, r))) ∧
      (found = false → opens ≠ [] →
        DepthFirstSearch.nextStep fuel s = some (false, pushAll s top opens)) ∧
      (found = false → opens = [] → DepthFirstSearch.nextStep fuel s =
        some (false, { s with nodesClosed := s.nodesClosed + 1, m_openNodes := rest })) ∧
      (∀ (b0 : Board Unit) (d cc : Bool), b0.WellFormed →
        b0.isValidNode b0.m_start = true → b0.nodeCount < fuel → FreshInv b0 d cc s →
        ∃ r, DepthFirstSearch.nextStep fuel s = some r) := by
  obtain ⟨post, h1, h2, h3⟩ := opensUpToGoal_spec s.m_board
    (s.m_board.getNeighbors top [] s.m_diagonals s.m_cutCorners)
  obtain ⟨f1, f2, f3, f4⟩ := pushAll_frame top
    (opensUpToGoal s.m_board (s.m_board.getNeighbors top [] s.m_diagonals s.m_cutCorners)).1 s
  have hnd := Board.getNeighbors_nodup s.m_board top s.m_diagonals s.m_cutCorners
  have hstep := DepthFirstSearch.dfs_nextStep_concat fuel s top rest hs
  rw [if_neg hgoal, DepthFirstSearch.dfs_loop_eq fuel top _ false s hnd] at hstep
  refine ⟨_, _, post, rfl, h1, h2, h3, by rw [f1, hs], f2, f4.1, f3,
    pushAll_m_nodes_of_mem top _ s, pushAll_m_nodes_of_not_mem top _ s, ?_, ?_, ?_, ?_⟩
  · intro hf
    rw [hstep, if_pos hf]
    cases storeSolution fuel (pushAll s top (opensUpToGoal s.m_board
      (s.m_board.getNeighbors top [] s.m_diagonals s.m_cutCorners)).1) <;> rfl
  · intro hf hne
    rw [hstep, if_neg (by rw [hf]; simp)]
    have : (opensUpToGoal s.m_board
        (s.m_board.getNeighbors top [] s.m_diagonals s.m_cutCorners)).1.isEmpty = false := by
      cases hl : (opensUpToGoal s.m_board
        (s.m_board.getNeighbors top [] s.m_diagonals s.m_cutCorners)).1 with
      | nil => exact absurd hl hne
      | cons a t => rfl
    simp [this]
  · intro hf he
    rw [hstep, if_neg (by rw [hf]; simp), he]
    simp [pushAll, DepthFirstSearch.closeNode, hs]
  · intro b0 d cc hw0 hvs hfuel hfresh
    rcases DepthFirstSearch.dfs_nextStep_fresh b0 hw0 hvs d cc fuel hfuel s hfresh with
      ⟨_, h⟩ | ⟨s', h, _⟩ | ⟨_, s', h, _⟩ <;> exact ⟨_, h⟩

/-- C29 on the 3 x 3 board from (0,0) to (2,2) with cardinal moves, in the state in which
the start node was opened: the call opens the neighbors (1,0) and (0,1) of the start, in
this order, and returns false; the start stays on the stack. -/
theorem C29_dfs_step_rule_witness :
    ∃ s', DepthFirstSearch.nextStep 10
        (pushOpen (AlgorithmBase.init (DepthFirstSearch.create (3, 3) (0, 0) (2, 2))
          Heuristic.Manhattan false true) (0, 0) none) = some (false, s') ∧
      s'.m_openNodes = [(0, 0), (1, 0), (0, 1)] ∧ s'.nodesClosed = 0 :=
  let ⟨opens, found, _, h1, _, _, _, h5, _, h7, _, _, _, _, h12, _⟩ :=
    C29_dfs_step_rule 10
      (pushOpen (AlgorithmBase.init (DepthFirstSearch.create (3, 3) (0, 0) (2, 2))
        Heuristic.Manhattan false true) (0, 0) none) (0, 0) [] rfl (by decide)
  have ho : opens = [(1, 0), (0, 1)] := (congrArg Prod.fst h1).symm.trans rfl
  have hf : found = false := (congrArg Prod.snd h1).symm.trans rfl
  ⟨_, h12 hf (by rw [ho]; simp), by rw [h5, ho]; rfl, by rw [h7]; rfl⟩

/-- C30: the parent links never form a cycle. For every variant, every board size, in-bounds
start, sequence of `setObstacle` calls on the freshly constructed instance and arguments of
`init`, in every state reached from the state `init` leaves by any number of `nextStep`
calls (whatever they return): following parent links from any node reaches a node without
parent after finitely many steps, no node is reached from itself by one or more parent
links, and the chain of every opened node ends at the start node. -/
theorem C30_parent_links_acyclic {α : Type} (A : Env α) (hA : A.SortPermutes)
    (size start goal : Coordinate) (obs : List (Coordinate × Bool)) (heuristic : Heuristic)
    (diagonals cutCorners : Bool) (fuel : Nat) (hstart : InBounds size start) :
    (∃ s1, AStar.init A (setObstacles (AStar.create A size start goal) obs) heuristic
        diagonals cutCorners = some s1 ∧
      ∀ s, Reachable (AStar.nextStep A fuel) s1 s →
        AcyclicParents s.m_board ∧ s.m_board.m_start = start) ∧
    (∃ s1, BestFirstSearch.init A (setObstacles (BestFirstSearch.create A size start goal) obs)
        heuristic diagonals cutCorners = some s1 ∧
      ∀ s, Reachable (BestFirstSearch.nextStep A fuel) s1 s →
        AcyclicParents s.m_board ∧ s.m_board.m_start = start) ∧
    (∃ s1, BreadthFirstSearch.init (setObstacles (BreadthFirstSearch.create size start goal) obs)
        heuristic diagonals cutCorners = some s1 ∧
      ∀ s, Reachable (BreadthFirstSearch.nextStep fuel) s1 s →
        AcyclicParents s.m_board ∧ s.m_board.m_start = start) ∧
    (∃ s1, DepthFirstSearch.init (setObstacles (DepthFirstSearch.create size start goal) obs)
        heuristic diagonals cutCorners = some s1 ∧
      ∀ s, Reachable (DepthFirstSearch.nextStep fuel) s1 s →
        AcyclicParents s.m_board ∧ s.m_board.m_start = start) := by
  refine ⟨?_, ?_, ?_, ?_⟩
  · have hp := (AStar.astar_pristineA_create A size start goal).pristineA_setObstacles obs
    obtain ⟨_, b2, _, _, b5⟩ := setObstacles_board (AStar.create A size start goal) obs
      size start goal rfl rfl rfl
    obtain ⟨s1, h1, h2, _, h4⟩ := AStar.astar_init_some A _ heuristic diagonals cutCorners
      (b5 hstart)
    obtain ⟨rk, hk⟩ := h4 hp
    refine ⟨s1, h1, fun s hs => ?_⟩
    have hI := Reachable.invariant (AStar.nextStep A fuel)
      (fun s => AStar.FreshInv (setObstacles (AStar.create A size start goal) obs).m_board
        diagonals cutCorners (clearSolution s))
      (fun s b s' hI h => AStar.astar_nextStep_links A hA _ diagonals cutCorners fuel s hI b s' h)
      s1 s ⟨h2.run_clear, rk, ⟨hk.parent_closed, hk.rk_lt, hk.closed_opened, hk.root, hk.count,
        hk.balance, hk.front_open, hk.front_nodup⟩⟩ hs
    exact ⟨AStar.astar_acyclic hI, hI.1.grid.2.1.trans b2⟩
  · have hp := (BestFirstSearch.bestFirst_pristine_create A size start goal).pristine_setObstacles obs
    obtain ⟨_, b2, _, _, b5⟩ := setObstacles_board (BestFirstSearch.create A size start goal)
      obs size start goal rfl rfl rfl
    have hv := b5 hstart
    refine ⟨_, by rw [BestFirstSearch.bestFirst_init_eq, if_pos hv], fun s hs => ?_⟩
    have hI := Reachable.invariant (BestFirstSearch.nextStep A fuel)
      (Links (setObstacles (BestFirstSearch.create A size start goal) obs).m_board
        diagonals cutCorners)
      (fun s b s' hI h =>
        BestFirstSearch.bestFirst_nextStep_links A hA _ diagonals cutCorners fuel s hI b s' h)
      _ s (init_links (BestFirstSearch.bestFirst_nodeInitOK A) _ hp heuristic diagonals
        cutCorners hv _ (BestFirstSearch.bestFirst_openNode_extOnly A _ _ _)) hs
    exact ⟨hI.acyclic, hI.1.1.grid.2.1.trans b2⟩
  · have hp := (BreadthFirstSearch.bfs_pristine_create size start goal).pristine_setObstacles obs
    obtain ⟨_, b2, _, _, b5⟩ := setObstacles_board (BreadthFirstSearch.create size start goal)
      obs size start goal rfl rfl rfl
    have hv := b5 hstart
    refine ⟨_, by rw [BreadthFirstSearch.bfs_init_eq, if_pos hv], fun s hs => ?_⟩
    have hI := Reachable.invariant (BreadthFirstSearch.nextStep fuel)
      (Links (setObstacles (BreadthFirstSearch.create size start goal) obs).m_board
        diagonals cutCorners)
      (fun s b s' hI h =>
        BreadthFirstSearch.bfs_nextStep_links _ diagonals cutCorners fuel s hI b s' h)
      _ s (init_links nodeInitOK_base _ hp heuristic diagonals cutCorners hv _
        (ExtOnly.ext_refl _)) hs
    exact ⟨hI.acyclic, hI.1.1.grid.2.1.trans b2⟩
  · have hp := (DepthFirstSearch.dfs_pristine_create size start goal).pristine_setObstacles obs
    obtain ⟨_, b2, _, _, b5⟩ := setObstacles_board (DepthFirstSearch.create size start goal)
      obs size start goal rfl rfl rfl
    have hv := b5 hstart
    refine ⟨_, by rw [DepthFirstSearch.dfs_init_eq, if_pos hv], fun s hs => ?_⟩
    have hI := Reachable.invariant (DepthFirstSearch.nextStep fuel)
      (Links (setObstacles (DepthFirstSearch.create size start goal) obs).m_board
        diagonals cutCorners)
      (fun s b s' hI h =>
        DepthFirstSearch.dfs_nextStep_links _ diagonals cutCorners fuel s hI b s' h)
      _ s (init_links nodeInitOK_base _ hp heuristic diagonals cutCorners hv _
        (ExtOnly.ext_refl _)) hs
    exact ⟨hI.acyclic, hI.1.1.grid.2.1.trans b2⟩

/-- C30 for Breadth-First on the 3 x 1 board from (0,0) to (2,0): in the state after `init`
and two `nextStep` calls (the second of which finds the goal) the parent links form no
cycle; from the goal (2,0) two parent links lead to the start (0,0), which has no parent. -/
theorem C30_parent_links_acyclic_witness :
    ∃ s1 s2 s3,
      BreadthFirstSearch.init (BreadthFirstSearch.create (3, 1) (0, 0) (2, 0))
        Heuristic.Manhattan true true = some s1 ∧
      BreadthFirstSearch.nextStep 10 s1 = some (false, s2) ∧
      BreadthFirstSearch.nextStep 10 s2 = some (true, s3) ∧
      AcyclicParents s3.m_board ∧
      ancestor s3.m_board 2 (2, 0) = some (0, 0) ∧
      (s3.m_board.m_nodes (0, 0)).parent = none :=
  let ⟨s1, h1, h2⟩ := (C30_parent_links_acyclic intEnv intEnv_sortPermutes (3, 1) (0, 0) (2, 0)
    [] Heuristic.Manhattan true true 10 ⟨by decide, by decide, by decide, by decide⟩).2.2.1
  have hr : ∃ s2 s3, BreadthFirstSearch.nextStep 10 s1 = some (false, s2) ∧
      BreadthFirstSearch.nextStep 10 s2 = some (true, s3) ∧
      ancestor s3.m_board 2 (2, 0) = some (0, 0) ∧
      (s3.m_board.m_nodes (0, 0)).parent = none := by
    have e : s1 = pushOpen (initBase NodeBase.init (BreadthFirstSearch.create (3, 1) (0, 0) (2, 0))
        Heuristic.Manhattan true true) (0, 0) none := by
      have := h1.symm
      rw [BreadthFirstSearch.bfs_init_eq, if_pos (by decide)] at this
      exact Option.some.inj this
    subst e
    exact ⟨_, _, rfl, rfl, rfl, rfl⟩
  let ⟨s2, s3, h3, h4, h5, h6⟩ := hr
  ⟨s1, s2, s3, h1, h3, h4,
    (h2 s3 (Relation.ReflTransGen.tail (Relation.ReflTransGen.tail Relation.ReflTransGen.refl
      ⟨false, h3⟩) ⟨true, h4⟩)).1, h5, h6⟩

/-- C31 fails for A*: `updateNode` assigns a new parent to a node that is opened and not
closed whenever the node being expanded gives it a lower `h + g`. A* on a 4 x 2 board from
(3,1) to (0,0) with the obstacle (1,0), Manhattan heuristic, diagonals and cutCorners
enabled: the second call opens (1,1) with parent (2,0) and `g = 4`; the third call closes
(2,1) and gives (1,1) the parent (2,1) and `g = 2`. The run ends with the solution through
(1,1) and (2,1). -/
theorem C31_astar_reparents_open_node :
    ∃ s1 s2 s3 s4,
      AStar.init intEnv (setObstacle (AStar.create intEnv (4, 2) (3, 1) (0, 0)) (1, 0) true)
        Heuristic.Manhattan true true = some s1 ∧
      AStar.nextStep intEnv 10 s1 = some (false, s2) ∧
      AStar.nextStep intEnv 10 s2 = some (false, s3) ∧
      AStar.nextStep intEnv 10 s3 = some (false, s4) ∧
      (s2.m_board.m_nodes (1, 1)).opened = false ∧
      (s3.m_board.m_nodes (1, 1)).opened = true ∧
      (s3.m_board.m_nodes (1, 1)).parent = some (2, 0) ∧
      (s3.m_board.m_nodes (1, 1)).ext.g = 4 ∧
      (s4.m_board.m_nodes (1, 1)).parent = some (2, 1) ∧
      (s4.m_board.m_nodes (1, 1)).ext.g = 2 ∧
      (complete (AStar.nextStep intEnv 10) 10 s4).map (fun s => s.solution) =
        some [(0, 0), (1, 1), (2, 1), (3, 1)] :=
  ⟨_, _, _, _, rfl, rfl, rfl, rfl, rfl, rfl, rfl, rfl, rfl, rfl, rfl⟩

/-- C31, amended: in Best-First, Breadth-First and Depth-First a node that is opened is
never written again: in every state reached by later calls of `nextStep`, whatever they
return, its parent and all its other fields are those it had. In A* the same holds of a
node from the moment it is closed; until then its parent, `g` and `h` can be replaced by
`updateNode`. (For every state of the instance, not only those of a run after `init`.) -/
theorem C31_opened_node_fixed {α : Type} (A : Env α) (hA : A.SortPermutes) (fuel : Nat) :
    (∀ (s s' : BestFirstSearch.State α) (c : Coordinate),
      Reachable (BestFirstSearch.nextStep A fuel) s s' →
      (s.m_board.m_nodes c).opened = true →
      (s'.m_board.m_nodes c).parent = (s.m_board.m_nodes c).parent ∧
        s'.m_board.m_nodes c = s.m_board.m_nodes c) ∧
    (∀ (s s' : BreadthFirstSearch.State) (c : Coordinate),
      Reachable (BreadthFirstSearch.nextStep fuel) s s' →
      (s.m_board.m_nodes c).opened = true →
      (s'.m_board.m_nodes c).parent = (s.m_board.m_nodes c).parent ∧
        s'.m_board.m_nodes c = s.m_board.m_nodes c) ∧
    (∀ (s s' : DepthFirstSearch.State) (c : Coordinate),
      Reachable (DepthFirstSearch.nextStep fuel) s s' →
      (s.m_board.m_nodes c).opened = true →
      (s'.m_board.m_nodes c).parent = (s.m_board.m_nodes c).parent ∧
        s'.m_board.m_nodes c = s.m_board.m_nodes c) ∧
    (∀ (s s' : AStar.State α) (c : Coordinate),
      Reachable (AStar.nextStep A fuel) s s' →
      (s.m_board.m_nodes c).ext.closed = true →
      (s'.m_board.m_nodes c).parent = (s.m_board.m_nodes c).parent ∧
        s'.m_board.m_nodes c = s.m_board.m_nodes c) := by
  refine ⟨?_, ?_, ?_, ?_⟩
  · intro s s' c hr hc
    have h : s'.m_board.m_nodes c = s.m_board.m_nodes c := Reachable.keeps
      (BestFirstSearch.nextStep A fuel)
      (fun x : BestFirstSearch.State α => x.m_board.m_nodes c) (fun n => n.opened = true)
      (fun x b x' hx hb => BestFirstSearch.bestFirst_nextStep_keeps A hA fuel x b x' hb c hx)
      s s' hr hc
    exact ⟨by rw [h], h⟩
  · intro s s' c hr hc
    have h : s'.m_board.m_nodes c = s.m_board.m_nodes c := Reachable.keeps
      (BreadthFirstSearch.nextStep fuel)
      (fun x : BreadthFirstSearch.State => x.m_board.m_nodes c) (fun n => n.opened = true)
      (fun x b x' hx hb => BreadthFirstSearch.bfs_nextStep_keeps fuel x b x' hb c hx)
      s s' hr hc
    exact ⟨by rw [h], h⟩
  · intro s s' c hr hc
    have h : s'.m_board.m_nodes c = s.m_board.m_nodes c := Reachable.keeps
      (DepthFirstSearch.nextStep fuel)
      (fun x : DepthFirstSearch.State => x.m_board.m_nodes c) (fun n => n.opened = true)
      (fun x b x' hx hb => DepthFirstSearch.dfs_nextStep_keeps fuel x b x' hb c hx)
      s s' hr hc
    exact ⟨by rw [h], h⟩
  · intro s s' c hr hc
    have h : s'.m_board.m_nodes c = s.m_board.m_nodes c := Reachable.keeps
      (AStar.nextStep A fuel)
      (fun x : AStar.State α => x.m_board.m_nodes c) (fun n => n.ext.closed = true)
      (fun x b x' hx hb => AStar.astar_nextStep_keeps A hA fuel x b x' hb c hx)
      s s' hr hc
    exact ⟨by rw [h], h⟩

/-- C31, amended, on the run of the counterexample: (2,0) is closed by the second call and
keeps its parent through the third call, which re-parents (1,1); in Breadth-First on the
same board (2,0), opened by the first call, keeps its parent through the second. -/
theorem C31_opened_node_fixed_witness :
    (∃ s1 s2 s3 s5,
      AStar.init intEnv (setObstacle (AStar.create intEnv (4, 2) (3, 1) (0, 0)) (1, 0) true)
        Heuristic.Manhattan true true = some s1 ∧
      AStar.nextStep intEnv 10 s1 = some (false, s2) ∧
      AStar.nextStep intEnv 10 s2 = some (false, s3) ∧
      Reachable (AStar.nextStep intEnv 10) s3 s5 ∧
      (s3.m_board.m_nodes (2, 0)).ext.closed = true ∧
      (s5.m_board.m_nodes (2, 0)).parent = (s3.m_board.m_nodes (2, 0)).parent ∧
      (s5.m_board.m_nodes (2, 0)).parent = some (3, 1)) ∧
    (∃ s1 s2 s3,
      BreadthFirstSearch.init
        (setObstacle (BreadthFirstSearch.create (4, 2) (3, 1) (0, 0)) (1, 0) true)
        Heuristic.Manhattan true true = some s1 ∧
      BreadthFirstSearch.nextStep 10 s1 = some (false, s2) ∧
      BreadthFirstSearch.nextStep 10 s2 = some (false, s3) ∧
      (s2.m_board.m_nodes (2, 0)).opened = true ∧
      (s3.m_board.m_nodes (2, 0)).parent = (s2.m_board.m_nodes (2, 0)).parent) := by
  have h := C31_opened_node_fixed intEnv intEnv_sortPermutes 10
  refine ⟨?_, ?_⟩
  · refine ⟨_, _, _, _, rfl, rfl, rfl, Relation.ReflTransGen.single ⟨false, rfl⟩, rfl, ?_, rfl⟩
    refine (h.2.2.2 _ _ (2, 0) ?_ ?_).1
    · exact Relation.ReflTransGen.single ⟨false, rfl⟩
    · rfl
  · refine ⟨_, _, _, rfl, rfl, rfl, rfl, ?_⟩
    refine (h.2.1 _ _ (2, 0) ?_ ?_).1
    · exact Relation.ReflTransGen.single ⟨false, rfl⟩
    · rfl

/-- C32: the comparator A* hands to `std::sort` places `a` before `b` exactly when the
`h + g` of `a` is above that of `b`, or the two are equal and the `h` of `a` is above that
of `b`; it is irreflexive and transitive, and being ordered neither way is transitive: a
strict weak ordering. The comparisons `<` and `==` of `double` values are assumed to be
those of a linear order (`v x` is the number the `double` `x` holds, an infinity included),
which leaves out NaN only: no NaN arises from finite `g` and `h`. -/
theorem C32_astar_comparator_strict_weak {α β : Type} [LinearOrder β] (A : Env α) (v : α → β)
    (hlt : ∀ a b, A.lt a b = true ↔ v a < v b) (heq : ∀ a b, A.eq a b = true ↔ v a = v b)
    (b : Board (AStar.Ext α)) :
    (∀ x y, AStar.compare A b x y = true ↔
      (v (A.add (b.m_nodes x).ext.h (b.m_nodes x).ext.g) >
          v (A.add (b.m_nodes y).ext.h (b.m_nodes y).ext.g) ∨
        (v (A.add (b.m_nodes x).ext.h (b.m_nodes x).ext.g) =
            v (A.add (b.m_nodes y).ext.h (b.m_nodes y).ext.g) ∧
          v (b.m_nodes x).ext.h > v (b.m_nodes y).ext.h))) ∧
    (∀ x, AStar.compare A b x x = false) ∧
    (∀ x y z, AStar.compare A b x y = true → AStar.compare A b y z = true →
      AStar.compare A b x z = true) ∧
    (∀ x y z, AStar.compare A b x y = false → AStar.compare A b y x = false →
      AStar.compare A b y z = false → AStar.compare A b z y = false →
      AStar.compare A b x z = false ∧ AStar.compare A b z x = false) ∧
    StrictWeakOrdering (AStar.compare A b) := by
  have hs := AStar.compare_strictWeak_ord hlt heq b
  exact ⟨fun x y => AStar.compare_iff_ord hlt heq b x y, hs.1, hs.2.1,
    fun x y z => hs.incomparable_trans x y z, hs⟩

set_option maxRecDepth 100000 in
/-- C32 in the binary floating-point interpretation, on the board A* leaves after the first
step from (0,0) towards (2,2) on a 3 x 3 board: the comparator places (1,0), with
`h + g` above that of (1,1), before (1,1), and not the other way round. -/
theorem C32_astar_comparator_strict_weak_witness :
    ∃ s1 s2, AStar.init doubleEnv (AStar.create doubleEnv (3, 3) (0, 0) (2, 2))
        Heuristic.Euclidean true true = some s1 ∧
      AStar.nextStep doubleEnv 10 s1 = some (false, s2) ∧
      StrictWeakOrdering (AStar.compare doubleEnv s2.m_board) ∧
      (∀ x, AStar.compare doubleEnv s2.m_board x x = false) ∧
      AStar.compare doubleEnv s2.m_board (1, 0) (1, 1) = true ∧
      AStar.compare doubleEnv s2.m_board (1, 1) (1, 0) = false :=
  ⟨_, _, rfl, rfl,
    (C32_astar_comparator_strict_weak doubleEnv (fun x : Int => x)
      (fun a b => by show decide (a < b) = true ↔ a < b; simp)
      (fun a b => by show decide (a = b) = true ↔ a = b; simp) _).2.2.2.2,
    (AStar.compare_strictWeak_ord (A := doubleEnv) (v := fun x : Int => x)
      (fun a b => by show decide (a < b) = true ↔ a < b; simp)
      (fun a b => by show decide (a = b) = true ↔ a = b; simp) _).1,
    rfl, rfl⟩

set_option maxRecDepth 100000 in
/-- C33 fails on the code: the comparator Best-First hands to `std::sort` is
`node1->h >= node2->h`, which holds of every node and itself, so it is neither irreflexive
nor asymmetric and is not a strict weak ordering. In the binary floating-point
interpretation and in the integer one, for every board and every node; and on the board
Best-First leaves after the first step from (2,0) towards (4,0) on a 5 x 1 board, where
(3,0) and (1,0) are opened with `h` 1 and 3: the comparator holds of (1,0) and (1,0), and
of (3,0) and (3,0). -/
theorem C33_bestFirst_comparator_reflexive :
    (∀ (b : Board (BestFirstSearch.Ext Int)) (a : Coordinate),
      BestFirstSearch.compare doubleEnv b a a = true ∧
      BestFirstSearch.compare intEnv b a a = true ∧
      ¬ StrictWeakOrdering (BestFirstSearch.compare doubleEnv b) ∧
      ¬ StrictWeakOrdering (BestFirstSearch.compare intEnv b)) ∧
    ∃ s1 s2,
      BestFirstSearch.init doubleEnv (BestFirstSearch.create doubleEnv (5, 1) (2, 0) (4, 0))
        Heuristic.Manhattan true true = some s1 ∧
      BestFirstSearch.nextStep doubleEnv 10 s1 = some (false, s2) ∧
      BestFirstSearch.compare doubleEnv s2.m_board (1, 0) (1, 0) = true ∧
      BestFirstSearch.compare doubleEnv s2.m_board (3, 0) (3, 0) = true ∧
      BestFirstSearch.compare doubleEnv s2.m_board (3, 0) (1, 0) = false ∧
      BestFirstSearch.compare doubleEnv s2.m_board (1, 0) (3, 0) = true := by
  have hd : ∀ x : Int, doubleEnv.le x x = true := fun x => by
    show decide (x ≤ x) = true
    simp
  have hi : ∀ x : Int, intEnv.le x x = true := fun x => by
    show decide (x ≤ x) = true
    simp
  exact ⟨fun b a => ⟨BestFirstSearch.bestFirst_compare_self b a (hd _),
      BestFirstSearch.bestFirst_compare_self b a (hi _),
      BestFirstSearch.bestFirst_compare_not_strictWeak b a (hd _),
      BestFirstSearch.bestFirst_compare_not_strictWeak b a (hi _)⟩,
    _, _, rfl, rfl, rfl, rfl, rfl, rfl⟩

/-- C34 fails on the code: `initObstacles`, which `setAlgorithm` calls to replay the
obstacles, calls `setObstacle(c.first)` for every entry of the map and never reads the
flag of the entry, so a coordinate whose obstacle was cleared with `setObstacle(c, false)`
is an obstacle of the new algorithm. `PathFinder` with A* on a 3 x 1 board from (0,0) to
(2,0): after `setObstacle((1,0), true)` and `setObstacle((1,0), false)`, (1,0) is no
obstacle of the algorithm; after `setAlgorithm` with a Best-First instance of the same size,
start and goal, (1,0) is an obstacle of the new algorithm. The same after the single call
`setObstacle((1,0), false)`. In general, on a new algorithm without obstacles, the
in-bounds coordinates other than the start and the goal for which `setObstacle` was
called, with whatever flag, are the obstacles afterwards. -/
theorem C34_setAlgorithm_sets_cleared_obstacles :
    (AlgorithmBase.isObstacle
        (PathFinder.setObstacle (PathFinder.setObstacle
          (PathFinder.create (AStar.create intEnv (3, 1) (0, 0) (2, 0))) (1, 0) true)
          (1, 0) false).m_algorithm (1, 0) = false ∧
      AlgorithmBase.isObstacle
        (PathFinder.setAlgorithm (PathFinder.setObstacle (PathFinder.setObstacle
          (PathFinder.create (AStar.create intEnv (3, 1) (0, 0) (2, 0))) (1, 0) true)
          (1, 0) false) (BestFirstSearch.create intEnv (3, 1) (0, 0) (2, 0))).m_algorithm
          (1, 0) = true) ∧
    (AlgorithmBase.isObstacle
        (PathFinder.setObstacle
          (PathFinder.create (AStar.create intEnv (3, 1) (0, 0) (2, 0))) (1, 0)
          false).m_algorithm (1, 0) = false ∧
      AlgorithmBase.isObstacle
        (PathFinder.setAlgorithm (PathFinder.setObstacle
          (PathFinder.create (AStar.create intEnv (3, 1) (0, 0) (2, 0))) (1, 0) false)
          (BestFirstSearch.create intEnv (3, 1) (0, 0) (2, 0))).m_algorithm (1, 0) = true) ∧
    (∀ (size start goal : Coordinate) (l : List (Coordinate × Bool)) (c : Coordinate),
      AlgorithmBase.isObstacle
          (PathFinder.setAlgorithm
            (PathFinder.setObstacleCalls
              (PathFinder.create (AStar.create intEnv size start goal)) l)
            (BestFirstSearch.create intEnv size start goal)).m_algorithm c = true ↔
        (InBounds size c ∧ c ≠ start ∧ c ≠ goal ∧ ∃ e ∈ l, e.1 = c)) := by
  refine ⟨⟨by decide, by decide⟩, ⟨by decide, by decide⟩, ?_⟩
  intro size start goal l c
  rw [PathFinder.setAlgorithm_isObstacle _ _ l c (fun x => by
    simp [BestFirstSearch.create, Board.create, Board.isObstacle])]
  rw [isValidNode_iff_inBounds]
  rfl

set_option maxRecDepth 1000000 in
/-- C35, completeness, holds for A*, Breadth-First and Depth-First and fails for Best-First.
For A*, Breadth-First and Depth-First, every board size, in-bounds start and goal, sequence
of `setObstacle` calls on the freshly constructed instance and arguments of `init`: if the
goal can be reached from the start by a sequence of moves, each to a neighbor
`getNeighbors` returns under the given `diagonals` and `cutCorners`, then `init` succeeds
and `complete` returns, within twice the number of nodes plus one calls of `nextStep`, in a
state with a non-empty `solution` (the parent walk of `storeSolution` being given more steps
than the board has nodes; `std::sort` is assumed to permute, as it does under the comparator
of A*, a strict weak ordering). Best-First, with the `std::sort` of the C++ library, on the
16 x 3 board with start `(1,1)` and goal `(15,1)`, no obstacles, Manhattan heuristic,
diagonals and cutCorners enabled: the goal can be reached along the row; the first 13 calls
of `nextStep` return false and leave 45 nodes opened, 13 closed and a frontier of 32 nodes;
in the 14th call `std::sort`, given the comparator `h >= h` of `sortNodes`, reads outside
the vector, so `complete()` does not return and no solution is stored. -/
theorem C35_completeness_except_bestFirst {α : Type} (A : Env α) (hA : A.SortPermutes)
    (size start goal : Coordinate) (obs : List (Coordinate × Bool)) (heuristic : Heuristic)
    (diagonals cutCorners : Bool) (fuel : Nat) (hstart : InBounds size start)
    (hgoal : InBounds size goal) (hfuel : size.1.toNat * size.2.toNat < fuel) :
    ((setObstacles (AStar.create A size start goal) obs).m_board.Reach diagonals cutCorners
        start goal →
      ∃ s1 s', AStar.init A (setObstacles (AStar.create A size start goal) obs) heuristic
          diagonals cutCorners = some s1 ∧
        (∀ k, 2 * (size.1.toNat * size.2.toNat) < k →
          complete (AStar.nextStep A fuel) k s1 = some s') ∧
        s'.solution ≠ []) ∧
    ((setObstacles (BreadthFirstSearch.create size start goal) obs).m_board.Reach diagonals
        cutCorners start goal →
      ∃ s1 s', BreadthFirstSearch.init (setObstacles (BreadthFirstSearch.create size start goal)
          obs) heuristic diagonals cutCorners = some s1 ∧
        (∀ k, 2 * (size.1.toNat * size.2.toNat) < k →
          complete (BreadthFirstSearch.nextStep fuel) k s1 = some s') ∧
        s'.solution ≠ []) ∧
    ((setObstacles (DepthFirstSearch.create size start goal) obs).m_board.Reach diagonals
        cutCorners start goal →
      ∃ s1 s', DepthFirstSearch.init (setObstacles (DepthFirstSearch.create size start goal)
          obs) heuristic diagonals cutCorners = some s1 ∧
        (∀ k, 2 * (size.1.toNat * size.2.toNat) < k →
          complete (DepthFirstSearch.nextStep fuel) k s1 = some s') ∧
        s'.solution ≠ []) ∧
    ((BestFirstSearch.create stdEnv (16, 3) (1, 1) (15, 1)).m_board.Reach true true
        (1, 1) (15, 1) ∧
      ((BestFirstSearch.init stdEnv (BestFirstSearch.create stdEnv (16, 3) (1, 1) (15, 1))
          Heuristic.Manhattan true true).bind (BestFirstSearch.stepsInBounds 49 13)).map
        (fun s => (s.nodesOpened, s.nodesClosed, s.m_openNodes,
          StdSort.sort (BestFirstSearch.compare stdEnv s.m_board) s.m_openNodes)) =
      some (45, 13,
        [(0, 2), (0, 0), (1, 0), (1, 2), (0, 1), (2, 0), (2, 2), (3, 0), (3, 2), (4, 2),
        (4, 0), (5, 0), (5, 2), (6, 2), (6, 0), (7, 2), (7, 0), (8, 0), (8, 2), (9, 2), (9, 0),
        (10, 0), (10, 2), (11, 2), (11, 0), (12, 0), (12, 2), (13, 2), (13, 0), (14, 1), (14, 0),
        (14, 2)],
        none)) := by
  refine ⟨fun hreach => ?_, fun hreach => ?_, fun hreach => ?_, ?_⟩
  · have hp := (AStar.astar_pristineA_create A size start goal).pristineA_setObstacles obs
    obtain ⟨b1, b2, b3, b4, b5⟩ := setObstacles_board (AStar.create A size start goal) obs
      size start goal rfl rfl rfl
    have hvg : (setObstacles (AStar.create A size start goal) obs).m_board.isValidNode
        (setObstacles (AStar.create A size start goal) obs).m_board.m_goal = true := by
      rw [isValidNode_iff_inBounds, b1, b3]; exact hgoal
    obtain ⟨s1, n, s', e1, e2, e3, e4⟩ := AStar.astar_run_found A hA _ hp heuristic diagonals
      cutCorners (b5 hstart) hvg fuel (by rw [b4]; exact hfuel) (by rw [b2, b3]; exact hreach)
    rw [b4] at e2
    exact ⟨s1, s', e1, fun k hk => complete_mono _ _ k s1 s' e3 (by omega), e4⟩
  · have hp := (BreadthFirstSearch.bfs_pristine_create size start goal).pristine_setObstacles obs
    obtain ⟨b1, b2, b3, b4, b5⟩ := setObstacles_board (BreadthFirstSearch.create size start goal)
      obs size start goal rfl rfl rfl
    have hvg : (setObstacles (BreadthFirstSearch.create size start goal) obs).m_board.isValidNode
        (setObstacles (BreadthFirstSearch.create size start goal) obs).m_board.m_goal = true := by
      rw [isValidNode_iff_inBounds, b1, b3]; exact hgoal
    obtain ⟨s1, n, s', e1, e2, e3, e4⟩ := BreadthFirstSearch.bfs_run_found _ hp
      (by rw [b2]; exact setObstacles_free _ obs start (Or.inl rfl) rfl) heuristic diagonals
      cutCorners (b5 hstart) hvg fuel (by rw [b4]; exact hfuel) (by rw [b2, b3]; exact hreach)
    rw [b4] at e2
    exact ⟨s1, s', e1, fun k hk => complete_mono _ _ k s1 s' e3 (by omega), e4⟩
  · have hp := (DepthFirstSearch.dfs_pristine_create size start goal).pristine_setObstacles obs
    obtain ⟨b1, b2, b3, b4, b5⟩ := setObstacles_board (DepthFirstSearch.create size start goal)
      obs size start goal rfl rfl rfl
    have hvg : (setObstacles (DepthFirstSearch.create size start goal) obs).m_board.isValidNode
        (setObstacles (DepthFirstSearch.create size start goal) obs).m_board.m_goal = true := by
      rw [isValidNode_iff_inBounds, b1, b3]; exact hgoal
    obtain ⟨s1, n, s', e1, e2, e3, e4⟩ := DepthFirstSearch.dfs_run_found _ hp
      (by rw [b2]; exact setObstacles_free _ obs start (Or.inl rfl) rfl) heuristic diagonals
      cutCorners (b5 hstart) hvg fuel (by rw [b4]; exact hfuel) (by rw [b2, b3]; exact hreach)
    rw [b4] at e2
    exact ⟨s1, s', e1, fun k hk => complete_mono _ _ k s1 s' e3 (by omega), e4⟩
  · exact ⟨Board.reach_of_moves _ true true
      [(2, 1), (3, 1), (4, 1), (5, 1), (6, 1), (7, 1), (8, 1), (9, 1), (10, 1), (11, 1), (12, 1),
        (13, 1), (14, 1), (15, 1)] (1, 1) (15, 1) (by decide) (by decide), rfl⟩

set_option maxRecDepth 1000000 in
/-- C35 for A* on the 16 x 3 board from `(1,1)` to `(15,1)` without obstacles, diagonals and
cutCorners enabled, in the binary floating-point interpretation: the goal is reached along
the row, and `complete` returns with a non-empty solution. -/
theorem C35_completeness_except_bestFirst_witness :
    InBounds (16, 3) (1, 1) ∧ InBounds (16, 3) (15, 1) ∧
    (setObstacles (AStar.create doubleEnv (16, 3) (1, 1) (15, 1)) []).m_board.Reach true true
      (1, 1) (15, 1) ∧
    ∃ s1 s', AStar.init doubleEnv (setObstacles (AStar.create doubleEnv (16, 3) (1, 1) (15, 1))
        []) Heuristic.Manhattan true true = some s1 ∧
      (∀ k, 2 * (16 * 3) < k → complete (AStar.nextStep doubleEnv 49) k s1 = some s') ∧
      s'.solution ≠ [] :=
  have hr : (setObstacles (AStar.create doubleEnv (16, 3) (1, 1) (15, 1))
      []).m_board.Reach true true (1, 1) (15, 1) :=
    Board.reach_of_moves _ true true
      [(2, 1), (3, 1), (4, 1), (5, 1), (6, 1), (7, 1), (8, 1), (9, 1), (10, 1), (11, 1), (12, 1),
        (13, 1), (14, 1), (15, 1)] (1, 1) (15, 1) (by decide) (by decide)
  ⟨⟨by decide, by decide, by decide, by decide⟩, ⟨by decide, by decide, by decide, by decide⟩,
    hr,
    (C35_completeness_except_bestFirst doubleEnv doubleEnv_sortPermutes (16, 3) (1, 1) (15, 1)
      [] Heuristic.Manhattan true true 49 ⟨by decide, by decide, by decide, by decide⟩
      ⟨by decide, by decide, by decide, by decide⟩ (by decide)).1 hr⟩

/-- C36: the solution is a valid path. For every variant, every board size, in-bounds start,
sequence of `setObstacle` calls on the freshly constructed instance and arguments of `init`:
when `complete`, called after `init`, returns with a non-empty `solution`, every coordinate
of the solution is an accessible neighbor, under the configured `diagonals` and
`cutCorners`, of the coordinate that follows it (the two are adjacent cells), every
coordinate is a node of the board that is no obstacle, and no coordinate occurs twice. -/
theorem C36_solution_valid_path {α : Type} (A : Env α) (hA : A.SortPermutes)
    (size start goal : Coordinate) (obs : List (Coordinate × Bool)) (heuristic : Heuristic)
    (diagonals cutCorners : Bool) (fuel : Nat) (hstart : InBounds size start) :
    (∃ s1, AStar.init A (setObstacles (AStar.create A size start goal) obs) heuristic
        diagonals cutCorners = some s1 ∧
      ∀ n s', complete (AStar.nextStep A fuel) n s1 = some s' → s'.solution ≠ [] →
        s'.m_diagonals = diagonals ∧ s'.m_cutCorners = cutCorners ∧ ValidPath s') ∧
    (∃ s1, BestFirstSearch.init A (setObstacles (BestFirstSearch.create A size start goal) obs)
        heuristic diagonals cutCorners = some s1 ∧
      ∀ n s', complete (BestFirstSearch.nextStep A fuel) n s1 = some s' → s'.solution ≠ [] →
        s'.m_diagonals = diagonals ∧ s'.m_cutCorners = cutCorners ∧ ValidPath s') ∧
    (∃ s1, BreadthFirstSearch.init (setObstacles (BreadthFirstSearch.create size start goal) obs)
        heuristic diagonals cutCorners = some s1 ∧
      ∀ n s', complete (BreadthFirstSearch.nextStep fuel) n s1 = some s' → s'.solution ≠ [] →
        s'.m_diagonals = diagonals ∧ s'.m_cutCorners = cutCorners ∧ ValidPath s') ∧
    (∃ s1, DepthFirstSearch.init (setObstacles (DepthFirstSearch.create size start goal) obs)
        heuristic diagonals cutCorners = some s1 ∧
      ∀ n s', complete (DepthFirstSearch.nextStep fuel) n s1 = some s' → s'.solution ≠ [] →
        s'.m_diagonals = diagonals ∧ s'.m_cutCorners = cutCorners ∧ ValidPath s') := by
  refine ⟨?_, ?_, ?_, ?_⟩
  · obtain ⟨s1, h1, h0, h2⟩ := AStar.astar_run_tidy A hA size start goal obs heuristic
      diagonals cutCorners fuel hstart
    have hp := (AStar.astar_pristineA_create A size start goal).pristineA_setObstacles obs
    obtain ⟨_, _, b3, _, _⟩ := setObstacles_board (AStar.create A size start goal) obs
      size start goal rfl rfl rfl
    refine ⟨s1, h1, fun n s' hc hne => ?_⟩
    obtain ⟨hr, hl⟩ := complete_solution (AStar.nextStep A fuel) fuel
      (AStar.astar_nextStep_sol A hA fuel)
      (fun s s' hf h => by
        rw [AStar.astar_nextStep_nil A fuel s hf] at h
        cases h
        rfl) s1 h0 n s' hc hne
    obtain ⟨ht, hf⟩ := h2 s' hr
    exact ht.validPath hp.1.2.1 (AStar.astar_rank hf)
      (by rw [b3]; exact setObstacles_free _ obs goal (Or.inr rfl) rfl) fuel hl
  · obtain ⟨s1, h1, h0, h2⟩ := BestFirstSearch.bestFirst_run_tidy A hA size start goal obs
      heuristic diagonals cutCorners fuel hstart
    have hp := (BestFirstSearch.bestFirst_pristine_create A size start goal).pristine_setObstacles
      obs
    obtain ⟨_, _, b3, _, _⟩ := setObstacles_board (BestFirstSearch.create A size start goal)
      obs size start goal rfl rfl rfl
    refine ⟨s1, h1, fun n s' hc hne => ?_⟩
    obtain ⟨hr, hl⟩ := complete_solution (BestFirstSearch.nextStep A fuel) fuel
      (BestFirstSearch.bestFirst_nextStep_sol A hA fuel)
      (fun s s' hf h => by
        rw [BestFirstSearch.bestFirst_nextStep_nil A fuel s hf] at h
        cases h
        rfl) s1 h0 n s' hc hne
    obtain ⟨ht, hf⟩ := h2 s' hr
    exact ht.validPath hp.2.1 hf.rank
      (by rw [b3]; exact setObstacles_free _ obs goal (Or.inr rfl) rfl) fuel hl
  · obtain ⟨s1, h1, h0, h2⟩ := BreadthFirstSearch.bfs_run_tidy size start goal obs heuristic
      diagonals cutCorners fuel hstart
    have hp := (BreadthFirstSearch.bfs_pristine_create size start goal).pristine_setObstacles obs
    obtain ⟨_, _, b3, _, _⟩ := setObstacles_board (BreadthFirstSearch.create size start goal)
      obs size start goal rfl rfl rfl
    refine ⟨s1, h1, fun n s' hc hne => ?_⟩
    obtain ⟨hr, hl⟩ := complete_solution (BreadthFirstSearch.nextStep fuel) fuel
      (BreadthFirstSearch.bfs_nextStep_sol fuel)
      (fun s s' hf h => by
        rw [BreadthFirstSearch.bfs_nextStep_nil fuel s hf] at h
        cases h
        rfl) s1 h0 n s' hc hne
    obtain ⟨ht, hf⟩ := h2 s' hr
    exact ht.validPath hp.2.1 hf.rank
      (by rw [b3]; exact setObstacles_free _ obs goal (Or.inr rfl) rfl) fuel hl
  · obtain ⟨s1, h1, h0, h2⟩ := DepthFirstSearch.dfs_run_tidy size start goal obs heuristic
      diagonals cutCorners fuel hstart
    have hp := (DepthFirstSearch.dfs_pristine_create size start goal).pristine_setObstacles obs
    obtain ⟨_, _, b3, _, _⟩ := setObstacles_board (DepthFirstSearch.create size start goal)
      obs size start goal rfl rfl rfl
    refine ⟨s1, h1, fun n s' hc hne => ?_⟩
    obtain ⟨hr, hl⟩ := complete_solution (DepthFirstSearch.nextStep fuel) fuel
      (DepthFirstSearch.dfs_nextStep_sol fuel)
      (fun s s' hf h => by
        rw [DepthFirstSearch.dfs_nextStep_nil fuel s hf] at h
        cases h
        rfl) s1 h0 n s' hc hne
    obtain ⟨ht, hf⟩ := h2 s' hr
    exact ht.validPath hp.2.1 hf.rank
      (by rw [b3]; exact setObstacles_free _ obs goal (Or.inr rfl) rfl) fuel hl

/-- C36 for A* on the 4 x 2 board from (3,1) to (0,0) with the obstacle (1,0), Manhattan
heuristic, diagonals and cutCorners enabled: `complete` returns with the solution
(0,0), (1,1), (2,1), (3,1), which is a valid path. -/
theorem C36_solution_valid_path_witness :
    ∃ s1 s',
      AStar.init intEnv (setObstacles (AStar.create intEnv (4, 2) (3, 1) (0, 0))
        [((1, 0), true)]) Heuristic.Manhattan true true = some s1 ∧
      complete (AStar.nextStep intEnv 10) 10 s1 = some s' ∧
      s'.solution = [(0, 0), (1, 1), (2, 1), (3, 1)] ∧
      s'.m_diagonals = true ∧ s'.m_cutCorners = true ∧ ValidPath s' :=
  let ⟨s1, h1, h2⟩ := (C36_solution_valid_path intEnv intEnv_sortPermutes (4, 2) (3, 1)
    (0, 0) [((1, 0), true)] Heuristic.Manhattan true true 10
    ⟨by decide, by decide, by decide, by decide⟩).1
  have hr : ∃ s', complete (AStar.nextStep intEnv 10) 10 s1 = some s' ∧
      s'.solution = [(0, 0), (1, 1), (2, 1), (3, 1)] := by
    have e : s1 = pushOpen (initBase (AStar.Node.init intEnv)
        (setObstacles (AStar.create intEnv (4, 2) (3, 1) (0, 0)) [((1, 0), true)])
        Heuristic.Manhattan true true) (3, 1) none := by
      have := h1.symm
      rw [AStar.astar_init_eq, if_pos (by decide)] at this
      exact Option.some.inj this
    subst e
    exact ⟨_, rfl, rfl⟩
  let ⟨s', h3, h4⟩ := hr
  ⟨s1, s', h1, h3, h4, h2 10 s' h3 (by rw [h4]; simp)⟩

/-- C37: Breadth-First finds a path with the fewest moves. For every board size, in-bounds
start and goal, sequence of `setObstacle` calls on the freshly constructed instance and
arguments of `init`: if the goal can be reached from the start by moves to neighbors
`getNeighbors` returns, then `init` followed by `complete` returns; the solution, read from
its end, is a walk from the start to the goal by such moves, and its number of moves (its
length minus one) is at most that of every walk from the start to the goal. -/
theorem C37_bfs_fewest_moves (size start goal : Coordinate) (obs : List (Coordinate × Bool))
    (heuristic : Heuristic) (diagonals cutCorners : Bool) (fuel : Nat)
    (hstart : InBounds size start) (hgoal : InBounds size goal)
    (hfuel : size.1.toNat * size.2.toNat < fuel)
    (hreach : (setObstacles (BreadthFirstSearch.create size start goal) obs).m_board.Reach
      diagonals cutCorners start goal) :
    ∃ s1 s', BreadthFirstSearch.init (setObstacles (BreadthFirstSearch.create size start goal)
        obs) heuristic diagonals cutCorners = some s1 ∧
      (∀ k, 2 * (size.1.toNat * size.2.toNat) < k →
        complete (BreadthFirstSearch.nextStep fuel) k s1 = some s') ∧
      IsWalk (setObstacles (BreadthFirstSearch.create size start goal) obs).m_board diagonals
        cutCorners start goal s'.solution.reverse ∧
      ∀ w, IsWalk (setObstacles (BreadthFirstSearch.create size start goal) obs).m_board
          diagonals cutCorners start goal w →
        s'.solution.length - 1 ≤ w.length - 1 := by
  have hp := (BreadthFirstSearch.bfs_pristine_create size start goal).pristine_setObstacles obs
  obtain ⟨b1, b2, b3, b4, b5⟩ := setObstacles_board (BreadthFirstSearch.create size start goal)
    obs size start goal rfl rfl rfl
  have hvg : (setObstacles (BreadthFirstSearch.create size start goal) obs).m_board.isValidNode
      (setObstacles (BreadthFirstSearch.create size start goal) obs).m_board.m_goal = true := by
    rw [isValidNode_iff_inBounds, b1, b3]; exact hgoal
  obtain ⟨s1, n, s', e1, e2, e3, e4, e5⟩ := BreadthFirstSearch.bfs_run_shortest _ hp
    (by rw [b2]; exact setObstacles_free _ obs start (Or.inl rfl) rfl)
    (by rw [b3]; exact setObstacles_free _ obs goal (Or.inr rfl) rfl) heuristic diagonals
    cutCorners (b5 hstart) hvg fuel (by rw [b4]; exact hfuel) (by rw [b2, b3]; exact hreach)
  rw [b4] at e2
  rw [b2, b3] at e4 e5
  exact ⟨s1, s', e1, fun k hk => complete_mono _ _ k s1 s' e3 (by omega), e4,
    fun w hw => Nat.sub_le_sub_right (e5 w hw) 1⟩

/-- C37 on the 4 x 2 board from (3,1) to (0,0) with the obstacle (1,0), diagonals and
cutCorners enabled: the goal is reached by the moves (3,1), (2,1), (1,1), (0,0);
Breadth-First returns the solution (0,0), (1,1), (2,1), (3,1) of three moves, and no walk
from the start to the goal has fewer. -/
theorem C37_bfs_fewest_moves_witness :
    ∃ s1 s', BreadthFirstSearch.init (setObstacles (BreadthFirstSearch.create (4, 2) (3, 1)
        (0, 0)) [((1, 0), true)]) Heuristic.Manhattan true true = some s1 ∧
      complete (BreadthFirstSearch.nextStep 10) 17 s1 = some s' ∧
      s'.solution = [(0, 0), (1, 1), (2, 1), (3, 1)] ∧
      IsWalk (setObstacles (BreadthFirstSearch.create (4, 2) (3, 1) (0, 0))
        [((1, 0), true)]).m_board true true (3, 1) (0, 0) s'.solution.reverse ∧
      ∀ w, IsWalk (setObstacles (BreadthFirstSearch.create (4, 2) (3, 1) (0, 0))
          [((1, 0), true)]).m_board true true (3, 1) (0, 0) w →
        s'.solution.length - 1 ≤ w.length - 1 :=
  have hr : (setObstacles (BreadthFirstSearch.create (4, 2) (3, 1) (0, 0))
      [((1, 0), true)]).m_board.Reach true true (3, 1) (0, 0) :=
    have h1 : (2, 1) ∈ (setObstacles (BreadthFirstSearch.create (4, 2) (3, 1) (0, 0))
        [((1, 0), true)]).m_board.getNeighbors (3, 1) [] true true := by decide
    have h2 : (1, 1) ∈ (setObstacles (BreadthFirstSearch.create (4, 2) (3, 1) (0, 0))
        [((1, 0), true)]).m_board.getNeighbors (2, 1) [] true true := by decide
    have h3 : (0, 0) ∈ (setObstacles (BreadthFirstSearch.create (4, 2) (3, 1) (0, 0))
        [((1, 0), true)]).m_board.getNeighbors (1, 1) [] true true := by decide
    Relation.ReflTransGen.tail (Relation.ReflTransGen.tail (Relation.ReflTransGen.tail
      Relation.ReflTransGen.refl h1) h2) h3
  let ⟨s1, s', h1, h2, h3, h4⟩ := C37_bfs_fewest_moves (4, 2) (3, 1) (0, 0) [((1, 0), true)]
    Heuristic.Manhattan true true 10 ⟨by decide, by decide, by decide, by decide⟩
    ⟨by decide, by decide, by decide, by decide⟩ (by decide) hr
  have hs : s'.solution = [(0, 0), (1, 1), (2, 1), (3, 1)] := by
    have e : s1 = pushOpen (initBase NodeBase.init
        (setObstacles (BreadthFirstSearch.create (4, 2) (3, 1) (0, 0)) [((1, 0), true)])
        Heuristic.Manhattan true true) (3, 1) none := by
      have := h1.symm
      rw [BreadthFirstSearch.bfs_init_eq, if_pos (by decide)] at this
      exact Option.some.inj this
    have h5 := h2 17 (by decide)
    subst e
    have h6 : (complete (BreadthFirstSearch.nextStep 10) 17 (pushOpen (initBase NodeBase.init
        (setObstacles (BreadthFirstSearch.create (4, 2) (3, 1) (0, 0)) [((1, 0), true)])
        Heuristic.Manhattan true true) (3, 1) none)).map (fun s => s.solution) =
        some [(0, 0), (1, 1), (2, 1), (3, 1)] := rfl
    rw [h5] at h6
    exact Option.some.inj h6
  ⟨s1, s', h1, h2 17 (by decide), hs, h3, h4⟩

/-- C38: the counters and the frontier agree with the board. For every variant, every board
size, in-bounds start, sequence of `setObstacle` calls on the freshly constructed instance
and arguments of `init`, in every state reached from the state `init` leaves by any number
of `nextStep` calls (whatever they return): `nodesOpened = nodesClosed +` the number of
nodes in the frontier, `nodesOpened` is the number of nodes of the board whose `opened` flag
is set, no node occurs twice in the frontier, and every opened node is a node of the board
that is no obstacle. -/
theorem C38_counters_and_frontier {α : Type} (A : Env α) (hA : A.SortPermutes)
    (size start goal : Coordinate) (obs : List (Coordinate × Bool)) (heuristic : Heuristic)
    (diagonals cutCorners : Bool) (fuel : Nat) (hstart : InBounds size start) :
    (∃ s1, AStar.init A (setObstacles (AStar.create A size start goal) obs) heuristic
        diagonals cutCorners = some s1 ∧
      ∀ s, Reachable (AStar.nextStep A fuel) s1 s →
        s.nodesOpened = s.nodesClosed + s.m_openNodes.length ∧
        s.nodesOpened =
          (s.m_board.allCoords.filter fun c => (s.m_board.m_nodes c).opened).length ∧
        s.m_openNodes.Nodup ∧
        ∀ c, (s.m_board.m_nodes c).opened = true →
          s.m_board.isValidNode c = true ∧ (s.m_board.m_nodes c).obstacle = false ∧
            isObstacle s c = false) ∧
    (∃ s1, BestFirstSearch.init A (setObstacles (BestFirstSearch.create A size start goal) obs)
        heuristic diagonals cutCorners = some s1 ∧
      ∀ s, Reachable (BestFirstSearch.nextStep A fuel) s1 s →
        s.nodesOpened = s.nodesClosed + s.m_openNodes.length ∧
        s.nodesOpened =
          (s.m_board.allCoords.filter fun c => (s.m_board.m_nodes c).opened).length ∧
        s.m_openNodes.Nodup ∧
        ∀ c, (s.m_board.m_nodes c).opened = true →
          s.m_board.isValidNode c = true ∧ (s.m_board.m_nodes c).obstacle = false ∧
            isObstacle s c = false) ∧
    (∃ s1, BreadthFirstSearch.init (setObstacles (BreadthFirstSearch.create size start goal) obs)
        heuristic diagonals cutCorners = some s1 ∧
      ∀ s, Reachable (BreadthFirstSearch.nextStep fuel) s1 s →
        s.nodesOpened = s.nodesClosed + s.m_openNodes.length ∧
        s.nodesOpened =
          (s.m_board.allCoords.filter fun c => (s.m_board.m_nodes c).opened).length ∧
        s.m_openNodes.Nodup ∧
        ∀ c, (s.m_board.m_nodes c).opened = true →
          s.m_board.isValidNode c = true ∧ (s.m_board.m_nodes c).obstacle = false ∧
            isObstacle s c = false) ∧
    (∃ s1, DepthFirstSearch.init (setObstacles (DepthFirstSearch.create size start goal) obs)
        heuristic diagonals cutCorners = some s1 ∧
      ∀ s, Reachable (DepthFirstSearch.nextStep fuel) s1 s →
        s.nodesOpened = s.nodesClosed + s.m_openNodes.length ∧
        s.nodesOpened =
          (s.m_board.allCoords.filter fun c => (s.m_board.m_nodes c).opened).length ∧
        s.m_openNodes.Nodup ∧
        ∀ c, (s.m_board.m_nodes c).opened = true →
          s.m_board.isValidNode c = true ∧ (s.m_board.m_nodes c).obstacle = false ∧
            isObstacle s c = false) := by
  refine ⟨?_, ?_, ?_, ?_⟩
  · obtain ⟨s1, h1, _, h2⟩ := AStar.astar_run_tidy A hA size start goal obs heuristic diagonals
      cutCorners fuel hstart
    refine ⟨s1, h1, fun s hs => ?_⟩
    obtain ⟨ht, _, rk, hk⟩ := h2 s hs
    exact ht.counted hk.count
  · obtain ⟨s1, h1, _, h2⟩ := BestFirstSearch.bestFirst_run_tidy A hA size start goal obs
      heuristic diagonals cutCorners fuel hstart
    refine ⟨s1, h1, fun s hs => ?_⟩
    obtain ⟨ht, ⟨_, rk, hk⟩, _⟩ := h2 s hs
    exact ht.counted hk.count
  · obtain ⟨s1, h1, _, h2⟩ := BreadthFirstSearch.bfs_run_tidy size start goal obs heuristic
      diagonals cutCorners fuel hstart
    refine ⟨s1, h1, fun s hs => ?_⟩
    obtain ⟨ht, ⟨_, rk, hk⟩, _⟩ := h2 s hs
    exact ht.counted hk.count
  · obtain ⟨s1, h1, _, h2⟩ := DepthFirstSearch.dfs_run_tidy size start goal obs heuristic
      diagonals cutCorners fuel hstart
    refine ⟨s1, h1, fun s hs => ?_⟩
    obtain ⟨ht, ⟨_, rk, hk⟩, _⟩ := h2 s hs
    exact ht.counted hk.count

/-- C38 for Depth-First on the 3 x 2 board from (0,0) to (2,1) with the obstacle (1,0),
diagonals enabled: after `init` and one `nextStep` call three nodes are opened, none is
closed, the stack holds the three of them, and the counters agree with the board. -/
theorem C38_counters_and_frontier_witness :
    ∃ s1 s2,
      DepthFirstSearch.init
        (setObstacles (DepthFirstSearch.create (3, 2) (0, 0) (2, 1)) [((1, 0), true)])
        Heuristic.Manhattan true true = some s1 ∧
      DepthFirstSearch.nextStep 10 s1 = some (false, s2) ∧
      s2.nodesOpened = 3 ∧ s2.nodesClosed = 0 ∧ s2.m_openNodes = [(0, 0), (0, 1), (1, 1)] ∧
      (s2.nodesOpened = s2.nodesClosed + s2.m_openNodes.length ∧
        s2.nodesOpened =
          (s2.m_board.allCoords.filter fun c => (s2.m_board.m_nodes c).opened).length ∧
        s2.m_openNodes.Nodup ∧
        ∀ c, (s2.m_board.m_nodes c).opened = true →
          s2.m_board.isValidNode c = true ∧ (s2.m_board.m_nodes c).obstacle = false ∧
            isObstacle s2 c = false) :=
  let ⟨s1, h1, h2⟩ := (C38_counters_and_frontier intEnv intEnv_sortPermutes (3, 2) (0, 0)
    (2, 1) [((1, 0), true)] Heuristic.Manhattan true true 10
    ⟨by decide, by decide, by decide, by decide⟩).2.2.2
  have hr : ∃ s2, DepthFirstSearch.nextStep 10 s1 = some (false, s2) ∧
      s2.nodesOpened = 3 ∧ s2.nodesClosed = 0 ∧
      s2.m_openNodes = [(0, 0), (0, 1), (1, 1)] := by
    have e : s1 = pushOpen (initBase NodeBase.init
        (setObstacles (DepthFirstSearch.create (3, 2) (0, 0) (2, 1)) [((1, 0), true)])
        Heuristic.Manhattan true true) (0, 0) none := by
      have := h1.symm
      rw [DepthFirstSearch.dfs_init_eq, if_pos (by decide)] at this
      exact Option.some.inj this
    subst e
    exact ⟨_, rfl, rfl, rfl, rfl⟩
  let ⟨s2, h3, h4, h5, h6⟩ := hr
  ⟨s1, s2, h1, h3, h4, h5, h6, h2 s2 (Relation.ReflTransGen.single ⟨false, h3⟩)⟩

/-- C39: for every variant, on every (well-formed) board whose start is in bounds and is
its goal, whatever the obstacles, the heuristic, the movement settings and the state of the
instance before: `init` succeeds, the first call of `nextStep` after it returns true, the
solution is then the single coordinate of the start, and `getSolutionDistance()` is 0.
(`storeSolution` walks one node, so any positive fuel is enough.) -/
theorem C39_start_equals_goal {α : Type} (A : Env α) (hA : A.SortPermutes)
    (heuristic : Heuristic) (diagonals cutCorners : Bool) (fuel : Nat) (hfuel : 0 < fuel) :
    (∀ s0 : AStar.State α, s0.m_board.WellFormed →
      s0.m_board.isValidNode s0.m_board.m_start = true →
      s0.m_board.m_start = s0.m_board.m_goal →
      ∃ s1 s', AStar.init A s0 heuristic diagonals cutCorners = some s1 ∧
        AStar.nextStep A fuel s1 = some (true, s') ∧
        s'.solution = [s0.m_board.m_start] ∧ getSolutionDistance s' = 0) ∧
    (∀ s0 : BestFirstSearch.State α, s0.m_board.WellFormed →
      s0.m_board.isValidNode s0.m_board.m_start = true →
      s0.m_board.m_start = s0.m_board.m_goal →
      ∃ s1 s', BestFirstSearch.init A s0 heuristic diagonals cutCorners = some s1 ∧
        BestFirstSearch.nextStep A fuel s1 = some (true, s') ∧
        s'.solution = [s0.m_board.m_start] ∧ getSolutionDistance s' = 0) ∧
    (∀ s0 : BreadthFirstSearch.State, s0.m_board.WellFormed →
      s0.m_board.isValidNode s0.m_board.m_start = true →
      s0.m_board.m_start = s0.m_board.m_goal →
      ∃ s1 s', BreadthFirstSearch.init s0 heuristic diagonals cutCorners = some s1 ∧
        BreadthFirstSearch.nextStep fuel s1 = some (true, s') ∧
        s'.solution = [s0.m_board.m_start] ∧ getSolutionDistance s' = 0) ∧
    (∀ s0 : DepthFirstSearch.State, s0.m_board.WellFormed →
      s0.m_board.isValidNode s0.m_board.m_start = true →
      s0.m_board.m_start = s0.m_board.m_goal →
      ∃ s1 s', DepthFirstSearch.init s0 heuristic diagonals cutCorners = some s1 ∧
        DepthFirstSearch.nextStep fuel s1 = some (true, s') ∧
        s'.solution = [s0.m_board.m_start] ∧ getSolutionDistance s' = 0) :=
  ⟨fun s0 hw hv hsg =>
      AStar.astar_start_goal A hA s0 hw hv hsg heuristic diagonals cutCorners fuel hfuel,
    fun s0 hw hv hsg =>
      BestFirstSearch.bestFirst_start_goal A hA s0 hw hv hsg heuristic diagonals cutCorners
        fuel hfuel,
    fun s0 hw hv hsg =>
      BreadthFirstSearch.bfs_start_goal s0 hw hv hsg heuristic diagonals cutCorners fuel hfuel,
    fun s0 hw hv hsg =>
      DepthFirstSearch.dfs_start_goal s0 hw hv hsg heuristic diagonals cutCorners fuel hfuel⟩

/-- C39 on a 3 x 3 board with the start and the goal at (1,1) and an obstacle at (0,0), for
A* and for Depth-First, and the A* run evaluated. -/
theorem C39_start_equals_goal_witness :
    (∃ s1 s', AStar.init intEnv (setObstacle (AStar.create intEnv (3, 3) (1, 1) (1, 1))
          (0, 0) true) Heuristic.Manhattan true true = some s1 ∧
        AStar.nextStep intEnv 1 s1 = some (true, s') ∧
        s'.solution = [(1, 1)] ∧ getSolutionDistance s' = 0) ∧
    (∃ s1 s', DepthFirstSearch.init (setObstacle (DepthFirstSearch.create (3, 3) (1, 1) (1, 1))
          (0, 0) true) Heuristic.Manhattan true true = some s1 ∧
        DepthFirstSearch.nextStep 1 s1 = some (true, s') ∧
        s'.solution = [(1, 1)] ∧ getSolutionDistance s' = 0) ∧
    ((AStar.init intEnv (setObstacle (AStar.create intEnv (3, 3) (1, 1) (1, 1)) (0, 0) true)
        Heuristic.Manhattan true true).bind (AStar.nextStep intEnv 1)).map
      (fun r => (r.1, r.2.solution)) = some (true, [(1, 1)]) :=
  ⟨(C39_start_equals_goal intEnv intEnv_sortPermutes Heuristic.Manhattan true true 1
      (by decide)).1 (setObstacle (AStar.create intEnv (3, 3) (1, 1) (1, 1)) (0, 0) true)
      (Board.wellFormed_setObstacle _ (Board.wellFormed_create _ _ _ _) _ _) rfl rfl,
   (C39_start_equals_goal intEnv intEnv_sortPermutes Heuristic.Manhattan true true 1
      (by decide)).2.2.2 (setObstacle (DepthFirstSearch.create (3, 3) (1, 1) (1, 1)) (0, 0) true)
      (Board.wellFormed_setObstacle _ (Board.wellFormed_create _ _ _ _) _ _) rfl rfl,
   rfl⟩

/-- C40: A* cost consistency. For every board size, in-bounds start, sequence of
`setObstacle` calls on the freshly constructed A* instance and arguments of `init`, when no
sum computed on the board reaches `max` (`CostBound`): in every state reached from the
state `init` leaves by any number of `nextStep` calls, every opened node `n` other than the
start has a parent `p` that is closed, `n.g = p.g + distance(p.position, n.position)` and
`n.h = distance(n.position, goal)`; and when `complete` returns with a non-empty solution,
the solution starts with the goal and the `g` of the goal is the sum of the step costs
along the solution. -/
theorem C40_astar_cost_consistency {α : Type} (A : Env α) (hA : A.SortPermutes)
    (size start goal : Coordinate) (obs : List (Coordinate × Bool)) (heuristic : Heuristic)
    (diagonals cutCorners : Bool) (fuel : Nat) (hstart : InBounds size start)
    (S : Nat → α → Prop) (hS : AStar.CostBound A heuristic size goal S) :
    ∃ s1, AStar.init A (setObstacles (AStar.create A size start goal) obs) heuristic
        diagonals cutCorners = some s1 ∧
      (∀ s, Reachable (AStar.nextStep A fuel) s1 s →
        ∀ n, (s.m_board.m_nodes n).opened = true → n ≠ start →
          ∃ p, (s.m_board.m_nodes n).parent = some p ∧
            (s.m_board.m_nodes p).ext.closed = true ∧
            (s.m_board.m_nodes p).position = p ∧ (s.m_board.m_nodes n).position = n ∧
            (s.m_board.m_nodes n).ext.g =
              A.add (s.m_board.m_nodes p).ext.g (distance A heuristic p n) ∧
            (s.m_board.m_nodes n).ext.h = distance A heuristic n goal) ∧
      (∀ k s', complete (AStar.nextStep A fuel) k s1 = some s' → s'.solution ≠ [] →
        s'.solution.head? = some goal ∧
        (s'.m_board.m_nodes goal).ext.g = AStar.pathCost A heuristic s'.solution) := by
  obtain ⟨s1, h1, h0, h2⟩ := AStar.astar_run_costs A hA size start goal obs heuristic
    diagonals cutCorners fuel hstart S hS
  have hp := (AStar.astar_pristineA_create A size start goal).pristineA_setObstacles obs
  have hw := hp.1.2.1
  obtain ⟨_, b2, b3, _, _⟩ := setObstacles_board (AStar.create A size start goal) obs
    size start goal rfl rfl rfl
  have facts : ∀ s, Reachable (AStar.nextStep A fuel) s1 s →
      (∀ c, (setObstacles (AStar.create A size start goal) obs).m_board.isValidNode c = true →
        (s.m_board.m_nodes c).position = c) ∧
      (∀ c p, (s.m_board.m_nodes c).parent = some p →
        (setObstacles (AStar.create A size start goal) obs).m_board.isValidNode c = true →
        (setObstacles (AStar.create A size start goal) obs).m_board.isValidNode p = true ∧
        (s.m_board.m_nodes p).ext.closed = true ∧
        (s.m_board.m_nodes c).ext.g =
          A.add (s.m_board.m_nodes p).ext.g (distance A heuristic p c) ∧
        (s.m_board.m_nodes c).ext.h = distance A heuristic c goal) ∧
      (∀ c, (s.m_board.m_nodes c).parent = none → (s.m_board.m_nodes c).opened = true →
        c = start) := by
    intro s hs
    obtain ⟨ht, ⟨hr, rk, hk⟩, hc⟩ := h2 s hs
    have hpos : ∀ c, (setObstacles (AStar.create A size start goal)
        obs).m_board.isValidNode c = true → (s.m_board.m_nodes c).position = c := by
      intro c hv
      rw [(ht.grid.2.2.2 c).2]
      exact hw c hv
    refine ⟨hpos, fun c p hpar hv => ?_, fun c hpar ho => ?_⟩
    · obtain ⟨e1, e2, e3⟩ := hc.cost c p hpar
      have hvp := (ht.opened_ok p (ht.moves c p hpar).1).1
      have hg : s.m_board.getGoal = goal := ht.grid.2.2.1.trans b3
      rw [hpos c hv, hpos p hvp] at e2
      rw [hpos c hv, hg] at e3
      exact ⟨hvp, e1, e2, e3⟩
    · have e : c = s.m_board.m_start := hk.root c ho hpar
      rw [e]
      exact ht.grid.2.1.trans b2
  refine ⟨s1, h1, fun s hs n ho hne => ?_, fun k s' hk hsol => ?_⟩
  · obtain ⟨f1, f2, f3⟩ := facts s hs
    obtain ⟨ht, _, _⟩ := h2 s hs
    have hv := (ht.opened_ok n ho).1
    cases hpar : (s.m_board.m_nodes n).parent with
    | none => exact absurd (f3 n hpar ho) hne
    | some p =>
      obtain ⟨hvp, e1, e2, e3⟩ := f2 n p hpar hv
      exact ⟨p, rfl, e1, f1 p hvp, f1 n hv, e2, e3⟩
  · obtain ⟨hr, hl⟩ := complete_solution (AStar.nextStep A fuel) fuel
      (AStar.astar_nextStep_sol A hA fuel)
      (fun s s' hf h => by
        rw [AStar.astar_nextStep_nil A fuel s hf] at h
        cases h
        rfl) s1 h0 k s' hk hsol
    obtain ⟨f1, f2, f3⟩ := facts s' hr
    obtain ⟨ht, _, hc⟩ := h2 s' hr
    have hgs : s'.m_board.m_goal = goal := ht.grid.2.2.1.trans b3
    by_cases hvg : (setObstacles (AStar.create A size start goal) obs).m_board.isValidNode
        goal = true
    · have hgn : getGoalNode s' = some goal := by
        unfold getGoalNode Board.getGoalNode
        rw [hgs, ht.grid.isValidNode, if_pos hvg]
      rw [hgn] at hl
      obtain ⟨path, e1, e2, e3⟩ := AStar.storeSolutionLoop_cost A heuristic s'.m_board
        (fun c => (setObstacles (AStar.create A size start goal) obs).m_board.isValidNode c =
          true)
        f1
        (fun c p hv hpar => ⟨(f2 c p hpar hv).1, (f2 c p hpar hv).2.2.1⟩)
        (fun c _ hpar => by
          cases ho : (s'.m_board.m_nodes c).opened with
          | true =>
            rw [f3 c hpar ho, ← b2]
            exact hc.start_g
          | false => exact (hc.fresh c ho).2)
        fuel goal [] s'.solution hvg hl
      rw [List.nil_append] at e1
      rw [e1]
      exact ⟨e2, e3⟩
    · have hgn : getGoalNode s' = none := by
        unfold getGoalNode Board.getGoalNode
        rw [hgs, ht.grid.isValidNode, if_neg hvg]
      rw [hgn] at hl
      have : s'.solution = [] := by
        cases fuel <;> exact (Option.some.inj hl).symm
      exact absurd this hsol

/-- C40 for A* in the integer interpretation on the 4 x 2 board from (3,1) to (0,0) with the
obstacle (1,0), Manhattan heuristic, diagonals and cutCorners enabled: after `init` and two
`nextStep` calls the node (1,1) has the closed parent (2,0), `g = 2 + 2` and `h = 2`; the
run ends with the solution (0,0), (1,1), (2,1), (3,1), whose step costs 1, 1 and 2 add up
to the `g` of the goal, 4. -/
theorem C40_astar_cost_consistency_witness :
    ∃ s1 s3 s',
      AStar.init intEnv (setObstacles (AStar.create intEnv (4, 2) (3, 1) (0, 0))
        [((1, 0), true)]) Heuristic.Manhattan true true = some s1 ∧
      Reachable (AStar.nextStep intEnv 10) s1 s3 ∧
      (∃ p, (s3.m_board.m_nodes (1, 1)).parent = some p ∧
        (s3.m_board.m_nodes p).ext.closed = true ∧
        (s3.m_board.m_nodes p).position = p ∧ (s3.m_board.m_nodes (1, 1)).position = (1, 1) ∧
        (s3.m_board.m_nodes (1, 1)).ext.g =
          intEnv.add (s3.m_board.m_nodes p).ext.g
            (distance intEnv Heuristic.Manhattan p (1, 1)) ∧
        (s3.m_board.m_nodes (1, 1)).ext.h =
          distance intEnv Heuristic.Manhattan (1, 1) (0, 0)) ∧
      (s3.m_board.m_nodes (1, 1)).parent = some (2, 0) ∧
      (s3.m_board.m_nodes (1, 1)).ext.g = 4 ∧
      complete (AStar.nextStep intEnv 10) 10 s1 = some s' ∧
      s'.solution = [(0, 0), (1, 1), (2, 1), (3, 1)] ∧
      (s'.m_board.m_nodes (0, 0)).ext.g = AStar.pathCost intEnv Heuristic.Manhattan s'.solution ∧
      (s'.m_board.m_nodes (0, 0)).ext.g = 4 :=
  let ⟨s1, h1, h2, h3⟩ := C40_astar_cost_consistency intEnv intEnv_sortPermutes (4, 2) (3, 1)
    (0, 0) [((1, 0), true)] Heuristic.Manhattan true true 10
    ⟨by decide, by decide, by decide, by decide⟩ (fun k x => 0 ≤ x ∧ x ≤ 2 * (k : Int))
    (AStar.intEnv_costBound Heuristic.Manhattan (4, 2) (0, 0)
      ⟨by decide, by decide, by decide, by decide⟩ (by norm_num))
  have hr : ∃ s2 s3 s', AStar.nextStep intEnv 10 s1 = some (false, s2) ∧
      AStar.nextStep intEnv 10 s2 = some (false, s3) ∧
      (s3.m_board.m_nodes (1, 1)).opened = true ∧
      (s3.m_board.m_nodes (1, 1)).parent = some (2, 0) ∧
      (s3.m_board.m_nodes (1, 1)).ext.g = 4 ∧
      complete (AStar.nextStep intEnv 10) 10 s1 = some s' ∧
      s'.solution = [(0, 0), (1, 1), (2, 1), (3, 1)] ∧
      (s'.m_board.m_nodes (0, 0)).ext.g = 4 := by
    have e : s1 = pushOpen (initBase (AStar.Node.init intEnv)
        (setObstacles (AStar.create intEnv (4, 2) (3, 1) (0, 0)) [((1, 0), true)])
        Heuristic.Manhattan true true) (3, 1) none := by
      have := h1.symm
      rw [AStar.astar_init_eq, if_pos (by decide)] at this
      exact Option.some.inj this
    subst e
    exact ⟨_, _, _, rfl, rfl, rfl, rfl, rfl, rfl, rfl, rfl⟩
  let ⟨s2, s3, s', e1, e2, e3, e4, e5, e6, e7, e8⟩ := hr
  have hreach : Reachable (AStar.nextStep intEnv 10) s1 s3 :=
    Relation.ReflTransGen.tail (Relation.ReflTransGen.single ⟨false, e1⟩) ⟨false, e2⟩
  ⟨s1, s3, s', h1, hreach, h2 s3 hreach (1, 1) e3 (by decide), e4, e5, e6, e7,
    (h3 10 s' e6 (by rw [e7]; simp)).2, e8⟩

end PathFinding
